import Mathlib

/-!
# The Lua 5.4 garbage collector core (`lgc.c`, `lgc.h`, `lstate.h`)

A shallow embedding of the collector.  Memory is a partial map from addresses
to collectable objects; every C function that dereferences a pointer becomes a
function into `Option` (`none` stands for a dereference of `NULL` or of freed
memory, or for a loop that did not finish within its fuel).  `lua_assert` and
`check_exp` are compiled out in a production build and are not part of the
embedded behaviour; where they document a precondition it is stated as a
hypothesis of the theorems.
-/

namespace LuaGC

/-! ## Values and objects (`lobject.h` is not among the sources) -/

/-- An address of a collectable object (`GCObject *`); `NULL` is `none`. -/
abbrev Addr := Nat

/-- Modelled from the spec: the closed universe of collectable kinds, the
variant tags `LUA_V*` of `lobject.h` (string-short, string-long, table,
closure-interpreted, closure-native, userdata, proto, upvalue, thread). -/
inductive Tag where
  | LUA_VSHRSTR
  | LUA_VLNGSTR
  | LUA_VTABLE
  | LUA_VLCL
  | LUA_VCCL
  | LUA_VUSERDATA
  | LUA_VPROTO
  | LUA_VUPVAL
  | LUA_VTHREAD
  deriving DecidableEq, Repr

/-- Modelled from the spec: `novariant(tt)`, the basic type number of a tag
(`LUA_TSTRING` = 4, ..., `LUA_TUPVAL` = 9, `LUA_TPROTO` = 10). -/
def novariant : Tag → Nat
  | .LUA_VSHRSTR => 4
  | .LUA_VLNGSTR => 4
  | .LUA_VTABLE => 5
  | .LUA_VLCL => 6
  | .LUA_VCCL => 6
  | .LUA_VUSERDATA => 7
  | .LUA_VTHREAD => 8
  | .LUA_VUPVAL => 9
  | .LUA_VPROTO => 10

def LUA_TSTRING : Nat := 4

/-- Modelled from the spec: a tagged value slot (`TValue`).  `nil` is
`LUA_VNIL`, `empty` is `LUA_VEMPTY`, `prim` stands for every non-collectable
value, `gc` is a collectable value with its tag and its object pointer. -/
inductive TValue where
  | nil
  | empty
  | prim (n : Int)
  | gc (tt : Tag) (o : Addr)
  deriving DecidableEq, Repr

/-- Modelled from the spec: the key half of a hash node; `dead` is a key
tagged `LUA_TDEADKEY`, which keeps its pointer but is no longer collectable. -/
inductive Key where
  | nil
  | prim (n : Int)
  | gc (tt : Tag) (o : Addr)
  | dead (o : Addr)
  deriving DecidableEq, Repr

/-- A hash node of a table: `gval(n)` and the key fields. -/
structure Node where
  i_val : TValue
  key : Key
  deriving DecidableEq, Repr

/-- Macro `iscollectable(o)`. -/
def iscollectable : TValue → Bool
  | .gc _ _ => true
  | _ => false

/-- Macro `gcvalueN(o)`: the object of a collectable value, else `NULL`. -/
def gcvalueN : TValue → Option Addr
  | .gc _ o => some o
  | _ => none

/-- Macro `isempty(v)`: any variant of nil. -/
def isempty : TValue → Bool
  | .nil => true
  | .empty => true
  | _ => false

/-- Macro `keyiscollectable(n)`. -/
def keyiscollectable (n : Node) : Bool :=
  match n.key with
  | .gc _ _ => true
  | _ => false

/-- Macro `gckeyN(n)`. -/
def gckeyN (n : Node) : Option Addr :=
  match n.key with
  | .gc _ o => some o
  | _ => none

/-- Macro `setdeadkey(n)`: retag the key, keeping its pointer. -/
def setdeadkey (n : Node) : Node :=
  match n.key with
  | .gc _ o => { n with key := .dead o }
  | _ => n

/-- Macro `setempty(gval(n))`. -/
def Node.setempty (n : Node) : Node := { n with i_val := .empty }

/-- Where `uv->v.p` of an upvalue points: at its own `u.value` (closed) or at
slot `idx` of the stack of thread `th` (open). -/
inductive UpValRef where
  | closed
  | stack (th : Addr) (idx : Nat)
  deriving DecidableEq, Repr

/-- A pointer to a pointer to an upvalue (`UpVal **`, field
`u.open.previous`): the `openupval` field of a thread or the `u.open.next`
field of another upvalue. -/
inductive UpValLink where
  | openupval (th : Addr)
  | open_next (uv : Addr)
  deriving DecidableEq, Repr

/-- A collectable object: the common header followed by the fields of the
members of `union GCUnion` that the collector reads or writes.  Which fields
are meaningful is decided by `tt`, as in C.  Lengths of the embedded arrays
play the role of the C size fields (`nuvalue`, `nupvalues`, `sizek`, ...). -/
structure GCObject where
  /-- CommonHeader -/
  next : Option Addr
  tt : Tag
  marked : Nat
  /-- Table, LClosure, CClosure, Proto, Udata, lua_State -/
  gclist : Option Addr
  /-- TString: the characters of the string -/
  contents : List Char
  /-- Table and Udata -/
  metatable : Option Addr
  /-- Table -/
  alimit : Nat
  array : List TValue
  node : List Node
  isdummy : Bool
  tm_gc : Option TValue
  tm_mode : Option TValue
  /-- Udata: user values -/
  uv : List TValue
  /-- LClosure: prototype and upvalues -/
  cl_p : Option Addr
  upvals : List (Option Addr)
  /-- CClosure: captured values -/
  upvalue : List TValue
  /-- Proto -/
  source : Option Addr
  k : List TValue
  upvalues : List (Option Addr)
  p : List (Option Addr)
  locvars : List (Option Addr)
  /-- UpVal -/
  v : UpValRef
  value : TValue
  open_next : Option Addr
  open_previous : Option UpValLink
  /-- lua_State -/
  stack : Option (List TValue)
  top : Nat
  stack_last : Nat
  openupval : Option Addr
  twups : Option Addr
  allowhook : Nat
  callstatus : Nat
  /-- bytes given back to the allocator when the object is freed -/
  memsize : Nat
  deriving DecidableEq, Repr

/-- A pointer to a list link (`GCObject **`): the address of one of the list
heads of the global state or of the `next` field of an object. -/
inductive GCRef where
  | allgc
  | finobj
  | tobefnz
  | next (o : Addr)
  deriving DecidableEq, Repr

/-- The gray work lists of the global state (`&g->gray`, ...). -/
inductive GrayList where
  | gray
  | grayagain
  | weak
  | allweak
  | ephemeron
  deriving DecidableEq, Repr

/-- The memory holding the collectable objects. -/
abbrev Heap := Addr → Option GCObject

/-- The `global_State` of `lstate.h` (the fields used by the collector), together
with the memory `heap` its pointers refer to.  `strt_nuse` and `strt_size`
are the counters of the string table, `nwarn` counts the warnings emitted. -/
structure global_State where
  heap : Heap
  totalbytes : Int
  GCdebt : Int
  GCestimate : Nat
  lastatomic : Nat
  strt_nuse : Int
  strt_size : Int
  l_registry : TValue
  currentwhite : Nat
  gcstate : Nat
  gckind : Nat
  gcstopem : Nat
  genminormul : Nat
  genmajormul : Nat
  gcstp : Nat
  gcemergency : Nat
  gcpause : Nat
  gcstepmul : Nat
  gcstepsize : Nat
  allgc : Option Addr
  sweepgc : Option GCRef
  finobj : Option Addr
  gray : Option Addr
  grayagain : Option Addr
  weak : Option Addr
  ephemeron : Option Addr
  allweak : Option Addr
  tobefnz : Option Addr
  fixedgc : Option Addr
  survival : Option Addr
  old1 : Option Addr
  reallyold : Option Addr
  firstold1 : Option Addr
  finobjsur : Option Addr
  finobjold1 : Option Addr
  finobjrold : Option Addr
  twups : Option Addr
  mainthread : Addr
  memerrmsg : Option Addr
  mt : List (Option Addr)
  strcache : List (Option Addr)
  nwarn : Nat

/-! ## Memory access -/

def Heap.set (h : Heap) (a : Addr) (o : GCObject) : Heap :=
  fun x => if x = a then some o else h x

def Heap.free (h : Heap) (a : Addr) : Heap :=
  fun x => if x = a then none else h x

/-- Store an object at an address. -/
def global_State.setobj (g : global_State) (a : Addr) (o : GCObject) : global_State :=
  { g with heap := g.heap.set a o }

/-- Read through a list link: `*p`. -/
def global_State.load (g : global_State) : GCRef → Option (Option Addr)
  | .allgc => some g.allgc
  | .finobj => some g.finobj
  | .tobefnz => some g.tobefnz
  | .next o => (g.heap o).map (fun x => x.next)

/-- Write through a list link: `*p = v`. -/
def global_State.store (g : global_State) (p : GCRef) (v : Option Addr) : Option global_State :=
  match p with
  | .allgc => some { g with allgc := v }
  | .finobj => some { g with finobj := v }
  | .tobefnz => some { g with tobefnz := v }
  | .next o => (g.heap o).map (fun x => g.setobj o { x with next := v })

/-- Read a gray list head. -/
def global_State.getlist (g : global_State) : GrayList → Option Addr
  | .gray => g.gray
  | .grayagain => g.grayagain
  | .weak => g.weak
  | .allweak => g.allweak
  | .ephemeron => g.ephemeron

/-- Write a gray list head. -/
def global_State.setlist (g : global_State) (l : GrayList) (v : Option Addr) : global_State :=
  match l with
  | .gray => { g with gray := v }
  | .grayagain => { g with grayagain := v }
  | .weak => { g with weak := v }
  | .allweak => { g with allweak := v }
  | .ephemeron => { g with ephemeron := v }

/-! ## `lgc.h` -/

def GCSpropagate : Nat := 0
def GCSenteratomic : Nat := 1
def GCSatomic : Nat := 2
def GCSswpallgc : Nat := 3
def GCSswpfinobj : Nat := 4
def GCSswptobefnz : Nat := 5
def GCSswpend : Nat := 6
def GCScallfin : Nat := 7
def GCSpause : Nat := 8

def issweepphase (g : global_State) : Bool :=
  GCSswpallgc ≤ g.gcstate && g.gcstate ≤ GCSswpend

def keepinvariant (g : global_State) : Bool := g.gcstate ≤ GCSatomic

/-- Truncation to `lu_byte`. -/
def cast_byte (x : Nat) : Nat := x % 256

/-- The complement `~m` of a mask, within the eight bits of a `lu_byte`. -/
def bnot8 (m : Nat) : Nat := 255 ^^^ m

def resetbits (x m : Nat) : Nat := x &&& cast_byte (bnot8 m)
def setbits (x m : Nat) : Nat := x ||| m
def testbits (x m : Nat) : Nat := x &&& m
def bitmask (b : Nat) : Nat := 1 <<< b
def bit2mask (b1 b2 : Nat) : Nat := bitmask b1 ||| bitmask b2
def l_setbit (x b : Nat) : Nat := setbits x (bitmask b)
def resetbit (x b : Nat) : Nat := resetbits x (bitmask b)
def testbit (x b : Nat) : Nat := testbits x (bitmask b)

def WHITE0BIT : Nat := 3
def WHITE1BIT : Nat := 4
def BLACKBIT : Nat := 5
def FINALIZEDBIT : Nat := 6
def TESTBIT : Nat := 7
def WHITEBITS : Nat := bit2mask WHITE0BIT WHITE1BIT

/-- The colour tests, on the `marked` byte of an object. -/
def iswhite (m : Nat) : Bool := testbits m WHITEBITS != 0
def isblack (m : Nat) : Bool := testbit m BLACKBIT != 0
def isgray (m : Nat) : Bool := testbits m (WHITEBITS ||| bitmask BLACKBIT) == 0
def tofinalize (m : Nat) : Bool := testbit m FINALIZEDBIT != 0

def otherwhite (g : global_State) : Nat := g.currentwhite ^^^ WHITEBITS
def isdeadm (ow m : Nat) : Bool := (m &&& ow) != 0
def isdead (g : global_State) (m : Nat) : Bool := isdeadm (otherwhite g) m
def changewhite (m : Nat) : Nat := m ^^^ WHITEBITS
def nw2black (m : Nat) : Nat := l_setbit m BLACKBIT
def luaC_white (g : global_State) : Nat := cast_byte (g.currentwhite &&& WHITEBITS)

def G_NEW : Nat := 0
def G_SURVIVAL : Nat := 1
def G_OLD0 : Nat := 2
def G_OLD1 : Nat := 3
def G_OLD : Nat := 4
def G_TOUCHED1 : Nat := 5
def G_TOUCHED2 : Nat := 6
def AGEBITS : Nat := 7

def getage (m : Nat) : Nat := m &&& AGEBITS
def setage (m a : Nat) : Nat := cast_byte ((m &&& bnot8 AGEBITS) ||| a)
def isold (m : Nat) : Bool := decide (getage m > G_SURVIVAL)
def changeage (m f t : Nat) : Nat := m ^^^ (f ^^^ t)

def getgcparam (p : Nat) : Nat := p * 4

def GCSTPUSR : Nat := 1
def GCSTPGC : Nat := 2
def GCSTPCLS : Nat := 4
def gcrunning (g : global_State) : Bool := g.gcstp == 0

def KGC_INC : Nat := 0
def KGC_GEN : Nat := 1

def isdecGCmodegen (g : global_State) : Bool :=
  g.gckind == KGC_GEN || g.lastatomic != 0

/-! ## `lgc.c`: constants and colour macros -/

def GCSWEEPMAX : Nat := 100
def GCFINMAX : Nat := 10
def GCFINALIZECOST : Nat := 50
def PAUSEADJ : Nat := 100

def maskcolors : Nat := bitmask BLACKBIT ||| WHITEBITS
def maskgcbits : Nat := maskcolors ||| AGEBITS

/-- Erase all colour bits, then set only the current white bit. -/
def makewhite (g : global_State) (m : Nat) : Nat :=
  cast_byte ((m &&& bnot8 maskcolors) ||| luaC_white g)

/-- Make a mark gray (neither white nor black). -/
def set2gray (m : Nat) : Nat := resetbits m maskcolors

/-- Make a mark black (coming from any colour). -/
def set2black (m : Nat) : Nat :=
  cast_byte ((m &&& bnot8 WHITEBITS) ||| bitmask BLACKBIT)

/-! ## `lgc.c`: generic functions -/

/-- The address of the `gclist` field of an object, represented by the
address of its owner; `NULL` for the kinds that have no such field. -/
def getgclist (a : Addr) (o : GCObject) : Option Addr :=
  match o.tt with
  | .LUA_VTABLE => some a
  | .LUA_VLCL => some a
  | .LUA_VCCL => some a
  | .LUA_VTHREAD => some a
  | .LUA_VPROTO => some a
  | .LUA_VUSERDATA => some a
  | _ => none

/-- Link object `o`, whose `gclist` field is at `pnext`, into a gray list and
paint it gray: `*pnext = *list; *list = o; set2gray(o)`. -/
def linkgclist_ (g : global_State) (o : Addr) (pnext : Option Addr) (list : GrayList) :
    Option global_State := do
  let pn ← pnext
  let x ← g.heap pn
  let g1 := (g.setobj pn { x with gclist := g.getlist list }).setlist list (some o)
  let y ← g1.heap o
  some (g1.setobj o { y with marked := set2gray y.marked })

/-- Macro `linkgclist(o,p)`, for an object of a known kind. -/
def linkgclist (g : global_State) (o : Addr) (list : GrayList) : Option global_State :=
  linkgclist_ g o (some o) list

/-- Macro `linkobjgclist(o,p)`, for a generic object. -/
def linkobjgclist (g : global_State) (o : Addr) (list : GrayList) : Option global_State := do
  let x ← g.heap o
  linkgclist_ g o (getgclist o x) list

/-- Clear the key of an empty entry: a collectable key becomes a dead key. -/
def clearkey (n : Node) : Node :=
  if keyiscollectable n then setdeadkey n else n

/-- The test `upisopen(uv)`: `uv->v.p != &uv->u.value`. -/
def upisopen (uv : GCObject) : Bool := uv.v != .closed

/-- The value `*uv->v.p` an upvalue refers to. -/
def global_State.upvalue_v (g : global_State) (uv : GCObject) : Option TValue :=
  match uv.v with
  | .closed => some uv.value
  | .stack th idx => do
    let t ← g.heap th
    let s ← t.stack
    s.get? idx

/-- Mark a white object, with the marking function to use for its referents. -/
def markobject_with (mark : global_State → Addr → Option global_State)
    (g : global_State) (t : Addr) : Option global_State := do
  let x ← g.heap t
  if iswhite x.marked then mark g t else some g

/-- The recursion of `reallymarkobject`, with its depth as fuel. -/
def markrec : Nat → global_State → Addr → Option global_State
  | 0, _, _ => none
  | fuel + 1, g, o => do
    let x ← g.heap o
    match x.tt with
    | .LUA_VSHRSTR => some (g.setobj o { x with marked := set2black x.marked })
    | .LUA_VLNGSTR => some (g.setobj o { x with marked := set2black x.marked })
    | .LUA_VUPVAL =>
      let m := if upisopen x then set2gray x.marked else set2black x.marked
      let g1 := g.setobj o { x with marked := m }
      match g1.upvalue_v x with
      | none => none
      | some (.gc _ r) => markobject_with (markrec fuel) g1 r
      | some _ => some g1
    | .LUA_VUSERDATA =>
      if x.uv.length = 0 then do
        let g1 ← match x.metatable with
          | none => some g
          | some mt => markobject_with (markrec fuel) g mt
        let y ← g1.heap o
        some (g1.setobj o { y with marked := set2black y.marked })
      else linkobjgclist g o .gray
    | _ => linkobjgclist g o .gray

/-- Mark an object.  The C recursion "goes for at most two levels", because an
upvalue cannot refer to another upvalue and the metatable of a userdata is a
table; a deeper recursion is outside the typed heaps and yields `none`. -/
def reallymarkobject (g : global_State) (o : Addr) : Option global_State :=
  markrec 3 g o

/-- Macro `markobject(g,t)`. -/
def markobject (g : global_State) (t : Addr) : Option global_State :=
  markobject_with reallymarkobject g t

/-- Macro `markvalue(g,o)`. -/
def markvalue (g : global_State) (o : TValue) : Option global_State :=
  match o with
  | .gc _ r => markobject g r
  | _ => some g

/-- Macro `markkey(g,n)`. -/
def markkey (g : global_State) (n : Node) : Option global_State :=
  match n.key with
  | .gc _ r => markobject g r
  | _ => some g

/-- Macro `markobjectN(g,t)`, for a pointer that can be `NULL`. -/
def markobjectN (g : global_State) (t : Option Addr) : Option global_State :=
  match t with
  | none => some g
  | some a => markobject g a

/-- Tell whether a key or value can be cleared from a weak table; strings are
marked here, as they are values. -/
def iscleared (g : global_State) (o : Option Addr) : Option (global_State × Bool) :=
  match o with
  | none => some (g, false)
  | some a => do
    let x ← g.heap a
    if novariant x.tt = LUA_TSTRING then do
      let g1 ← markobject g a
      some (g1, false)
    else some (g, iswhite x.marked)

/-- Forward barrier: black `o` is about to point to white `v`. -/
def luaC_barrier_ (g : global_State) (o v : Addr) : Option global_State :=
  if keepinvariant g then do
    let g1 ← reallymarkobject g v
    let oo ← g1.heap o
    if isold oo.marked then do
      let vv ← g1.heap v
      some (g1.setobj v { vv with marked := setage vv.marked G_OLD0 })
    else some g1
  else
    if g.gckind = KGC_INC then do
      let oo ← g.heap o
      some (g.setobj o { oo with marked := makewhite g oo.marked })
    else some g

/-- Backward barrier: black `o` goes back to gray. -/
def luaC_barrierback_ (g : global_State) (o : Addr) : Option global_State := do
  let oo ← g.heap o
  let g1 ← if getage oo.marked = G_TOUCHED2
    then some (g.setobj o { oo with marked := set2gray oo.marked })
    else linkobjgclist g o .grayagain
  let o1 ← g1.heap o
  if isold o1.marked then some (g1.setobj o { o1 with marked := setage o1.marked G_TOUCHED1 })
  else some g1

/-- Move the head `o` of `allgc` to `fixedgc`. -/
def luaC_fix (g : global_State) (o : Addr) : Option global_State := do
  let oo ← g.heap o
  let g1 := g.setobj o { oo with marked := set2gray oo.marked }
  let o1 ← g1.heap o
  let g2 := g1.setobj o { o1 with marked := setage o1.marked G_OLD }
  let o2 ← g2.heap o
  let g3 := { g2 with allgc := o2.next }
  let g4 := g3.setobj o { o2 with next := g3.fixedgc }
  some { g4 with fixedgc := some o }

/-- The second half of `luaC_newobjdt`, in the state `g` in which the
allocator returned the block at address `p`, which holds `init`: the header
is written over the block and the object is linked to `allgc`. -/
def luaC_newobjdt_link (g : global_State) (tt : Tag) (p : Addr) (init : GCObject) :
    global_State :=
  let o := p
  let g2 := g.setobj o { init with marked := luaC_white g, tt := tt, next := g.allgc }
  { g2 with allgc := some o }

/-! ## `lgc.c`: mark functions

The counters of visited slots (`lu_mem`) are bounded by the number of
addressable bytes and are kept as natural numbers. -/

/-- Mark the metatables of the basic types, `g->mt[i]` for each tag `i`. -/
def markmt_loop : List (Option Addr) → global_State → Option global_State
  | [], g => some g
  | t :: rest, g => do
    let g1 ← markobjectN g t
    markmt_loop rest g1

def markmt (g : global_State) : Option global_State := markmt_loop g.mt g

/-- The loop of `markbeingfnz`, from object `o` with `count` objects seen. -/
def markbeingfnz_loop : Nat → global_State → Option Addr → Nat → Option (global_State × Nat)
  | 0, _, _, _ => none
  | _ + 1, g, none, count => some (g, count)
  | fuel + 1, g, some o, count => do
    let g1 ← markobject g o
    let x ← g1.heap o
    markbeingfnz_loop fuel g1 x.next (count + 1)

/-- Mark all objects in the list of being-finalized. -/
def markbeingfnz (fuel : Nat) (g : global_State) : Option (global_State × Nat) :=
  markbeingfnz_loop fuel g g.tobefnz 0

/-- The inner loop of `remarkupvals`, over the open upvalues of a thread. -/
def remarkupvals_uvs : Nat → global_State → Option Addr → Nat → Option (global_State × Nat)
  | 0, _, _, _ => none
  | _ + 1, g, none, work => some (g, work)
  | fuel + 1, g, some uv, work => do
    let u ← g.heap uv
    let g1 ← if !iswhite u.marked then do
        let val ← g.upvalue_v u
        markvalue g val
      else some g
    let u1 ← g1.heap uv
    remarkupvals_uvs fuel g1 u1.open_next (work + 1)

/-- Read and write through `lua_State **p`: `none` is `&g->twups`, `some th`
is `&th->twups`. -/
def global_State.load_twups (g : global_State) : Option Addr → Option (Option Addr)
  | none => some g.twups
  | some th => (g.heap th).map (fun t => t.twups)

def global_State.store_twups (g : global_State) (p : Option Addr) (v : Option Addr) :
    Option global_State :=
  match p with
  | none => some { g with twups := v }
  | some th => (g.heap th).map (fun t => g.setobj th { t with twups := v })

/-- The outer loop of `remarkupvals`, over the threads of `twups`. -/
def remarkupvals_loop : Nat → global_State → Option Addr → Nat → Option (global_State × Nat)
  | 0, _, _, _ => none
  | fuel + 1, g, p, work => do
    let cur ← g.load_twups p
    match cur with
    | none => some (g, work)
    | some thread => do
      let t ← g.heap thread
      if !iswhite t.marked && t.openupval != none then
        remarkupvals_loop fuel g (some thread) (work + 1)
      else do
        let g1 ← g.store_twups p t.twups
        let t1 ← g1.heap thread
        let g2 := g1.setobj thread { t1 with twups := some thread }
        let t2 ← g2.heap thread
        let (g3, w) ← remarkupvals_uvs fuel g2 t2.openupval (work + 1)
        remarkupvals_loop fuel g3 p w

/-- For each non-marked thread, simulate a barrier between each open upvalue
and its value, and remove the thread from `twups`. -/
def remarkupvals (fuel : Nat) (g : global_State) : Option (global_State × Nat) :=
  remarkupvals_loop fuel g none 0

def cleargraylists (g : global_State) : global_State :=
  { g with gray := none, grayagain := none, weak := none, allweak := none, ephemeron := none }

/-- Mark the root set and reset all gray lists, to start a new collection. -/
def restartcollection (fuel : Nat) (g : global_State) : Option global_State := do
  let g0 := cleargraylists g
  let g1 ← markobject g0 g0.mainthread
  let g2 ← markvalue g1 g1.l_registry
  let g3 ← markmt g2
  let (g4, _) ← markbeingfnz fuel g3
  some g4

/-! ## `lgc.c`: traverse functions -/

/-- Check whether a black object must go back to `grayagain` (generational
mode). -/
def genlink (g : global_State) (o : Addr) : Option global_State := do
  let x ← g.heap o
  if getage x.marked = G_TOUCHED1 then linkobjgclist g o .grayagain
  else if getage x.marked = G_TOUCHED2 then
    some (g.setobj o { x with marked := changeage x.marked G_TOUCHED2 G_OLD })
  else some g

/-- The hash loop of `traverseweakvalue`: node `i` of table `h`, `n` nodes
left. -/
def traverseweakvalue_loop (h : Addr) :
    Nat → Nat → global_State → Bool → Option (global_State × Bool)
  | 0, _, g, hasclears => some (g, hasclears)
  | n + 1, i, g, hasclears => do
    let t ← g.heap h
    let nd ← t.node.get? i
    if isempty nd.i_val then
      traverseweakvalue_loop h n (i + 1)
        (g.setobj h { t with node := t.node.set i (clearkey nd) }) hasclears
    else do
      let g1 ← markkey g nd
      if !hasclears then do
        let (g2, c) ← iscleared g1 (gcvalueN nd.i_val)
        traverseweakvalue_loop h n (i + 1) g2 c
      else traverseweakvalue_loop h n (i + 1) g1 hasclears

/-- Traverse a table with weak values and link it to the proper list. -/
def traverseweakvalue (g : global_State) (h : Addr) : Option global_State := do
  let t ← g.heap h
  let (g1, hasclears) ← traverseweakvalue_loop h t.node.length 0 g (decide (t.alimit > 0))
  if g1.gcstate = GCSatomic && hasclears then linkgclist g1 h .weak
  else linkgclist g1 h .grayagain

/-- The test `valiswhite(x)`. -/
def valiswhite (g : global_State) (x : TValue) : Option Bool :=
  match x with
  | .gc _ r => (g.heap r).map (fun y => iswhite y.marked)
  | _ => some false

/-- The array loop of `traverseephemeron`, over the values of the array part. -/
def traverseephemeron_array : List TValue → global_State → Bool → Option (global_State × Bool)
  | [], g, marked => some (g, marked)
  | x :: rest, g, marked => do
    let w ← valiswhite g x
    if w then do
      let r ← gcvalueN x
      let g1 ← reallymarkobject g r
      traverseephemeron_array rest g1 true
    else traverseephemeron_array rest g marked

/-- The flags of `traverseephemeron`: `marked`, `hasclears`, `hasww`. -/
structure EphFlags where
  marked : Bool
  hasclears : Bool
  hasww : Bool
  deriving DecidableEq, Repr

/-- The hash loop of `traverseephemeron`: step `i` of `nsize`, `n` steps left. -/
def traverseephemeron_loop (h : Addr) (inv : Bool) (nsize : Nat) :
    Nat → Nat → global_State → EphFlags → Option (global_State × EphFlags)
  | 0, _, g, f => some (g, f)
  | n + 1, i, g, f => do
    let t ← g.heap h
    let idx := if inv then nsize - 1 - i else i
    let nd ← t.node.get? idx
    if isempty nd.i_val then
      traverseephemeron_loop h inv nsize n (i + 1)
        (g.setobj h { t with node := t.node.set idx (clearkey nd) }) f
    else do
      let (g1, c) ← iscleared g (gckeyN nd)
      let w ← valiswhite g1 nd.i_val
      if c then
        traverseephemeron_loop h inv nsize n (i + 1) g1
          { f with hasclears := true, hasww := if w then true else f.hasww }
      else if w then do
        let r ← gcvalueN nd.i_val
        let g2 ← reallymarkobject g1 r
        traverseephemeron_loop h inv nsize n (i + 1) g2 { f with marked := true }
      else traverseephemeron_loop h inv nsize n (i + 1) g1 f

/-- Traverse an ephemeron table and link it to the proper list; the result
tells whether any object was marked during this traversal.  The real size of
the array part (`luaH_realasize`) is the length of `array`. -/
def traverseephemeron (g : global_State) (h : Addr) (inv : Bool) :
    Option (global_State × Bool) := do
  let t ← g.heap h
  let nsize := t.node.length
  let (g1, m1) ← traverseephemeron_array t.array g false
  let (g2, f) ← traverseephemeron_loop h inv nsize nsize 0 g1
    { marked := m1, hasclears := false, hasww := false }
  let g3 ← if g2.gcstate = GCSpropagate then linkgclist g2 h .grayagain
    else if f.hasww then linkgclist g2 h .ephemeron
    else if f.hasclears then linkgclist g2 h .allweak
    else genlink g2 h
  some (g3, f.marked)

/-- Apply `markvalue` to each value of an array. -/
def markvalues : List TValue → global_State → Option global_State
  | [], g => some g
  | x :: rest, g => do
    let g1 ← markvalue g x
    markvalues rest g1

/-- Apply `markobjectN` to each pointer of an array. -/
def markobjectsN : List (Option Addr) → global_State → Option global_State
  | [], g => some g
  | x :: rest, g => do
    let g1 ← markobjectN g x
    markobjectsN rest g1

/-- The hash loop of `traversestrongtable`. -/
def traversestrongtable_loop (h : Addr) : Nat → Nat → global_State → Option global_State
  | 0, _, g => some g
  | n + 1, i, g => do
    let t ← g.heap h
    let nd ← t.node.get? i
    if isempty nd.i_val then
      traversestrongtable_loop h n (i + 1)
        (g.setobj h { t with node := t.node.set i (clearkey nd) })
    else do
      let g1 ← markkey g nd
      let g2 ← markvalue g1 nd.i_val
      traversestrongtable_loop h n (i + 1) g2

def traversestrongtable (g : global_State) (h : Addr) : Option global_State := do
  let t ← g.heap h
  let g1 ← markvalues t.array g
  let g2 ← traversestrongtable_loop h t.node.length 0 g1
  genlink g2 h

/-- The events the collector looks up in a metatable. -/
inductive TMS where
  | TM_GC
  | TM_MODE
  deriving DecidableEq, Repr

/-- Modelled from the spec: `gfasttm(g,et,e)` of `ltm.h`, the metamethod of
table `et` for event `e`, `NULL` when the metatable is `NULL` or does not
define it ("the weakness mode of a table is a short string on its metatable
under the `__mode` key"; "the new metatable defines a finalizer").  The
result of the lookup is kept in the fields `tm_gc` and `tm_mode`. -/
def gfasttm (g : global_State) (et : Option Addr) (e : TMS) : Option (Option TValue) :=
  match et with
  | none => some none
  | some mt => (g.heap mt).map (fun t =>
      match e with
      | .TM_GC => t.tm_gc
      | .TM_MODE => t.tm_mode)

/-- The test `strchr(s, c) != NULL` of the C library on the characters of a
Lua string, which a NUL follows: the character `c` (not NUL) occurs before the
first NUL of the string. -/
def strchr (s : List Char) (c : Char) : Bool :=
  (s.takeWhile (fun x => x != Char.ofNat 0)).contains c

/-- Macro `allocsizenode(h)`. -/
def allocsizenode (t : GCObject) : Nat := if t.isdummy then 0 else t.node.length

def traversetable (g : global_State) (h : Addr) : Option (global_State × Nat) := do
  let t ← g.heap h
  let mode ← gfasttm g t.metatable .TM_MODE
  let g1 ← markobjectN g t.metatable
  let g2 ← match mode with
    | some (.gc .LUA_VSHRSTR s) => do
      let smode ← g1.heap s
      let weakkey := strchr smode.contents 'k'
      let weakvalue := strchr smode.contents 'v'
      if weakkey || weakvalue then
        if !weakkey then traverseweakvalue g1 h
        else if !weakvalue then (traverseephemeron g1 h false).map (fun r => r.1)
        else linkgclist g1 h .allweak
      else traversestrongtable g1 h
    | _ => traversestrongtable g1 h
  let t2 ← g2.heap h
  some (g2, 1 + t2.alimit + 2 * allocsizenode t2)

def traverseudata (g : global_State) (u : Addr) : Option (global_State × Nat) := do
  let x ← g.heap u
  let g1 ← markobjectN g x.metatable
  let g2 ← markvalues x.uv g1
  let g3 ← genlink g2 u
  let y ← g3.heap u
  some (g3, 1 + y.uv.length)

def traverseproto (g : global_State) (f : Addr) : Option (global_State × Nat) := do
  let x ← g.heap f
  let g1 ← markobjectN g x.source
  let g2 ← markvalues x.k g1
  let g3 ← markobjectsN x.upvalues g2
  let g4 ← markobjectsN x.p g3
  let g5 ← markobjectsN x.locvars g4
  some (g5, 1 + x.k.length + x.upvalues.length + x.p.length + x.locvars.length)

def traverseCclosure (g : global_State) (cl : Addr) : Option (global_State × Nat) := do
  let x ← g.heap cl
  let g1 ← markvalues x.upvalue g
  some (g1, 1 + x.upvalue.length)

def traverseLclosure (g : global_State) (cl : Addr) : Option (global_State × Nat) := do
  let x ← g.heap cl
  let g1 ← markobjectN g x.cl_p
  let g2 ← markobjectsN x.upvals g1
  some (g2, 1 + x.upvals.length)

/-- The external collaborators the collector calls back. -/
structure Env where
  /-- the size `luaD_shrinkstack` picks for the stack of a thread -/
  shrunksize : GCObject → Nat
  /-- the protected call of a finalizer: `luaD_pcall(L, dothecall, ...)` run
  in the given state by thread `L`, with the status it returns -/
  luaD_pcall : global_State → Addr → Option (global_State × Nat)

def EXTRA_STACK : Nat := 5

/-- Bytes of one `TValue` on the 64-bit target named in the source. -/
def WORK2MEM : Nat := 16

/-- Modelled from the spec: `luaD_shrinkstack` of `ldo.c` ("shrink the stack
if not an emergency cycle"): the stack is reallocated to a smaller size that
still holds the live slots, and the bytes given back leave the debt. -/
def luaD_shrinkstack (env : Env) (g : global_State) (th : Addr) : Option global_State := do
  let t ← g.heap th
  let s ← t.stack
  let n := env.shrunksize t
  if t.top ≤ n ∧ n < t.stack_last then
    some ({ g with GCdebt := g.GCdebt - ((t.stack_last - n) * WORK2MEM : Nat) }.setobj th
      { t with stack := some (s.take (n + EXTRA_STACK)), stack_last := n })
  else some g

/-- The loop of `traversethread` over the open upvalues of the thread. -/
def traversethread_uvs : Nat → global_State → Option Addr → Option global_State
  | 0, _, _ => none
  | _ + 1, g, none => some g
  | fuel + 1, g, some uv => do
    let g1 ← markobject g uv
    let u ← g1.heap uv
    traversethread_uvs fuel g1 u.open_next

/-- Macro `isintwups(L)`, `L->twups != L`: a thread that is not in the list
`twups` has its field `twups` pointing to itself (`remarkupvals` writes
`thread->twups = thread` to "mark that it is out of list"). -/
def isintwups (th : Addr) (t : GCObject) : Bool := t.twups != some th

/-- Set the slots from `lo` up to (not including) `hi` to nil. -/
def clearslice (s : List TValue) (lo hi : Nat) : List TValue :=
  s.enum.map (fun ix => if lo ≤ ix.1 ∧ ix.1 < hi then TValue.nil else ix.2)

def traversethread (env : Env) (fuel : Nat) (g : global_State) (th : Addr) :
    Option (global_State × Nat) := do
  let t ← g.heap th
  let g1 ← (if isold t.marked || g.gcstate == GCSpropagate
    then linkgclist g th .grayagain else some g)
  match t.stack with
  | none => some (g1, 1)
  | some s => do
    let g2 ← markvalues (s.take t.top) g1
    let t2 ← g2.heap th
    let g3 ← traversethread_uvs fuel g2 t2.openupval
    let g4 ← (if g3.gcstate = GCSatomic then do
        let g5 ← (if g3.gcemergency = 0 then luaD_shrinkstack env g3 th else some g3)
        let t5 ← g5.heap th
        let s5 ← t5.stack
        let g6 := g5.setobj th
          { t5 with stack := some (clearslice s5 t5.top (t5.stack_last + EXTRA_STACK)) }
        let t6 ← g6.heap th
        if !isintwups th t6 && t6.openupval != none then
          some ({ g6 with twups := some th }.setobj th { t6 with twups := g6.twups })
        else some g6
      else some g3)
    let t7 ← g4.heap th
    some (g4, 1 + t7.stack_last)

/-- Traverse one gray object, turning it to black. -/
def propagatemark (env : Env) (fuel : Nat) (g : global_State) : Option (global_State × Nat) := do
  let o ← g.gray
  let x ← g.heap o
  let g1 := g.setobj o { x with marked := nw2black x.marked }
  let x1 ← g1.heap o
  let pl ← getgclist o x1
  let y ← g1.heap pl
  let g2 := { g1 with gray := y.gclist }
  match x1.tt with
  | .LUA_VTABLE => traversetable g2 o
  | .LUA_VUSERDATA => traverseudata g2 o
  | .LUA_VLCL => traverseLclosure g2 o
  | .LUA_VCCL => traverseCclosure g2 o
  | .LUA_VPROTO => traverseproto g2 o
  | .LUA_VTHREAD => traversethread env fuel g2 o
  | _ => some (g2, 0)

def propagateall : Nat → Env → global_State → Option (global_State × Nat)
  | 0, _, _ => none
  | fuel + 1, env, g =>
    match g.gray with
    | none => some (g, 0)
    | some _ => do
      let (g1, w) ← propagatemark env fuel g
      let (g2, tot) ← propagateall fuel env g1
      some (g2, w + tot)

/-- The loop of `convergeephemerons` over one snapshot of the ephemeron list. -/
def convergeephemerons_tables (env : Env) (dir : Bool) :
    Nat → global_State → Option Addr → Bool → Option (global_State × Bool)
  | 0, _, _, _ => none
  | _ + 1, g, none, changed => some (g, changed)
  | fuel + 1, g, some w, changed => do
    let h ← g.heap w
    let next := h.gclist
    let g1 := g.setobj w { h with marked := nw2black h.marked }
    let (g2, m) ← traverseephemeron g1 w dir
    if m then do
      let (g3, _) ← propagateall fuel env g2
      convergeephemerons_tables env dir fuel g3 next true
    else convergeephemerons_tables env dir fuel g2 next changed

/-- The rounds of `convergeephemerons`, each in the direction `dir`. -/
def convergeephemerons_rounds (env : Env) : Nat → global_State → Bool → Option global_State
  | 0, _, _ => none
  | fuel + 1, g, dir => do
    let next := g.ephemeron
    let g1 := { g with ephemeron := none }
    let (g2, changed) ← convergeephemerons_tables env dir fuel g1 next false
    if changed then convergeephemerons_rounds env fuel g2 (!dir) else some g2

/-- Traverse all ephemeron tables propagating marks from keys to values,
until nothing new is marked. -/
def convergeephemerons (env : Env) (fuel : Nat) (g : global_State) : Option global_State :=
  convergeephemerons_rounds env fuel g false

/-! ## `lgc.c`: sweep functions -/

/-- The node loop of `clearbykeys` for table `h`. -/
def clearbykeys_nodes (h : Addr) : Nat → Nat → global_State → Option global_State
  | 0, _, g => some g
  | n + 1, i, g => do
    let t ← g.heap h
    let nd ← t.node.get? i
    let (g1, c) ← iscleared g (gckeyN nd)
    let t1 ← g1.heap h
    let nd1 ← t1.node.get? i
    let nd2 := if c then nd1.setempty else nd1
    let nd3 := if isempty nd2.i_val then clearkey nd2 else nd2
    clearbykeys_nodes h n (i + 1) (g1.setobj h { t1 with node := t1.node.set i nd3 })

/-- Clear entries with unmarked keys from all weak tables in list `l`. -/
def clearbykeys : Nat → global_State → Option Addr → Option global_State
  | 0, _, _ => none
  | _ + 1, g, none => some g
  | fuel + 1, g, some l => do
    let t ← g.heap l
    let g1 ← clearbykeys_nodes l t.node.length 0 g
    let t1 ← g1.heap l
    clearbykeys fuel g1 t1.gclist

/-- The array loop of `clearbyvalues` for table `h`. -/
def clearbyvalues_array (h : Addr) : Nat → Nat → global_State → Option global_State
  | 0, _, g => some g
  | n + 1, i, g => do
    let t ← g.heap h
    let o ← t.array.get? i
    let (g1, c) ← iscleared g (gcvalueN o)
    let t1 ← g1.heap h
    let g2 := if c then g1.setobj h { t1 with array := t1.array.set i .empty } else g1
    clearbyvalues_array h n (i + 1) g2

/-- The node loop of `clearbyvalues` for table `h`. -/
def clearbyvalues_nodes (h : Addr) : Nat → Nat → global_State → Option global_State
  | 0, _, g => some g
  | n + 1, i, g => do
    let t ← g.heap h
    let nd ← t.node.get? i
    let (g1, c) ← iscleared g (gcvalueN nd.i_val)
    let t1 ← g1.heap h
    let nd1 ← t1.node.get? i
    let nd2 := if c then nd1.setempty else nd1
    let nd3 := if isempty nd2.i_val then clearkey nd2 else nd2
    clearbyvalues_nodes h n (i + 1) (g1.setobj h { t1 with node := t1.node.set i nd3 })

/-- Clear entries with unmarked values from all weak tables in list `l` up to
element `f`. -/
def clearbyvalues : Nat → global_State → Option Addr → Option Addr → Option global_State
  | 0, _, _, _ => none
  | fuel + 1, g, l, f =>
    if l = f then some g
    else do
      let h ← l
      let t ← g.heap h
      let g1 ← clearbyvalues_array h t.array.length 0 g
      let g2 ← clearbyvalues_nodes h t.node.length 0 g1
      let t2 ← g2.heap h
      clearbyvalues fuel g2 t2.gclist f

/-- Write through an upvalue link: `*l = v`. -/
def global_State.store_uvlink (g : global_State) (l : UpValLink) (v : Option Addr) :
    Option global_State :=
  match l with
  | .openupval th => (g.heap th).map (fun t => g.setobj th { t with openupval := v })
  | .open_next u => (g.heap u).map (fun x => g.setobj u { x with open_next := v })

/-- Modelled from the spec: `luaF_unlinkupval` of `lfunc.c` ("upvalues, if
still open, unlink from their owning thread's open-upvalue chain"). -/
def luaF_unlinkupval (g : global_State) (uv : Addr) : Option global_State := do
  let u ← g.heap uv
  let prev ← u.open_previous
  let g1 ← g.store_uvlink prev u.open_next
  match u.open_next with
  | none => some g1
  | some n => do
    let x ← g1.heap n
    some (g1.setobj n { x with open_previous := u.open_previous })

/-- Modelled from the spec: `luaM_freemem` of `lmem.c`; the block leaves the
memory and its bytes leave the debt. -/
def luaM_freemem (g : global_State) (o : Addr) (sz : Nat) : global_State :=
  { g with heap := g.heap.free o, GCdebt := g.GCdebt - sz }

/-- Modelled from the spec: `luaS_remove` of `lstring.c` ("short-string
removes itself from the intern table first"). -/
def luaS_remove (g : global_State) (_ts : Addr) : global_State :=
  { g with strt_nuse := g.strt_nuse - 1 }

def freeupval (g : global_State) (uv : Addr) : Option global_State := do
  let u ← g.heap uv
  let g1 ← if upisopen u then luaF_unlinkupval g uv else some g
  some (luaM_freemem g1 uv u.memsize)

/-- Free an object according to its kind.  The kind-specific releases
(`luaF_freeproto`, `luaH_free`, `luaE_freethread`) give back the `memsize`
bytes the object holds. -/
def freeobj (g : global_State) (o : Addr) : Option global_State := do
  let x ← g.heap o
  match x.tt with
  | .LUA_VUPVAL => freeupval g o
  | .LUA_VSHRSTR => some (luaM_freemem (luaS_remove g o) o x.memsize)
  | _ => some (luaM_freemem g o x.memsize)

/-- The loop of `sweeplist`: `n` elements may still be swept, `i` were. -/
def sweeplist_loop (ow white : Nat) :
    Nat → global_State → GCRef → Nat → Option (global_State × GCRef × Nat)
  | 0, g, p, i => some (g, p, i)
  | n + 1, g, p, i => do
    let c ← g.load p
    match c with
    | none => some (g, p, i)
    | some curr => do
      let x ← g.heap curr
      let marked := x.marked
      if isdeadm ow marked then do
        let g1 ← g.store p x.next
        let g2 ← freeobj g1 curr
        sweeplist_loop ow white n g2 p (i + 1)
      else
        sweeplist_loop ow white n
          (g.setobj curr { x with marked := cast_byte ((marked &&& bnot8 maskgcbits) ||| white) })
          (.next curr) (i + 1)

/-- Sweep at most `countin` elements from the list at `p`; the result is the
new state, where to continue (`NULL` if the list is finished) and the number
of elements traversed (`*countout`). -/
def sweeplist (g : global_State) (p : GCRef) (countin : Nat) :
    Option (global_State × Option GCRef × Nat) := do
  let (g1, p1, i) ← sweeplist_loop (otherwhite g) (luaC_white g) countin g p 0
  let c ← g1.load p1
  some (g1, if c = none then none else some p1, i)

/-- Sweep a list until a live object (or the end of the list). -/
def sweeptolive : Nat → global_State → GCRef → Option (global_State × Option GCRef)
  | 0, _, _ => none
  | fuel + 1, g, old => do
    let (g1, p, _) ← sweeplist g old 1
    if p = some old then sweeptolive fuel g1 old else some (g1, p)

/-! ## `lgc.c`: finalization -/

/-- Conversion of a signed byte count to `lu_mem` (64 bits). -/
def lu_mem (z : Int) : Nat := (z % (2 : Int) ^ 64).toNat

/-- Modelled from the spec: `luaS_resize` of `lstring.c` ("possibly shrink
the string intern table"): the table gets `nsize` slots of one pointer (8
bytes) each, and the difference is charged to the debt. -/
def luaS_resize (g : global_State) (nsize : Int) : global_State :=
  { g with strt_size := nsize, GCdebt := g.GCdebt + (nsize - g.strt_size) * 8 }

/-- If possible, shrink the string table. -/
def checkSizes (g : global_State) : global_State :=
  if g.gcemergency = 0 then
    if g.strt_nuse < Int.tdiv g.strt_size 4 then
      let olddebt := g.GCdebt
      let g1 := luaS_resize g (Int.tdiv g.strt_size 2)
      { g1 with GCestimate := lu_mem (g1.GCestimate + (g1.GCdebt - olddebt)) }
    else g
  else g

/-- Get the next object to be finalized from `tobefnz` and link it back into
`allgc`. -/
def udata2finalize (g : global_State) : Option (global_State × Addr) := do
  let o ← g.tobefnz
  let x ← g.heap o
  let g1 := { g with tobefnz := x.next }
  let g2 := g1.setobj o { x with next := g1.allgc }
  let g3 := { g2 with allgc := some o }
  let x3 ← g3.heap o
  let g4 := g3.setobj o { x3 with marked := resetbit x3.marked FINALIZEDBIT }
  let x4 ← g4.heap o
  if issweepphase g4 then some (g4.setobj o { x4 with marked := makewhite g4 x4.marked }, o)
  else if getage x4.marked = G_OLD1 then some ({ g4 with firstold1 := some o }, o)
  else some (g4, o)

/-- Modelled from the spec: `luaT_gettmbyobj` of `ltm.c`, the metamethod of
an object for an event ("if a finalizer exists"): looked up in the metatable
of a table or userdata, else in the metatable of the basic type; a nil value
when there is none. -/
def luaT_gettmbyobj (g : global_State) (o : Addr) (e : TMS) : Option TValue := do
  let x ← g.heap o
  let mt ← match x.tt with
    | .LUA_VTABLE => some x.metatable
    | .LUA_VUSERDATA => some x.metatable
    | _ => g.mt.get? (novariant x.tt)
  let r ← gfasttm g mt e
  some (r.getD .nil)

def CIST_FIN : Nat := 1 <<< 7
def LUA_OK : Nat := 0

/-- Push a value on the stack of thread `L`: `setobj2s(L, L->top.p++, v)`. -/
def push (g : global_State) (L : Addr) (v : TValue) : Option global_State := do
  let t ← g.heap L
  let s ← t.stack
  some (g.setobj L { t with stack := some (s.set t.top v), top := t.top + 1 })

/-- Modelled from the spec: `luaE_warnerror` of `lstate.c` ("on error emit a
warning"). -/
def luaE_warnerror (g : global_State) : global_State := { g with nwarn := g.nwarn + 1 }

/-- Update the object at an address. -/
def global_State.modobj (g : global_State) (a : Addr) (f : GCObject → GCObject) :
    Option global_State :=
  (g.heap a).map (fun x => g.setobj a (f x))

/-- The part of `GCTM` before the protected call: stop GC steps and debug
hooks, push the finalizer `tm` and its argument `v`, flag the call info. -/
def GCTM_enter (g1 : global_State) (L : Addr) (tm v : TValue) : Option global_State := do
  let g2 := { g1 with gcstp := g1.gcstp ||| GCSTPGC }
  let g3 ← g2.modobj L (fun l => { l with allowhook := 0 })
  let g4 ← push g3 L tm
  let g5 ← push g4 L v
  g5.modobj L (fun l => { l with callstatus := l.callstatus ||| CIST_FIN })

/-- The part of `GCTM` after the protected call returned `status`: unflag the
call info, restore hooks and `gcstp`, and on error warn and pop the error
object. -/
def GCTM_leave (g7 : global_State) (L : Addr) (oldah oldgcstp status : Nat) :
    Option global_State := do
  let g8 ← g7.modobj L (fun l => { l with callstatus := l.callstatus &&& (65535 ^^^ CIST_FIN) })
  let g9 ← g8.modobj L (fun l => { l with allowhook := oldah })
  let g10 := { g9 with gcstp := oldgcstp }
  if status ≠ LUA_OK then
    (luaE_warnerror g10).modobj L (fun l => { l with top := l.top - 1 })
  else some g10

/-- Call the finalizer of the next object of `tobefnz`, in thread `L`. -/
def GCTM (env : Env) (g : global_State) (L : Addr) : Option global_State := do
  let (g1, v) ← udata2finalize g
  let vo ← g1.heap v
  let tm ← luaT_gettmbyobj g1 v .TM_GC
  if !isempty tm then do
    let l0 ← g1.heap L
    let g6 ← GCTM_enter g1 L tm (.gc vo.tt v)
    let (g7, status) ← env.luaD_pcall g6 L
    GCTM_leave g7 L l0.allowhook g1.gcstp status
  else some g1

/-- Call a few finalizers: at most `n`, `i` were called. -/
def runafewfinalizers_loop (env : Env) (L : Addr) :
    Nat → global_State → Nat → Option (global_State × Nat)
  | 0, g, i => some (g, i)
  | n + 1, g, i =>
    match g.tobefnz with
    | none => some (g, i)
    | some _ => do
      let g1 ← GCTM env g L
      runafewfinalizers_loop env L n g1 (i + 1)

def runafewfinalizers (env : Env) (g : global_State) (L : Addr) (n : Nat) :
    Option (global_State × Nat) :=
  runafewfinalizers_loop env L n g 0

/-- Call all pending finalizers. -/
def callallpendingfinalizers (env : Env) (L : Addr) : Nat → global_State → Option global_State
  | 0, _ => none
  | fuel + 1, g =>
    match g.tobefnz with
    | none => some g
    | some _ => do
      let g1 ← GCTM env g L
      callallpendingfinalizers env L fuel g1

/-- Find the last `next` field in the list at `p`. -/
def findlast : Nat → global_State → GCRef → Option GCRef
  | 0, _, _ => none
  | fuel + 1, g, p => do
    let c ← g.load p
    match c with
    | none => some p
    | some x => findlast fuel g (.next x)

/-- The loop of `separatetobefnz`. -/
def separatetobefnz_loop (all : Bool) :
    Nat → global_State → GCRef → GCRef → Option global_State
  | 0, _, _, _ => none
  | fuel + 1, g, p, lastnext => do
    let curr ← g.load p
    if curr = g.finobjold1 then some g
    else do
      let c ← curr
      let x ← g.heap c
      if !(iswhite x.marked || all) then separatetobefnz_loop all fuel g (.next c) lastnext
      else do
        let g1 := if curr = g.finobjsur then { g with finobjsur := x.next } else g
        let x1 ← g1.heap c
        let g2 ← g1.store p x1.next
        let ln ← g2.load lastnext
        let x2 ← g2.heap c
        let g3 := g2.setobj c { x2 with next := ln }
        let g4 ← g3.store lastnext (some c)
        separatetobefnz_loop all fuel g4 p (.next c)

/-- Move all unreachable objects (or all objects) that need finalization from
`finobj` to the end of `tobefnz`. -/
def separatetobefnz (fuel : Nat) (g : global_State) (all : Bool) : Option global_State := do
  let lastnext ← findlast fuel g .tobefnz
  separatetobefnz_loop all fuel g .finobj lastnext

/-- If pointer `p` points to `o`, move it to the next element. -/
def checkpointer (p : Option Addr) (o : Addr) (next : Option Addr) : Option Addr :=
  if p = some o then next else p

/-- Correct pointers to objects inside `allgc` when `o` is being removed. -/
def correctpointers (g : global_State) (o : Addr) : Option global_State := do
  let x ← g.heap o
  some { g with
    survival := checkpointer g.survival o x.next,
    old1 := checkpointer g.old1 o x.next,
    reallyold := checkpointer g.reallyold o x.next,
    firstold1 := checkpointer g.firstold1 o x.next }

/-- The search `for (p = &g->allgc; *p != o; p = &(*p)->next)`. -/
def findptr (o : Addr) : Nat → global_State → GCRef → Option GCRef
  | 0, _, _ => none
  | fuel + 1, g, p => do
    let c ← g.load p
    if c = some o then some p
    else do
      let x ← c
      findptr o fuel g (.next x)

/-- The first half of the `else` branch of `luaC_checkfinalizer`: in a sweep
phase `o` is made white and, when the sweep cursor is at `&o->next`, the
cursor is advanced by `sweeptolive`; in the other phases `correctpointers`
runs. -/
def luaC_checkfinalizer_prepare (fuel : Nat) (g : global_State) (o : Addr) (x : GCObject) :
    Option global_State :=
  if issweepphase g then do
    let g0 := g.setobj o { x with marked := makewhite g x.marked }
    if g0.sweepgc = some (.next o) then do
      let (g0a, p) ← sweeptolive fuel g0 (.next o)
      some { g0a with sweepgc := p }
    else some g0
  else correctpointers g o

/-- The second half of the `else` branch of `luaC_checkfinalizer`: search
for the pointer pointing to `o`, remove `o` from `allgc`, link it in
`finobj` and mark it as such. -/
def luaC_checkfinalizer_move (fuel : Nat) (g1 : global_State) (o : Addr) :
    Option global_State := do
  let p ← findptr o fuel g1 .allgc
  let x1 ← g1.heap o
  let g2 ← g1.store p x1.next
  let x2 ← g2.heap o
  let g3 := g2.setobj o { x2 with next := g2.finobj }
  let g4 := { g3 with finobj := some o }
  let x4 ← g4.heap o
  some (g4.setobj o { x4 with marked := l_setbit x4.marked FINALIZEDBIT })

/-- If object `o` gets a finalizer, move it from `allgc` to `finobj`. -/
def luaC_checkfinalizer (fuel : Nat) (g : global_State) (o : Addr) (mt : Option Addr) :
    Option global_State := do
  let x ← g.heap o
  if tofinalize x.marked then some g
  else do
    let tm ← gfasttm g mt .TM_GC
    if tm = none then some g
    else if g.gcstp &&& GCSTPCLS ≠ 0 then some g
    else do
      let g1 ← luaC_checkfinalizer_prepare fuel g o x
      luaC_checkfinalizer_move fuel g1 o

/-! ## `lgc.c`: GC control -/

/-- Macro `gettotalbytes(g)` of `lstate.h`. -/
def gettotalbytes (g : global_State) : Nat := lu_mem (g.totalbytes + g.GCdebt)

/-- Enter the first sweep phase. -/
def entersweep (fuel : Nat) (g : global_State) : Option global_State := do
  let g1 := { g with gcstate := GCSswpallgc }
  let (g2, p) ← sweeptolive fuel g1 .allgc
  some { g2 with sweepgc := p }

/-- The entries of the string cache after `luaS_clearcache`. -/
def luaS_clearcache_entries (g : global_State) :
    List (Option Addr) → Option (List (Option Addr))
  | [] => some []
  | none :: rest => (luaS_clearcache_entries g rest).map (fun r => none :: r)
  | some s :: rest => do
    let x ← g.heap s
    let r ← luaS_clearcache_entries g rest
    some ((if iswhite x.marked then g.memerrmsg else some s) :: r)

/-- Modelled from the spec: `luaS_clearcache` of `lstring.c` ("clear the
short-string API cache of any dead entries"): an entry that is still white
is replaced by the pre-allocated memory-error message. -/
def luaS_clearcache (g : global_State) : Option global_State :=
  (luaS_clearcache_entries g g.strcache).map (fun c => { g with strcache := c })

/-- The first part of `atomic`: mark the running thread `L` and the roots
again, then traverse the saved `grayagain` list. -/
def atomic_mark (env : Env) (fuel : Nat) (g : global_State) (L : Addr) :
    Option (global_State × Nat) := do
  let grayagain := g.grayagain
  let g := { g with grayagain := none, gcstate := GCSatomic }
  let g ← markobject g L
  let g ← markvalue g g.l_registry
  let g ← markmt g
  let r1 ← propagateall fuel env g
  let r2 ← remarkupvals fuel r1.1
  let r3 ← propagateall fuel env r2.1
  let r4 ← propagateall fuel env { r3.1 with gray := grayagain }
  some (r4.1, r1.2 + r2.2 + r3.2 + r4.2)

/-- The middle part of `atomic`: converge the ephemerons, clear the weak
values, separate and resurrect the objects to be finalized. -/
def atomic_finalizers (env : Env) (fuel : Nat) (g : global_State) :
    Option (global_State × Nat × Option Addr × Option Addr) := do
  let g ← convergeephemerons env fuel g
  let g ← clearbyvalues fuel g g.weak none
  let g ← clearbyvalues fuel g g.allweak none
  let origweak := g.weak
  let origall := g.allweak
  let g ← separatetobefnz fuel g false
  let r5 ← markbeingfnz fuel g
  let r6 ← propagateall fuel env r5.1
  let g ← convergeephemerons env fuel r6.1
  some (g, r5.2 + r6.2, origweak, origall)

/-- The last part of `atomic`: remove dead objects from the weak tables,
clear the string cache and flip the current white. -/
def atomic_clear (fuel : Nat) (g : global_State) (origweak origall : Option Addr) :
    Option global_State := do
  let g ← clearbykeys fuel g g.ephemeron
  let g ← clearbykeys fuel g g.allweak
  let g ← clearbyvalues fuel g g.weak origweak
  let g ← clearbyvalues fuel g g.allweak origall
  let g ← luaS_clearcache g
  some { g with currentwhite := cast_byte (otherwhite g) }

/-- The atomic phase, run by thread `L`. -/
def atomic (env : Env) (fuel : Nat) (g : global_State) (L : Addr) :
    Option (global_State × Nat) := do
  let (g1, w1) ← atomic_mark env fuel g L
  let (g2, w2, origweak, origall) ← atomic_finalizers env fuel g1
  let g3 ← atomic_clear fuel g2 origweak origall
  some (g3, w1 + w2)

/-- One sweep step over the list at `sweepgc`, or the move to the next state. -/
def sweepstep (g : global_State) (nextstate : Nat) (nextlist : Option GCRef) :
    Option (global_State × Nat) :=
  match g.sweepgc with
  | some sg => do
    let olddebt := g.GCdebt
    let (g1, p, count) ← sweeplist g sg GCSWEEPMAX
    let g2 := { g1 with sweepgc := p }
    some ({ g2 with GCestimate := lu_mem (g2.GCestimate + (g2.GCdebt - olddebt)) }, count)
  | none => some ({ g with gcstate := nextstate, sweepgc := nextlist }, 0)

/-- The work of `singlestep` in the state it finds, before `gcstopem` is
reset; `none` in the second component is the `default` case of the switch,
which returns at once. -/
def singlestep_switch (env : Env) (fuel : Nat) (g : global_State) (L : Addr) :
    Option (global_State × Option Nat) :=
  if g.gcstate = GCSpause then do
    let g1 ← restartcollection fuel g
    some ({ g1 with gcstate := GCSpropagate }, some 1)
  else if g.gcstate = GCSpropagate then
    if g.gray = none then some ({ g with gcstate := GCSenteratomic }, some 0)
    else (propagatemark env fuel g).map (fun r => (r.1, some r.2))
  else if g.gcstate = GCSenteratomic then do
    let (g1, work) ← atomic env fuel g L
    let g2 ← entersweep fuel g1
    some ({ g2 with GCestimate := gettotalbytes g2 }, some work)
  else if g.gcstate = GCSswpallgc then
    (sweepstep g GCSswpfinobj (some .finobj)).map (fun r => (r.1, some r.2))
  else if g.gcstate = GCSswpfinobj then
    (sweepstep g GCSswptobefnz (some .tobefnz)).map (fun r => (r.1, some r.2))
  else if g.gcstate = GCSswptobefnz then
    (sweepstep g GCSswpend none).map (fun r => (r.1, some r.2))
  else if g.gcstate = GCSswpend then
    some ({ checkSizes g with gcstate := GCScallfin }, some 0)
  else if g.gcstate = GCScallfin then
    if g.tobefnz ≠ none ∧ g.gcemergency = 0 then do
      let g1 := { g with gcstopem := 0 }
      let (g2, n) ← runafewfinalizers env g1 L GCFINMAX
      some (g2, some (n * GCFINALIZECOST))
    else some ({ g with gcstate := GCSpause }, some 0)
  else some (g, none)

/-- One step of the collector, run by thread `L`; the result is the new state
and the work done. -/
def singlestep (env : Env) (fuel : Nat) (g : global_State) (L : Addr) :
    Option (global_State × Nat) := do
  let g1 := { g with gcstopem := 1 }
  let (g2, r) ← singlestep_switch env fuel g1 L
  match r with
  | some work => some ({ g2 with gcstopem := 0 }, work)
  | none => some (g2, 0)

/-! ## Well-formed heap lists -/

/-- The objects linked through `next` from `p` are exactly the list `l`. -/
def IsList (h : Heap) : Option Addr → List Addr → Prop
  | p, [] => p = none
  | p, b :: l => p = some b ∧ ∃ o, h b = some o ∧ IsList h o.next l

/-- A list segment: following `next` from `p` through the objects `l` ends
at `q`. -/
def IsSeg (h : Heap) : Option Addr → List Addr → Option Addr → Prop
  | p, [], q => p = q
  | p, b :: l, q => p = some b ∧ ∃ o, h b = some o ∧ IsSeg h o.next l q

/-- The `next` link stored at an address, if the address is live. -/
def nextOf (h : Heap) (a : Addr) : Option (Option Addr) := (h a).map (fun o => o.next)

/-- The four heap lists of a state are `la` (`allgc`), `lf` (`finobj`), `lt`
(`tobefnz`) and `lx` (`fixedgc`), and every live object is on exactly one of
them, exactly once. -/
def Lists (g : global_State) (la lf lt lx : List Addr) : Prop :=
  IsList g.heap g.allgc la ∧ IsList g.heap g.finobj lf ∧
    IsList g.heap g.tobefnz lt ∧ IsList g.heap g.fixedgc lx ∧
    (la ++ lf ++ lt ++ lx).Nodup ∧ ∀ a, (g.heap a).isSome ↔ a ∈ la ++ lf ++ lt ++ lx

/-- List disjointness: every live object is on exactly one of `allgc`,
`finobj`, `tobefnz`, `fixedgc`. -/
def ListsDisjoint (g : global_State) : Prop :=
  ∃ la lf lt lx, Lists g la lf lt lx

/-! ## Colours and concrete states used in the statements -/

/-- The bits of a mark that no colour operation may touch: the three age
bits, `FINALIZEDBIT` and `TESTBIT`. -/
def keptbits : Nat := AGEBITS ||| bitmask FINALIZEDBIT ||| bitmask TESTBIT

/-- Exactly one white bit of `currentwhite` is set. -/
def onewhite (g : global_State) : Prop :=
  g.currentwhite &&& WHITEBITS = bitmask WHITE0BIT ∨
    g.currentwhite &&& WHITEBITS = bitmask WHITE1BIT

/-- An object of the given kind with every field cleared. -/
def GCObject.blank (tt : Tag) : GCObject :=
  { next := none, tt := tt, marked := 0, gclist := none, contents := [], metatable := none,
    alimit := 0, array := [], node := [], isdummy := true, tm_gc := none, tm_mode := none,
    uv := [], cl_p := none, upvals := [], upvalue := [], source := none, k := [],
    upvalues := [], p := [], locvars := [], v := .closed, value := .nil, open_next := none,
    open_previous := none, stack := none, top := 0, stack_last := 0, openupval := none,
    twups := none, allowhook := 1, callstatus := 0, memsize := 0 }

/-- A state with an empty memory, as `lua_newstate` sets the collector up:
current white is white 0, the collector is paused in incremental mode. -/
def global_State.blank : global_State :=
  { heap := fun _ => none, totalbytes := 0, GCdebt := 0, GCestimate := 0, lastatomic := 0,
    strt_nuse := 0, strt_size := 0, l_registry := .nil, currentwhite := bitmask WHITE0BIT,
    gcstate := GCSpause, gckind := KGC_INC, gcstopem := 0, genminormul := 20,
    genmajormul := 25, gcstp := 0, gcemergency := 0, gcpause := 50, gcstepmul := 25,
    gcstepsize := 13, allgc := none, sweepgc := none, finobj := none, gray := none,
    grayagain := none, weak := none, ephemeron := none, allweak := none, tobefnz := none,
    fixedgc := none, survival := none, old1 := none, reallyold := none, firstold1 := none,
    finobjsur := none, finobjold1 := none, finobjrold := none, twups := none,
    mainthread := 0, memerrmsg := none, mt := [], strcache := [], nwarn := 0 }

/-- Whether marking paints an object black at once (else it becomes gray):
strings, closed upvalues and userdata without user values. -/
def blackened (x : GCObject) : Bool :=
  match x.tt with
  | .LUA_VSHRSTR => true
  | .LUA_VLNGSTR => true
  | .LUA_VUPVAL => !upisopen x
  | .LUA_VUSERDATA => x.uv.length == 0
  | _ => false

/-- The control fields of the collector. -/
def ctl (g : global_State) : Nat × Nat × Nat × Nat × Nat × Nat × Option GCRef :=
  (g.gcstate, g.gckind, g.gcemergency, g.gcstopem, g.gcstp, g.currentwhite, g.sweepgc)

/-- The effect of marking on the memory: no object appears or disappears,
links, tags and kept bits stay, and an object that was not white keeps its
mark. -/
def MarkMono (h h2 : Heap) : Prop :=
  (∀ a, h a = none → h2 a = none) ∧
  (∀ a x, h a = some x → ∃ x2, h2 a = some x2 ∧ x2.next = x.next ∧ x2.tt = x.tt ∧
    x2.marked &&& keptbits = x.marked &&& keptbits ∧
    (iswhite x.marked = false → x2.marked = x.marked))

/-- The effect of marking object `o` on the memory: as `MarkMono`, except that
`o` itself may be repainted from any colour to a colour that is not white. -/
def MarkEffect (h : Heap) (o : Addr) (h2 : Heap) : Prop :=
  (∀ a, h a = none → h2 a = none) ∧
  (∀ a x, h a = some x → ∃ x2, h2 a = some x2 ∧ x2.next = x.next ∧ x2.tt = x.tt ∧
    x2.marked &&& keptbits = x.marked &&& keptbits ∧
    (a ≠ o → iswhite x.marked = false → x2.marked = x.marked) ∧
    (iswhite x.marked = false → iswhite x2.marked = false))

/-- The objects linked through `gclist` from `p` are exactly the list `l`. -/
def IsGList (h : Heap) : Option Addr → List Addr → Prop
  | p, [] => p = none
  | p, b :: l => p = some b ∧ ∃ o, h b = some o ∧ IsGList h o.gclist l

/-! ## Concrete states -/

/-- An object of a kind with a given mark and `next` link. -/
def exObj (tt : Tag) (marked : Nat) (next : Option Addr) : GCObject :=
  { GCObject.blank tt with marked := marked, next := next }

/-- A small memory: a white string 1 and a white table 2 on `allgc`, an old
gray string 3 on `fixedgc`. -/
def exHeap : Heap := fun a =>
  if a = 1 then some (exObj .LUA_VSHRSTR 8 (some 2))
  else if a = 2 then some (exObj .LUA_VTABLE 8 none)
  else if a = 3 then some (exObj .LUA_VSHRSTR 4 none)
  else none

/-- The state over `exHeap`, while propagating. -/
def exState : global_State :=
  { global_State.blank with
    heap := exHeap, allgc := some 1, fixedgc := some 3, gcstate := GCSpropagate }

/-- A memory for the barriers: a white string 1 and a black table 2. -/
def exBarHeap : Heap := fun a =>
  if a = 1 then some (exObj .LUA_VSHRSTR 8 none)
  else if a = 2 then some (exObj .LUA_VTABLE 32 (some 1))
  else none

/-- The state over `exBarHeap` in the given collector state. -/
def exBarState (gcstate : Nat) : global_State :=
  { global_State.blank with heap := exBarHeap, allgc := some 2, gcstate := gcstate }

/-- A generational state whose only object is a black table of age
`G_TOUCHED2`, which is on the list `grayagain`. -/
def exTouched : global_State :=
  { global_State.blank with
    heap := fun a => if a = 1 then some (exObj .LUA_VTABLE 38 none) else none,
    allgc := some 1, grayagain := some 1, gckind := KGC_GEN, gcstate := GCSpropagate }

/-- The four heap lists are well formed and disjoint, and the live objects
are those of the lists and one more object `c` that is on none of them (it
has just been unlinked). -/
def ListsOrphan (g : global_State) (c : Addr) (la lf lt lx : List Addr) : Prop :=
  IsList g.heap g.allgc la ∧ IsList g.heap g.finobj lf ∧
    IsList g.heap g.tobefnz lt ∧ IsList g.heap g.fixedgc lx ∧
    (c :: (la ++ lf ++ lt ++ lx)).Nodup ∧
    ∀ a, (g.heap a).isSome ↔ a = c ∨ a ∈ la ++ lf ++ lt ++ lx

/-- The common header of an object: link, mark and tag. -/
def hdr (o : GCObject) : Option Addr × Nat × Tag := (o.next, o.marked, o.tt)

/-- Two memories hold the same objects with the same headers. -/
def SameHdr (h h2 : Heap) : Prop := ∀ a, (h2 a).map hdr = (h a).map hdr

/-- Two memories hold the same objects with the same marks and tags. -/
def SameMarks (h h2 : Heap) : Prop :=
  ∀ a, (h2 a).map (fun o => (o.marked, o.tt)) = (h a).map (fun o => (o.marked, o.tt))

/-- The heads of the four heap lists. -/
def heads (g : global_State) : Option Addr × Option Addr × Option Addr × Option Addr :=
  (g.allgc, g.finobj, g.tobefnz, g.fixedgc)

/-- No upvalue among the objects `l` is open. -/
def ClosedIn (h : Heap) (l : List Addr) : Prop :=
  ∀ a ∈ l, ∀ y, h a = some y → y.tt = .LUA_VUPVAL → upisopen y = false

/-- What sweeping leaves of a state `g` with the lists `la`, `lf`, `lt`,
`lx`: in `g2` each list is what is left of the old one, in the same order;
the control fields and `fixedgc` are the same, and so is the mark of every
object outside `rest`. -/
def Swept (g : global_State) (la lf lt lx rest : List Addr) (g2 : global_State)
    (la2 lf2 lt2 lx2 : List Addr) : Prop :=
  Lists g2 la2 lf2 lt2 lx2 ∧ la2.Sublist la ∧ lf2.Sublist lf ∧ lt2.Sublist lt ∧
    lx2.Sublist lx ∧ ctl g2 = ctl g ∧ g2.fixedgc = g.fixedgc ∧
    ∀ a, a ∉ rest → (g2.heap a).map (fun o => (o.marked, o.tt)) =
      (g.heap a).map (fun o => (o.marked, o.tt))

/-- A memory with finalizable objects: on `allgc` the table 4 (a metatable
with a `__gc` field), the white table 1, the dead string 2 and the white
string 3; the userdata 5 on `finobj`; the userdata 6 on `tobefnz`. -/
def exFinHeap : Heap := fun a =>
  if a = 1 then some (exObj .LUA_VTABLE 8 (some 2))
  else if a = 2 then some (exObj .LUA_VSHRSTR 16 (some 3))
  else if a = 3 then some (exObj .LUA_VSHRSTR 8 none)
  else if a = 4 then some { exObj .LUA_VTABLE 8 (some 1) with tm_gc := some (.prim 0) }
  else if a = 5 then some (exObj .LUA_VUSERDATA 72 none)
  else if a = 6 then some (exObj .LUA_VUSERDATA 72 none)
  else none

/-- The state over `exFinHeap`, sweeping `allgc` with the sweep cursor at
the `next` field of the table 1. -/
def exFin : global_State :=
  { global_State.blank with
    heap := exFinHeap, allgc := some 4, finobj := some 5, tobefnz := some 6,
    gcstate := GCSswpallgc, sweepgc := some (.next 1) }

/-- An environment in which the protected call of a finalizer changes
nothing and returns `LUA_OK`, and no stack is shrunk. -/
def exEnv : Env :=
  { shrunksize := fun t => t.stack_last, luaD_pcall := fun s _ => some (s, LUA_OK) }


/-- Whether the object at address `a` is dead for the sweep: it is live in
the memory and its mark has a bit of the other white `ow`. -/
def deadIn (ow : Nat) (h : Heap) (a : Addr) : Bool :=
  match h a with
  | some x => isdeadm ow x.marked
  | none => false

/-- A memory with a pending finalizer: the thread 1, with a stack of four
slots, and the table 3 on `allgc`; the userdata 2, whose metatable is the
table 3 with a `__gc` field, on `tobefnz`. -/
def exGCTMHeap : Heap := fun a =>
  if a = 1 then
    some { exObj .LUA_VTHREAD 8 (some 3) with
      stack := some [.nil, .nil, .nil, .nil], stack_last := 4 }
  else if a = 2 then some { exObj .LUA_VUSERDATA 72 none with metatable := some 3 }
  else if a = 3 then some { exObj .LUA_VTABLE 8 none with tm_gc := some (.prim 0) }
  else none

/-- The state over `exGCTMHeap`, calling finalizers. -/
def exGCTM : global_State :=
  { global_State.blank with
    heap := exGCTMHeap, allgc := some 1, tobefnz := some 2, mainthread := 1,
    gcstate := GCScallfin }

/-- An environment in which the protected call of a finalizer fails: it
leaves the error object in the place of the function and returns the status
`LUA_ERRRUN`. -/
def exEnvErr : Env :=
  { shrunksize := fun t => t.stack_last,
    luaD_pcall := fun s L => (s.modobj L (fun l => { l with top := l.top - 1 })).map
      (fun s2 => (s2, 2)) }

/-- What the lookup of a finalizer reads of an object (its tag, its
metatable and the `__gc` field it caches), and whether it has a stack. -/
def tmview (o : GCObject) : Tag × Option Addr × Option TValue × Bool :=
  (o.tt, o.metatable, o.tm_gc, o.stack.isSome)

/-- Thread `L` can call the finalizers of the objects of `lt`: it is live
and has a stack, and the `__gc` metamethod of each object can be looked up
(its metatable, if it has one, is live). -/
def FinReady (g : global_State) (L : Addr) (lt : List Addr) : Prop :=
  (∃ l s, g.heap L = some l ∧ l.stack = some s) ∧
    ∀ o, o ∈ lt → ∃ tm, luaT_gettmbyobj g o .TM_GC = some tm

/-- The protected calls of finalizers by thread `L` return and leave the
collector alone: the state of the collector and the list `tobefnz` are what
they were, and `L` can go on calling finalizers. -/
def QuietCalls (env : Env) (L : Addr) : Prop :=
  ∀ s lt, IsList s.heap s.tobefnz lt → FinReady s L lt →
    ∃ s2 r, env.luaD_pcall s L = some (s2, r) ∧ s2.gcstate = s.gcstate ∧
      IsList s2.heap s2.tobefnz lt ∧ FinReady s2 L lt

/-! ## `lgc.c`: the change into incremental mode -/

/-- The loop of `whitelist`, with the white computed before it. -/
def whitelist_loop (white : Nat) : Nat → global_State → Option Addr → Option global_State
  | 0, _, _ => none
  | _ + 1, g, none => some g
  | fuel + 1, g, some p => do
    let x ← g.heap p
    whitelist_loop white fuel
      (g.setobj p { x with marked := cast_byte ((x.marked &&& bnot8 maskgcbits) ||| white) })
      x.next

/-- Traverse a list making all its elements white and clearing their age. -/
def whitelist (fuel : Nat) (g : global_State) (p : Option Addr) : Option global_State :=
  whitelist_loop (luaC_white g) fuel g p

/-- Enter incremental mode: turn all objects white, make all intermediate
lists point to `NULL`, and go to the pause state. -/
def enterinc (fuel : Nat) (g : global_State) : Option global_State := do
  let g1 ← whitelist fuel g g.allgc
  let g2 := { g1 with reallyold := none, old1 := none, survival := none }
  let g3 ← whitelist fuel g2 g2.finobj
  let g4 ← whitelist fuel g3 g3.tobefnz
  some { g4 with
    finobjrold := none, finobjold1 := none, finobjsur := none,
    gcstate := GCSpause, gckind := KGC_INC, lastatomic := 0 }

/-! ## `lgc.c`: pacing -/

/-- The largest value of the signed type `l_mem` (`MAX_LMEM` of `llimits.h`),
for the 64 bits of `lu_mem`. -/
def MAX_LMEM : Int := 2 ^ 63 - 1

/-- Macro `log2maxs(l_mem)` of `llimits.h`: the bits of `l_mem` less two. -/
def log2maxs_l_mem : Nat := 62

/-- Conversion to the signed type `l_mem`: 64 bits, two's complement. -/
def l_mem (z : Int) : Int := (z + 2 ^ 63) % 2 ^ 64 - 2 ^ 63

/-- Set the "time" to wait before starting a new GC cycle; the cycle will
start when memory use hits the threshold `estimate * pause / PAUSEADJ`.
`luaE_setdebt` of `lstate.c` is a parameter; the division by an `estimate`
of zero is undefined. -/
def setpause (luaE_setdebt : global_State → Int → global_State) (g : global_State) :
    Option global_State :=
  let pause : Int := ((getgcparam g.gcpause : Nat) : Int)
  let estimate : Int := l_mem ((g.GCestimate / PAUSEADJ : Nat) : Int)
  if estimate = 0 then none
  else
    let threshold : Int :=
      if pause < Int.tdiv MAX_LMEM estimate then l_mem (estimate * pause) else MAX_LMEM
    let debt : Int := l_mem (((gettotalbytes g : Nat) : Int) - threshold)
    let debt : Int := if debt > 0 then 0 else debt
    some (luaE_setdebt g debt)

/-- The loop of `incstep`: single steps until there is enough "credit"
(negative debt) or the cycle is finished (pause state). -/
def incstep_loop (env : Env) (fuelS : Nat) (L : Addr) (stepsize : Int) :
    Nat → global_State → Int → Option (global_State × Int)
  | 0, _, _ => none
  | fuel + 1, g, debt => do
    let (g1, work) ← singlestep env fuelS g L
    let debt1 : Int := l_mem (debt - ((work : Nat) : Int))
    if debt1 > -stepsize ∧ g1.gcstate ≠ GCSpause then
      incstep_loop env fuelS L stepsize fuel g1 debt1
    else some (g1, debt1)

/-- The work units of the debt at the start of `incstep`; the division is
unsigned, `WORK2MEM` being a `size_t`. -/
def incstep_debt (g : global_State) : Int :=
  l_mem (((lu_mem g.GCdebt / WORK2MEM : Nat) : Int) *
    ((getgcparam g.gcstepmul ||| 1 : Nat) : Int))

/-- The work units of one step of `incstep`. -/
def incstep_stepsize (g : global_State) : Int :=
  if g.gcstepsize ≤ log2maxs_l_mem then
    l_mem ((((1 <<< g.gcstepsize) / WORK2MEM : Nat) : Int) *
      ((getgcparam g.gcstepmul ||| 1 : Nat) : Int))
  else MAX_LMEM

/-- Perform a basic incremental step: the debt and the step size are
converted from bytes to units of work, single steps run until that many
units of work are added or the cycle is finished, and the debt that controls
the next step is set.  `luaE_setdebt` of `lstate.c` is a parameter. -/
def incstep (env : Env) (luaE_setdebt : global_State → Int → global_State)
    (fuelS fuel : Nat) (g : global_State) (L : Addr) : Option global_State := do
  let stepmul : Int := ((getgcparam g.gcstepmul ||| 1 : Nat) : Int)
  let (g1, d) ← incstep_loop env fuelS L (incstep_stepsize g) fuel g (incstep_debt g)
  if g1.gcstate = GCSpause then setpause luaE_setdebt g1
  else some (luaE_setdebt g1 (l_mem (Int.tdiv d stepmul * ((WORK2MEM : Nat) : Int))))

/-- The successive calls of `singlestep` from `g` do the works `ws` and end
in `g1`. -/
def Steps (env : Env) (fuelS : Nat) (L : Addr) :
    global_State → List Nat → global_State → Prop
  | g, [], g1 => g1 = g
  | g, w :: ws, g1 => ∃ gm, singlestep env fuelS g L = some (gm, w) ∧ Steps env fuelS L gm ws g1

/-- An implementation of `luaE_setdebt` for the examples: the debt is stored
and `totalbytes` is adjusted so that `gettotalbytes` stays the same. -/
def exSetdebt (g : global_State) (d : Int) : global_State :=
  { g with totalbytes := ((gettotalbytes g : Nat) : Int) - d, GCdebt := d }

/-- A state at the end of a cycle with the largest pause (the byte 255, a
pause of 1020) and an estimate of 904252160475958400 bytes, while 1000 bytes
are in use. -/
def exPause : global_State :=
  { global_State.blank with
    gcpause := 255, GCestimate := 904252160475958400, totalbytes := 1000, GCdebt := 0 }

/-- A state whose byte count does not fit `l_mem`. -/
def exPauseBig : global_State :=
  { global_State.blank with gcpause := 50, GCestimate := 100, totalbytes := -1, GCdebt := 0 }

/-- A state at the end of the sweep with a step size of `2^62` bytes and a
step multiplier of 33. -/
def exStep : global_State :=
  { global_State.blank with
    gcstate := GCSswpend, gcstepsize := 62, gcstepmul := 8, GCestimate := 1000 }

/-- A state at the end of the sweep with the default step size `2^13` and
the default step multiplier. -/
def exStep2 : global_State :=
  { global_State.blank with
    gcstate := GCSswpend, gcstepsize := 13, gcstepmul := 25, gcpause := 50,
    GCestimate := 1000, totalbytes := 1000 }

/-! ## The memory during marking -/

/-- One object after marking: link and tag are the same, and no white bit
was set. -/
def fades (x x2 : GCObject) : Prop :=
  x2.next = x.next ∧ x2.tt = x.tt ∧
    (x.marked &&& bitmask WHITE0BIT = 0 → x2.marked &&& bitmask WHITE0BIT = 0) ∧
    (x.marked &&& bitmask WHITE1BIT = 0 → x2.marked &&& bitmask WHITE1BIT = 0)

/-- The effect of marking on the memory: no object appears or disappears,
and each object `fades`. -/
def Fade (h h2 : Heap) : Prop :=
  ∀ a, (h a = none → h2 a = none) ∧ ∀ x, h a = some x → ∃ x2, h2 a = some x2 ∧ fades x x2

/-- The effect of marking on a state: the four heap lists keep their heads
and the memory fades. -/
def FadeS (g g2 : global_State) : Prop := heads g2 = heads g ∧ Fade g.heap g2.heap

/-- The objects to be finalized are safe from the sweep: `tobefnz` is the
list `lt`, the current white is one of the two white bits, and no object of
`lt` has the other white. -/
def TbfSafe (g : global_State) (lt : List Addr) : Prop :=
  (∃ la lf lx, Lists g la lf lt lx) ∧
    (g.currentwhite = bitmask WHITE0BIT ∨ g.currentwhite = bitmask WHITE1BIT) ∧
    ∀ a, a ∈ lt → ∀ x, g.heap a = some x → isdead g x.marked = false

/-- The objects to be finalized are all marked: `tobefnz` is the list `lt`
and none of its objects is white. -/
def TbfMarked (g : global_State) (lt : List Addr) : Prop :=
  (∃ la lf lx, Lists g la lf lt lx) ∧
    (g.currentwhite = bitmask WHITE0BIT ∨ g.currentwhite = bitmask WHITE1BIT) ∧
    ∀ a, a ∈ lt → ∀ x, g.heap a = some x → iswhite x.marked = false

/-! ## `lgc.c`: generational mode -/

/-- Sweep a list of objects to enter generational mode: delete the white
objects and turn the others old; threads go to `grayagain`, open upvalues are
gray, everything else is black. -/
def sweep2old : Nat → global_State → GCRef → Option global_State
  | 0, _, _ => none
  | fuel + 1, g, p => do
    let c ← g.load p
    match c with
    | none => some g
    | some curr => do
      let x ← g.heap curr
      if iswhite x.marked then do
        let g1 ← g.store p x.next
        let g2 ← freeobj g1 curr
        sweep2old fuel g2 p
      else do
        let g1 := g.setobj curr { x with marked := setage x.marked G_OLD }
        let g2 ← if x.tt = .LUA_VTHREAD then linkgclist g1 curr .grayagain
          else do
            let y ← g1.heap curr
            if x.tt = .LUA_VUPVAL ∧ upisopen x then
              some (g1.setobj curr { y with marked := set2gray y.marked })
            else some (g1.setobj curr { y with marked := nw2black y.marked })
        sweep2old fuel g2 (.next curr)

/-- A link of a gray list: the head of one of the lists of the global state,
or the `gclist` field of an object. -/
inductive GrayRef where
  | list (l : GrayList)
  | gclist (o : Addr)
  deriving DecidableEq, Repr

/-- Read through a gray-list link: `*p`. -/
def global_State.loadgray (g : global_State) : GrayRef → Option (Option Addr)
  | .list l => some (g.getlist l)
  | .gclist o => (g.heap o).map (fun x => x.gclist)

/-- Write through a gray-list link: `*p = v`. -/
def global_State.storegray (g : global_State) (p : GrayRef) (v : Option Addr) :
    Option global_State :=
  match p with
  | .list l => some (g.setlist l v)
  | .gclist o => (g.heap o).map (fun x => g.setobj o { x with gclist := v })

/-- Correct a gray list after a young collection: white objects are removed;
`TOUCHED1` objects become black `TOUCHED2` and stay; non-white threads stay;
everything else becomes black (and old, if `TOUCHED2`) and is removed.  The
result is the state and the link at the end of the list. -/
def correctgraylist : Nat → global_State → GrayRef → Option (global_State × GrayRef)
  | 0, _, _ => none
  | fuel + 1, g, p => do
    let c ← g.loadgray p
    match c with
    | none => some (g, p)
    | some curr => do
      let x ← g.heap curr
      let next := getgclist curr x
      if iswhite x.marked then do
        let nx ← next
        let v ← g.loadgray (.gclist nx)
        let g1 ← g.storegray p v
        correctgraylist fuel g1 p
      else if getage x.marked = G_TOUCHED1 then do
        let g1 := g.setobj curr
          { x with marked := changeage (nw2black x.marked) G_TOUCHED1 G_TOUCHED2 }
        let nx ← next
        correctgraylist fuel g1 (.gclist nx)
      else if x.tt = .LUA_VTHREAD then do
        let nx ← next
        correctgraylist fuel g (.gclist nx)
      else do
        let m := if getage x.marked = G_TOUCHED2 then changeage x.marked G_TOUCHED2 G_OLD
          else x.marked
        let g1 := g.setobj curr { x with marked := nw2black m }
        let nx ← next
        let v ← g1.loadgray (.gclist nx)
        let g2 ← g1.storegray p v
        correctgraylist fuel g2 p

/-- Correct all gray lists, coalescing them into `grayagain`. -/
def correctgraylists (fuel : Nat) (g : global_State) : Option global_State := do
  let (g1, l1) ← correctgraylist fuel g (.list .grayagain)
  let g2 ← g1.storegray l1 g1.weak
  let g2 := { g2 with weak := none }
  let (g3, l3) ← correctgraylist fuel g2 l1
  let g4 ← g3.storegray l3 g3.allweak
  let g4 := { g4 with allweak := none }
  let (g5, l5) ← correctgraylist fuel g4 l3
  let g6 ← g5.storegray l5 g5.ephemeron
  let g6 := { g6 with ephemeron := none }
  let (g7, _) ← correctgraylist fuel g6 l5
  some g7

/-- Finish a young-generation collection. -/
def finishgencycle (env : Env) (fuel : Nat) (L : Addr) (g : global_State) :
    Option global_State := do
  let g1 ← correctgraylists fuel g
  let g2 := checkSizes g1
  let g3 := { g2 with gcstate := GCSpropagate }
  if g3.gcemergency = 0 then callallpendingfinalizers env L fuel g3 else some g3

/-- Clear all gray lists, sweep the objects making the survivors old, and
prepare the sublists to enter generational mode. -/
def atomic2gen (env : Env) (fuel : Nat) (L : Addr) (g : global_State) :
    Option global_State := do
  let g := cleargraylists g
  let g := { g with gcstate := GCSswpallgc }
  let g ← sweep2old fuel g .allgc
  let g := { g with reallyold := g.allgc, old1 := g.allgc, survival := g.allgc, firstold1 := none }
  let g ← sweep2old fuel g .finobj
  let g := { g with finobjrold := g.finobj, finobjold1 := g.finobj, finobjsur := g.finobj }
  let g ← sweep2old fuel g .tobefnz
  let g := { g with gckind := KGC_GEN, lastatomic := 0 }
  let g := { g with GCestimate := gettotalbytes g }
  finishgencycle env fuel L g

/-- Set the debt for the next minor collection, which will happen when
memory grows `genminormul` per cent. -/
def setminordebt (luaE_setdebt : global_State → Int → global_State) (g : global_State) :
    global_State :=
  luaE_setdebt g
    (l_mem (-(l_mem (l_mem ((gettotalbytes g / 100 : Nat) : Int) * ((g.genminormul : Nat) : Int)))))

/-! ## `lgc.c`: full collections -/

/-- Advance the collector until it reaches a state allowed by `statesmask`. -/
def luaC_runtilstate (env : Env) (fuelS : Nat) (L : Addr) (statesmask : Nat) :
    Nat → global_State → Option global_State
  | 0, _ => none
  | fuel + 1, g =>
    if testbit statesmask g.gcstate ≠ 0 then some g
    else do
      let (g1, _) ← singlestep env fuelS g L
      luaC_runtilstate env fuelS L statesmask fuel g1

/-- Enter generational mode: run until the end of an atomic cycle, then turn
all objects old and finish the collection.  The result is the state and the
number of objects marked. -/
def entergen (luaE_setdebt : global_State → Int → global_State) (env : Env) (fuel : Nat)
    (L : Addr) (g : global_State) : Option (global_State × Nat) := do
  let g1 ← luaC_runtilstate env fuel L (bitmask GCSpause) fuel g
  let g2 ← luaC_runtilstate env fuel L (bitmask GCSpropagate) fuel g1
  let (g3, numobjs) ← atomic env fuel g2 L
  let g4 ← atomic2gen env fuel L g3
  some (setminordebt luaE_setdebt g4, numobjs)

/-- A full collection in generational mode. -/
def fullgen (luaE_setdebt : global_State → Int → global_State) (env : Env) (fuel : Nat)
    (L : Addr) (g : global_State) : Option (global_State × Nat) := do
  let g1 ← enterinc fuel g
  entergen luaE_setdebt env fuel L g1

/-- A full collection in incremental mode. -/
def fullinc (luaE_setdebt : global_State → Int → global_State) (env : Env) (fuel : Nat)
    (L : Addr) (g : global_State) : Option global_State := do
  let g1 ← (if keepinvariant g then entersweep fuel g else some g)
  let g2 ← luaC_runtilstate env fuel L (bitmask GCSpause) fuel g1
  let g3 ← luaC_runtilstate env fuel L (bitmask GCSpropagate) fuel g2
  let g4 := { g3 with gcstate := GCSenteratomic }
  let g5 ← luaC_runtilstate env fuel L (bitmask GCScallfin) fuel g4
  let g6 ← luaC_runtilstate env fuel L (bitmask GCSpause) fuel g5
  setpause luaE_setdebt g6

/-- A full GC cycle; if `isemergency`, a flag is set to avoid the operations
that could change the interpreter state in unexpected ways (running
finalizers and shrinking some structures). -/
def luaC_fullgc (luaE_setdebt : global_State → Int → global_State) (env : Env) (fuel : Nat)
    (g : global_State) (L : Addr) (isemergency : Nat) : Option global_State := do
  let g1 := { g with gcemergency := isemergency }
  let g2 ← (if g1.gckind = KGC_INC then fullinc luaE_setdebt env fuel L g1
    else (fullgen luaE_setdebt env fuel L g1).map (fun r => r.1))
  some { g2 with gcemergency := 0 }

/-- What the collector relies on for `luaE_setdebt` (of `lstate.c`): it
changes only `totalbytes` and `GCdebt`. -/
def DebtOnly (luaE_setdebt : global_State → Int → global_State) : Prop :=
  ∀ g d, ∃ tb db, luaE_setdebt g d = { g with totalbytes := tb, GCdebt := db }

/-! ## `lgc.c`: the creation of objects -/

/-- Modelled from the spec: the allocator `luaM_newobject` of `lmem.c`
("Allocation failure: surfaced to the mutator after an emergency full GC is
attempted; if still unable to allocate, the mutator raises a memory error";
"An allocation failure triggers `fullgc(emergency=true)`"; "`gcstopem` set
during `singlestep` prevents emergency GC within GC").  The allocator of the
host is the parameter `alloc`: in a state it hands out the address of a
block of `sz` bytes or fails.  When the first try fails and an emergency
collection is allowed, `luaC_fullgc(L, 1)` runs and the allocator is tried
again.  The bytes of the block are charged to the debt ("bytes allocated
since last charged to the GC").  The result is the state and the block; no
block is the memory error. -/
def luaM_newobject (luaE_setdebt : global_State → Int → global_State) (env : Env) (fuel : Nat)
    (alloc : global_State → Nat → Option Addr) (g : global_State) (L : Addr) (sz : Nat) :
    Option (global_State × Option Addr) :=
  match alloc g sz with
  | some p => some ({ g with GCdebt := g.GCdebt + sz }, some p)
  | none =>
    if g.gcstopem = 0 then do
      let g1 ← luaC_fullgc luaE_setdebt env fuel g L 1
      match alloc g1 sz with
      | some p => some ({ g1 with GCdebt := g1.GCdebt + sz }, some p)
      | none => some (g1, none)
    else some (g, none)

/-- Create a new collectable object and link it to `allgc`.  The block the
allocator returns holds `init`; the header is then written over it.  The
result is the state and the object; no object is the memory error. -/
def luaC_newobjdt (luaE_setdebt : global_State → Int → global_State) (env : Env) (fuel : Nat)
    (alloc : global_State → Nat → Option Addr) (g : global_State) (L : Addr) (tt : Tag)
    (sz : Nat) (init : GCObject) : Option (global_State × Option Addr) := do
  let (g1, b) ← luaM_newobject luaE_setdebt env fuel alloc g L sz
  match b with
  | none => some (g1, none)
  | some p => some (luaC_newobjdt_link g1 tt p init, some p)

def luaC_newobj (luaE_setdebt : global_State → Int → global_State) (env : Env) (fuel : Nat)
    (alloc : global_State → Nat → Option Addr) (g : global_State) (L : Addr) (tt : Tag)
    (sz : Nat) (init : GCObject) : Option (global_State × Option Addr) :=
  luaC_newobjdt luaE_setdebt env fuel alloc g L tt sz init

/-- State `g2` is state `g` with the new object `p` of tag `tt`: the mark of
the object is exactly the current white of `g` (no black bit, age `G_NEW`,
`FINALIZEDBIT` clear), the object heads `allgc` with the `allgc` list of `g`
as its tail, and `finobj`, `tobefnz`, `fixedgc`, `gcstate` and all other
objects are those of `g`. -/
def NewObj (g g2 : global_State) (tt : Tag) (p : Addr) : Prop :=
  (∃ o, g2.heap p = some o ∧ o.tt = tt ∧ o.marked = luaC_white g ∧
    isblack o.marked = false ∧ getage o.marked = G_NEW ∧ tofinalize o.marked = false ∧
    o.next = g.allgc) ∧
  g2.allgc = some p ∧
  (∀ l, IsList g.heap g.allgc l → IsList g2.heap g2.allgc (p :: l)) ∧
  g2.finobj = g.finobj ∧ g2.tobefnz = g.tobefnz ∧ g2.fixedgc = g.fixedgc ∧
  g2.gcstate = g.gcstate ∧ ∀ a, a ≠ p → g2.heap a = g.heap a

/-! ## `lgc.c`: changing the collector mode -/

/-- Change the collector mode to `newmode`. -/
def luaC_changemode (luaE_setdebt : global_State → Int → global_State) (env : Env) (fuel : Nat)
    (L : Addr) (g : global_State) (newmode : Nat) : Option global_State := do
  let g1 ← (if newmode ≠ g.gckind then
      (if newmode = KGC_GEN then (entergen luaE_setdebt env fuel L g).map (fun r => r.1)
        else enterinc fuel g)
    else some g)
  some { g1 with lastatomic := 0 }

/-- The state `exFin` in generational mode, between two young collections:
`firstold1` points to the table 1. -/
def exGenFin : global_State :=
  { exFin with
    gckind := KGC_GEN, gcstate := GCSpropagate, firstold1 := some 1,
    survival := some 2, old1 := some 3, finobjsur := some 5 }

/-! ## Marking, seen through a relation on marks -/

/-- What marking may do to the mark of an object, as far as a relation `R`
between the old and the new mark is concerned: `R` is a preorder that holds
across each elementary change of colour or age made while marking. -/
structure MarkRel (R : Nat → Nat → Prop) : Prop where
  refl : ∀ m, R m m
  trans : ∀ a b c, R a b → R b c → R a c
  gray : ∀ m, R m (set2gray m)
  black : ∀ m, R m (set2black m)
  nwblack : ∀ m, R m (nw2black m)
  old : ∀ m, getage m = G_TOUCHED2 → R m (changeage m G_TOUCHED2 G_OLD)

/-- Object `x2` is `x` repainted: same `next` link, same tag, and marks
related by `R`. -/
def paints (R : Nat → Nat → Prop) (x x2 : GCObject) : Prop :=
  x2.next = x.next ∧ x2.tt = x.tt ∧ R x.marked x2.marked

/-- Memory `h2` is `h` repainted: the same addresses are live, and each
object is repainted. -/
def Paint (R : Nat → Nat → Prop) (h h2 : Heap) : Prop :=
  ∀ a, (h a = none → h2 a = none) ∧ ∀ x, h a = some x → ∃ x2, h2 a = some x2 ∧ paints R x x2

/-- State `g2` is `g` repainted: the same list heads, and the memory
repainted. -/
def PaintS (R : Nat → Nat → Prop) (g g2 : global_State) : Prop :=
  heads g2 = heads g ∧ Paint R g.heap g2.heap

/-- The relation on marks "the same `FINALIZEDBIT`". -/
def SameFin (m m2 : Nat) : Prop := tofinalize m2 = tofinalize m

/-! ## Frames for the sweeps of generational mode -/

/-- An object apart from its list links: the `next` field and the links of
the list of open upvalues are erased. -/
def nolinks (o : GCObject) : GCObject :=
  { o with next := none, open_next := none, open_previous := none, openupval := none }

/-- A segment of a gray list: following `gclist` from `p` through the
objects `l` ends at `q`. -/
def IsGSeg (h : Heap) : Option Addr → List Addr → Option Addr → Prop
  | p, [], q => p = q
  | p, b :: l, q => p = some b ∧ ∃ o, h b = some o ∧ IsGSeg h o.gclist l q

/-- Whether the object at an address is white. -/
def whiteIn (h : Heap) (a : Addr) : Bool :=
  match h a with
  | some x => iswhite x.marked
  | none => false

/-- Whether the object at an address is a thread. -/
def threadIn (h : Heap) (a : Addr) : Bool :=
  match h a with
  | some x => decide (x.tt = .LUA_VTHREAD)
  | none => false

/-- The mark `sweep2old` leaves on a surviving object: old, and gray for a
thread or an open upvalue, black for anything else. -/
def mark2old (x : GCObject) : Nat :=
  if x.tt = .LUA_VTHREAD then set2gray (setage x.marked G_OLD)
  else if x.tt = .LUA_VUPVAL ∧ upisopen x then set2gray (setage x.marked G_OLD)
  else nw2black (setage x.marked G_OLD)

/-- The state after `sweep2old` has dealt with the surviving object `curr`,
which was `x`. -/
def after2old (g : global_State) (curr : Addr) (x : GCObject) : global_State :=
  if x.tt = .LUA_VTHREAD then
    { g.setobj curr { x with marked := mark2old x, gclist := g.grayagain } with
      grayagain := some curr }
  else g.setobj curr { x with marked := mark2old x }

/-- State `g2` differs from `g` at most in the memory, the heads of the
lists `allgc`, `finobj`, `tobefnz` and `grayagain`, the pointer `firstold1`,
the debt and the count of strings. -/
def SweepFrame (g g2 : global_State) : Prop :=
  g2 = { g with
    heap := g2.heap, allgc := g2.allgc, finobj := g2.finobj, tobefnz := g2.tobefnz,
    grayagain := g2.grayagain, firstold1 := g2.firstold1, GCdebt := g2.GCdebt,
    strt_nuse := g2.strt_nuse }

/-- What `sweep2old` leaves of the list `rest` at the link `p`: the non-white
objects stay linked from `*p` in their order and get the mark `mark2old`,
the white ones are freed, the surviving threads are pushed on `grayagain`,
and nothing else changes but list links. -/
def SweptOld (g : global_State) (p : GCRef) (rest : List Addr) (g2 : global_State) : Prop :=
  (∃ cs, g2.load p = some cs ∧ IsList g2.heap cs (rest.filter (fun a => !whiteIn g.heap a))) ∧
  (∀ a, a ∈ rest → whiteIn g.heap a = true → g2.heap a = none) ∧
  (∀ a x, a ∈ rest → g.heap a = some x → iswhite x.marked = false →
    ∃ x2, g2.heap a = some x2 ∧
      nolinks x2 = nolinks { x with marked := mark2old x, gclist := x2.gclist } ∧
      (x.tt ≠ .LUA_VTHREAD → x2.gclist = x.gclist)) ∧
  IsGSeg g2.heap g2.grayagain
    ((rest.filter (fun a => !whiteIn g.heap a && threadIn g.heap a)).reverse) g.grayagain ∧
  (∀ a, a ∉ rest → (g2.heap a).map nolinks = (g.heap a).map nolinks) ∧
  (∀ q, q ≠ p → (∀ s, q = .next s → s ∉ rest) → g2.load q = g.load q) ∧
  SweepFrame g g2

/-- No white upvalue among the objects `l` is open. -/
def DeadClosedIn (h : Heap) (l : List Addr) : Prop :=
  ∀ a ∈ l, ∀ y, h a = some y → iswhite y.marked = true → y.tt = .LUA_VUPVAL → upisopen y = false

/-- The table `nextage` of `sweepgen`: the age an object gets when it
survives a young collection; the table has seven entries. -/
def nextage : Nat → Option Nat
  | 0 => some G_SURVIVAL
  | 1 => some G_OLD1
  | 2 => some G_OLD1
  | 3 => some G_OLD
  | 4 => some G_OLD
  | 5 => some G_TOUCHED1
  | 6 => some G_TOUCHED2
  | _ => none

/-- The cell that the argument `pfirstold1` of `sweepgen` points to: the
field `firstold1` of the global state, or a local variable of the caller
(the `dummy` of `youngcollection`) with its content. -/
inductive FirstOld where
  | global
  | localvar (v : Option Addr)
  deriving DecidableEq, Repr

/-- Read the cell: `*pfirstold1`. -/
def FirstOld.read (g : global_State) : FirstOld → Option Addr
  | .global => g.firstold1
  | .localvar v => v

/-- Write the cell: `*pfirstold1 = v`. -/
def FirstOld.write (g : global_State) (pf : FirstOld) (v : Option Addr) :
    global_State × FirstOld :=
  match pf with
  | .global => ({ g with firstold1 := v }, .global)
  | .localvar _ => (g, .localvar v)

/-- The loop of `sweepgen`, with the white computed before it: delete the
white objects before `limit`; the others get their next age, and the new
ones the current white.  The result is the state, the link where the sweep
stopped and the cell `pfirstold1`. -/
def sweepgen_loop (white : Nat) (limit : Option Addr) :
    Nat → global_State → GCRef → FirstOld → Option (global_State × GCRef × FirstOld)
  | 0, _, _, _ => none
  | fuel + 1, g, p, pf => do
    let c ← g.load p
    if c = limit then some (g, p, pf)
    else
      match c with
      | none => none
      | some curr => do
        let x ← g.heap curr
        if iswhite x.marked then do
          let g1 ← g.store p x.next
          let g2 ← freeobj g1 curr
          sweepgen_loop white limit fuel g2 p pf
        else if getage x.marked = G_NEW then
          let marked := x.marked &&& bnot8 maskgcbits
          sweepgen_loop white limit fuel
            (g.setobj curr { x with marked := cast_byte (marked ||| G_SURVIVAL ||| white) })
            (.next curr) pf
        else do
          let na ← nextage (getage x.marked)
          let g1 := g.setobj curr { x with marked := setage x.marked na }
          let r := (if getage (setage x.marked na) = G_OLD1 ∧ pf.read g1 = none
            then pf.write g1 (some curr) else (g1, pf))
          sweepgen_loop white limit fuel r.1 (.next curr) r.2

/-- Sweep for generational mode: delete the dead objects of the list at `p`
up to `limit`, advance the ages of the others and clear the colour of the
new ones. -/
def sweepgen (fuel : Nat) (g : global_State) (p : GCRef) (limit : Option Addr)
    (pfirstold1 : FirstOld) : Option (global_State × GCRef × FirstOld) :=
  sweepgen_loop (luaC_white g) limit fuel g p pfirstold1

/-- The mark `sweepgen` leaves on a surviving object with mark `m`. -/
def markgen (white m : Nat) : Option Nat :=
  if getage m = G_NEW then some (cast_byte ((m &&& bnot8 maskgcbits) ||| G_SURVIVAL ||| white))
  else (nextage (getage m)).map (fun na => setage m na)

/-- The state and cell after `sweepgen` has dealt with the surviving object
`curr`, which was `x` and gets the mark `m2`. -/
def aftergen (g : global_State) (curr : Addr) (x : GCObject) (m2 : Nat) (pf : FirstOld) :
    global_State × FirstOld :=
  if getage x.marked ≠ G_NEW ∧ getage m2 = G_OLD1 ∧
      pf.read (g.setobj curr { x with marked := m2 }) = none
    then pf.write (g.setobj curr { x with marked := m2 }) (some curr)
    else (g.setobj curr { x with marked := m2 }, pf)

/-- What `sweepgen` leaves of the list at the link `p`, which is `pre`
followed by `post`, the sweep stopping where `post` starts: the non-white
objects of `pre` stay linked from `*p` in their order, followed by `post`,
and get the mark `markgen`; the white ones are freed; the link returned is
`p2`; nothing else changes but list links. -/
def SweptGen (white : Nat) (g : global_State) (p : GCRef) (pre post : List Addr)
    (g2 : global_State) (p2 : GCRef) : Prop :=
  (∃ cs, g2.load p = some cs ∧
    IsList g2.heap cs (pre.filter (fun a => !whiteIn g.heap a) ++ post)) ∧
  g2.load p2 = some post.head? ∧
  (pre.filter (fun a => !whiteIn g.heap a) = [] → p2 = p) ∧
  (∀ s, (pre.filter (fun a => !whiteIn g.heap a)).getLast? = some s → p2 = .next s) ∧
  (∀ a, a ∈ pre → whiteIn g.heap a = true → g2.heap a = none) ∧
  (∀ a x, a ∈ pre → g.heap a = some x → iswhite x.marked = false →
    ∃ m2 x2, markgen white x.marked = some m2 ∧ g2.heap a = some x2 ∧
      nolinks x2 = nolinks { x with marked := m2 }) ∧
  (∀ a, a ∉ pre → (g2.heap a).map nolinks = (g.heap a).map nolinks) ∧
  (∀ q, q ≠ p → (∀ s, q = .next s → s ∉ pre) → g2.load q = g.load q) ∧
  SweepFrame g g2

/-- A memory of userdata marked for finalization: on `finobj` the white 1,
the black 2, the white 3 and the old black 4; on `tobefnz` the white 5. -/
def exSepHeap : Heap := fun a =>
  if a = 1 then some (exObj .LUA_VUSERDATA 72 (some 2))
  else if a = 2 then some (exObj .LUA_VUSERDATA 96 (some 3))
  else if a = 3 then some (exObj .LUA_VUSERDATA 72 (some 4))
  else if a = 4 then some (exObj .LUA_VUSERDATA 100 none)
  else if a = 5 then some (exObj .LUA_VUSERDATA 72 none)
  else none

/-- The state over `exSepHeap` in a young collection; the old objects of
`finobj` start at the userdata 4. -/
def exSep : global_State :=
  { global_State.blank with
    heap := exSepHeap, finobj := some 1, tobefnz := some 5, gcstate := GCSatomic,
    gckind := KGC_GEN, finobjold1 := some 4 }

/-- Whether `reallymarkobject` links an object into the gray list: a table,
a closure, a prototype, a thread, or a userdata with user values. -/
def linked (x : GCObject) : Bool :=
  match x.tt with
  | .LUA_VSHRSTR => false
  | .LUA_VLNGSTR => false
  | .LUA_VUPVAL => false
  | .LUA_VUSERDATA => x.uv.length != 0
  | _ => true

/-- The referents that `reallymarkobject` visits at once have the kinds
their C types give them: the metatable of a userdata is a live table, and
the value of an upvalue can be read and, when collectable, is a live object
that is not an upvalue. -/
def RefsTyped (g : global_State) : Prop :=
  ∀ a x, g.heap a = some x →
    (x.tt = .LUA_VUSERDATA → ∀ mt, x.metatable = some mt →
      ∃ y, g.heap mt = some y ∧ y.tt = .LUA_VTABLE) ∧
    (x.tt = .LUA_VUPVAL → ∃ v, g.upvalue_v x = some v ∧
      ∀ t r, v = .gc t r → ∃ y, g.heap r = some y ∧ y.tt ≠ .LUA_VUPVAL)

/-- What marking leaves alone, and what it adds to the gray list: an object
that is not white is not touched, and the gray list stays a list, to which
only white objects of the linked kinds were added. -/
def MarkFrame (g : global_State) (g2 : global_State) : Prop :=
  (∀ a, whiteIn g.heap a = false → g2.heap a = g.heap a) ∧
  ∀ l, IsGList g.heap g.gray l → (∀ a, a ∈ l → whiteIn g.heap a = false) →
    ∃ l2, IsGList g2.heap g2.gray l2 ∧ ∀ a, a ∈ l2 →
      a ∈ l ∨ ∃ y, g.heap a = some y ∧ iswhite y.marked = true ∧ linked y = true

/-- A memory of white objects: the closed upvalue 1 that holds the table 2,
and the userdata 3 without user values whose metatable is the table 2. -/
def exMarkHeap : Heap := fun a =>
  if a = 1 then some { exObj .LUA_VUPVAL 8 (some 2) with value := .gc .LUA_VTABLE 2 }
  else if a = 2 then some (exObj .LUA_VTABLE 8 (some 3))
  else if a = 3 then some { exObj .LUA_VUSERDATA 8 none with metatable := some 2 }
  else none

/-- The state over `exMarkHeap` while marking, with an empty gray list. -/
def exMark : global_State :=
  { global_State.blank with heap := exMarkHeap, allgc := some 1, gcstate := GCSpropagate }

/-! ## The invariant of `FINALIZEDBIT` -/

/-- Every object of the memory `h2` is an object of `h` with the same
`FINALIZEDBIT`. -/
def FinKept (h h2 : Heap) : Prop :=
  ∀ a x2, h2 a = some x2 → ∃ x, h a = some x ∧ tofinalize x2.marked = tofinalize x.marked

/-- The invariant of `FINALIZEDBIT`: the four heap lists are `la` (`allgc`),
`lf` (`finobj`), `lt` (`tobefnz`) and `lx` (`fixedgc`), and an object has the
bit set if and only if it is on `finobj` or on `tobefnz`. -/
def FinInv (g : global_State) (la lf lt lx : List Addr) : Prop :=
  Lists g la lf lt lx ∧
    ∀ a x, g.heap a = some x → (tofinalize x.marked = true ↔ a ∈ lf ∨ a ∈ lt)

/-! ## The clearing of weak tables -/

/-- What `iscleared` answers in the memory `h`: whether `o` is a white
object that is not a string. -/
def clearedIn (h : Heap) (o : Option Addr) : Bool :=
  match o with
  | none => false
  | some a =>
    match h a with
    | some x => decide (novariant x.tt ≠ LUA_TSTRING) && iswhite x.marked
    | none => false

/-- What the node loops of `clearbykeys` and `clearbyvalues` leave of a node
whose key or value is to be cleared when `c` holds: the value is set empty
when `c` holds, and the key of a node with an empty value is cleared. -/
def clearnode (c : Bool) (nd : Node) : Node :=
  if isempty (if c then nd.setempty else nd).i_val then
    clearkey (if c then nd.setempty else nd)
  else (if c then nd.setempty else nd)

/-- What the array loop of `clearbyvalues` leaves of a slot. -/
def clearslot (c : Bool) (v : TValue) : TValue := if c then .empty else v

/-- A table after `clearbykeys`, the colours being those of the memory `h`. -/
def keyscleared (h : Heap) (t : GCObject) : GCObject :=
  { t with node := t.node.map (fun nd => clearnode (clearedIn h (gckeyN nd)) nd) }

/-- A table after `clearbyvalues`, the colours being those of the memory
`h`. -/
def valuescleared (h : Heap) (t : GCObject) : GCObject :=
  { t with
    array := t.array.map (fun v => clearslot (clearedIn h (gcvalueN v)) v),
    node := t.node.map (fun nd => clearnode (clearedIn h (gcvalueN nd.i_val)) nd) }

/-- The state `gi` while the weak tables of `g` are cleared: only the memory
differs; a string differs at most in its mark, which is not white once the
string was visited (`V`); another object `x` at `a` is now `T a x`. -/
def Clearing (T : Addr → GCObject → GCObject) (V : Addr → Prop) (g gi : global_State) : Prop :=
  gi = { g with heap := gi.heap } ∧
  ∀ a, (g.heap a = none → gi.heap a = none) ∧ ∀ x, g.heap a = some x →
    (novariant x.tt = LUA_TSTRING →
      ∃ m, gi.heap a = some { x with marked := m } ∧
        (iswhite x.marked = false → m = x.marked) ∧ (V a → iswhite m = false)) ∧
    (novariant x.tt ≠ LUA_TSTRING → gi.heap a = some (T a x))

/-- The contents `T` differ from the original objects only in the array and
the nodes. -/
def KeepsHeader (T : Addr → GCObject → GCObject) : Prop :=
  ∀ a x, T a x = { x with array := (T a x).array, node := (T a x).node }

/-- A memory with a weak table: the black table 1, whose array holds the
white table 2, the white string 3 and a number, and whose nodes are
`2 -> 1`, `1 -> 2`, `3 -> 3` and `7 -> 3` (key first; 1, 7 numbers, 2 and 3
the objects). -/
def exWeakHeap : Heap := fun a =>
  if a = 1 then some { exObj .LUA_VTABLE 32 (some 2) with
    array := [.gc .LUA_VTABLE 2, .gc .LUA_VSHRSTR 3, .prim 5],
    node := [{ i_val := .prim 1, key := .gc .LUA_VTABLE 2 },
      { i_val := .gc .LUA_VTABLE 2, key := .prim 1 },
      { i_val := .gc .LUA_VSHRSTR 3, key := .gc .LUA_VSHRSTR 3 },
      { i_val := .prim 3, key := .prim 7 }] }
  else if a = 2 then some (exObj .LUA_VTABLE 8 (some 3))
  else if a = 3 then some (exObj .LUA_VSHRSTR 8 none)
  else none

/-- The state over `exWeakHeap` in the atomic phase, the table 1 being the
only table on the list `allweak`. -/
def exWeak : global_State :=
  { global_State.blank with
    heap := exWeakHeap, allgc := some 1, allweak := some 1, gcstate := GCSatomic }

/-! ## Well-formed memories and the steps of the marker -/

/-- The fields of an object no traversal writes: everything but the mark,
the `gclist` link, the hash part, the stack and its limit, and `twups`. -/
def GCObject.frozen (x : GCObject) : GCObject :=
  { x with
    marked := 0, gclist := none, node := [], stack := none, stack_last := 0, twups := none }

/-- The fields of the state no traversal writes: everything but the memory,
the gray lists, `twups` and the debt. -/
def global_State.fixed (g : global_State) : global_State :=
  { g with
    heap := fun _ => none, GCdebt := 0, gray := none, grayagain := none, weak := none,
    ephemeron := none, allweak := none, twups := none }

/-- A hash node after a traversal: the same value, and the same key unless
the value is empty and the key was cleared. -/
def nodeKept (nd nd2 : Node) : Prop :=
  nd2.i_val = nd.i_val ∧ (nd2 = nd ∨ (isempty nd.i_val = true ∧ gckeyN nd2 = none))

/-- An object after a traversal: the frozen fields are the same, a non-white
object stays non-white, each hash node is kept, and the live slots of the
stack are the same. -/
def Touch (x x2 : GCObject) : Prop :=
  x2.frozen = x.frozen ∧
  (iswhite x.marked = false → iswhite x2.marked = false) ∧
  x2.node.length = x.node.length ∧
  (∀ i nd, x.node.get? i = some nd → ∃ nd2, x2.node.get? i = some nd2 ∧ nodeKept nd nd2) ∧
  (x.stack = none → x2.stack = none) ∧
  (∀ s, x.stack = some s → ∃ s2, x2.stack = some s2 ∧ ∀ i, i < x.top → s2.get? i = s.get? i)

/-- State `g2` is `g` after marking with the subjects `S`: the fixed fields
are the same, no object appears or disappears, each object is touched, and a
non-white object that is no subject is the same. -/
def Mk (S : Addr → Prop) (g g2 : global_State) : Prop :=
  g2.fixed = g.fixed ∧
  ∀ a, (g.heap a = none → g2.heap a = none) ∧
    ∀ x, g.heap a = some x → ∃ x2, g2.heap a = some x2 ∧ Touch x x2 ∧
      (¬ S a → iswhite x.marked = false → x2 = x)

/-- The object at an address is of a kind that has a `gclist` field. -/
def hasGclist (h : Heap) (a : Addr) : Prop := ∃ y, h a = some y ∧ getgclist a y = some a

/-- A step of the marker with the subjects `S`: the state is marked, the
objects pushed on the gray list were white, are not any more and have a
`gclist` field, and the objects `X` pushed on the ephemeron list are
subjects. -/
def Step (S : Addr → Prop) (X : List Addr) (g g2 : global_State) : Prop :=
  Mk S g g2 ∧
  (∃ N, IsGSeg g2.heap g2.gray N g.gray ∧
    ∀ a, a ∈ N → whiteIn g.heap a = true ∧ whiteIn g2.heap a = false ∧ hasGclist g.heap a) ∧
  IsGSeg g2.heap g2.ephemeron X g.ephemeron ∧ ∀ a, a ∈ X → S a

/-- A step that marks nothing but strings: the gray list is the same and the
white objects other than strings are the same. -/
def Quiet (g g2 : global_State) : Prop :=
  g2.gray = g.gray ∧
  ∀ a x, g.heap a = some x → iswhite x.marked = true → novariant x.tt ≠ LUA_TSTRING →
    g2.heap a = some x

/-- A value refers to nothing, or to a live object that is not an upvalue. -/
def ValOK (h : Heap) (v : TValue) : Prop :=
  ∀ t r, v = .gc t r → ∃ y, h r = some y ∧ y.tt ≠ .LUA_VUPVAL

/-- A pointer is `NULL` or refers to a live object. -/
def PtrOK (h : Heap) (p : Option Addr) : Prop := ∀ r, p = some r → ∃ y, h r = some y

/-- The memory with the link `u.open.next` in the place of `gclist`. -/
def uvHeap (h : Heap) : Heap := fun a => (h a).map (fun o => { o with gclist := o.open_next })

/-- The pointers of an object are valid: values and keys refer to live
objects that are not upvalues, a metatable is a table whose `__mode`, when
collectable, is live, the other pointers refer to live objects, the slot of
an open upvalue is a live slot of the stack of its thread, and the list of
open upvalues is finite. -/
structure WFObj (h : Heap) (x : GCObject) : Prop where
  metatable : ∀ mt, x.metatable = some mt → ∃ y, h mt = some y ∧ y.tt = .LUA_VTABLE ∧
    ∀ tg s, y.tm_mode = some (.gc tg s) → ∃ z, h s = some z
  array : ∀ v, v ∈ x.array → ValOK h v
  nodeval : ∀ nd, nd ∈ x.node → ValOK h nd.i_val
  nodekey : ∀ nd, nd ∈ x.node → ∀ r, gckeyN nd = some r → ∃ y, h r = some y ∧ y.tt ≠ .LUA_VUPVAL
  uv : ∀ v, v ∈ x.uv → ValOK h v
  cl_p : PtrOK h x.cl_p
  upvals : ∀ p, p ∈ x.upvals → PtrOK h p
  upvalue : ∀ v, v ∈ x.upvalue → ValOK h v
  source : PtrOK h x.source
  k : ∀ v, v ∈ x.k → ValOK h v
  upvalues : ∀ p, p ∈ x.upvalues → PtrOK h p
  p : ∀ p, p ∈ x.p → PtrOK h p
  locvars : ∀ p, p ∈ x.locvars → PtrOK h p
  stack : ∀ s, x.stack = some s → ∀ i v, i < x.top → s.get? i = some v → ValOK h v
  value : x.v = .closed → ValOK h x.value
  slot : ∀ th idx, x.v = .stack th idx →
    ∃ t s v, h th = some t ∧ t.stack = some s ∧ idx < t.top ∧ s.get? idx = some v
  opened : ∃ C, IsGSeg (uvHeap h) x.openupval C none

/-- A well-formed memory: the pointers of every object are valid. -/
def WF (g : global_State) : Prop := ∀ a x, g.heap a = some x → WFObj g.heap x

/-- The number of white objects among the addresses `U`. -/
def nwhite (U : List Addr) (h : Heap) : Nat := (U.filter (fun a => whiteIn h a)).length

/-- A hash entry is settled: when its value is not empty and its key is
marked (not a white object other than a string), its value is not white. -/
def EntryOK (h : Heap) (nd : Node) : Prop :=
  isempty nd.i_val = false → clearedIn h (gckeyN nd) = false →
    ∀ r, gcvalueN nd.i_val = some r → whiteIn h r = false

/-- The hash entries of the table at `a` are settled. -/
def EntriesOK (h : Heap) (a : Addr) : Prop :=
  ∀ t, h a = some t → ∀ nd, nd ∈ t.node → EntryOK h nd

/-- The value of a hash entry is settled for good: when it is not empty it
is not a white object. -/
def ValSettled (h : Heap) (nd : Node) : Prop :=
  isempty nd.i_val = false → ∀ r, gcvalueN nd.i_val = some r → whiteIn h r = false

/-- The values of all hash entries of the table at `a` are settled for
good. -/
def StrongOK (h : Heap) (a : Addr) : Prop :=
  ∀ t, h a = some t → ∀ nd, nd ∈ t.node → ValSettled h nd

/-- The object at an address is a table. -/
def tableIn (h : Heap) (a : Addr) : Prop := ∃ y, h a = some y ∧ y.tt = .LUA_VTABLE

/-- A memory with the gray ephemeron table 1 and the white tables 2, 3 and 4:
table 1 maps the key 2 to the value 3, and the number 1 to the value 4. -/
def exEphHeap : Heap := fun a =>
  if a = 1 then some { exObj .LUA_VTABLE 0 (some 2) with
    node := [{ i_val := .gc .LUA_VTABLE 3, key := .gc .LUA_VTABLE 2 },
             { i_val := .gc .LUA_VTABLE 4, key := .prim 1 }] }
  else if a = 2 then some (exObj .LUA_VTABLE 8 (some 3))
  else if a = 3 then some (exObj .LUA_VTABLE 8 (some 4))
  else if a = 4 then some (exObj .LUA_VTABLE 8 none)
  else none

/-- The state over `exEphHeap` in the atomic phase, with an empty gray list
and table 1 on the ephemeron list. -/
def exEph : global_State :=
  { global_State.blank with
    heap := exEphHeap, allgc := some 1, gcstate := GCSatomic, ephemeron := some 1 }

/-! ## Concrete states for the traversals -/

/-- A memory with the black table 1, whose metatable is the white table 2
with the `__mode` string 3, the white short string 3 that reads "kv", and the
white table 4 held in the array part of table 1. -/
def exModeHeap : Heap := fun a =>
  if a = 1 then some { exObj .LUA_VTABLE 32 (some 2) with
    metatable := some 2, alimit := 1, array := [.gc .LUA_VTABLE 4] }
  else if a = 2 then some { exObj .LUA_VTABLE 8 (some 3) with
    tm_mode := some (.gc .LUA_VSHRSTR 3) }
  else if a = 3 then some { exObj .LUA_VSHRSTR 8 (some 4) with contents := ['k', 'v'] }
  else if a = 4 then some (exObj .LUA_VTABLE 8 none)
  else none

/-- The state over `exModeHeap` while marking, with an empty gray list. -/
def exMode : global_State :=
  { global_State.blank with heap := exModeHeap, allgc := some 1, gcstate := GCSpropagate }

/-- The memory `exModeHeap` with another `__mode`: the short string 3 holds a
NUL followed by "kv". -/
def exModeNulHeap : Heap := fun a =>
  if a = 1 then some { exObj .LUA_VTABLE 32 (some 2) with
    metatable := some 2, alimit := 1, array := [.gc .LUA_VTABLE 4] }
  else if a = 2 then some { exObj .LUA_VTABLE 8 (some 3) with
    tm_mode := some (.gc .LUA_VSHRSTR 3) }
  else if a = 3 then some { exObj .LUA_VSHRSTR 8 (some 4) with
    contents := [Char.ofNat 0, 'k', 'v'] }
  else if a = 4 then some (exObj .LUA_VTABLE 8 none)
  else none

/-- The state over `exModeNulHeap` while marking, with an empty gray list. -/
def exModeNul : global_State :=
  { global_State.blank with heap := exModeNulHeap, allgc := some 1, gcstate := GCSpropagate }

/-! ## The visits of the hash loop of `traverseephemeron` -/

/-- Step `i + k` of the hash loop of `traverseephemeron` visits an entry with
a non-empty value for which `P` holds: `gk` is the state reached after `k`
steps of the loop started at step `i` in state `g` with the flags `f`, and
`nd` is the node the loop looks at then. -/
def ephVisit (h : Addr) (inv : Bool) (nsize i : Nat) (g : global_State) (f : EphFlags)
    (P : global_State → Node → Prop) (k : Nat) : Prop :=
  ∃ gk fk tk nd, traverseephemeron_loop h inv nsize k i g f = some (gk, fk) ∧
    gk.heap h = some tk ∧
    tk.node.get? (if inv then nsize - 1 - (i + k) else i + k) = some nd ∧
    isempty nd.i_val = false ∧ P gk nd

/-- The key of a node is a white object that is no string. -/
def keyCleared (g : global_State) (nd : Node) : Prop := clearedIn g.heap (gckeyN nd) = true

/-- The key of a node is a white object that is no string and its value is a
white object. -/
def wwEntry (g : global_State) (nd : Node) : Prop :=
  clearedIn g.heap (gckeyN nd) = true ∧ ∃ r, gcvalueN nd.i_val = some r ∧ whiteIn g.heap r = true

/-- A memory with the black table 1 and the white short string 2: the only
hash entry of the table maps the key 2 to the number 5. -/
def exStrKeyHeap : Heap := fun a =>
  if a = 1 then some { exObj .LUA_VTABLE 32 (some 2) with
    node := [{ i_val := .prim 5, key := .gc .LUA_VSHRSTR 2 }] }
  else if a = 2 then some (exObj .LUA_VSHRSTR 8 none)
  else none

/-- The state over `exStrKeyHeap` in the atomic phase, with empty gray
lists. -/
def exStrKey : global_State :=
  { global_State.blank with heap := exStrKeyHeap, allgc := some 1, gcstate := GCSatomic }

/-- The memory `exEphHeap` with table 1 black. -/
def exEphBHeap : Heap := fun a =>
  if a = 1 then some { exObj .LUA_VTABLE 32 (some 2) with
    node := [{ i_val := .gc .LUA_VTABLE 3, key := .gc .LUA_VTABLE 2 },
             { i_val := .gc .LUA_VTABLE 4, key := .prim 1 }] }
  else if a = 2 then some (exObj .LUA_VTABLE 8 (some 3))
  else if a = 3 then some (exObj .LUA_VTABLE 8 (some 4))
  else if a = 4 then some (exObj .LUA_VTABLE 8 none)
  else none

/-- The state over `exEphBHeap` in the atomic phase, with empty gray lists. -/
def exEphB : global_State :=
  { global_State.blank with heap := exEphBHeap, allgc := some 1, gcstate := GCSatomic }

/-! ## The start of a cycle -/

/-- The gray lists that only the traversals write. -/
def wlists (g : global_State) : Option Addr × Option Addr × Option Addr :=
  (g.grayagain, g.weak, g.allweak)

/-- A memory with the white main thread 1 and the white table 2 on `allgc`,
and the white table 3 on `tobefnz`. -/
def exRootHeap : Heap := fun a =>
  if a = 1 then some (exObj .LUA_VTHREAD 8 (some 2))
  else if a = 2 then some (exObj .LUA_VTABLE 8 none)
  else if a = 3 then some (exObj .LUA_VTABLE 8 none)
  else none

/-- The state over `exRootHeap` between two cycles: table 2 is the registry
and the metatable of the first basic type, and `grayagain` still holds
table 2 from the cycle before. -/
def exRoot : global_State :=
  { global_State.blank with
    heap := exRootHeap, allgc := some 1, tobefnz := some 3, mainthread := 1,
    l_registry := .gc .LUA_VTABLE 2, mt := [some 2, none], gcstate := GCSpause,
    grayagain := some 2 }

/-! ## The sweep cursor -/

/-- The collector state and the sweep cursor. -/
def sw (g : global_State) : Nat × Option GCRef := (g.gcstate, g.sweepgc)

/-- The sweep cursor is `NULL` outside the states that sweep a list: when
`gcstate` is pause, propagate, enteratomic, swpend or callfin, `sweepgc` is
`NULL`. -/
def SweepIdle (g : global_State) : Prop :=
  (g.gcstate = GCSpause ∨ g.gcstate = GCSpropagate ∨ g.gcstate = GCSenteratomic ∨
    g.gcstate = GCSswpend ∨ g.gcstate = GCScallfin) → g.sweepgc = none

/-- The assertion at the start of `entersweep`, in the state it is called
in: `lua_assert(g->sweepgc == NULL)`. -/
def entersweep_assert (g : global_State) : Prop := g.sweepgc = none

/-- The first half of `stepgenfull`: enter incremental mode when still in
generational mode, start a new cycle and mark everybody. The result is the
state and the number of objects traversed. -/
def stepgenfull_mark (env : Env) (fuel : Nat) (L : Addr) (g : global_State) :
    Option (global_State × Nat) := do
  let g1 ← (if g.gckind = KGC_GEN then enterinc fuel g else some g)
  let g2 ← luaC_runtilstate env fuel L (bitmask GCSpropagate) fuel g1
  atomic env fuel g2 L

/-- Does a major collection after the last collection was a "bad
collection". -/
def stepgenfull (luaE_setdebt : global_State → Int → global_State) (env : Env) (fuel : Nat)
    (L : Addr) (g : global_State) : Option global_State := do
  let lastatomic := g.lastatomic
  let (g3, newatomic) ← stepgenfull_mark env fuel L g
  if newatomic < lu_mem (((lastatomic + (lastatomic >>> 3) : Nat) : Int)) then do
    let g4 ← atomic2gen env fuel L g3
    some (setminordebt luaE_setdebt g4)
  else do
    let g4 := { g3 with GCestimate := gettotalbytes g3 }
    let g5 ← entersweep fuel g4
    let g6 ← luaC_runtilstate env fuel L (bitmask GCSpause) fuel g5
    let g7 ← setpause luaE_setdebt g6
    some { g7 with lastatomic := newatomic }

/-! ## The list of threads with open upvalues -/

/-- The threads linked through `twups` from `p` are exactly the list `l`. -/
def IsTwList (h : Heap) : Option Addr → List Addr → Prop
  | p, [] => p = none
  | p, b :: l => p = some b ∧ ∃ o, h b = some o ∧ IsTwList h o.twups l

/-- The `twups` link stored at an address, if the address is live. -/
def twOf (h : Heap) (a : Addr) : Option (Option Addr) := (h a).map (fun o => o.twups)

/-- The memory with the link `twups` in the place of `gclist`. -/
def twHeap (h : Heap) : Heap := fun a => (h a).map (fun o => { o with gclist := o.twups })

/-- The open upvalues of the thread at `th`, linked through `u.open.next`
from `openupval`, are exactly the list `C`. -/
def OpenUps (h : Heap) (th : Addr) (C : List Addr) : Prop :=
  ∃ x, h th = some x ∧ IsGSeg (uvHeap h) x.openupval C none

/-- State `g2` has the `twups` links of `g`: the head of the list and the
link of every object. -/
def TwSame (g g2 : global_State) : Prop :=
  g2.twups = g.twups ∧ ∀ a, twOf g2.heap a = twOf g.heap a

/-- A memory with three white threads on `twups`, each with one open upvalue
on its only stack slot: the slot of thread 1 holds thread 2, the slot of
thread 3 holds thread 1; the upvalues 4 (of thread 1) and 6 (of thread 3)
are gray, the upvalue 5 (of thread 2) is white. -/
def exTwHeap : Heap := fun a =>
  if a = 1 then some { exObj .LUA_VTHREAD 8 (some 2) with
    stack := some [.gc .LUA_VTHREAD 2], top := 1, stack_last := 1, openupval := some 4,
    twups := some 2 }
  else if a = 2 then some { exObj .LUA_VTHREAD 8 (some 3) with
    stack := some [.nil], top := 1, stack_last := 1, openupval := some 5, twups := some 3 }
  else if a = 3 then some { exObj .LUA_VTHREAD 8 (some 4) with
    stack := some [.gc .LUA_VTHREAD 1], top := 1, stack_last := 1, openupval := some 6,
    twups := none }
  else if a = 4 then some { exObj .LUA_VUPVAL 0 (some 5) with v := .stack 1 0 }
  else if a = 5 then some { exObj .LUA_VUPVAL 8 (some 6) with v := .stack 2 0 }
  else if a = 6 then some { exObj .LUA_VUPVAL 0 none with v := .stack 3 0 }
  else none

/-- The state over `exTwHeap` in the atomic phase: `twups` is the list of the
threads 1, 2 and 3. -/
def exTw : global_State :=
  { global_State.blank with
    heap := exTwHeap, allgc := some 1, mainthread := 1, gcstate := GCSatomic, twups := some 1 }

/-! ## What a mark paints -/

/-- What marking the object `o` paints: `o` itself and, when `o` is a
userdata without user values, its metatable. -/
def inFoot (h : Heap) (o a : Addr) : Prop :=
  a = o ∨ ∃ x, h o = some x ∧ x.tt = .LUA_VUSERDATA ∧ x.uv.length = 0 ∧ x.metatable = some a

/-- The weakness `traversetable` reads for the table `t`: whether the
`__mode` of its metatable is a short string that holds 'k' before its first
NUL, and whether it holds 'v' there; neither when there is no metatable, no
`__mode`, or a `__mode`
that is no short string. -/
def weakmode (h : Heap) (t : GCObject) : Bool × Bool :=
  match t.metatable with
  | none => (false, false)
  | some mt =>
    match h mt with
    | none => (false, false)
    | some y =>
      match y.tm_mode with
      | some (.gc .LUA_VSHRSTR s) =>
        match h s with
        | some z => (strchr z.contents 'k', strchr z.contents 'v')
        | none => (false, false)
      | _ => (false, false)

/-- The state over `exEphHeap` while propagating, with the strong table 1
alone on the gray list. -/
def exGray : global_State :=
  { exEph with gcstate := GCSpropagate, gray := some 1, ephemeron := none }

/-- A memory with the black table 1, whose array part is empty and whose
hash part maps the number 1 to the white string 2, the white table 3 to the
number 1, the number 2 to table 3, the white userdata 4 (no user values,
metatable 5) to the white table 5, the number 3 to table 1 itself, and the
number 4 to the white table 6. -/
def exWeakValHeap : Heap := fun a =>
  if a = 1 then some { exObj .LUA_VTABLE 32 (some 2) with
    node := [{ i_val := .gc .LUA_VSHRSTR 2, key := .prim 1 },
             { i_val := .prim 1, key := .gc .LUA_VTABLE 3 },
             { i_val := .gc .LUA_VTABLE 3, key := .prim 2 },
             { i_val := .gc .LUA_VTABLE 5, key := .gc .LUA_VUSERDATA 4 },
             { i_val := .gc .LUA_VTABLE 1, key := .prim 3 },
             { i_val := .gc .LUA_VTABLE 6, key := .prim 4 }] }
  else if a = 2 then some (exObj .LUA_VSHRSTR 8 (some 3))
  else if a = 3 then some (exObj .LUA_VTABLE 8 (some 4))
  else if a = 4 then some { exObj .LUA_VUSERDATA 8 (some 5) with metatable := some 5 }
  else if a = 5 then some (exObj .LUA_VTABLE 8 (some 6))
  else if a = 6 then some (exObj .LUA_VTABLE 8 none)
  else none

/-- The state over `exWeakValHeap` while propagating, with empty gray lists. -/
def exWeakVal : global_State :=
  { global_State.blank with heap := exWeakValHeap, allgc := some 1, gcstate := GCSpropagate }

/-! ## What the hash loop of `traverseephemeron` marks -/

/-- The index of the node that the hash loop of `traverseephemeron` looks at
in step `j`: `nsize - 1 - j` when `inv`, else `j`. -/
def ephIdx (inv : Bool) (nsize j : Nat) : Nat := if inv then nsize - 1 - j else j

/-- Node `nd` is an entry with a non-empty value that the hash loop looks at
in one of the steps `i ≤ j < i + n`, over the nodes `l`. -/
def ephRem (inv : Bool) (nsize i n : Nat) (l : List Node) (nd : Node) : Prop :=
  ∃ j, i ≤ j ∧ j < i + n ∧ l.get? (ephIdx inv nsize j) = some nd ∧ isempty nd.i_val = false

/-- Object `a` is the key of one of the entries `R` whose key is marked (not
a white object other than a string), or in the footprint of the white value
of such an entry. -/
def ephMarks (h : Heap) (R : Node → Prop) (a : Addr) : Prop :=
  ∃ nd, R nd ∧ clearedIn h (gckeyN nd) = false ∧
    (gckeyN nd = some a ∨
      ∃ v, gcvalueN nd.i_val = some v ∧ whiteIn h v = true ∧ inFoot h v a)

/-- No unmarked key (a white object other than a string) of the entries `R`
is in the footprint of a value of the entries `R`: it is no value, and not the
metatable of a value that is a userdata without user values. -/
def ephApart (h : Heap) (R : Node → Prop) : Prop :=
  ∀ nd, R nd → ∀ k, gckeyN nd = some k → clearedIn h (some k) = true →
    ∀ nd2, R nd2 → ∀ v, gcvalueN nd2.i_val = some v → ¬ inFoot h v k

/-- A memory with the black table 1, the white tables 2 and 3 and the white
userdata 4, which has no user values and the metatable 2: table 1 maps the
key 2 to the value 3, and the number 1 to the value 4, so that no value of
table 1 is a key of table 1. -/
def exEphDirHeap : Heap := fun a =>
  if a = 1 then some { exObj .LUA_VTABLE 32 (some 2) with
    node := [{ i_val := .gc .LUA_VTABLE 3, key := .gc .LUA_VTABLE 2 },
             { i_val := .gc .LUA_VUSERDATA 4, key := .prim 1 }] }
  else if a = 2 then some (exObj .LUA_VTABLE 8 (some 3))
  else if a = 3 then some (exObj .LUA_VTABLE 8 (some 4))
  else if a = 4 then some { exObj .LUA_VUSERDATA 8 none with metatable := some 2 }
  else none

/-- The state over `exEphDirHeap` in the atomic phase, with empty gray
lists. -/
def exEphDir : global_State :=
  { global_State.blank with heap := exEphDirHeap, allgc := some 1, gcstate := GCSatomic }

/-! ## Definitions for the runs of the collector -/

/-- A generational memory on `allgc`: the black table 2 of age `G_OLD` and
the white table 1 of age `G_NEW`. -/
def exBarOldHeap : Heap := fun a =>
  if a = 1 then some (exObj .LUA_VTABLE 8 none)
  else if a = 2 then some (exObj .LUA_VTABLE 36 (some 1))
  else none

/-- The state over `exBarOldHeap`, while marking. -/
def exBarOld : global_State :=
  { global_State.blank with
    heap := exBarOldHeap, allgc := some 2, gckind := KGC_GEN, gcstate := GCSpropagate }

/-- A memory at the end of a sweep, all objects of the current white: on
`allgc` the main thread 1, whose first stack slot holds the Lua closure 5,
the closure 5, its open upvalue 4 (the first slot of the thread 1, which is
on the list `twups`), the table 3 (a metatable with a `__gc` field) and the
string 6, which nothing refers to; on `tobefnz` the userdata 2 with the
metatable 3. -/
def exRunHeap : Heap := fun a =>
  if a = 1 then
    some { exObj .LUA_VTHREAD 8 (some 5) with
      stack := some [.gc .LUA_VLCL 5, .nil, .nil, .nil, .nil, .nil, .nil, .nil, .nil],
      top := 1, stack_last := 4, openupval := some 4 }
  else if a = 2 then some { exObj .LUA_VUSERDATA 72 none with metatable := some 3 }
  else if a = 3 then some { exObj .LUA_VTABLE 8 (some 6) with tm_gc := some (.prim 0) }
  else if a = 4 then some { exObj .LUA_VUPVAL 8 (some 3) with
      v := .stack 1 0, open_previous := some (.openupval 1) }
  else if a = 5 then some { exObj .LUA_VLCL 8 (some 4) with upvals := [some 4] }
  else if a = 6 then some (exObj .LUA_VSHRSTR 8 none)
  else none

/-- The state over `exRunHeap`, about to call finalizers, with 1000 bytes in
use. -/
def exRun : global_State :=
  { global_State.blank with
    heap := exRunHeap, allgc := some 1, tobefnz := some 2, mainthread := 1, twups := some 1,
    totalbytes := 1000, gcstate := GCScallfin }

/-- An environment in which the finalizer called runs out of memory: the
allocator answers with an emergency collection, `luaC_fullgc(L, 1)`, which is
allowed while `gcstopem` is 0; then the call pops the finalizer and its
argument and returns `LUA_OK`. -/
def exEnvGC : Env :=
  { shrunksize := fun t => t.stack_last,
    luaD_pcall := fun s L => do
      let s1 ← luaC_fullgc exSetdebt exEnv 60 s L 1
      let s2 ← s1.modobj L (fun l => { l with top := l.top - 2 })
      some (s2, LUA_OK) }

/-! ## The shape of the gray lists -/

/-- An object after a step of the marker: the tag and the `twups` link are the
same, a non-white object stays non-white and, unless it is a subject of the
step (`s`), keeps its `gclist` link. -/
def Kept (s : Prop) (x x2 : GCObject) : Prop :=
  x2.tt = x.tt ∧ x2.twups = x.twups ∧ (iswhite x.marked = false → iswhite x2.marked = false) ∧
    (iswhite x.marked = false → ¬ s → x2.gclist = x.gclist)

/-- State `g2` is `g` after the marker linked objects into gray lists: the
list `twups` has the same head, no object appears or disappears, each object
is kept, and each gray list of `g2` is a segment of new objects `N l` followed
by the list of `g`; the new objects were white or are subjects (`S`), are not
white any more and have a `gclist` field, those of the list `ephemeron` are
tables, and none is on two lists. -/
def Lk (S : Addr → Prop) (g g2 : global_State) : Prop :=
  g2.twups = g.twups ∧
  (∀ a, (g.heap a = none → g2.heap a = none) ∧
    ∀ x, g.heap a = some x → ∃ x2, g2.heap a = some x2 ∧ Kept (S a) x x2) ∧
  ∃ N : GrayList → List Addr,
    (∀ l, IsGSeg g2.heap (g2.getlist l) (N l) (g.getlist l)) ∧
    (∀ l a, a ∈ N l →
      (whiteIn g.heap a = true ∨ S a) ∧ whiteIn g2.heap a = false ∧ hasGclist g2.heap a ∧
        (l = .ephemeron → tableIn g2.heap a)) ∧
    ∀ l l2 a, a ∈ N l → a ∈ N l2 → l = l2

/-- The head of a gray list; `none` names a list that was detached from its
head, which `d` holds (the list `grayagain` saved by `atomic`, the list
`ephemeron` saved by `convergeephemerons`). -/
def ghead (g : global_State) (d : Option Addr) : Option GrayList → Option Addr
  | none => d
  | some l => g.getlist l

/-- The gray lists are well formed: each head leads through `gclist` to the
objects `Ls s` and ends, the objects on the lists are not white and have a
`gclist` field, those of the list `ephemeron` are tables, and no object is on
two lists. -/
structure GLs (g : global_State) (d : Option Addr) (Ls : Option GrayList → List Addr) :
    Prop where
  seg : ∀ s, IsGSeg g.heap (ghead g d s) (Ls s) none
  ok : ∀ s a, a ∈ Ls s → whiteIn g.heap a = false ∧ hasGclist g.heap a ∧
    (s = some .ephemeron → tableIn g.heap a)
  apart : ∀ s s2 a, a ∈ Ls s → a ∈ Ls s2 → s = s2

/-- The gray lists and the list `twups` are well formed. -/
def Shape (g : global_State) (d : Option Addr) : Prop :=
  (∃ Ls, GLs g d Ls) ∧ ∃ T, IsTwList g.heap g.twups T

/-- An object without its `next` link. -/
def nonext (o : GCObject) : GCObject := { o with next := none }

/-- State `g2` is `g` up to the links of the heap lists: only the heads
`allgc`, `finobj`, `tobefnz`, the pointer `finobjsur` and the `next` fields
of the objects may differ. -/
def NextOnly (g g2 : global_State) : Prop :=
  (∀ a, (g2.heap a).map nonext = (g.heap a).map nonext) ∧
  g2 = { g with
    heap := g2.heap, allgc := g2.allgc, finobj := g2.finobj, tobefnz := g2.tobefnz,
    finobjsur := g2.finobjsur }

/-- The lists `weak` and `allweak` keep their objects. -/
def KeepW (Ls Ls2 : Option GrayList → List Addr) : Prop :=
  ∀ a, (a ∈ Ls (some .weak) → a ∈ Ls2 (some .weak)) ∧
    (a ∈ Ls (some .allweak) → a ∈ Ls2 (some .allweak))

/-- Object `b` is on the gray list that starts at `p`. -/
def OnGList (h : Heap) (p : Option Addr) (b : Addr) : Prop := ∃ L, IsGSeg h p L none ∧ b ∈ L

/-- From state `g` to state `g2` the string cache and `finobjold1` are the
same, the live objects stay live, and the objects on the lists `weak` and
`allweak` stay on them. -/
def Fwd (g g2 : global_State) : Prop :=
  g2.strcache = g.strcache ∧ g2.finobjold1 = g.finobjold1 ∧
  (∀ a x, g.heap a = some x → ∃ x2, g2.heap a = some x2 ∧ x2.tt = x.tt) ∧
  ∀ b, (OnGList g.heap g.weak b → OnGList g2.heap g2.weak b) ∧
    (OnGList g.heap g.allweak b → OnGList g2.heap g2.allweak b)

/-- The invariant of the marker: the memory is well formed, every live
address is in the list `U`, and the gray lists, a detached list from `d` and
the list `twups` are well formed. -/
def MInv (U : List Addr) (g : global_State) (d : Option Addr) : Prop :=
  WF g ∧ (∀ a x, g.heap a = some x → a ∈ U) ∧ Shape g d

/-- An object after a write that changes at most the `next` link, the mark,
and entries of the array and of the hash part, where a value may become
empty and a key may be cleared. -/
def SoftObj (x x2 : GCObject) : Prop :=
  x2 = { x with next := x2.next, marked := x2.marked, array := x2.array, node := x2.node } ∧
  (∀ v, v ∈ x2.array → v ∈ x.array ∨ gcvalueN v = none) ∧
  ∀ nd2, nd2 ∈ x2.node → ∃ nd, nd ∈ x.node ∧
    (nd2.i_val = nd.i_val ∨ gcvalueN nd2.i_val = none) ∧
    (gckeyN nd2 = gckeyN nd ∨ gckeyN nd2 = none)

/-- A memory after such writes: no object appears or disappears. -/
def Soft (h h2 : Heap) : Prop :=
  ∀ a, (h a = none → h2 a = none) ∧ ∀ x, h a = some x → ∃ x2, h2 a = some x2 ∧ SoftObj x x2

/-- A memory at the end of the propagation phase: the black main thread 1,
with the closure 5 on its stack and the open upvalue 4 of that slot; the
userdata 2, to be finalized, with the metatable 3; the black table 3, which
is also the registry; the gray open upvalue 4; the black closure 5; the white
string 6, which nothing refers to; and the fixed string 7. -/
def exAtomHeap : Heap := fun a =>
  if a = 1 then
    some { exObj .LUA_VTHREAD 32 (some 5) with
      stack := some [.gc .LUA_VLCL 5, .nil, .nil, .nil, .nil, .nil, .nil, .nil, .nil],
      top := 1, stack_last := 4, openupval := some 4 }
  else if a = 2 then some { exObj .LUA_VUSERDATA 96 none with metatable := some 3 }
  else if a = 3 then some { exObj .LUA_VTABLE 32 (some 6) with tm_gc := some (.prim 0) }
  else if a = 4 then some { exObj .LUA_VUPVAL 0 (some 3) with
      v := .stack 1 0, open_previous := some (.openupval 1) }
  else if a = 5 then some { exObj .LUA_VLCL 32 (some 4) with upvals := [some 4] }
  else if a = 6 then some (exObj .LUA_VSHRSTR 8 none)
  else if a = 7 then some (exObj .LUA_VSHRSTR 4 none)
  else none

/-- The state over `exAtomHeap` about to enter the atomic phase: the main
thread runs, is on the list `twups` and on the list `grayagain`, the string
6 is in the string cache, and the current white is white 0. -/
def exAtom : global_State :=
  { global_State.blank with
    heap := exAtomHeap, allgc := some 1, tobefnz := some 2, fixedgc := some 7,
    mainthread := 1, twups := some 1, grayagain := some 1,
    l_registry := .gc .LUA_VTABLE 3, mt := [some 3, none], strcache := [some 6, none],
    memerrmsg := some 7, totalbytes := 1000, gcstate := GCSenteratomic }

/-- Whether some object at an address of `U` is a dead open upvalue. -/
def deadOpenIn (g : global_State) (U : List Addr) : Bool :=
  U.any (fun a =>
    match g.heap a with
    | some x => decide (x.tt = .LUA_VUPVAL) && isdead g x.marked && upisopen x
    | none => false)

/-- An allocator of the host that has no room while the string 6 is live and
hands out the block 9 once it is gone. -/
def exAlloc (s : global_State) (_sz : Nat) : Option Addr :=
  if (s.heap 6).isSome then none else some 9

/-! ## Theorems -/

/-! ### Memory lemmas -/

@[simp] theorem heap_set_same (h : Heap) (a : Addr) (o : GCObject) : Heap.set h a o a = some o := by
  simp [Heap.set]

theorem heap_set_ne (h : Heap) (a x : Addr) (o : GCObject) (hx : x ≠ a) :
    Heap.set h a o x = h x := by
  simp [Heap.set, hx]

@[simp] theorem heap_free_same (h : Heap) (a : Addr) : Heap.free h a a = none := by
  simp [Heap.free]

theorem heap_free_ne (h : Heap) (a x : Addr) (hx : x ≠ a) : Heap.free h a x = h x := by
  simp [Heap.free, hx]

theorem heap_set_apply (h : Heap) (a x : Addr) (o : GCObject) :
    Heap.set h a o x = if x = a then some o else h x := rfl

theorem heap_free_apply (h : Heap) (a x : Addr) :
    Heap.free h a x = if x = a then none else h x := rfl

theorem isList_iff_isSeg (h : Heap) (p : Option Addr) (l : List Addr) :
    IsList h p l ↔ IsSeg h p l none := by
  induction l generalizing p with
  | nil => simp [IsList, IsSeg]
  | cons b l ih =>
    simp only [IsList, IsSeg]
    constructor
    · rintro ⟨rfl, o, ho, hl⟩
      exact ⟨rfl, o, ho, (ih _).1 hl⟩
    · rintro ⟨rfl, o, ho, hl⟩
      exact ⟨rfl, o, ho, (ih _).2 hl⟩

theorem isSeg_cons_iff (h : Heap) (p : Option Addr) (b : Addr) (l : List Addr) (q : Option Addr) :
    IsSeg h p (b :: l) q ↔ p = some b ∧ ∃ o, h b = some o ∧ IsSeg h o.next l q := by
  simp only [IsSeg]

theorem isSeg_append_iff (h : Heap) (l1 l2 : List Addr) (p q : Option Addr) :
    IsSeg h p (l1 ++ l2) q ↔ ∃ r, IsSeg h p l1 r ∧ IsSeg h r l2 q := by
  induction l1 generalizing p with
  | nil =>
    constructor
    · intro hs
      exact ⟨p, rfl, hs⟩
    · rintro ⟨r, hr, hs⟩
      have : p = r := hr
      subst this
      exact hs
  | cons b l ih =>
    simp only [List.cons_append, isSeg_cons_iff]
    constructor
    · rintro ⟨rfl, o, ho, hs⟩
      obtain ⟨r, h1, h2⟩ := (ih _).1 hs
      exact ⟨r, ⟨rfl, o, ho, h1⟩, h2⟩
    · rintro ⟨r, ⟨rfl, o, ho, h1⟩, h2⟩
      exact ⟨rfl, o, ho, (ih _).2 ⟨r, h1, h2⟩⟩

/-- Every object of a segment is live. -/
theorem isSeg_live (h : Heap) (l : List Addr) (p q : Option Addr) (hs : IsSeg h p l q)
    (a : Addr) (ha : a ∈ l) : ∃ o, h a = some o := by
  induction l generalizing p with
  | nil => simp at ha
  | cons b l ih =>
    obtain ⟨rfl, o, ho, hs2⟩ := (isSeg_cons_iff h p b l q).1 hs
    rcases List.mem_cons.1 ha with rfl | hm
    · exact ⟨o, ho⟩
    · exact ih _ hs2 hm

/-- A segment only depends on the `next` links of its own objects. -/
theorem isSeg_frame (h h2 : Heap) (l : List Addr) (p q : Option Addr)
    (hsame : ∀ a ∈ l, nextOf h2 a = nextOf h a) (hs : IsSeg h p l q) : IsSeg h2 p l q := by
  induction l generalizing p with
  | nil => exact hs
  | cons b l ih =>
    obtain ⟨rfl, o, ho, hs2⟩ := (isSeg_cons_iff h p b l q).1 hs
    have hb := hsame b (List.mem_cons_self _ _)
    simp only [nextOf, ho, Option.map_some'] at hb
    cases h2b : h2 b with
    | none => simp [h2b] at hb
    | some o2 =>
      simp only [h2b, Option.map_some', Option.some.injEq] at hb
      refine (isSeg_cons_iff h2 _ b l q).2 ⟨rfl, o2, h2b, ?_⟩
      rw [hb]
      exact ih _ (fun a ha => hsame a (List.mem_cons_of_mem _ ha)) hs2

/-- The list from a pointer is unique. -/
theorem isSeg_unique (h : Heap) (l1 l2 : List Addr) (p : Option Addr)
    (h1 : IsSeg h p l1 none) (h2 : IsSeg h p l2 none) : l1 = l2 := by
  induction l1 generalizing p l2 with
  | nil =>
    have hp : p = none := h1
    subst hp
    cases l2 with
    | nil => rfl
    | cons b l => simp [IsSeg] at h2
  | cons b l ih =>
    obtain ⟨rfl, o, ho, hs⟩ := (isSeg_cons_iff h p b l none).1 h1
    cases l2 with
    | nil =>
      have : some b = none := h2
      simp at this
    | cons c l2 =>
      obtain ⟨hc, o2, ho2, hs2⟩ := (isSeg_cons_iff h _ c l2 none).1 h2
      simp only [Option.some.injEq] at hc
      subst hc
      rw [ho] at ho2
      simp only [Option.some.injEq] at ho2
      subst ho2
      rw [ih _ _ hs hs2]

/-! ### Lemmas on mark bytes -/

set_option maxRecDepth 1000000 in
theorem and_byte (m c : Nat) (hc : c < 256) : m &&& c = (m % 256) &&& c := by
  have h255 : ∀ c : Nat, c < 256 → 255 &&& c = c := by decide
  have h1 : m &&& 255 = m % 256 := Nat.and_pow_two_sub_one_eq_mod m 8
  calc m &&& c = m &&& (255 &&& c) := by rw [h255 c hc]
    _ = (m &&& 255) &&& c := by rw [Nat.and_assoc]
    _ = (m % 256) &&& c := by rw [h1]

theorem iswhite_mod (m : Nat) : iswhite m = iswhite (m % 256) := by
  unfold iswhite testbits
  rw [and_byte m WHITEBITS (by decide)]

theorem isblack_mod (m : Nat) : isblack m = isblack (m % 256) := by
  unfold isblack testbit testbits
  rw [and_byte m (bitmask BLACKBIT) (by decide)]

theorem tofinalize_mod (m : Nat) : tofinalize m = tofinalize (m % 256) := by
  unfold tofinalize testbit testbits
  rw [and_byte m (bitmask FINALIZEDBIT) (by decide)]

theorem getage_mod (m : Nat) : getage m = getage (m % 256) := by
  unfold getage
  rw [and_byte m AGEBITS (by decide)]

theorem keptbits_mod (m : Nat) : m &&& keptbits = (m % 256) &&& keptbits :=
  and_byte m keptbits (by decide)

theorem set2gray_mod (m : Nat) : set2gray m = set2gray (m % 256) := by
  unfold set2gray resetbits
  rw [and_byte m _ (by decide)]

theorem set2black_mod (m : Nat) : set2black m = set2black (m % 256) := by
  unfold set2black
  rw [and_byte m _ (by decide)]

theorem setage_mod (m a : Nat) : setage m a = setage (m % 256) a := by
  unfold setage
  rw [and_byte m _ (by decide)]

theorem makewhite_mod (g : global_State) (m : Nat) : makewhite g m = makewhite g (m % 256) := by
  unfold makewhite
  rw [and_byte m _ (by decide)]

set_option maxRecDepth 1000000 in
theorem luaC_white_cases (g : global_State) :
    luaC_white g = 0 ∨ luaC_white g = 8 ∨ luaC_white g = 16 ∨ luaC_white g = 24 := by
  have h : ∀ c : Nat, c < 256 → (c &&& 24 = 0 ∨ c &&& 24 = 8 ∨ c &&& 24 = 16 ∨ c &&& 24 = 24) := by
    decide
  have h24 : g.currentwhite &&& 24 = (g.currentwhite % 256) &&& 24 := and_byte _ 24 (by decide)
  have hlt : g.currentwhite % 256 &&& 24 < 256 :=
    lt_of_le_of_lt Nat.and_le_right (by decide)
  have hW : WHITEBITS = 24 := by decide
  unfold luaC_white cast_byte
  rw [hW, h24, Nat.mod_eq_of_lt hlt]
  exact h _ (Nat.mod_lt _ (by decide))

theorem luaC_white_of_onewhite (g : global_State) (h : onewhite g) :
    luaC_white g = 8 ∨ luaC_white g = 16 := by
  unfold onewhite at h
  unfold luaC_white cast_byte
  rcases h with h | h <;> rw [h] <;> decide

set_option maxRecDepth 1000000 in
theorem makewhite_byte (w : Nat) (hw : w = 8 ∨ w = 16) : ∀ m : Nat, m < 256 →
    cast_byte ((m &&& bnot8 maskcolors) ||| w) &&& WHITEBITS = w ∧
    isblack (cast_byte ((m &&& bnot8 maskcolors) ||| w)) = false ∧
    iswhite (cast_byte ((m &&& bnot8 maskcolors) ||| w)) = true ∧
    cast_byte ((m &&& bnot8 maskcolors) ||| w) &&& keptbits = m &&& keptbits := by
  rcases hw with rfl | rfl <;> decide

set_option maxRecDepth 1000000 in
theorem set2black_byte : ∀ m : Nat, m < 256 →
    isblack (set2black m) = true ∧ iswhite (set2black m) = false ∧
    set2black m &&& keptbits = m &&& keptbits := by
  decide

set_option maxRecDepth 1000000 in
theorem set2gray_byte : ∀ m : Nat, m < 256 →
    iswhite (set2gray m) = false ∧ isblack (set2gray m) = false ∧ isgray (set2gray m) = true ∧
    set2gray m &&& keptbits = m &&& keptbits := by
  decide

set_option maxRecDepth 1000000 in
theorem nw2black_byte : ∀ m : Nat, m < 256 → iswhite m = false →
    isblack (nw2black m) = true ∧ iswhite (nw2black m) = false ∧
    nw2black m &&& keptbits = m &&& keptbits := by
  decide

/-- Painting black or gray never leaves a white bit, whatever the byte. -/
theorem set2black_nonwhite (m : Nat) :
    iswhite (set2black m) = false ∧ isblack (set2black m) = true ∧
    set2black m &&& keptbits = m &&& keptbits := by
  rw [set2black_mod, keptbits_mod m]
  have := set2black_byte (m % 256) (Nat.mod_lt _ (by decide))
  exact ⟨this.2.1, this.1, this.2.2⟩

theorem set2gray_nonwhite (m : Nat) :
    iswhite (set2gray m) = false ∧ isblack (set2gray m) = false ∧
    set2gray m &&& keptbits = m &&& keptbits := by
  rw [set2gray_mod, keptbits_mod m]
  have := set2gray_byte (m % 256) (Nat.mod_lt _ (by decide))
  exact ⟨this.1, this.2.1, this.2.2.2⟩

/-- Marks that agree on the kept bits have the same age and the same
`FINALIZEDBIT`. -/
theorem kept_age_fin (a b : Nat) (h : a &&& keptbits = b &&& keptbits) :
    getage a = getage b ∧ tofinalize a = tofinalize b := by
  have h7 : keptbits &&& AGEBITS = AGEBITS := by decide
  have h64 : keptbits &&& bitmask FINALIZEDBIT = bitmask FINALIZEDBIT := by decide
  constructor
  · unfold getage
    rw [← h7, ← Nat.and_assoc, ← Nat.and_assoc, h]
  · unfold tofinalize testbit testbits
    rw [← h64, ← Nat.and_assoc, ← Nat.and_assoc, h]

theorem isgray_mod (m : Nat) : isgray m = isgray (m % 256) := by
  unfold isgray testbits
  rw [and_byte m _ (by decide)]

theorem isold_mod (m : Nat) : isold m = isold (m % 256) := by
  unfold isold
  rw [getage_mod]

set_option maxRecDepth 1000000 in
theorem back_byte : ∀ m : Nat, m < 256 →
    isgray (set2gray m) = true ∧ getage (set2gray m) = getage m ∧
    isold (set2gray m) = isold m ∧ tofinalize (set2gray m) = tofinalize m ∧
    isgray (setage (set2gray m) G_TOUCHED1) = true ∧
    getage (setage (set2gray m) G_TOUCHED1) = G_TOUCHED1 ∧
    tofinalize (setage (set2gray m) G_TOUCHED1) = tofinalize m := by
  decide

/-- The marks `luaC_barrierback_` can leave. -/
theorem back_mark (m : Nat) :
    isgray (set2gray m) = true ∧ getage (set2gray m) = getage m ∧
    isold (set2gray m) = isold m ∧ tofinalize (set2gray m) = tofinalize m ∧
    isgray (setage (set2gray m) G_TOUCHED1) = true ∧
    getage (setage (set2gray m) G_TOUCHED1) = G_TOUCHED1 ∧
    tofinalize (setage (set2gray m) G_TOUCHED1) = tofinalize m := by
  rw [set2gray_mod, getage_mod m, isold_mod m, tofinalize_mod m]
  exact back_byte _ (Nat.mod_lt _ (by decide))

/-! ### C2: colour exclusivity -/

/-- C2. Colour exclusivity: for every mark byte `m` and every state with
exactly one current white bit, `makewhite` yields exactly the current white
bit and no black bit, `set2black` yields black and no white bit, `set2gray`
yields neither, `nw2black` of a non-white byte yields black and no white bit;
each leaves the age bits, `FINALIZEDBIT` and `TESTBIT` unchanged, and no
result is both white and black or carries both white bits. -/
theorem color_exclusivity (g : global_State) (m : Nat) (hm : m < 256) (hw : onewhite g) :
    (makewhite g m &&& WHITEBITS = luaC_white g ∧
      (luaC_white g = bitmask WHITE0BIT ∨ luaC_white g = bitmask WHITE1BIT) ∧
      isblack (makewhite g m) = false ∧
      makewhite g m &&& keptbits = m &&& keptbits) ∧
    (isblack (set2black m) = true ∧ iswhite (set2black m) = false ∧
      set2black m &&& keptbits = m &&& keptbits) ∧
    (iswhite (set2gray m) = false ∧ isblack (set2gray m) = false ∧
      set2gray m &&& keptbits = m &&& keptbits) ∧
    (iswhite m = false →
      isblack (nw2black m) = true ∧ iswhite (nw2black m) = false ∧
      nw2black m &&& keptbits = m &&& keptbits) ∧
    (makewhite g m &&& WHITEBITS ≠ WHITEBITS ∧ set2black m &&& WHITEBITS ≠ WHITEBITS ∧
      set2gray m &&& WHITEBITS ≠ WHITEBITS ∧
      (iswhite m = false → nw2black m &&& WHITEBITS ≠ WHITEBITS)) := by
  have h1 := luaC_white_of_onewhite g hw
  have h2 := makewhite_byte (luaC_white g) h1 m hm
  have hb := set2black_byte m hm
  have hg := set2gray_byte m hm
  have hn := nw2black_byte m hm
  have hnw : ∀ x : Nat, iswhite x = false → x &&& WHITEBITS ≠ WHITEBITS := by
    intro x hx hx2
    simp [iswhite, testbits, hx2] at hx
    revert hx
    decide
  refine ⟨⟨h2.1, ?_, h2.2.1, h2.2.2.2⟩, hb, ⟨hg.1, hg.2.1, hg.2.2.2⟩, hn, ?_, hnw _ hb.2.1,
    hnw _ hg.1, fun h => hnw _ (hn h).2.1⟩
  · rcases h1 with h | h <;> rw [h] <;> decide
  · have h3 : makewhite g m &&& WHITEBITS = luaC_white g := h2.1
    rw [h3]
    rcases h1 with h | h <;> rw [h] <;> decide

/-- C2 at a concrete byte: a black, old, finalized mark. -/
theorem color_exclusivity_witness :
    makewhite global_State.blank 100 &&& WHITEBITS = luaC_white global_State.blank ∧
      isblack (set2black 100) = true :=
  have h := color_exclusivity global_State.blank 100 (by decide) (Or.inl (by decide))
  ⟨h.1.1, h.2.1.1⟩

/-! ### C3: allocation -/

theorem luaC_white_bits (g : global_State) :
    isblack (luaC_white g) = false ∧ getage (luaC_white g) = G_NEW ∧
      tofinalize (luaC_white g) = false := by
  rcases luaC_white_cases g with h | h | h | h <;> rw [h] <;> decide

/-- The second half of `luaC_newobjdt` at a fresh block. -/
theorem luaC_newobjdt_link_spec (g : global_State) (tt : Tag) (p : Addr) (init : GCObject)
    (hfresh : g.heap p = none) : NewObj g (luaC_newobjdt_link g tt p init) tt p := by
  have hb := luaC_white_bits g
  refine ⟨⟨_, heap_set_same _ _ _, rfl, rfl, hb.1, hb.2.1, hb.2.2, rfl⟩, rfl, ?_, rfl, rfl,
    rfl, rfl, ?_⟩
  · intro l hl
    refine ⟨rfl, _, heap_set_same _ _ _, ?_⟩
    rw [isList_iff_isSeg] at hl ⊢
    refine isSeg_frame g.heap _ l _ _ ?_ hl
    intro a ha
    have hne : a ≠ p := by
      rintro rfl
      obtain ⟨o, ho⟩ := isSeg_live _ _ _ _ hl a ha
      rw [hfresh] at ho
      cases ho
    show nextOf (Heap.set _ p _) a = nextOf g.heap a
    unfold nextOf
    rw [heap_set_ne _ _ _ _ hne]
  · intro a ha
    show Heap.set _ p _ a = g.heap a
    rw [heap_set_ne _ _ _ _ ha]

/-- The charge of the block to the debt changes nothing else. -/
theorem newObj_charge (g g2 : global_State) (tt : Tag) (p : Addr) (d : Int)
    (h : NewObj { g with GCdebt := d } g2 tt p) : NewObj g g2 tt p := h

/-- The allocator, when the first try hands out a block. -/
theorem luaM_newobject_first (luaE_setdebt : global_State → Int → global_State) (env : Env)
    (fuel : Nat) (alloc : global_State → Nat → Option Addr) (g : global_State) (L : Addr)
    (sz : Nat) (p : Addr) (h : alloc g sz = some p) :
    luaM_newobject luaE_setdebt env fuel alloc g L sz =
      some ({ g with GCdebt := g.GCdebt + sz }, some p) := by
  unfold luaM_newobject
  rw [h]

/-- The allocator, when the first try fails and the second one, after the
emergency collection, hands out a block. -/
theorem luaM_newobject_retry (luaE_setdebt : global_State → Int → global_State) (env : Env)
    (fuel : Nat) (alloc : global_State → Nat → Option Addr) (g : global_State) (L : Addr)
    (sz : Nat) (g0 : global_State) (p : Addr) (h : alloc g sz = none) (hs : g.gcstopem = 0)
    (hgc : luaC_fullgc luaE_setdebt env fuel g L 1 = some g0) (h0 : alloc g0 sz = some p) :
    luaM_newobject luaE_setdebt env fuel alloc g L sz =
      some ({ g0 with GCdebt := g0.GCdebt + sz }, some p) := by
  unfold luaM_newobject
  rw [h]
  simp only [hs, if_true, hgc, Option.bind_eq_bind, Option.some_bind, h0]

/-- The two ways in which the allocator hands out a block. -/
theorem luaM_newobject_cases (luaE_setdebt : global_State → Int → global_State) (env : Env)
    (fuel : Nat) (alloc : global_State → Nat → Option Addr) (g : global_State) (L : Addr)
    (sz : Nat) (g1 : global_State) (p : Addr)
    (h : luaM_newobject luaE_setdebt env fuel alloc g L sz = some (g1, some p)) :
    (alloc g sz = some p ∧ g1 = { g with GCdebt := g.GCdebt + sz }) ∨
    (alloc g sz = none ∧ g.gcstopem = 0 ∧
      ∃ g0, luaC_fullgc luaE_setdebt env fuel g L 1 = some g0 ∧ alloc g0 sz = some p ∧
        g1 = { g0 with GCdebt := g0.GCdebt + sz }) := by
  unfold luaM_newobject at h
  cases ha : alloc g sz with
  | some q =>
    rw [ha] at h
    simp only [Option.some.injEq, Prod.mk.injEq] at h
    obtain ⟨e1, e2⟩ := h
    subst e2
    exact Or.inl ⟨rfl, e1.symm⟩
  | none =>
    rw [ha] at h
    simp only at h
    split at h
    · rename_i hs
      simp only [Option.bind_eq_bind, Option.bind_eq_some] at h
      obtain ⟨g0, hgc, h⟩ := h
      cases h0 : alloc g0 sz with
      | some q =>
        rw [h0] at h
        simp only [Option.some.injEq, Prod.mk.injEq] at h
        obtain ⟨e1, e2⟩ := h
        subst e2
        exact Or.inr ⟨rfl, hs, g0, hgc, h0, e1.symm⟩
      | none =>
        rw [h0] at h
        simp only [Option.some.injEq, Prod.mk.injEq] at h
        exact absurd h.2 (by simp)
    · simp only [Option.some.injEq, Prod.mk.injEq] at h
      exact absurd h.2 (by simp)

/-- The function `luaC_newobjdt` links the block that the allocator hands
out. -/
theorem luaC_newobjdt_of (luaE_setdebt : global_State → Int → global_State) (env : Env)
    (fuel : Nat) (alloc : global_State → Nat → Option Addr) (g : global_State) (L : Addr)
    (tt : Tag) (sz : Nat) (init : GCObject) (g1 : global_State) (p : Addr)
    (h : luaM_newobject luaE_setdebt env fuel alloc g L sz = some (g1, some p)) :
    luaC_newobjdt luaE_setdebt env fuel alloc g L tt sz init =
      some (luaC_newobjdt_link g1 tt p init, some p) := by
  unfold luaC_newobjdt
  rw [h]
  rfl

/-- An object that `luaC_newobjdt` returns was linked in the state in which
the allocator handed out its block. -/
theorem luaC_newobjdt_some (luaE_setdebt : global_State → Int → global_State) (env : Env)
    (fuel : Nat) (alloc : global_State → Nat → Option Addr) (g : global_State) (L : Addr)
    (tt : Tag) (sz : Nat) (init : GCObject) (g2 : global_State) (p : Addr)
    (h : luaC_newobjdt luaE_setdebt env fuel alloc g L tt sz init = some (g2, some p)) :
    ∃ g1, luaM_newobject luaE_setdebt env fuel alloc g L sz = some (g1, some p) ∧
      g2 = luaC_newobjdt_link g1 tt p init := by
  unfold luaC_newobjdt at h
  simp only [Option.bind_eq_bind, Option.bind_eq_some] at h
  obtain ⟨⟨g1, b⟩, h1, h⟩ := h
  cases b with
  | none =>
    simp only [Option.some.injEq, Prod.mk.injEq] at h
    exact absurd h.2 (by simp)
  | some q =>
    simp only [Option.some.injEq, Prod.mk.injEq] at h
    obtain ⟨e1, e2⟩ := h
    subst e2
    exact ⟨g1, h1, e1.symm⟩

/-- C3, amended. `luaC_newobjdt` returns an object exactly when the allocator
hands out a block, at the first try or after the emergency collection that a
failed first try runs inside the call.  When the first try hands out a fresh
block, the call returns the fresh object with the tag `tt` and a mark that is
exactly the current white (no black bit, age `G_NEW`, `FINALIZEDBIT` clear),
at the head of `allgc` with the previous `allgc` list as its tail; `finobj`,
`tobefnz`, `fixedgc`, `gcstate` and all other objects are unchanged.  When
the first try fails, `gcstopem` is 0, `luaC_fullgc(L, 1)` leaves the state
`g0` and the second try hands out a block fresh in `g0`, the same holds with
`g0` in the place of the state of the call.  When the first try fails and
`gcstopem` is set, the call returns no object and the state as it was. -/
theorem luaC_newobjdt_spec (luaE_setdebt : global_State → Int → global_State) (env : Env)
    (fuel : Nat) (alloc : global_State → Nat → Option Addr) (g : global_State) (L : Addr)
    (tt : Tag) (sz : Nat) (init : GCObject) :
    (∀ p, alloc g sz = some p → g.heap p = none →
      ∃ g2, luaC_newobjdt luaE_setdebt env fuel alloc g L tt sz init = some (g2, some p) ∧
        NewObj g g2 tt p) ∧
    (∀ g0 p, alloc g sz = none → g.gcstopem = 0 →
      luaC_fullgc luaE_setdebt env fuel g L 1 = some g0 → alloc g0 sz = some p →
      g0.heap p = none →
      ∃ g2, luaC_newobjdt luaE_setdebt env fuel alloc g L tt sz init = some (g2, some p) ∧
        NewObj g0 g2 tt p) ∧
    (∀ g2 p, luaC_newobjdt luaE_setdebt env fuel alloc g L tt sz init = some (g2, some p) →
      alloc g sz = some p ∨
      (alloc g sz = none ∧ g.gcstopem = 0 ∧
        ∃ g0, luaC_fullgc luaE_setdebt env fuel g L 1 = some g0 ∧ alloc g0 sz = some p)) ∧
    (alloc g sz = none → g.gcstopem ≠ 0 →
      luaC_newobjdt luaE_setdebt env fuel alloc g L tt sz init = some (g, none)) := by
  refine ⟨?_, ?_, ?_, ?_⟩
  · intro p ha hp
    exact ⟨_, luaC_newobjdt_of _ _ _ _ _ _ tt _ init _ _
        (luaM_newobject_first luaE_setdebt env fuel alloc g L sz p ha),
      newObj_charge g _ tt p _ (luaC_newobjdt_link_spec _ tt p init hp)⟩
  · intro g0 p ha hs hgc h0 hp
    exact ⟨_, luaC_newobjdt_of _ _ _ _ _ _ tt _ init _ _
        (luaM_newobject_retry luaE_setdebt env fuel alloc g L sz g0 p ha hs hgc h0),
      newObj_charge g0 _ tt p _ (luaC_newobjdt_link_spec _ tt p init hp)⟩
  · intro g2 p h
    obtain ⟨g1, h1, -⟩ := luaC_newobjdt_some _ _ _ _ _ _ _ _ _ _ _ h
    rcases luaM_newobject_cases _ _ _ _ _ _ _ _ _ h1 with k | k
    · exact Or.inl k.1
    · obtain ⟨k1, k2, g0, k3, k4, -⟩ := k
      exact Or.inr ⟨k1, k2, g0, k3, k4⟩
  · intro ha hs
    unfold luaC_newobjdt luaM_newobject
    rw [ha]
    simp only [hs, if_false]
    rfl

/-! ### C4: `luaC_fix` -/

set_option maxRecDepth 1000000 in
theorem fix_byte : ∀ m : Nat, m < 256 →
    iswhite (setage (set2gray m) G_OLD) = false ∧ isblack (setage (set2gray m) G_OLD) = false ∧
    getage (setage (set2gray m) G_OLD) = G_OLD ∧
    tofinalize (setage (set2gray m) G_OLD) = tofinalize m := by
  decide

theorem fix_mark (m : Nat) :
    iswhite (setage (set2gray m) G_OLD) = false ∧ isblack (setage (set2gray m) G_OLD) = false ∧
    getage (setage (set2gray m) G_OLD) = G_OLD ∧
    tofinalize (setage (set2gray m) G_OLD) = tofinalize m := by
  rw [set2gray_mod, tofinalize_mod m]
  exact fix_byte _ (Nat.mod_lt _ (by decide))

/-- Overwriting an object that is not on a list keeps the list. -/
theorem isList_set_of_not_mem (h : Heap) (p : Option Addr) (l : List Addr) (a : Addr)
    (o : GCObject) (hl : IsList h p l) (ha : a ∉ l) : IsList (Heap.set h a o) p l := by
  rw [isList_iff_isSeg] at hl ⊢
  refine isSeg_frame h _ l _ _ ?_ hl
  intro b hb
  have hne : b ≠ a := fun e => ha (e ▸ hb)
  unfold nextOf
  rw [heap_set_ne _ _ _ _ hne]

/-- C4. For every state in which `o` is the head of `allgc`, `luaC_fix`
makes `allgc` the former successor list of `o`, makes `o` the head of
`fixedgc` with the old `fixedgc` as its tail, and leaves `o` gray with age
`G_OLD`; the `FINALIZEDBIT` of `o` and every other object are unchanged. -/
theorem luaC_fix_spec (g : global_State) (o : Addr) (x : GCObject) (la lx : List Addr)
    (hhead : IsList g.heap g.allgc (o :: la)) (hx : g.heap o = some x)
    (hla : o ∉ la) (hfix : IsList g.heap g.fixedgc lx) (hlx : o ∉ lx) :
    ∃ g2 x2, luaC_fix g o = some g2 ∧ g2.allgc = x.next ∧ IsList g2.heap g2.allgc la ∧
      g2.fixedgc = some o ∧ IsList g2.heap g2.fixedgc (o :: lx) ∧
      g2.heap o = some x2 ∧ x2.next = g.fixedgc ∧
      iswhite x2.marked = false ∧ isblack x2.marked = false ∧ getage x2.marked = G_OLD ∧
      tofinalize x2.marked = tofinalize x.marked ∧ x2.tt = x.tt ∧
      (∀ a, a ≠ o → g2.heap a = g.heap a) ∧
      g2.finobj = g.finobj ∧ g2.tobefnz = g.tobefnz ∧ g2.gcstate = g.gcstate := by
  have hm := fix_mark x.marked
  obtain ⟨_, y, hy, htail⟩ := hhead
  rw [hx] at hy
  cases hy
  have hrun : luaC_fix g o = some
      { g with
        heap := ((g.heap.set o { x with marked := set2gray x.marked }).set o
          { x with marked := setage (set2gray x.marked) G_OLD }).set o
          { x with marked := setage (set2gray x.marked) G_OLD, next := g.fixedgc },
        allgc := x.next, fixedgc := some o } := by
    simp [luaC_fix, hx, global_State.setobj]
  refine ⟨_, { x with marked := setage (set2gray x.marked) G_OLD, next := g.fixedgc }, hrun, rfl,
    ?_, rfl, ?_, heap_set_same _ _ _, rfl, hm.1, hm.2.1, hm.2.2.1, hm.2.2.2, rfl, ?_, rfl, rfl, rfl⟩
  · exact isList_set_of_not_mem _ _ _ _ _ (isList_set_of_not_mem _ _ _ _ _
      (isList_set_of_not_mem _ _ _ _ _ htail hla) hla) hla
  · refine ⟨rfl, _, heap_set_same _ _ _, ?_⟩
    exact isList_set_of_not_mem _ _ _ _ _ (isList_set_of_not_mem _ _ _ _ _
      (isList_set_of_not_mem _ _ _ _ _ hfix hlx) hlx) hlx
  · intro a ha
    simp only [heap_set_apply, if_neg ha]

/-! ### C6: `luaC_checkfinalizer` refuses -/

/-- C6. `luaC_checkfinalizer` leaves the whole state unchanged whenever `o`
already has `FINALIZEDBIT` set, or `mt` is `NULL` or defines no `__gc`
finalizer, or `gcstp` has the closing bit `GCSTPCLS` set. -/
theorem luaC_checkfinalizer_refuses (fuel : Nat) (g : global_State) (o : Addr) (x : GCObject)
    (mt : Option Addr) (hx : g.heap o = some x)
    (hmt : ∀ m, mt = some m → ∃ t, g.heap m = some t)
    (h : tofinalize x.marked = true ∨ mt = none ∨
      (∃ m t, mt = some m ∧ g.heap m = some t ∧ t.tm_gc = none) ∨
      g.gcstp &&& GCSTPCLS ≠ 0) :
    luaC_checkfinalizer fuel g o mt = some g := by
  unfold luaC_checkfinalizer
  simp only [hx, Option.bind_eq_bind, Option.some_bind]
  by_cases hfin : tofinalize x.marked = true
  · simp [hfin]
  · simp only [hfin, Bool.false_eq_true, if_false]
    cases mt with
    | none => simp [gfasttm]
    | some m =>
      obtain ⟨t, ht⟩ := hmt m rfl
      simp only [gfasttm, ht, Option.map_some', Option.some_bind]
      rcases h with h | h | ⟨m2, t2, hm2, ht2, hgc⟩ | h
      · exact absurd h hfin
      · cases h
      · cases hm2
        rw [ht] at ht2
        cases ht2
        simp [hgc]
      · by_cases hgc : t.tm_gc = none
        · simp [hgc]
        · simp [hgc, h]

/-! ### C8: the forward barrier in a sweep phase -/

/-- C8. For a black object `o` and a white object `v` in a sweep state: in
incremental mode `luaC_barrier_` re-tints `o` to the current white, keeping
its age bits and `FINALIZEDBIT`, and leaves `v` and every other object
unchanged; in generational mode it changes nothing. -/
theorem luaC_barrier_sweep (g : global_State) (o v : Addr) (oo vv : GCObject)
    (ho : g.heap o = some oo) (hv : g.heap v = some vv)
    (hblack : isblack oo.marked = true) (hnw : iswhite oo.marked = false)
    (hwhite : iswhite vv.marked = true) (hsweep : issweepphase g = true) (hw : onewhite g) :
    (g.gckind = KGC_INC → ∃ g2 o2, luaC_barrier_ g o v = some g2 ∧
      g2.heap o = some o2 ∧ o2.marked = makewhite g oo.marked ∧
      o2.marked &&& WHITEBITS = luaC_white g ∧ iswhite o2.marked = true ∧
      isblack o2.marked = false ∧
      o2.marked &&& keptbits = oo.marked &&& keptbits ∧
      getage o2.marked = getage oo.marked ∧ tofinalize o2.marked = tofinalize oo.marked ∧
      g2.heap v = some vv ∧ (∀ a, a ≠ o → g2.heap a = g.heap a) ∧
      g2.gcstate = g.gcstate ∧ g2.allgc = g.allgc ∧ g2.gray = g.gray) ∧
    (g.gckind ≠ KGC_INC → luaC_barrier_ g o v = some g) := by
  have hkeep : keepinvariant g = false := by
    simp only [issweepphase, GCSswpallgc, GCSswpend, Bool.and_eq_true, decide_eq_true_eq] at hsweep
    simp only [keepinvariant, GCSatomic, decide_eq_false_iff_not, not_le]
    omega
  have hne : v ≠ o := by
    rintro rfl
    rw [ho] at hv
    cases hv
    rw [hnw] at hwhite
    cases hwhite
  constructor
  · intro hinc
    have h1 := luaC_white_of_onewhite g hw
    have hmk : makewhite g oo.marked = makewhite g (oo.marked % 256) := makewhite_mod g _
    have h2 := makewhite_byte (luaC_white g) h1 (oo.marked % 256) (Nat.mod_lt _ (by decide))
    have hmk2 : makewhite g (oo.marked % 256) =
        cast_byte ((oo.marked % 256 &&& bnot8 maskcolors) ||| luaC_white g) := rfl
    rw [← hmk2, ← hmk, ← keptbits_mod] at h2
    refine ⟨g.setobj o { oo with marked := makewhite g oo.marked },
      { oo with marked := makewhite g oo.marked }, ?_, heap_set_same _ _ _, rfl, h2.1, h2.2.2.1,
      h2.2.1, h2.2.2.2, (kept_age_fin _ _ h2.2.2.2).1, (kept_age_fin _ _ h2.2.2.2).2, ?_, ?_,
      rfl, rfl, rfl⟩
    · simp [luaC_barrier_, hkeep, hinc, ho]
    · show Heap.set g.heap o _ v = some vv
      rw [heap_set_ne _ _ _ _ hne, hv]
    · intro a ha
      show Heap.set g.heap o _ a = g.heap a
      rw [heap_set_ne _ _ _ _ ha]
  · intro hgen
    simp [luaC_barrier_, hkeep, hgen]

/-! ### Marking: what `reallymarkobject` does to the memory -/

theorem heap_set_set (h : Heap) (a : Addr) (x y : GCObject) :
    Heap.set (Heap.set h a x) a y = Heap.set h a y := by
  funext b
  simp only [heap_set_apply]
  split <;> rfl

@[simp] theorem setlist_heap (g : global_State) (l : GrayList) (v : Option Addr) :
    (g.setlist l v).heap = g.heap := by
  cases l <;> rfl

@[simp] theorem setobj_heap (g : global_State) (a : Addr) (o : GCObject) :
    (g.setobj a o).heap = Heap.set g.heap a o := rfl

@[simp] theorem setobj_getlist (g : global_State) (a : Addr) (o : GCObject) (l : GrayList) :
    (g.setobj a o).getlist l = g.getlist l := by
  cases l <;> rfl

@[simp] theorem setlist_getlist (g : global_State) (l : GrayList) (v : Option Addr) :
    (g.setlist l v).getlist l = v := by
  cases l <;> rfl

/-- The memory after `linkobjgclist`: only `o` changes, it gets the old list
as `gclist` and a gray mark, and it is the new head of the list. -/
theorem linkobjgclist_heap (g g2 : global_State) (o : Addr) (l : GrayList)
    (h : linkobjgclist g o l = some g2) :
    ∃ x, g.heap o = some x ∧ getgclist o x = some o ∧
      g2.heap = Heap.set g.heap o { x with gclist := g.getlist l, marked := set2gray x.marked } ∧
      g2.getlist l = some o := by
  unfold linkobjgclist at h
  simp only [Option.bind_eq_bind, Option.bind_eq_some] at h
  obtain ⟨x, hx, h⟩ := h
  have hg : getgclist o x = some o := by
    unfold linkgclist_ at h
    cases hgl : getgclist o x with
    | none => simp [hgl] at h
    | some a =>
      unfold getgclist at hgl
      split at hgl <;> simp_all
  rw [hg] at h
  unfold linkgclist_ at h
  simp only [Option.bind_eq_bind, Option.some_bind, hx, setlist_heap, setobj_heap,
    heap_set_same, Option.some.injEq] at h
  subst h
  refine ⟨x, hx, hg, ?_, ?_⟩
  · simp only [setobj_heap, setlist_heap, heap_set_set]
  · simp


theorem markMono_refl (h : Heap) : MarkMono h h :=
  ⟨fun _ ha => ha, fun _ x hx => ⟨x, hx, rfl, rfl, rfl, fun _ => rfl⟩⟩

theorem markMono_trans (h1 h2 h3 : Heap) (h12 : MarkMono h1 h2) (h23 : MarkMono h2 h3) :
    MarkMono h1 h3 := by
  refine ⟨fun a ha => h23.1 a (h12.1 a ha), ?_⟩
  intro a x hx
  obtain ⟨x2, hx2, k1, k2, k3, k4⟩ := h12.2 a x hx
  obtain ⟨x3, hx3, j1, j2, j3, j4⟩ := h23.2 a x2 hx2
  refine ⟨x3, hx3, j1.trans k1, j2.trans k2, j3.trans k3, ?_⟩
  intro hw
  have e := k4 hw
  rw [j4 (by rw [e]; exact hw), e]

theorem markMono_toEffect (h h2 : Heap) (o : Addr) (hm : MarkMono h h2) : MarkEffect h o h2 := by
  refine ⟨hm.1, ?_⟩
  intro a x hx
  obtain ⟨x2, hx2, k1, k2, k3, k4⟩ := hm.2 a x hx
  exact ⟨x2, hx2, k1, k2, k3, fun _ hw => k4 hw, fun hw => by rw [k4 hw]; exact hw⟩

/-- Repainting one object to a colour that is not white. -/
theorem markEffect_single (h : Heap) (o : Addr) (x x2 : GCObject) (hx : h o = some x)
    (hn : x2.next = x.next) (ht : x2.tt = x.tt)
    (hk : x2.marked &&& keptbits = x.marked &&& keptbits) (hw : iswhite x2.marked = false) :
    MarkEffect h o (Heap.set h o x2) := by
  refine ⟨?_, ?_⟩
  · intro a ha
    have hne : a ≠ o := by
      rintro rfl
      rw [hx] at ha
      cases ha
    rw [heap_set_ne _ _ _ _ hne, ha]
  · intro a y hy
    by_cases hao : a = o
    · subst hao
      rw [hx] at hy
      cases hy
      exact ⟨x2, heap_set_same _ _ _, hn, ht, hk, fun hne => absurd rfl hne, fun _ => hw⟩
    · exact ⟨y, by rw [heap_set_ne _ _ _ _ hao, hy], rfl, rfl, rfl, fun _ _ => rfl, fun hw2 => hw2⟩

theorem markEffect_then_mono (h1 h2 h3 : Heap) (o : Addr) (h12 : MarkEffect h1 o h2)
    (h23 : MarkMono h2 h3) : MarkEffect h1 o h3 := by
  refine ⟨fun a ha => h23.1 a (h12.1 a ha), ?_⟩
  intro a x hx
  obtain ⟨x2, hx2, k1, k2, k3, k4, k5⟩ := h12.2 a x hx
  obtain ⟨x3, hx3, j1, j2, j3, j4⟩ := h23.2 a x2 hx2
  refine ⟨x3, hx3, j1.trans k1, j2.trans k2, j3.trans k3, ?_, ?_⟩
  · intro hne hw
    have e := k4 hne hw
    rw [j4 (by rw [e]; exact hw), e]
  · intro hw
    rw [j4 (k5 hw)]
    exact k5 hw

theorem markMono_then_single (h1 h2 : Heap) (o : Addr) (y y2 : GCObject) (h12 : MarkMono h1 h2)
    (hy : h2 o = some y) (hn : y2.next = y.next) (ht : y2.tt = y.tt)
    (hk : y2.marked &&& keptbits = y.marked &&& keptbits) (hw : iswhite y2.marked = false) :
    MarkEffect h1 o (Heap.set h2 o y2) := by
  have hs := markEffect_single h2 o y y2 hy hn ht hk hw
  refine ⟨fun a ha => hs.1 a (h12.1 a ha), ?_⟩
  intro a x hx
  obtain ⟨x2, hx2, k1, k2, k3, k4⟩ := h12.2 a x hx
  obtain ⟨x3, hx3, j1, j2, j3, j4, j5⟩ := hs.2 a x2 hx2
  refine ⟨x3, hx3, j1.trans k1, j2.trans k2, j3.trans k3, ?_, ?_⟩
  · intro hne hw2
    have e := k4 hw2
    rw [j4 hne (by rw [e]; exact hw2), e]
  · intro hw2
    exact j5 (by rw [k4 hw2]; exact hw2)

/-- Marking by `markobject_with` inherits the memory effect of the marking
function it is given. -/
theorem markobject_with_heap (mark : global_State → Addr → Option global_State)
    (hmark : ∀ (g : global_State) (o : Addr) (g2 : global_State), mark g o = some g2 →
      MarkEffect g.heap o g2.heap ∧
      (∀ x, g.heap o = some x → ∃ x2, g2.heap o = some x2 ∧ iswhite x2.marked = false ∧
        isblack x2.marked = blackened x))
    (g : global_State) (t : Addr) (g2 : global_State)
    (h : markobject_with mark g t = some g2) :
    MarkMono g.heap g2.heap ∧ (∃ x2, g2.heap t = some x2 ∧ iswhite x2.marked = false) := by
  unfold markobject_with at h
  simp only [Option.bind_eq_bind, Option.bind_eq_some] at h
  obtain ⟨x, hx, h⟩ := h
  split at h
  · rename_i hw
    obtain ⟨⟨h1, h2⟩, h3⟩ := hmark _ _ _ h
    refine ⟨⟨h1, ?_⟩, ?_⟩
    · intro a y hy
      obtain ⟨y2, hy2, k1, k2, k3, k4, k5⟩ := h2 a y hy
      refine ⟨y2, hy2, k1, k2, k3, ?_⟩
      intro hnw
      apply k4 _ hnw
      rintro rfl
      rw [hx] at hy
      cases hy
      rw [hw] at hnw
      cases hnw
    · obtain ⟨x2, hx2, k, -⟩ := h3 x hx
      exact ⟨x2, hx2, k⟩
  · rename_i hw
    cases h
    exact ⟨markMono_refl _, x, hx, by simpa using hw⟩

/-- What `reallymarkobject` does to the memory: only white objects and `o`
change their mark, and `o` ends black or gray according to its kind. -/
theorem markrec_heap (fuel : Nat) : ∀ (g : global_State) (o : Addr) (g2 : global_State),
    markrec fuel g o = some g2 →
    MarkEffect g.heap o g2.heap ∧
    (∀ x, g.heap o = some x → ∃ x2, g2.heap o = some x2 ∧ iswhite x2.marked = false ∧
      isblack x2.marked = blackened x) := by
  induction fuel with
  | zero => intro g o g2 h; simp [markrec] at h
  | succ n ih =>
    intro g o g2 h
    rw [markrec] at h
    simp only [Option.bind_eq_bind, Option.bind_eq_some] at h
    obtain ⟨x, hx, h⟩ := h
    have hB := set2black_nonwhite x.marked
    have hG := set2gray_nonwhite x.marked
    have hlink : ∀ g3, linkobjgclist g o .gray = some g3 → blackened x = false →
        MarkEffect g.heap o g3.heap ∧
        (∀ x, g.heap o = some x → ∃ x2, g3.heap o = some x2 ∧ iswhite x2.marked = false ∧
          isblack x2.marked = blackened x) := by
      intro g3 h3 hb
      obtain ⟨x1, hx1, -, hh, -⟩ := linkobjgclist_heap _ _ _ _ h3
      rw [hx] at hx1
      cases hx1
      rw [hh]
      refine ⟨markEffect_single _ _ x _ hx rfl rfl hG.2.2 hG.1, ?_⟩
      intro y hy
      rw [hx] at hy
      cases hy
      exact ⟨_, heap_set_same _ _ _, hG.1, by rw [hb]; exact hG.2.1⟩
    split at h
    · rename_i htt
      cases h
      refine ⟨markEffect_single _ _ x _ hx rfl rfl hB.2.2 hB.1, ?_⟩
      intro y hy
      rw [hx] at hy
      cases hy
      exact ⟨_, heap_set_same _ _ _, hB.1, by simp [blackened, htt, hB.2.1]⟩
    · rename_i htt
      cases h
      refine ⟨markEffect_single _ _ x _ hx rfl rfl hB.2.2 hB.1, ?_⟩
      intro y hy
      rw [hx] at hy
      cases hy
      exact ⟨_, heap_set_same _ _ _, hB.1, by simp [blackened, htt, hB.2.1]⟩
    · rename_i htt
      have hM : iswhite (if upisopen x = true then set2gray x.marked else set2black x.marked)
            = false ∧
          (if upisopen x = true then set2gray x.marked else set2black x.marked) &&& keptbits
            = x.marked &&& keptbits ∧
          isblack (if upisopen x = true then set2gray x.marked else set2black x.marked)
            = blackened x := by
        unfold blackened
        rw [htt]
        by_cases hop : upisopen x = true
        · simp only [hop, if_true, Bool.not_true]
          exact ⟨hG.1, hG.2.2, hG.2.1⟩
        · simp only [hop, Bool.false_eq_true, if_false]
          simp only [Bool.not_eq_true] at hop
          simp only [hop, Bool.not_false]
          exact ⟨hB.1, hB.2.2, hB.2.1⟩
      have hS := markEffect_single g.heap o x
        { x with marked := if upisopen x = true then set2gray x.marked else set2black x.marked }
        hx rfl rfl hM.2.1 hM.1
      split at h
      · cases h
      · rename_i tt r hval
        obtain ⟨hmono, -⟩ := markobject_with_heap _ ih _ _ _ h
        refine ⟨markEffect_then_mono _ _ _ _ hS hmono, ?_⟩
        intro y hy
        rw [hx] at hy
        cases hy
        obtain ⟨x2, hx2, -, -, -, k4⟩ := hmono.2 o _ (heap_set_same _ _ _)
        refine ⟨x2, hx2, ?_, ?_⟩
        · rw [k4 hM.1]; exact hM.1
        · rw [k4 hM.1]; exact hM.2.2
      · cases h
        refine ⟨hS, ?_⟩
        intro y hy
        rw [hx] at hy
        cases hy
        exact ⟨_, heap_set_same _ _ _, hM.1, hM.2.2⟩
    · rename_i htt
      split at h
      · rename_i hlen
        have hbl : blackened x = true := by
          unfold blackened
          rw [htt]
          simp [hlen]
        have hfin : ∀ g1 : global_State, MarkMono g.heap g1.heap →
            (g1.heap o).bind (fun y => some (g1.setobj o { y with marked := set2black y.marked }))
              = some g2 →
            MarkEffect g.heap o g2.heap ∧
            (∀ x, g.heap o = some x → ∃ x2, g2.heap o = some x2 ∧ iswhite x2.marked = false ∧
              isblack x2.marked = blackened x) := by
          intro g1 hmono hb
          simp only [Option.bind_eq_some] at hb
          obtain ⟨y, hy, hb⟩ := hb
          cases hb
          have hBy := set2black_nonwhite y.marked
          refine ⟨markMono_then_single _ _ _ y _ hmono hy rfl rfl hBy.2.2 hBy.1, ?_⟩
          intro z hz
          rw [hx] at hz
          cases hz
          exact ⟨_, heap_set_same _ _ _, hBy.1, by rw [hbl]; exact hBy.2.1⟩
        split at h
        · simp only [Option.some_bind] at h
          exact hfin g (markMono_refl _) h
        · rw [Option.bind_eq_some] at h
          obtain ⟨g1, h1, h⟩ := h
          obtain ⟨hmono, -⟩ := markobject_with_heap _ ih _ _ _ h1
          exact hfin g1 hmono h
      · rename_i hlen
        refine hlink _ h ?_
        unfold blackened
        rw [htt]
        simp [hlen]
    · rename_i h1 h2 h3 h4
      refine hlink _ h ?_
      unfold blackened
      split <;> simp_all

/-! ### The forward barrier while the invariant is kept -/

set_option maxRecDepth 1000000 in
theorem setage_byte : ∀ a : Nat, a < 8 → ∀ m : Nat, m < 256 →
    iswhite (setage m a) = iswhite m ∧ isblack (setage m a) = isblack m ∧
    getage (setage m a) = a ∧ tofinalize (setage m a) = tofinalize m ∧
    isgray (setage m a) = isgray m := by
  decide

theorem setage_mark (m a : Nat) (ha : a < 8) :
    iswhite (setage m a) = iswhite m ∧ isblack (setage m a) = isblack m ∧
    getage (setage m a) = a ∧ tofinalize (setage m a) = tofinalize m := by
  have h := setage_byte a ha (m % 256) (Nat.mod_lt _ (by decide))
  rw [setage_mod, iswhite_mod m, isblack_mod m, tofinalize_mod m]
  exact ⟨h.1, h.2.1, h.2.2.1, h.2.2.2.1⟩

/-- What a run of the forward barrier leaves, for a black object `o` and a
white object `v` while the invariant is kept: `v` is not white, the mark of
`o` is as it was, and the age of `v` is `G_OLD0` if `o` is old and unchanged
otherwise. -/
theorem luaC_barrier_keep_run (g : global_State) (o v : Addr) (oo vv : GCObject)
    (g2 : global_State) (ho : g.heap o = some oo) (hv : g.heap v = some vv)
    (hblack : isblack oo.marked = true) (hnw : iswhite oo.marked = false)
    (hwhite : iswhite vv.marked = true) (hkeep : keepinvariant g = true)
    (hrun : luaC_barrier_ g o v = some g2) :
    ∃ o2 v2, g2.heap o = some o2 ∧ g2.heap v = some v2 ∧
      iswhite v2.marked = false ∧ isblack v2.marked = blackened vv ∧
      o2.marked = oo.marked ∧ isblack o2.marked = true ∧
      (isold oo.marked = true → getage v2.marked = G_OLD0) ∧
      (isold oo.marked = false → getage v2.marked = getage vv.marked) ∧
      tofinalize v2.marked = tofinalize vv.marked := by
  have hne : o ≠ v := by
    rintro rfl
    rw [ho] at hv
    cases hv
    rw [hnw] at hwhite
    cases hwhite
  unfold luaC_barrier_ at hrun
  simp only [hkeep, if_true, Option.bind_eq_bind, Option.bind_eq_some] at hrun
  obtain ⟨g1, h1, o1, ho1, hrun⟩ := hrun
  obtain ⟨heff, hvv⟩ := markrec_heap 3 g v g1 h1
  obtain ⟨v1, hv1, hv1w, hv1b⟩ := hvv vv hv
  obtain ⟨o1b, ho1b, -, -, -, hsame, -⟩ := heff.2 o oo ho
  rw [ho1] at ho1b
  cases ho1b
  have hom : o1.marked = oo.marked := hsame hne hnw
  obtain ⟨v1b, hv1b2, -, -, hkept, -, -⟩ := heff.2 v vv hv
  rw [hv1] at hv1b2
  cases hv1b2
  have hage := kept_age_fin _ _ hkept
  rw [hom] at hrun
  by_cases hold : isold oo.marked = true
  · simp only [hold, if_true, Option.bind_eq_some] at hrun
    obtain ⟨v1c, hv1c, hrun⟩ := hrun
    rw [hv1] at hv1c
    cases hv1c
    cases hrun
    have hs := setage_mark v1.marked G_OLD0 (by decide)
    refine ⟨o1, _, ?_, heap_set_same _ _ _, ?_, ?_, hom, by rw [hom]; exact hblack,
      fun _ => hs.2.2.1, fun h => (by rw [hold] at h; cases h), ?_⟩
    · show Heap.set g1.heap v _ o = some o1
      rw [heap_set_ne _ _ _ _ hne, ho1]
    · exact hs.1.trans hv1w
    · exact hs.2.1.trans hv1b
    · exact hs.2.2.2.trans hage.2
  · simp only [hold, Bool.false_eq_true, if_false, Option.some.injEq] at hrun
    subst hrun
    refine ⟨o1, v1, ho1, hv1, hv1w, hv1b, hom, by rw [hom]; exact hblack,
      fun h => absurd h hold, fun _ => hage.1, hage.2⟩

/-! ### C9: the backward barrier -/

theorem linkobjgclist_eq (g : global_State) (o : Addr) (x : GCObject) (l : GrayList)
    (hx : g.heap o = some x) (hg : getgclist o x = some o) :
    linkobjgclist g o l = some
      (((g.setobj o { x with gclist := g.getlist l }).setlist l (some o)).setobj o
        { x with gclist := g.getlist l, marked := set2gray x.marked }) := by
  unfold linkobjgclist linkgclist_
  simp [hx, hg]

/-- Overwriting an object that is not on a gray list keeps the list. -/
theorem isGList_set_of_not_mem (h : Heap) (l : List Addr) : ∀ (p : Option Addr) (a : Addr)
    (o : GCObject), IsGList h p l → a ∉ l → IsGList (Heap.set h a o) p l := by
  induction l with
  | nil => intro p a o hl _; exact hl
  | cons b l ih =>
    intro p a o hl ha
    obtain ⟨hp, y, hy, hl2⟩ := hl
    have hne : b ≠ a := fun e => ha (e ▸ List.mem_cons_self _ _)
    refine ⟨hp, y, by rw [heap_set_ne _ _ _ _ hne, hy], ih _ _ _ hl2 ?_⟩
    exact fun hm => ha (List.mem_cons_of_mem _ hm)

/-- Overwriting an object without changing its `gclist` keeps a gray list. -/
theorem isGList_set_same_gclist (h : Heap) (l : List Addr) : ∀ (p : Option Addr) (a : Addr)
    (x o : GCObject), h a = some x → o.gclist = x.gclist → IsGList h p l →
    IsGList (Heap.set h a o) p l := by
  induction l with
  | nil => intro p a x o _ _ hl; exact hl
  | cons b l ih =>
    intro p a x o hx hg hl
    obtain ⟨hp, y, hy, hl2⟩ := hl
    by_cases hba : b = a
    · subst hba
      rw [hx] at hy
      cases hy
      refine ⟨hp, o, heap_set_same _ _ _, ?_⟩
      rw [hg]
      exact ih _ _ _ _ hx hg hl2
    · exact ⟨hp, y, by rw [heap_set_ne _ _ _ _ hba, hy], ih _ _ _ _ hx hg hl2⟩

/-- The backward barrier in detail. For every black object `o`,
`luaC_barrierback_` leaves `o` gray; an `o` whose age is not `G_TOUCHED2`
becomes the head of `grayagain` with the old list as its tail, whereas a
`G_TOUCHED2` object is only repainted and `grayagain` is left as it was; an old
`o` gets age `G_TOUCHED1`, any other keeps its age; no other object changes. -/
theorem luaC_barrierback_detail (g : global_State) (o : Addr) (oo : GCObject)
    (ho : g.heap o = some oo) (hblack : isblack oo.marked = true)
    (hnw : iswhite oo.marked = false)
    (hk : getage oo.marked = G_TOUCHED2 ∨ getgclist o oo = some o) :
    ∃ g2 o2, luaC_barrierback_ g o = some g2 ∧ g2.heap o = some o2 ∧
      isgray o2.marked = true ∧
      (getage oo.marked ≠ G_TOUCHED2 → g2.grayagain = some o ∧ o2.gclist = g.grayagain ∧
        ∀ l, IsGList g.heap g.grayagain l → o ∉ l → IsGList g2.heap g2.grayagain (o :: l)) ∧
      (getage oo.marked = G_TOUCHED2 → g2.grayagain = g.grayagain ∧ o2.gclist = oo.gclist ∧
        ∀ l, IsGList g.heap g.grayagain l → IsGList g2.heap g2.grayagain l) ∧
      (isold oo.marked = true → getage o2.marked = G_TOUCHED1) ∧
      (isold oo.marked = false → getage o2.marked = getage oo.marked) ∧
      tofinalize o2.marked = tofinalize oo.marked ∧
      (∀ a, a ≠ o → g2.heap a = g.heap a) := by
  have hb := back_mark oo.marked
  by_cases ht2 : getage oo.marked = G_TOUCHED2
  · have hold : isold oo.marked = true := by
      unfold isold
      rw [ht2]
      decide
    have hold2 : isold (set2gray oo.marked) = true := by rw [hb.2.2.1]; exact hold
    have hrun : luaC_barrierback_ g o = some
        ((g.setobj o { oo with marked := set2gray oo.marked }).setobj o
          { oo with marked := setage (set2gray oo.marked) G_TOUCHED1 }) := by
      unfold luaC_barrierback_
      simp [ho, ht2, hold2]
    refine ⟨_, _, hrun, heap_set_same _ _ _, hb.2.2.2.2.1, fun h => absurd ht2 h,
      fun _ => ⟨rfl, rfl, ?_⟩, fun _ => hb.2.2.2.2.2.1, fun h => (by rw [hold] at h; cases h),
      hb.2.2.2.2.2.2, ?_⟩
    · intro l hl
      simp only [setobj_heap, heap_set_set]
      exact isGList_set_same_gclist _ _ _ _ oo _ ho rfl hl
    · intro a ha
      simp only [setobj_heap, heap_set_set, heap_set_ne _ _ _ _ ha]
  · have hg : getgclist o oo = some o := by
      rcases hk with hk | hk
      · exact absurd hk ht2
      · exact hk
    have hlink := linkobjgclist_eq g o oo .grayagain ho hg
    by_cases hold : isold oo.marked = true
    · have hold2 : isold (set2gray oo.marked) = true := by rw [hb.2.2.1]; exact hold
      have hrun : luaC_barrierback_ g o = some
          ((((g.setobj o { oo with gclist := g.grayagain }).setlist .grayagain (some o)).setobj o
            { oo with gclist := g.grayagain, marked := set2gray oo.marked }).setobj o
            { oo with gclist := g.grayagain, marked := setage (set2gray oo.marked) G_TOUCHED1 }) := by
        unfold luaC_barrierback_
        simp [ho, ht2, hlink, hold2, global_State.getlist]
      refine ⟨_, _, hrun, heap_set_same _ _ _, hb.2.2.2.2.1, fun _ => ⟨rfl, rfl, ?_⟩,
        fun h => absurd h ht2, fun _ => hb.2.2.2.2.2.1, fun h => (by rw [hold] at h; cases h),
        hb.2.2.2.2.2.2, ?_⟩
      · intro l hl hnot
        refine ⟨rfl, _, heap_set_same _ _ _, ?_⟩
        simp only [setobj_heap, setlist_heap, heap_set_set]
        exact isGList_set_of_not_mem _ _ _ _ _ hl hnot
      · intro a ha
        simp only [setobj_heap, setlist_heap, heap_set_set, heap_set_ne _ _ _ _ ha]
    · have hold2 : isold (set2gray oo.marked) = false := by
        rw [hb.2.2.1]
        simpa using hold
      have hrun : luaC_barrierback_ g o = some
          (((g.setobj o { oo with gclist := g.grayagain }).setlist .grayagain (some o)).setobj o
            { oo with gclist := g.grayagain, marked := set2gray oo.marked }) := by
        unfold luaC_barrierback_
        simp [ho, ht2, hlink, hold2, global_State.getlist]
      refine ⟨_, _, hrun, heap_set_same _ _ _, hb.1, fun _ => ⟨rfl, rfl, ?_⟩,
        fun h => absurd h ht2, fun h => absurd h hold, fun _ => hb.2.1, hb.2.2.2.1, ?_⟩
      · intro l hl hnot
        refine ⟨rfl, _, heap_set_same _ _ _, ?_⟩
        simp only [setobj_heap, setlist_heap, heap_set_set]
        exact isGList_set_of_not_mem _ _ _ _ _ hl hnot
      · intro a ha
        simp only [setobj_heap, setlist_heap, heap_set_set, heap_set_ne _ _ _ _ ha]

/-- C9. For every black object `o` of a state whose gray lists follow the
rule of `lstate.h` (with `L` the objects of `grayagain`: a black object is on
the list exactly when its age is `G_TOUCHED2`, the one exception to "all
objects in these lists must be gray"), `luaC_barrierback_` returns; `o` is
gray afterwards and an element of the `grayagain` list, which is the old list
when the age of `o` was `G_TOUCHED2` and `o` followed by the old list
otherwise; an old `o` gets the age `G_TOUCHED1`, any other `o` keeps its age;
`FINALIZEDBIT` is kept and no other object changes. -/
theorem luaC_barrierback_spec (g : global_State) (o : Addr) (oo : GCObject) (L : List Addr)
    (ho : g.heap o = some oo) (hblack : isblack oo.marked = true)
    (hnw : iswhite oo.marked = false) (hL : IsGList g.heap g.grayagain L)
    (hk : getage oo.marked = G_TOUCHED2 ∨ getgclist o oo = some o)
    (hin : getage oo.marked = G_TOUCHED2 → o ∈ L)
    (hout : getage oo.marked ≠ G_TOUCHED2 → o ∉ L) :
    ∃ g2 o2 L2, luaC_barrierback_ g o = some g2 ∧ g2.heap o = some o2 ∧
      isgray o2.marked = true ∧ IsGList g2.heap g2.grayagain L2 ∧ o ∈ L2 ∧
      (getage oo.marked = G_TOUCHED2 → L2 = L) ∧
      (getage oo.marked ≠ G_TOUCHED2 → L2 = o :: L) ∧
      (isold oo.marked = true → getage o2.marked = G_TOUCHED1) ∧
      (isold oo.marked = false → getage o2.marked = getage oo.marked) ∧
      tofinalize o2.marked = tofinalize oo.marked ∧
      (∀ a, a ≠ o → g2.heap a = g.heap a) := by
  obtain ⟨g2, o2, e, h2, hg, hA, hB, hC, hD, hE, hF⟩ :=
    luaC_barrierback_detail g o oo ho hblack hnw hk
  by_cases ht2 : getage oo.marked = G_TOUCHED2
  · exact ⟨g2, o2, L, e, h2, hg, (hB ht2).2.2 L hL, hin ht2, fun _ => rfl,
      fun k => absurd ht2 k, hC, hD, hE, hF⟩
  · exact ⟨g2, o2, o :: L, e, h2, hg, (hA ht2).2.2 L hL (hout ht2), List.mem_cons_self _ _,
      fun k => absurd k ht2, fun _ => rfl, hC, hD, hE, hF⟩

/-! ### Witnesses at concrete states -/

/-- C4 at a concrete state: the string 1 at the head of `allgc` is fixed. -/
theorem luaC_fix_spec_witness :
    ∃ g2, luaC_fix exState 1 = some g2 ∧ g2.allgc = some 2 ∧ g2.fixedgc = some 1 := by
  obtain ⟨g2, x2, h1, h2, -, h3, -⟩ := luaC_fix_spec exState 1 (exObj .LUA_VSHRSTR 8 (some 2))
    [2] [3] ⟨rfl, _, rfl, rfl, _, rfl, rfl⟩ rfl (by decide) ⟨rfl, _, rfl, rfl⟩ (by decide)
  exact ⟨g2, h1, h2, h3⟩

/-- C6 at a concrete state: no metatable, nothing happens. -/
theorem luaC_checkfinalizer_refuses_witness :
    luaC_checkfinalizer 10 exState 2 none = some exState :=
  luaC_checkfinalizer_refuses 10 exState 2 (exObj .LUA_VTABLE 8 none) none rfl
    (fun m h => by cases h) (Or.inr (Or.inl rfl))

/-- C8 at a concrete state: a barrier while sweeping `allgc`. -/
theorem luaC_barrier_sweep_witness :
    ∃ g2 o2, luaC_barrier_ (exBarState GCSswpallgc) 2 1 = some g2 ∧ g2.heap 2 = some o2 ∧
      iswhite o2.marked = true ∧ isblack o2.marked = false := by
  obtain ⟨g2, o2, h1, h2, -, -, h3, h4, -⟩ := (luaC_barrier_sweep (exBarState GCSswpallgc) 2 1
    (exObj .LUA_VTABLE 32 (some 1)) (exObj .LUA_VSHRSTR 8 none) rfl rfl (by decide) (by decide)
    (by decide) (by decide) (Or.inl (by decide))).1 rfl
  exact ⟨g2, o2, h1, h2, h3, h4⟩

/-- C9 at two concrete states: the black table 2 of `exBarState`, of age
`G_NEW` and on no gray list, is linked at the head of `grayagain`; the black
table 1 of `exTouched`, of age `G_TOUCHED2` and on `grayagain`, is repainted
gray, gets the age `G_TOUCHED1` and is still on the list. -/
theorem luaC_barrierback_spec_witness :
    (∃ g2 o2, luaC_barrierback_ (exBarState GCSpropagate) 2 = some g2 ∧
      g2.heap 2 = some o2 ∧ isgray o2.marked = true ∧ IsGList g2.heap g2.grayagain [2]) ∧
    ∃ g2 o2, luaC_barrierback_ exTouched 1 = some g2 ∧ g2.heap 1 = some o2 ∧
      isgray o2.marked = true ∧ getage o2.marked = G_TOUCHED1 ∧
      IsGList g2.heap g2.grayagain [1] := by
  constructor
  · obtain ⟨g2, o2, L2, h1, h2, h3, h4, -, -, h5, -⟩ :=
      luaC_barrierback_spec (exBarState GCSpropagate) 2
        (exObj .LUA_VTABLE 32 (some 1)) [] rfl (by decide) (by decide) rfl (Or.inr rfl)
        (fun k => absurd k (by decide)) (fun _ k => by cases k)
    rw [h5 (by decide)] at h4
    exact ⟨g2, o2, h1, h2, h3, h4⟩
  · obtain ⟨g2, o2, L2, h1, h2, h3, h4, -, h5, -, h6, -⟩ :=
      luaC_barrierback_spec exTouched 1
        (exObj .LUA_VTABLE 38 none) [1] rfl (by decide) (by decide) ⟨rfl, _, rfl, rfl⟩
        (Or.inl (by decide)) (fun _ => List.mem_cons_self _ _)
        (fun k => absurd (by decide) k)
    rw [h5 (by decide)] at h4
    exact ⟨g2, o2, h1, h2, h3, h6 (by decide), h4⟩

/-! ### Unlinking an object from a heap list -/

theorem isList_head (h : Heap) (c : Addr) (l : List Addr) (hl : IsList h (some c) l) :
    ∃ l2, l = c :: l2 ∧ ∃ x, h c = some x ∧ IsList h x.next l2 := by
  cases l with
  | nil => cases hl
  | cons b l2 =>
    obtain ⟨hp, x, hx, hl2⟩ := hl
    cases hp
    exact ⟨l2, rfl, x, hx, hl2⟩

theorem isList_live (h : Heap) (l : List Addr) : ∀ (p : Option Addr), IsList h p l →
    ∀ a, a ∈ l → ∃ o, h a = some o := by
  intro p hl a ha
  rw [isList_iff_isSeg] at hl
  exact isSeg_live h l p none hl a ha

/-- The successor of an object of a list is on the list. -/
theorem isList_succ_mem (h : Heap) (l : List Addr) : ∀ (p : Option Addr), IsList h p l →
    ∀ (a c : Addr) (y : GCObject), a ∈ l → h a = some y → y.next = some c → c ∈ l := by
  induction l with
  | nil => intro p _ a c y ha; simp at ha
  | cons b l ih =>
    intro p hl a c y ha hy hyc
    obtain ⟨-, ob, hob, hl2⟩ := hl
    rcases List.mem_cons.1 ha with rfl | ha2
    · rw [hy] at hob
      cases hob
      rw [hyc] at hl2
      obtain ⟨l3, rfl, -⟩ := isList_head h c l hl2
      simp
    · exact List.mem_cons_of_mem _ (ih _ hl2 a c y ha2 hy hyc)

/-- Redirecting the `next` field of `a`, which pointed to `c`, to the
successor of `c` removes `c` from every list. -/
theorem isList_erase_next (h : Heap) (l : List Addr) : ∀ (p : Option Addr) (a c : Addr)
    (y x : GCObject), IsList h p l → l.Nodup → h a = some y → y.next = some c →
    h c = some x → (c ∈ l → a ∈ l) →
    IsList (Heap.set h a { y with next := x.next }) p (l.erase c) := by
  induction l with
  | nil => intro p a c y x hl _ _ _ _ _; exact hl
  | cons b l ih =>
    intro p a c y x hl hnd hy hyc hx hca
    obtain ⟨hp, ob, hob, hl2⟩ := hl
    have hbl : b ∉ l := (List.nodup_cons.1 hnd).1
    have hndl : l.Nodup := (List.nodup_cons.1 hnd).2
    by_cases hba : b = a
    · subst hba
      rw [hy] at hob
      cases hob
      rw [hyc] at hl2
      obtain ⟨l3, rfl, x2, hx2, hl3⟩ := isList_head h c l hl2
      rw [hx] at hx2
      cases hx2
      have hbc : b ≠ c := fun e => hbl (e ▸ List.mem_cons_self _ _)
      have hb3 : b ∉ l3 := fun hm => hbl (List.mem_cons_of_mem _ hm)
      have he : (b :: c :: l3).erase c = b :: l3 := by
        rw [List.erase_cons_tail (by simpa using hbc), List.erase_cons_head]
      rw [he]
      exact ⟨hp, _, heap_set_same _ _ _, isList_set_of_not_mem _ _ _ _ _ hl3 hb3⟩
    · have hbc : b ≠ c := by
        rintro rfl
        have ha : a ∈ b :: l := hca (List.mem_cons_self _ _)
        have ha2 : a ∈ l := by
          rcases List.mem_cons.1 ha with e | e
          · exact absurd e.symm hba
          · exact e
        exact hbl (isList_succ_mem h l _ hl2 a b y ha2 hy hyc)
      have he : (b :: l).erase c = b :: l.erase c := by
        rw [List.erase_cons_tail (by simpa using hbc)]
      rw [he]
      refine ⟨hp, ob, by rw [heap_set_ne _ _ _ _ hba, hob], ?_⟩
      apply ih _ a c y x hl2 hndl hy hyc hx
      intro hc
      rcases List.mem_cons.1 (hca (List.mem_cons_of_mem _ hc)) with e | e
      · exact absurd e.symm hba
      · exact e

/-- The consequences of the disjointness of the four lists. -/
theorem nodup4 (la lf lt lx : List Addr) (h : (la ++ lf ++ lt ++ lx).Nodup) :
    la.Nodup ∧ lf.Nodup ∧ lt.Nodup ∧ lx.Nodup ∧
    (∀ a, a ∈ la → a ∉ lf ∧ a ∉ lt ∧ a ∉ lx) ∧ (∀ a, a ∈ lf → a ∉ la ∧ a ∉ lt ∧ a ∉ lx) ∧
    (∀ a, a ∈ lt → a ∉ la ∧ a ∉ lf ∧ a ∉ lx) ∧ (∀ a, a ∈ lx → a ∉ la ∧ a ∉ lf ∧ a ∉ lt) := by
  simp only [List.nodup_append, List.mem_append, List.Disjoint] at h
  obtain ⟨⟨⟨ha, hf, haf⟩, ht, haft⟩, hx, hall⟩ := h
  refine ⟨ha, hf, ht, hx, ?_, ?_, ?_, ?_⟩
  · intro a h1
    exact ⟨fun h2 => haf h1 h2, fun h2 => haft (Or.inl h1) h2,
      fun h2 => hall (Or.inl (Or.inl h1)) h2⟩
  · intro a h1
    exact ⟨fun h2 => haf h2 h1, fun h2 => haft (Or.inr h1) h2,
      fun h2 => hall (Or.inl (Or.inr h1)) h2⟩
  · intro a h1
    exact ⟨fun h2 => haft (Or.inl h2) h1, fun h2 => haft (Or.inr h2) h1,
      fun h2 => hall (Or.inr h1) h2⟩
  · intro a h1
    exact ⟨fun h2 => hall (Or.inl (Or.inl h2)) h1, fun h2 => hall (Or.inl (Or.inr h2)) h1,
      fun h2 => hall (Or.inr h2) h1⟩

/-- Erasing an object from four disjoint lists leaves disjoint lists that
miss exactly that object. -/
theorem nodup4_erase (la lf lt lx : List Addr) (c : Addr)
    (h : (la ++ lf ++ lt ++ lx).Nodup) :
    (c :: (la.erase c ++ lf.erase c ++ lt.erase c ++ lx.erase c)).Nodup ∧
    ∀ a, a ∈ la.erase c ++ lf.erase c ++ lt.erase c ++ lx.erase c ↔
      a ≠ c ∧ a ∈ la ++ lf ++ lt ++ lx := by
  obtain ⟨ha, hf, ht, hx, -⟩ := nodup4 la lf lt lx h
  have hmem : ∀ a, a ∈ la.erase c ++ lf.erase c ++ lt.erase c ++ lx.erase c ↔
      a ≠ c ∧ a ∈ la ++ lf ++ lt ++ lx := by
    intro a
    simp only [List.mem_append, List.Nodup.mem_erase_iff ha, List.Nodup.mem_erase_iff hf,
      List.Nodup.mem_erase_iff ht, List.Nodup.mem_erase_iff hx]
    tauto
  refine ⟨List.nodup_cons.2 ⟨fun hm => ((hmem c).1 hm).1 rfl, ?_⟩, hmem⟩
  exact List.Nodup.sublist
    (List.Sublist.append (List.Sublist.append (List.Sublist.append (List.erase_sublist _ _)
      (List.erase_sublist _ _)) (List.erase_sublist _ _)) (List.erase_sublist _ _)) h

/-! ### Headers and frames -/

theorem sameHdr_refl (h : Heap) : SameHdr h h := fun _ => rfl

theorem sameHdr_trans (h1 h2 h3 : Heap) (h12 : SameHdr h1 h2) (h23 : SameHdr h2 h3) :
    SameHdr h1 h3 := fun a => (h23 a).trans (h12 a)

theorem sameHdr_next (h h2 : Heap) (hs : SameHdr h h2) (a : Addr) : nextOf h2 a = nextOf h a := by
  have := hs a
  unfold nextOf
  cases h1 : h a <;> cases h3 : h2 a <;> simp_all [hdr]

theorem sameHdr_marks (h h2 : Heap) (hs : SameHdr h h2) : SameMarks h h2 := by
  intro a
  have := hs a
  cases h1 : h a <;> cases h3 : h2 a <;> simp_all [hdr]

theorem sameMarks_refl (h : Heap) : SameMarks h h := fun _ => rfl

theorem sameMarks_trans (h1 h2 h3 : Heap) (h12 : SameMarks h1 h2) (h23 : SameMarks h2 h3) :
    SameMarks h1 h3 := fun a => (h23 a).trans (h12 a)

/-- Overwriting a live object by one with the same header. -/
theorem sameHdr_set (h : Heap) (a : Addr) (x y : GCObject) (hx : h a = some x)
    (hy : hdr y = hdr x) : SameHdr h (Heap.set h a y) := by
  intro b
  by_cases hb : b = a
  · subst hb
    simp [heap_set_same, hx, hy]
  · rw [heap_set_ne _ _ _ _ hb]

/-- Overwriting a live object by one with the same mark and tag. -/
theorem sameMarks_set (h : Heap) (a : Addr) (x y : GCObject) (hx : h a = some x)
    (hm : y.marked = x.marked) (ht : y.tt = x.tt) : SameMarks h (Heap.set h a y) := by
  intro b
  by_cases hb : b = a
  · subst hb
    simp [heap_set_same, hx, hm, ht]
  · rw [heap_set_ne _ _ _ _ hb]

theorem isList_congr (h h2 : Heap) (hs : ∀ a, nextOf h2 a = nextOf h a) (p : Option Addr)
    (l : List Addr) (hl : IsList h p l) : IsList h2 p l := by
  rw [isList_iff_isSeg] at hl ⊢
  exact isSeg_frame h h2 l p none (fun a _ => hs a) hl

theorem isSome_of_next (h h2 : Heap) (hs : ∀ a, nextOf h2 a = nextOf h a) (a : Addr) :
    (h2 a).isSome = (h a).isSome := by
  have := hs a
  unfold nextOf at this
  cases h1 : h a <;> cases h3 : h2 a <;> simp_all

/-- Lists only depend on the `next` links and on the list heads. -/
theorem lists_congr (g g2 : global_State) (la lf lt lx : List Addr)
    (hs : ∀ a, nextOf g2.heap a = nextOf g.heap a) (hh : heads g2 = heads g)
    (hL : Lists g la lf lt lx) : Lists g2 la lf lt lx := by
  obtain ⟨h1, h2, h3, h4, h5, h6⟩ := hL
  simp only [heads, Prod.mk.injEq] at hh
  obtain ⟨e1, e2, e3, e4⟩ := hh
  refine ⟨?_, ?_, ?_, ?_, h5, ?_⟩
  · rw [e1]; exact isList_congr _ _ hs _ _ h1
  · rw [e2]; exact isList_congr _ _ hs _ _ h2
  · rw [e3]; exact isList_congr _ _ hs _ _ h3
  · rw [e4]; exact isList_congr _ _ hs _ _ h4
  · intro a
    rw [isSome_of_next _ _ hs a]
    exact h6 a

theorem isList_succ_ne (h : Heap) (l : List Addr) : ∀ (p : Option Addr), IsList h p l →
    l.Nodup → ∀ (a c : Addr) (y : GCObject), a ∈ l → h a = some y → y.next = some c →
    a ≠ c := by
  induction l with
  | nil => intro p _ _ a c y ha; simp at ha
  | cons b l ih =>
    intro p hl hnd a c y ha hy hyc
    obtain ⟨-, ob, hob, hl2⟩ := hl
    have hbl : b ∉ l := (List.nodup_cons.1 hnd).1
    rcases List.mem_cons.1 ha with rfl | ha2
    · rw [hy] at hob
      cases hob
      rw [hyc] at hl2
      obtain ⟨l3, rfl, -⟩ := isList_head h c l hl2
      rintro rfl
      exact hbl (List.mem_cons_self _ _)
    · exact ih _ hl2 (List.nodup_cons.1 hnd).2 a c y ha2 hy hyc

/-- Unlinking the object `c` a list link `q` points to: `*q = c->next`.
Afterwards `c` is on no list and all else is as before. -/
theorem lists_unlink (g g1 : global_State) (q : GCRef) (c : Addr) (x : GCObject)
    (la lf lt lx : List Addr) (hL : Lists g la lf lt lx)
    (hq : g.load q = some (some c)) (hc : g.heap c = some x)
    (hs : g.store q x.next = some g1) :
    ListsOrphan g1 c (la.erase c) (lf.erase c) (lt.erase c) (lx.erase c) ∧
    g1.heap c = some x ∧ SameMarks g.heap g1.heap ∧ ctl g1 = ctl g ∧
    g1.fixedgc = g.fixedgc := by
  obtain ⟨h1, h2, h3, h4, h5, h6⟩ := hL
  obtain ⟨nda, ndf, ndt, ndx, da, df, dt, dx⟩ := nodup4 la lf lt lx h5
  obtain ⟨hnd, hmem⟩ := nodup4_erase la lf lt lx c h5
  have hlive : ∀ a, (g.heap a).isSome ↔ a = c ∨
      a ∈ la.erase c ++ lf.erase c ++ lt.erase c ++ lx.erase c := by
    intro a
    rw [h6 a, hmem a]
    constructor
    · intro hm
      by_cases hac : a = c
      · exact Or.inl hac
      · exact Or.inr ⟨hac, hm⟩
    · rintro (rfl | ⟨-, hm⟩)
      · exact (h6 a).1 (by rw [hc]; rfl)
      · exact hm
  have hcmem : c ∈ la ++ lf ++ lt ++ lx := (h6 c).1 (by rw [hc]; rfl)
  cases q with
  | allgc =>
    simp only [global_State.load, Option.some.injEq] at hq
    simp only [global_State.store, Option.some.injEq] at hs
    subst hs
    rw [hq] at h1
    obtain ⟨l2, rfl, x2, hx2, hl2⟩ := isList_head _ _ _ h1
    rw [hc] at hx2
    cases hx2
    have hn := da c (List.mem_cons_self _ _)
    refine ⟨⟨?_, ?_, ?_, ?_, hnd, hlive⟩, hc, sameMarks_refl _, rfl, rfl⟩
    · rw [List.erase_cons_head]; exact hl2
    · rw [List.erase_of_not_mem hn.1]; exact h2
    · rw [List.erase_of_not_mem hn.2.1]; exact h3
    · rw [List.erase_of_not_mem hn.2.2]; exact h4
  | finobj =>
    simp only [global_State.load, Option.some.injEq] at hq
    simp only [global_State.store, Option.some.injEq] at hs
    subst hs
    rw [hq] at h2
    obtain ⟨l2, rfl, x2, hx2, hl2⟩ := isList_head _ _ _ h2
    rw [hc] at hx2
    cases hx2
    have hn := df c (List.mem_cons_self _ _)
    refine ⟨⟨?_, ?_, ?_, ?_, hnd, hlive⟩, hc, sameMarks_refl _, rfl, rfl⟩
    · rw [List.erase_of_not_mem hn.1]; exact h1
    · rw [List.erase_cons_head]; exact hl2
    · rw [List.erase_of_not_mem hn.2.1]; exact h3
    · rw [List.erase_of_not_mem hn.2.2]; exact h4
  | tobefnz =>
    simp only [global_State.load, Option.some.injEq] at hq
    simp only [global_State.store, Option.some.injEq] at hs
    subst hs
    rw [hq] at h3
    obtain ⟨l2, rfl, x2, hx2, hl2⟩ := isList_head _ _ _ h3
    rw [hc] at hx2
    cases hx2
    have hn := dt c (List.mem_cons_self _ _)
    refine ⟨⟨?_, ?_, ?_, ?_, hnd, hlive⟩, hc, sameMarks_refl _, rfl, rfl⟩
    · rw [List.erase_of_not_mem hn.1]; exact h1
    · rw [List.erase_of_not_mem hn.2.1]; exact h2
    · rw [List.erase_cons_head]; exact hl2
    · rw [List.erase_of_not_mem hn.2.2]; exact h4
  | next a =>
    simp only [global_State.load, Option.map_eq_some'] at hq
    obtain ⟨y, hy, hyc⟩ := hq
    simp only [global_State.store, hy, Option.map_some', Option.some.injEq] at hs
    subst hs
    have hamem : a ∈ la ++ lf ++ lt ++ lx := (h6 a).1 (by rw [hy]; rfl)
    have key : ∀ (p : Option Addr) (l : List Addr), IsList g.heap p l → l.Nodup →
        (c ∈ l → a ∈ l) → IsList (Heap.set g.heap a { y with next := x.next }) p (l.erase c) :=
      fun p l hl hn hca => isList_erase_next g.heap l p a c y x hl hn hy hyc hc hca
    have hac : a ≠ c := by
      simp only [List.mem_append] at hamem
      rcases hamem with ((hm | hm) | hm) | hm
      · exact isList_succ_ne _ _ _ h1 nda a c y hm hy hyc
      · exact isList_succ_ne _ _ _ h2 ndf a c y hm hy hyc
      · exact isList_succ_ne _ _ _ h3 ndt a c y hm hy hyc
      · exact isList_succ_ne _ _ _ h4 ndx a c y hm hy hyc
    have hca : (c ∈ la → a ∈ la) ∧ (c ∈ lf → a ∈ lf) ∧ (c ∈ lt → a ∈ lt) ∧ (c ∈ lx → a ∈ lx) := by
      simp only [List.mem_append] at hamem
      rcases hamem with ((hm | hm) | hm) | hm
      · have hcl := isList_succ_mem _ _ _ h1 a c y hm hy hyc
        have hn := da c hcl
        exact ⟨fun _ => hm, fun h => absurd h hn.1, fun h => absurd h hn.2.1,
          fun h => absurd h hn.2.2⟩
      · have hcl := isList_succ_mem _ _ _ h2 a c y hm hy hyc
        have hn := df c hcl
        exact ⟨fun h => absurd h hn.1, fun _ => hm, fun h => absurd h hn.2.1,
          fun h => absurd h hn.2.2⟩
      · have hcl := isList_succ_mem _ _ _ h3 a c y hm hy hyc
        have hn := dt c hcl
        exact ⟨fun h => absurd h hn.1, fun h => absurd h hn.2.1, fun _ => hm,
          fun h => absurd h hn.2.2⟩
      · have hcl := isList_succ_mem _ _ _ h4 a c y hm hy hyc
        have hn := dx c hcl
        exact ⟨fun h => absurd h hn.1, fun h => absurd h hn.2.1, fun h => absurd h hn.2.2,
          fun _ => hm⟩
    refine ⟨⟨key _ _ h1 nda hca.1, key _ _ h2 ndf hca.2.1, key _ _ h3 ndt hca.2.2.1,
      key _ _ h4 ndx hca.2.2.2, hnd, ?_⟩, ?_, ?_, rfl, rfl⟩
    · intro b
      rw [← hlive b]
      show (Heap.set g.heap a _ b).isSome ↔ _
      by_cases hb : b = a
      · subst hb
        simp [heap_set_same, hy]
      · rw [heap_set_ne _ _ _ _ hb]
    · show Heap.set g.heap a _ c = some x
      rw [heap_set_ne _ _ _ _ (Ne.symm hac), hc]
    · exact sameMarks_set _ _ y _ hy rfl rfl

/-! ### What becomes of an unlinked object -/

theorem isList_free_of_not_mem (h : Heap) (p : Option Addr) (l : List Addr) (c : Addr)
    (hl : IsList h p l) (hc : c ∉ l) : IsList (Heap.free h c) p l := by
  rw [isList_iff_isSeg] at hl ⊢
  refine isSeg_frame h _ l _ _ ?_ hl
  intro b hb
  have hne : b ≠ c := fun e => hc (e ▸ hb)
  unfold nextOf
  rw [heap_free_ne _ _ _ hne]

theorem orphan_not_mem (c : Addr) (la lf lt lx : List Addr)
    (h : (c :: (la ++ lf ++ lt ++ lx)).Nodup) : c ∉ la ∧ c ∉ lf ∧ c ∉ lt ∧ c ∉ lx := by
  have hn := (List.nodup_cons.1 h).1
  simp only [List.mem_append, not_or] at hn
  exact ⟨hn.1.1.1, hn.1.1.2, hn.1.2, hn.2⟩

/-- Freeing the unlinked object restores the invariant. -/
theorem listsOrphan_free (g g2 : global_State) (c : Addr) (la lf lt lx : List Addr)
    (hmid : Heap) (hO : ListsOrphan g c la lf lt lx)
    (hs : ∀ a, nextOf hmid a = nextOf g.heap a) (hh : g2.heap = Heap.free hmid c)
    (hheads : heads g2 = heads g) : Lists g2 la lf lt lx := by
  obtain ⟨h1, h2, h3, h4, h5, h6⟩ := hO
  obtain ⟨n1, n2, n3, n4⟩ := orphan_not_mem c la lf lt lx h5
  simp only [heads, Prod.mk.injEq] at hheads
  obtain ⟨e1, e2, e3, e4⟩ := hheads
  rw [Lists, hh, e1, e2, e3, e4]
  refine ⟨isList_free_of_not_mem _ _ _ _ (isList_congr _ _ hs _ _ h1) n1,
    isList_free_of_not_mem _ _ _ _ (isList_congr _ _ hs _ _ h2) n2,
    isList_free_of_not_mem _ _ _ _ (isList_congr _ _ hs _ _ h3) n3,
    isList_free_of_not_mem _ _ _ _ (isList_congr _ _ hs _ _ h4) n4,
    (List.nodup_cons.1 h5).2, ?_⟩
  intro a
  by_cases hac : a = c
  · subst hac
    simp only [heap_free_same, Option.isSome_none, Bool.false_eq_true, false_iff]
    exact (List.nodup_cons.1 h5).1
  · rw [heap_free_ne _ _ _ hac, isSome_of_next _ _ hs a, h6 a]
    simp [hac]

/-- Changing the `next` field of the unlinked object changes no list. -/
theorem listsOrphan_set (g : global_State) (c : Addr) (x y : GCObject)
    (la lf lt lx : List Addr) (hO : ListsOrphan g c la lf lt lx) (hc : g.heap c = some x) :
    ListsOrphan (g.setobj c y) c la lf lt lx := by
  obtain ⟨h1, h2, h3, h4, h5, h6⟩ := hO
  obtain ⟨n1, n2, n3, n4⟩ := orphan_not_mem c la lf lt lx h5
  refine ⟨isList_set_of_not_mem _ _ _ _ _ h1 n1, isList_set_of_not_mem _ _ _ _ _ h2 n2,
    isList_set_of_not_mem _ _ _ _ _ h3 n3, isList_set_of_not_mem _ _ _ _ _ h4 n4, h5, ?_⟩
  intro a
  rw [← h6 a]
  show (Heap.set g.heap c y a).isSome ↔ _
  by_cases hac : a = c
  · subst hac
    simp [heap_set_same, hc]
  · rw [heap_set_ne _ _ _ _ hac]

/-- The unlinked object, pointing to the old `finobj`, becomes its head. -/
theorem listsOrphan_push_finobj (g : global_State) (c : Addr) (x : GCObject)
    (la lf lt lx : List Addr) (hO : ListsOrphan g c la lf lt lx) (hc : g.heap c = some x)
    (hn : x.next = g.finobj) : Lists { g with finobj := some c } la (c :: lf) lt lx := by
  obtain ⟨h1, h2, h3, h4, h5, h6⟩ := hO
  refine ⟨h1, ⟨rfl, x, hc, by rw [hn]; exact h2⟩, h3, h4, ?_, ?_⟩
  · have hp : (la ++ c :: lf ++ lt ++ lx).Perm (c :: (la ++ lf ++ lt ++ lx)) := by
      simp only [List.append_assoc, List.cons_append]
      exact List.perm_middle
    exact (List.Perm.nodup_iff hp).2 h5
  · intro a
    show (g.heap a).isSome ↔ _
    rw [h6 a]
    simp only [List.mem_append, List.mem_cons]
    tauto

/-- The unlinked object, pointing to the old `allgc`, becomes its head. -/
theorem listsOrphan_push_allgc (g : global_State) (c : Addr) (x : GCObject)
    (la lf lt lx : List Addr) (hO : ListsOrphan g c la lf lt lx) (hc : g.heap c = some x)
    (hn : x.next = g.allgc) : Lists { g with allgc := some c } (c :: la) lf lt lx := by
  obtain ⟨h1, h2, h3, h4, h5, h6⟩ := hO
  refine ⟨⟨rfl, x, hc, by rw [hn]; exact h1⟩, h2, h3, h4, ?_, ?_⟩
  · simpa only [List.cons_append] using h5
  · intro a
    show (g.heap a).isSome ↔ _
    rw [h6 a]
    simp only [List.mem_append, List.mem_cons]
    tauto

/-! ### Freeing an object -/

theorem store_uvlink_hdr (g g2 : global_State) (l : UpValLink) (v : Option Addr)
    (h : g.store_uvlink l v = some g2) :
    SameHdr g.heap g2.heap ∧ heads g2 = heads g ∧ ctl g2 = ctl g ∧ g2.GCdebt = g.GCdebt := by
  cases l with
  | openupval th =>
    simp only [global_State.store_uvlink, Option.map_eq_some'] at h
    obtain ⟨t, ht, rfl⟩ := h
    exact ⟨sameHdr_set _ _ t _ ht rfl, rfl, rfl, rfl⟩
  | open_next u =>
    simp only [global_State.store_uvlink, Option.map_eq_some'] at h
    obtain ⟨t, ht, rfl⟩ := h
    exact ⟨sameHdr_set _ _ t _ ht rfl, rfl, rfl, rfl⟩

theorem luaF_unlinkupval_hdr (g g2 : global_State) (uv : Addr)
    (h : luaF_unlinkupval g uv = some g2) :
    SameHdr g.heap g2.heap ∧ heads g2 = heads g ∧ ctl g2 = ctl g := by
  unfold luaF_unlinkupval at h
  simp only [Option.bind_eq_bind, Option.bind_eq_some] at h
  obtain ⟨u, -, prev, -, g1, h1, h⟩ := h
  obtain ⟨k1, k2, k3, -⟩ := store_uvlink_hdr _ _ _ _ h1
  split at h
  · cases h
    exact ⟨k1, k2, k3⟩
  · simp only [Option.bind_eq_some] at h
    obtain ⟨y, hy, h⟩ := h
    cases h
    exact ⟨sameHdr_trans _ _ _ k1 (sameHdr_set _ _ y _ hy rfl), k2, k3⟩

/-- Freeing an object: apart from changes that keep every header, the
object leaves the memory; the list heads and control fields stay. -/
theorem freeobj_heap (g g2 : global_State) (c : Addr) (h : freeobj g c = some g2) :
    ∃ hmid, SameHdr g.heap hmid ∧ g2.heap = Heap.free hmid c ∧ heads g2 = heads g ∧
      ctl g2 = ctl g := by
  unfold freeobj at h
  simp only [Option.bind_eq_bind, Option.bind_eq_some] at h
  obtain ⟨x, -, h⟩ := h
  split at h
  · unfold freeupval at h
    simp only [Option.bind_eq_bind, Option.bind_eq_some] at h
    obtain ⟨u, -, h⟩ := h
    by_cases hop : upisopen u = true
    · simp only [hop, if_true, Option.bind_eq_some] at h
      obtain ⟨g1, h1, h⟩ := h
      cases h
      obtain ⟨k1, k2, k3⟩ := luaF_unlinkupval_hdr _ _ _ h1
      exact ⟨g1.heap, k1, rfl, k2, k3⟩
    · simp only [hop, Bool.false_eq_true, if_false, Option.some_bind] at h
      cases h
      exact ⟨g.heap, sameHdr_refl _, rfl, rfl, rfl⟩
  · cases h
    exact ⟨g.heap, sameHdr_refl _, rfl, rfl, rfl⟩
  · cases h
    exact ⟨g.heap, sameHdr_refl _, rfl, rfl, rfl⟩

/-! ### Sweeping a list -/

/-- A chain that ends visits no object twice. -/
theorem isList_nodup (h : Heap) (l : List Addr) : ∀ (p : Option Addr), IsList h p l → l.Nodup := by
  induction l with
  | nil => intro _ _; exact List.nodup_nil
  | cons b l ih =>
    intro p hl
    obtain ⟨-, o, ho, hl2⟩ := hl
    refine List.nodup_cons.2 ⟨?_, ih _ hl2⟩
    intro hb
    obtain ⟨l1, l2, rfl⟩ := List.append_of_mem hb
    have hseg := (isList_iff_isSeg _ _ _).1 hl2
    rw [isSeg_append_iff] at hseg
    obtain ⟨r, -, hr⟩ := hseg
    rw [isSeg_cons_iff] at hr
    obtain ⟨-, o2, ho2, hr2⟩ := hr
    rw [ho] at ho2
    cases ho2
    have e := isSeg_unique h _ _ _ ((isList_iff_isSeg _ _ _).1 hl2) hr2
    have hlen := congrArg List.length e
    simp only [List.length_append, List.length_cons] at hlen
    omega

/-- From any member of a list the rest of the list is a list. -/
theorem isList_suffix (h : Heap) (l : List Addr) : ∀ (p : Option Addr), IsList h p l →
    ∀ (a : Addr) (y : GCObject), a ∈ l → h a = some y → ∃ rest, IsList h y.next rest := by
  induction l with
  | nil => intro p _ a y ha; simp at ha
  | cons b l ih =>
    intro p hl a y ha hy
    obtain ⟨-, o, ho, hl2⟩ := hl
    rcases List.mem_cons.1 ha with rfl | ha2
    · rw [ho] at hy
      cases hy
      exact ⟨l, hl2⟩
    · exact ih _ hl2 a y ha2 hy

/-- What a list link points to starts a list, which does not hold the owner
of the link. -/
theorem lists_rest (g : global_State) (la lf lt lx : List Addr) (hL : Lists g la lf lt lx)
    (p : GCRef) (c0 : Option Addr) (hp : g.load p = some c0) :
    ∃ rest, IsList g.heap c0 rest ∧ ∀ s, p = .next s → s ∉ rest := by
  obtain ⟨h1, h2, h3, h4, h5, h6⟩ := hL
  cases p with
  | allgc =>
    simp only [global_State.load, Option.some.injEq] at hp
    subst hp
    exact ⟨la, h1, fun s hs => by cases hs⟩
  | finobj =>
    simp only [global_State.load, Option.some.injEq] at hp
    subst hp
    exact ⟨lf, h2, fun s hs => by cases hs⟩
  | tobefnz =>
    simp only [global_State.load, Option.some.injEq] at hp
    subst hp
    exact ⟨lt, h3, fun s hs => by cases hs⟩
  | next s =>
    simp only [global_State.load, Option.map_eq_some'] at hp
    obtain ⟨y, hy, rfl⟩ := hp
    have hm : s ∈ la ++ lf ++ lt ++ lx := (h6 s).1 (by rw [hy]; rfl)
    have hex : ∃ rest, IsList g.heap y.next rest := by
      simp only [List.mem_append] at hm
      rcases hm with ((hm | hm) | hm) | hm
      · exact isList_suffix _ _ _ h1 s y hm hy
      · exact isList_suffix _ _ _ h2 s y hm hy
      · exact isList_suffix _ _ _ h3 s y hm hy
      · exact isList_suffix _ _ _ h4 s y hm hy
    obtain ⟨rest, hr⟩ := hex
    refine ⟨rest, hr, ?_⟩
    intro s2 hs2
    cases hs2
    have hnd := isList_nodup g.heap (s :: rest) (some s) ⟨rfl, y, hy, hr⟩
    exact (List.nodup_cons.1 hnd).1

theorem load_store (g g1 : global_State) (p : GCRef) (v : Option Addr)
    (hs : g.store p v = some g1) : g1.load p = some v := by
  cases p with
  | allgc => simp only [global_State.store, Option.some.injEq] at hs; subst hs; rfl
  | finobj => simp only [global_State.store, Option.some.injEq] at hs; subst hs; rfl
  | tobefnz => simp only [global_State.store, Option.some.injEq] at hs; subst hs; rfl
  | next s =>
    simp only [global_State.store, Option.map_eq_some'] at hs
    obtain ⟨y, hy, rfl⟩ := hs
    simp [global_State.load, global_State.setobj, heap_set_same]

theorem store_frame (g g1 : global_State) (p : GCRef) (v : Option Addr)
    (hs : g.store p v = some g1) (a : Addr) (ha : p ≠ .next a) : g1.heap a = g.heap a := by
  cases p with
  | allgc => simp only [global_State.store, Option.some.injEq] at hs; subst hs; rfl
  | finobj => simp only [global_State.store, Option.some.injEq] at hs; subst hs; rfl
  | tobefnz => simp only [global_State.store, Option.some.injEq] at hs; subst hs; rfl
  | next s =>
    simp only [global_State.store, Option.map_eq_some'] at hs
    obtain ⟨y, hy, rfl⟩ := hs
    have hne : a ≠ s := fun e => ha (by rw [e])
    exact heap_set_ne _ _ _ _ hne

/-- Reading a list link depends on the list heads and the `next` fields only. -/
theorem load_congr (g g2 : global_State) (p : GCRef) (hh : heads g2 = heads g)
    (hn : ∀ s, p = .next s → nextOf g2.heap s = nextOf g.heap s) : g2.load p = g.load p := by
  simp only [heads, Prod.mk.injEq] at hh
  obtain ⟨e1, e2, e3, -⟩ := hh
  cases p with
  | allgc => simp only [global_State.load, e1]
  | finobj => simp only [global_State.load, e2]
  | tobefnz => simp only [global_State.load, e3]
  | next s => exact hn s rfl

theorem store_some (g : global_State) (p : GCRef) (c : Option Addr) (v : Option Addr)
    (hp : g.load p = some c) : ∃ g1, g.store p v = some g1 := by
  cases p with
  | allgc => exact ⟨_, rfl⟩
  | finobj => exact ⟨_, rfl⟩
  | tobefnz => exact ⟨_, rfl⟩
  | next s =>
    simp only [global_State.load, Option.map_eq_some'] at hp
    obtain ⟨y, hy, -⟩ := hp
    exact ⟨g.setobj s { y with next := v }, by simp only [global_State.store, hy, Option.map_some']⟩

/-- Freeing an object that is not an open upvalue always succeeds and
changes nothing else in the memory. -/
theorem freeobj_closed (g : global_State) (c : Addr) (x : GCObject) (hx : g.heap c = some x)
    (hcl : x.tt = .LUA_VUPVAL → upisopen x = false) :
    ∃ g3, freeobj g c = some g3 ∧ g3.heap = Heap.free g.heap c := by
  unfold freeobj
  simp only [hx, Option.bind_eq_bind, Option.some_bind]
  split
  · rename_i htt
    unfold freeupval
    simp only [hx, Option.bind_eq_bind, Option.some_bind, hcl htt, Bool.false_eq_true, if_false]
    exact ⟨_, rfl, rfl⟩
  · exact ⟨_, rfl, rfl⟩
  · exact ⟨_, rfl, rfl⟩

/-- One removal step of the sweep: the dead object `curr`, which `*p`
points to, is unlinked and freed. -/
theorem sweep_remove (g g1 g3 : global_State) (p : GCRef) (curr : Addr) (x : GCObject)
    (la lf lt lx rest2 : List Addr) (hL : Lists g la lf lt lx)
    (hp : g.load p = some (some curr)) (hx : g.heap curr = some x)
    (hr2 : IsList g.heap x.next rest2) (hcn : curr ∉ rest2)
    (hown : ∀ s, p = .next s → s ∉ curr :: rest2)
    (h1 : g.store p x.next = some g1) (h3 : freeobj g1 curr = some g3) :
    Lists g3 (la.erase curr) (lf.erase curr) (lt.erase curr) (lx.erase curr) ∧
    g3.load p = some x.next ∧ IsList g3.heap x.next rest2 ∧ ctl g3 = ctl g ∧
    g3.fixedgc = g.fixedgc ∧
    (∀ a, a ≠ curr → (g3.heap a).map (fun o => (o.marked, o.tt)) =
      (g.heap a).map (fun o => (o.marked, o.tt))) ∧
    (∀ a, a ∈ rest2 → g1.heap a = g.heap a) := by
  obtain ⟨hO, hc1, hsm, hctl1, hfx1⟩ := lists_unlink g g1 p curr x la lf lt lx hL hp hx h1
  obtain ⟨hmid, hh1, hh2, hh3, hh4⟩ := freeobj_heap _ _ _ h3
  have hL3 := listsOrphan_free g1 g3 curr _ _ _ _ hmid hO (sameHdr_next _ _ hh1) hh2 hh3
  have hfr1 : ∀ a, a ∈ rest2 → g1.heap a = g.heap a := by
    intro a ha
    refine store_frame _ _ _ _ h1 a ?_
    intro e
    exact hown a e (List.mem_cons_of_mem _ ha)
  have hn3 : ∀ a, a ≠ curr → nextOf g3.heap a = nextOf g1.heap a := by
    intro a ha
    unfold nextOf
    rw [hh2, heap_free_ne _ _ _ ha]
    exact sameHdr_next _ _ hh1 a
  have hp3 : g3.load p = some x.next := by
    rw [load_congr g1 g3 p hh3 ?_]
    · exact load_store _ _ _ _ h1
    · intro s hs
      refine hn3 s ?_
      rintro rfl
      exact hown s hs (List.mem_cons_self _ _)
  have hr3 : IsList g3.heap x.next rest2 := by
    rw [isList_iff_isSeg] at hr2 ⊢
    refine isSeg_frame _ _ _ _ _ ?_ hr2
    intro a ha
    have hac : a ≠ curr := fun e => hcn (e ▸ ha)
    rw [hn3 a hac]
    unfold nextOf
    rw [hfr1 a ha]
  refine ⟨hL3, hp3, hr3, by rw [hh4, hctl1], ?_, ?_, hfr1⟩
  · rw [← hfx1]
    simpa [heads] using congrArg (fun t => t.2.2.2) hh3
  · intro a hac
    rw [hh2, heap_free_ne _ _ _ hac, sameHdr_marks _ _ hh1 a, hsm a]

/-- One step of the sweep over a live object: it is repainted. -/
theorem sweep_keep (g : global_State) (curr : Addr) (x y : GCObject)
    (la lf lt lx rest2 : List Addr) (hL : Lists g la lf lt lx)
    (hx : g.heap curr = some x) (hy : y.next = x.next)
    (hr2 : IsList g.heap x.next rest2) (hcn : curr ∉ rest2) :
    Lists (g.setobj curr y) la lf lt lx ∧
    (g.setobj curr y).load (.next curr) = some x.next ∧
    IsList (g.setobj curr y).heap x.next rest2 ∧
    (∀ a, a ≠ curr → (g.setobj curr y).heap a = g.heap a) := by
  refine ⟨?_, ?_, isList_set_of_not_mem _ _ _ _ _ hr2 hcn, ?_⟩
  · refine lists_congr g _ la lf lt lx ?_ rfl hL
    intro a
    unfold nextOf
    show Option.map _ (Heap.set g.heap curr _ a) = _
    by_cases hac : a = curr
    · subst hac
      rw [heap_set_same, hx]
      simp [hy]
    · rw [heap_set_ne _ _ _ _ hac]
  · simp [global_State.load, global_State.setobj, heap_set_same, hy]
  · intro a hac
    exact heap_set_ne _ _ _ _ hac

theorem swept_refl (g : global_State) (la lf lt lx rest : List Addr) (hL : Lists g la lf lt lx) :
    Swept g la lf lt lx rest g la lf lt lx :=
  ⟨hL, List.Sublist.refl _, List.Sublist.refl _, List.Sublist.refl _, List.Sublist.refl _,
    rfl, rfl, fun _ _ => rfl⟩

theorem swept_trans (g g1 g2 : global_State) (la lf lt lx rest la1 lf1 lt1 lx1 rest1
    la2 lf2 lt2 lx2 : List Addr) (h1 : Swept g la lf lt lx rest g1 la1 lf1 lt1 lx1)
    (h2 : Swept g1 la1 lf1 lt1 lx1 rest1 g2 la2 lf2 lt2 lx2)
    (hsub : ∀ a, a ∈ rest1 → a ∈ rest) : Swept g la lf lt lx rest g2 la2 lf2 lt2 lx2 := by
  obtain ⟨-, k2, k3, k4, k5, k6, k7, k8⟩ := h1
  obtain ⟨m1, m2, m3, m4, m5, m6, m7, m8⟩ := h2
  refine ⟨m1, m2.trans k2, m3.trans k3, m4.trans k4, m5.trans k5, by rw [m6, k6],
    by rw [m7, k7], ?_⟩
  intro a ha
  rw [m8 a (fun hm => ha (hsub a hm)), k8 a ha]

/-- The loop of `sweeplist`.  It returns when no open upvalue is in its way,
and what it returns is a swept state: each list is what is left of the list
before, in the same order, and the objects outside the part of the list from
`*p` on keep their marks. -/
theorem sweeplist_loop_lists (ow white : Nat) (n : Nat) :
    ∀ (g : global_State) (p : GCRef) (i : Nat) (la lf lt lx rest : List Addr) (c0 : Option Addr),
    Lists g la lf lt lx → g.load p = some c0 → IsList g.heap c0 rest →
    (∀ s, p = .next s → s ∉ rest) →
    (ClosedIn g.heap rest → ∃ r, sweeplist_loop ow white n g p i = some r) ∧
    ∀ (g2 : global_State) (p2 : GCRef) (i2 : Nat),
      sweeplist_loop ow white n g p i = some (g2, p2, i2) →
      ∃ la2 lf2 lt2 lx2 c2 rest2, Swept g la lf lt lx rest g2 la2 lf2 lt2 lx2 ∧
        g2.load p2 = some c2 ∧ IsList g2.heap c2 rest2 ∧ (∀ a, a ∈ rest2 → a ∈ rest) ∧
        (∀ s, p2 = .next s → s ∉ rest2) ∧ rest2.length + i2 = rest.length + i ∧
        (c2 = none ∨ i2 = i + n) ∧ (ClosedIn g.heap rest → ClosedIn g2.heap rest2) := by
  induction n with
  | zero =>
    intro g p i la lf lt lx rest c0 hL hp hr hown
    refine ⟨fun _ => ⟨_, rfl⟩, ?_⟩
    intro g2 p2 i2 hrun
    simp only [sweeplist_loop, Option.some.injEq, Prod.mk.injEq] at hrun
    obtain ⟨rfl, rfl, rfl⟩ := hrun
    exact ⟨la, lf, lt, lx, c0, rest, swept_refl _ _ _ _ _ _ hL, hp, hr, fun _ ha => ha, hown,
      rfl, Or.inr rfl, fun hc => hc⟩
  | succ n ih =>
    intro g p i la lf lt lx rest c0 hL hp hr hown
    cases c0 with
    | none =>
      have hunf : sweeplist_loop ow white (n + 1) g p i = some (g, p, i) := by
        rw [sweeplist_loop]
        simp only [hp, Option.bind_eq_bind, Option.some_bind]
      rw [hunf]
      refine ⟨fun _ => ⟨_, rfl⟩, ?_⟩
      intro g2 p2 i2 hrun
      simp only [Option.some.injEq, Prod.mk.injEq] at hrun
      obtain ⟨rfl, rfl, rfl⟩ := hrun
      exact ⟨la, lf, lt, lx, none, rest, swept_refl _ _ _ _ _ _ hL, hp, hr, fun _ ha => ha,
        hown, rfl, Or.inl rfl, fun hc => hc⟩
    | some curr =>
      obtain ⟨rest2, rfl, x, hx, hr2⟩ := isList_head _ _ _ hr
      have hnd := isList_nodup _ _ _ hr
      have hcn : curr ∉ rest2 := (List.nodup_cons.1 hnd).1
      have hown2 : ∀ s, p = .next s → s ∉ rest2 :=
        fun s hs hm => hown s hs (List.mem_cons_of_mem _ hm)
      by_cases hdead : isdeadm ow x.marked = true
      · have hunf : sweeplist_loop ow white (n + 1) g p i =
            (g.store p x.next).bind (fun g1 => (freeobj g1 curr).bind (fun g3 =>
              sweeplist_loop ow white n g3 p (i + 1))) := by
          rw [sweeplist_loop]
          simp only [hp, hx, hdead, Option.bind_eq_bind, Option.some_bind, if_true]
        rw [hunf]
        have hclosed3 : ∀ g1 g3, g.store p x.next = some g1 → freeobj g1 curr = some g3 →
            ClosedIn g.heap (curr :: rest2) → ClosedIn g3.heap rest2 := by
          intro g1 g3 h1 h3 hcl
          obtain ⟨-, hc1, -, -, -⟩ := lists_unlink g g1 p curr x la lf lt lx hL hp hx h1
          obtain ⟨g3b, e3, hh⟩ := freeobj_closed g1 curr x hc1
            (hcl curr (List.mem_cons_self _ _) x hx)
          rw [h3] at e3
          cases e3
          intro a ha y hy
          have hac : a ≠ curr := fun e => hcn (e ▸ ha)
          rw [hh, heap_free_ne _ _ _ hac, store_frame _ _ _ _ h1 a
            (fun e => hown a e (List.mem_cons_of_mem _ ha))] at hy
          exact hcl a (List.mem_cons_of_mem _ ha) y hy
        refine ⟨?_, ?_⟩
        · intro hcl
          obtain ⟨g1, h1⟩ := store_some g p _ x.next hp
          obtain ⟨-, hc1, -, -, -⟩ := lists_unlink g g1 p curr x la lf lt lx hL hp hx h1
          obtain ⟨g3, h3, -⟩ := freeobj_closed g1 curr x hc1
            (hcl curr (List.mem_cons_self _ _) x hx)
          obtain ⟨k1, k2, k3, -⟩ := sweep_remove g g1 g3 p curr x la lf lt lx rest2 hL hp hx
            hr2 hcn hown h1 h3
          simp only [h1, h3, Option.some_bind]
          exact (ih g3 p (i + 1) _ _ _ _ rest2 x.next k1 k2 k3 hown2).1
            (hclosed3 g1 g3 h1 h3 hcl)
        · intro g2 p2 i2 hrun
          simp only [Option.bind_eq_some] at hrun
          obtain ⟨g1, h1, g3, h3, hrun⟩ := hrun
          obtain ⟨k1, k2, k3, k4, k5, k6, -⟩ := sweep_remove g g1 g3 p curr x la lf lt lx rest2
            hL hp hx hr2 hcn hown h1 h3
          obtain ⟨la2, lf2, lt2, lx2, c2, r2, m1, m2, m3, m4, m5, m6, m7, m8⟩ :=
            (ih g3 p (i + 1) _ _ _ _ rest2 x.next k1 k2 k3 hown2).2 g2 p2 i2 hrun
          have hsw : Swept g la lf lt lx (curr :: rest2) g3 (la.erase curr) (lf.erase curr)
              (lt.erase curr) (lx.erase curr) :=
            ⟨k1, List.erase_sublist _ _, List.erase_sublist _ _, List.erase_sublist _ _,
              List.erase_sublist _ _, k4, k5,
              fun a ha => k6 a (fun e => ha (e ▸ List.mem_cons_self _ _))⟩
          refine ⟨la2, lf2, lt2, lx2, c2, r2,
            swept_trans _ _ _ _ _ _ _ _ _ _ _ _ _ _ _ _ _ hsw m1
              (fun a ha => List.mem_cons_of_mem _ ha),
            m2, m3, fun a ha => List.mem_cons_of_mem _ (m4 a ha), m5, ?_, ?_,
            fun hcl => m8 (hclosed3 g1 g3 h1 h3 hcl)⟩
          · simp only [List.length_cons]
            omega
          · rcases m7 with m7 | m7
            · exact Or.inl m7
            · exact Or.inr (by omega)
      · have hunf : sweeplist_loop ow white (n + 1) g p i =
            sweeplist_loop ow white n (g.setobj curr
              { x with marked := cast_byte ((x.marked &&& bnot8 maskgcbits) ||| white) })
              (.next curr) (i + 1) := by
          rw [sweeplist_loop]
          simp only [hp, hx, hdead, Option.bind_eq_bind, Option.some_bind, Bool.false_eq_true,
            if_false]
        rw [hunf]
        obtain ⟨k1, k2, k3, k4⟩ := sweep_keep g curr x
          { x with marked := cast_byte ((x.marked &&& bnot8 maskgcbits) ||| white) }
          la lf lt lx rest2 hL hx rfl hr2 hcn
        have hown1 : ∀ s, GCRef.next curr = .next s → s ∉ rest2 := by
          intro s hs
          cases hs
          exact hcn
        have hcl1 : ClosedIn g.heap (curr :: rest2) → ClosedIn (g.setobj curr
            { x with marked := cast_byte ((x.marked &&& bnot8 maskgcbits) ||| white) }).heap
            rest2 := by
          intro hcl a ha y hy
          have hac : a ≠ curr := fun e => hcn (e ▸ ha)
          rw [k4 a hac] at hy
          exact hcl a (List.mem_cons_of_mem _ ha) y hy
        have hI := ih _ (.next curr) (i + 1) la lf lt lx rest2 x.next k1 k2 k3 hown1
        refine ⟨fun hcl => hI.1 (hcl1 hcl), ?_⟩
        intro g2 p2 i2 hrun
        obtain ⟨la2, lf2, lt2, lx2, c2, r2, m1, m2, m3, m4, m5, m6, m7, m8⟩ := hI.2 g2 p2 i2 hrun
        have hsw : Swept g la lf lt lx (curr :: rest2) (g.setobj curr
            { x with marked := cast_byte ((x.marked &&& bnot8 maskgcbits) ||| white) })
            la lf lt lx :=
          ⟨k1, List.Sublist.refl _, List.Sublist.refl _, List.Sublist.refl _,
            List.Sublist.refl _, rfl, rfl,
            fun a ha => by rw [k4 a (fun e => ha (e ▸ List.mem_cons_self _ _))]⟩
        refine ⟨la2, lf2, lt2, lx2, c2, r2,
          swept_trans _ _ _ _ _ _ _ _ _ _ _ _ _ _ _ _ _ hsw m1
            (fun a ha => List.mem_cons_of_mem _ ha),
          m2, m3, fun a ha => List.mem_cons_of_mem _ (m4 a ha), m5, ?_, ?_,
          fun hcl => m8 (hcl1 hcl)⟩
        · simp only [List.length_cons]
          omega
        · rcases m7 with m7 | m7
          · exact Or.inl m7
          · exact Or.inr (by omega)

/-- The effect of `sweeplist` on the four lists. -/
theorem sweeplist_lists (g : global_State) (p : GCRef) (n : Nat) (la lf lt lx rest : List Addr)
    (c0 : Option Addr) (hL : Lists g la lf lt lx) (hp : g.load p = some c0)
    (hr : IsList g.heap c0 rest) (hown : ∀ s, p = .next s → s ∉ rest) :
    (ClosedIn g.heap rest → ∃ r, sweeplist g p n = some r) ∧
    ∀ (g2 : global_State) (q : Option GCRef) (i : Nat), sweeplist g p n = some (g2, q, i) →
      ∃ la2 lf2 lt2 lx2, Swept g la lf lt lx rest g2 la2 lf2 lt2 lx2 ∧
        ∀ p2, q = some p2 → ∃ c2 rest2, g2.load p2 = some c2 ∧ IsList g2.heap c2 rest2 ∧
          (∀ a, a ∈ rest2 → a ∈ rest) ∧ (∀ s, p2 = .next s → s ∉ rest2) ∧
          rest2.length + n = rest.length ∧ (ClosedIn g.heap rest → ClosedIn g2.heap rest2) := by
  have hI := sweeplist_loop_lists (otherwhite g) (luaC_white g) n g p 0 la lf lt lx rest c0
    hL hp hr hown
  refine ⟨?_, ?_⟩
  · intro hcl
    obtain ⟨⟨g1, p1, i1⟩, h1⟩ := hI.1 hcl
    obtain ⟨la2, lf2, lt2, lx2, c2, r2, m1, m2, -⟩ := hI.2 g1 p1 i1 h1
    unfold sweeplist
    simp only [h1, m2, Option.bind_eq_bind, Option.some_bind]
    exact ⟨_, rfl⟩
  · intro g2 q i hrun
    unfold sweeplist at hrun
    simp only [Option.bind_eq_bind, Option.bind_eq_some] at hrun
    obtain ⟨⟨g1, p1, i1⟩, h1, c, hc, hrun⟩ := hrun
    simp only [Option.some.injEq, Prod.mk.injEq] at hrun
    obtain ⟨rfl, rfl, rfl⟩ := hrun
    obtain ⟨la2, lf2, lt2, lx2, c2, r2, m1, m2, m3, m4, m5, m6, m7, m8⟩ := hI.2 g1 p1 i1 h1
    rw [m2] at hc
    have e : c = c2 := (Option.some.inj hc).symm
    refine ⟨la2, lf2, lt2, lx2, m1, ?_⟩
    intro p2 hp2
    rw [e] at hp2
    split at hp2
    · cases hp2
    · rename_i hne
      cases hp2
      refine ⟨c2, r2, m2, m3, m4, m5, ?_, m8⟩
      rcases m7 with m7 | m7
      · exact absurd m7 hne
      · omega

/-- The effect of `sweeptolive` on the four lists.  It returns when it has
fuel for the objects from `*p` on and none of them is an open upvalue; what
it returns is not the link it started from. -/
theorem sweeptolive_lists (fuel : Nat) : ∀ (g : global_State) (old : GCRef)
    (la lf lt lx rest : List Addr) (c0 : Option Addr),
    Lists g la lf lt lx → g.load old = some c0 → IsList g.heap c0 rest →
    (∀ s, old = .next s → s ∉ rest) →
    (ClosedIn g.heap rest → rest.length < fuel → ∃ r, sweeptolive fuel g old = some r) ∧
    ∀ (g2 : global_State) (q : Option GCRef), sweeptolive fuel g old = some (g2, q) →
      ∃ la2 lf2 lt2 lx2, Swept g la lf lt lx rest g2 la2 lf2 lt2 lx2 ∧ q ≠ some old := by
  induction fuel with
  | zero =>
    intro g old la lf lt lx rest c0 _ _ _ _
    refine ⟨fun _ h => absurd h (Nat.not_lt_zero _), ?_⟩
    intro g2 q h
    simp [sweeptolive] at h
  | succ n ih =>
    intro g old la lf lt lx rest c0 hL hp hr hown
    have hS := sweeplist_lists g old 1 la lf lt lx rest c0 hL hp hr hown
    refine ⟨?_, ?_⟩
    · intro hcl hlen
      obtain ⟨⟨g1, p, i⟩, h1⟩ := hS.1 hcl
      obtain ⟨la1, lf1, lt1, lx1, k1, k2⟩ := hS.2 g1 p i h1
      rw [sweeptolive]
      simp only [h1, Option.bind_eq_bind, Option.some_bind]
      by_cases hpo : p = some old
      · simp only [hpo, if_true]
        obtain ⟨c2, r2, j1, j2, j3, j4, j5, j6⟩ := k2 old hpo
        exact (ih g1 old la1 lf1 lt1 lx1 r2 c2 k1.1 j1 j2 j4).1 (j6 hcl) (by omega)
      · simp only [hpo, if_false]
        exact ⟨_, rfl⟩
    · intro g2 q hrun
      rw [sweeptolive] at hrun
      simp only [Option.bind_eq_bind, Option.bind_eq_some] at hrun
      obtain ⟨⟨g1, p, i⟩, h1, hrun⟩ := hrun
      obtain ⟨la1, lf1, lt1, lx1, k1, k2⟩ := hS.2 g1 p i h1
      by_cases hpo : p = some old
      · simp only [hpo, if_true] at hrun
        obtain ⟨c2, r2, j1, j2, j3, j4, j5, j6⟩ := k2 old hpo
        obtain ⟨la2, lf2, lt2, lx2, m1, m2⟩ :=
          (ih g1 old la1 lf1 lt1 lx1 r2 c2 k1.1 j1 j2 j4).2 g2 q hrun
        exact ⟨la2, lf2, lt2, lx2, swept_trans _ _ _ _ _ _ _ _ _ _ _ _ _ _ _ _ _ k1 m1 j3, m2⟩
      · simp only [hpo, if_false, Option.some.injEq, Prod.mk.injEq] at hrun
        obtain ⟨rfl, rfl⟩ := hrun
        exact ⟨la1, lf1, lt1, lx1, k1, hpo⟩

/-! ### C5: `luaC_checkfinalizer` moves the object -/

theorem sublist_eq_of_subset (l2 l : List Addr) (hs : l2.Sublist l) (hn : l.Nodup)
    (hsub : ∀ a, a ∈ l → a ∈ l2) : l2 = l :=
  hs.eq_of_length_le ((List.Nodup.subperm hn hsub).length_le)

set_option maxRecDepth 1000000 in
theorem finbit_byte : ∀ m : Nat, m < 256 → ((m &&& 64) ||| (64 &&& 64) != 0) = true := by
  decide

theorem finbit_mark (m : Nat) : tofinalize (l_setbit m FINALIZEDBIT) = true := by
  have h64 : bitmask FINALIZEDBIT = 64 := by decide
  unfold tofinalize testbit testbits l_setbit setbits
  rw [h64, Nat.and_distrib_right, and_byte m 64 (by decide)]
  exact finbit_byte _ (Nat.mod_lt _ (by decide))

/-- The lists depend on the `next` fields and the four heads only. -/
theorem listsOrphan_push_fixedgc (g : global_State) (c : Addr) (x : GCObject)
    (la lf lt lx : List Addr) (hO : ListsOrphan g c la lf lt lx) (hc : g.heap c = some x)
    (hn : x.next = g.fixedgc) : Lists { g with fixedgc := some c } la lf lt (c :: lx) := by
  obtain ⟨h1, h2, h3, h4, h5, h6⟩ := hO
  refine ⟨h1, h2, h3, ⟨rfl, x, hc, by rw [hn]; exact h4⟩, ?_, ?_⟩
  · have hp : (la ++ lf ++ lt ++ c :: lx).Perm (c :: (la ++ lf ++ lt ++ lx)) :=
      List.perm_middle
    exact (List.Perm.nodup_iff hp).2 h5
  · intro a
    show (g.heap a).isSome ↔ _
    rw [h6 a]
    simp only [List.mem_append, List.mem_cons]
    tauto

/-- A new object at a fresh address becomes the head of `allgc`. -/
theorem lists_newobj (g : global_State) (tt : Tag) (p : Addr) (init : GCObject)
    (la lf lt lx : List Addr) (hL : Lists g la lf lt lx) (hp : g.heap p = none) :
    Lists (luaC_newobjdt_link g tt p init) (p :: la) lf lt lx := by
  obtain ⟨h1, h2, h3, h4, h5, h6⟩ := hL
  have hnm : p ∉ la ++ lf ++ lt ++ lx := by
    intro hm
    have := (h6 p).2 hm
    rw [hp] at this
    cases this
  have hn := hnm
  simp only [List.mem_append, not_or] at hn
  refine ⟨⟨rfl, _, heap_set_same _ _ _, isList_set_of_not_mem _ _ _ _ _ h1 hn.1.1.1⟩,
    isList_set_of_not_mem _ _ _ _ _ h2 hn.1.1.2, isList_set_of_not_mem _ _ _ _ _ h3 hn.1.2,
    isList_set_of_not_mem _ _ _ _ _ h4 hn.2, ?_, ?_⟩
  · simp only [List.cons_append]
    exact List.nodup_cons.2 ⟨hnm, h5⟩
  · intro a
    show (Heap.set g.heap p _ a).isSome ↔ _
    by_cases hap : a = p
    · subst hap
      simp [heap_set_same]
    · rw [heap_set_ne _ _ _ _ hap, h6 a]
      simp [hap]

/-- The head of `allgc` moves to the head of `fixedgc`. -/
theorem lists_fix (g g2 : global_State) (o : Addr) (la lf lt lx : List Addr)
    (hL : Lists g la lf lt lx) (ho : g.allgc = some o) (hrun : luaC_fix g o = some g2) :
    Lists g2 (la.erase o) lf lt (o :: lx) := by
  unfold luaC_fix at hrun
  simp only [Option.bind_eq_bind, Option.bind_eq_some] at hrun
  obtain ⟨oo, hoo, o1, h1, o2, h2, hrun⟩ := hrun
  simp only [Option.some.injEq] at hrun
  rw [show (g.setobj o { oo with marked := set2gray oo.marked }).heap o =
    some { oo with marked := set2gray oo.marked } from heap_set_same _ _ _] at h1
  cases h1
  rw [show ((g.setobj o { oo with marked := set2gray oo.marked }).setobj o _).heap o = some _
    from heap_set_same _ _ _] at h2
  cases h2
  have hstore : g.store .allgc oo.next = some { g with allgc := oo.next } := rfl
  have hload : g.load .allgc = some (some o) := by simp [global_State.load, ho]
  obtain ⟨hO, hc, -, -, -⟩ := lists_unlink g _ .allgc o oo la lf lt lx hL hload hoo hstore
  have hom : o ∈ la := by
    have := hL.1
    rw [ho] at this
    obtain ⟨l2, e, -⟩ := isList_head _ _ _ this
    rw [e]
    exact List.mem_cons_self _ _
  have hn := (nodup4 la lf lt lx hL.2.2.2.2.1).2.2.2.2.1 o hom
  rw [List.erase_of_not_mem hn.1, List.erase_of_not_mem hn.2.1,
    List.erase_of_not_mem hn.2.2] at hO
  have hO2 := listsOrphan_set _ o oo
    { oo with marked := setage (set2gray oo.marked) G_OLD, next := g.fixedgc } _ _ _ _ hO hc
  have hL3 := listsOrphan_push_fixedgc _ o _ _ _ _ _ hO2 (heap_set_same _ _ _) rfl
  subst hrun
  refine lists_congr _ _ _ _ _ _ ?_ ?_ hL3
  · intro a
    unfold nextOf
    by_cases hao : a = o
    · subst hao
      simp [global_State.setobj, heap_set_same]
    · simp [global_State.setobj, heap_set_ne _ _ _ _ hao]
  · rfl

/-- The head of `tobefnz` moves to the head of `allgc`. -/
theorem lists_udata2finalize (g g2 : global_State) (o : Addr) (la lf lt lx : List Addr)
    (hL : Lists g la lf lt lx) (hrun : udata2finalize g = some (g2, o)) :
    Lists g2 (o :: la) lf (lt.erase o) lx ∧ g.tobefnz = some o := by
  unfold udata2finalize at hrun
  simp only [Option.bind_eq_bind, Option.bind_eq_some] at hrun
  obtain ⟨c, hc, x, hx, x3, h3, x4, h4, hrun⟩ := hrun
  have hstore : g.store .tobefnz x.next = some { g with tobefnz := x.next } := rfl
  have hload : g.load .tobefnz = some (some c) := by simp [global_State.load, hc]
  obtain ⟨hO, hcc, -, -, -⟩ := lists_unlink g _ .tobefnz c x la lf lt lx hL hload hx hstore
  have hom : c ∈ lt := by
    have := hL.2.2.1
    rw [hc] at this
    obtain ⟨l2, e, -⟩ := isList_head _ _ _ this
    rw [e]
    exact List.mem_cons_self _ _
  have hn := (nodup4 la lf lt lx hL.2.2.2.2.1).2.2.2.2.2.2.1 c hom
  rw [List.erase_of_not_mem hn.1, List.erase_of_not_mem hn.2.1,
    List.erase_of_not_mem hn.2.2] at hO
  have hO2 := listsOrphan_set _ c x { x with next := g.allgc } _ _ _ _ hO hcc
  have hL3 := listsOrphan_push_allgc _ c _ _ _ _ _ hO2 (heap_set_same _ _ _) rfl
  rw [show (global_State.setobj _ c _).heap c = some _ from heap_set_same _ _ _] at h3
  cases h3
  rw [show (global_State.setobj _ c _).heap c = some _ from heap_set_same _ _ _] at h4
  cases h4
  split at hrun
  · simp only [Option.some.injEq, Prod.mk.injEq] at hrun
    obtain ⟨rfl, rfl⟩ := hrun
    refine ⟨lists_congr _ _ _ _ _ _ ?_ ?_ hL3, hc⟩
    · intro a
      unfold nextOf
      by_cases hac : a = c
      · subst hac
        simp [global_State.setobj, heap_set_same]
      · simp [global_State.setobj, heap_set_ne _ _ _ _ hac]
    · rfl
  · split at hrun
    · simp only [Option.some.injEq, Prod.mk.injEq] at hrun
      obtain ⟨rfl, rfl⟩ := hrun
      refine ⟨lists_congr _ _ _ _ _ _ ?_ ?_ hL3, hc⟩
      · intro a
        unfold nextOf
        by_cases hac : a = c
        · subst hac
          simp [global_State.setobj, heap_set_same]
        · simp [global_State.setobj, heap_set_ne _ _ _ _ hac]
      · rfl
    · simp only [Option.some.injEq, Prod.mk.injEq] at hrun
      obtain ⟨rfl, rfl⟩ := hrun
      refine ⟨lists_congr _ _ _ _ _ _ ?_ ?_ hL3, hc⟩
      · intro a
        unfold nextOf
        by_cases hac : a = c
        · subst hac
          simp [global_State.setobj, heap_set_same]
        · simp [global_State.setobj, heap_set_ne _ _ _ _ hac]
      · rfl

/-- What the search for the link to `o` returns points to `o`. -/
theorem findptr_sound (o : Addr) (fuel : Nat) : ∀ (g : global_State) (p q : GCRef),
    findptr o fuel g p = some q → g.load q = some (some o) := by
  induction fuel with
  | zero => intro g p q h; simp [findptr] at h
  | succ n ih =>
    intro g p q h
    rw [findptr] at h
    simp only [Option.bind_eq_bind, Option.bind_eq_some] at h
    obtain ⟨c, hc, h⟩ := h
    split at h
    · rename_i hco
      cases h
      rw [hc, hco]
    · simp only [Option.bind_eq_some] at h
      obtain ⟨b, -, h⟩ := h
      exact ih g _ q h

/-- The second half of `luaC_checkfinalizer` keeps the lists disjoint. -/
theorem checkfinalizer_move_lists (fuel : Nat) (g1 g3 : global_State) (o : Addr)
    (la lf lt lx : List Addr) (hL : Lists g1 la lf lt lx)
    (hrun : luaC_checkfinalizer_move fuel g1 o = some g3) :
    Lists g3 (la.erase o) (o :: lf.erase o) (lt.erase o) (lx.erase o) := by
  unfold luaC_checkfinalizer_move at hrun
  simp only [Option.bind_eq_bind, Option.bind_eq_some] at hrun
  obtain ⟨p, hfind, x1, hx1, g2, hstore, x2, hx2, x4, hx4, hrun⟩ := hrun
  have hload := findptr_sound o fuel g1 .allgc p hfind
  obtain ⟨hO, hc, -, -, -⟩ := lists_unlink g1 g2 p o x1 la lf lt lx hL hload hx1 hstore
  rw [hc] at hx2
  cases hx2
  rw [show (global_State.heap _ o) = some _ from heap_set_same _ _ _] at hx4
  cases hx4
  simp only [Option.some.injEq] at hrun
  subst hrun
  have hO2 := listsOrphan_set g2 o x1 { x1 with next := g2.finobj } _ _ _ _ hO hc
  have hL3 := listsOrphan_push_finobj (g2.setobj o { x1 with next := g2.finobj }) o
    { x1 with next := g2.finobj } _ _ _ _ hO2 (heap_set_same _ _ _) rfl
  refine lists_congr _ _ _ _ _ _ ?_ ?_ hL3
  · intro a
    unfold nextOf
    by_cases hao : a = o
    · subst hao
      simp [global_State.setobj, heap_set_same]
    · simp [global_State.setobj, heap_set_ne _ _ _ _ hao]
  · rfl

/-- The first half of `luaC_checkfinalizer` keeps the lists disjoint. -/
theorem checkfinalizer_prepare_lists (fuel : Nat) (g g1 : global_State) (o : Addr)
    (x : GCObject) (la lf lt lx : List Addr) (hL : Lists g la lf lt lx)
    (hx : g.heap o = some x) (hrun : luaC_checkfinalizer_prepare fuel g o x = some g1) :
    ∃ la1 lf1 lt1 lx1, Lists g1 la1 lf1 lt1 lx1 ∧ la1.Sublist la ∧ lf1.Sublist lf ∧
      lt1.Sublist lt ∧ lx1.Sublist lx := by
  unfold luaC_checkfinalizer_prepare at hrun
  split at hrun
  · have hL0 : Lists (g.setobj o { x with marked := makewhite g x.marked }) la lf lt lx := by
      refine lists_congr g _ la lf lt lx ?_ rfl hL
      intro a
      unfold nextOf
      by_cases hao : a = o
      · subst hao
        simp [global_State.setobj, heap_set_same, hx]
      · simp [global_State.setobj, heap_set_ne _ _ _ _ hao]
    dsimp only at hrun
    split at hrun
    · simp only [Option.bind_eq_bind, Option.bind_eq_some] at hrun
      obtain ⟨⟨ga, q⟩, hst, hrun⟩ := hrun
      simp only [Option.some.injEq] at hrun
      subst hrun
      have hload : (g.setobj o { x with marked := makewhite g x.marked }).load (.next o) =
          some x.next := by
        simp [global_State.load, global_State.setobj, heap_set_same]
      obtain ⟨rest, hrest, hown⟩ := lists_rest _ _ _ _ _ hL0 (.next o) x.next hload
      obtain ⟨la2, lf2, lt2, lx2, hS, -⟩ :=
        (sweeptolive_lists fuel _ (.next o) la lf lt lx rest x.next hL0 hload hrest hown).2
          ga q hst
      exact ⟨la2, lf2, lt2, lx2, lists_congr ga _ _ _ _ _ (fun _ => rfl) rfl hS.1,
        hS.2.1, hS.2.2.1, hS.2.2.2.1, hS.2.2.2.2.1⟩
    · cases hrun
      exact ⟨la, lf, lt, lx, hL0, List.Sublist.refl _, List.Sublist.refl _,
        List.Sublist.refl _, List.Sublist.refl _⟩
  · unfold correctpointers at hrun
    simp only [hx, Option.bind_eq_bind, Option.some_bind, Option.some.injEq] at hrun
    subst hrun
    exact ⟨la, lf, lt, lx, lists_congr g _ _ _ _ _ (fun _ => rfl) rfl hL,
      List.Sublist.refl _, List.Sublist.refl _, List.Sublist.refl _, List.Sublist.refl _⟩

/-- `luaC_checkfinalizer` keeps the lists disjoint. -/
theorem checkfinalizer_lists (fuel : Nat) (g g2 : global_State) (o : Addr) (mt : Option Addr)
    (la lf lt lx : List Addr) (hL : Lists g la lf lt lx)
    (hrun : luaC_checkfinalizer fuel g o mt = some g2) :
    ∃ la2 lf2 lt2 lx2, Lists g2 la2 lf2 lt2 lx2 ∧ la2.Sublist la ∧
      (lf2.Sublist lf ∨ ∃ lf3, lf2 = o :: lf3 ∧ lf3.Sublist lf) ∧
      lt2.Sublist lt ∧ lx2.Sublist lx := by
  have hsame : ∃ la2 lf2 lt2 lx2, Lists g la2 lf2 lt2 lx2 ∧ la2.Sublist la ∧
      (lf2.Sublist lf ∨ ∃ lf3, lf2 = o :: lf3 ∧ lf3.Sublist lf) ∧
      lt2.Sublist lt ∧ lx2.Sublist lx :=
    ⟨la, lf, lt, lx, hL, List.Sublist.refl _, Or.inl (List.Sublist.refl _),
      List.Sublist.refl _, List.Sublist.refl _⟩
  unfold luaC_checkfinalizer at hrun
  simp only [Option.bind_eq_bind, Option.bind_eq_some] at hrun
  obtain ⟨x, hx, hrun⟩ := hrun
  split at hrun
  · cases hrun
    exact hsame
  · simp only [Option.bind_eq_some] at hrun
    obtain ⟨tm, -, hrun⟩ := hrun
    split at hrun
    · cases hrun
      exact hsame
    · split at hrun
      · cases hrun
        exact hsame
      · simp only [Option.bind_eq_some] at hrun
        obtain ⟨g1, h1, hrun⟩ := hrun
        obtain ⟨la1, lf1, lt1, lx1, hL1, s1, s2, s3, s4⟩ :=
          checkfinalizer_prepare_lists fuel g g1 o x la lf lt lx hL hx h1
        exact ⟨_, _, _, _, checkfinalizer_move_lists fuel g1 g2 o _ _ _ _ hL1 hrun,
          (List.erase_sublist _ _).trans s1,
          Or.inr ⟨_, rfl, (List.erase_sublist _ _).trans s2⟩,
          (List.erase_sublist _ _).trans s3, (List.erase_sublist _ _).trans s4⟩

/-- `sweeplist` keeps the lists disjoint. -/
theorem sweeplist_disjoint (g g2 : global_State) (p : GCRef) (n : Nat) (q : Option GCRef)
    (i : Nat) (la lf lt lx : List Addr) (hL0 : Lists g la lf lt lx)
    (hrun : sweeplist g p n = some (g2, q, i)) :
    ∃ la2 lf2 lt2 lx2, Lists g2 la2 lf2 lt2 lx2 ∧ la2.Sublist la ∧ lf2.Sublist lf ∧
      lt2.Sublist lt ∧ lx2.Sublist lx := by
  have hload : ∃ c0, g.load p = some c0 := by
    unfold sweeplist at hrun
    cases n with
    | zero =>
      simp only [sweeplist_loop, Option.bind_eq_bind, Option.some_bind,
        Option.bind_eq_some] at hrun
      obtain ⟨c, hc, -⟩ := hrun
      exact ⟨c, hc⟩
    | succ n =>
      rw [sweeplist_loop] at hrun
      simp only [Option.bind_eq_bind, Option.bind_eq_some] at hrun
      obtain ⟨-, ⟨c, hc, -⟩, -⟩ := hrun
      exact ⟨c, hc⟩
  obtain ⟨c0, hc0⟩ := hload
  obtain ⟨rest, hrest, hown⟩ := lists_rest _ _ _ _ _ hL0 p c0 hc0
  obtain ⟨la2, lf2, lt2, lx2, hS, -⟩ :=
    (sweeplist_lists g p n la lf lt lx rest c0 hL0 hc0 hrest hown).2 g2 q i hrun
  exact ⟨la2, lf2, lt2, lx2, hS.1, hS.2.1, hS.2.2.1, hS.2.2.2.1, hS.2.2.2.2.1⟩

/-- The last object of a list has no successor. -/
theorem isList_last (h : Heap) (p : Option Addr) (l0 : List Addr) (s : Addr)
    (hl : IsList h p (l0 ++ [s])) :
    IsSeg h p l0 (some s) ∧ ∃ y, h s = some y ∧ y.next = none := by
  rw [isList_iff_isSeg, isSeg_append_iff] at hl
  obtain ⟨r, h1, h2⟩ := hl
  rw [isSeg_cons_iff] at h2
  obtain ⟨rfl, y, hy, h3⟩ := h2
  exact ⟨h1, y, hy, h3⟩

/-- What `findlast` returns is the link at the end of the list. -/
theorem findlast_spec (fuel : Nat) : ∀ (g : global_State) (p q : GCRef) (c0 : Option Addr)
    (l : List Addr), findlast fuel g p = some q → g.load p = some c0 → IsList g.heap c0 l →
    (q = p ∧ l = []) ∨ ∃ l0 s, l = l0 ++ [s] ∧ q = .next s := by
  induction fuel with
  | zero => intro g p q c0 l h; simp [findlast] at h
  | succ n ih =>
    intro g p q c0 l h hp hl
    rw [findlast] at h
    simp only [hp, Option.bind_eq_bind, Option.some_bind] at h
    cases c0 with
    | none =>
      simp only [Option.some.injEq] at h
      cases l with
      | nil => exact Or.inl ⟨h.symm, rfl⟩
      | cons b l2 => exact absurd hl.1 (by simp)
    | some b =>
      simp only at h
      obtain ⟨l2, rfl, y, hy, hl2⟩ := isList_head _ _ _ hl
      have hp2 : g.load (.next b) = some y.next := by simp [global_State.load, hy]
      rcases ih g (.next b) q y.next l2 h hp2 hl2 with ⟨rfl, rfl⟩ | ⟨l0, s, rfl, rfl⟩
      · exact Or.inr ⟨[], b, rfl, rfl⟩
      · exact Or.inr ⟨b :: l0, s, rfl, rfl⟩

/-- The unlinked object, with no successor, is linked at the end of
`tobefnz` through the last link of that list. -/
theorem listsOrphan_append_tobefnz (g g4 : global_State) (c : Addr) (y : GCObject)
    (q : GCRef) (la lf lt lx : List Addr) (hO : ListsOrphan g c la lf lt lx)
    (hc : g.heap c = some y) (hy : y.next = none)
    (hq : (q = .tobefnz ∧ lt = []) ∨ ∃ l0 s, lt = l0 ++ [s] ∧ q = .next s)
    (hs : g.store q (some c) = some g4) :
    Lists g4 la lf (lt ++ [c]) lx ∧ g4.heap c = some y ∧ g4.finobj = g.finobj ∧
      SameMarks g.heap g4.heap := by
  obtain ⟨h1, h2, h3, h4, h5, h6⟩ := hO
  have hndc := List.nodup_cons.1 h5
  obtain ⟨n1, n2, n3, n4⟩ := orphan_not_mem c la lf lt lx h5
  have hnd : (la ++ lf ++ (lt ++ [c]) ++ lx).Nodup := by
    have hp : (la ++ lf ++ (lt ++ [c]) ++ lx).Perm (c :: (la ++ lf ++ lt ++ lx)) := by
      have : la ++ lf ++ (lt ++ [c]) ++ lx = (la ++ lf ++ lt) ++ c :: lx := by
        simp [List.append_assoc]
      rw [this]
      exact List.perm_middle
    exact (List.Perm.nodup_iff hp).2 h5
  have hmem : ∀ a, (a = c ∨ a ∈ la ++ lf ++ lt ++ lx) ↔ a ∈ la ++ lf ++ (lt ++ [c]) ++ lx := by
    intro a
    simp only [List.mem_append, List.mem_cons, List.mem_singleton, List.not_mem_nil, or_false]
    tauto
  rcases hq with ⟨rfl, rfl⟩ | ⟨l0, s, rfl, rfl⟩
  · simp only [global_State.store, Option.some.injEq] at hs
    subst hs
    refine ⟨⟨h1, h2, ⟨rfl, y, hc, by rw [hy]; rfl⟩, h4, hnd, ?_⟩, hc, rfl, sameMarks_refl _⟩
    intro a
    rw [← hmem a]
    exact h6 a
  · simp only [global_State.store, Option.map_eq_some'] at hs
    obtain ⟨ys, hys, rfl⟩ := hs
    obtain ⟨nda, ndf, ndt, ndx, da, df, dt, dx⟩ := nodup4 la lf _ lx hndc.2
    have hsm : s ∈ l0 ++ [s] := by simp
    have hns := dt s hsm
    have hsc : s ≠ c := fun e => n3 (e ▸ hsm)
    have hs0 : s ∉ l0 := by
      have := List.nodup_append.1 ndt
      exact fun hm => this.2.2 hm (List.mem_singleton_self s) 
    obtain ⟨hseg, -⟩ := isList_last _ _ _ _ h3
    have hc4 : (g.setobj s { ys with next := some c }).heap c = some y := by
      show Heap.set g.heap s _ c = _
      rw [heap_set_ne _ _ _ _ (Ne.symm hsc), hc]
    refine ⟨⟨isList_set_of_not_mem _ _ _ _ _ h1 hns.1, isList_set_of_not_mem _ _ _ _ _ h2 hns.2.1,
      ?_, isList_set_of_not_mem _ _ _ _ _ h4 hns.2.2, hnd, ?_⟩, hc4, rfl,
      sameMarks_set _ _ ys _ hys rfl rfl⟩
    · rw [isList_iff_isSeg, isSeg_append_iff]
      refine ⟨some c, ?_, rfl, y, hc4, by rw [hy]; rfl⟩
      rw [isSeg_append_iff]
      refine ⟨some s, ?_, rfl, _, heap_set_same _ _ _, rfl⟩
      refine isSeg_frame _ _ _ _ _ ?_ hseg
      intro b hb
      have hbs : b ≠ s := fun e => hs0 (e ▸ hb)
      unfold nextOf
      show Option.map _ (Heap.set g.heap s _ b) = _
      rw [heap_set_ne _ _ _ _ hbs]
    · intro a
      rw [← hmem a, ← h6 a]
      show (Heap.set g.heap s _ a).isSome ↔ _
      by_cases has : a = s
      · subst has
        simp [heap_set_same, hys]
      · rw [heap_set_ne _ _ _ _ has]

/-- What a link of the `finobj` chain points to is on `finobj`, and is not
the owner of the link. -/
theorem chain_mem (g : global_State) (p : GCRef) (c : Addr) (lf : List Addr)
    (hl : IsList g.heap g.finobj lf) (hnd : lf.Nodup)
    (hp : p = .finobj ∨ ∃ s, s ∈ lf ∧ p = .next s) (hload : g.load p = some (some c)) :
    c ∈ lf ∧ ∀ s, p = .next s → s ≠ c := by
  rcases hp with rfl | ⟨s, hs, rfl⟩
  · simp only [global_State.load, Option.some.injEq] at hload
    rw [hload] at hl
    obtain ⟨l2, rfl, -⟩ := isList_head _ _ _ hl
    exact ⟨List.mem_cons_self _ _, fun s hs => by cases hs⟩
  · simp only [global_State.load, Option.map_eq_some'] at hload
    obtain ⟨y, hy, hyn⟩ := hload
    refine ⟨isList_succ_mem _ _ _ hl s c y hs hy hyn, ?_⟩
    intro s2 hs2
    cases hs2
    exact isList_succ_ne _ _ _ hl hnd s c y hs hy hyn

/-- One move of `separatetobefnz`: the object `c` that `*p` points to goes
from `finobj` to the end of `tobefnz`. -/
theorem separate_move (g g2 g4 : global_State) (fs : Option Addr) (p lastnext : GCRef)
    (c : Addr) (x : GCObject) (ln : Option Addr) (la lf lt lx : List Addr)
    (hL : Lists g la lf lt lx) (hp : p = .finobj ∨ ∃ s, s ∈ lf ∧ p = .next s)
    (hlast : (lastnext = .tobefnz ∧ lt = []) ∨ ∃ l0 s, lt = l0 ++ [s] ∧ lastnext = .next s)
    (hload : g.load p = some (some c)) (hx : g.heap c = some x)
    (hstore : global_State.store { g with finobjsur := fs } p x.next = some g2)
    (hln : g2.load lastnext = some ln)
    (hs4 : (g2.setobj c { x with next := ln }).store lastnext (some c) = some g4) :
    Lists g4 la (lf.erase c) (lt ++ [c]) lx ∧
    (p = .finobj ∨ ∃ s, s ∈ lf.erase c ∧ p = .next s) ∧ c ∈ lf ∧
    SameMarks g.heap g4.heap := by
  have hL1 : Lists { g with finobjsur := fs } la lf lt lx :=
    lists_congr g _ _ _ _ _ (fun _ => rfl) rfl hL
  obtain ⟨nda, ndf, ndt, ndx, da, df, dt, dx⟩ := nodup4 la lf lt lx hL.2.2.2.2.1
  obtain ⟨hcm, hown⟩ := chain_mem g p c lf hL.2.1 ndf hp hload
  have hload1 : global_State.load { g with finobjsur := fs } p = some (some c) := by
    rw [← hload]
    exact load_congr g _ p rfl (fun _ _ => rfl)
  obtain ⟨hO, hc2, hsm, -, -⟩ := lists_unlink _ g2 p c x la lf lt lx hL1 hload1 hx hstore
  have hn := df c hcm
  rw [List.erase_of_not_mem hn.1, List.erase_of_not_mem hn.2.1,
    List.erase_of_not_mem hn.2.2] at hO
  have hlnn : ln = none := by
    rcases hlast with ⟨rfl, rfl⟩ | ⟨l0, s, rfl, rfl⟩
    · simp only [global_State.load, Option.some.injEq] at hln
      rw [← hln]
      exact hO.2.2.1
    · obtain ⟨-, y, hy, hyn⟩ := isList_last _ _ _ _ hO.2.2.1
      simp only [global_State.load, hy, Option.map_some', Option.some.injEq] at hln
      rw [← hln, hyn]
  subst hlnn
  have hO2 := listsOrphan_set g2 c x { x with next := none } _ _ _ _ hO hc2
  obtain ⟨hL4, -, -, hsm4⟩ := listsOrphan_append_tobefnz _ g4 c { x with next := none } lastnext
    _ _ _ _ hO2 (heap_set_same _ _ _) rfl hlast hs4
  refine ⟨hL4, ?_, hcm, ?_⟩
  · rcases hp with rfl | ⟨s, hs, rfl⟩
    · exact Or.inl rfl
    · exact Or.inr ⟨s, (List.mem_erase_of_ne (hown s rfl)).2 hs, rfl⟩
  · refine sameMarks_trans _ _ _ hsm (sameMarks_trans _ _ _ ?_ hsm4)
    exact sameMarks_set _ _ x _ hc2 rfl rfl

/-- The loop of `separatetobefnz` keeps the lists disjoint: objects move
from `finobj` to the end of `tobefnz`, and no mark changes. -/
theorem separatetobefnz_loop_lists (all : Bool) (fuel : Nat) :
    ∀ (g g2 : global_State) (p lastnext : GCRef) (la lf lt lx : List Addr),
    Lists g la lf lt lx → (p = .finobj ∨ ∃ s, s ∈ lf ∧ p = .next s) →
    ((lastnext = .tobefnz ∧ lt = []) ∨ ∃ l0 s, lt = l0 ++ [s] ∧ lastnext = .next s) →
    separatetobefnz_loop all fuel g p lastnext = some g2 →
    ∃ lf2 moved, Lists g2 la lf2 (lt ++ moved) lx ∧ lf2.Sublist lf ∧
      (∀ a, a ∈ moved → a ∈ lf) ∧ SameMarks g.heap g2.heap := by
  induction fuel with
  | zero => intro g g2 p lastnext la lf lt lx _ _ _ h; simp [separatetobefnz_loop] at h
  | succ n ih =>
    intro g g2 p lastnext la lf lt lx hL hp hlast hrun
    rw [separatetobefnz_loop] at hrun
    simp only [Option.bind_eq_bind, Option.bind_eq_some] at hrun
    obtain ⟨curr, hcurr, hrun⟩ := hrun
    split at hrun
    · cases hrun
      exact ⟨lf, [], by simpa using hL, List.Sublist.refl _, fun a ha => by simp at ha,
        sameMarks_refl _⟩
    · simp only [Option.bind_eq_some] at hrun
      obtain ⟨c, hc, x, hx, hrun⟩ := hrun
      subst hc
      obtain ⟨nda, ndf, ndt, ndx, da, df, dt, dx⟩ := nodup4 la lf lt lx hL.2.2.2.2.1
      obtain ⟨hcm, hown⟩ := chain_mem g p c lf hL.2.1 ndf hp hcurr
      split at hrun
      · exact ih g g2 (.next c) lastnext la lf lt lx hL (Or.inr ⟨c, hcm, rfl⟩) hlast hrun
      · simp only [Option.bind_eq_some] at hrun
        obtain ⟨x1, hx1, g2a, hstore, ln, hln, x2, hx2, g4, hs4, hrun⟩ := hrun
        have hg1 : ∃ fs, (if some c = g.finobjsur then { g with finobjsur := x.next } else g) =
            { g with finobjsur := fs } := by
          split
          · exact ⟨_, rfl⟩
          · exact ⟨g.finobjsur, rfl⟩
        obtain ⟨fs, hfs⟩ := hg1
        rw [hfs] at hx1 hstore
        have e1 : x1 = x := by
          have : g.heap c = some x1 := hx1
          rw [hx] at this
          exact (Option.some.inj this).symm
        subst e1
        have hL1 : Lists { g with finobjsur := fs } la lf lt lx :=
          lists_congr g _ _ _ _ _ (fun _ => rfl) rfl hL
        have hload1 : global_State.load { g with finobjsur := fs } p = some (some c) := by
          rw [← hcurr]
          exact load_congr g _ p rfl (fun _ _ => rfl)
        obtain ⟨-, hc2, -, -, -⟩ := lists_unlink _ g2a p c x1 la lf lt lx hL1 hload1 hx hstore
        rw [hc2] at hx2
        cases hx2
        obtain ⟨k1, k2, k3, k4⟩ := separate_move g g2a g4 fs p lastnext c x1 ln la lf lt lx hL
          hp hlast hcurr hx hstore hln hs4
        obtain ⟨lf2, moved, m1, m2, m3, m4⟩ := ih g4 g2 p (.next c) la (lf.erase c)
          (lt ++ [c]) lx k1 k2 (Or.inr ⟨lt, c, rfl, rfl⟩) hrun
        refine ⟨lf2, c :: moved, ?_, m2.trans (List.erase_sublist _ _), ?_,
          sameMarks_trans _ _ _ k4 m4⟩
        · simpa [List.append_assoc] using m1
        · intro a ha
          rcases List.mem_cons.1 ha with rfl | ha
          · exact hcm
          · exact List.mem_of_mem_erase (m3 a ha)

/-- `separatetobefnz` keeps the lists disjoint. -/
theorem separatetobefnz_lists (fuel : Nat) (g g2 : global_State) (all : Bool)
    (la lf lt lx : List Addr) (hL : Lists g la lf lt lx)
    (hrun : separatetobefnz fuel g all = some g2) :
    ∃ lf2 moved, Lists g2 la lf2 (lt ++ moved) lx ∧ lf2.Sublist lf ∧
      (∀ a, a ∈ moved → a ∈ lf) ∧ SameMarks g.heap g2.heap := by
  unfold separatetobefnz at hrun
  simp only [Option.bind_eq_bind, Option.bind_eq_some] at hrun
  obtain ⟨lastnext, hfind, hrun⟩ := hrun
  have hlast := findlast_spec fuel g .tobefnz lastnext g.tobefnz lt hfind rfl hL.2.2.1
  exact separatetobefnz_loop_lists all fuel g g2 .finobj lastnext la lf lt lx hL (Or.inl rfl)
    hlast hrun

/-- The lists of the concrete state `exFin`. -/
theorem exFin_lists : Lists exFin [4, 1, 2, 3] [5] [6] [] := by
  refine ⟨⟨rfl, _, rfl, rfl, _, rfl, rfl, _, rfl, rfl, _, rfl, rfl⟩, ⟨rfl, _, rfl, rfl⟩,
    ⟨rfl, _, rfl, rfl⟩, rfl, by decide, ?_⟩
  intro a
  show (exFinHeap a).isSome ↔ _
  unfold exFinHeap
  simp only [List.cons_append, List.nil_append, List.append_nil, List.mem_cons,
    List.mem_singleton, List.not_mem_nil, or_false]
  split_ifs <;> simp_all

theorem exFin_closed : ClosedIn exFin.heap [4, 1, 2, 3] := by
  intro a ha y hy htt
  simp only [List.mem_cons, List.mem_singleton, List.not_mem_nil, or_false] at ha
  rcases ha with rfl | rfl | rfl | rfl <;>
    · simp only [exFin, exFinHeap] at hy
      cases hy
      cases htt

/-! ### C10: the control fields during marking and sweeping -/

@[simp] theorem ctl_setobj (g : global_State) (a : Addr) (o : GCObject) :
    ctl (g.setobj a o) = ctl g := rfl

@[simp] theorem ctl_setlist (g : global_State) (l : GrayList) (v : Option Addr) :
    ctl (g.setlist l v) = ctl g := by
  cases l <;> rfl

theorem linkgclist__ctl (g g2 : global_State) (o : Addr) (pn : Option Addr) (l : GrayList)
    (h : linkgclist_ g o pn l = some g2) : ctl g2 = ctl g := by
  unfold linkgclist_ at h
  simp only [Option.bind_eq_bind, Option.bind_eq_some] at h
  obtain ⟨a, -, x, -, y, -, h⟩ := h
  cases h
  simp

theorem linkobjgclist_ctl (g g2 : global_State) (o : Addr) (l : GrayList)
    (h : linkobjgclist g o l = some g2) : ctl g2 = ctl g := by
  unfold linkobjgclist at h
  simp only [Option.bind_eq_bind, Option.bind_eq_some] at h
  obtain ⟨x, -, h⟩ := h
  exact linkgclist__ctl _ _ _ _ _ h

theorem markobject_with_ctl (mark : global_State → Addr → Option global_State)
    (hmark : ∀ g o g2, mark g o = some g2 → ctl g2 = ctl g)
    (g g2 : global_State) (t : Addr) (h : markobject_with mark g t = some g2) :
    ctl g2 = ctl g := by
  unfold markobject_with at h
  simp only [Option.bind_eq_bind, Option.bind_eq_some] at h
  obtain ⟨x, -, h⟩ := h
  split at h
  · exact hmark _ _ _ h
  · cases h
    rfl

theorem markrec_ctl (fuel : Nat) : ∀ (g : global_State) (o : Addr) (g2 : global_State),
    markrec fuel g o = some g2 → ctl g2 = ctl g := by
  induction fuel with
  | zero => intro g o g2 h; simp [markrec] at h
  | succ n ih =>
    intro g o g2 h
    rw [markrec] at h
    simp only [Option.bind_eq_bind, Option.bind_eq_some] at h
    obtain ⟨x, hx, h⟩ := h
    split at h
    · cases h; simp
    · cases h; simp
    · split at h
      · cases h
      · rw [markobject_with_ctl _ ih _ _ _ h]; simp
      · cases h; simp
    · split at h
      · split at h
        · simp only [Option.some_bind, Option.bind_eq_some] at h
          obtain ⟨y, -, h⟩ := h
          cases h; simp
        · simp only [Option.bind_eq_some] at h
          obtain ⟨g1, h1, y, -, h⟩ := h
          cases h
          simp only [ctl_setobj]
          exact markobject_with_ctl _ ih _ _ _ h1
      · exact linkobjgclist_ctl _ _ _ _ h
    · exact linkobjgclist_ctl _ _ _ _ h

theorem reallymarkobject_ctl (g : global_State) (o : Addr) (g2 : global_State)
    (h : reallymarkobject g o = some g2) : ctl g2 = ctl g :=
  markrec_ctl 3 g o g2 h

theorem markobject_ctl (g : global_State) (t : Addr) (g2 : global_State)
    (h : markobject g t = some g2) : ctl g2 = ctl g :=
  markobject_with_ctl _ reallymarkobject_ctl g g2 t h

theorem markvalue_ctl (g : global_State) (v : TValue) (g2 : global_State)
    (h : markvalue g v = some g2) : ctl g2 = ctl g := by
  unfold markvalue at h
  split at h
  · exact markobject_ctl _ _ _ h
  · cases h
    rfl

theorem markkey_ctl (g : global_State) (n : Node) (g2 : global_State)
    (h : markkey g n = some g2) : ctl g2 = ctl g := by
  unfold markkey at h
  split at h
  · exact markobject_ctl _ _ _ h
  · cases h
    rfl

theorem markobjectN_ctl (g : global_State) (t : Option Addr) (g2 : global_State)
    (h : markobjectN g t = some g2) : ctl g2 = ctl g := by
  unfold markobjectN at h
  split at h
  · cases h
    rfl
  · exact markobject_ctl _ _ _ h

theorem iscleared_ctl (g : global_State) (o : Option Addr) (g2 : global_State) (b : Bool)
    (h : iscleared g o = some (g2, b)) : ctl g2 = ctl g := by
  unfold iscleared at h
  split at h
  · cases h
    rfl
  · simp only [Option.bind_eq_bind, Option.bind_eq_some] at h
    obtain ⟨x, -, h⟩ := h
    split at h
    · simp only [Option.bind_eq_some] at h
      obtain ⟨g1, h1, h⟩ := h
      cases h
      exact markobject_ctl _ _ _ h1
    · cases h
      rfl

theorem linkgclist_ctl (g g2 : global_State) (o : Addr) (l : GrayList)
    (h : linkgclist g o l = some g2) : ctl g2 = ctl g :=
  linkgclist__ctl _ _ _ _ _ h

theorem genlink_ctl (g : global_State) (o : Addr) (g2 : global_State)
    (h : genlink g o = some g2) : ctl g2 = ctl g := by
  unfold genlink at h
  simp only [Option.bind_eq_bind, Option.bind_eq_some] at h
  obtain ⟨x, -, h⟩ := h
  split at h
  · exact linkobjgclist_ctl _ _ _ _ h
  · split at h
    · cases h
      rfl
    · cases h
      rfl

theorem markvalues_ctl (l : List TValue) : ∀ (g g2 : global_State),
    markvalues l g = some g2 → ctl g2 = ctl g := by
  induction l with
  | nil => intro g g2 h; cases h; rfl
  | cons x rest ih =>
    intro g g2 h
    rw [markvalues] at h
    simp only [Option.bind_eq_bind, Option.bind_eq_some] at h
    obtain ⟨g1, h1, h⟩ := h
    rw [ih _ _ h, markvalue_ctl _ _ _ h1]

theorem markobjectsN_ctl (l : List (Option Addr)) : ∀ (g g2 : global_State),
    markobjectsN l g = some g2 → ctl g2 = ctl g := by
  induction l with
  | nil => intro g g2 h; cases h; rfl
  | cons x rest ih =>
    intro g g2 h
    rw [markobjectsN] at h
    simp only [Option.bind_eq_bind, Option.bind_eq_some] at h
    obtain ⟨g1, h1, h⟩ := h
    rw [ih _ _ h, markobjectN_ctl _ _ _ h1]

theorem traverseweakvalue_loop_ctl (h : Addr) (n : Nat) : ∀ (i : Nat) (g : global_State)
    (c : Bool) (g2 : global_State) (c2 : Bool),
    traverseweakvalue_loop h n i g c = some (g2, c2) → ctl g2 = ctl g := by
  induction n with
  | zero => intro i g c g2 c2 hr; cases hr; rfl
  | succ n ih =>
    intro i g c g2 c2 hr
    rw [traverseweakvalue_loop] at hr
    simp only [Option.bind_eq_bind, Option.bind_eq_some] at hr
    obtain ⟨t, -, nd, -, hr⟩ := hr
    split at hr
    · rw [ih _ _ _ _ _ hr]
      rfl
    · simp only [Option.bind_eq_some] at hr
      obtain ⟨g1, h1, hr⟩ := hr
      split at hr
      · simp only [Option.bind_eq_some] at hr
        obtain ⟨⟨g3, c3⟩, h3, hr⟩ := hr
        rw [ih _ _ _ _ _ hr, iscleared_ctl _ _ _ _ h3, markkey_ctl _ _ _ h1]
      · rw [ih _ _ _ _ _ hr, markkey_ctl _ _ _ h1]

theorem traverseweakvalue_ctl (g : global_State) (h : Addr) (g2 : global_State)
    (hr : traverseweakvalue g h = some g2) : ctl g2 = ctl g := by
  unfold traverseweakvalue at hr
  simp only [Option.bind_eq_bind, Option.bind_eq_some] at hr
  obtain ⟨t, -, ⟨g1, c⟩, h1, hr⟩ := hr
  have e1 := traverseweakvalue_loop_ctl _ _ _ _ _ _ _ h1
  split at hr
  · rw [linkgclist_ctl _ _ _ _ hr, e1]
  · rw [linkgclist_ctl _ _ _ _ hr, e1]

theorem traverseephemeron_array_ctl (l : List TValue) : ∀ (g : global_State) (m : Bool)
    (g2 : global_State) (m2 : Bool),
    traverseephemeron_array l g m = some (g2, m2) → ctl g2 = ctl g := by
  induction l with
  | nil => intro g m g2 m2 h; cases h; rfl
  | cons x rest ih =>
    intro g m g2 m2 h
    rw [traverseephemeron_array] at h
    simp only [Option.bind_eq_bind, Option.bind_eq_some] at h
    obtain ⟨w, -, h⟩ := h
    split at h
    · simp only [Option.bind_eq_some] at h
      obtain ⟨r, -, g1, h1, h⟩ := h
      rw [ih _ _ _ _ h, reallymarkobject_ctl _ _ _ h1]
    · exact ih _ _ _ _ h

theorem traverseephemeron_loop_ctl (h : Addr) (inv : Bool) (nsize : Nat) (n : Nat) :
    ∀ (i : Nat) (g : global_State) (f : EphFlags) (g2 : global_State) (f2 : EphFlags),
    traverseephemeron_loop h inv nsize n i g f = some (g2, f2) → ctl g2 = ctl g := by
  induction n with
  | zero => intro i g f g2 f2 hr; cases hr; rfl
  | succ n ih =>
    intro i g f g2 f2 hr
    rw [traverseephemeron_loop] at hr
    simp only [Option.bind_eq_bind, Option.bind_eq_some] at hr
    obtain ⟨t, -, nd, -, hr⟩ := hr
    split at hr
    · rw [ih _ _ _ _ _ hr]
      rfl
    · simp only [Option.bind_eq_some] at hr
      obtain ⟨⟨g1, c⟩, h1, w, -, hr⟩ := hr
      have e1 := iscleared_ctl _ _ _ _ h1
      split at hr
      · rw [ih _ _ _ _ _ hr, e1]
      · split at hr
        · simp only [Option.bind_eq_some] at hr
          obtain ⟨r, -, g3, h3, hr⟩ := hr
          rw [ih _ _ _ _ _ hr, reallymarkobject_ctl _ _ _ h3, e1]
        · rw [ih _ _ _ _ _ hr, e1]

theorem traverseephemeron_ctl (g : global_State) (h : Addr) (inv : Bool) (g2 : global_State)
    (m : Bool) (hr : traverseephemeron g h inv = some (g2, m)) : ctl g2 = ctl g := by
  unfold traverseephemeron at hr
  simp only [Option.bind_eq_bind, Option.bind_eq_some] at hr
  obtain ⟨t, -, ⟨g1, m1⟩, h1, ⟨g3, f⟩, h3, hr⟩ := hr
  have e1 := traverseephemeron_array_ctl _ _ _ _ _ h1
  have e3 := traverseephemeron_loop_ctl _ _ _ _ _ _ _ _ _ h3
  dsimp only at hr
  have key : ∀ r : Option global_State, (∀ g4, r = some g4 → ctl g4 = ctl g3) →
      (r.bind fun y => some (y, f.marked)) = some (g2, m) → ctl g2 = ctl g := by
    intro r hk hb
    simp only [Option.bind_eq_some, Option.some.injEq, Prod.mk.injEq] at hb
    obtain ⟨g4, h4, rfl, -⟩ := hb
    rw [hk _ h4, e3, e1]
  split at hr
  · exact key _ (fun g4 h4 => linkgclist_ctl _ _ _ _ h4) hr
  · split at hr
    · exact key _ (fun g4 h4 => linkgclist_ctl _ _ _ _ h4) hr
    · split at hr
      · exact key _ (fun g4 h4 => linkgclist_ctl _ _ _ _ h4) hr
      · exact key _ (fun g4 h4 => genlink_ctl _ _ _ h4) hr

theorem traversestrongtable_loop_ctl (h : Addr) (n : Nat) : ∀ (i : Nat) (g g2 : global_State),
    traversestrongtable_loop h n i g = some g2 → ctl g2 = ctl g := by
  induction n with
  | zero => intro i g g2 hr; cases hr; rfl
  | succ n ih =>
    intro i g g2 hr
    rw [traversestrongtable_loop] at hr
    simp only [Option.bind_eq_bind, Option.bind_eq_some] at hr
    obtain ⟨t, -, nd, -, hr⟩ := hr
    split at hr
    · rw [ih _ _ _ hr]
      rfl
    · simp only [Option.bind_eq_some] at hr
      obtain ⟨g1, h1, g3, h3, hr⟩ := hr
      rw [ih _ _ _ hr, markvalue_ctl _ _ _ h3, markkey_ctl _ _ _ h1]

theorem traversestrongtable_ctl (g : global_State) (h : Addr) (g2 : global_State)
    (hr : traversestrongtable g h = some g2) : ctl g2 = ctl g := by
  unfold traversestrongtable at hr
  simp only [Option.bind_eq_bind, Option.bind_eq_some] at hr
  obtain ⟨t, -, g1, h1, g3, h3, hr⟩ := hr
  rw [genlink_ctl _ _ _ hr, traversestrongtable_loop_ctl _ _ _ _ _ h3, markvalues_ctl _ _ _ h1]

theorem traversetable_ctl (g : global_State) (h : Addr) (g2 : global_State) (w : Nat)
    (hr : traversetable g h = some (g2, w)) : ctl g2 = ctl g := by
  unfold traversetable at hr
  simp only [Option.bind_eq_bind, Option.bind_eq_some] at hr
  obtain ⟨t, -, mode, -, g1, h1, hr⟩ := hr
  have e1 := markobjectN_ctl _ _ _ h1
  have key : ∀ r : Option global_State, (∀ g3, r = some g3 → ctl g3 = ctl g1) →
      (r.bind fun g3 => (g3.heap h).bind fun t2 =>
        some (g3, 1 + t2.alimit + 2 * allocsizenode t2)) = some (g2, w) → ctl g2 = ctl g := by
    intro r hk hb
    simp only [Option.bind_eq_some, Option.some.injEq, Prod.mk.injEq] at hb
    obtain ⟨g3, h3, t2, -, rfl, -⟩ := hb
    rw [hk _ h3, e1]
  split at hr
  · simp only [Option.bind_eq_bind, Option.bind_eq_some] at hr
    obtain ⟨smode, -, hr⟩ := hr
    split at hr
    · split at hr
      · exact key _ (fun g3 h3 => traverseweakvalue_ctl _ _ _ h3) hr
      · split at hr
        · refine key _ ?_ hr
          intro g3 h3
          simp only [Option.map_eq_some'] at h3
          obtain ⟨⟨g4, m⟩, h4, rfl⟩ := h3
          exact traverseephemeron_ctl _ _ _ _ _ h4
        · exact key _ (fun g3 h3 => linkgclist_ctl _ _ _ _ h3) hr
    · exact key _ (fun g3 h3 => traversestrongtable_ctl _ _ _ h3) hr
  · exact key _ (fun g3 h3 => traversestrongtable_ctl _ _ _ h3) hr

theorem traverseudata_ctl (g : global_State) (u : Addr) (g2 : global_State) (w : Nat)
    (hr : traverseudata g u = some (g2, w)) : ctl g2 = ctl g := by
  unfold traverseudata at hr
  simp only [Option.bind_eq_bind, Option.bind_eq_some] at hr
  obtain ⟨x, -, g1, h1, g3, h3, g4, h4, y, -, hr⟩ := hr
  simp only [Option.some.injEq, Prod.mk.injEq] at hr
  obtain ⟨rfl, -⟩ := hr
  rw [genlink_ctl _ _ _ h4, markvalues_ctl _ _ _ h3, markobjectN_ctl _ _ _ h1]

theorem traverseproto_ctl (g : global_State) (f : Addr) (g2 : global_State) (w : Nat)
    (hr : traverseproto g f = some (g2, w)) : ctl g2 = ctl g := by
  unfold traverseproto at hr
  simp only [Option.bind_eq_bind, Option.bind_eq_some] at hr
  obtain ⟨x, -, g1, h1, g3, h3, g4, h4, g5, h5, g6, h6, hr⟩ := hr
  simp only [Option.some.injEq, Prod.mk.injEq] at hr
  obtain ⟨rfl, -⟩ := hr
  rw [markobjectsN_ctl _ _ _ h6, markobjectsN_ctl _ _ _ h5, markobjectsN_ctl _ _ _ h4,
    markvalues_ctl _ _ _ h3, markobjectN_ctl _ _ _ h1]

theorem traverseCclosure_ctl (g : global_State) (cl : Addr) (g2 : global_State) (w : Nat)
    (hr : traverseCclosure g cl = some (g2, w)) : ctl g2 = ctl g := by
  unfold traverseCclosure at hr
  simp only [Option.bind_eq_bind, Option.bind_eq_some] at hr
  obtain ⟨x, -, g1, h1, hr⟩ := hr
  simp only [Option.some.injEq, Prod.mk.injEq] at hr
  obtain ⟨rfl, -⟩ := hr
  exact markvalues_ctl _ _ _ h1

theorem traverseLclosure_ctl (g : global_State) (cl : Addr) (g2 : global_State) (w : Nat)
    (hr : traverseLclosure g cl = some (g2, w)) : ctl g2 = ctl g := by
  unfold traverseLclosure at hr
  simp only [Option.bind_eq_bind, Option.bind_eq_some] at hr
  obtain ⟨x, -, g1, h1, g3, h3, hr⟩ := hr
  simp only [Option.some.injEq, Prod.mk.injEq] at hr
  obtain ⟨rfl, -⟩ := hr
  rw [markobjectsN_ctl _ _ _ h3, markobjectN_ctl _ _ _ h1]

theorem luaD_shrinkstack_ctl (env : Env) (g : global_State) (th : Addr) (g2 : global_State)
    (hr : luaD_shrinkstack env g th = some g2) : ctl g2 = ctl g := by
  unfold luaD_shrinkstack at hr
  simp only [Option.bind_eq_bind, Option.bind_eq_some] at hr
  obtain ⟨t, -, s, -, hr⟩ := hr
  split at hr
  · cases hr
    rfl
  · cases hr
    rfl

theorem traversethread_uvs_ctl (fuel : Nat) : ∀ (g : global_State) (uv : Option Addr)
    (g2 : global_State), traversethread_uvs fuel g uv = some g2 → ctl g2 = ctl g := by
  induction fuel with
  | zero => intro g uv g2 hr; simp [traversethread_uvs] at hr
  | succ n ih =>
    intro g uv g2 hr
    cases uv with
    | none =>
      simp only [traversethread_uvs, Option.some.injEq] at hr
      subst hr
      rfl
    | some u =>
      rw [traversethread_uvs] at hr
      simp only [Option.bind_eq_bind, Option.bind_eq_some] at hr
      obtain ⟨g1, h1, x, -, hr⟩ := hr
      rw [ih _ _ _ hr, markobject_ctl _ _ _ h1]

theorem traversethread_ctl (env : Env) (fuel : Nat) (g : global_State) (th : Addr)
    (g2 : global_State) (w : Nat) (hr : traversethread env fuel g th = some (g2, w)) :
    ctl g2 = ctl g := by
  unfold traversethread at hr
  simp only [Option.bind_eq_bind, Option.bind_eq_some] at hr
  obtain ⟨t, -, g1, h1, hr⟩ := hr
  have e1 : ctl g1 = ctl g := by
    split at h1
    · exact linkgclist_ctl _ _ _ _ h1
    · cases h1
      rfl
  split at hr
  · simp only [Option.some.injEq, Prod.mk.injEq] at hr
    obtain ⟨rfl, -⟩ := hr
    exact e1
  · simp only [Option.bind_eq_bind, Option.bind_eq_some] at hr
    obtain ⟨g3, h3, t2, -, g4, h4, g5, h5, t7, -, hr⟩ := hr
    simp only [Option.some.injEq, Prod.mk.injEq] at hr
    obtain ⟨rfl, -⟩ := hr
    have e3 := markvalues_ctl _ _ _ h3
    have e4 := traversethread_uvs_ctl _ _ _ _ h4
    have e5 : ctl g5 = ctl g4 := by
      split at h5
      · simp only [Option.bind_eq_bind, Option.bind_eq_some] at h5
        obtain ⟨g6, h6, t5, -, s5, -, t6, -, h5⟩ := h5
        have e6 : ctl g6 = ctl g4 := by
          split at h6
          · exact luaD_shrinkstack_ctl _ _ _ _ h6
          · cases h6
            rfl
        split at h5
        · cases h5
          exact e6
        · cases h5
          exact e6
      · cases h5
        rfl
    rw [e5, e4, e3, e1]

/-- Traversing one gray object changes no control field of the collector. -/
theorem propagatemark_ctl (env : Env) (fuel : Nat) (g g2 : global_State) (w : Nat)
    (hr : propagatemark env fuel g = some (g2, w)) : ctl g2 = ctl g := by
  unfold propagatemark at hr
  simp only [Option.bind_eq_bind, Option.bind_eq_some] at hr
  obtain ⟨o, -, x, -, x1, -, pl, -, y, -, hr⟩ := hr
  split at hr
  · exact (traversetable_ctl _ _ _ _ hr).trans rfl
  · exact (traverseudata_ctl _ _ _ _ hr).trans rfl
  · exact (traverseLclosure_ctl _ _ _ _ hr).trans rfl
  · exact (traverseCclosure_ctl _ _ _ _ hr).trans rfl
  · exact (traverseproto_ctl _ _ _ _ hr).trans rfl
  · exact (traversethread_ctl _ _ _ _ _ _ hr).trans rfl
  · simp only [Option.some.injEq, Prod.mk.injEq] at hr
    obtain ⟨rfl, -⟩ := hr
    rfl

theorem store_ctl (g g1 : global_State) (p : GCRef) (v : Option Addr)
    (hs : g.store p v = some g1) : ctl g1 = ctl g := by
  cases p with
  | allgc => simp only [global_State.store, Option.some.injEq] at hs; subst hs; rfl
  | finobj => simp only [global_State.store, Option.some.injEq] at hs; subst hs; rfl
  | tobefnz => simp only [global_State.store, Option.some.injEq] at hs; subst hs; rfl
  | next s =>
    simp only [global_State.store, Option.map_eq_some'] at hs
    obtain ⟨y, -, rfl⟩ := hs
    rfl

theorem sweeplist_loop_ctl (ow white : Nat) (n : Nat) : ∀ (g : global_State) (p : GCRef)
    (i : Nat) (g2 : global_State) (p2 : GCRef) (i2 : Nat),
    sweeplist_loop ow white n g p i = some (g2, p2, i2) → ctl g2 = ctl g := by
  induction n with
  | zero =>
    intro g p i g2 p2 i2 hr
    simp only [sweeplist_loop, Option.some.injEq, Prod.mk.injEq] at hr
    obtain ⟨rfl, -, -⟩ := hr
    rfl
  | succ n ih =>
    intro g p i g2 p2 i2 hr
    rw [sweeplist_loop] at hr
    simp only [Option.bind_eq_bind, Option.bind_eq_some] at hr
    obtain ⟨c, -, hr⟩ := hr
    split at hr
    · simp only [Option.some.injEq, Prod.mk.injEq] at hr
      obtain ⟨rfl, -, -⟩ := hr
      rfl
    · simp only [Option.bind_eq_bind, Option.bind_eq_some] at hr
      obtain ⟨x, -, hr⟩ := hr
      split at hr
      · simp only [Option.bind_eq_some] at hr
        obtain ⟨g1, h1, g3, h3, hr⟩ := hr
        obtain ⟨hmid, -, -, -, e3⟩ := freeobj_heap _ _ _ h3
        rw [ih _ _ _ _ _ _ hr, e3, store_ctl _ _ _ _ h1]
      · rw [ih _ _ _ _ _ _ hr]
        rfl

theorem sweeplist_ctl (g : global_State) (p : GCRef) (n : Nat) (g2 : global_State)
    (q : Option GCRef) (i : Nat) (hr : sweeplist g p n = some (g2, q, i)) :
    ctl g2 = ctl g := by
  unfold sweeplist at hr
  simp only [Option.bind_eq_bind, Option.bind_eq_some] at hr
  obtain ⟨⟨g1, p1, i1⟩, h1, c, -, hr⟩ := hr
  simp only [Option.some.injEq, Prod.mk.injEq] at hr
  obtain ⟨rfl, -, -⟩ := hr
  exact sweeplist_loop_ctl _ _ _ _ _ _ _ _ _ h1

theorem sweeptolive_ctl (fuel : Nat) : ∀ (g : global_State) (old : GCRef) (g2 : global_State)
    (q : Option GCRef), sweeptolive fuel g old = some (g2, q) → ctl g2 = ctl g := by
  induction fuel with
  | zero => intro g old g2 q hr; simp [sweeptolive] at hr
  | succ n ih =>
    intro g old g2 q hr
    rw [sweeptolive] at hr
    simp only [Option.bind_eq_bind, Option.bind_eq_some] at hr
    obtain ⟨⟨g1, p, i⟩, h1, hr⟩ := hr
    have e1 := sweeplist_ctl _ _ _ _ _ _ h1
    split at hr
    · rw [ih _ _ _ _ hr, e1]
    · simp only [Option.some.injEq, Prod.mk.injEq] at hr
      obtain ⟨rfl, -⟩ := hr
      exact e1

theorem gcstate_of_ctl (g g2 : global_State) (h : ctl g2 = ctl g) : g2.gcstate = g.gcstate :=
  congrArg (fun t => t.1) h

/-- Entering the sweep leaves the collector in `GCSswpallgc`. -/
theorem entersweep_gcstate (fuel : Nat) (g g2 : global_State)
    (hr : entersweep fuel g = some g2) : g2.gcstate = GCSswpallgc := by
  unfold entersweep at hr
  simp only [Option.bind_eq_bind, Option.bind_eq_some] at hr
  obtain ⟨⟨g1, p⟩, h1, hr⟩ := hr
  simp only [Option.some.injEq] at hr
  subst hr
  have e := gcstate_of_ctl _ _ (sweeptolive_ctl _ _ _ _ _ h1)
  exact e

/-- A sweep step keeps the state, or moves to `nextstate` when the list is
finished. -/
theorem sweepstep_gcstate (g : global_State) (nextstate : Nat) (nextlist : Option GCRef)
    (g2 : global_State) (w : Nat) (hr : sweepstep g nextstate nextlist = some (g2, w)) :
    g2.gcstate = g.gcstate ∨ g2.gcstate = nextstate := by
  unfold sweepstep at hr
  split at hr
  · simp only [Option.bind_eq_bind, Option.bind_eq_some] at hr
    obtain ⟨⟨g1, p, c⟩, h1, hr⟩ := hr
    simp only [Option.some.injEq, Prod.mk.injEq] at hr
    obtain ⟨rfl, -⟩ := hr
    have e := gcstate_of_ctl _ _ (sweeplist_ctl _ _ _ _ _ _ h1)
    exact Or.inl e
  · simp only [Option.some.injEq, Prod.mk.injEq] at hr
    obtain ⟨rfl, -⟩ := hr
    exact Or.inr rfl

theorem modobj_gcstate (g g2 : global_State) (a : Addr) (f : GCObject → GCObject)
    (h : g.modobj a f = some g2) : g2.gcstate = g.gcstate := by
  unfold global_State.modobj at h
  simp only [Option.map_eq_some'] at h
  obtain ⟨x, -, rfl⟩ := h
  rfl

theorem push_gcstate (g g2 : global_State) (L : Addr) (v : TValue)
    (h : push g L v = some g2) : g2.gcstate = g.gcstate := by
  unfold push at h
  simp only [Option.bind_eq_bind, Option.bind_eq_some] at h
  obtain ⟨t, -, s, -, h⟩ := h
  cases h
  rfl

theorem udata2finalize_gcstate (g g2 : global_State) (o : Addr)
    (h : udata2finalize g = some (g2, o)) : g2.gcstate = g.gcstate := by
  unfold udata2finalize at h
  simp only [Option.bind_eq_bind, Option.bind_eq_some] at h
  obtain ⟨c, -, x, -, x3, -, x4, -, h⟩ := h
  split at h
  · simp only [Option.some.injEq, Prod.mk.injEq] at h
    obtain ⟨rfl, -⟩ := h
    rfl
  · split at h
    · simp only [Option.some.injEq, Prod.mk.injEq] at h
      obtain ⟨rfl, -⟩ := h
      rfl
    · simp only [Option.some.injEq, Prod.mk.injEq] at h
      obtain ⟨rfl, -⟩ := h
      rfl

theorem GCTM_enter_gcstate (g g2 : global_State) (L : Addr) (tm v : TValue)
    (h : GCTM_enter g L tm v = some g2) : g2.gcstate = g.gcstate := by
  unfold GCTM_enter at h
  simp only [Option.bind_eq_bind, Option.bind_eq_some] at h
  obtain ⟨g3, h3, g4, h4, g5, h5, h⟩ := h
  rw [modobj_gcstate _ _ _ _ h, push_gcstate _ _ _ _ h5, push_gcstate _ _ _ _ h4,
    modobj_gcstate _ _ _ _ h3]

theorem GCTM_leave_gcstate (g g2 : global_State) (L : Addr) (oldah oldgcstp status : Nat)
    (h : GCTM_leave g L oldah oldgcstp status = some g2) : g2.gcstate = g.gcstate := by
  unfold GCTM_leave at h
  simp only [Option.bind_eq_bind, Option.bind_eq_some] at h
  obtain ⟨g8, h8, g9, h9, h⟩ := h
  have e : g9.gcstate = g.gcstate := by
    rw [modobj_gcstate _ _ _ _ h9, modobj_gcstate _ _ _ _ h8]
  split at h
  · rw [modobj_gcstate _ _ _ _ h]
    exact e
  · cases h
    exact e

/-- A finalizer call leaves the collector state where it was, unless the
protected call moved it to `GCSpause`. -/
theorem GCTM_gcstate (env : Env)
    (hfin : ∀ s a s2 r, env.luaD_pcall s a = some (s2, r) →
      s2.gcstate = s.gcstate ∨ s2.gcstate = GCSpause)
    (g g2 : global_State) (L : Addr) (h : GCTM env g L = some g2) :
    g2.gcstate = g.gcstate ∨ g2.gcstate = GCSpause := by
  unfold GCTM at h
  simp only [Option.bind_eq_bind, Option.bind_eq_some] at h
  obtain ⟨⟨g1, v⟩, h1, vo, -, tm, -, h⟩ := h
  have e1 := udata2finalize_gcstate _ _ _ h1
  split at h
  · simp only [Option.bind_eq_bind, Option.bind_eq_some] at h
    obtain ⟨l0, -, g6, h6, ⟨g7, status⟩, h7, h⟩ := h
    have e6 := GCTM_enter_gcstate _ _ _ _ _ h6
    have e8 := GCTM_leave_gcstate _ _ _ _ _ _ h
    rcases hfin _ _ _ _ h7 with e7 | e7
    · exact Or.inl (by rw [e8, e7, e6, e1])
    · exact Or.inr (by rw [e8, e7])
  · cases h
    exact Or.inl e1

theorem runafewfinalizers_loop_gcstate (env : Env)
    (hfin : ∀ s a s2 r, env.luaD_pcall s a = some (s2, r) →
      s2.gcstate = s.gcstate ∨ s2.gcstate = GCSpause)
    (L : Addr) (n : Nat) : ∀ (g : global_State) (i : Nat) (g2 : global_State) (i2 : Nat),
    runafewfinalizers_loop env L n g i = some (g2, i2) →
    g2.gcstate = g.gcstate ∨ g2.gcstate = GCSpause := by
  induction n with
  | zero =>
    intro g i g2 i2 h
    simp only [runafewfinalizers_loop, Option.some.injEq, Prod.mk.injEq] at h
    obtain ⟨rfl, -⟩ := h
    exact Or.inl rfl
  | succ n ih =>
    intro g i g2 i2 h
    rw [runafewfinalizers_loop] at h
    split at h
    · simp only [Option.some.injEq, Prod.mk.injEq] at h
      obtain ⟨rfl, -⟩ := h
      exact Or.inl rfl
    · simp only [Option.bind_eq_bind, Option.bind_eq_some] at h
      obtain ⟨g1, h1, h⟩ := h
      rcases GCTM_gcstate env hfin _ _ _ h1 with e1 | e1
      · rcases ih _ _ _ _ h with e2 | e2
        · exact Or.inl (by rw [e2, e1])
        · exact Or.inr e2
      · rcases ih _ _ _ _ h with e2 | e2
        · exact Or.inr (by rw [e2, e1])
        · exact Or.inr e2

/-- The switch of `singlestep`: from each state of the cycle the collector
stays or moves to the next state, and the `default` case is not taken. -/
theorem singlestep_switch_gcstate (env : Env)
    (hfin : ∀ s a s2 r, env.luaD_pcall s a = some (s2, r) →
      s2.gcstate = s.gcstate ∨ s2.gcstate = GCSpause)
    (fuel : Nat) (g : global_State) (L : Addr) (g2 : global_State) (r : Option Nat)
    (hs : g.gcstate ≤ GCSpause) (hna : g.gcstate ≠ GCSatomic)
    (h : singlestep_switch env fuel g L = some (g2, r)) :
    r ≠ none ∧
    (g.gcstate = GCSpause → g2.gcstate = GCSpropagate) ∧
    (g.gcstate = GCSpropagate → g2.gcstate = GCSpropagate ∨ g2.gcstate = GCSenteratomic) ∧
    (g.gcstate = GCSenteratomic → g2.gcstate = GCSswpallgc) ∧
    (g.gcstate = GCSswpallgc → g2.gcstate = GCSswpallgc ∨ g2.gcstate = GCSswpfinobj) ∧
    (g.gcstate = GCSswpfinobj → g2.gcstate = GCSswpfinobj ∨ g2.gcstate = GCSswptobefnz) ∧
    (g.gcstate = GCSswptobefnz → g2.gcstate = GCSswptobefnz ∨ g2.gcstate = GCSswpend) ∧
    (g.gcstate = GCSswpend → g2.gcstate = GCScallfin) ∧
    (g.gcstate = GCScallfin → g2.gcstate = GCScallfin ∨ g2.gcstate = GCSpause) := by
  have hcases : g.gcstate = GCSpause ∨ g.gcstate = GCSpropagate ∨ g.gcstate = GCSenteratomic ∨
      g.gcstate = GCSswpallgc ∨ g.gcstate = GCSswpfinobj ∨ g.gcstate = GCSswptobefnz ∨
      g.gcstate = GCSswpend ∨ g.gcstate = GCScallfin := by
    have h8 : g.gcstate ≤ 8 := hs
    have h2 : g.gcstate ≠ 2 := hna
    simp only [GCSpause, GCSpropagate, GCSenteratomic, GCSswpallgc, GCSswpfinobj,
      GCSswptobefnz, GCSswpend, GCScallfin]
    omega
  unfold singlestep_switch at h
  rcases hcases with hst | hst | hst | hst | hst | hst | hst | hst
  · rw [if_pos hst] at h
    simp only [Option.bind_eq_bind, Option.bind_eq_some] at h
    obtain ⟨g1, -, h⟩ := h
    simp only [Option.some.injEq, Prod.mk.injEq] at h
    obtain ⟨rfl, rfl⟩ := h
    have hres : GCSpropagate = GCSpropagate := rfl
    refine ⟨by simp, ?_, ?_, ?_, ?_, ?_, ?_, ?_, ?_⟩ <;> intro h2 <;> rw [hst] at h2 <;>
      first | exact hres | exact absurd h2 (by decide)
  · rw [if_neg (show ¬ g.gcstate = GCSpause by rw [hst]; decide), if_pos hst] at h
    have hres : r ≠ none ∧ (g2.gcstate = GCSpropagate ∨ g2.gcstate = GCSenteratomic) := by
      split at h
      · simp only [Option.some.injEq, Prod.mk.injEq] at h
        obtain ⟨rfl, rfl⟩ := h
        exact ⟨by simp, Or.inr rfl⟩
      · simp only [Option.map_eq_some'] at h
        obtain ⟨⟨g3, w⟩, h3, h⟩ := h
        simp only [Prod.mk.injEq] at h
        obtain ⟨rfl, rfl⟩ := h
        have e := gcstate_of_ctl _ _ (propagatemark_ctl _ _ _ _ _ h3)
        exact ⟨by simp, Or.inl (e.trans hst)⟩
    refine ⟨hres.1, ?_, ?_, ?_, ?_, ?_, ?_, ?_, ?_⟩ <;> intro h2 <;> rw [hst] at h2 <;>
      first | exact hres.2 | exact absurd h2 (by decide)
  · rw [if_neg (show ¬ g.gcstate = GCSpause by rw [hst]; decide),
      if_neg (show ¬ g.gcstate = GCSpropagate by rw [hst]; decide), if_pos hst] at h
    simp only [Option.bind_eq_bind, Option.bind_eq_some] at h
    obtain ⟨⟨g1, work⟩, -, g3, h3, h⟩ := h
    simp only [Option.some.injEq, Prod.mk.injEq] at h
    obtain ⟨rfl, rfl⟩ := h
    have hres : g3.gcstate = GCSswpallgc := entersweep_gcstate _ _ _ h3
    refine ⟨by simp, ?_, ?_, ?_, ?_, ?_, ?_, ?_, ?_⟩ <;> intro h2 <;> rw [hst] at h2 <;>
      first | exact hres | exact absurd h2 (by decide)
  · rw [if_neg (show ¬ g.gcstate = GCSpause by rw [hst]; decide),
      if_neg (show ¬ g.gcstate = GCSpropagate by rw [hst]; decide),
      if_neg (show ¬ g.gcstate = GCSenteratomic by rw [hst]; decide), if_pos hst] at h
    simp only [Option.map_eq_some'] at h
    obtain ⟨⟨g3, w⟩, h3, h⟩ := h
    simp only [Prod.mk.injEq] at h
    obtain ⟨rfl, rfl⟩ := h
    have hres := sweepstep_gcstate _ _ _ _ _ h3
    rw [hst] at hres
    refine ⟨by simp, ?_, ?_, ?_, ?_, ?_, ?_, ?_, ?_⟩ <;> intro h2 <;> rw [hst] at h2 <;>
      first | exact hres | exact absurd h2 (by decide)
  · rw [if_neg (show ¬ g.gcstate = GCSpause by rw [hst]; decide),
      if_neg (show ¬ g.gcstate = GCSpropagate by rw [hst]; decide),
      if_neg (show ¬ g.gcstate = GCSenteratomic by rw [hst]; decide),
      if_neg (show ¬ g.gcstate = GCSswpallgc by rw [hst]; decide), if_pos hst] at h
    simp only [Option.map_eq_some'] at h
    obtain ⟨⟨g3, w⟩, h3, h⟩ := h
    simp only [Prod.mk.injEq] at h
    obtain ⟨rfl, rfl⟩ := h
    have hres := sweepstep_gcstate _ _ _ _ _ h3
    rw [hst] at hres
    refine ⟨by simp, ?_, ?_, ?_, ?_, ?_, ?_, ?_, ?_⟩ <;> intro h2 <;> rw [hst] at h2 <;>
      first | exact hres | exact absurd h2 (by decide)
  · rw [if_neg (show ¬ g.gcstate = GCSpause by rw [hst]; decide),
      if_neg (show ¬ g.gcstate = GCSpropagate by rw [hst]; decide),
      if_neg (show ¬ g.gcstate = GCSenteratomic by rw [hst]; decide),
      if_neg (show ¬ g.gcstate = GCSswpallgc by rw [hst]; decide),
      if_neg (show ¬ g.gcstate = GCSswpfinobj by rw [hst]; decide), if_pos hst] at h
    simp only [Option.map_eq_some'] at h
    obtain ⟨⟨g3, w⟩, h3, h⟩ := h
    simp only [Prod.mk.injEq] at h
    obtain ⟨rfl, rfl⟩ := h
    have hres := sweepstep_gcstate _ _ _ _ _ h3
    rw [hst] at hres
    refine ⟨by simp, ?_, ?_, ?_, ?_, ?_, ?_, ?_, ?_⟩ <;> intro h2 <;> rw [hst] at h2 <;>
      first | exact hres | exact absurd h2 (by decide)
  · rw [if_neg (show ¬ g.gcstate = GCSpause by rw [hst]; decide),
      if_neg (show ¬ g.gcstate = GCSpropagate by rw [hst]; decide),
      if_neg (show ¬ g.gcstate = GCSenteratomic by rw [hst]; decide),
      if_neg (show ¬ g.gcstate = GCSswpallgc by rw [hst]; decide),
      if_neg (show ¬ g.gcstate = GCSswpfinobj by rw [hst]; decide),
      if_neg (show ¬ g.gcstate = GCSswptobefnz by rw [hst]; decide), if_pos hst] at h
    simp only [Option.some.injEq, Prod.mk.injEq] at h
    obtain ⟨rfl, rfl⟩ := h
    have hres : GCScallfin = GCScallfin := rfl
    refine ⟨by simp, ?_, ?_, ?_, ?_, ?_, ?_, ?_, ?_⟩ <;> intro h2 <;> rw [hst] at h2 <;>
      first | exact hres | exact absurd h2 (by decide)
  · rw [if_neg (show ¬ g.gcstate = GCSpause by rw [hst]; decide),
      if_neg (show ¬ g.gcstate = GCSpropagate by rw [hst]; decide),
      if_neg (show ¬ g.gcstate = GCSenteratomic by rw [hst]; decide),
      if_neg (show ¬ g.gcstate = GCSswpallgc by rw [hst]; decide),
      if_neg (show ¬ g.gcstate = GCSswpfinobj by rw [hst]; decide),
      if_neg (show ¬ g.gcstate = GCSswptobefnz by rw [hst]; decide),
      if_neg (show ¬ g.gcstate = GCSswpend by rw [hst]; decide), if_pos hst] at h
    have hres : r ≠ none ∧ (g2.gcstate = GCScallfin ∨ g2.gcstate = GCSpause) := by
      split at h
      · simp only [Option.bind_eq_bind, Option.bind_eq_some] at h
        obtain ⟨⟨g3, n⟩, h3, h⟩ := h
        simp only [Option.some.injEq, Prod.mk.injEq] at h
        obtain ⟨rfl, rfl⟩ := h
        have e := runafewfinalizers_loop_gcstate env hfin L _ _ _ _ _ h3
        refine ⟨by simp, ?_⟩
        rcases e with e | e
        · exact Or.inl (e.trans hst)
        · exact Or.inr e
      · simp only [Option.some.injEq, Prod.mk.injEq] at h
        obtain ⟨rfl, rfl⟩ := h
        exact ⟨by simp, Or.inr rfl⟩
    refine ⟨hres.1, ?_, ?_, ?_, ?_, ?_, ?_, ?_, ?_⟩ <;> intro h2 <;> rw [hst] at h2 <;>
      first | exact hres.2 | exact absurd h2 (by decide)

/-- A call of `singlestep` that returns leaves `gcstate` unchanged or moves
it to exactly the next state of the cycle (from enteratomic straight to
swpallgc, the atomic phase running inside the step); `gcstate` is not
`GCSatomic` and `gcstopem` is 0 on return.  The protected call of a
finalizer, which is outside the collector, is taken to leave `gcstate` as it
was or at `GCSpause`, where an emergency collection ends. -/
theorem singlestep_cycle_run (env : Env)
    (hfin : ∀ s a s2 r, env.luaD_pcall s a = some (s2, r) →
      s2.gcstate = s.gcstate ∨ s2.gcstate = GCSpause)
    (fuel : Nat) (g : global_State) (L : Addr) (g2 : global_State) (w : Nat)
    (hs : g.gcstate ≤ GCSpause) (hna : g.gcstate ≠ GCSatomic)
    (h : singlestep env fuel g L = some (g2, w)) :
    (g.gcstate = GCSpause → g2.gcstate = GCSpropagate) ∧
    (g.gcstate = GCSpropagate → g2.gcstate = GCSpropagate ∨ g2.gcstate = GCSenteratomic) ∧
    (g.gcstate = GCSenteratomic → g2.gcstate = GCSswpallgc) ∧
    (g.gcstate = GCSswpallgc → g2.gcstate = GCSswpallgc ∨ g2.gcstate = GCSswpfinobj) ∧
    (g.gcstate = GCSswpfinobj → g2.gcstate = GCSswpfinobj ∨ g2.gcstate = GCSswptobefnz) ∧
    (g.gcstate = GCSswptobefnz → g2.gcstate = GCSswptobefnz ∨ g2.gcstate = GCSswpend) ∧
    (g.gcstate = GCSswpend → g2.gcstate = GCScallfin) ∧
    (g.gcstate = GCScallfin → g2.gcstate = GCScallfin ∨ g2.gcstate = GCSpause) ∧
    g2.gcstate ≠ GCSatomic ∧ g2.gcstopem = 0 := by
  unfold singlestep at h
  simp only [Option.bind_eq_bind, Option.bind_eq_some] at h
  obtain ⟨⟨g3, r⟩, h3, h⟩ := h
  obtain ⟨hr, k1, k2, k3, k4, k5, k6, k7, k8⟩ :=
    singlestep_switch_gcstate env hfin fuel { g with gcstopem := 1 } L g3 r hs hna h3
  cases r with
  | none => exact absurd rfl hr
  | some work =>
    simp only [Option.some.injEq, Prod.mk.injEq] at h
    obtain ⟨rfl, -⟩ := h
    refine ⟨k1, k2, k3, k4, k5, k6, k7, k8, ?_, rfl⟩
    show g3.gcstate ≠ GCSatomic
    have h8 : g.gcstate ≤ 8 := hs
    have h2 : g.gcstate ≠ 2 := hna
    have hc : g.gcstate = 8 ∨ g.gcstate = 0 ∨ g.gcstate = 1 ∨ g.gcstate = 3 ∨ g.gcstate = 4 ∨
        g.gcstate = 5 ∨ g.gcstate = 6 ∨ g.gcstate = 7 := by omega
    rcases hc with e | e | e | e | e | e | e | e
    · rw [k1 e]; decide
    · rcases k2 e with q | q <;> rw [q] <;> decide
    · rw [k3 e]; decide
    · rcases k4 e with q | q <;> rw [q] <;> decide
    · rcases k5 e with q | q <;> rw [q] <;> decide
    · rcases k6 e with q | q <;> rw [q] <;> decide
    · rw [k7 e]; decide
    · rcases k8 e with q | q <;> rw [q] <;> decide

/-! ### C11: the atomic phase flips the current white -/

theorem markmt_loop_ctl (l : List (Option Addr)) : ∀ (g g2 : global_State),
    markmt_loop l g = some g2 → ctl g2 = ctl g := by
  induction l with
  | nil => intro g g2 h; cases h; rfl
  | cons x rest ih =>
    intro g g2 h
    rw [markmt_loop] at h
    simp only [Option.bind_eq_bind, Option.bind_eq_some] at h
    obtain ⟨g1, h1, h⟩ := h
    rw [ih _ _ h, markobjectN_ctl _ _ _ h1]

theorem markmt_ctl (g g2 : global_State) (h : markmt g = some g2) : ctl g2 = ctl g :=
  markmt_loop_ctl _ _ _ h

theorem markbeingfnz_loop_ctl (fuel : Nat) : ∀ (g : global_State) (o : Option Addr) (c : Nat)
    (g2 : global_State) (c2 : Nat),
    markbeingfnz_loop fuel g o c = some (g2, c2) → ctl g2 = ctl g := by
  induction fuel with
  | zero => intro g o c g2 c2 h; simp [markbeingfnz_loop] at h
  | succ n ih =>
    intro g o c g2 c2 h
    cases o with
    | none =>
      simp only [markbeingfnz_loop, Option.some.injEq, Prod.mk.injEq] at h
      obtain ⟨rfl, -⟩ := h
      rfl
    | some a =>
      rw [markbeingfnz_loop] at h
      simp only [Option.bind_eq_bind, Option.bind_eq_some] at h
      obtain ⟨g1, h1, x, -, h⟩ := h
      rw [ih _ _ _ _ _ h, markobject_ctl _ _ _ h1]

theorem markbeingfnz_ctl (fuel : Nat) (g g2 : global_State) (c : Nat)
    (h : markbeingfnz fuel g = some (g2, c)) : ctl g2 = ctl g :=
  markbeingfnz_loop_ctl _ _ _ _ _ _ h

theorem propagateall_ctl (fuel : Nat) : ∀ (env : Env) (g g2 : global_State) (w : Nat),
    propagateall fuel env g = some (g2, w) → ctl g2 = ctl g := by
  induction fuel with
  | zero => intro env g g2 w h; simp [propagateall] at h
  | succ n ih =>
    intro env g g2 w h
    rw [propagateall] at h
    split at h
    · simp only [Option.some.injEq, Prod.mk.injEq] at h
      obtain ⟨rfl, -⟩ := h
      rfl
    · simp only [Option.bind_eq_bind, Option.bind_eq_some] at h
      obtain ⟨⟨g1, w1⟩, h1, ⟨g3, w3⟩, h3, h⟩ := h
      simp only [Option.some.injEq, Prod.mk.injEq] at h
      obtain ⟨rfl, -⟩ := h
      rw [ih _ _ _ _ h3, propagatemark_ctl _ _ _ _ _ h1]

theorem remarkupvals_uvs_ctl (fuel : Nat) : ∀ (g : global_State) (uv : Option Addr) (w : Nat)
    (g2 : global_State) (w2 : Nat),
    remarkupvals_uvs fuel g uv w = some (g2, w2) → ctl g2 = ctl g := by
  induction fuel with
  | zero => intro g uv w g2 w2 h; simp [remarkupvals_uvs] at h
  | succ n ih =>
    intro g uv w g2 w2 h
    cases uv with
    | none =>
      simp only [remarkupvals_uvs, Option.some.injEq, Prod.mk.injEq] at h
      obtain ⟨rfl, -⟩ := h
      rfl
    | some a =>
      rw [remarkupvals_uvs] at h
      simp only [Option.bind_eq_bind, Option.bind_eq_some] at h
      obtain ⟨u, -, h⟩ := h
      split at h
      · simp only [Option.bind_eq_bind, Option.bind_eq_some] at h
        obtain ⟨val, -, g1, h1, u1, -, h⟩ := h
        rw [ih _ _ _ _ _ h, markvalue_ctl _ _ _ h1]
      · simp only [Option.bind_eq_bind, Option.bind_eq_some, Option.some_bind] at h
        obtain ⟨u1, -, h⟩ := h
        exact ih _ _ _ _ _ h

theorem store_twups_ctl (g g2 : global_State) (p v : Option Addr)
    (h : g.store_twups p v = some g2) : ctl g2 = ctl g := by
  cases p with
  | none =>
    simp only [global_State.store_twups, Option.some.injEq] at h
    subst h
    rfl
  | some th =>
    simp only [global_State.store_twups, Option.map_eq_some'] at h
    obtain ⟨t, -, rfl⟩ := h
    rfl

theorem remarkupvals_loop_ctl (fuel : Nat) : ∀ (g : global_State) (p : Option Addr) (w : Nat)
    (g2 : global_State) (w2 : Nat),
    remarkupvals_loop fuel g p w = some (g2, w2) → ctl g2 = ctl g := by
  induction fuel with
  | zero => intro g p w g2 w2 h; simp [remarkupvals_loop] at h
  | succ n ih =>
    intro g p w g2 w2 h
    rw [remarkupvals_loop] at h
    simp only [Option.bind_eq_bind, Option.bind_eq_some] at h
    obtain ⟨cur, -, h⟩ := h
    split at h
    · simp only [Option.some.injEq, Prod.mk.injEq] at h
      obtain ⟨rfl, -⟩ := h
      rfl
    · simp only [Option.bind_eq_bind, Option.bind_eq_some] at h
      obtain ⟨t, -, h⟩ := h
      split at h
      · exact ih _ _ _ _ _ h
      · simp only [Option.bind_eq_bind, Option.bind_eq_some] at h
        obtain ⟨g1, h1, t1, -, t2, -, ⟨g3, w3⟩, h3, h⟩ := h
        have e3 := remarkupvals_uvs_ctl _ _ _ _ _ _ h3
        have e1 := store_twups_ctl _ _ _ _ h1
        rw [ih _ _ _ _ _ h, e3]
        exact e1

theorem remarkupvals_ctl (fuel : Nat) (g g2 : global_State) (w : Nat)
    (h : remarkupvals fuel g = some (g2, w)) : ctl g2 = ctl g :=
  remarkupvals_loop_ctl _ _ _ _ _ _ h

theorem convergeephemerons_tables_ctl (env : Env) (dir : Bool) (fuel : Nat) :
    ∀ (g : global_State) (w : Option Addr) (c : Bool) (g2 : global_State) (c2 : Bool),
    convergeephemerons_tables env dir fuel g w c = some (g2, c2) → ctl g2 = ctl g := by
  induction fuel with
  | zero => intro g w c g2 c2 h; simp [convergeephemerons_tables] at h
  | succ n ih =>
    intro g w c g2 c2 h
    cases w with
    | none =>
      simp only [convergeephemerons_tables, Option.some.injEq, Prod.mk.injEq] at h
      obtain ⟨rfl, -⟩ := h
      rfl
    | some a =>
      rw [convergeephemerons_tables] at h
      simp only [Option.bind_eq_bind, Option.bind_eq_some] at h
      obtain ⟨x, -, ⟨g3, m⟩, h3, h⟩ := h
      have e3 := traverseephemeron_ctl _ _ _ _ _ h3
      split at h
      · simp only [Option.bind_eq_bind, Option.bind_eq_some] at h
        obtain ⟨⟨g4, w4⟩, h4, h⟩ := h
        rw [ih _ _ _ _ _ h, propagateall_ctl _ _ _ _ _ h4, e3]
        rfl
      · rw [ih _ _ _ _ _ h, e3]
        rfl

theorem convergeephemerons_rounds_ctl (env : Env) (fuel : Nat) : ∀ (g : global_State)
    (dir : Bool) (g2 : global_State),
    convergeephemerons_rounds env fuel g dir = some g2 → ctl g2 = ctl g := by
  induction fuel with
  | zero => intro g dir g2 h; simp [convergeephemerons_rounds] at h
  | succ n ih =>
    intro g dir g2 h
    rw [convergeephemerons_rounds] at h
    simp only [Option.bind_eq_bind, Option.bind_eq_some] at h
    obtain ⟨⟨g3, ch⟩, h3, h⟩ := h
    have e3 := convergeephemerons_tables_ctl _ _ _ _ _ _ _ _ h3
    split at h
    · rw [ih _ _ _ h, e3]
      rfl
    · cases h
      rw [e3]
      rfl

theorem convergeephemerons_ctl (env : Env) (fuel : Nat) (g g2 : global_State)
    (h : convergeephemerons env fuel g = some g2) : ctl g2 = ctl g :=
  convergeephemerons_rounds_ctl _ _ _ _ _ h

theorem clearbykeys_nodes_ctl (h : Addr) (n : Nat) : ∀ (i : Nat) (g g2 : global_State),
    clearbykeys_nodes h n i g = some g2 → ctl g2 = ctl g := by
  induction n with
  | zero => intro i g g2 hr; cases hr; rfl
  | succ n ih =>
    intro i g g2 hr
    rw [clearbykeys_nodes] at hr
    simp only [Option.bind_eq_bind, Option.bind_eq_some] at hr
    obtain ⟨t, -, nd, -, ⟨g1, c⟩, h1, t1, -, nd1, -, hr⟩ := hr
    have e1 := iscleared_ctl _ _ _ _ h1
    rw [ih _ _ _ hr]
    exact e1

theorem clearbykeys_ctl (fuel : Nat) : ∀ (g : global_State) (l : Option Addr)
    (g2 : global_State), clearbykeys fuel g l = some g2 → ctl g2 = ctl g := by
  induction fuel with
  | zero => intro g l g2 h; simp [clearbykeys] at h
  | succ n ih =>
    intro g l g2 h
    cases l with
    | none =>
      simp only [clearbykeys, Option.some.injEq] at h
      subst h
      rfl
    | some a =>
      rw [clearbykeys] at h
      simp only [Option.bind_eq_bind, Option.bind_eq_some] at h
      obtain ⟨t, -, g1, h1, t1, -, h⟩ := h
      rw [ih _ _ _ h, clearbykeys_nodes_ctl _ _ _ _ _ h1]

theorem clearbyvalues_array_ctl (h : Addr) (n : Nat) : ∀ (i : Nat) (g g2 : global_State),
    clearbyvalues_array h n i g = some g2 → ctl g2 = ctl g := by
  induction n with
  | zero => intro i g g2 hr; cases hr; rfl
  | succ n ih =>
    intro i g g2 hr
    rw [clearbyvalues_array] at hr
    simp only [Option.bind_eq_bind, Option.bind_eq_some] at hr
    obtain ⟨t, -, o, -, ⟨g1, c⟩, h1, t1, -, hr⟩ := hr
    rw [ih _ _ _ hr, ← iscleared_ctl _ _ _ _ h1]
    split <;> rfl

theorem clearbyvalues_nodes_ctl (h : Addr) (n : Nat) : ∀ (i : Nat) (g g2 : global_State),
    clearbyvalues_nodes h n i g = some g2 → ctl g2 = ctl g := by
  induction n with
  | zero => intro i g g2 hr; cases hr; rfl
  | succ n ih =>
    intro i g g2 hr
    rw [clearbyvalues_nodes] at hr
    simp only [Option.bind_eq_bind, Option.bind_eq_some] at hr
    obtain ⟨t, -, nd, -, ⟨g1, c⟩, h1, t1, -, nd1, -, hr⟩ := hr
    have e1 := iscleared_ctl _ _ _ _ h1
    rw [ih _ _ _ hr]
    exact e1

theorem clearbyvalues_ctl (fuel : Nat) : ∀ (g : global_State) (l f : Option Addr)
    (g2 : global_State), clearbyvalues fuel g l f = some g2 → ctl g2 = ctl g := by
  induction fuel with
  | zero => intro g l f g2 h; simp [clearbyvalues] at h
  | succ n ih =>
    intro g l f g2 h
    rw [clearbyvalues] at h
    split at h
    · cases h
      rfl
    · simp only [Option.bind_eq_bind, Option.bind_eq_some] at h
      obtain ⟨a, -, t, -, g1, h1, g3, h3, t2, -, h⟩ := h
      rw [ih _ _ _ _ h, clearbyvalues_nodes_ctl _ _ _ _ _ h3, clearbyvalues_array_ctl _ _ _ _ _ h1]

theorem separatetobefnz_loop_ctl (all : Bool) (fuel : Nat) : ∀ (g : global_State)
    (p lastnext : GCRef) (g2 : global_State),
    separatetobefnz_loop all fuel g p lastnext = some g2 → ctl g2 = ctl g := by
  induction fuel with
  | zero => intro g p lastnext g2 h; simp [separatetobefnz_loop] at h
  | succ n ih =>
    intro g p lastnext g2 h
    rw [separatetobefnz_loop] at h
    simp only [Option.bind_eq_bind, Option.bind_eq_some] at h
    obtain ⟨curr, -, h⟩ := h
    split at h
    · cases h
      rfl
    · simp only [Option.bind_eq_some] at h
      obtain ⟨c, -, x, -, h⟩ := h
      split at h
      · exact ih _ _ _ _ h
      · simp only [Option.bind_eq_some] at h
        obtain ⟨x1, -, g3, h3, ln, -, x2, -, g4, h4, h⟩ := h
        rw [ih _ _ _ _ h, store_ctl _ _ _ _ h4]
        have e3 := store_ctl _ _ _ _ h3
        show ctl g3 = ctl g
        rw [e3]
        split <;> rfl

theorem separatetobefnz_ctl (fuel : Nat) (g g2 : global_State) (all : Bool)
    (h : separatetobefnz fuel g all = some g2) : ctl g2 = ctl g := by
  unfold separatetobefnz at h
  simp only [Option.bind_eq_bind, Option.bind_eq_some] at h
  obtain ⟨ln, -, h⟩ := h
  exact separatetobefnz_loop_ctl _ _ _ _ _ _ h

theorem luaS_clearcache_ctl (g g2 : global_State) (h : luaS_clearcache g = some g2) :
    ctl g2 = ctl g := by
  unfold luaS_clearcache at h
  simp only [Option.map_eq_some'] at h
  obtain ⟨c, -, rfl⟩ := h
  rfl

/-- The control fields after the atomic phase: the state is `GCSatomic`
and the current white is flipped; the others are as before. -/
theorem atomic_ctl (env : Env) (fuel : Nat) (g : global_State) (L : Addr) (g2 : global_State)
    (w : Nat) (h : atomic env fuel g L = some (g2, w)) :
    ctl g2 = (GCSatomic, g.gckind, g.gcemergency, g.gcstopem, g.gcstp,
      cast_byte (otherwhite g), g.sweepgc) := by
  unfold atomic at h
  simp only [Option.bind_eq_bind, Option.bind_eq_some] at h
  obtain ⟨⟨g1, w1⟩, h1, ⟨g3, w3, ow, oa⟩, h3, g4, h4, h⟩ := h
  simp only [Option.some.injEq, Prod.mk.injEq] at h
  obtain ⟨rfl, -⟩ := h
  have e1 : ctl g1 = (GCSatomic, g.gckind, g.gcemergency, g.gcstopem, g.gcstp,
      g.currentwhite, g.sweepgc) := by
    unfold atomic_mark at h1
    simp only [Option.bind_eq_bind, Option.bind_eq_some] at h1
    obtain ⟨ga, ha, gb, hb, gc, hc, ⟨gd, wd⟩, hd, ⟨ge, we⟩, he, ⟨gf, wf⟩, hf, ⟨gg, wg⟩, hg, h1⟩ := h1
    simp only [Option.some.injEq, Prod.mk.injEq] at h1
    obtain ⟨rfl, -⟩ := h1
    have k1 := markobject_ctl _ _ _ ha
    have k2 := markvalue_ctl _ _ _ hb
    have k3 := markmt_ctl _ _ hc
    have k4 := propagateall_ctl _ _ _ _ _ hd
    have k5 := remarkupvals_ctl _ _ _ _ he
    have k6 := propagateall_ctl _ _ _ _ _ hf
    have k7 := propagateall_ctl _ _ _ _ _ hg
    rw [k7]
    show ctl gf = _
    rw [k6, k5, k4, k3, k2, k1]
    rfl
  have e3 : ctl g3 = ctl g1 := by
    unfold atomic_finalizers at h3
    simp only [Option.bind_eq_bind, Option.bind_eq_some] at h3
    obtain ⟨ga, ha, gb, hb, gc, hc, gd, hd, ⟨ge, we⟩, he, ⟨gf, wf⟩, hf, gg, hg, h3⟩ := h3
    simp only [Option.some.injEq, Prod.mk.injEq] at h3
    obtain ⟨rfl, -⟩ := h3
    rw [convergeephemerons_ctl _ _ _ _ hg, propagateall_ctl _ _ _ _ _ hf,
      markbeingfnz_ctl _ _ _ _ he, separatetobefnz_ctl _ _ _ _ hd, clearbyvalues_ctl _ _ _ _ _ hc,
      clearbyvalues_ctl _ _ _ _ _ hb, convergeephemerons_ctl _ _ _ _ ha]
  unfold atomic_clear at h4
  simp only [Option.bind_eq_bind, Option.bind_eq_some] at h4
  obtain ⟨ga, ha, gb, hb, gc, hc, gd, hd, ge, he, h4⟩ := h4
  simp only [Option.some.injEq] at h4
  subst h4
  have e5 : ctl ge = ctl g3 := by
    rw [luaS_clearcache_ctl _ _ he, clearbyvalues_ctl _ _ _ _ _ hd, clearbyvalues_ctl _ _ _ _ _ hc,
      clearbykeys_ctl _ _ _ _ hb, clearbykeys_ctl _ _ _ _ ha]
  have e6 : ctl ge = (GCSatomic, g.gckind, g.gcemergency, g.gcstopem, g.gcstp,
      g.currentwhite, g.sweepgc) := by rw [e5, e3, e1]
  simp only [ctl, Prod.mk.injEq] at e6 ⊢
  obtain ⟨q1, q2, q3, q4, q5, q6, q7⟩ := e6
  refine ⟨q1, q2, q3, q4, q5, ?_, q7⟩
  unfold otherwhite
  rw [q6]

set_option maxRecDepth 1000000 in
theorem notwhite_byte : ∀ m : Nat, m < 256 → iswhite m = false →
    (m &&& 8 != 0) = false ∧ (m &&& 16 != 0) = false := by
  decide

theorem notwhite_mark (m : Nat) (h : iswhite m = false) :
    (m &&& 8 != 0) = false ∧ (m &&& 16 != 0) = false := by
  rw [iswhite_mod] at h
  rw [and_byte m 8 (by decide), and_byte m 16 (by decide)]
  exact notwhite_byte _ (Nat.mod_lt _ (by decide)) h

/-- A mark that is the current white is not dead. -/
theorem isdead_white (g : global_State) : isdead g (luaC_white g) = false := by
  have hz : (g.currentwhite &&& 24) % 256 &&& (g.currentwhite ^^^ 24) = 0 := by
    have hlt : g.currentwhite &&& 24 < 256 := lt_of_le_of_lt Nat.and_le_right (by decide)
    rw [Nat.mod_eq_of_lt hlt]
    apply Nat.eq_of_testBit_eq
    intro i
    simp only [Nat.testBit_and, Nat.testBit_xor, Nat.zero_testBit]
    cases Nat.testBit g.currentwhite i <;> cases Nat.testBit 24 i <;> rfl
  have hW : WHITEBITS = 24 := by decide
  unfold isdead isdeadm otherwhite luaC_white cast_byte
  rw [hW, hz]
  rfl

/-- What the flip at the end of `atomic` means, for a run that returns: when
`currentwhite` is exactly one white bit before, it is exactly the other one
afterwards; a mark is then dead if and only if it carries the white bit that
was current before; a new object is not dead; a second flip restores the
original current white. -/
theorem atomic_flips_white_run (env : Env) (fuel : Nat) (g : global_State) (L : Addr)
    (g2 : global_State) (w : Nat)
    (hcw : g.currentwhite = bitmask WHITE0BIT ∨ g.currentwhite = bitmask WHITE1BIT)
    (hrun : atomic env fuel g L = some (g2, w)) :
    g2.currentwhite = otherwhite g ∧
    (g2.currentwhite = bitmask WHITE0BIT ∨ g2.currentwhite = bitmask WHITE1BIT) ∧
    g2.currentwhite ≠ g.currentwhite ∧
    (∀ m, isdead g2 m = (m &&& g.currentwhite != 0)) ∧
    (∀ m, iswhite m = false → isdead g2 m = false) ∧
    (∀ luaE_setdebt env2 fuel2 alloc L2 tt sz init,
      (∀ p, alloc g2 sz = some p →
        ∃ g3 x, luaC_newobj luaE_setdebt env2 fuel2 alloc g2 L2 tt sz init = some (g3, some p) ∧
          g3.heap p = some x ∧ isdead g2 x.marked = false ∧ isdead g3 x.marked = false) ∧
      ∀ g3 p, luaC_newobj luaE_setdebt env2 fuel2 alloc g2 L2 tt sz init = some (g3, some p) →
        ∃ x, g3.heap p = some x ∧ isdead g3 x.marked = false) ∧
    cast_byte (otherwhite g2) = g.currentwhite ∧
    (∀ env2 fuel2 g3 L2 g4 w2, g3.currentwhite = g2.currentwhite →
      atomic env2 fuel2 g3 L2 = some (g4, w2) → g4.currentwhite = g.currentwhite) := by
  have hc := atomic_ctl env fuel g L g2 w hrun
  have h2 : g2.currentwhite = cast_byte (otherwhite g) := by
    have := congrArg (fun t => t.2.2.2.2.2.1) hc
    simpa [ctl] using this
  have hflip : ∀ env2 fuel2 g3 L2 g4 w2, g3.currentwhite = g2.currentwhite →
      atomic env2 fuel2 g3 L2 = some (g4, w2) → g4.currentwhite = g.currentwhite := by
    intro env2 fuel2 g3 L2 g4 w2 h3 hr
    have hc4 := atomic_ctl env2 fuel2 g3 L2 g4 w2 hr
    have h4 : g4.currentwhite = cast_byte (otherwhite g3) := by
      have := congrArg (fun t => t.2.2.2.2.2.1) hc4
      simpa [ctl] using this
    rw [h4]
    unfold otherwhite
    rw [h3, h2]
    unfold otherwhite
    rcases hcw with e | e <;> rw [e] <;> decide
  have hdead : ∀ m, isdead g2 m = (m &&& g.currentwhite != 0) := by
    intro m
    unfold isdead isdeadm otherwhite
    rw [h2]
    unfold otherwhite
    rcases hcw with e | e <;> rw [e] <;> rfl
  refine ⟨?_, ?_, ?_, hdead, ?_, ?_, ?_, hflip⟩
  · rw [h2]
    unfold otherwhite
    rcases hcw with e | e <;> rw [e] <;> decide
  · rw [h2]
    unfold otherwhite
    rcases hcw with e | e <;> rw [e] <;> decide
  · rw [h2]
    unfold otherwhite
    rcases hcw with e | e <;> rw [e] <;> decide
  · intro m hm
    rw [hdead m]
    have := notwhite_mark m hm
    rcases hcw with e | e <;> rw [e]
    · exact this.1
    · exact this.2
  · intro luaE_setdebt env2 fuel2 alloc L2 tt sz init
    refine ⟨?_, ?_⟩
    · intro p ha
      have hw : isdead g2 (luaC_white g2) = false := by
        rw [hdead]
        unfold luaC_white
        rw [h2]
        unfold otherwhite
        rcases hcw with e | e <;> rw [e] <;> decide
      exact ⟨_, _, luaC_newobjdt_of _ _ _ _ _ _ tt _ init _ _
          (luaM_newobject_first luaE_setdebt env2 fuel2 alloc g2 L2 sz p ha),
        heap_set_same _ _ _, hw, hw⟩
    · intro g3 p h
      obtain ⟨g1, -, e⟩ := luaC_newobjdt_some _ _ _ _ _ _ _ _ _ _ _ h
      subst e
      exact ⟨_, heap_set_same _ _ _, isdead_white g1⟩
  · unfold otherwhite
    rw [h2]
    unfold otherwhite
    rcases hcw with e | e <;> rw [e] <;> decide

/-! ### C12, C13: what `sweeplist` and `sweeptolive` do to the list -/

theorem store_load_ne (g g1 : global_State) (p q : GCRef) (v : Option Addr)
    (hs : g.store p v = some g1) (hq : q ≠ p) : g1.load q = g.load q := by
  cases p with
  | allgc =>
    simp only [global_State.store, Option.some.injEq] at hs
    subst hs
    cases q <;> first | rfl | exact absurd rfl hq
  | finobj =>
    simp only [global_State.store, Option.some.injEq] at hs
    subst hs
    cases q <;> first | rfl | exact absurd rfl hq
  | tobefnz =>
    simp only [global_State.store, Option.some.injEq] at hs
    subst hs
    cases q <;> first | rfl | exact absurd rfl hq
  | next s =>
    simp only [global_State.store, Option.map_eq_some'] at hs
    obtain ⟨y, hy, rfl⟩ := hs
    cases q with
    | allgc => rfl
    | finobj => rfl
    | tobefnz => rfl
    | next s2 =>
      have hne : s2 ≠ s := fun e => hq (by rw [e])
      show Option.map _ (Heap.set g.heap s _ s2) = _
      rw [heap_set_ne _ _ _ _ hne]
      rfl

/-- More on the removal step of the sweep: the object is gone, the other
objects keep their headers unless `*p` is their `next` field, and the other
links keep what they point to. -/
theorem sweep_remove_frame (g g1 g3 : global_State) (p : GCRef) (curr : Addr) (x : GCObject)
    (h1 : g.store p x.next = some g1) (h3 : freeobj g1 curr = some g3) :
    g3.heap curr = none ∧
    (∀ a, a ≠ curr → p ≠ .next a → (g3.heap a).map hdr = (g.heap a).map hdr) ∧
    (∀ q, q ≠ p → (∀ s, q = .next s → s ≠ curr) → g3.load q = g.load q) := by
  obtain ⟨hmid, hh1, hh2, hh3, hh4⟩ := freeobj_heap _ _ _ h3
  refine ⟨by rw [hh2]; exact heap_free_same _ _, ?_, ?_⟩
  · intro a hac hpa
    rw [hh2, heap_free_ne _ _ _ hac, hh1 a, store_frame _ _ _ _ h1 a hpa]
  · intro q hq hown
    rw [← store_load_ne g g1 p q _ h1 hq]
    refine load_congr g1 g3 q hh3 ?_
    intro s hs
    unfold nextOf
    rw [hh2, heap_free_ne _ _ _ (hown s hs)]
    exact sameHdr_next _ _ hh1 s

theorem deadIn_congr (ow : Nat) (h h2 : Heap) (a : Addr)
    (hm : (h2 a).map (fun o => (o.marked, o.tt)) = (h a).map (fun o => (o.marked, o.tt))) :
    deadIn ow h2 a = deadIn ow h a := by
  unfold deadIn
  cases e1 : h a <;> cases e2 : h2 a <;> simp_all

theorem filter_dead_congr (ow : Nat) (h h2 : Heap) (l : List Addr)
    (hm : ∀ a, a ∈ l → (h2 a).map (fun o => (o.marked, o.tt)) =
      (h a).map (fun o => (o.marked, o.tt))) :
    l.filter (fun a => !deadIn ow h2 a) = l.filter (fun a => !deadIn ow h a) := by
  refine List.filter_congr ?_
  intro a ha
  rw [deadIn_congr ow h h2 a (hm a ha)]

theorem hdr_marks (h h2 : Heap) (a : Addr) (hh : (h2 a).map hdr = (h a).map hdr) :
    (h2 a).map (fun o => (o.marked, o.tt)) = (h a).map (fun o => (o.marked, o.tt)) := by
  cases e1 : h a <;> cases e2 : h2 a <;> simp_all [hdr]

/-- The loop of `sweeplist`, in detail.  Of the list `rest` that starts at
`*p` it examines the first `k = min n (length rest)` objects: the dead ones
are freed, the others are repainted and stay linked from `*p` in their
order, followed by the objects beyond the first `k`, which keep their
headers; `i` grows by `k`, and the link returned is `p` itself or the `next`
field of the last object kept. -/
theorem sweeplist_loop_spec (ow white : Nat) (n : Nat) :
    ∀ (g : global_State) (p : GCRef) (i : Nat) (la lf lt lx rest : List Addr) (c0 : Option Addr)
      (g2 : global_State) (p2 : GCRef) (i2 : Nat),
    Lists g la lf lt lx → g.load p = some c0 → IsList g.heap c0 rest →
    (∀ s, p = .next s → s ∉ rest) →
    sweeplist_loop ow white n g p i = some (g2, p2, i2) →
    ∃ k kept, k = min n rest.length ∧
      kept = (rest.take k).filter (fun a => !deadIn ow g.heap a) ∧ i2 = i + k ∧
      (∃ c2 cs, g2.load p2 = some c2 ∧ IsList g2.heap c2 (rest.drop k) ∧
        g2.load p = some cs ∧ IsSeg g2.heap cs kept c2) ∧
      (∀ a, a ∈ rest.take k → deadIn ow g.heap a = true → g2.heap a = none) ∧
      (∀ a x, a ∈ rest.take k → deadIn ow g.heap a = false → g.heap a = some x →
        ∃ x2, g2.heap a = some x2 ∧
          x2.marked = cast_byte ((x.marked &&& bnot8 maskgcbits) ||| white) ∧ x2.tt = x.tt) ∧
      (∀ a, a ∈ rest.drop k → (g2.heap a).map hdr = (g.heap a).map hdr) ∧
      (∀ q, q ≠ p → (∀ s, q = .next s → s ∉ rest) → g2.load q = g.load q) ∧
      (kept = [] → p2 = p) ∧ (∀ s, kept.getLast? = some s → p2 = .next s) ∧
      (ClosedIn g.heap rest → ∀ a, a ∈ rest.drop k → g2.heap a = g.heap a) := by
  induction n with
  | zero =>
    intro g p i la lf lt lx rest c0 g2 p2 i2 hL hp hr hown hrun
    simp only [sweeplist_loop, Option.some.injEq, Prod.mk.injEq] at hrun
    obtain ⟨rfl, rfl, rfl⟩ := hrun
    refine ⟨0, [], by simp, by simp, rfl, ⟨c0, c0, hp, by simpa using hr, hp, rfl⟩, ?_, ?_,
      fun _ _ => rfl, fun _ _ _ => rfl, fun _ => rfl, ?_, fun _ _ _ => rfl⟩
    · intro a ha
      simp at ha
    · intro a x ha
      simp at ha
    · intro s hs
      simp at hs
  | succ n ih =>
    intro g p i la lf lt lx rest c0 g2 p2 i2 hL hp hr hown hrun
    have hrun0 := hrun
    rw [sweeplist_loop] at hrun
    simp only [Option.bind_eq_bind, Option.bind_eq_some] at hrun
    obtain ⟨c, hc, hrun⟩ := hrun
    rw [hp] at hc
    cases hc
    cases c0 with
    | none =>
      simp only [Option.some.injEq, Prod.mk.injEq] at hrun
      obtain ⟨rfl, rfl, rfl⟩ := hrun
      have hnil : rest = [] := by
        cases rest with
        | nil => rfl
        | cons b l => exact absurd hr.1 (by simp)
      subst hnil
      refine ⟨0, [], by simp, by simp, rfl, ⟨none, none, hp, hr, hp, rfl⟩, ?_, ?_,
        fun _ _ => rfl, fun _ _ _ => rfl, fun _ => rfl, ?_, fun _ _ _ => rfl⟩
      · intro a ha
        simp at ha
      · intro a x ha
        simp at ha
      · intro s hs
        simp at hs
    | some curr =>
      simp only [Option.bind_eq_some] at hrun
      obtain ⟨x, hx, hrun⟩ := hrun
      obtain ⟨rest2, rfl, x2, hx2, hr2⟩ := isList_head _ _ _ hr
      rw [hx] at hx2
      cases hx2
      have hnd := isList_nodup _ _ _ hr
      have hcn : curr ∉ rest2 := (List.nodup_cons.1 hnd).1
      have hown2 : ∀ s, p = .next s → s ∉ rest2 :=
        fun s hs hm => hown s hs (List.mem_cons_of_mem _ hm)
      have hk : min (n + 1) (curr :: rest2).length = min n rest2.length + 1 := by
        simp only [List.length_cons]
        omega
      have hdc : deadIn ow g.heap curr = isdeadm ow x.marked := by
        unfold deadIn
        rw [hx]
      split at hrun
      · rename_i hdead
        simp only [Option.bind_eq_some] at hrun
        obtain ⟨g1, h1, g3, h3, hrun⟩ := hrun
        obtain ⟨k1, k2, k3, k4, k5, k6, k7⟩ := sweep_remove g g1 g3 p curr x la lf lt lx rest2
          hL hp hx hr2 hcn hown h1 h3
        obtain ⟨f1, f2, f3⟩ := sweep_remove_frame g g1 g3 p curr x h1 h3
        obtain ⟨k, kept, ek, ekept, ei, ⟨c2, cs, m1, m2, m3, m4⟩, m5, m6, m7, m8, m9, m10, m11⟩ :=
          ih g3 p (i + 1) _ _ _ _ rest2 x.next g2 p2 i2 k1 k2 k3 hown2 hrun
        obtain ⟨la2, lf2, lt2, lx2, c2b, r2b, sw, -⟩ :=
          (sweeplist_loop_lists ow white n g3 p (i + 1) _ _ _ _ rest2 x.next k1 k2 k3 hown2).2
            g2 p2 i2 hrun
        have hh2 : ∀ a, a ∈ rest2 → (g3.heap a).map hdr = (g.heap a).map hdr := by
          intro a ha
          exact f2 a (fun e => hcn (e ▸ ha)) (fun e => hown a e (List.mem_cons_of_mem _ ha))
        have hfil : (rest2.take k).filter (fun a => !deadIn ow g3.heap a) =
            (rest2.take k).filter (fun a => !deadIn ow g.heap a) :=
          filter_dead_congr ow g.heap g3.heap _
            (fun a ha => hdr_marks _ _ a (hh2 a (List.mem_of_mem_take ha)))
        have hkept : kept = ((curr :: rest2).take (k + 1)).filter
            (fun a => !deadIn ow g.heap a) := by
          rw [List.take_succ_cons, List.filter_cons, hdc, hdead, ekept, hfil]
          rfl
        refine ⟨k + 1, kept, by rw [hk, ek], hkept, by rw [ei]; omega,
          ⟨c2, cs, m1, by simpa using m2, m3, m4⟩, ?_, ?_, ?_, ?_, m9, m10, ?_⟩
        · intro a ha hd
          rw [List.take_succ_cons] at ha
          rcases List.mem_cons.1 ha with rfl | ha
          · have := sw.2.2.2.2.2.2.2 a hcn
            rw [f1] at this
            simpa using this
          · refine m5 a ha ?_
            rw [deadIn_congr ow g.heap g3.heap a (hdr_marks _ _ a (hh2 a (List.mem_of_mem_take ha)))]
            exact hd
        · intro a y ha hd hy
          rw [List.take_succ_cons] at ha
          rcases List.mem_cons.1 ha with rfl | ha
          · rw [hdc, hdead] at hd
            cases hd
          · have hm := hh2 a (List.mem_of_mem_take ha)
            rw [hy] at hm
            simp only [Option.map_some', Option.map_eq_some'] at hm
            obtain ⟨y3, hy3, hy3h⟩ := hm
            simp only [hdr, Prod.mk.injEq] at hy3h
            obtain ⟨x2, q1, q2, q3⟩ := m6 a y3 ha
              (by rw [deadIn_congr ow g.heap g3.heap a
                (hdr_marks _ _ a (hh2 a (List.mem_of_mem_take ha)))]; exact hd) hy3
            exact ⟨x2, q1, by rw [q2, hy3h.2.1], by rw [q3, hy3h.2.2]⟩
        · intro a ha
          rw [List.drop_succ_cons] at ha
          rw [m7 a ha, hh2 a (List.mem_of_mem_drop ha)]
        · intro q hq hqo
          rw [m8 q hq (fun s hs hm => hqo s hs (List.mem_cons_of_mem _ hm))]
          exact f3 q hq (fun s hs e => hqo s hs (e ▸ List.mem_cons_self _ _))
        · intro hcl a ha
          rw [List.drop_succ_cons] at ha
          have hx1 : g1.heap curr = some x := by
            rw [store_frame g g1 p x.next h1 curr (fun e => hown curr e (List.mem_cons_self _ _))]
            exact hx
          obtain ⟨g3b, e1, e2⟩ := freeobj_closed g1 curr x hx1
            (hcl curr (List.mem_cons_self _ _) x hx)
          rw [h3] at e1
          cases e1
          have hh3 : ∀ b, b ∈ rest2 → g3.heap b = g.heap b := by
            intro b hb
            have hbc : b ≠ curr := fun e => hcn (e ▸ hb)
            rw [e2, heap_free_ne _ _ _ hbc]
            exact k7 b hb
          have hcl3 : ClosedIn g3.heap rest2 := by
            intro b hb y hy
            rw [hh3 b hb] at hy
            exact hcl b (List.mem_cons_of_mem _ hb) y hy
          rw [m11 hcl3 a ha, hh3 a (List.mem_of_mem_drop ha)]
      · rename_i hdead
        have hdead2 : isdeadm ow x.marked = false := by simpa using hdead
        obtain ⟨k1, k2, k3, k4⟩ := sweep_keep g curr x
          { x with marked := cast_byte ((x.marked &&& bnot8 maskgcbits) ||| white) }
          la lf lt lx rest2 hL hx rfl hr2 hcn
        have hown1 : ∀ s, GCRef.next curr = .next s → s ∉ rest2 := by
          intro s hs
          cases hs
          exact hcn
        obtain ⟨k, kept, ek, ekept, ei, ⟨c2, cs, m1, m2, m3, m4⟩, m5, m6, m7, m8, m9, m10, m11⟩ :=
          ih _ (.next curr) (i + 1) la lf lt lx rest2 x.next g2 p2 i2 k1 k2 k3 hown1 hrun
        obtain ⟨la2, lf2, lt2, lx2, c2b, r2b, sw, -⟩ :=
          (sweeplist_loop_lists ow white n _ (.next curr) (i + 1) la lf lt lx rest2 x.next
            k1 k2 k3 hown1).2 g2 p2 i2 hrun
        have hpne : p ≠ .next curr := fun e => hown curr e (List.mem_cons_self _ _)
        have hfil : (rest2.take k).filter (fun a => !deadIn ow (g.setobj curr
            { x with marked := cast_byte ((x.marked &&& bnot8 maskgcbits) ||| white) }).heap a) =
            (rest2.take k).filter (fun a => !deadIn ow g.heap a) := by
          refine filter_dead_congr ow g.heap _ _ ?_
          intro a ha
          rw [k4 a (fun e => hcn (e ▸ List.mem_of_mem_take ha))]
        have hkept : curr :: kept = ((curr :: rest2).take (k + 1)).filter
            (fun a => !deadIn ow g.heap a) := by
          rw [List.take_succ_cons, List.filter_cons, hdc, hdead2, ekept, hfil]
          rfl
        have hloadp : g2.load p = some (some curr) := by
          rw [m8 p hpne hown2, ← hp]
          refine load_congr g _ p rfl ?_
          intro s hs
          unfold nextOf
          rw [k4 s (fun e => hown s hs (e ▸ List.mem_cons_self _ _))]
        have hcurr2 := sw.2.2.2.2.2.2.2 curr hcn
        rw [show (global_State.setobj g curr _).heap curr = some _ from heap_set_same _ _ _] at hcurr2
        simp only [Option.map_some', Option.map_eq_some'] at hcurr2
        obtain ⟨xc, hxc, hxcm⟩ := hcurr2
        simp only [Prod.mk.injEq] at hxcm
        have hnext : xc.next = cs := by
          have : g2.load (.next curr) = some xc.next := by
            simp [global_State.load, hxc]
          rw [m3] at this
          exact (Option.some.inj this).symm
        refine ⟨k + 1, curr :: kept, by rw [hk, ek], hkept, by rw [ei]; omega,
          ⟨c2, some curr, m1, by simpa using m2, hloadp, ⟨rfl, xc, hxc, by rw [hnext]; exact m4⟩⟩,
          ?_, ?_, ?_, ?_, (fun e => by cases e), ?_, ?_⟩
        · intro a ha hd
          rw [List.take_succ_cons] at ha
          rcases List.mem_cons.1 ha with rfl | ha
          · rw [hdc, hdead2] at hd
            cases hd
          · refine m5 a ha ?_
            rw [deadIn_congr ow g.heap _ a (by rw [k4 a (fun e => hcn (e ▸ List.mem_of_mem_take ha))])]
            exact hd
        · intro a y ha hd hy
          rw [List.take_succ_cons] at ha
          rcases List.mem_cons.1 ha with rfl | ha
          · rw [hx] at hy
            cases hy
            exact ⟨xc, hxc, hxcm.1, hxcm.2⟩
          · have hac : a ≠ curr := fun e => hcn (e ▸ List.mem_of_mem_take ha)
            exact m6 a y ha
              (by rw [deadIn_congr ow g.heap _ a (by rw [k4 a hac])]; exact hd)
              (by rw [k4 a hac]; exact hy)
        · intro a ha
          rw [List.drop_succ_cons] at ha
          rw [m7 a ha, k4 a (fun e => hcn (e ▸ List.mem_of_mem_drop ha))]
        · intro q hq hqo
          have hqne : q ≠ .next curr := fun e => hqo curr e (List.mem_cons_self _ _)
          rw [m8 q hqne (fun s hs hm => hqo s hs (List.mem_cons_of_mem _ hm))]
          refine load_congr g _ q rfl ?_
          intro s hs
          unfold nextOf
          rw [k4 s (fun e => hqo s hs (e ▸ List.mem_cons_self _ _))]
        · intro s hs
          cases hkk : kept with
          | nil =>
            rw [hkk] at hs
            simp only [List.getLast?_singleton, Option.some.injEq] at hs
            subst hs
            exact m9 hkk
          | cons b l =>
            rw [hkk, List.getLast?_cons_cons] at hs
            rw [← hkk] at hs
            exact m10 s hs
        · intro hcl a ha
          rw [List.drop_succ_cons] at ha
          have hcl3 : ClosedIn (g.setobj curr
              { x with marked := cast_byte ((x.marked &&& bnot8 maskgcbits) ||| white) }).heap
              rest2 := by
            intro b hb y hy
            rw [k4 b (fun e => hcn (e ▸ hb))] at hy
            exact hcl b (List.mem_cons_of_mem _ hb) y hy
          rw [m11 hcl3 a ha, k4 a (fun e => hcn (e ▸ List.mem_of_mem_drop ha))]

set_option maxRecDepth 1000000 in
theorem sweptmark_byte (w : Nat) (hw : w = 0 ∨ w = 8 ∨ w = 16 ∨ w = 24) : ∀ m : Nat, m < 256 →
    cast_byte ((m &&& bnot8 maskgcbits) ||| w) &&& WHITEBITS = w ∧
    getage (cast_byte ((m &&& bnot8 maskgcbits) ||| w)) = G_NEW ∧
    isblack (cast_byte ((m &&& bnot8 maskgcbits) ||| w)) = false ∧
    tofinalize (cast_byte ((m &&& bnot8 maskgcbits) ||| w)) = tofinalize m := by
  rcases hw with rfl | rfl | rfl | rfl <;> decide

/-- The mark that the sweep gives to a surviving object: its white bits are
those of the current white, its age is `G_NEW`, it is not black, and its
`FINALIZEDBIT` is the one it had. -/
theorem sweptmark (g : global_State) (m : Nat) :
    cast_byte ((m &&& bnot8 maskgcbits) ||| luaC_white g) &&& WHITEBITS = luaC_white g ∧
    getage (cast_byte ((m &&& bnot8 maskgcbits) ||| luaC_white g)) = G_NEW ∧
    isblack (cast_byte ((m &&& bnot8 maskgcbits) ||| luaC_white g)) = false ∧
    tofinalize (cast_byte ((m &&& bnot8 maskgcbits) ||| luaC_white g)) = tofinalize m := by
  rw [tofinalize_mod m, and_byte m (bnot8 maskgcbits) (by decide)]
  exact sweptmark_byte _ (luaC_white_cases g) _ (Nat.mod_lt _ (by decide))

set_option maxRecDepth 1000000 in
theorem sweptmark_live_byte (w : Nat) (hw : w = 8 ∨ w = 16) : ∀ m : Nat, m < 256 →
    cast_byte ((m &&& bnot8 maskgcbits) ||| cast_byte (w &&& WHITEBITS)) &&& WHITEBITS = w ∧
    iswhite (cast_byte ((m &&& bnot8 maskgcbits) ||| cast_byte (w &&& WHITEBITS))) = true ∧
    isdeadm (w ^^^ WHITEBITS)
      (cast_byte ((m &&& bnot8 maskgcbits) ||| cast_byte (w &&& WHITEBITS))) = false := by
  rcases hw with rfl | rfl <;> decide

/-- When the current white is one of the two white bits, a swept survivor
is of the current white and is not dead. -/
theorem sweptmark_live (g : global_State) (m : Nat)
    (hcw : g.currentwhite = bitmask WHITE0BIT ∨ g.currentwhite = bitmask WHITE1BIT) :
    cast_byte ((m &&& bnot8 maskgcbits) ||| luaC_white g) &&& WHITEBITS = g.currentwhite ∧
    iswhite (cast_byte ((m &&& bnot8 maskgcbits) ||| luaC_white g)) = true ∧
    isdead g (cast_byte ((m &&& bnot8 maskgcbits) ||| luaC_white g)) = false := by
  rw [and_byte m (bnot8 maskgcbits) (by decide)]
  unfold isdead otherwhite luaC_white
  exact sweptmark_live_byte _ hcw _ (Nat.mod_lt _ (by decide))

theorem isList_nil_iff (h : Heap) (c : Option Addr) (l : List Addr) (hl : IsList h c l) :
    c = none ↔ l = [] := by
  cases c with
  | none =>
    cases l with
    | nil => simp
    | cons b t => exact absurd hl.1 (by simp)
  | some a =>
    obtain ⟨r, rfl, -⟩ := isList_head _ _ _ hl
    simp

/-- What `sweeplist` does, in detail: see `sweeplist_loop_spec`; the survivors
also get the mark of a new object of the current white. -/
theorem sweeplist_detail (g : global_State) (p : GCRef) (countin : Nat)
    (la lf lt lx rest : List Addr) (c0 : Option Addr)
    (hL : Lists g la lf lt lx) (hp : g.load p = some c0) (hr : IsList g.heap c0 rest)
    (hown : ∀ s, p = .next s → s ∉ rest) :
    (ClosedIn g.heap rest → ∃ r, sweeplist g p countin = some r) ∧
    ∀ (g2 : global_State) (q : Option GCRef) (k : Nat),
      sweeplist g p countin = some (g2, q, k) →
      k = min countin rest.length ∧
      (∃ cs c2, g2.load p = some cs ∧
        IsSeg g2.heap cs ((rest.take k).filter (fun a => !deadIn (otherwhite g) g.heap a)) c2 ∧
        IsList g2.heap c2 (rest.drop k) ∧
        ∀ p2, q = some p2 → g2.load p2 = some c2 ∧
          ((rest.take k).filter (fun a => !deadIn (otherwhite g) g.heap a) = [] → p2 = p) ∧
          ∀ s, ((rest.take k).filter (fun a => !deadIn (otherwhite g) g.heap a)).getLast? =
            some s → p2 = .next s) ∧
      (∀ a x, a ∈ rest.take k → g.heap a = some x → x.marked &&& otherwhite g ≠ 0 →
        g2.heap a = none ∧
        a ∉ (rest.take k).filter (fun a => !deadIn (otherwhite g) g.heap a)) ∧
      (∀ a x, a ∈ rest.take k → g.heap a = some x → x.marked &&& otherwhite g = 0 →
        a ∈ (rest.take k).filter (fun a => !deadIn (otherwhite g) g.heap a) ∧
        ∃ x2, g2.heap a = some x2 ∧ x2.tt = x.tt ∧
          x2.marked = cast_byte ((x.marked &&& bnot8 maskgcbits) ||| luaC_white g) ∧
          x2.marked &&& WHITEBITS = luaC_white g ∧ getage x2.marked = G_NEW ∧
          isblack x2.marked = false ∧ tofinalize x2.marked = tofinalize x.marked ∧
          (g.currentwhite = bitmask WHITE0BIT ∨ g.currentwhite = bitmask WHITE1BIT →
            x2.marked &&& WHITEBITS = g2.currentwhite ∧ iswhite x2.marked = true ∧
            isdead g2 x2.marked = false)) ∧
      (∀ a, a ∈ rest.drop k → (g2.heap a).map hdr = (g.heap a).map hdr) ∧
      (ClosedIn g.heap rest → ∀ a, a ∈ rest.drop k → g2.heap a = g.heap a) ∧
      (q = none ↔ rest.drop k = []) ∧
      ∃ la2 lf2 lt2 lx2, Swept g la lf lt lx rest g2 la2 lf2 lt2 lx2 := by
  have hS := sweeplist_lists g p countin la lf lt lx rest c0 hL hp hr hown
  refine ⟨hS.1, ?_⟩
  intro g2 q i hrun
  obtain ⟨la2, lf2, lt2, lx2, hsw, -⟩ := hS.2 g2 q i hrun
  unfold sweeplist at hrun
  simp only [Option.bind_eq_bind, Option.bind_eq_some] at hrun
  obtain ⟨⟨g1, p1, i1⟩, h1, c, hc, hrun⟩ := hrun
  simp only [Option.some.injEq, Prod.mk.injEq] at hrun
  obtain ⟨rfl, rfl, rfl⟩ := hrun
  obtain ⟨k, kept, ek, ekept, ei, ⟨c2, cs, m1, m2, m3, m4⟩, m5, m6, m7, m8, m9, m10, m11⟩ :=
    sweeplist_loop_spec _ _ countin g p 0 la lf lt lx rest c0 g1 p1 i1 hL hp hr hown h1
  have ei2 : i1 = k := by omega
  subst ei2
  rw [m1] at hc
  have hcc : c = c2 := (Option.some.inj hc).symm
  subst hcc
  have hdead : ∀ a x, g.heap a = some x →
      deadIn (otherwhite g) g.heap a = (x.marked &&& otherwhite g != 0) := by
    intro a x hx
    unfold deadIn isdeadm
    rw [hx]
  have hcw2 : g1.currentwhite = g.currentwhite := by
    have := hsw.2.2.2.2.2.1
    simp only [ctl, Prod.mk.injEq] at this
    exact this.2.2.2.2.2.1
  refine ⟨ek, ⟨cs, c, m3, by rw [← ekept]; exact m4, m2, ?_⟩, ?_, ?_, m7, m11, ?_,
    ⟨la2, lf2, lt2, lx2, hsw⟩⟩
  · intro p2 hq
    have hcn : c ≠ none := by
      intro e
      rw [if_pos e] at hq
      cases hq
    rw [if_neg hcn] at hq
    cases hq
    rw [← ekept]
    exact ⟨m1, m9, m10⟩
  · intro a x ha hx hd
    have hda : deadIn (otherwhite g) g.heap a = true := by
      rw [hdead a x hx]
      simpa using hd
    refine ⟨m5 a ha hda, ?_⟩
    intro hm
    have := (List.mem_filter.1 hm).2
    rw [hda] at this
    cases this
  · intro a x ha hx hd
    have hda : deadIn (otherwhite g) g.heap a = false := by
      rw [hdead a x hx]
      simpa using hd
    obtain ⟨x2, q1, q2, q3⟩ := m6 a x ha hda hx
    obtain ⟨s1, s2, s3, s4⟩ := sweptmark g x.marked
    refine ⟨List.mem_filter.2 ⟨ha, by rw [hda]; rfl⟩, x2, q1, q3, q2, ?_, ?_, ?_, ?_, ?_⟩
    · rw [q2]; exact s1
    · rw [q2]; exact s2
    · rw [q2]; exact s3
    · rw [q2]; exact s4
    · intro hcw
      obtain ⟨t1, t2, t3⟩ := sweptmark_live g x.marked hcw
      rw [q2, hcw2]
      refine ⟨t1, t2, ?_⟩
      unfold isdead otherwhite
      rw [hcw2]
      exact t3
  · rw [← isList_nil_iff _ _ _ m2]
    by_cases e : c = none
    · simp [e]
    · simp [e]

/-- C12. For every list link `p` and every `countin`, `sweeplist` examines
exactly the first `k = min countin (length of the list from *p)` objects:
an examined object with the other white bit is unlinked and freed; the other
examined objects stay linked from `*p` in their order, each with the mark
`(marked with colour and age bits cleared) | current white`, hence with age
`G_NEW`, the `FINALIZEDBIT` it had and the current white; the objects beyond
the first `k` keep their headers (and are the same objects when no open
upvalue is swept); `*countout = k`; the result is `NULL` exactly when no
object is left at the position returned, which is `p` or the `next` field of
the last object kept.  The call returns whenever no open upvalue is on the
list. -/
theorem sweeplist_spec (g : global_State) (p : GCRef) (countin : Nat)
    (la lf lt lx rest : List Addr) (c0 : Option Addr)
    (hL : Lists g la lf lt lx) (hp : g.load p = some c0) (hr : IsList g.heap c0 rest)
    (hown : ∀ s, p = .next s → s ∉ rest) :
    (ClosedIn g.heap rest → ∃ r, sweeplist g p countin = some r) ∧
    ∀ (g2 : global_State) (q : Option GCRef) (k : Nat),
      sweeplist g p countin = some (g2, q, k) →
      k = min countin rest.length ∧
      (∃ cs c2, g2.load p = some cs ∧
        IsSeg g2.heap cs ((rest.take k).filter (fun a => !deadIn (otherwhite g) g.heap a)) c2 ∧
        IsList g2.heap c2 (rest.drop k) ∧
        ∀ p2, q = some p2 → g2.load p2 = some c2 ∧
          ((rest.take k).filter (fun a => !deadIn (otherwhite g) g.heap a) = [] → p2 = p) ∧
          ∀ s, ((rest.take k).filter (fun a => !deadIn (otherwhite g) g.heap a)).getLast? =
            some s → p2 = .next s) ∧
      (∀ a x, a ∈ rest.take k → g.heap a = some x → x.marked &&& otherwhite g ≠ 0 →
        g2.heap a = none ∧
        a ∉ (rest.take k).filter (fun a => !deadIn (otherwhite g) g.heap a)) ∧
      (∀ a x, a ∈ rest.take k → g.heap a = some x → x.marked &&& otherwhite g = 0 →
        a ∈ (rest.take k).filter (fun a => !deadIn (otherwhite g) g.heap a) ∧
        ∃ x2, g2.heap a = some x2 ∧ x2.tt = x.tt ∧
          x2.marked = cast_byte ((x.marked &&& bnot8 maskgcbits) ||| luaC_white g) ∧
          x2.marked &&& WHITEBITS = luaC_white g ∧ getage x2.marked = G_NEW ∧
          isblack x2.marked = false ∧ tofinalize x2.marked = tofinalize x.marked ∧
          (g.currentwhite = bitmask WHITE0BIT ∨ g.currentwhite = bitmask WHITE1BIT →
            x2.marked &&& WHITEBITS = g2.currentwhite ∧ iswhite x2.marked = true ∧
            isdead g2 x2.marked = false)) ∧
      (∀ a, a ∈ rest.drop k → (g2.heap a).map hdr = (g.heap a).map hdr) ∧
      (ClosedIn g.heap rest → ∀ a, a ∈ rest.drop k → g2.heap a = g.heap a) ∧
      (q = none ↔ rest.drop k = []) ∧
      ∃ la2 lf2 lt2 lx2, Swept g la lf lt lx rest g2 la2 lf2 lt2 lx2 :=
  sweeplist_detail g p countin la lf lt lx rest c0 hL hp hr hown

/-- C12 at the concrete state `exFin`: sweeping three objects of `allgc`
(the tables 4 and 1 and the dead string 2) frees the string, keeps the two
tables, leaves the string 3 as it was and returns the `next` field of the
table 1. -/
theorem sweeplist_spec_witness :
    ∃ g2, sweeplist exFin .allgc 3 = some (g2, some (.next 1), 3) ∧ g2.heap 2 = none ∧
      (∃ x2, g2.heap 1 = some x2 ∧ x2.marked = 8 ∧ getage x2.marked = G_NEW) ∧
      (g2.heap 3).map hdr = (exFin.heap 3).map hdr ∧ g2.load .allgc = some (some 4) := by
  have W := sweeplist_spec exFin .allgc 3 [4, 1, 2, 3] [5] [6] [] [4, 1, 2, 3] (some 4)
    exFin_lists rfl exFin_lists.1 (fun s hs => by cases hs)
  obtain ⟨⟨g2, q, k⟩, hrun⟩ := W.1 exFin_closed
  obtain ⟨hk, ⟨cs, c2, w1, w2, w3, w4⟩, w5, w6, w7, -, w9, -⟩ := W.2 g2 q k hrun
  have hk3 : k = 3 := by rw [hk]; rfl
  subst hk3
  have hkept : (List.take 3 [4, 1, 2, 3]).filter
      (fun a => !deadIn (otherwhite exFin) exFin.heap a) = [4, 1] := by decide
  rw [hkept] at w2 w4
  have hq : q = some (.next 1) := by
    cases q with
    | none => exact absurd (w9.1 rfl) (by decide)
    | some p2 => rw [(w4 p2 rfl).2.2 1 rfl]
  subst hq
  obtain ⟨-, x2, e1, -, e3, -, e5, -⟩ := w6 1 (exObj .LUA_VTABLE 8 (some 2)) (by decide) rfl
    (by decide)
  refine ⟨g2, hrun, (w5 2 (exObj .LUA_VSHRSTR 16 (some 3)) (by decide) rfl (by decide)).1,
    ⟨x2, e1, by rw [e3]; rfl, e5⟩, w7 3 (by decide), ?_⟩
  rw [w1, w2.1]

theorem dropWhile_head_false {α : Type} (f : α → Bool) : ∀ (l : List α) (s : α) (R : List α),
    l.dropWhile f = s :: R → f s = false := by
  intro l
  induction l with
  | nil => intro s R h; cases h
  | cons b t ih =>
    intro s R h
    rw [List.dropWhile_cons] at h
    split at h
    · exact ih s R h
    · rename_i hb
      cases h
      simpa using hb

theorem resetbit_mod (m b : Nat) : resetbit m b = resetbit (m % 256) b := by
  unfold resetbit resetbits
  exact and_byte m _ (Nat.mod_lt _ (by decide))

set_option maxRecDepth 1000000 in
theorem unfinalize_byte : ∀ m : Nat, m < 256 →
    tofinalize (resetbit m FINALIZEDBIT) = false ∧
    getage (resetbit m FINALIZEDBIT) = getage m ∧
    resetbit m FINALIZEDBIT &&& maskcolors = m &&& maskcolors ∧
    iswhite (resetbit m FINALIZEDBIT) = iswhite m ∧
    isblack (resetbit m FINALIZEDBIT) = isblack m := by
  decide

set_option maxRecDepth 1000000 in
theorem unfinalize_white_byte (w : Nat) (hw : w = 0 ∨ w = 8 ∨ w = 16 ∨ w = 24) :
    ∀ m : Nat, m < 256 →
    tofinalize (cast_byte ((resetbit m FINALIZEDBIT &&& bnot8 maskcolors) ||| w)) = false ∧
    getage (cast_byte ((resetbit m FINALIZEDBIT &&& bnot8 maskcolors) ||| w)) = getage m ∧
    cast_byte ((resetbit m FINALIZEDBIT &&& bnot8 maskcolors) ||| w) &&& WHITEBITS = w ∧
    isblack (cast_byte ((resetbit m FINALIZEDBIT &&& bnot8 maskcolors) ||| w)) = false := by
  rcases hw with rfl | rfl | rfl | rfl <;> decide

/-- Clearing `FINALIZEDBIT` changes neither the age nor the colour. -/
theorem unfinalize_mark (m : Nat) :
    tofinalize (resetbit m FINALIZEDBIT) = false ∧
    getage (resetbit m FINALIZEDBIT) = getage m ∧
    resetbit m FINALIZEDBIT &&& maskcolors = m &&& maskcolors ∧
    iswhite (resetbit m FINALIZEDBIT) = iswhite m ∧
    isblack (resetbit m FINALIZEDBIT) = isblack m := by
  rw [resetbit_mod, getage_mod m, iswhite_mod m, isblack_mod m,
    and_byte m maskcolors (by decide)]
  exact unfinalize_byte _ (Nat.mod_lt _ (by decide))

/-- Clearing `FINALIZEDBIT` and making the object white keeps the age, and
the colour is the current white. -/
theorem unfinalize_white (g : global_State) (m : Nat) :
    tofinalize (makewhite g (resetbit m FINALIZEDBIT)) = false ∧
    getage (makewhite g (resetbit m FINALIZEDBIT)) = getage m ∧
    makewhite g (resetbit m FINALIZEDBIT) &&& WHITEBITS = luaC_white g ∧
    isblack (makewhite g (resetbit m FINALIZEDBIT)) = false := by
  rw [resetbit_mod, getage_mod m]
  unfold makewhite
  exact unfinalize_white_byte _ (luaC_white_cases g) _ (Nat.mod_lt _ (by decide))

/-- What `udata2finalize` does to the head `o` of `tobefnz` and to the lists. -/
theorem udata2finalize_detail (g : global_State) (la lf lt2 lx : List Addr) (o : Addr)
    (hL : Lists g la lf (o :: lt2) lx) :
    ∃ g2 x x2, udata2finalize g = some (g2, o) ∧ g.tobefnz = some o ∧ g.heap o = some x ∧
      g2.heap o = some x2 ∧ g2.tobefnz = x.next ∧ IsList g2.heap g2.tobefnz lt2 ∧
      g2.allgc = some o ∧ x2.next = g.allgc ∧ IsList g2.heap g2.allgc (o :: la) ∧
      Lists g2 (o :: la) lf lt2 lx ∧
      tofinalize x2.marked = false ∧ getage x2.marked = getage x.marked ∧ x2.tt = x.tt ∧
      (issweepphase g = true →
        x2.marked = makewhite g (resetbit x.marked FINALIZEDBIT) ∧
        x2.marked &&& WHITEBITS = luaC_white g ∧ isblack x2.marked = false) ∧
      (issweepphase g = false →
        x2.marked = resetbit x.marked FINALIZEDBIT ∧
        x2.marked &&& maskcolors = x.marked &&& maskcolors ∧
        iswhite x2.marked = iswhite x.marked ∧ isblack x2.marked = isblack x.marked) ∧
      (∀ a, a ≠ o → g2.heap a = g.heap a) ∧ g2.gcstate = g.gcstate ∧
      g2.finobj = g.finobj ∧ g2.fixedgc = g.fixedgc ∧
      (∃ m, x2 = { x with next := g.allgc, marked := m }) ∧ g2.gcstp = g.gcstp ∧ g2.mt = g.mt := by
  have hto : g.tobefnz = some o := hL.2.2.1.1
  obtain ⟨x, hx, -⟩ := hL.2.2.1.2
  have hsome : ∃ r, udata2finalize g = some r := by
    unfold udata2finalize
    simp only [hto, hx, Option.bind_eq_bind, Option.some_bind, global_State.setobj,
      heap_set_same]
    split
    · exact ⟨_, rfl⟩
    · split <;> exact ⟨_, rfl⟩
  obtain ⟨⟨g2, o2⟩, hrun⟩ := hsome
  have hrun0 := hrun
  unfold udata2finalize at hrun
  simp only [hto, hx, Option.bind_eq_bind, Option.some_bind, global_State.setobj,
    heap_set_same] at hrun
  obtain ⟨u1, u2, u3, u4⟩ := unfinalize_mark x.marked
  obtain ⟨v1, v2, v3, v4⟩ := unfinalize_white g x.marked
  have hlist : udata2finalize g = some (g2, o2) → o2 = o ∧ Lists g2 (o :: la) lf lt2 lx := by
    intro h
    have ho : o2 = o := by
      split at hrun
      · simp only [Option.some.injEq, Prod.mk.injEq] at hrun
        exact hrun.2.symm
      · split at hrun <;>
        · simp only [Option.some.injEq, Prod.mk.injEq] at hrun
          exact hrun.2.symm
    subst ho
    have := (lists_udata2finalize g g2 o2 la lf (o2 :: lt2) lx hL h).1
    rw [List.erase_cons_head] at this
    exact ⟨rfl, this⟩
  obtain ⟨ho, hL2⟩ := hlist hrun0
  subst ho
  split at hrun
  · rename_i hsw
    simp only [Option.some.injEq, Prod.mk.injEq] at hrun
    obtain ⟨rfl, -⟩ := hrun
    refine ⟨_, x, _, hrun0, hto, hx, heap_set_same _ _ _, rfl, hL2.2.2.1, rfl, rfl, hL2.1, hL2,
      v1, v2, rfl, fun _ => ⟨rfl, v3, v4⟩, ?_, ?_, rfl, rfl, rfl, ⟨_, rfl⟩, rfl, rfl⟩
    · intro hns
      have : issweepphase g = true := hsw
      rw [hns] at this
      cases this
    · intro a ha
      show Heap.set (Heap.set (Heap.set g.heap o2 _) o2 _) o2 _ a = _
      rw [heap_set_ne _ _ _ _ ha, heap_set_ne _ _ _ _ ha, heap_set_ne _ _ _ _ ha]
  · rename_i hsw
    have hns : issweepphase g = false := by
      cases e : issweepphase g with
      | false => rfl
      | true => exact absurd e hsw
    split at hrun
    · simp only [Option.some.injEq, Prod.mk.injEq] at hrun
      obtain ⟨rfl, -⟩ := hrun
      refine ⟨_, x, _, hrun0, hto, hx, heap_set_same _ _ _, rfl, hL2.2.2.1, rfl, rfl, hL2.1, hL2,
        u1, u2, rfl, ?_, fun _ => ⟨rfl, u3, u4⟩, ?_, rfl, rfl, rfl, ⟨_, rfl⟩, rfl, rfl⟩
      · intro h
        rw [hns] at h
        cases h
      · intro a ha
        show Heap.set (Heap.set g.heap o2 _) o2 _ a = _
        rw [heap_set_ne _ _ _ _ ha, heap_set_ne _ _ _ _ ha]
    · simp only [Option.some.injEq, Prod.mk.injEq] at hrun
      obtain ⟨rfl, -⟩ := hrun
      refine ⟨_, x, _, hrun0, hto, hx, heap_set_same _ _ _, rfl, hL2.2.2.1, rfl, rfl, hL2.1, hL2,
        u1, u2, rfl, ?_, fun _ => ⟨rfl, u3, u4⟩, ?_, rfl, rfl, rfl, ⟨_, rfl⟩, rfl, rfl⟩
      · intro h
        rw [hns] at h
        cases h
      · intro a ha
        show Heap.set (Heap.set g.heap o2 _) o2 _ a = _
        rw [heap_set_ne _ _ _ _ ha, heap_set_ne _ _ _ _ ha]

/-- C16. In a state whose `tobefnz` list is `o :: lt2`, `udata2finalize`
returns `o`; `tobefnz` becomes the former tail, `o` becomes the head of
`allgc` with the old `allgc` as its tail, and the `FINALIZEDBIT` of `o` is
cleared; in a sweep state `o` gets the current white, otherwise its colour
is the one it had; its age is the one it had in both cases, and no other
object changes. -/
theorem udata2finalize_spec (g : global_State) (la lf lt2 lx : List Addr) (o : Addr)
    (hL : Lists g la lf (o :: lt2) lx) :
    ∃ g2 x x2, udata2finalize g = some (g2, o) ∧ g.tobefnz = some o ∧ g.heap o = some x ∧
      g2.heap o = some x2 ∧ g2.tobefnz = x.next ∧ IsList g2.heap g2.tobefnz lt2 ∧
      g2.allgc = some o ∧ x2.next = g.allgc ∧ IsList g2.heap g2.allgc (o :: la) ∧
      Lists g2 (o :: la) lf lt2 lx ∧
      tofinalize x2.marked = false ∧ getage x2.marked = getage x.marked ∧ x2.tt = x.tt ∧
      (issweepphase g = true →
        x2.marked = makewhite g (resetbit x.marked FINALIZEDBIT) ∧
        x2.marked &&& WHITEBITS = luaC_white g ∧ isblack x2.marked = false) ∧
      (issweepphase g = false →
        x2.marked = resetbit x.marked FINALIZEDBIT ∧
        x2.marked &&& maskcolors = x.marked &&& maskcolors ∧
        iswhite x2.marked = iswhite x.marked ∧ isblack x2.marked = isblack x.marked) ∧
      (∀ a, a ≠ o → g2.heap a = g.heap a) ∧ g2.gcstate = g.gcstate ∧
      g2.finobj = g.finobj ∧ g2.fixedgc = g.fixedgc ∧
      (∃ m, x2 = { x with next := g.allgc, marked := m }) ∧ g2.gcstp = g.gcstp ∧ g2.mt = g.mt :=
  udata2finalize_detail g la lf lt2 lx o hL

/-- C16 at the concrete state `exFin`, a sweep state with the userdata 6 on
`tobefnz`: the userdata moves to the head of `allgc`, loses its
`FINALIZEDBIT` and is of the current white. -/
theorem udata2finalize_spec_witness :
    ∃ g2 x2, udata2finalize exFin = some (g2, 6) ∧ g2.tobefnz = none ∧ g2.allgc = some 6 ∧
      g2.heap 6 = some x2 ∧ x2.next = some 4 ∧ x2.marked = 8 ∧
      Lists g2 [6, 4, 1, 2, 3] [5] [] [] := by
  obtain ⟨g2, x, x2, h1, -, h3, h4, h5, -, h7, h8, -, h10, -, -, -, h14, -⟩ :=
    udata2finalize_spec exFin [4, 1, 2, 3] [5] [] [] 6 exFin_lists
  have hx : x = exObj .LUA_VUSERDATA 72 none := (Option.some.inj h3).symm
  subst hx
  exact ⟨g2, x2, h1, h5, h7, h4, h8, by rw [(h14 rfl).1]; rfl, h10⟩

theorem or_and_self_bits (m c : Nat) : (m ||| c) &&& c = c := by
  apply Nat.eq_of_testBit_eq
  intro i
  rw [Nat.testBit_and, Nat.testBit_or]
  cases m.testBit i <;> cases c.testBit i <;> rfl

theorem and_not_fin (m : Nat) : (m &&& (65535 ^^^ CIST_FIN)) &&& CIST_FIN = 0 := by
  rw [Nat.and_assoc]
  have h : (65535 ^^^ CIST_FIN) &&& CIST_FIN = 0 := by decide
  rw [h, Nat.and_zero]

theorem modobj_spec (g : global_State) (a : Addr) (f : GCObject → GCObject) (x : GCObject)
    (hx : g.heap a = some x) :
    g.modobj a f = some (g.setobj a (f x)) := by
  unfold global_State.modobj
  rw [hx]
  rfl

theorem push_spec (g : global_State) (L : Addr) (v : TValue) (t : GCObject) (s : List TValue)
    (ht : g.heap L = some t) (hs : t.stack = some s) :
    push g L v = some (g.setobj L { t with stack := some (s.set t.top v), top := t.top + 1 }) := by
  unfold push
  simp only [ht, hs, Option.bind_eq_bind, Option.some_bind]

/-- The part of `GCTM` before the protected call, for a thread `L` with a
stack: collector steps are stopped, hooks are off, the call info is flagged
and two values are pushed; nothing else changes. -/
theorem GCTM_enter_spec (g1 : global_State) (L : Addr) (tm v : TValue) (l0 : GCObject)
    (s : List TValue) (hth : g1.heap L = some l0) (hst : l0.stack = some s) :
    ∃ g6 l6, GCTM_enter g1 L tm v = some g6 ∧ g6.heap L = some l6 ∧
      g6.gcstp = g1.gcstp ||| GCSTPGC ∧ l6.allowhook = 0 ∧
      l6.callstatus = l0.callstatus ||| CIST_FIN ∧ l6.top = l0.top + 2 ∧
      (∀ a, a ≠ L → g6.heap a = g1.heap a) ∧ g6.tobefnz = g1.tobefnz ∧
      g6.gcstate = g1.gcstate ∧ tmview l6 = tmview l0 ∧ l6.next = l0.next ∧
      g6.mt = g1.mt := by
  unfold GCTM_enter
  have h3 := modobj_spec { g1 with gcstp := g1.gcstp ||| GCSTPGC } L
    (fun l => { l with allowhook := 0 }) l0 hth
  simp only [Option.bind_eq_bind, h3, Option.some_bind]
  have h4 := push_spec (global_State.setobj { g1 with gcstp := g1.gcstp ||| GCSTPGC } L
    { l0 with allowhook := 0 }) L tm _ s (heap_set_same _ _ _) hst
  simp only [h4, Option.some_bind]
  have h5 := push_spec (global_State.setobj
    (global_State.setobj { g1 with gcstp := g1.gcstp ||| GCSTPGC } L { l0 with allowhook := 0 })
    L { l0 with allowhook := 0, stack := some (s.set l0.top tm), top := l0.top + 1 }) L v _
    (s.set l0.top tm) (heap_set_same _ _ _) rfl
  simp only [h5, Option.some_bind]
  refine ⟨_, _, modobj_spec _ L _ _ (heap_set_same _ _ _), heap_set_same _ _ _, rfl, rfl, rfl,
    rfl, ?_, rfl, rfl, (by simp [tmview, hst]), rfl, rfl⟩
  intro a ha
  show Heap.set (Heap.set (Heap.set (Heap.set g1.heap L _) L _) L _) L _ a = _
  rw [heap_set_ne _ _ _ _ ha, heap_set_ne _ _ _ _ ha, heap_set_ne _ _ _ _ ha,
    heap_set_ne _ _ _ _ ha]

/-- The part of `GCTM` after the protected call, for every status and every
state in which the thread `L` is live: the flag of the call info is cleared,
hooks and `gcstp` are restored, and on error a warning is emitted and the
error object popped. -/
theorem GCTM_leave_spec (g7 : global_State) (L : Addr) (oldah oldgcstp status : Nat)
    (l7 : GCObject) (hth : g7.heap L = some l7) :
    ∃ g8 l8, GCTM_leave g7 L oldah oldgcstp status = some g8 ∧ g8.heap L = some l8 ∧
      g8.gcstp = oldgcstp ∧ l8.allowhook = oldah ∧
      l8.callstatus = l7.callstatus &&& (65535 ^^^ CIST_FIN) ∧
      l8.top = (if status ≠ LUA_OK then l7.top - 1 else l7.top) ∧
      g8.nwarn = (if status ≠ LUA_OK then g7.nwarn + 1 else g7.nwarn) ∧
      (∀ a, a ≠ L → g8.heap a = g7.heap a) ∧ g8.tobefnz = g7.tobefnz ∧
      g8.gcstate = g7.gcstate ∧ tmview l8 = tmview l7 ∧ l8.next = l7.next ∧
      g8.mt = g7.mt := by
  unfold GCTM_leave
  have h8 := modobj_spec g7 L
    (fun l => { l with callstatus := l.callstatus &&& (65535 ^^^ CIST_FIN) }) l7 hth
  simp only [Option.bind_eq_bind, h8, Option.some_bind]
  have h9 := modobj_spec (g7.setobj L
    { l7 with callstatus := l7.callstatus &&& (65535 ^^^ CIST_FIN) }) L
    (fun l => { l with allowhook := oldah }) _ (heap_set_same _ _ _)
  simp only [h9, Option.some_bind]
  by_cases hs : status ≠ LUA_OK
  · simp only [if_pos hs]
    refine ⟨_, _, modobj_spec _ L _ _ (heap_set_same _ _ _), heap_set_same _ _ _, rfl, rfl, rfl,
      rfl, rfl, ?_, rfl, rfl, rfl, rfl, rfl⟩
    intro a ha
    show Heap.set (Heap.set (Heap.set g7.heap L _) L _) L _ a = _
    rw [heap_set_ne _ _ _ _ ha, heap_set_ne _ _ _ _ ha, heap_set_ne _ _ _ _ ha]
  · simp only [if_neg hs]
    refine ⟨_, _, rfl, heap_set_same _ _ _, rfl, rfl, rfl, rfl, rfl, ?_, rfl, rfl, rfl, rfl,
      rfl⟩
    intro a ha
    show Heap.set (Heap.set g7.heap L _) L _ a = _
    rw [heap_set_ne _ _ _ _ ha, heap_set_ne _ _ _ _ ha]

theorem gettm_frame (g g1 : global_State) (o : Addr) (x x2 : GCObject) (n : Option Addr)
    (hx : g.heap o = some x) (hx2 : g1.heap o = some x2)
    (hm : ∃ m, x2 = { x with next := n, marked := m })
    (hfr : ∀ a, a ≠ o → g1.heap a = g.heap a) (hmt : g1.mt = g.mt) (e : TMS) :
    luaT_gettmbyobj g1 o e = luaT_gettmbyobj g o e := by
  obtain ⟨m, rfl⟩ := hm
  have hgf : ∀ mt, gfasttm g1 mt e = gfasttm g mt e := by
    intro mt
    cases mt with
    | none => rfl
    | some a =>
      unfold gfasttm
      by_cases ha : a = o
      · subst ha
        simp only [hx, hx2, Option.map_some']
      · simp only [hfr a ha]
  unfold luaT_gettmbyobj
  simp only [hx, hx2, hgf, hmt, Option.bind_eq_bind, Option.some_bind]

/-- C17. When the object at the head of `tobefnz` has a finalizer and the
running thread `L` has a stack, `GCTM` calls `luaD_pcall` in a state in which
`gcstp` has the bit `GCSTPGC` set, `allowhook` of `L` is 0 and the call info
is flagged `CIST_FIN`; and for every outcome of that call, with any status,
`GCTM` returns: `gcstp` and `allowhook` are what they were before, the
`CIST_FIN` bit is clear, and on error one warning is emitted and the stack
top is one lower than the call left it. -/
theorem GCTM_spec (env : Env) (g : global_State) (L : Addr) (la lf lt2 lx : List Addr)
    (o : Addr) (l0 : GCObject) (s : List TValue) (tm : TValue)
    (hL : Lists g la lf (o :: lt2) lx) (hth : g.heap L = some l0) (hst : l0.stack = some s)
    (htm : luaT_gettmbyobj g o .TM_GC = some tm) (hfin : isempty tm = false) :
    ∃ g1 vo g6 l6, udata2finalize g = some (g1, o) ∧ g1.heap o = some vo ∧
      GCTM_enter g1 L tm (.gc vo.tt o) = some g6 ∧ g6.heap L = some l6 ∧
      g6.gcstp &&& GCSTPGC = GCSTPGC ∧ l6.allowhook = 0 ∧
      l6.callstatus &&& CIST_FIN = CIST_FIN ∧ l6.top = l0.top + 2 ∧
      (env.luaD_pcall g6 L = none → GCTM env g L = none) ∧
      ∀ g7 status l7, env.luaD_pcall g6 L = some (g7, status) → g7.heap L = some l7 →
        ∃ g8 l8, GCTM env g L = some g8 ∧ g8.heap L = some l8 ∧
          g8.gcstp = g.gcstp ∧ l8.allowhook = l0.allowhook ∧
          l8.callstatus &&& CIST_FIN = 0 ∧
          (status ≠ LUA_OK → l8.top = l7.top - 1 ∧ g8.nwarn = g7.nwarn + 1) ∧
          (status = LUA_OK → l8.top = l7.top ∧ g8.nwarn = g7.nwarn) ∧
          (∀ a, a ≠ L → g8.heap a = g7.heap a) ∧ g8.tobefnz = g7.tobefnz := by
  obtain ⟨g1, x, x2, h1, -, h3, h4, -, -, -, -, -, -, -, -, -, -, -, h18, -, -, -, h22, h23, h24⟩ :=
    udata2finalize_detail g la lf lt2 lx o hL
  have htm1 : luaT_gettmbyobj g1 o .TM_GC = some tm := by
    rw [gettm_frame g g1 o x x2 g.allgc h3 h4 h22 h18 h24]
    exact htm
  obtain ⟨l1, hl1, hst1, hah1, htop1⟩ : ∃ l1, g1.heap L = some l1 ∧ l1.stack = some s ∧
      l1.allowhook = l0.allowhook ∧ l1.top = l0.top := by
    by_cases hLo : L = o
    · subst hLo
      obtain ⟨m, rfl⟩ := h22
      rw [h3] at hth
      cases hth
      exact ⟨_, h4, hst, rfl, rfl⟩
    · exact ⟨l0, by rw [h18 L hLo]; exact hth, hst, rfl, rfl⟩
  obtain ⟨g6, l6, e1, e2, e3, e4, e5, e6, -⟩ := GCTM_enter_spec g1 L tm (.gc x2.tt o) l1 s hl1 hst1
  have hunf : GCTM env g L = (env.luaD_pcall g6 L).bind
      (fun r => GCTM_leave r.1 L l1.allowhook g1.gcstp r.2) := by
    unfold GCTM
    simp only [h1, h4, htm1, hfin, hl1, e1, Option.bind_eq_bind, Option.some_bind,
      Bool.not_false, if_true]
  refine ⟨g1, x2, g6, l6, h1, h4, e1, e2, by rw [e3]; exact or_and_self_bits _ _, e4,
    by rw [e5]; exact or_and_self_bits _ _, by rw [e6, htop1], ?_, ?_⟩
  · intro hn
    rw [hunf, hn]
    rfl
  · intro g7 status l7 hcall hl7
    obtain ⟨g8, l8, f1, f2, f3, f4, f5, f6, f7, f8, f9, -⟩ :=
      GCTM_leave_spec g7 L l1.allowhook g1.gcstp status l7 hl7
    refine ⟨g8, l8, ?_, f2, by rw [f3, h23], by rw [f4, hah1],
      by rw [f5]; exact and_not_fin _, ?_, ?_, f8, f9⟩
    · rw [hunf, hcall]
      exact f1
    · intro hs
      rw [if_pos hs] at f6 f7
      exact ⟨f6, f7⟩
    · intro hs
      rw [if_neg (not_not.2 hs)] at f6 f7
      exact ⟨f6, f7⟩

/-- The lists of the concrete state `exGCTM`. -/
theorem exGCTM_lists : Lists exGCTM [1, 3] [] [2] [] := by
  refine ⟨⟨rfl, _, rfl, rfl, _, rfl, rfl⟩, rfl, ⟨rfl, _, rfl, rfl⟩, rfl, by decide, ?_⟩
  intro a
  show (exGCTMHeap a).isSome ↔ _
  unfold exGCTMHeap
  simp only [List.cons_append, List.nil_append, List.append_nil, List.mem_cons,
    List.mem_singleton, List.not_mem_nil, or_false]
  split_ifs <;> simp_all

/-- C17 at the concrete state `exGCTM`, where the protected call fails: `GCTM`
returns, `gcstp` and `allowhook` are restored, the call info is not flagged
any more and the error object is popped. -/
theorem GCTM_spec_witness :
    ∃ g8 l8, GCTM exEnvErr exGCTM 1 = some g8 ∧ g8.heap 1 = some l8 ∧ g8.gcstp = 0 ∧
      l8.allowhook = 1 ∧ l8.callstatus &&& CIST_FIN = 0 ∧ l8.top = 0 := by
  obtain ⟨g1, vo, g6, l6, -, -, -, h4, -, -, -, h8, -, hall⟩ :=
    GCTM_spec exEnvErr exGCTM 1 [1, 3] [] [] [] 2
      { exObj .LUA_VTHREAD 8 (some 3) with stack := some [.nil, .nil, .nil, .nil], stack_last := 4 }
      [.nil, .nil, .nil, .nil] (.prim 0) exGCTM_lists rfl rfl rfl rfl
  have hcall : exEnvErr.luaD_pcall g6 1 =
      some (g6.setobj 1 { l6 with top := l6.top - 1 }, 2) := by
    show (g6.modobj 1 _).map _ = _
    rw [modobj_spec g6 1 _ l6 h4]
    rfl
  have hl7 : (g6.setobj 1 { l6 with top := l6.top - 1 }).heap 1 =
      some { l6 with top := l6.top - 1 } := by
    simp [global_State.setobj]
  obtain ⟨g8, l8, k1, k2, k3, k4, k5, k6, -⟩ := hall _ 2 _ hcall hl7
  refine ⟨g8, l8, k1, k2, k3, k4, k5, ?_⟩
  rw [(k6 (by decide)).1]
  show l6.top - 1 - 1 = 0
  rw [h8]
  rfl

theorem isList_frame (h h2 : Heap) (l : List Addr) (p : Option Addr)
    (hsame : ∀ a ∈ l, nextOf h2 a = nextOf h a) (hl : IsList h p l) : IsList h2 p l := by
  rw [isList_iff_isSeg] at hl ⊢
  exact isSeg_frame h h2 l _ _ hsame hl

/-- The lookup of `__gc` reads only the tag, the metatable and the cached
field of the objects, and the metatables of the basic types. -/
theorem gettm_view (g g1 : global_State) (o : Addr)
    (hv : ∀ a, (g1.heap a).map tmview = (g.heap a).map tmview) (hmt : g1.mt = g.mt) :
    luaT_gettmbyobj g1 o .TM_GC = luaT_gettmbyobj g o .TM_GC := by
  have hgf : ∀ mt, gfasttm g1 mt .TM_GC = gfasttm g mt .TM_GC := by
    intro mt
    cases mt with
    | none => rfl
    | some a =>
      unfold gfasttm
      have := hv a
      cases e1 : g.heap a <;> cases e2 : g1.heap a <;> simp_all [tmview]
  unfold luaT_gettmbyobj
  have := hv o
  cases e1 : g.heap o with
  | none =>
    cases e2 : g1.heap o with
    | none => rfl
    | some y => rw [e1, e2] at this; simp at this
  | some x =>
    cases e2 : g1.heap o with
    | none => rw [e1, e2] at this; simp at this
    | some y =>
      rw [e1, e2] at this
      simp only [Option.map_some', Option.some.injEq, tmview, Prod.mk.injEq] at this
      simp only [Option.bind_eq_bind, Option.some_bind, this.1, this.2.1, hgf, hmt]

theorem finReady_view (g g1 : global_State) (L : Addr) (lt lt2 : List Addr)
    (hv : ∀ a, (g1.heap a).map tmview = (g.heap a).map tmview) (hmt : g1.mt = g.mt)
    (hsub : ∀ a, a ∈ lt2 → a ∈ lt) (h : FinReady g L lt) : FinReady g1 L lt2 := by
  obtain ⟨⟨l, s, hl, hs⟩, htm⟩ := h
  refine ⟨?_, ?_⟩
  · have := hv L
    rw [hl] at this
    cases e : g1.heap L with
    | none => rw [e] at this; simp at this
    | some y =>
      rw [e] at this
      simp only [Option.map_some', Option.some.injEq, tmview, Prod.mk.injEq, hs,
        Option.isSome_some] at this
      obtain ⟨s2, hs2⟩ := Option.isSome_iff_exists.1 this.2.2.2
      exact ⟨y, s2, rfl, hs2⟩
  · intro o ho
    rw [gettm_view g g1 o hv hmt]
    exact htm o (hsub o ho)

/-- A change of one object that keeps what the lookup of `__gc` reads. -/
theorem view_of_frame (g g1 : global_State) (o : Addr) (x x2 : GCObject)
    (hx : g.heap o = some x) (hx2 : g1.heap o = some x2) (hv : tmview x2 = tmview x)
    (hfr : ∀ a, a ≠ o → g1.heap a = g.heap a) :
    ∀ a, (g1.heap a).map tmview = (g.heap a).map tmview := by
  intro a
  by_cases ha : a = o
  · subst ha
    rw [hx, hx2, Option.map_some', Option.map_some', hv]
  · rw [hfr a ha]

/-- What `udata2finalize` does to the head `o` of `tobefnz`. -/
theorem udata2finalize_pop (g : global_State) (o : Addr) (x : GCObject)
    (hto : g.tobefnz = some o) (hx : g.heap o = some x) :
    ∃ g1 x2, udata2finalize g = some (g1, o) ∧ g1.heap o = some x2 ∧ tmview x2 = tmview x ∧
      (∀ a, a ≠ o → g1.heap a = g.heap a) ∧ g1.tobefnz = x.next ∧
      g1.gcstate = g.gcstate ∧ g1.mt = g.mt := by
  unfold udata2finalize
  simp only [hto, hx, Option.bind_eq_bind, Option.some_bind, global_State.setobj,
    heap_set_same]
  split
  · refine ⟨_, _, rfl, heap_set_same _ _ _, rfl, ?_, rfl, rfl, rfl⟩
    intro a ha
    show Heap.set (Heap.set (Heap.set g.heap o _) o _) o _ a = _
    rw [heap_set_ne _ _ _ _ ha, heap_set_ne _ _ _ _ ha, heap_set_ne _ _ _ _ ha]
  · split
    · refine ⟨_, _, rfl, heap_set_same _ _ _, rfl, ?_, rfl, rfl, rfl⟩
      intro a ha
      show Heap.set (Heap.set g.heap o _) o _ a = _
      rw [heap_set_ne _ _ _ _ ha, heap_set_ne _ _ _ _ ha]
    · refine ⟨_, _, rfl, heap_set_same _ _ _, rfl, ?_, rfl, rfl, rfl⟩
      intro a ha
      show Heap.set (Heap.set g.heap o _) o _ a = _
      rw [heap_set_ne _ _ _ _ ha, heap_set_ne _ _ _ _ ha]

theorem next_of_frame (g g1 : global_State) (o : Addr) (x x2 : GCObject)
    (hx : g.heap o = some x) (hx2 : g1.heap o = some x2) (hn : x2.next = x.next)
    (hfr : ∀ a, a ≠ o → g1.heap a = g.heap a) :
    ∀ a, nextOf g1.heap a = nextOf g.heap a := by
  intro a
  unfold nextOf
  by_cases ha : a = o
  · subst ha
    rw [hx, hx2, Option.map_some', Option.map_some', hn]
  · rw [hfr a ha]

/-- One call of `GCTM` when the protected calls are quiet: it returns, the
head of `tobefnz` is removed from that list, and the state of the collector
is the same. -/
theorem GCTM_pop (env : Env) (L : Addr) (hq : QuietCalls env L) (g : global_State) (o : Addr)
    (lt2 : List Addr) (hl : IsList g.heap g.tobefnz (o :: lt2))
    (hr : FinReady g L (o :: lt2)) :
    ∃ g2, GCTM env g L = some g2 ∧ g2.gcstate = g.gcstate ∧
      IsList g2.heap g2.tobefnz lt2 ∧ FinReady g2 L lt2 := by
  have hnd := isList_nodup _ _ _ hl
  have hon : o ∉ lt2 := (List.nodup_cons.1 hnd).1
  obtain ⟨hto, x, hx, hl2⟩ := hl
  obtain ⟨g1, x2, h1, h2, h3, h4, h5, h6, h7⟩ := udata2finalize_pop g o x hto hx
  have hv1 := view_of_frame g g1 o x x2 hx h2 h3 h4
  have hr1 : FinReady g1 L (o :: lt2) := finReady_view g g1 L _ _ hv1 h7 (fun a h => h) hr
  have hl1 : IsList g1.heap g1.tobefnz lt2 := by
    rw [h5]
    refine isList_frame g.heap g1.heap lt2 x.next ?_ hl2
    intro a ha
    unfold nextOf
    rw [h4 a (fun e => hon (e ▸ ha))]
  obtain ⟨tm, htm⟩ := hr1.2 o (List.mem_cons_self _ _)
  obtain ⟨l1, s1, hl1L, hs1⟩ := hr1.1
  have hsub : ∀ a, a ∈ lt2 → a ∈ o :: lt2 := fun a ha => List.mem_cons_of_mem _ ha
  by_cases hfin : isempty tm = true
  · refine ⟨g1, ?_, h6, hl1, finReady_view g1 g1 L _ _ (fun _ => rfl) rfl hsub hr1⟩
    unfold GCTM
    simp only [h1, h2, htm, hfin, Option.bind_eq_bind, Option.some_bind, Bool.not_true,
      Bool.false_eq_true, if_false]
  · have hfin2 : isempty tm = false := by
      cases e : isempty tm with
      | false => rfl
      | true => exact absurd e hfin
    obtain ⟨g6, l6, e1, e2, -, -, -, -, e7, e8, e9, e10, e11, e12⟩ :=
      GCTM_enter_spec g1 L tm (.gc x2.tt o) l1 s1 hl1L hs1
    have hv6 := view_of_frame g1 g6 L l1 l6 hl1L e2 e10 e7
    have hr6 : FinReady g6 L lt2 := finReady_view g1 g6 L _ _ hv6 e12 hsub hr1
    have hl6 : IsList g6.heap g6.tobefnz lt2 := by
      rw [e8]
      exact isList_frame g1.heap g6.heap lt2 _
        (fun a _ => next_of_frame g1 g6 L l1 l6 hl1L e2 e11 e7 a) hl1
    obtain ⟨s2, r, hc, c1, c2, c3⟩ := hq g6 lt2 hl6 hr6
    obtain ⟨l7, s7, hl7, hs7⟩ := c3.1
    obtain ⟨g8, l8, f1, f2, -, -, -, -, -, f8, f9, f10, f11, f12, f13⟩ :=
      GCTM_leave_spec s2 L l1.allowhook g1.gcstp r l7 hl7
    have hv8 := view_of_frame s2 g8 L l7 l8 hl7 f2 f11 f8
    refine ⟨g8, ?_, by rw [f10, c1, e9, h6], ?_,
      finReady_view s2 g8 L _ _ hv8 f13 (fun a h => h) c3⟩
    · unfold GCTM
      simp only [h1, h2, htm, hfin2, hl1L, e1, hc, Option.bind_eq_bind, Option.some_bind,
        Bool.not_false, if_true]
      exact f1
    · rw [f9]
      exact isList_frame s2.heap g8.heap lt2 _
        (fun a _ => next_of_frame s2 g8 L l7 l8 hl7 f2 f12 f8 a) c2

/-- The loop of `runafewfinalizers` when the protected calls are quiet: it
calls `min n (length of tobefnz)` finalizers and removes as many objects from
the head of `tobefnz`. -/
theorem runafewfinalizers_loop_spec (env : Env) (L : Addr) (hq : QuietCalls env L) (n : Nat) :
    ∀ (g : global_State) (i : Nat) (lt : List Addr), IsList g.heap g.tobefnz lt →
      FinReady g L lt →
      ∃ g2, runafewfinalizers_loop env L n g i = some (g2, i + min n lt.length) ∧
        g2.gcstate = g.gcstate ∧ IsList g2.heap g2.tobefnz (lt.drop (min n lt.length)) ∧
        FinReady g2 L (lt.drop (min n lt.length)) := by
  induction n with
  | zero =>
    intro g i lt hl hr
    exact ⟨g, by simp [runafewfinalizers_loop], rfl, by simpa using hl, by simpa using hr⟩
  | succ n ih =>
    intro g i lt hl hr
    cases lt with
    | nil =>
      have hto : g.tobefnz = none := hl
      refine ⟨g, ?_, rfl, by simpa using hl, by simpa using hr⟩
      rw [runafewfinalizers_loop]
      simp [hto]
    | cons o lt2 =>
      have hto : g.tobefnz = some o := hl.1
      obtain ⟨g1, k1, k2, k3, k4⟩ := GCTM_pop env L hq g o lt2 hl hr
      obtain ⟨g2, m1, m2, m3, m4⟩ := ih g1 (i + 1) lt2 k3 k4
      have hk : min (n + 1) (o :: lt2).length = min n lt2.length + 1 := by
        simp only [List.length_cons]
        omega
      refine ⟨g2, ?_, by rw [m2, k2], by rw [hk]; exact m3, by rw [hk]; exact m4⟩
      rw [runafewfinalizers_loop]
      simp only [hto, k1, Option.bind_eq_bind, Option.some_bind, m1, hk]
      simp only [Option.some.injEq, Prod.mk.injEq, true_and]
      omega

/-- The case `GCScallfin` of `singlestep`. -/
theorem singlestep_switch_callfin (env : Env) (fuel : Nat) (g : global_State) (L : Addr)
    (hst : g.gcstate = GCScallfin) :
    singlestep_switch env fuel g L =
      if g.tobefnz ≠ none ∧ g.gcemergency = 0 then
        (runafewfinalizers env { g with gcstopem := 0 } L GCFINMAX).bind
          (fun r => some (r.1, some (r.2 * GCFINALIZECOST)))
      else some ({ g with gcstate := GCSpause }, some 0) := by
  unfold singlestep_switch
  rw [if_neg (show ¬ g.gcstate = GCSpause by rw [hst]; decide),
    if_neg (show ¬ g.gcstate = GCSpropagate by rw [hst]; decide),
    if_neg (show ¬ g.gcstate = GCSenteratomic by rw [hst]; decide),
    if_neg (show ¬ g.gcstate = GCSswpallgc by rw [hst]; decide),
    if_neg (show ¬ g.gcstate = GCSswpfinobj by rw [hst]; decide),
    if_neg (show ¬ g.gcstate = GCSswptobefnz by rw [hst]; decide),
    if_neg (show ¬ g.gcstate = GCSswpend by rw [hst]; decide), if_pos hst]
  split
  · rfl
  · rfl

/-- The case `GCScallfin` of `singlestep` when the protected calls of the
finalizers return and leave the collector alone: with `gcemergency` 0 and a
`tobefnz` list `lt` that is not empty, `k = min GCFINMAX (length lt)`
finalizers are called, each removing the head of `tobefnz`, the state stays
`GCScallfin` and the work is `50 * k`; with `tobefnz` empty the state becomes
`GCSpause` and the work is 0. -/
theorem singlestep_callfin_quiet (env : Env) (fuel : Nat) (g : global_State) (L : Addr)
    (lt : List Addr) (hq : QuietCalls env L) (hst : g.gcstate = GCScallfin)
    (hl : IsList g.heap g.tobefnz lt) (hr : FinReady g L lt) :
    (lt ≠ [] → g.gcemergency = 0 →
      ∃ g2 k, singlestep env fuel g L = some (g2, GCFINALIZECOST * k) ∧
        k = min GCFINMAX lt.length ∧ 1 ≤ k ∧ k ≤ 10 ∧ GCFINALIZECOST * k = 50 * k ∧
        50 * k ≤ 500 ∧ IsList g2.heap g2.tobefnz (lt.drop k) ∧
        g2.gcstate = GCScallfin ∧ g2.gcstopem = 0) ∧
    (lt = [] →
      singlestep env fuel g L = some ({ g with gcstate := GCSpause, gcstopem := 0 }, 0)) := by
  refine ⟨?_, ?_⟩
  · intro hne hem
    have hto : g.tobefnz ≠ none := by
      intro e
      rw [e] at hl
      exact hne ((isList_nil_iff _ _ _ hl).1 rfl)
    obtain ⟨g2, m1, m2, m3, -⟩ := runafewfinalizers_loop_spec env L hq GCFINMAX
      { g with gcstopem := 0 } 0 lt hl hr
    have hlen : 1 ≤ lt.length := by
      cases lt with
      | nil => exact absurd rfl hne
      | cons b t => simp
    have hG : GCFINMAX = 10 := rfl
    refine ⟨{ g2 with gcstopem := 0 }, min GCFINMAX lt.length, ?_, rfl, ?_, ?_, rfl, ?_, m3,
      m2.trans hst, rfl⟩
    · have hsw : singlestep_switch env fuel { g with gcstopem := 1 } L =
          some (g2, some (GCFINALIZECOST * min GCFINMAX lt.length)) := by
        rw [singlestep_switch_callfin env fuel { g with gcstopem := 1 } L hst,
          if_pos ⟨hto, hem⟩]
        have m1b : runafewfinalizers env
            { ({ g with gcstopem := 1 } : global_State) with gcstopem := 0 } L GCFINMAX =
            some (g2, 0 + min GCFINMAX lt.length) := m1
        rw [m1b]
        simp only [Option.some_bind, Nat.zero_add, Nat.mul_comm]
      unfold singlestep
      simp only [Option.bind_eq_bind, hsw, Option.some_bind]
    · rw [hG]
      omega
    · rw [hG]
      omega
    · rw [hG]
      omega
  · intro hnil
    subst hnil
    have hto : g.tobefnz = none := hl
    have hsw : singlestep_switch env fuel { g with gcstopem := 1 } L =
        some ({ ({ g with gcstopem := 1 } : global_State) with gcstate := GCSpause },
          some 0) := by
      rw [singlestep_switch_callfin env fuel { g with gcstopem := 1 } L hst,
        if_neg (by intro h; exact h.1 hto)]
    unfold singlestep
    simp only [Option.bind_eq_bind, hsw, Option.some_bind]

/-- The loop of `whitelist` on a list `l` shorter than the fuel: it returns,
every object of `l` gets the mark of a new object of the given white, and
nothing else changes. -/
theorem whitelist_loop_spec (white : Nat) (l : List Addr) :
    ∀ (fuel : Nat) (g : global_State) (p : Option Addr), IsList g.heap p l → l.length < fuel →
      ∃ g2, whitelist_loop white fuel g p = some g2 ∧ g2 = { g with heap := g2.heap } ∧
        ∀ a, g2.heap a = if a ∈ l then (g.heap a).map (fun x =>
          { x with marked := cast_byte ((x.marked &&& bnot8 maskgcbits) ||| white) })
          else g.heap a := by
  induction l with
  | nil =>
    intro fuel g p hl hf
    have hp : p = none := hl
    subst hp
    cases fuel with
    | zero => exact absurd hf (Nat.lt_irrefl _)
    | succ fuel =>
      refine ⟨g, by simp [whitelist_loop], rfl, ?_⟩
      intro a
      simp
  | cons b t ih =>
    intro fuel g p hl hf
    have hnd := isList_nodup _ _ _ hl
    have hbt : b ∉ t := (List.nodup_cons.1 hnd).1
    obtain ⟨hp, x, hx, ht⟩ := hl
    subst hp
    cases fuel with
    | zero => exact absurd hf (Nat.not_lt_zero _)
    | succ fuel =>
      have ht2 := isList_set_of_not_mem g.heap x.next t b
        { x with marked := cast_byte ((x.marked &&& bnot8 maskgcbits) ||| white) } ht hbt
      obtain ⟨g2, h1, h2, h3⟩ := ih fuel (g.setobj b
        { x with marked := cast_byte ((x.marked &&& bnot8 maskgcbits) ||| white) }) x.next ht2
        (by simpa using hf)
      refine ⟨g2, ?_, ?_, ?_⟩
      · rw [whitelist_loop]
        simp only [hx, Option.bind_eq_bind, Option.some_bind]
        exact h1
      · exact h2
      · intro a
        rw [h3 a]
        by_cases hab : a = b
        · subst hab
          simp only [hbt, if_false, List.mem_cons, true_or, if_true, hx, Option.map_some']
          exact heap_set_same _ _ _
        · have e : (global_State.setobj g b
              { x with marked := cast_byte ((x.marked &&& bnot8 maskgcbits) ||| white) }).heap a =
              g.heap a := heap_set_ne _ _ _ _ hab
          simp only [List.mem_cons, hab, false_or, e]

theorem whitened_next (h h2 : Heap) (white : Nat) (l : List Addr)
    (hh : ∀ a, h2 a = if a ∈ l then (h a).map (fun x =>
      { x with marked := cast_byte ((x.marked &&& bnot8 maskgcbits) ||| white) }) else h a) :
    ∀ a, nextOf h2 a = nextOf h a := by
  intro a
  unfold nextOf
  rw [hh a]
  split
  · cases h a <;> rfl
  · rfl

/-- What `enterinc` does to a state with the lists `la`, `lf`, `lt`, `lx`. -/
theorem enterinc_detail (fuel : Nat) (g : global_State) (la lf lt lx : List Addr)
    (hL : Lists g la lf lt lx) (hfa : la.length < fuel) (hff : lf.length < fuel)
    (hft : lt.length < fuel) :
    ∃ g2 hp, enterinc fuel g = some g2 ∧
      g2 = { g with
        heap := hp, reallyold := none, old1 := none, survival := none,
        finobjrold := none, finobjold1 := none, finobjsur := none,
        gcstate := GCSpause, gckind := KGC_INC, lastatomic := 0 } ∧
      ∀ a, hp a = if a ∈ la ++ lf ++ lt then (g.heap a).map (fun x =>
        { x with marked := cast_byte ((x.marked &&& bnot8 maskgcbits) ||| luaC_white g) })
        else g.heap a := by
  obtain ⟨n1, n2, n3, -, n5, n6, n7, -⟩ := nodup4 la lf lt lx hL.2.2.2.2.1
  obtain ⟨g1, h1, e1, f1⟩ := whitelist_loop_spec (luaC_white g) la fuel g g.allgc hL.1 hfa
  have hn1 := whitened_next g.heap g1.heap _ la f1
  have c1 : g1.currentwhite = g.currentwhite := by rw [e1]
  have p1 : g1.finobj = g.finobj := by rw [e1]
  have p2 : g1.tobefnz = g.tobefnz := by rw [e1]
  have w2 : luaC_white { g1 with reallyold := none, old1 := none, survival := none } =
      luaC_white g := by
    unfold luaC_white
    rw [← c1]
  have l2 : IsList ({ g1 with reallyold := none, old1 := none, survival := none } :
      global_State).heap
      ({ g1 with reallyold := none, old1 := none, survival := none } : global_State).finobj
      lf := by
    show IsList g1.heap g1.finobj lf
    rw [p1]
    exact isList_congr _ _ hn1 _ _ hL.2.1
  obtain ⟨g3, h3, e3, f3⟩ := whitelist_loop_spec (luaC_white g) lf fuel _ _ l2 hff
  have hn3 := whitened_next _ g3.heap _ lf f3
  have c3 : g3.currentwhite = g.currentwhite := by rw [e3]; exact c1
  have p3 : g3.tobefnz = g.tobefnz := by rw [e3]; exact p2
  have w3 : luaC_white g3 = luaC_white g := by
    unfold luaC_white
    rw [c3]
  have l3 : IsList g3.heap g3.tobefnz lt := by
    rw [p3]
    exact isList_congr _ _ hn3 _ _ (isList_congr _ _ hn1 _ _ hL.2.2.1)
  obtain ⟨g4, h4, e4, f4⟩ := whitelist_loop_spec (luaC_white g) lt fuel g3 g3.tobefnz l3 hft
  refine ⟨{ g4 with
    finobjrold := none, finobjold1 := none, finobjsur := none,
    gcstate := GCSpause, gckind := KGC_INC, lastatomic := 0 }, g4.heap, ?_, ?_, ?_⟩
  · unfold enterinc whitelist
    simp only [h1, Option.bind_eq_bind, Option.some_bind, w2, h3, w3, h4]
  · rw [e4, e3, e1]
  · intro a
    rw [f4 a, f3 a]
    show (if a ∈ lt then Option.map _ (if a ∈ lf then Option.map _ (g1.heap a) else g1.heap a)
      else if a ∈ lf then Option.map _ (g1.heap a) else g1.heap a) = _
    rw [f1 a]
    by_cases ha : a ∈ la
    · have := n5 a ha
      simp only [ha, this.1, this.2.1, if_true, if_false, List.mem_append, true_or]
    · by_cases hf : a ∈ lf
      · have := n6 a hf
        simp only [ha, hf, this.2.1, if_true, if_false, List.mem_append, true_or, or_true]
      · by_cases ht : a ∈ lt
        · simp only [ha, hf, ht, if_true, if_false, List.mem_append, or_true]
        · simp only [ha, hf, ht, if_false, List.mem_append, or_self]

/-- C20. In a state with the lists `la`, `lf`, `lt`, `lx`, each shorter than
the fuel, `enterinc` returns; every object on `allgc`, `finobj` and `tobefnz`
has afterwards the current white, the age `G_NEW` and the `FINALIZEDBIT` it
had, and is otherwise the same; no other object changes; the three lists
have the same members in the same order; `gcstate` is `GCSpause`, `gckind`
is `KGC_INC`, `lastatomic` is 0 and the generational cursors are `NULL`. -/
theorem enterinc_spec (fuel : Nat) (g : global_State) (la lf lt lx : List Addr)
    (hL : Lists g la lf lt lx) (hfa : la.length < fuel) (hff : lf.length < fuel)
    (hft : lt.length < fuel) :
    ∃ g2, enterinc fuel g = some g2 ∧
      Lists g2 la lf lt lx ∧ g2.allgc = g.allgc ∧ g2.finobj = g.finobj ∧
      g2.tobefnz = g.tobefnz ∧
      (∀ a, a ∈ la ++ lf ++ lt → ∃ x x2, g.heap a = some x ∧ g2.heap a = some x2 ∧
        x2 = { x with marked := cast_byte ((x.marked &&& bnot8 maskgcbits) ||| luaC_white g) } ∧
        x2.marked &&& WHITEBITS = luaC_white g2 ∧ getage x2.marked = G_NEW ∧
        isblack x2.marked = false ∧ tofinalize x2.marked = tofinalize x.marked ∧
        (g.currentwhite = bitmask WHITE0BIT ∨ g.currentwhite = bitmask WHITE1BIT →
          x2.marked &&& WHITEBITS = g2.currentwhite ∧ iswhite x2.marked = true ∧
          isdead g2 x2.marked = false)) ∧
      (∀ a, a ∉ la ++ lf ++ lt → g2.heap a = g.heap a) ∧
      g2.gcstate = GCSpause ∧ g2.gckind = KGC_INC ∧ g2.lastatomic = 0 ∧
      g2.reallyold = none ∧ g2.old1 = none ∧ g2.survival = none ∧
      g2.finobjrold = none ∧ g2.finobjold1 = none ∧ g2.finobjsur = none ∧
      g2.currentwhite = g.currentwhite := by
  obtain ⟨g2, hp, h1, e2, hh⟩ := enterinc_detail fuel g la lf lt lx hL hfa hff hft
  subst e2
  refine ⟨_, h1, ?_, rfl, rfl, rfl, ?_, ?_, rfl, rfl, rfl, rfl, rfl, rfl, rfl, rfl, rfl, rfl⟩
  · exact lists_congr g _ la lf lt lx (whitened_next g.heap hp _ _ hh) rfl hL
  · intro a ha
    have hlive : (g.heap a).isSome := (hL.2.2.2.2.2 a).2 (List.mem_append_left _ ha)
    obtain ⟨x, hx⟩ := Option.isSome_iff_exists.1 hlive
    have h2 : hp a = some
        { x with marked := cast_byte ((x.marked &&& bnot8 maskgcbits) ||| luaC_white g) } := by
      rw [hh a, if_pos ha, hx]
      rfl
    obtain ⟨s1, s2, s3, s4⟩ := sweptmark g x.marked
    refine ⟨x, _, hx, h2, rfl, s1, s2, s3, s4, ?_⟩
    intro hcw
    exact sweptmark_live g x.marked hcw
  · intro a ha
    show hp a = _
    rw [hh a, if_neg ha]

/-- C20 at the concrete state `exFin`: after `enterinc` the string 2, which
had the other white, has the current white, the userdata 5 on `finobj` keeps
its `FINALIZEDBIT`, and the lists are the same. -/
theorem enterinc_spec_witness :
    ∃ g2, enterinc 10 exFin = some g2 ∧ Lists g2 [4, 1, 2, 3] [5] [6] [] ∧
      g2.gcstate = GCSpause ∧ g2.gckind = KGC_INC ∧ g2.lastatomic = 0 ∧
      (∃ x2, g2.heap 2 = some x2 ∧ x2.marked = 8) ∧
      (∃ x2, g2.heap 5 = some x2 ∧ x2.marked = 72) := by
  obtain ⟨g2, h1, h2, -, -, -, h6, -, h8, h9, h10, -⟩ :=
    enterinc_spec 10 exFin [4, 1, 2, 3] [5] [6] [] exFin_lists (by decide) (by decide)
      (by decide)
  obtain ⟨x, x2, a1, a2, a3, -⟩ := h6 2 (by decide)
  obtain ⟨y, y2, b1, b2, b3, -⟩ := h6 5 (by decide)
  have ex : x = exObj .LUA_VSHRSTR 16 (some 3) := (Option.some.inj a1).symm
  have ey : y = exObj .LUA_VUSERDATA 72 none := (Option.some.inj b1).symm
  subst ex
  subst ey
  exact ⟨g2, h1, h2, h8, h9, h10, ⟨x2, a2, by rw [a3]; rfl⟩, ⟨y2, b2, by rw [b3]; rfl⟩⟩

theorem l_mem_id (z : Int) (h1 : -(2 ^ 63) ≤ z) (h2 : z < 2 ^ 63) : l_mem z = z := by
  unfold l_mem
  have e : (z + 2 ^ 63) % 2 ^ 64 = z + 2 ^ 63 :=
    Int.emod_eq_of_lt (by omega) (by omega)
  rw [e]
  omega

theorem l_mem_range (z : Int) : -(2 ^ 63) ≤ l_mem z ∧ l_mem z < 2 ^ 63 := by
  unfold l_mem
  have h1 : 0 ≤ (z + 2 ^ 63) % 2 ^ 64 := Int.emod_nonneg _ (by norm_num)
  have h2 : (z + 2 ^ 63) % 2 ^ 64 < 2 ^ 64 := Int.emod_lt_of_pos _ (by norm_num)
  constructor <;> omega

/-- C18, as amended. For every state whose `GCestimate` is a `lu_mem` of at
least 100 and whose byte count `gettotalbytes` fits `l_mem`, `setpause`
calls `luaE_setdebt` with a debt `d` that is never positive and not below
`gettotalbytes - MAX_LMEM`: when `pause < MAX_LMEM / (GCestimate / 100)`,
with integer divisions and `pause = getgcparam gcpause`, the product
`(GCestimate / 100) * pause` does not exceed `MAX_LMEM` and
`d = min 0 (gettotalbytes - (GCestimate / 100) * pause)`; otherwise the
threshold is `MAX_LMEM` and `d = min 0 (gettotalbytes - MAX_LMEM)`. -/
theorem setpause_spec (setdebt : global_State → Int → global_State) (g : global_State)
    (hest : 100 ≤ g.GCestimate) (hlu : g.GCestimate < 2 ^ 64)
    (htb : ((gettotalbytes g : Nat) : Int) ≤ MAX_LMEM) :
    ∃ d : Int, setpause setdebt g = some (setdebt g d) ∧ d ≤ 0 ∧
      ((gettotalbytes g : Nat) : Int) - MAX_LMEM ≤ d ∧
      (((getgcparam g.gcpause : Nat) : Int) <
          Int.tdiv MAX_LMEM ((g.GCestimate / PAUSEADJ : Nat) : Int) →
        ((g.GCestimate / PAUSEADJ : Nat) : Int) * ((getgcparam g.gcpause : Nat) : Int) ≤
          MAX_LMEM ∧
        d = min 0 (((gettotalbytes g : Nat) : Int) -
          ((g.GCestimate / PAUSEADJ : Nat) : Int) * ((getgcparam g.gcpause : Nat) : Int))) ∧
      (¬ ((getgcparam g.gcpause : Nat) : Int) <
          Int.tdiv MAX_LMEM ((g.GCestimate / PAUSEADJ : Nat) : Int) →
        d = min 0 (((gettotalbytes g : Nat) : Int) - MAX_LMEM)) := by
  have hM : MAX_LMEM = 2 ^ 63 - 1 := rfl
  have hP : PAUSEADJ = 100 := rfl
  have he1 : (1 : Int) ≤ ((g.GCestimate / PAUSEADJ : Nat) : Int) := by
    rw [hP]
    omega
  have he2 : ((g.GCestimate / PAUSEADJ : Nat) : Int) < 2 ^ 63 := by
    rw [hP]
    omega
  have hle : l_mem ((g.GCestimate / PAUSEADJ : Nat) : Int) =
      ((g.GCestimate / PAUSEADJ : Nat) : Int) := l_mem_id _ (by omega) he2
  have htb0 : (0 : Int) ≤ ((gettotalbytes g : Nat) : Int) := Int.ofNat_nonneg _
  have hp0 : (0 : Int) ≤ ((getgcparam g.gcpause : Nat) : Int) := Int.ofNat_nonneg _
  unfold setpause
  simp only [hle]
  rw [if_neg (by omega)]
  by_cases hg : ((getgcparam g.gcpause : Nat) : Int) <
      Int.tdiv MAX_LMEM ((g.GCestimate / PAUSEADJ : Nat) : Int)
  · have hmul : ((g.GCestimate / PAUSEADJ : Nat) : Int) * ((getgcparam g.gcpause : Nat) : Int)
        ≤ MAX_LMEM := by
      rw [Int.tdiv_eq_ediv (by rw [hM]; norm_num) (by omega)] at hg
      have h1 : ((getgcparam g.gcpause : Nat) : Int) ≤
          MAX_LMEM / ((g.GCestimate / PAUSEADJ : Nat) : Int) := le_of_lt hg
      have h2 := (Int.le_ediv_iff_mul_le (by omega)).1 h1
      rw [Int.mul_comm]
      exact h2
    have hmul0 : (0 : Int) ≤
        ((g.GCestimate / PAUSEADJ : Nat) : Int) * ((getgcparam g.gcpause : Nat) : Int) :=
      Int.mul_nonneg (by omega) hp0
    rw [if_pos hg]
    generalize ((g.GCestimate / PAUSEADJ : Nat) : Int) * ((getgcparam g.gcpause : Nat) : Int)
      = P at hmul hmul0 ⊢
    rw [l_mem_id P (by omega) (by omega)]
    rw [l_mem_id (((gettotalbytes g : Nat) : Int) - P) (by omega) (by omega)]
    refine ⟨_, rfl, ?_, ?_, ?_, ?_⟩
    · split <;> omega
    · split <;> omega
    · intro _
      refine ⟨hmul, ?_⟩
      split <;> omega
    · intro h
      exact absurd hg h
  · rw [if_neg hg]
    rw [l_mem_id (((gettotalbytes g : Nat) : Int) - MAX_LMEM) (by omega) (by omega)]
    refine ⟨_, rfl, ?_, ?_, ?_, ?_⟩
    · split <;> omega
    · split <;> omega
    · intro h
      exact absurd h hg
    · intro _
      split <;> omega

/-- C18 at the concrete state `exStep2`, with 1000 bytes in use, an estimate
of 1000 bytes and a pause of 200: the debt set is `1000 - 10 * 200`. -/
theorem setpause_spec_witness :
    setpause exSetdebt exStep2 = some (exSetdebt exStep2 (-1000)) := by
  obtain ⟨d, h1, -, -, h4, -⟩ :=
    setpause_spec exSetdebt exStep2 (by decide) (by decide) (by decide)
  have hd : d = -1000 := by
    rw [(h4 (by decide)).2]
    decide
  rw [h1, hd]

/-- C18 as stated fails at the state `exPause`: the estimate is at least
100 and `(GCestimate / 100) * pause = 9223372036854775680` does not exceed
`MAX_LMEM`, yet `pause = 1020` is not below `MAX_LMEM / (GCestimate / 100)`,
so the threshold is `MAX_LMEM` and the debt set is `1000 - MAX_LMEM`, not
`1000 - 9223372036854775680`.  It also fails at `exPauseBig`, whose byte
count `2^64 - 1` does not fit `l_mem`: the debt set is `-201`, not 0. -/
theorem setpause_counterexample :
    (100 ≤ exPause.GCestimate ∧
      ((exPause.GCestimate / PAUSEADJ : Nat) : Int) *
        ((getgcparam exPause.gcpause : Nat) : Int) ≤ MAX_LMEM ∧
      setpause exSetdebt exPause = some (exSetdebt exPause (1000 - MAX_LMEM)) ∧
      (exSetdebt exPause (1000 - MAX_LMEM)).GCdebt ≠
        min 0 (((gettotalbytes exPause : Nat) : Int) -
          ((exPause.GCestimate / PAUSEADJ : Nat) : Int) *
            ((getgcparam exPause.gcpause : Nat) : Int))) ∧
    (100 ≤ exPauseBig.GCestimate ∧
      ((exPauseBig.GCestimate / PAUSEADJ : Nat) : Int) *
        ((getgcparam exPauseBig.gcpause : Nat) : Int) ≤ MAX_LMEM ∧
      setpause exSetdebt exPauseBig = some (exSetdebt exPauseBig (-201)) ∧
      (exSetdebt exPauseBig (-201)).GCdebt ≠
        min 0 (((gettotalbytes exPauseBig : Nat) : Int) -
          ((exPauseBig.GCestimate / PAUSEADJ : Nat) : Int) *
            ((getgcparam exPauseBig.gcpause : Nat) : Int))) := by
  refine ⟨⟨by decide, by decide, rfl, by decide⟩, ⟨by decide, by decide, rfl, by decide⟩⟩

theorem or_one_odd (x : Nat) : (x ||| 1) % 2 = 1 := by
  have h : (x ||| 1).testBit 0 = true := by simp [Nat.testBit_or]
  rw [Nat.testBit_zero] at h
  exact of_decide_eq_true h

theorem fold_nowrap : ∀ (ws : List Nat) (d : Int), d < 2 ^ 63 →
    -(2 ^ 63) ≤ d - ((ws.sum : Nat) : Int) →
    ws.foldl (fun a w => l_mem (a - ((w : Nat) : Int))) d = d - ((ws.sum : Nat) : Int) := by
  intro ws
  induction ws with
  | nil =>
    intro d _ _
    simp
  | cons w t ih =>
    intro d h1 h2
    simp only [List.sum_cons, Nat.cast_add] at h2
    have e : l_mem (d - ((w : Nat) : Int)) = d - ((w : Nat) : Int) :=
      l_mem_id _ (by omega) (by omega)
    rw [List.foldl_cons, e, ih _ (by omega) (by omega)]
    simp only [List.sum_cons, Nat.cast_add]
    omega

/-- The loop of `incstep` makes at least one single step, and when it
returns the state is a pause or the debt is not above `-stepsize`. -/
theorem incstep_loop_spec (env : Env) (fuelS : Nat) (L : Addr) (stepsize : Int) (fuel : Nat) :
    ∀ (g : global_State) (d : Int) (g1 : global_State) (d1 : Int),
      incstep_loop env fuelS L stepsize fuel g d = some (g1, d1) →
      ∃ ws, ws ≠ [] ∧ Steps env fuelS L g ws g1 ∧
        d1 = ws.foldl (fun a w => l_mem (a - ((w : Nat) : Int))) d ∧
        (g1.gcstate = GCSpause ∨ d1 ≤ -stepsize) := by
  induction fuel with
  | zero =>
    intro g d g1 d1 h
    simp [incstep_loop] at h
  | succ fuel ih =>
    intro g d g1 d1 h
    rw [incstep_loop] at h
    simp only [Option.bind_eq_bind, Option.bind_eq_some] at h
    obtain ⟨⟨gm, w⟩, hs, h⟩ := h
    dsimp only at h
    split at h
    · obtain ⟨ws, k1, k2, k3, k4⟩ := ih gm _ g1 d1 h
      exact ⟨w :: ws, by simp, ⟨gm, hs, k2⟩, by rw [k3]; rfl, k4⟩
    · rename_i hc
      simp only [Option.some.injEq, Prod.mk.injEq] at h
      obtain ⟨rfl, rfl⟩ := h
      refine ⟨[w], by simp, ⟨gm, hs, rfl⟩, rfl, ?_⟩
      by_cases hp : gm.gcstate = GCSpause
      · exact Or.inl hp
      · right
        have : ¬ l_mem (d - ((w : Nat) : Int)) > -stepsize := fun h2 => hc ⟨h2, hp⟩
        omega

theorem tdiv_bound (d s A : Int) (hs : 1 ≤ s) (hA : 0 ≤ A) (hd : d ≤ -(A * s)) :
    Int.tdiv d s ≤ -A := by
  have h1 : d = -(-d) := by omega
  rw [h1, Int.neg_tdiv, Int.tdiv_eq_ediv (by nlinarith) (by omega)]
  have h2 : A ≤ -d / s := (Int.le_ediv_iff_mul_le (by omega)).2 (by omega)
  omega

/-- C19, as amended. When `incstep` returns, it has made the single steps of
a non-empty list of works `ws`, and with `d` the debt in units of work, which
starts at `incstep_debt` and decreases by the work of each step in the
arithmetic of `l_mem`: either the state is a pause and the result is that of
`setpause`, or `d <= -stepsize` and `luaE_setdebt` is called with
`(d / stepmul) * WORK2MEM`.  Here `stepmul = getgcparam gcstepmul | 1` is odd,
hence never 0; the step size is `MAX_LMEM` when `gcstepsize` is above 62, and
`(2^gcstepsize / WORK2MEM) * stepmul` when `gcstepsize` is at most 62 and that
product fits `l_mem`; the starting debt is `(GCdebt / WORK2MEM) * stepmul`
when `GCdebt` is not negative and the product fits `l_mem`; `d` is the
starting debt less the sum of the works when that difference fits `l_mem`;
and in the second case, when the debt set fits `l_mem`, it is at most
`-(2^gcstepsize / WORK2MEM) * WORK2MEM`. -/
theorem incstep_spec (env : Env) (setdebt : global_State → Int → global_State)
    (fuelS fuel : Nat) (g : global_State) (L : Addr) (g2 : global_State)
    (hrun : incstep env setdebt fuelS fuel g L = some g2) :
    ∃ (ws : List Nat) (g1 : global_State) (d : Int), ws ≠ [] ∧ Steps env fuelS L g ws g1 ∧
      d = ws.foldl (fun a w => l_mem (a - ((w : Nat) : Int))) (incstep_debt g) ∧
      (g1.gcstate = GCSpause → setpause setdebt g1 = some g2) ∧
      (g1.gcstate ≠ GCSpause → d ≤ -(incstep_stepsize g) ∧
        g2 = setdebt g1 (l_mem (Int.tdiv d ((getgcparam g.gcstepmul ||| 1 : Nat) : Int) *
          ((WORK2MEM : Nat) : Int)))) ∧
      (getgcparam g.gcstepmul ||| 1) % 2 = 1 ∧
      (0 ≤ g.GCdebt → g.GCdebt < 2 ^ 63 →
        g.GCdebt / ((WORK2MEM : Nat) : Int) * ((getgcparam g.gcstepmul ||| 1 : Nat) : Int) ≤
          MAX_LMEM →
        incstep_debt g =
          g.GCdebt / ((WORK2MEM : Nat) : Int) * ((getgcparam g.gcstepmul ||| 1 : Nat) : Int)) ∧
      (g.gcstepsize ≤ 62 →
        ((2 ^ g.gcstepsize / WORK2MEM : Nat) : Int) *
          ((getgcparam g.gcstepmul ||| 1 : Nat) : Int) ≤ MAX_LMEM →
        incstep_stepsize g = ((2 ^ g.gcstepsize / WORK2MEM : Nat) : Int) *
          ((getgcparam g.gcstepmul ||| 1 : Nat) : Int)) ∧
      (62 < g.gcstepsize → incstep_stepsize g = MAX_LMEM) ∧
      (-(2 ^ 63) ≤ incstep_debt g - ((ws.sum : Nat) : Int) →
        d = incstep_debt g - ((ws.sum : Nat) : Int)) ∧
      (g1.gcstate ≠ GCSpause → g.gcstepsize ≤ 62 →
        ((2 ^ g.gcstepsize / WORK2MEM : Nat) : Int) *
          ((getgcparam g.gcstepmul ||| 1 : Nat) : Int) ≤ MAX_LMEM →
        -(2 ^ 63) ≤ Int.tdiv d ((getgcparam g.gcstepmul ||| 1 : Nat) : Int) *
          ((WORK2MEM : Nat) : Int) →
        l_mem (Int.tdiv d ((getgcparam g.gcstepmul ||| 1 : Nat) : Int) *
            ((WORK2MEM : Nat) : Int)) ≤
          -(((2 ^ g.gcstepsize / WORK2MEM : Nat) : Int) * ((WORK2MEM : Nat) : Int))) := by
  have hM : MAX_LMEM = 2 ^ 63 - 1 := rfl
  have hW : ((WORK2MEM : Nat) : Int) = 16 := rfl
  have hodd := or_one_odd (getgcparam g.gcstepmul)
  have hs1 : (1 : Int) ≤ ((getgcparam g.gcstepmul ||| 1 : Nat) : Int) := by omega
  have hsz : g.gcstepsize ≤ 62 →
      ((2 ^ g.gcstepsize / WORK2MEM : Nat) : Int) *
        ((getgcparam g.gcstepmul ||| 1 : Nat) : Int) ≤ MAX_LMEM →
      incstep_stepsize g = ((2 ^ g.gcstepsize / WORK2MEM : Nat) : Int) *
        ((getgcparam g.gcstepmul ||| 1 : Nat) : Int) := by
    intro hn hle
    unfold incstep_stepsize
    rw [if_pos (show g.gcstepsize ≤ log2maxs_l_mem from hn), Nat.one_shiftLeft]
    have h0 : (0 : Int) ≤ ((2 ^ g.gcstepsize / WORK2MEM : Nat) : Int) *
        ((getgcparam g.gcstepmul ||| 1 : Nat) : Int) :=
      Int.mul_nonneg (Int.ofNat_nonneg _) (by omega)
    exact l_mem_id _ (by omega) (by omega)
  unfold incstep at hrun
  simp only [Option.bind_eq_bind, Option.bind_eq_some] at hrun
  obtain ⟨⟨g1, d⟩, hloop, hrun⟩ := hrun
  dsimp only at hrun
  obtain ⟨ws, k1, k2, k3, k4⟩ := incstep_loop_spec env fuelS L _ fuel g _ g1 d hloop
  have hdr : -(2 ^ 63) ≤ incstep_debt g ∧ incstep_debt g < 2 ^ 63 := by
    unfold incstep_debt
    exact l_mem_range _
  refine ⟨ws, g1, d, k1, k2, k3, ?_, ?_, hodd, ?_, hsz, ?_, ?_, ?_⟩
  · intro hp
    rw [if_pos hp] at hrun
    exact hrun
  · intro hp
    rw [if_neg hp] at hrun
    rcases k4 with k4 | k4
    · exact absurd k4 hp
    · exact ⟨k4, (Option.some.inj hrun).symm⟩
  · intro h0 h1 hle
    unfold incstep_debt lu_mem
    have e1 : g.GCdebt % 2 ^ 64 = g.GCdebt := Int.emod_eq_of_lt h0 (by omega)
    have e2 : (((g.GCdebt % 2 ^ 64).toNat / WORK2MEM : Nat) : Int) =
        g.GCdebt / ((WORK2MEM : Nat) : Int) := by
      rw [e1, hW]
      have : WORK2MEM = 16 := rfl
      rw [this]
      omega
    rw [e2]
    have h0b : (0 : Int) ≤ g.GCdebt / ((WORK2MEM : Nat) : Int) *
        ((getgcparam g.gcstepmul ||| 1 : Nat) : Int) :=
      Int.mul_nonneg (Int.ediv_nonneg h0 (by rw [hW]; norm_num)) (by omega)
    exact l_mem_id _ (by omega) (by omega)
  · intro hn
    unfold incstep_stepsize
    rw [if_neg (show ¬ g.gcstepsize ≤ log2maxs_l_mem by unfold log2maxs_l_mem; omega)]
  · intro hnw
    rw [k3]
    exact fold_nowrap ws _ hdr.2 hnw
  · intro hp hn hle hfit
    rcases k4 with k4 | k4
    · exact absurd k4 hp
    · rw [hsz hn hle] at k4
      have hb := tdiv_bound d _ _ hs1 (Int.ofNat_nonneg (2 ^ g.gcstepsize / WORK2MEM)) k4
      have hd1 : d ≤ 0 := by
        have : (0 : Int) ≤ ((2 ^ g.gcstepsize / WORK2MEM : Nat) : Int) *
            ((getgcparam g.gcstepmul ||| 1 : Nat) : Int) :=
          Int.mul_nonneg (Int.ofNat_nonneg _) (by omega)
        omega
      have hA0 : (0 : Int) ≤ ((2 ^ g.gcstepsize / WORK2MEM : Nat) : Int) := Int.ofNat_nonneg _
      rw [hW] at hfit ⊢
      rw [l_mem_id _ hfit (by omega)]
      omega

/-- C19 at the concrete state `exStep2`, with the default parameters: the
step returns, after at least one single step, and the step size is
`(2^13 / 16) * 101` units of work. -/
theorem incstep_spec_witness :
    ∃ g2 ws g1, incstep exEnv exSetdebt 5 5 exStep2 1 = some g2 ∧ ws ≠ [] ∧
      Steps exEnv 5 1 exStep2 ws g1 ∧
      (g1.gcstate = GCSpause → setpause exSetdebt g1 = some g2) ∧
      incstep_stepsize exStep2 = 512 * 101 ∧ incstep_debt exStep2 = 0 := by
  have h : (incstep exEnv exSetdebt 5 5 exStep2 1).isSome = true := by rfl
  obtain ⟨g2, hg2⟩ := Option.isSome_iff_exists.1 h
  obtain ⟨ws, g1, d, h1, h2, -, h4, -, -, h7, h8, -⟩ :=
    incstep_spec exEnv exSetdebt 5 5 exStep2 1 g2 hg2
  exact ⟨g2, ws, g1, hg2, h1, h2, h4, h8 (by decide) (by decide),
    h7 (by decide) (by decide) (by decide)⟩

/-- C19 as stated fails at the state `exStep`, with `gcstepsize = 62` and a
step multiplier of 33: the product `(2^62 / 16) * 33` does not fit `l_mem`,
and `incstep` returns after one single step of work 0, in the state
`GCScallfin`, which is not a pause, with the debt `d = 0`, which is above
`-(2^62 / 16) * 33`; the debt it sets is 0, which is above
`-(2^62 / 16) * 16`.  And with `gcstepsize = 63` the step size of the code
is `MAX_LMEM`, not `(2^63 / 16) * stepmul`. -/
theorem incstep_counterexample :
    incstep exEnv exSetdebt 5 5 exStep 1 =
      some (exSetdebt { exStep with gcstate := GCScallfin } 0) ∧
    singlestep exEnv 5 exStep 1 = some ({ exStep with gcstate := GCScallfin }, 0) ∧
    ({ exStep with gcstate := GCScallfin } : global_State).gcstate ≠ GCSpause ∧
    ¬ (exStep.GCdebt / ((WORK2MEM : Nat) : Int) *
        ((getgcparam exStep.gcstepmul ||| 1 : Nat) : Int) - 0 ≤
      -(((2 ^ exStep.gcstepsize / WORK2MEM : Nat) : Int) *
        ((getgcparam exStep.gcstepmul ||| 1 : Nat) : Int))) ∧
    ¬ ((exSetdebt { exStep with gcstate := GCScallfin } 0).GCdebt ≤
      -(((2 ^ exStep.gcstepsize / WORK2MEM : Nat) : Int) * ((WORK2MEM : Nat) : Int))) ∧
    incstep_stepsize { exStep with gcstepsize := 63 } = MAX_LMEM ∧
    MAX_LMEM ≠ ((2 ^ 63 / WORK2MEM : Nat) : Int) *
      ((getgcparam exStep.gcstepmul ||| 1 : Nat) : Int) := by
  refine ⟨rfl, rfl, by decide, by decide, by decide, rfl, by decide⟩

/-! ### C14: marking only clears white bits and keeps the lists -/

theorem fades_refl (x : GCObject) : fades x x := ⟨rfl, rfl, fun h => h, fun h => h⟩

theorem fades_trans (x y z : GCObject) (h1 : fades x y) (h2 : fades y z) : fades x z :=
  ⟨h2.1.trans h1.1, h2.2.1.trans h1.2.1, fun h => h2.2.2.1 (h1.2.2.1 h),
    fun h => h2.2.2.2 (h1.2.2.2 h)⟩

theorem fade_refl (h : Heap) : Fade h h := fun _ => ⟨fun e => e, fun x e => ⟨x, e, fades_refl x⟩⟩

theorem fade_trans (h1 h2 h3 : Heap) (h12 : Fade h1 h2) (h23 : Fade h2 h3) : Fade h1 h3 := by
  intro a
  refine ⟨fun e => (h23 a).1 ((h12 a).1 e), ?_⟩
  intro x e
  obtain ⟨y, hy, f1⟩ := (h12 a).2 x e
  obtain ⟨z, hz, f2⟩ := (h23 a).2 y hy
  exact ⟨z, hz, fades_trans _ _ _ f1 f2⟩

theorem fadeS_refl (g : global_State) : FadeS g g := ⟨rfl, fade_refl _⟩

theorem fadeS_trans (g1 g2 g3 : global_State) (h12 : FadeS g1 g2) (h23 : FadeS g2 g3) :
    FadeS g1 g3 :=
  ⟨h23.1.trans h12.1, fade_trans _ _ _ h12.2 h23.2⟩

theorem fade_set (h : Heap) (a : Addr) (x y : GCObject) (hx : h a = some x) (hf : fades x y) :
    Fade h (Heap.set h a y) := by
  intro b
  by_cases hb : b = a
  · subst hb
    refine ⟨(fun e => by rw [hx] at e; cases e), ?_⟩
    intro z hz
    rw [hx] at hz
    cases hz
    exact ⟨y, heap_set_same _ _ _, hf⟩
  · rw [heap_set_ne _ _ _ _ hb]
    exact ⟨fun e => e, fun z hz => ⟨z, hz, fades_refl z⟩⟩

theorem fadeS_setobj (g : global_State) (a : Addr) (x y : GCObject) (hx : g.heap a = some x)
    (hf : fades x y) : FadeS g (g.setobj a y) :=
  ⟨rfl, fade_set g.heap a x y hx hf⟩

theorem fadeS_setlist (g : global_State) (l : GrayList) (v : Option Addr) :
    FadeS g (g.setlist l v) := by
  cases l <;> exact ⟨rfl, fade_refl _⟩

theorem set2gray_white (m : Nat) :
    set2gray m &&& bitmask WHITE0BIT = 0 ∧ set2gray m &&& bitmask WHITE1BIT = 0 := by
  unfold set2gray resetbits
  rw [Nat.and_assoc, Nat.and_assoc]
  have h1 : cast_byte (bnot8 maskcolors) &&& bitmask WHITE0BIT = 0 := by decide
  have h2 : cast_byte (bnot8 maskcolors) &&& bitmask WHITE1BIT = 0 := by decide
  rw [h1, h2]
  exact ⟨Nat.and_zero _, Nat.and_zero _⟩

set_option maxRecDepth 1000000 in
theorem set2black_white_byte : ∀ m : Nat, m < 256 →
    set2black m &&& bitmask WHITE0BIT = 0 ∧ set2black m &&& bitmask WHITE1BIT = 0 := by
  decide

theorem set2black_white (m : Nat) :
    set2black m &&& bitmask WHITE0BIT = 0 ∧ set2black m &&& bitmask WHITE1BIT = 0 := by
  rw [set2black_mod]
  exact set2black_white_byte _ (Nat.mod_lt _ (by decide))

theorem nw2black_white (m : Nat) :
    nw2black m &&& bitmask WHITE0BIT = m &&& bitmask WHITE0BIT ∧
    nw2black m &&& bitmask WHITE1BIT = m &&& bitmask WHITE1BIT := by
  unfold nw2black l_setbit setbits
  rw [Nat.and_distrib_right, Nat.and_distrib_right]
  have h1 : bitmask BLACKBIT &&& bitmask WHITE0BIT = 0 := by decide
  have h2 : bitmask BLACKBIT &&& bitmask WHITE1BIT = 0 := by decide
  rw [h1, h2]
  exact ⟨Nat.or_zero _, Nat.or_zero _⟩

theorem changeage_white (m f t : Nat) (hf : f < 8) (ht : t < 8) :
    changeage m f t &&& bitmask WHITE0BIT = m &&& bitmask WHITE0BIT ∧
    changeage m f t &&& bitmask WHITE1BIT = m &&& bitmask WHITE1BIT := by
  unfold changeage
  have h1 : ∀ f : Nat, f < 8 → ∀ t : Nat, t < 8 → (f ^^^ t) &&& bitmask WHITE0BIT = 0 := by
    decide
  have h2 : ∀ f : Nat, f < 8 → ∀ t : Nat, t < 8 → (f ^^^ t) &&& bitmask WHITE1BIT = 0 := by
    decide
  constructor
  · rw [Nat.and_xor_distrib_right, h1 f hf t ht, Nat.xor_zero]
  · rw [Nat.and_xor_distrib_right, h2 f hf t ht, Nat.xor_zero]

theorem fades_mark (x : GCObject) (m : Nat)
    (h0 : x.marked &&& bitmask WHITE0BIT = 0 → m &&& bitmask WHITE0BIT = 0)
    (h1 : x.marked &&& bitmask WHITE1BIT = 0 → m &&& bitmask WHITE1BIT = 0) :
    fades x { x with marked := m } := ⟨rfl, rfl, h0, h1⟩

theorem fades_gray (x : GCObject) : fades x { x with marked := set2gray x.marked } :=
  fades_mark x _ (fun _ => (set2gray_white _).1) (fun _ => (set2gray_white _).2)

theorem fades_black (x : GCObject) : fades x { x with marked := set2black x.marked } :=
  fades_mark x _ (fun _ => (set2black_white _).1) (fun _ => (set2black_white _).2)

theorem fades_nw2black (x : GCObject) : fades x { x with marked := nw2black x.marked } :=
  fades_mark x _ (fun h => by rw [(nw2black_white _).1]; exact h)
    (fun h => by rw [(nw2black_white _).2]; exact h)

theorem linkgclist__fade (g g2 : global_State) (o : Addr) (pn : Option Addr) (l : GrayList)
    (h : linkgclist_ g o pn l = some g2) : FadeS g g2 := by
  unfold linkgclist_ at h
  simp only [Option.bind_eq_bind, Option.bind_eq_some] at h
  obtain ⟨a, -, x, hx, y, hy, h⟩ := h
  cases h
  have f1 : FadeS g (g.setobj a { x with gclist := g.getlist l }) :=
    fadeS_setobj g a x _ hx ⟨rfl, rfl, fun h => h, fun h => h⟩
  have f2 := fadeS_setlist (g.setobj a { x with gclist := g.getlist l }) l (some o)
  exact fadeS_trans _ _ _ (fadeS_trans _ _ _ f1 f2) (fadeS_setobj _ o y _ hy (fades_gray y))

theorem linkobjgclist_fade (g g2 : global_State) (o : Addr) (l : GrayList)
    (h : linkobjgclist g o l = some g2) : FadeS g g2 := by
  unfold linkobjgclist at h
  simp only [Option.bind_eq_bind, Option.bind_eq_some] at h
  obtain ⟨x, -, h⟩ := h
  exact linkgclist__fade _ _ _ _ _ h

theorem markobject_with_fade (mark : global_State → Addr → Option global_State)
    (hmark : ∀ g o g2, mark g o = some g2 → FadeS g g2)
    (g g2 : global_State) (t : Addr) (h : markobject_with mark g t = some g2) :
    FadeS g g2 := by
  unfold markobject_with at h
  simp only [Option.bind_eq_bind, Option.bind_eq_some] at h
  obtain ⟨x, -, h⟩ := h
  split at h
  · exact hmark _ _ _ h
  · cases h
    exact fadeS_refl _

theorem fades_same (x y : GCObject) (h1 : y.next = x.next) (h2 : y.tt = x.tt)
    (h3 : y.marked = x.marked) : fades x y :=
  ⟨h1, h2, fun e => by rw [h3]; exact e, fun e => by rw [h3]; exact e⟩

set_option maxRecDepth 1000000 in
theorem iswhite_bits_byte : ∀ m : Nat, m < 256 →
    (iswhite m = false ↔ (m &&& bitmask WHITE0BIT = 0 ∧ m &&& bitmask WHITE1BIT = 0)) := by
  decide

theorem iswhite_bits (m : Nat) :
    iswhite m = false ↔ (m &&& bitmask WHITE0BIT = 0 ∧ m &&& bitmask WHITE1BIT = 0) := by
  rw [iswhite_mod, and_byte m (bitmask WHITE0BIT) (by decide),
    and_byte m (bitmask WHITE1BIT) (by decide)]
  exact iswhite_bits_byte _ (Nat.mod_lt _ (by decide))

theorem fades_nonwhite (x x2 : GCObject) (hf : fades x x2) (hw : iswhite x.marked = false) :
    iswhite x2.marked = false := by
  rw [iswhite_bits] at hw ⊢
  exact ⟨hf.2.2.1 hw.1, hf.2.2.2 hw.2⟩

theorem fade_nonwhite (h h2 : Heap) (hf : Fade h h2) (a : Addr) (x : GCObject)
    (hx : h a = some x) (hw : iswhite x.marked = false) :
    ∃ x2, h2 a = some x2 ∧ iswhite x2.marked = false := by
  obtain ⟨x2, e, f⟩ := (hf a).2 x hx
  exact ⟨x2, e, fades_nonwhite _ _ f hw⟩

theorem markrec_fade (fuel : Nat) : ∀ (g : global_State) (o : Addr) (g2 : global_State),
    markrec fuel g o = some g2 → FadeS g g2 := by
  induction fuel with
  | zero => intro g o g2 h; simp [markrec] at h
  | succ n ih =>
    intro g o g2 h
    rw [markrec] at h
    simp only [Option.bind_eq_bind, Option.bind_eq_some] at h
    obtain ⟨x, hx, h⟩ := h
    split at h
    · cases h
      exact fadeS_setobj _ _ _ _ hx (fades_black x)
    · cases h
      exact fadeS_setobj _ _ _ _ hx (fades_black x)
    · have f1 : FadeS g (g.setobj o
          { x with marked := if upisopen x then set2gray x.marked else set2black x.marked }) := by
        refine fadeS_setobj _ _ _ _ hx ?_
        split
        · exact fades_gray x
        · exact fades_black x
      split at h
      · cases h
      · exact fadeS_trans _ _ _ f1 (markobject_with_fade _ ih _ _ _ h)
      · cases h
        exact f1
    · split at h
      · split at h
        · simp only [Option.some_bind, Option.bind_eq_some] at h
          obtain ⟨y, hy, h⟩ := h
          cases h
          exact fadeS_setobj _ _ _ _ hy (fades_black y)
        · simp only [Option.bind_eq_some] at h
          obtain ⟨g1, h1, y, hy, h⟩ := h
          cases h
          exact fadeS_trans _ _ _ (markobject_with_fade _ ih _ _ _ h1)
            (fadeS_setobj _ _ _ _ hy (fades_black y))
      · exact linkobjgclist_fade _ _ _ _ h
    · exact linkobjgclist_fade _ _ _ _ h

theorem reallymarkobject_fade (g : global_State) (o : Addr) (g2 : global_State)
    (h : reallymarkobject g o = some g2) : FadeS g g2 :=
  markrec_fade 3 g o g2 h

theorem markobject_fade (g : global_State) (t : Addr) (g2 : global_State)
    (h : markobject g t = some g2) : FadeS g g2 :=
  markobject_with_fade _ reallymarkobject_fade g g2 t h

theorem markvalue_fade (g : global_State) (v : TValue) (g2 : global_State)
    (h : markvalue g v = some g2) : FadeS g g2 := by
  unfold markvalue at h
  split at h
  · exact markobject_fade _ _ _ h
  · cases h
    exact fadeS_refl _

theorem markkey_fade (g : global_State) (n : Node) (g2 : global_State)
    (h : markkey g n = some g2) : FadeS g g2 := by
  unfold markkey at h
  split at h
  · exact markobject_fade _ _ _ h
  · cases h
    exact fadeS_refl _

theorem markobjectN_fade (g : global_State) (t : Option Addr) (g2 : global_State)
    (h : markobjectN g t = some g2) : FadeS g g2 := by
  unfold markobjectN at h
  split at h
  · cases h
    exact fadeS_refl _
  · exact markobject_fade _ _ _ h

theorem iscleared_fade (g : global_State) (o : Option Addr) (g2 : global_State) (b : Bool)
    (h : iscleared g o = some (g2, b)) : FadeS g g2 := by
  unfold iscleared at h
  split at h
  · cases h
    exact fadeS_refl _
  · simp only [Option.bind_eq_bind, Option.bind_eq_some] at h
    obtain ⟨x, -, h⟩ := h
    split at h
    · simp only [Option.bind_eq_some] at h
      obtain ⟨g1, h1, h⟩ := h
      cases h
      exact markobject_fade _ _ _ h1
    · cases h
      exact fadeS_refl _

theorem linkgclist_fade (g g2 : global_State) (o : Addr) (l : GrayList)
    (h : linkgclist g o l = some g2) : FadeS g g2 :=
  linkgclist__fade _ _ _ _ _ h

theorem genlink_fade (g : global_State) (o : Addr) (g2 : global_State)
    (h : genlink g o = some g2) : FadeS g g2 := by
  unfold genlink at h
  simp only [Option.bind_eq_bind, Option.bind_eq_some] at h
  obtain ⟨x, hx, h⟩ := h
  split at h
  · exact linkobjgclist_fade _ _ _ _ h
  · split at h
    · cases h
      refine fadeS_setobj _ _ _ _ hx (fades_mark x _ ?_ ?_)
      · intro e
        rw [(changeage_white _ _ _ (by decide) (by decide)).1]
        exact e
      · intro e
        rw [(changeage_white _ _ _ (by decide) (by decide)).2]
        exact e
    · cases h
      exact fadeS_refl _

theorem markvalues_fade (l : List TValue) : ∀ (g g2 : global_State),
    markvalues l g = some g2 → FadeS g g2 := by
  induction l with
  | nil => intro g g2 h; cases h; exact fadeS_refl _
  | cons x rest ih =>
    intro g g2 h
    rw [markvalues] at h
    simp only [Option.bind_eq_bind, Option.bind_eq_some] at h
    obtain ⟨g1, h1, h⟩ := h
    exact fadeS_trans _ _ _ (markvalue_fade _ _ _ h1) (ih _ _ h)

theorem markobjectsN_fade (l : List (Option Addr)) : ∀ (g g2 : global_State),
    markobjectsN l g = some g2 → FadeS g g2 := by
  induction l with
  | nil => intro g g2 h; cases h; exact fadeS_refl _
  | cons x rest ih =>
    intro g g2 h
    rw [markobjectsN] at h
    simp only [Option.bind_eq_bind, Option.bind_eq_some] at h
    obtain ⟨g1, h1, h⟩ := h
    exact fadeS_trans _ _ _ (markobjectN_fade _ _ _ h1) (ih _ _ h)

theorem traverseweakvalue_loop_fade (h : Addr) (n : Nat) : ∀ (i : Nat) (g : global_State)
    (c : Bool) (g2 : global_State) (c2 : Bool),
    traverseweakvalue_loop h n i g c = some (g2, c2) → FadeS g g2 := by
  induction n with
  | zero => intro i g c g2 c2 hr; cases hr; exact fadeS_refl _
  | succ n ih =>
    intro i g c g2 c2 hr
    rw [traverseweakvalue_loop] at hr
    simp only [Option.bind_eq_bind, Option.bind_eq_some] at hr
    obtain ⟨t, ht, nd, -, hr⟩ := hr
    split at hr
    · have e := ih _ _ _ _ _ hr
      refine fadeS_trans _ _ _ ?_ e
      exact fadeS_setobj _ _ _ _ ht (fades_same _ _ rfl rfl rfl)
    · simp only [Option.bind_eq_some] at hr
      obtain ⟨g1, h1, hr⟩ := hr
      split at hr
      · simp only [Option.bind_eq_some] at hr
        obtain ⟨⟨g3, c3⟩, h3, hr⟩ := hr
        exact fadeS_trans _ _ _ (fadeS_trans _ _ _ (markkey_fade _ _ _ h1)
          (iscleared_fade _ _ _ _ h3)) (ih _ _ _ _ _ hr)
      · exact fadeS_trans _ _ _ (markkey_fade _ _ _ h1) (ih _ _ _ _ _ hr)

theorem traverseweakvalue_fade (g : global_State) (h : Addr) (g2 : global_State)
    (hr : traverseweakvalue g h = some g2) : FadeS g g2 := by
  unfold traverseweakvalue at hr
  simp only [Option.bind_eq_bind, Option.bind_eq_some] at hr
  obtain ⟨t, -, ⟨g1, c⟩, h1, hr⟩ := hr
  have e1 := traverseweakvalue_loop_fade _ _ _ _ _ _ _ h1
  split at hr
  · exact fadeS_trans _ _ _ e1 (linkgclist_fade _ _ _ _ hr)
  · exact fadeS_trans _ _ _ e1 (linkgclist_fade _ _ _ _ hr)

theorem traverseephemeron_array_fade (l : List TValue) : ∀ (g : global_State) (m : Bool)
    (g2 : global_State) (m2 : Bool),
    traverseephemeron_array l g m = some (g2, m2) → FadeS g g2 := by
  induction l with
  | nil => intro g m g2 m2 h; cases h; exact fadeS_refl _
  | cons x rest ih =>
    intro g m g2 m2 h
    rw [traverseephemeron_array] at h
    simp only [Option.bind_eq_bind, Option.bind_eq_some] at h
    obtain ⟨w, -, h⟩ := h
    split at h
    · simp only [Option.bind_eq_some] at h
      obtain ⟨r, -, g1, h1, h⟩ := h
      exact fadeS_trans _ _ _ (reallymarkobject_fade _ _ _ h1) (ih _ _ _ _ h)
    · exact ih _ _ _ _ h

theorem traverseephemeron_loop_fade (h : Addr) (inv : Bool) (nsize : Nat) (n : Nat) :
    ∀ (i : Nat) (g : global_State) (f : EphFlags) (g2 : global_State) (f2 : EphFlags),
    traverseephemeron_loop h inv nsize n i g f = some (g2, f2) → FadeS g g2 := by
  induction n with
  | zero => intro i g f g2 f2 hr; cases hr; exact fadeS_refl _
  | succ n ih =>
    intro i g f g2 f2 hr
    rw [traverseephemeron_loop] at hr
    simp only [Option.bind_eq_bind, Option.bind_eq_some] at hr
    obtain ⟨t, ht, nd, -, hr⟩ := hr
    split at hr
    · have e := ih _ _ _ _ _ hr
      refine fadeS_trans _ _ _ ?_ e
      exact fadeS_setobj _ _ _ _ ht (fades_same _ _ rfl rfl rfl)
    · simp only [Option.bind_eq_some] at hr
      obtain ⟨⟨g1, c⟩, h1, w, -, hr⟩ := hr
      have e1 := iscleared_fade _ _ _ _ h1
      split at hr
      · exact fadeS_trans _ _ _ (e1) (ih _ _ _ _ _ hr)
      · split at hr
        · simp only [Option.bind_eq_some] at hr
          obtain ⟨r, -, g3, h3, hr⟩ := hr
          exact fadeS_trans _ _ _ (fadeS_trans _ _ _ (e1) (reallymarkobject_fade _ _ _ h3)) (ih _ _ _ _ _ hr)
        · exact fadeS_trans _ _ _ (e1) (ih _ _ _ _ _ hr)

theorem traverseephemeron_fade (g : global_State) (h : Addr) (inv : Bool) (g2 : global_State)
    (m : Bool) (hr : traverseephemeron g h inv = some (g2, m)) : FadeS g g2 := by
  unfold traverseephemeron at hr
  simp only [Option.bind_eq_bind, Option.bind_eq_some] at hr
  obtain ⟨t, -, ⟨g1, m1⟩, h1, ⟨g3, f⟩, h3, hr⟩ := hr
  have e1 := traverseephemeron_array_fade _ _ _ _ _ h1
  have e3 := traverseephemeron_loop_fade _ _ _ _ _ _ _ _ _ h3
  dsimp only at hr
  have key : ∀ r : Option global_State, (∀ g4, r = some g4 → FadeS g3 g4) →
      (r.bind fun y => some (y, f.marked)) = some (g2, m) → FadeS g g2 := by
    intro r hk hb
    simp only [Option.bind_eq_some, Option.some.injEq, Prod.mk.injEq] at hb
    obtain ⟨g4, h4, rfl, -⟩ := hb
    exact fadeS_trans _ _ _ (fadeS_trans _ _ _ (e1) (e3)) (hk _ h4)
  split at hr
  · exact key _ (fun g4 h4 => linkgclist_fade _ _ _ _ h4) hr
  · split at hr
    · exact key _ (fun g4 h4 => linkgclist_fade _ _ _ _ h4) hr
    · split at hr
      · exact key _ (fun g4 h4 => linkgclist_fade _ _ _ _ h4) hr
      · exact key _ (fun g4 h4 => genlink_fade _ _ _ h4) hr

theorem traversestrongtable_loop_fade (h : Addr) (n : Nat) : ∀ (i : Nat) (g g2 : global_State),
    traversestrongtable_loop h n i g = some g2 → FadeS g g2 := by
  induction n with
  | zero => intro i g g2 hr; cases hr; exact fadeS_refl _
  | succ n ih =>
    intro i g g2 hr
    rw [traversestrongtable_loop] at hr
    simp only [Option.bind_eq_bind, Option.bind_eq_some] at hr
    obtain ⟨t, ht, nd, -, hr⟩ := hr
    split at hr
    · have e := ih _ _ _ hr
      refine fadeS_trans _ _ _ ?_ e
      exact fadeS_setobj _ _ _ _ ht (fades_same _ _ rfl rfl rfl)
    · simp only [Option.bind_eq_some] at hr
      obtain ⟨g1, h1, g3, h3, hr⟩ := hr
      exact fadeS_trans _ _ _ (fadeS_trans _ _ _ (markkey_fade _ _ _ h1) (markvalue_fade _ _ _ h3)) (ih _ _ _ hr)

theorem traversestrongtable_fade (g : global_State) (h : Addr) (g2 : global_State)
    (hr : traversestrongtable g h = some g2) : FadeS g g2 := by
  unfold traversestrongtable at hr
  simp only [Option.bind_eq_bind, Option.bind_eq_some] at hr
  obtain ⟨t, -, g1, h1, g3, h3, hr⟩ := hr
  exact fadeS_trans _ _ _ (fadeS_trans _ _ _ (markvalues_fade _ _ _ h1) (traversestrongtable_loop_fade _ _ _ _ _ h3)) (genlink_fade _ _ _ hr)

theorem traversetable_fade (g : global_State) (h : Addr) (g2 : global_State) (w : Nat)
    (hr : traversetable g h = some (g2, w)) : FadeS g g2 := by
  unfold traversetable at hr
  simp only [Option.bind_eq_bind, Option.bind_eq_some] at hr
  obtain ⟨t, -, mode, -, g1, h1, hr⟩ := hr
  have e1 := markobjectN_fade _ _ _ h1
  have key : ∀ r : Option global_State, (∀ g3, r = some g3 → FadeS g1 g3) →
      (r.bind fun g3 => (g3.heap h).bind fun t2 =>
        some (g3, 1 + t2.alimit + 2 * allocsizenode t2)) = some (g2, w) → FadeS g g2 := by
    intro r hk hb
    simp only [Option.bind_eq_some, Option.some.injEq, Prod.mk.injEq] at hb
    obtain ⟨g3, h3, t2, -, rfl, -⟩ := hb
    exact fadeS_trans _ _ _ (e1) (hk _ h3)
  split at hr
  · simp only [Option.bind_eq_bind, Option.bind_eq_some] at hr
    obtain ⟨smode, -, hr⟩ := hr
    split at hr
    · split at hr
      · exact key _ (fun g3 h3 => traverseweakvalue_fade _ _ _ h3) hr
      · split at hr
        · refine key _ ?_ hr
          intro g3 h3
          simp only [Option.map_eq_some'] at h3
          obtain ⟨⟨g4, m⟩, h4, rfl⟩ := h3
          exact traverseephemeron_fade _ _ _ _ _ h4
        · exact key _ (fun g3 h3 => linkgclist_fade _ _ _ _ h3) hr
    · exact key _ (fun g3 h3 => traversestrongtable_fade _ _ _ h3) hr
  · exact key _ (fun g3 h3 => traversestrongtable_fade _ _ _ h3) hr

theorem traverseudata_fade (g : global_State) (u : Addr) (g2 : global_State) (w : Nat)
    (hr : traverseudata g u = some (g2, w)) : FadeS g g2 := by
  unfold traverseudata at hr
  simp only [Option.bind_eq_bind, Option.bind_eq_some] at hr
  obtain ⟨x, -, g1, h1, g3, h3, g4, h4, y, -, hr⟩ := hr
  simp only [Option.some.injEq, Prod.mk.injEq] at hr
  obtain ⟨rfl, -⟩ := hr
  exact fadeS_trans _ _ _ (fadeS_trans _ _ _ (markobjectN_fade _ _ _ h1) (markvalues_fade _ _ _ h3)) (genlink_fade _ _ _ h4)

theorem traverseproto_fade (g : global_State) (f : Addr) (g2 : global_State) (w : Nat)
    (hr : traverseproto g f = some (g2, w)) : FadeS g g2 := by
  unfold traverseproto at hr
  simp only [Option.bind_eq_bind, Option.bind_eq_some] at hr
  obtain ⟨x, -, g1, h1, g3, h3, g4, h4, g5, h5, g6, h6, hr⟩ := hr
  simp only [Option.some.injEq, Prod.mk.injEq] at hr
  obtain ⟨rfl, -⟩ := hr
  exact fadeS_trans _ _ _ (fadeS_trans _ _ _ (fadeS_trans _ _ _ (fadeS_trans _ _ _ (markobjectN_fade _ _ _ h1) (markvalues_fade _ _ _ h3)) (markobjectsN_fade _ _ _ h4)) (markobjectsN_fade _ _ _ h5)) (markobjectsN_fade _ _ _ h6)

theorem traverseCclosure_fade (g : global_State) (cl : Addr) (g2 : global_State) (w : Nat)
    (hr : traverseCclosure g cl = some (g2, w)) : FadeS g g2 := by
  unfold traverseCclosure at hr
  simp only [Option.bind_eq_bind, Option.bind_eq_some] at hr
  obtain ⟨x, -, g1, h1, hr⟩ := hr
  simp only [Option.some.injEq, Prod.mk.injEq] at hr
  obtain ⟨rfl, -⟩ := hr
  exact markvalues_fade _ _ _ h1

theorem traverseLclosure_fade (g : global_State) (cl : Addr) (g2 : global_State) (w : Nat)
    (hr : traverseLclosure g cl = some (g2, w)) : FadeS g g2 := by
  unfold traverseLclosure at hr
  simp only [Option.bind_eq_bind, Option.bind_eq_some] at hr
  obtain ⟨x, -, g1, h1, g3, h3, hr⟩ := hr
  simp only [Option.some.injEq, Prod.mk.injEq] at hr
  obtain ⟨rfl, -⟩ := hr
  exact fadeS_trans _ _ _ (markobjectN_fade _ _ _ h1) (markobjectsN_fade _ _ _ h3)

theorem luaD_shrinkstack_fade (env : Env) (g : global_State) (th : Addr) (g2 : global_State)
    (hr : luaD_shrinkstack env g th = some g2) : FadeS g g2 := by
  unfold luaD_shrinkstack at hr
  simp only [Option.bind_eq_bind, Option.bind_eq_some] at hr
  obtain ⟨t, ht, s, -, hr⟩ := hr
  split at hr
  · cases hr
    exact fadeS_setobj _ _ _ _ ht (fades_same _ _ rfl rfl rfl)
  · cases hr
    exact fadeS_refl _

theorem traversethread_uvs_fade (fuel : Nat) : ∀ (g : global_State) (uv : Option Addr)
    (g2 : global_State), traversethread_uvs fuel g uv = some g2 → FadeS g g2 := by
  induction fuel with
  | zero => intro g uv g2 hr; simp [traversethread_uvs] at hr
  | succ n ih =>
    intro g uv g2 hr
    cases uv with
    | none =>
      simp only [traversethread_uvs, Option.some.injEq] at hr
      subst hr
      exact fadeS_refl _
    | some u =>
      rw [traversethread_uvs] at hr
      simp only [Option.bind_eq_bind, Option.bind_eq_some] at hr
      obtain ⟨g1, h1, x, -, hr⟩ := hr
      exact fadeS_trans _ _ _ (markobject_fade _ _ _ h1) (ih _ _ _ hr)

theorem traversethread_fade (env : Env) (fuel : Nat) (g : global_State) (th : Addr)
    (g2 : global_State) (w : Nat) (hr : traversethread env fuel g th = some (g2, w)) :
    FadeS g g2 := by
  unfold traversethread at hr
  simp only [Option.bind_eq_bind, Option.bind_eq_some] at hr
  obtain ⟨t, -, g1, h1, hr⟩ := hr
  have e1 : FadeS g g1 := by
    split at h1
    · exact linkgclist_fade _ _ _ _ h1
    · cases h1
      exact fadeS_refl _
  split at hr
  · simp only [Option.some.injEq, Prod.mk.injEq] at hr
    obtain ⟨rfl, -⟩ := hr
    exact e1
  · simp only [Option.bind_eq_bind, Option.bind_eq_some] at hr
    obtain ⟨g3, h3, t2, -, g4, h4, g5, h5, t7, -, hr⟩ := hr
    simp only [Option.some.injEq, Prod.mk.injEq] at hr
    obtain ⟨rfl, -⟩ := hr
    have e3 := markvalues_fade _ _ _ h3
    have e4 := traversethread_uvs_fade _ _ _ _ h4
    have e5 : FadeS g4 g5 := by
      split at h5
      · simp only [Option.bind_eq_bind, Option.bind_eq_some] at h5
        obtain ⟨g6, h6, t5, ht5, s5, -, t6, ht6, h5⟩ := h5
        have e6 : FadeS g4 g6 := by
          split at h6
          · exact luaD_shrinkstack_fade _ _ _ _ h6
          · cases h6
            exact fadeS_refl _
        have e7 : FadeS g6 (g6.setobj th
            { t5 with stack := some (clearslice s5 t5.top (t5.stack_last + EXTRA_STACK)) }) :=
          fadeS_setobj _ _ _ _ ht5 (fades_same _ _ rfl rfl rfl)
        split at h5
        · cases h5
          refine fadeS_trans _ _ _ (fadeS_trans _ _ _ e6 e7) ?_
          exact ⟨rfl, fade_set _ _ _ _ ht6 (fades_same _ _ rfl rfl rfl)⟩
        · cases h5
          exact fadeS_trans _ _ _ e6 e7
      · cases h5
        exact fadeS_refl _
    exact fadeS_trans _ _ _ (fadeS_trans _ _ _ (fadeS_trans _ _ _ (e1) (e3)) (e4)) (e5)

/-- Traversing one gray object keeps the lists and sets no white bit. -/
theorem propagatemark_fade (env : Env) (fuel : Nat) (g g2 : global_State) (w : Nat)
    (hr : propagatemark env fuel g = some (g2, w)) : FadeS g g2 := by
  unfold propagatemark at hr
  simp only [Option.bind_eq_bind, Option.bind_eq_some] at hr
  obtain ⟨o, -, x, hx, x1, -, pl, -, y, -, hr⟩ := hr
  have f0 : FadeS g { g.setobj o { x with marked := nw2black x.marked } with
      gray := y.gclist } :=
    ⟨rfl, fade_set _ _ _ _ hx (fades_nw2black x)⟩
  split at hr
  · exact fadeS_trans _ _ _ f0 (traversetable_fade _ _ _ _ hr)
  · exact fadeS_trans _ _ _ f0 (traverseudata_fade _ _ _ _ hr)
  · exact fadeS_trans _ _ _ f0 (traverseLclosure_fade _ _ _ _ hr)
  · exact fadeS_trans _ _ _ f0 (traverseCclosure_fade _ _ _ _ hr)
  · exact fadeS_trans _ _ _ f0 (traverseproto_fade _ _ _ _ hr)
  · exact fadeS_trans _ _ _ f0 (traversethread_fade _ _ _ _ _ _ hr)
  · simp only [Option.some.injEq, Prod.mk.injEq] at hr
    obtain ⟨rfl, -⟩ := hr
    exact f0


theorem markmt_loop_fade (l : List (Option Addr)) : ∀ (g g2 : global_State),
    markmt_loop l g = some g2 → FadeS g g2 := by
  induction l with
  | nil => intro g g2 h; cases h; exact fadeS_refl _
  | cons x rest ih =>
    intro g g2 h
    rw [markmt_loop] at h
    simp only [Option.bind_eq_bind, Option.bind_eq_some] at h
    obtain ⟨g1, h1, h⟩ := h
    exact fadeS_trans _ _ _ (markobjectN_fade _ _ _ h1) (ih _ _ h)

theorem markmt_fade (g g2 : global_State) (h : markmt g = some g2) : FadeS g g2 :=
  markmt_loop_fade _ _ _ h

theorem markbeingfnz_loop_fade (fuel : Nat) : ∀ (g : global_State) (o : Option Addr) (c : Nat)
    (g2 : global_State) (c2 : Nat),
    markbeingfnz_loop fuel g o c = some (g2, c2) → FadeS g g2 := by
  induction fuel with
  | zero => intro g o c g2 c2 h; simp [markbeingfnz_loop] at h
  | succ n ih =>
    intro g o c g2 c2 h
    cases o with
    | none =>
      simp only [markbeingfnz_loop, Option.some.injEq, Prod.mk.injEq] at h
      obtain ⟨rfl, -⟩ := h
      exact fadeS_refl _
    | some a =>
      rw [markbeingfnz_loop] at h
      simp only [Option.bind_eq_bind, Option.bind_eq_some] at h
      obtain ⟨g1, h1, x, -, h⟩ := h
      exact fadeS_trans _ _ _ (markobject_fade _ _ _ h1) (ih _ _ _ _ _ h)

theorem markbeingfnz_fade (fuel : Nat) (g g2 : global_State) (c : Nat)
    (h : markbeingfnz fuel g = some (g2, c)) : FadeS g g2 :=
  markbeingfnz_loop_fade _ _ _ _ _ _ h

theorem propagateall_fade (fuel : Nat) : ∀ (env : Env) (g g2 : global_State) (w : Nat),
    propagateall fuel env g = some (g2, w) → FadeS g g2 := by
  induction fuel with
  | zero => intro env g g2 w h; simp [propagateall] at h
  | succ n ih =>
    intro env g g2 w h
    rw [propagateall] at h
    split at h
    · simp only [Option.some.injEq, Prod.mk.injEq] at h
      obtain ⟨rfl, -⟩ := h
      exact fadeS_refl _
    · simp only [Option.bind_eq_bind, Option.bind_eq_some] at h
      obtain ⟨⟨g1, w1⟩, h1, ⟨g3, w3⟩, h3, h⟩ := h
      simp only [Option.some.injEq, Prod.mk.injEq] at h
      obtain ⟨rfl, -⟩ := h
      exact fadeS_trans _ _ _ (propagatemark_fade _ _ _ _ _ h1) (ih _ _ _ _ h3)

theorem remarkupvals_uvs_fade (fuel : Nat) : ∀ (g : global_State) (uv : Option Addr) (w : Nat)
    (g2 : global_State) (w2 : Nat),
    remarkupvals_uvs fuel g uv w = some (g2, w2) → FadeS g g2 := by
  induction fuel with
  | zero => intro g uv w g2 w2 h; simp [remarkupvals_uvs] at h
  | succ n ih =>
    intro g uv w g2 w2 h
    cases uv with
    | none =>
      simp only [remarkupvals_uvs, Option.some.injEq, Prod.mk.injEq] at h
      obtain ⟨rfl, -⟩ := h
      exact fadeS_refl _
    | some a =>
      rw [remarkupvals_uvs] at h
      simp only [Option.bind_eq_bind, Option.bind_eq_some] at h
      obtain ⟨u, -, h⟩ := h
      split at h
      · simp only [Option.bind_eq_bind, Option.bind_eq_some] at h
        obtain ⟨val, -, g1, h1, u1, -, h⟩ := h
        exact fadeS_trans _ _ _ (markvalue_fade _ _ _ h1) (ih _ _ _ _ _ h)
      · simp only [Option.bind_eq_bind, Option.bind_eq_some, Option.some_bind] at h
        obtain ⟨u1, -, h⟩ := h
        exact ih _ _ _ _ _ h

theorem store_twups_fade (g g2 : global_State) (p v : Option Addr)
    (h : g.store_twups p v = some g2) : FadeS g g2 := by
  cases p with
  | none =>
    simp only [global_State.store_twups, Option.some.injEq] at h
    subst h
    exact fadeS_refl _
  | some th =>
    simp only [global_State.store_twups, Option.map_eq_some'] at h
    obtain ⟨t, ht, rfl⟩ := h
    exact fadeS_setobj _ _ _ _ ht (fades_same _ _ rfl rfl rfl)
theorem remarkupvals_loop_fade (fuel : Nat) : ∀ (g : global_State) (p : Option Addr) (w : Nat)
    (g2 : global_State) (w2 : Nat),
    remarkupvals_loop fuel g p w = some (g2, w2) → FadeS g g2 := by
  induction fuel with
  | zero => intro g p w g2 w2 h; simp [remarkupvals_loop] at h
  | succ n ih =>
    intro g p w g2 w2 h
    rw [remarkupvals_loop] at h
    simp only [Option.bind_eq_bind, Option.bind_eq_some] at h
    obtain ⟨cur, -, h⟩ := h
    split at h
    · simp only [Option.some.injEq, Prod.mk.injEq] at h
      obtain ⟨rfl, -⟩ := h
      exact fadeS_refl _
    · simp only [Option.bind_eq_bind, Option.bind_eq_some] at h
      obtain ⟨t, -, h⟩ := h
      split at h
      · exact ih _ _ _ _ _ h
      · simp only [Option.bind_eq_bind, Option.bind_eq_some] at h
        obtain ⟨g1, h1, t1, ht1, t2, -, ⟨g3, w3⟩, h3, h⟩ := h
        have e3 := remarkupvals_uvs_fade _ _ _ _ _ _ h3
        have e1 := store_twups_fade _ _ _ _ h1
        refine fadeS_trans _ _ _ (fadeS_trans _ _ _ (fadeS_trans _ _ _ e1 ?_) e3)
          (ih _ _ _ _ _ h)
        exact fadeS_setobj _ _ _ _ ht1 (fades_same _ _ rfl rfl rfl)

theorem remarkupvals_fade (fuel : Nat) (g g2 : global_State) (w : Nat)
    (h : remarkupvals fuel g = some (g2, w)) : FadeS g g2 :=
  remarkupvals_loop_fade _ _ _ _ _ _ h

theorem convergeephemerons_tables_fade (env : Env) (dir : Bool) (fuel : Nat) :
    ∀ (g : global_State) (w : Option Addr) (c : Bool) (g2 : global_State) (c2 : Bool),
    convergeephemerons_tables env dir fuel g w c = some (g2, c2) → FadeS g g2 := by
  induction fuel with
  | zero => intro g w c g2 c2 h; simp [convergeephemerons_tables] at h
  | succ n ih =>
    intro g w c g2 c2 h
    cases w with
    | none =>
      simp only [convergeephemerons_tables, Option.some.injEq, Prod.mk.injEq] at h
      obtain ⟨rfl, -⟩ := h
      exact fadeS_refl _
    | some a =>
      rw [convergeephemerons_tables] at h
      simp only [Option.bind_eq_bind, Option.bind_eq_some] at h
      obtain ⟨x, hx, ⟨g3, m⟩, h3, h⟩ := h
      have e0 : FadeS g (g.setobj a { x with marked := nw2black x.marked }) :=
        fadeS_setobj _ _ _ _ hx (fades_nw2black x)
      have e3 := fadeS_trans _ _ _ e0 (traverseephemeron_fade _ _ _ _ _ h3)
      split at h
      · simp only [Option.bind_eq_bind, Option.bind_eq_some] at h
        obtain ⟨⟨g4, w4⟩, h4, h⟩ := h
        exact fadeS_trans _ _ _ (fadeS_trans _ _ _ e3 (propagateall_fade _ _ _ _ _ h4))
          (ih _ _ _ _ _ h)
      · exact fadeS_trans _ _ _ e3 (ih _ _ _ _ _ h)

theorem convergeephemerons_rounds_fade (env : Env) (fuel : Nat) : ∀ (g : global_State)
    (dir : Bool) (g2 : global_State),
    convergeephemerons_rounds env fuel g dir = some g2 → FadeS g g2 := by
  induction fuel with
  | zero => intro g dir g2 h; simp [convergeephemerons_rounds] at h
  | succ n ih =>
    intro g dir g2 h
    rw [convergeephemerons_rounds] at h
    simp only [Option.bind_eq_bind, Option.bind_eq_some] at h
    obtain ⟨⟨g1, c⟩, h1, h⟩ := h
    have e1 : FadeS g g1 :=
      fadeS_trans _ _ _ (show FadeS g { g with ephemeron := none } from ⟨rfl, fade_refl _⟩)
        (convergeephemerons_tables_fade _ _ _ _ _ _ _ _ h1)
    split at h
    · exact fadeS_trans _ _ _ e1 (ih _ _ _ h)
    · cases h
      exact e1

theorem convergeephemerons_fade (env : Env) (fuel : Nat) (g g2 : global_State)
    (h : convergeephemerons env fuel g = some g2) : FadeS g g2 :=
  convergeephemerons_rounds_fade _ _ _ _ _ h

theorem clearbykeys_nodes_fade (h : Addr) (n : Nat) : ∀ (i : Nat) (g g2 : global_State),
    clearbykeys_nodes h n i g = some g2 → FadeS g g2 := by
  induction n with
  | zero => intro i g g2 hr; cases hr; exact fadeS_refl _
  | succ n ih =>
    intro i g g2 hr
    rw [clearbykeys_nodes] at hr
    simp only [Option.bind_eq_bind, Option.bind_eq_some] at hr
    obtain ⟨t, -, nd, -, ⟨g1, c⟩, h1, t1, ht1, nd1, -, hr⟩ := hr
    have e1 := iscleared_fade _ _ _ _ h1
    have e2 := ih _ _ _ hr
    refine fadeS_trans _ _ _ (fadeS_trans _ _ _ e1 ?_) e2
    exact fadeS_setobj _ _ _ _ ht1 (fades_same _ _ rfl rfl rfl)

theorem clearbykeys_fade (fuel : Nat) : ∀ (g : global_State) (l : Option Addr)
    (g2 : global_State), clearbykeys fuel g l = some g2 → FadeS g g2 := by
  induction fuel with
  | zero => intro g l g2 h; simp [clearbykeys] at h
  | succ n ih =>
    intro g l g2 h
    cases l with
    | none =>
      simp only [clearbykeys, Option.some.injEq] at h
      subst h
      exact fadeS_refl _
    | some a =>
      rw [clearbykeys] at h
      simp only [Option.bind_eq_bind, Option.bind_eq_some] at h
      obtain ⟨t, -, g1, h1, t1, -, h⟩ := h
      exact fadeS_trans _ _ _ (clearbykeys_nodes_fade _ _ _ _ _ h1) (ih _ _ _ h)

theorem clearbyvalues_array_fade (h : Addr) (n : Nat) : ∀ (i : Nat) (g g2 : global_State),
    clearbyvalues_array h n i g = some g2 → FadeS g g2 := by
  induction n with
  | zero => intro i g g2 hr; cases hr; exact fadeS_refl _
  | succ n ih =>
    intro i g g2 hr
    rw [clearbyvalues_array] at hr
    simp only [Option.bind_eq_bind, Option.bind_eq_some] at hr
    obtain ⟨t, -, o, -, ⟨g1, c⟩, h1, t1, ht1, hr⟩ := hr
    have e1 := iscleared_fade _ _ _ _ h1
    have e2 := ih _ _ _ hr
    refine fadeS_trans _ _ _ (fadeS_trans _ _ _ e1 ?_) e2
    split
    · exact fadeS_setobj _ _ _ _ ht1 (fades_same _ _ rfl rfl rfl)
    · exact fadeS_refl _

theorem clearbyvalues_nodes_fade (h : Addr) (n : Nat) : ∀ (i : Nat) (g g2 : global_State),
    clearbyvalues_nodes h n i g = some g2 → FadeS g g2 := by
  induction n with
  | zero => intro i g g2 hr; cases hr; exact fadeS_refl _
  | succ n ih =>
    intro i g g2 hr
    rw [clearbyvalues_nodes] at hr
    simp only [Option.bind_eq_bind, Option.bind_eq_some] at hr
    obtain ⟨t, -, nd, -, ⟨g1, c⟩, h1, t1, ht1, nd1, -, hr⟩ := hr
    have e1 := iscleared_fade _ _ _ _ h1
    have e2 := ih _ _ _ hr
    refine fadeS_trans _ _ _ (fadeS_trans _ _ _ e1 ?_) e2
    exact fadeS_setobj _ _ _ _ ht1 (fades_same _ _ rfl rfl rfl)

theorem clearbyvalues_fade (fuel : Nat) : ∀ (g : global_State) (l f : Option Addr)
    (g2 : global_State), clearbyvalues fuel g l f = some g2 → FadeS g g2 := by
  induction fuel with
  | zero => intro g l f g2 h; simp [clearbyvalues] at h
  | succ n ih =>
    intro g l f g2 h
    rw [clearbyvalues] at h
    split at h
    · cases h
      exact fadeS_refl _
    · simp only [Option.bind_eq_bind, Option.bind_eq_some] at h
      obtain ⟨a, -, t, -, g1, h1, g3, h3, t2, -, h⟩ := h
      exact fadeS_trans _ _ _ (fadeS_trans _ _ _ (clearbyvalues_array_fade _ _ _ _ _ h1)
        (clearbyvalues_nodes_fade _ _ _ _ _ h3)) (ih _ _ _ _ h)

theorem luaS_clearcache_fade (g g2 : global_State) (h : luaS_clearcache g = some g2) :
    FadeS g g2 := by
  unfold luaS_clearcache at h
  simp only [Option.map_eq_some'] at h
  obtain ⟨c, -, rfl⟩ := h
  exact ⟨rfl, fade_refl _⟩
theorem fade_next (h h2 : Heap) (hf : Fade h h2) : ∀ a, nextOf h2 a = nextOf h a := by
  intro a
  unfold nextOf
  cases e : h a with
  | none => rw [(hf a).1 e]
  | some x =>
    obtain ⟨x2, e2, f⟩ := (hf a).2 x e
    rw [e2, Option.map_some', Option.map_some', f.1]

theorem lists_fade (g g2 : global_State) (la lf lt lx : List Addr) (hf : FadeS g g2)
    (hL : Lists g la lf lt lx) : Lists g2 la lf lt lx :=
  lists_congr g g2 la lf lt lx (fade_next _ _ hf.2) hf.1 hL

theorem isList_fade (h h2 : Heap) (hf : Fade h h2) (c : Option Addr) (l : List Addr)
    (hl : IsList h c l) : IsList h2 c l :=
  isList_congr _ _ (fade_next _ _ hf) _ _ hl

theorem gray_nonwhite (m : Nat) : iswhite (set2gray m) = false :=
  (iswhite_bits _).2 (set2gray_white m)

theorem black_nonwhite (m : Nat) : iswhite (set2black m) = false :=
  (iswhite_bits _).2 (set2black_white m)

theorem linkgclist__nonwhite (g g2 : global_State) (o : Addr) (pn : Option Addr) (l : GrayList)
    (h : linkgclist_ g o pn l = some g2) :
    ∃ x2, g2.heap o = some x2 ∧ iswhite x2.marked = false := by
  unfold linkgclist_ at h
  simp only [Option.bind_eq_bind, Option.bind_eq_some] at h
  obtain ⟨a, -, x, hx, y, hy, h⟩ := h
  cases h
  exact ⟨_, heap_set_same _ _ _, gray_nonwhite _⟩

theorem linkobjgclist_nonwhite (g g2 : global_State) (o : Addr) (l : GrayList)
    (h : linkobjgclist g o l = some g2) :
    ∃ x2, g2.heap o = some x2 ∧ iswhite x2.marked = false := by
  unfold linkobjgclist at h
  simp only [Option.bind_eq_bind, Option.bind_eq_some] at h
  obtain ⟨x, -, h⟩ := h
  exact linkgclist__nonwhite _ _ _ _ _ h

/-- An object that `reallymarkobject` marks is not white afterwards. -/
theorem markrec_nonwhite (fuel : Nat) (g : global_State) (o : Addr) (g2 : global_State)
    (h : markrec fuel g o = some g2) :
    ∃ x2, g2.heap o = some x2 ∧ iswhite x2.marked = false := by
  cases fuel with
  | zero => simp [markrec] at h
  | succ n =>
    rw [markrec] at h
    simp only [Option.bind_eq_bind, Option.bind_eq_some] at h
    obtain ⟨x, hx, h⟩ := h
    split at h
    · cases h
      exact ⟨_, heap_set_same _ _ _, black_nonwhite _⟩
    · cases h
      exact ⟨_, heap_set_same _ _ _, black_nonwhite _⟩
    · have f1 : ∃ x1, (g.setobj o
          { x with marked := if upisopen x then set2gray x.marked else set2black x.marked }).heap
          o = some x1 ∧ iswhite x1.marked = false := by
        refine ⟨_, heap_set_same _ _ _, ?_⟩
        show iswhite (if upisopen x then set2gray x.marked else set2black x.marked) = false
        split
        · exact gray_nonwhite _
        · exact black_nonwhite _
      obtain ⟨x1, hx1, hw1⟩ := f1
      split at h
      · cases h
      · have hf := markobject_with_fade _ (markrec_fade n) _ _ _ h
        exact fade_nonwhite _ _ hf.2 o x1 hx1 hw1
      · cases h
        exact ⟨x1, hx1, hw1⟩
    · split at h
      · split at h
        · simp only [Option.some_bind, Option.bind_eq_some] at h
          obtain ⟨y, hy, h⟩ := h
          cases h
          exact ⟨_, heap_set_same _ _ _, black_nonwhite _⟩
        · simp only [Option.bind_eq_some] at h
          obtain ⟨g1, h1, y, hy, h⟩ := h
          cases h
          exact ⟨_, heap_set_same _ _ _, black_nonwhite _⟩
      · exact linkobjgclist_nonwhite _ _ _ _ h
    · exact linkobjgclist_nonwhite _ _ _ _ h

/-- After `markobject` the object is not white. -/
theorem markobject_nonwhite (g : global_State) (o : Addr) (g2 : global_State)
    (h : markobject g o = some g2) :
    ∃ x2, g2.heap o = some x2 ∧ iswhite x2.marked = false := by
  unfold markobject markobject_with at h
  simp only [Option.bind_eq_bind, Option.bind_eq_some] at h
  obtain ⟨x, hx, h⟩ := h
  split at h
  · exact markrec_nonwhite _ _ _ _ h
  · rename_i hw
    cases h
    exact ⟨x, hx, by simpa using hw⟩

/-- The loop of `markbeingfnz` leaves no object of the list white. -/
theorem markbeingfnz_loop_all (fuel : Nat) : ∀ (g : global_State) (c : Option Addr) (n : Nat)
    (g2 : global_State) (n2 : Nat) (l : List Addr),
    markbeingfnz_loop fuel g c n = some (g2, n2) → IsList g.heap c l →
    ∀ a, a ∈ l → ∃ x2, g2.heap a = some x2 ∧ iswhite x2.marked = false := by
  induction fuel with
  | zero => intro g c n g2 n2 l h; simp [markbeingfnz_loop] at h
  | succ k ih =>
    intro g c n g2 n2 l h hl a ha
    cases c with
    | none =>
      have : l = [] := (isList_nil_iff _ _ _ hl).1 rfl
      subst this
      cases ha
    | some o =>
      obtain ⟨l2, rfl, x, hx, hl2⟩ := isList_head _ _ _ hl
      rw [markbeingfnz_loop] at h
      simp only [Option.bind_eq_bind, Option.bind_eq_some] at h
      obtain ⟨g1, h1, x1, hx1, h⟩ := h
      have hf := markobject_fade _ _ _ h1
      obtain ⟨y, hy, fy⟩ := (hf.2 o).2 x hx
      rw [hx1] at hy
      cases hy
      have hl1 : IsList g1.heap x1.next l2 := by
        rw [fy.1]
        exact isList_fade _ _ hf.2 _ _ hl2
      rcases List.mem_cons.1 ha with rfl | ha
      · obtain ⟨z, hz, hw⟩ := markobject_nonwhite _ _ _ h1
        exact fade_nonwhite _ _ (markbeingfnz_loop_fade _ _ _ _ _ _ h).2 a z hz hw
      · exact ih _ _ _ _ _ _ h hl1 a ha

theorem cw_of_ctl (g g2 : global_State) (h : ctl g2 = ctl g) :
    g2.currentwhite = g.currentwhite := by
  have := congrArg (fun t => t.2.2.2.2.2.1) h
  simpa [ctl] using this

theorem em_of_ctl (g g2 : global_State) (h : ctl g2 = ctl g) :
    g2.gcemergency = g.gcemergency := by
  have := congrArg (fun t => t.2.2.1) h
  simpa [ctl] using this

theorem kind_of_ctl (g g2 : global_State) (h : ctl g2 = ctl g) : g2.gckind = g.gckind := by
  have := congrArg (fun t => t.2.1) h
  simpa [ctl] using this

theorem isdead_cw (g g2 : global_State) (h : g2.currentwhite = g.currentwhite) (m : Nat) :
    isdead g2 m = isdead g m := by
  unfold isdead otherwhite
  rw [h]

theorem isdead_false_iff (g : global_State) (m : Nat) :
    isdead g m = false ↔ m &&& otherwhite g = 0 := by
  simp [isdead, isdeadm]

/-- A state with the same heap, list heads and current white keeps `TbfSafe`. -/
theorem tbfSafe_congr (g g2 : global_State) (lt : List Addr) (hh : g2.heap = g.heap)
    (hd : heads g2 = heads g) (hc : g2.currentwhite = g.currentwhite) (hS : TbfSafe g lt) :
    TbfSafe g2 lt := by
  obtain ⟨⟨la, lf, lx, hL⟩, hcw, hdead⟩ := hS
  refine ⟨⟨la, lf, lx, lists_congr g g2 la lf lt lx (fun a => by rw [hh]) hd hL⟩, ?_, ?_⟩
  · rw [hc]; exact hcw
  · intro a ha x hx
    rw [hh] at hx
    rw [isdead_cw _ _ hc]
    exact hdead a ha x hx

/-- Marking keeps `TbfSafe`: it only takes white bits away. -/
theorem tbfSafe_fade (g g2 : global_State) (lt : List Addr) (hf : FadeS g g2)
    (hc : g2.currentwhite = g.currentwhite) (hS : TbfSafe g lt) : TbfSafe g2 lt := by
  obtain ⟨⟨la, lf, lx, hL⟩, hcw, hdead⟩ := hS
  refine ⟨⟨la, lf, lx, lists_fade _ _ _ _ _ _ hf hL⟩, ?_, ?_⟩
  · rw [hc]; exact hcw
  · intro a ha x2 hx2
    rw [isdead_cw _ _ hc]
    cases e : g.heap a with
    | none =>
      rw [(hf.2 a).1 e] at hx2
      cases hx2
    | some x =>
      obtain ⟨y, hy, f⟩ := (hf.2 a).2 x e
      rw [hx2] at hy
      cases hy
      have hd := (isdead_false_iff _ _).1 (hdead a ha x e)
      rw [isdead_false_iff]
      unfold otherwhite at hd ⊢
      rcases hcw with h | h
      · rw [h] at hd ⊢
        exact f.2.2.2 hd
      · rw [h] at hd ⊢
        exact f.2.2.1 hd

theorem sweeplist_load (g : global_State) (p : GCRef) (n : Nat)
    (r : global_State × Option GCRef × Nat) (h : sweeplist g p n = some r) :
    ∃ c0, g.load p = some c0 := by
  unfold sweeplist at h
  simp only [Option.bind_eq_bind, Option.bind_eq_some] at h
  obtain ⟨⟨g1, p1, i⟩, h1, c, hc, -⟩ := h
  cases n with
  | zero =>
    simp only [sweeplist_loop, Option.some.injEq, Prod.mk.injEq] at h1
    obtain ⟨rfl, rfl, -⟩ := h1
    exact ⟨c, hc⟩
  | succ k =>
    rw [sweeplist_loop] at h1
    simp only [Option.bind_eq_bind, Option.bind_eq_some] at h1
    obtain ⟨c0, h0, -⟩ := h1
    exact ⟨c0, h0⟩

theorem lists_lt_only (g : global_State) (la lf lt lx : List Addr) (hL : Lists g la lf lt lx)
    (a : Addr) (ha : a ∈ lt) : a ∉ la ∧ a ∉ lf ∧ a ∉ lx := by
  obtain ⟨-, -, -, -, hn, -⟩ := hL
  have h1 := List.nodup_append.1 hn
  have h2 := List.nodup_append.1 h1.1
  have h3 := List.nodup_append.1 h2.1
  refine ⟨?_, ?_, ?_⟩
  · intro h
    exact h2.2.2 (List.mem_append_left _ h) ha
  · intro h
    exact h2.2.2 (List.mem_append_right _ h) ha
  · intro h
    exact h1.2.2 (List.mem_append_right _ ha) h

/-- A sweep keeps `TbfSafe`: the objects of `tobefnz` are not dead, so a sweep
frees none of them, and those it visits get the current white. -/
theorem sweeplist_tbf (g : global_State) (p : GCRef) (n : Nat) (lt : List Addr)
    (g2 : global_State) (q : Option GCRef) (i : Nat) (hS : TbfSafe g lt)
    (h : sweeplist g p n = some (g2, q, i)) : TbfSafe g2 lt := by
  obtain ⟨⟨la, lf, lx, hL⟩, hcw, hdead⟩ := hS
  obtain ⟨c0, hp⟩ := sweeplist_load _ _ _ _ h
  obtain ⟨rest, hr, hown⟩ := lists_rest g la lf lt lx hL p c0 hp
  obtain ⟨-, -, -, hlive, hdrop, -, -, la2, lf2, lt2, lx2, hSw⟩ :=
    (sweeplist_detail g p n la lf lt lx rest c0 hL hp hr hown).2 g2 q i h
  obtain ⟨hL2, sa, sf, st, sx, hctl, -, hout⟩ := hSw
  have hc := cw_of_ctl _ _ hctl
  have key : ∀ a, a ∈ lt → ∃ x2, g2.heap a = some x2 ∧ isdead g2 x2.marked = false := by
    intro a ha
    have hsome : (g.heap a).isSome := by
      rw [hL.2.2.2.2.2 a]
      exact List.mem_append_left _ (List.mem_append_right _ ha)
    obtain ⟨x, hx⟩ := Option.isSome_iff_exists.1 hsome
    have hd := hdead a ha x hx
    by_cases hin : a ∈ rest
    · rw [← List.take_append_drop i rest] at hin
      rcases List.mem_append.1 hin with h1 | h1
      · obtain ⟨-, x2, hx2, -, -, -, -, -, -, hw⟩ :=
          hlive a x h1 hx ((isdead_false_iff _ _).1 hd)
        exact ⟨x2, hx2, (hw hcw).2.2⟩
      · have e := hdrop a h1
        rw [hx] at e
        cases e2 : g2.heap a with
        | none => rw [e2] at e; cases e
        | some x2 =>
          rw [e2] at e
          simp only [Option.map_some', Option.some.injEq, hdr, Prod.mk.injEq] at e
          refine ⟨x2, rfl, ?_⟩
          rw [isdead_cw _ _ hc, e.2.1]
          exact hd
    · have e := hout a hin
      rw [hx] at e
      cases e2 : g2.heap a with
      | none => rw [e2] at e; cases e
      | some x2 =>
        rw [e2] at e
        simp only [Option.map_some', Option.some.injEq, Prod.mk.injEq] at e
        refine ⟨x2, rfl, ?_⟩
        rw [isdead_cw _ _ hc, e.1]
        exact hd
  have hlt : lt2 = lt := by
    refine sublist_eq_of_subset lt2 lt st ?_ ?_
    · have h1 := List.nodup_append.1 hL.2.2.2.2.1
      have h2 := List.nodup_append.1 h1.1
      exact h2.2.1
    · intro a ha
      obtain ⟨x2, hx2, -⟩ := key a ha
      have hm : a ∈ la2 ++ lf2 ++ lt2 ++ lx2 := by
        rw [← hL2.2.2.2.2.2 a, hx2]
        rfl
      obtain ⟨na, nf, nx⟩ := lists_lt_only g la lf lt lx hL a ha
      rcases List.mem_append.1 hm with hm | hm
      · rcases List.mem_append.1 hm with hm | hm
        · rcases List.mem_append.1 hm with hm | hm
          · exact absurd (sa.subset hm) na
          · exact absurd (sf.subset hm) nf
        · exact hm
      · exact absurd (sx.subset hm) nx
  subst hlt
  refine ⟨⟨la2, lf2, lx2, hL2⟩, ?_, ?_⟩
  · rw [hc]; exact hcw
  · intro a ha x2 hx2
    obtain ⟨y, hy, hd⟩ := key a ha
    rw [hx2] at hy
    cases hy
    exact hd

/-- The loop of `sweeptolive` keeps `TbfSafe`. -/
theorem sweeptolive_tbf (fuel : Nat) : ∀ (g : global_State) (old : GCRef) (lt : List Addr)
    (g2 : global_State) (q : Option GCRef), TbfSafe g lt →
    sweeptolive fuel g old = some (g2, q) → TbfSafe g2 lt := by
  induction fuel with
  | zero => intro g old lt g2 q _ h; simp [sweeptolive] at h
  | succ k ih =>
    intro g old lt g2 q hS h
    rw [sweeptolive] at h
    simp only [Option.bind_eq_bind, Option.bind_eq_some] at h
    obtain ⟨⟨g1, p, j⟩, h1, h⟩ := h
    have hS1 := sweeplist_tbf _ _ _ _ _ _ _ hS h1
    split at h
    · exact ih _ _ _ _ _ hS1 h
    · cases h
      exact hS1

theorem entersweep_tbf (fuel : Nat) (g g2 : global_State) (lt : List Addr) (hS : TbfSafe g lt)
    (h : entersweep fuel g = some g2) : TbfSafe g2 lt := by
  unfold entersweep at h
  simp only [Option.bind_eq_bind, Option.bind_eq_some] at h
  obtain ⟨⟨g1, p⟩, h1, h⟩ := h
  have h0 : TbfSafe { g with gcstate := GCSswpallgc } lt := tbfSafe_congr _ _ _ rfl rfl rfl hS
  have hS1 := sweeptolive_tbf _ _ _ _ _ _ h0 h1
  cases h
  exact tbfSafe_congr g1 _ _ rfl rfl rfl hS1

theorem sweepstep_tbf (g : global_State) (nextstate : Nat) (nextlist : Option GCRef)
    (g2 : global_State) (w : Nat) (lt : List Addr) (hS : TbfSafe g lt)
    (h : sweepstep g nextstate nextlist = some (g2, w)) : TbfSafe g2 lt := by
  unfold sweepstep at h
  split at h
  · simp only [Option.bind_eq_bind, Option.bind_eq_some] at h
    obtain ⟨⟨g1, p, c⟩, h1, h⟩ := h
    have hS1 := sweeplist_tbf _ _ _ _ _ _ _ hS h1
    cases h
    exact tbfSafe_congr g1 _ _ rfl rfl rfl hS1
  · cases h
    exact tbfSafe_congr _ _ _ rfl rfl rfl hS

theorem checkSizes_tbf (g : global_State) (lt : List Addr) (hS : TbfSafe g lt) :
    TbfSafe (checkSizes g) lt := by
  unfold checkSizes
  split
  · split
    · exact tbfSafe_congr _ _ _ rfl rfl rfl hS
    · exact hS
  · exact hS

theorem fadeS_of_eq (g g2 : global_State) (hh : g2.heap = g.heap) (hd : heads g2 = heads g) :
    FadeS g g2 := by
  refine ⟨hd, ?_⟩
  rw [hh]
  exact fade_refl _

theorem atomic_mark_fade (env : Env) (fuel : Nat) (g : global_State) (L : Addr)
    (g2 : global_State) (w : Nat) (h : atomic_mark env fuel g L = some (g2, w)) :
    FadeS g g2 := by
  unfold atomic_mark at h
  simp only [Option.bind_eq_bind, Option.bind_eq_some] at h
  obtain ⟨ga, ha, gb, hb, gc, hc, ⟨gd, wd⟩, hd, ⟨ge, we⟩, he, ⟨gf, wf⟩, hf, ⟨gg, wg⟩, hg, h⟩ := h
  simp only [Option.some.injEq, Prod.mk.injEq] at h
  obtain ⟨rfl, -⟩ := h
  have k0 : FadeS g { g with grayagain := none, gcstate := GCSatomic } :=
    fadeS_of_eq _ _ rfl rfl
  have k1 := markobject_fade _ _ _ ha
  have k2 := markvalue_fade _ _ _ hb
  have k3 := markmt_fade _ _ hc
  have k4 := propagateall_fade _ _ _ _ _ hd
  have k5 := remarkupvals_fade _ _ _ _ he
  have k6 := propagateall_fade _ _ _ _ _ hf
  have k7 := propagateall_fade _ _ _ _ _ hg
  have k6b : FadeS gf { gf with gray := g.grayagain } := fadeS_of_eq _ _ rfl rfl
  exact fadeS_trans _ _ _ (fadeS_trans _ _ _ (fadeS_trans _ _ _ (fadeS_trans _ _ _
    (fadeS_trans _ _ _ (fadeS_trans _ _ _ (fadeS_trans _ _ _ (fadeS_trans _ _ _ k0 k1) k2) k3)
    k4) k5) k6) k6b) k7

theorem atomic_clear_fade (fuel : Nat) (g : global_State) (ow oa : Option Addr)
    (g2 : global_State) (h : atomic_clear fuel g ow oa = some g2) :
    FadeS g g2 ∧ g2.currentwhite = cast_byte (otherwhite g) := by
  unfold atomic_clear at h
  simp only [Option.bind_eq_bind, Option.bind_eq_some] at h
  obtain ⟨ga, ha, gb, hb, gc, hc, gd, hd, ge, he, h⟩ := h
  simp only [Option.some.injEq] at h
  subst h
  have k1 := clearbykeys_fade _ _ _ _ ha
  have k2 := clearbykeys_fade _ _ _ _ hb
  have k3 := clearbyvalues_fade _ _ _ _ _ hc
  have k4 := clearbyvalues_fade _ _ _ _ _ hd
  have k5 := luaS_clearcache_fade _ _ he
  have k6 : FadeS ge { ge with currentwhite := cast_byte (otherwhite ge) } :=
    fadeS_of_eq _ _ rfl rfl
  have e5 : ctl ge = ctl g := by
    rw [luaS_clearcache_ctl _ _ he, clearbyvalues_ctl _ _ _ _ _ hd, clearbyvalues_ctl _ _ _ _ _ hc,
      clearbykeys_ctl _ _ _ _ hb, clearbykeys_ctl _ _ _ _ ha]
  refine ⟨fadeS_trans _ _ _ (fadeS_trans _ _ _ (fadeS_trans _ _ _ (fadeS_trans _ _ _
    (fadeS_trans _ _ _ k1 k2) k3) k4) k5) k6, ?_⟩
  show cast_byte (otherwhite ge) = _
  unfold otherwhite
  rw [cw_of_ctl _ _ e5]

/-- The middle part of `atomic` appends the objects it separates to
`tobefnz`, and leaves no object of `tobefnz` white. -/
theorem atomic_finalizers_lists (env : Env) (fuel : Nat) (g : global_State)
    (la lf lt lx : List Addr) (hL : Lists g la lf lt lx) (g2 : global_State) (w : Nat)
    (ow oa : Option Addr) (h : atomic_finalizers env fuel g = some (g2, w, ow, oa)) :
    ∃ lf2 moved, Lists g2 la lf2 (lt ++ moved) lx ∧ ctl g2 = ctl g ∧
      ∀ a, a ∈ lt ++ moved → ∃ x2, g2.heap a = some x2 ∧ iswhite x2.marked = false := by
  unfold atomic_finalizers at h
  simp only [Option.bind_eq_bind, Option.bind_eq_some] at h
  obtain ⟨ga, ha, gb, hb, gc, hc, gd, hd, ⟨ge, we⟩, he, ⟨gf, wf⟩, hf, gg, hg, h⟩ := h
  simp only [Option.some.injEq, Prod.mk.injEq] at h
  obtain ⟨rfl, -⟩ := h
  have k1 := convergeephemerons_fade _ _ _ _ ha
  have k2 := clearbyvalues_fade _ _ _ _ _ hb
  have k3 := clearbyvalues_fade _ _ _ _ _ hc
  have hLc := lists_fade _ _ _ _ _ _ (fadeS_trans _ _ _ (fadeS_trans _ _ _ k1 k2) k3) hL
  obtain ⟨lf2, moved, hLd, -, -, -⟩ := separatetobefnz_lists _ _ _ _ _ _ _ _ hLc hd
  have k5 := markbeingfnz_fade _ _ _ _ he
  have k6 := propagateall_fade _ _ _ _ _ hf
  have k7 := convergeephemerons_fade _ _ _ _ hg
  have hall := markbeingfnz_loop_all _ _ _ _ _ _ _ he hLd.2.2.1
  refine ⟨lf2, moved, lists_fade _ _ _ _ _ _ (fadeS_trans _ _ _ (fadeS_trans _ _ _ k5 k6) k7) hLd,
    ?_, ?_⟩
  · rw [convergeephemerons_ctl _ _ _ _ hg, propagateall_ctl _ _ _ _ _ hf,
      markbeingfnz_ctl _ _ _ _ he, separatetobefnz_ctl _ _ _ _ hd, clearbyvalues_ctl _ _ _ _ _ hc,
      clearbyvalues_ctl _ _ _ _ _ hb, convergeephemerons_ctl _ _ _ _ ha]
  · intro a ha2
    obtain ⟨x, hx, hw⟩ := hall a ha2
    exact fade_nonwhite _ _ (fadeS_trans _ _ _ k6 k7).2 a x hx hw

theorem flip_exact (cw : Nat) (h : cw = bitmask WHITE0BIT ∨ cw = bitmask WHITE1BIT) :
    (cast_byte (cw ^^^ WHITEBITS) = bitmask WHITE0BIT ∨
      cast_byte (cw ^^^ WHITEBITS) = bitmask WHITE1BIT) ∧
    ∀ m, iswhite m = false → m &&& (cast_byte (cw ^^^ WHITEBITS) ^^^ WHITEBITS) = 0 := by
  rcases h with rfl | rfl
  · refine ⟨Or.inr (by decide), ?_⟩
    intro m hm
    have := (notwhite_mark m hm).1
    simpa using this
  · refine ⟨Or.inl (by decide), ?_⟩
    intro m hm
    have := (notwhite_mark m hm).2
    simpa using this

/-- After `atomic` the objects to be finalized, the old ones and those just
separated, are all marked. -/
theorem atomic_marked (env : Env) (fuel : Nat) (g : global_State) (L : Addr) (lt : List Addr)
    (g2 : global_State) (w : Nat) (hS : TbfSafe g lt) (h : atomic env fuel g L = some (g2, w)) :
    ∃ moved, TbfMarked g2 (lt ++ moved) := by
  obtain ⟨⟨la, lf, lx, hL⟩, hcw, -⟩ := hS
  have hc := atomic_ctl env fuel g L g2 w h
  unfold atomic at h
  simp only [Option.bind_eq_bind, Option.bind_eq_some] at h
  obtain ⟨⟨g1, w1⟩, h1, ⟨g3, w3, ow, oa⟩, h3, g4, h4, h⟩ := h
  simp only [Option.some.injEq, Prod.mk.injEq] at h
  obtain ⟨rfl, -⟩ := h
  have hL1 := lists_fade _ _ _ _ _ _ (atomic_mark_fade _ _ _ _ _ _ h1) hL
  obtain ⟨lf2, moved, hL3, -, hnw⟩ := atomic_finalizers_lists _ _ _ _ _ _ _ hL1 _ _ _ _ h3
  obtain ⟨k4, -⟩ := atomic_clear_fade _ _ _ _ _ h4
  have hcw4 : g4.currentwhite = cast_byte (g.currentwhite ^^^ WHITEBITS) := by
    have := congrArg (fun t => t.2.2.2.2.2.1) hc
    simpa [ctl, otherwhite] using this
  obtain ⟨e1, -⟩ := flip_exact g.currentwhite hcw
  refine ⟨moved, ⟨la, lf2, lx, lists_fade _ _ _ _ _ _ k4 hL3⟩, ?_, ?_⟩
  · rw [hcw4]; exact e1
  · intro a ha x hx
    obtain ⟨x3, hx3, hw3⟩ := hnw a ha
    obtain ⟨y, hy, hwy⟩ := fade_nonwhite _ _ k4.2 a x3 hx3 hw3
    rw [hx] at hy
    cases hy
    exact hwy

set_option maxRecDepth 1000000 in
theorem setage_white_byte : ∀ m : Nat, m < 256 →
    setage m G_OLD &&& bitmask WHITE0BIT = m &&& bitmask WHITE0BIT ∧
    setage m G_OLD &&& bitmask WHITE1BIT = m &&& bitmask WHITE1BIT := by
  decide

theorem setage_white (m : Nat) :
    setage m G_OLD &&& bitmask WHITE0BIT = m &&& bitmask WHITE0BIT ∧
    setage m G_OLD &&& bitmask WHITE1BIT = m &&& bitmask WHITE1BIT := by
  rw [setage_mod, and_byte m (bitmask WHITE0BIT) (by decide),
    and_byte m (bitmask WHITE1BIT) (by decide)]
  exact setage_white_byte _ (Nat.mod_lt _ (by decide))

theorem fades_old (x : GCObject) : fades x { x with marked := setage x.marked G_OLD } :=
  fades_mark x _ (fun h => by rw [(setage_white _).1]; exact h)
    (fun h => by rw [(setage_white _).2]; exact h)

/-- Marking keeps `TbfMarked`. -/
theorem tbfMarked_fade (g g2 : global_State) (lt : List Addr) (hf : FadeS g g2)
    (hc : g2.currentwhite = g.currentwhite) (hS : TbfMarked g lt) : TbfMarked g2 lt := by
  obtain ⟨⟨la, lf, lx, hL⟩, hcw, hnw⟩ := hS
  refine ⟨⟨la, lf, lx, lists_fade _ _ _ _ _ _ hf hL⟩, ?_, ?_⟩
  · rw [hc]; exact hcw
  · intro a ha x2 hx2
    cases e : g.heap a with
    | none =>
      rw [(hf.2 a).1 e] at hx2
      cases hx2
    | some x =>
      obtain ⟨y, hy, hw⟩ := fade_nonwhite _ _ hf.2 a x e (hnw a ha x e)
      rw [hx2] at hy
      cases hy
      exact hw

theorem tbfMarked_congr (g g2 : global_State) (lt : List Addr) (hh : g2.heap = g.heap)
    (hd : heads g2 = heads g) (hc : g2.currentwhite = g.currentwhite) (hS : TbfMarked g lt) :
    TbfMarked g2 lt :=
  tbfMarked_fade g g2 lt (fadeS_of_eq g g2 hh hd) hc hS

/-- Marked objects are not dead, whichever white is current. -/
theorem tbfMarked_safe (g : global_State) (lt : List Addr) (hS : TbfMarked g lt) :
    TbfSafe g lt := by
  obtain ⟨hL, hcw, hnw⟩ := hS
  refine ⟨hL, hcw, ?_⟩
  intro a ha x hx
  have hw := notwhite_mark _ (hnw a ha x hx)
  rw [isdead_false_iff]
  unfold otherwhite
  rcases hcw with h | h
  · rw [h]
    simpa using hw.2
  · rw [h]
    simpa using hw.1

/-- After `atomic` the objects to be finalized are safe from the sweep. -/
theorem atomic_tbf (env : Env) (fuel : Nat) (g : global_State) (L : Addr) (lt : List Addr)
    (g2 : global_State) (w : Nat) (hS : TbfSafe g lt) (h : atomic env fuel g L = some (g2, w)) :
    ∃ moved, TbfSafe g2 (lt ++ moved) := by
  obtain ⟨moved, hm⟩ := atomic_marked env fuel g L lt g2 w hS h
  exact ⟨moved, tbfMarked_safe _ _ hm⟩

/-- The sweep `sweep2old` frees only white objects, so it keeps `tobefnz`
when all its objects are marked, and it leaves them marked. -/
theorem sweep2old_marked (fuel : Nat) : ∀ (g : global_State) (p : GCRef) (lt : List Addr)
    (g2 : global_State), TbfMarked g lt → sweep2old fuel g p = some g2 →
    TbfMarked g2 lt ∧ ctl g2 = ctl g := by
  induction fuel with
  | zero => intro g p lt g2 _ h; simp [sweep2old] at h
  | succ k ih =>
    intro g p lt g2 hS h
    rw [sweep2old] at h
    simp only [Option.bind_eq_bind, Option.bind_eq_some] at h
    obtain ⟨c, hc, h⟩ := h
    cases c with
    | none =>
      cases h
      exact ⟨hS, rfl⟩
    | some curr =>
      simp only [Option.bind_eq_some] at h
      obtain ⟨x, hx, h⟩ := h
      split at h
      · rename_i hw
        simp only [Option.bind_eq_bind, Option.bind_eq_some] at h
        obtain ⟨g1, h1, g3, h3, h⟩ := h
        obtain ⟨⟨la, lf, lx, hL⟩, hcw, hnw⟩ := hS
        obtain ⟨rest, hr, hown⟩ := lists_rest g la lf lt lx hL p _ hc
        obtain ⟨rest2, rfl, x1, hx1, hr2⟩ := isList_head _ _ _ hr
        rw [hx] at hx1
        cases hx1
        have hcn : curr ∉ rest2 := (List.nodup_cons.1 (isList_nodup _ _ _ hr)).1
        obtain ⟨hL3, -, -, hctl, -, hm, -⟩ :=
          sweep_remove g g1 g3 p curr x la lf lt lx rest2 hL hc hx hr2 hcn hown h1 h3
        have hnl : curr ∉ lt := by
          intro hin
          have := hnw curr hin x hx
          rw [hw] at this
          cases this
        rw [List.erase_of_not_mem hnl] at hL3
        have hS3 : TbfMarked g3 lt := by
          refine ⟨⟨_, _, _, hL3⟩, ?_, ?_⟩
          · rw [cw_of_ctl _ _ hctl]; exact hcw
          · intro a ha x3 hx3
            have hac : a ≠ curr := fun e => hnl (e ▸ ha)
            have e := hm a hac
            rw [hx3] at e
            cases e2 : g.heap a with
            | none => rw [e2] at e; cases e
            | some xa =>
              rw [e2] at e
              simp only [Option.map_some', Option.some.injEq, Prod.mk.injEq] at e
              rw [e.1]
              exact hnw a ha xa e2
        obtain ⟨r1, r2⟩ := ih _ _ _ _ hS3 h
        exact ⟨r1, r2.trans hctl⟩
      · have f0 : FadeS g (g.setobj curr { x with marked := setage x.marked G_OLD }) :=
          fadeS_setobj g curr x _ hx (fades_old x)
        have key : ∀ g1, FadeS g g1 → ctl g1 = ctl g → sweep2old k g1 (.next curr) = some g2 →
            TbfMarked g2 lt ∧ ctl g2 = ctl g := by
          intro g1 f1 c1 h2
          obtain ⟨r1, r2⟩ := ih _ _ _ _ (tbfMarked_fade _ _ _ f1 (cw_of_ctl _ _ c1) hS) h2
          exact ⟨r1, r2.trans c1⟩
        split at h
        · simp only [Option.bind_eq_some] at h
          obtain ⟨g1, h1, h⟩ := h
          exact key g1 (fadeS_trans _ _ _ f0 (linkgclist_fade _ _ _ _ h1))
            ((linkgclist_ctl _ _ _ _ h1).trans rfl) h
        · simp only [Option.bind_eq_some] at h
          obtain ⟨y, hy, h⟩ := h
          split at h
          · simp only [Option.some_bind] at h
            exact key _ (fadeS_trans _ _ _ f0 (fadeS_setobj _ curr y _ hy (fades_gray y))) rfl h
          · simp only [Option.some_bind] at h
            exact key _ (fadeS_trans _ _ _ f0 (fadeS_setobj _ curr y _ hy (fades_nw2black y)))
              rfl h

theorem setlist_ctl (g : global_State) (l : GrayList) (v : Option Addr) :
    ctl (g.setlist l v) = ctl g := by
  cases l <;> rfl

theorem storegray_quiet (g g1 : global_State) (p : GrayRef) (v : Option Addr)
    (h : g.storegray p v = some g1) : FadeS g g1 ∧ ctl g1 = ctl g := by
  cases p with
  | list l =>
    simp only [global_State.storegray, Option.some.injEq] at h
    subst h
    exact ⟨fadeS_setlist _ _ _, setlist_ctl _ _ _⟩
  | gclist o =>
    simp only [global_State.storegray, Option.map_eq_some'] at h
    obtain ⟨x, hx, rfl⟩ := h
    exact ⟨fadeS_setobj _ _ x _ hx (fades_same _ _ rfl rfl rfl), rfl⟩

theorem fades_touched (x : GCObject) :
    fades x { x with marked := changeage (nw2black x.marked) G_TOUCHED1 G_TOUCHED2 } :=
  fades_mark x _
    (fun h => by
      rw [(changeage_white _ _ _ (by decide) (by decide)).1, (nw2black_white _).1]; exact h)
    (fun h => by
      rw [(changeage_white _ _ _ (by decide) (by decide)).2, (nw2black_white _).2]; exact h)

theorem fades_removed (x : GCObject) :
    fades x { x with
      marked := nw2black (if getage x.marked = G_TOUCHED2
        then changeage x.marked G_TOUCHED2 G_OLD else x.marked) } := by
  refine fades_mark x _ ?_ ?_
  · intro h
    rw [(nw2black_white _).1]
    split
    · rw [(changeage_white _ _ _ (by decide) (by decide)).1]; exact h
    · exact h
  · intro h
    rw [(nw2black_white _).2]
    split
    · rw [(changeage_white _ _ _ (by decide) (by decide)).2]; exact h
    · exact h

/-- The correction of a gray list changes no `next` link, takes no object
away, makes no object white and keeps the control fields. -/
theorem correctgraylist_quiet (fuel : Nat) : ∀ (g : global_State) (p : GrayRef)
    (g2 : global_State) (p2 : GrayRef), correctgraylist fuel g p = some (g2, p2) →
    FadeS g g2 ∧ ctl g2 = ctl g := by
  induction fuel with
  | zero => intro g p g2 p2 h; simp [correctgraylist] at h
  | succ k ih =>
    intro g p g2 p2 h
    rw [correctgraylist] at h
    simp only [Option.bind_eq_bind, Option.bind_eq_some] at h
    obtain ⟨c, hc, h⟩ := h
    cases c with
    | none =>
      simp only [Option.some.injEq, Prod.mk.injEq] at h
      obtain ⟨rfl, -⟩ := h
      exact ⟨fadeS_refl _, rfl⟩
    | some curr =>
      simp only [Option.bind_eq_some] at h
      obtain ⟨x, hx, h⟩ := h
      have key : ∀ g1 q, FadeS g g1 → ctl g1 = ctl g → correctgraylist k g1 q = some (g2, p2) →
          FadeS g g2 ∧ ctl g2 = ctl g := by
        intro g1 q f1 c1 h2
        obtain ⟨r1, r2⟩ := ih _ _ _ _ h2
        exact ⟨fadeS_trans _ _ _ f1 r1, r2.trans c1⟩
      split at h
      · simp only [Option.bind_eq_some] at h
        obtain ⟨nx, -, v, -, g1, h1, h⟩ := h
        obtain ⟨f1, c1⟩ := storegray_quiet _ _ _ _ h1
        exact key g1 p f1 c1 h
      · split at h
        · simp only [Option.bind_eq_some] at h
          obtain ⟨nx, -, h⟩ := h
          exact key _ _ (fadeS_setobj g curr x _ hx (fades_touched x)) rfl h
        · split at h
          · simp only [Option.bind_eq_some] at h
            obtain ⟨nx, -, h⟩ := h
            exact key _ _ (fadeS_refl _) rfl h
          · simp only [Option.bind_eq_some] at h
            obtain ⟨nx, -, v, -, g1, h1, h⟩ := h
            obtain ⟨f1, c1⟩ := storegray_quiet _ _ _ _ h1
            exact key g1 p (fadeS_trans _ _ _ (fadeS_setobj g curr x _ hx (fades_removed x)) f1)
              (c1.trans rfl) h

theorem correctgraylists_quiet (fuel : Nat) (g g2 : global_State)
    (h : correctgraylists fuel g = some g2) : FadeS g g2 ∧ ctl g2 = ctl g := by
  unfold correctgraylists at h
  simp only [Option.bind_eq_bind, Option.bind_eq_some] at h
  obtain ⟨⟨g1, l1⟩, h1, ga, ha, ⟨g3, l3⟩, h3, gb, hb, ⟨g5, l5⟩, h5, gc, hc, ⟨g7, l7⟩, h7, h⟩ := h
  simp only [Option.some.injEq] at h
  subst h
  obtain ⟨f1, c1⟩ := correctgraylist_quiet _ _ _ _ _ h1
  obtain ⟨fa, ca⟩ := storegray_quiet _ _ _ _ ha
  obtain ⟨f3, c3⟩ := correctgraylist_quiet _ _ _ _ _ h3
  obtain ⟨fb, cb⟩ := storegray_quiet _ _ _ _ hb
  obtain ⟨f5, c5⟩ := correctgraylist_quiet _ _ _ _ _ h5
  obtain ⟨fc, cc⟩ := storegray_quiet _ _ _ _ hc
  obtain ⟨f7, c7⟩ := correctgraylist_quiet _ _ _ _ _ h7
  have fa2 : FadeS ga { ga with weak := none } := fadeS_of_eq _ _ rfl rfl
  have fb2 : FadeS gb { gb with allweak := none } := fadeS_of_eq _ _ rfl rfl
  have fc2 : FadeS gc { gc with ephemeron := none } := fadeS_of_eq _ _ rfl rfl
  refine ⟨fadeS_trans _ _ _ (fadeS_trans _ _ _ (fadeS_trans _ _ _ (fadeS_trans _ _ _
    (fadeS_trans _ _ _ (fadeS_trans _ _ _ (fadeS_trans _ _ _ (fadeS_trans _ _ _
    (fadeS_trans _ _ _ f1 fa) fa2) f3) fb) fb2) f5) fc) fc2) f7, ?_⟩
  rw [c7]
  show ctl gc = _
  rw [cc, c5]
  show ctl gb = _
  rw [cb, c3]
  show ctl ga = _
  rw [ca, c1]

theorem checkSizes_emergency (g : global_State) (h : g.gcemergency ≠ 0) : checkSizes g = g := by
  unfold checkSizes
  rw [if_neg h]

/-- In an emergency collection `finishgencycle` does not call
`callallpendingfinalizers`: it only corrects the gray lists and sets the
state. -/
theorem finishgencycle_emergency (env : Env) (fuel : Nat) (L : Addr) (g : global_State)
    (hem : g.gcemergency ≠ 0) :
    finishgencycle env fuel L g =
      (correctgraylists fuel g).map (fun g1 => { g1 with gcstate := GCSpropagate }) := by
  unfold finishgencycle
  cases e : correctgraylists fuel g with
  | none => rfl
  | some g1 =>
    have hem1 : g1.gcemergency ≠ 0 := by
      rw [em_of_ctl _ _ (correctgraylists_quiet _ _ _ e).2]
      exact hem
    simp only [Option.bind_eq_bind, Option.some_bind, Option.map_some', checkSizes_emergency g1 hem1]
    rw [if_neg hem1]

theorem tbfSafe_setobj (g : global_State) (lt : List Addr) (a : Addr) (x y : GCObject)
    (hx : g.heap a = some x) (hn : y.next = x.next) (hd : isdead g y.marked = false)
    (hS : TbfSafe g lt) : TbfSafe (g.setobj a y) lt := by
  obtain ⟨⟨la, lf, lx, hL⟩, hcw, hdead⟩ := hS
  refine ⟨⟨la, lf, lx, ?_⟩, hcw, ?_⟩
  · refine lists_congr g _ la lf lt lx ?_ rfl hL
    intro b
    unfold nextOf
    show Option.map _ (Heap.set g.heap a y b) = _
    by_cases hb : b = a
    · subst hb
      rw [heap_set_same, hx, Option.map_some', Option.map_some', hn]
    · rw [heap_set_ne _ _ _ _ hb]
  · intro b hb z hz
    have hz2 : Heap.set g.heap a y b = some z := hz
    by_cases hba : b = a
    · subst hba
      rw [heap_set_same] at hz2
      cases hz2
      exact hd
    · rw [heap_set_ne _ _ _ _ hba] at hz2
      exact hdead b hb z hz2

/-- The loop of `whitelist` keeps `TbfSafe`: it gives the current white. -/
theorem whitelist_loop_tbf (lt : List Addr) (fuel : Nat) : ∀ (g : global_State)
    (p : Option Addr) (g2 : global_State), TbfSafe g lt →
    whitelist_loop (luaC_white g) fuel g p = some g2 →
    TbfSafe g2 lt ∧ ctl g2 = ctl g := by
  induction fuel with
  | zero => intro g p g2 _ h; simp [whitelist_loop] at h
  | succ k ih =>
    intro g p g2 hS h
    cases p with
    | none =>
      simp only [whitelist_loop, Option.some.injEq] at h
      subst h
      exact ⟨hS, rfl⟩
    | some a =>
      rw [whitelist_loop] at h
      simp only [Option.bind_eq_bind, Option.bind_eq_some] at h
      obtain ⟨x, hx, h⟩ := h
      have h1 := tbfSafe_setobj g lt a x
        { x with marked := cast_byte ((x.marked &&& bnot8 maskgcbits) ||| luaC_white g) } hx rfl
        (sweptmark_live g x.marked hS.2.1).2.2 hS
      obtain ⟨r1, r2⟩ := ih _ _ _ h1 h
      exact ⟨r1, r2.trans rfl⟩

theorem enterinc_tbf (fuel : Nat) (g g2 : global_State) (lt : List Addr) (hS : TbfSafe g lt)
    (h : enterinc fuel g = some g2) :
    TbfSafe g2 lt ∧ g2.gcemergency = g.gcemergency ∧ g2.gcstate = GCSpause := by
  unfold enterinc whitelist at h
  simp only [Option.bind_eq_bind, Option.bind_eq_some] at h
  obtain ⟨g1, h1, g3, h3, g4, h4, h⟩ := h
  simp only [Option.some.injEq] at h
  subst h
  obtain ⟨s1, c1⟩ := whitelist_loop_tbf lt _ _ _ _ hS h1
  have s1b : TbfSafe { g1 with reallyold := none, old1 := none, survival := none } lt :=
    tbfSafe_congr _ _ _ rfl rfl rfl s1
  obtain ⟨s3, c3⟩ := whitelist_loop_tbf lt _ _ _ _ s1b h3
  obtain ⟨s4, c4⟩ := whitelist_loop_tbf lt _ _ _ _ s3 h4
  refine ⟨tbfSafe_congr _ _ _ rfl rfl rfl s4, ?_, rfl⟩
  show g4.gcemergency = _
  rw [em_of_ctl _ _ c4, em_of_ctl _ _ c3]
  show g1.gcemergency = _
  rw [em_of_ctl _ _ c1]

theorem restartcollection_quiet (fuel : Nat) (g g2 : global_State)
    (h : restartcollection fuel g = some g2) : FadeS g g2 ∧ ctl g2 = ctl g := by
  unfold restartcollection at h
  simp only [Option.bind_eq_bind, Option.bind_eq_some] at h
  obtain ⟨g1, h1, ga, ha, gb, hb, ⟨gc, n⟩, hc, h⟩ := h
  simp only [Option.some.injEq] at h
  subst h
  have f0 : FadeS g (cleargraylists g) := fadeS_of_eq _ _ rfl rfl
  refine ⟨fadeS_trans _ _ _ (fadeS_trans _ _ _ (fadeS_trans _ _ _ (fadeS_trans _ _ _ f0
    (markobject_fade _ _ _ h1)) (markvalue_fade _ _ _ ha)) (markmt_fade _ _ hb))
    (markbeingfnz_fade _ _ _ _ hc), ?_⟩
  rw [markbeingfnz_ctl _ _ _ _ hc, markmt_ctl _ _ hb, markvalue_ctl _ _ _ ha,
    markobject_ctl _ _ _ h1]
  rfl

theorem entersweep_em (fuel : Nat) (g g2 : global_State) (h : entersweep fuel g = some g2) :
    g2.gcemergency = g.gcemergency := by
  unfold entersweep at h
  simp only [Option.bind_eq_bind, Option.bind_eq_some] at h
  obtain ⟨⟨g1, p⟩, h1, h⟩ := h
  have c := em_of_ctl _ _ (sweeptolive_ctl _ _ _ _ _ h1)
  cases h
  exact c

theorem sweepstep_em (g : global_State) (nextstate : Nat) (nextlist : Option GCRef)
    (g2 : global_State) (w : Nat) (h : sweepstep g nextstate nextlist = some (g2, w)) :
    g2.gcemergency = g.gcemergency := by
  unfold sweepstep at h
  split at h
  · simp only [Option.bind_eq_bind, Option.bind_eq_some] at h
    obtain ⟨⟨g1, p, c⟩, h1, h⟩ := h
    have c := em_of_ctl _ _ (sweeplist_ctl _ _ _ _ _ _ h1)
    cases h
    exact c
  · cases h
    rfl

/-- The work of one step of an emergency collection keeps the objects to be
finalized: `tobefnz` only grows at its end, and the emergency flag stays. -/
theorem singlestep_switch_tbf (env : Env) (fuel : Nat) (g : global_State) (L : Addr)
    (lt : List Addr) (g2 : global_State) (r : Option Nat) (hS : TbfSafe g lt)
    (hem : g.gcemergency ≠ 0) (h : singlestep_switch env fuel g L = some (g2, r)) :
    ∃ ext, TbfSafe g2 (lt ++ ext) ∧ g2.gcemergency = g.gcemergency := by
  have same : ∀ g3 : global_State, TbfSafe g3 lt → g3.gcemergency = g.gcemergency →
      ∃ ext, TbfSafe g3 (lt ++ ext) ∧ g3.gcemergency = g.gcemergency := by
    intro g3 h3 e3
    refine ⟨[], ?_, e3⟩
    rw [List.append_nil]
    exact h3
  unfold singlestep_switch at h
  by_cases q1 : g.gcstate = GCSpause
  · rw [if_pos q1] at h
    simp only [Option.bind_eq_bind, Option.bind_eq_some] at h
    obtain ⟨g1, h1, h⟩ := h
    simp only [Option.some.injEq, Prod.mk.injEq] at h
    obtain ⟨rfl, -⟩ := h
    obtain ⟨f1, c1⟩ := restartcollection_quiet _ _ _ h1
    exact same _ (tbfSafe_congr g1 _ _ rfl rfl rfl (tbfSafe_fade _ _ _ f1 (cw_of_ctl _ _ c1) hS))
      (em_of_ctl g g1 c1)
  rw [if_neg q1] at h
  by_cases q2 : g.gcstate = GCSpropagate
  · rw [if_pos q2] at h
    split at h
    · simp only [Option.some.injEq, Prod.mk.injEq] at h
      obtain ⟨rfl, -⟩ := h
      exact same _ (tbfSafe_congr g _ _ rfl rfl rfl hS) rfl
    · simp only [Option.map_eq_some'] at h
      obtain ⟨⟨ga, w⟩, ha, h⟩ := h
      simp only [Prod.mk.injEq] at h
      obtain ⟨rfl, -⟩ := h
      have c1 := propagatemark_ctl _ _ _ _ _ ha
      exact same _ (tbfSafe_fade _ _ _ (propagatemark_fade _ _ _ _ _ ha) (cw_of_ctl _ _ c1) hS)
        (em_of_ctl _ _ c1)
  rw [if_neg q2] at h
  by_cases q3 : g.gcstate = GCSenteratomic
  · rw [if_pos q3] at h
    simp only [Option.bind_eq_bind, Option.bind_eq_some] at h
    obtain ⟨⟨g1, work⟩, h1, ga, ha, h⟩ := h
    simp only [Option.some.injEq, Prod.mk.injEq] at h
    obtain ⟨rfl, -⟩ := h
    obtain ⟨moved, hm⟩ := atomic_tbf _ _ _ _ _ _ _ hS h1
    have c1 := atomic_ctl _ _ _ _ _ _ h1
    have e1 : g1.gcemergency = g.gcemergency := by
      have := congrArg (fun t => t.2.2.1) c1
      simpa [ctl] using this
    refine ⟨moved, tbfSafe_congr ga _ _ rfl rfl rfl (entersweep_tbf _ _ _ _ hm ha), ?_⟩
    show ga.gcemergency = _
    rw [entersweep_em _ _ _ ha, e1]
  rw [if_neg q3] at h
  by_cases q4 : g.gcstate = GCSswpallgc
  · rw [if_pos q4] at h
    simp only [Option.map_eq_some'] at h
    obtain ⟨⟨ga, w⟩, ha, h⟩ := h
    simp only [Prod.mk.injEq] at h
    obtain ⟨rfl, -⟩ := h
    exact same _ (sweepstep_tbf _ _ _ _ _ _ hS ha) (sweepstep_em _ _ _ _ _ ha)
  rw [if_neg q4] at h
  by_cases q5 : g.gcstate = GCSswpfinobj
  · rw [if_pos q5] at h
    simp only [Option.map_eq_some'] at h
    obtain ⟨⟨ga, w⟩, ha, h⟩ := h
    simp only [Prod.mk.injEq] at h
    obtain ⟨rfl, -⟩ := h
    exact same _ (sweepstep_tbf _ _ _ _ _ _ hS ha) (sweepstep_em _ _ _ _ _ ha)
  rw [if_neg q5] at h
  by_cases q6 : g.gcstate = GCSswptobefnz
  · rw [if_pos q6] at h
    simp only [Option.map_eq_some'] at h
    obtain ⟨⟨ga, w⟩, ha, h⟩ := h
    simp only [Prod.mk.injEq] at h
    obtain ⟨rfl, -⟩ := h
    exact same _ (sweepstep_tbf _ _ _ _ _ _ hS ha) (sweepstep_em _ _ _ _ _ ha)
  rw [if_neg q6] at h
  by_cases q7 : g.gcstate = GCSswpend
  · rw [if_pos q7] at h
    simp only [Option.some.injEq, Prod.mk.injEq] at h
    obtain ⟨rfl, -⟩ := h
    rw [checkSizes_emergency g hem]
    exact same _ (tbfSafe_congr g _ _ rfl rfl rfl hS) rfl
  rw [if_neg q7] at h
  by_cases q8 : g.gcstate = GCScallfin
  · rw [if_pos q8, if_neg (fun hc => hem hc.2)] at h
    simp only [Option.some.injEq, Prod.mk.injEq] at h
    obtain ⟨rfl, -⟩ := h
    exact same _ (tbfSafe_congr g _ _ rfl rfl rfl hS) rfl
  rw [if_neg q8] at h
  simp only [Option.some.injEq, Prod.mk.injEq] at h
  obtain ⟨rfl, -⟩ := h
  exact same _ hS rfl

/-- One step of an emergency collection keeps the objects to be finalized. -/
theorem singlestep_tbf (env : Env) (fuel : Nat) (g : global_State) (L : Addr)
    (lt : List Addr) (g2 : global_State) (w : Nat) (hS : TbfSafe g lt)
    (hem : g.gcemergency ≠ 0) (h : singlestep env fuel g L = some (g2, w)) :
    ∃ ext, TbfSafe g2 (lt ++ ext) ∧ g2.gcemergency = g.gcemergency := by
  unfold singlestep at h
  simp only [Option.bind_eq_bind, Option.bind_eq_some] at h
  obtain ⟨⟨g1, r⟩, h1, h⟩ := h
  have h0 : TbfSafe { g with gcstopem := 1 } lt := tbfSafe_congr g _ _ rfl rfl rfl hS
  obtain ⟨ext, s1, e1⟩ := singlestep_switch_tbf env fuel _ L lt g1 r h0 hem h1
  refine ⟨ext, ?_⟩
  cases r with
  | none =>
    simp only [Option.some.injEq, Prod.mk.injEq] at h
    obtain ⟨rfl, -⟩ := h
    exact ⟨s1, e1⟩
  | some work =>
    simp only [Option.some.injEq, Prod.mk.injEq] at h
    obtain ⟨rfl, -⟩ := h
    exact ⟨tbfSafe_congr g1 _ _ rfl rfl rfl s1, e1⟩

/-- Running an emergency collection up to a given state keeps the objects to
be finalized. -/
theorem luaC_runtilstate_tbf (env : Env) (fuelS : Nat) (L : Addr) (mask : Nat) (fuel : Nat) :
    ∀ (g : global_State) (lt : List Addr) (g2 : global_State), TbfSafe g lt →
    g.gcemergency ≠ 0 → luaC_runtilstate env fuelS L mask fuel g = some g2 →
    ∃ ext, TbfSafe g2 (lt ++ ext) ∧ g2.gcemergency = g.gcemergency ∧
      testbit mask g2.gcstate ≠ 0 := by
  induction fuel with
  | zero => intro g lt g2 _ _ h; simp [luaC_runtilstate] at h
  | succ k ih =>
    intro g lt g2 hS hem h
    rw [luaC_runtilstate] at h
    split at h
    · rename_i ht
      simp only [Option.some.injEq] at h
      subst h
      refine ⟨[], ?_, rfl, ht⟩
      rw [List.append_nil]
      exact hS
    · simp only [Option.bind_eq_bind, Option.bind_eq_some] at h
      obtain ⟨⟨g1, w⟩, h1, h⟩ := h
      obtain ⟨e1, s1, m1⟩ := singlestep_tbf _ _ _ _ _ _ _ hS hem h1
      obtain ⟨e2, s2, m2, t2⟩ := ih g1 (lt ++ e1) g2 s1 (by rw [m1]; exact hem) h
      refine ⟨e1 ++ e2, ?_, m2.trans m1, t2⟩
      rw [← List.append_assoc]
      exact s2

/-- In an emergency collection `atomic2gen` keeps the objects to be
finalized, provided they are all marked. -/
theorem atomic2gen_tbf (env : Env) (fuel : Nat) (L : Addr) (g g2 : global_State)
    (lt : List Addr) (hS : TbfMarked g lt) (hem : g.gcemergency ≠ 0)
    (h : atomic2gen env fuel L g = some g2) :
    TbfMarked g2 lt ∧ g2.gcemergency = g.gcemergency := by
  unfold atomic2gen at h
  simp only [Option.bind_eq_bind, Option.bind_eq_some] at h
  obtain ⟨g1, h1, g3, h3, g5, h5, h⟩ := h
  have s0 : TbfMarked { cleargraylists g with gcstate := GCSswpallgc } lt :=
    tbfMarked_congr g _ _ rfl rfl rfl hS
  obtain ⟨s1, c1⟩ := sweep2old_marked _ _ _ _ _ s0 h1
  have s1b : TbfMarked { g1 with
      reallyold := g1.allgc, old1 := g1.allgc, survival := g1.allgc, firstold1 := none } lt :=
    tbfMarked_congr g1 _ _ rfl rfl rfl s1
  obtain ⟨s3, c3⟩ := sweep2old_marked _ _ _ _ _ s1b h3
  have s3b : TbfMarked { g3 with
      finobjrold := g3.finobj, finobjold1 := g3.finobj, finobjsur := g3.finobj } lt :=
    tbfMarked_congr g3 _ _ rfl rfl rfl s3
  obtain ⟨s5, c5⟩ := sweep2old_marked _ _ _ _ _ s3b h5
  have e5 : g5.gcemergency = g.gcemergency := by
    rw [em_of_ctl _ _ c5]
    show g3.gcemergency = _
    rw [em_of_ctl _ _ c3]
    show g1.gcemergency = _
    rw [em_of_ctl _ _ c1]
    rfl
  have hem5 : g5.gcemergency ≠ 0 := by rw [e5]; exact hem
  have hfin := finishgencycle_emergency env fuel L
    { ({ g5 with gckind := KGC_GEN, lastatomic := 0 } : global_State) with
      GCestimate := gettotalbytes { g5 with gckind := KGC_GEN, lastatomic := 0 } } hem5
  rw [hfin] at h
  simp only [Option.map_eq_some'] at h
  obtain ⟨g6, h6, rfl⟩ := h
  have s5b : TbfMarked { ({ g5 with gckind := KGC_GEN, lastatomic := 0 } : global_State) with
      GCestimate := gettotalbytes { g5 with gckind := KGC_GEN, lastatomic := 0 } } lt :=
    tbfMarked_congr g5 _ _ rfl rfl rfl s5
  obtain ⟨f6, c6⟩ := correctgraylists_quiet _ _ _ h6
  refine ⟨tbfMarked_congr g6 _ _ rfl rfl rfl (tbfMarked_fade _ _ _ f6 (cw_of_ctl _ _ c6) s5b), ?_⟩
  show g6.gcemergency = _
  rw [em_of_ctl _ _ c6]
  exact e5

theorem setpause_tbf (luaE_setdebt : global_State → Int → global_State)
    (hdebt : DebtOnly luaE_setdebt) (g g2 : global_State) (lt : List Addr) (hS : TbfSafe g lt)
    (h : setpause luaE_setdebt g = some g2) :
    TbfSafe g2 lt ∧ g2.gcemergency = g.gcemergency := by
  unfold setpause at h
  simp only at h
  split at h
  · cases h
  · simp only [Option.some.injEq] at h
    obtain ⟨tb, db, e⟩ := hdebt g
      (if l_mem (((gettotalbytes g : Nat) : Int) -
          (if ((getgcparam g.gcpause : Nat) : Int) <
              Int.tdiv MAX_LMEM (l_mem ((g.GCestimate / PAUSEADJ : Nat) : Int))
            then l_mem (l_mem ((g.GCestimate / PAUSEADJ : Nat) : Int) *
              ((getgcparam g.gcpause : Nat) : Int))
            else MAX_LMEM)) > 0 then 0
        else l_mem (((gettotalbytes g : Nat) : Int) -
          (if ((getgcparam g.gcpause : Nat) : Int) <
              Int.tdiv MAX_LMEM (l_mem ((g.GCestimate / PAUSEADJ : Nat) : Int))
            then l_mem (l_mem ((g.GCestimate / PAUSEADJ : Nat) : Int) *
              ((getgcparam g.gcpause : Nat) : Int))
            else MAX_LMEM)))
    rw [e] at h
    subst h
    exact ⟨tbfSafe_congr g _ _ rfl rfl rfl hS, rfl⟩

theorem setminordebt_marked (luaE_setdebt : global_State → Int → global_State)
    (hdebt : DebtOnly luaE_setdebt) (g : global_State) (lt : List Addr) (hS : TbfMarked g lt) :
    TbfMarked (setminordebt luaE_setdebt g) lt ∧
      (setminordebt luaE_setdebt g).gcemergency = g.gcemergency := by
  unfold setminordebt
  obtain ⟨tb, db, e⟩ := hdebt g
    (l_mem (-(l_mem (l_mem ((gettotalbytes g / 100 : Nat) : Int) *
      ((g.genminormul : Nat) : Int)))))
  rw [e]
  exact ⟨tbfMarked_congr g _ _ rfl rfl rfl hS, rfl⟩

/-- An incremental full collection in emergency mode keeps the objects to be
finalized. -/
theorem fullinc_tbf (luaE_setdebt : global_State → Int → global_State)
    (hdebt : DebtOnly luaE_setdebt) (env : Env) (fuel : Nat) (L : Addr) (g g2 : global_State)
    (lt : List Addr) (hS : TbfSafe g lt) (hem : g.gcemergency ≠ 0)
    (h : fullinc luaE_setdebt env fuel L g = some g2) :
    ∃ ext, TbfSafe g2 (lt ++ ext) ∧ g2.gcemergency = g.gcemergency := by
  unfold fullinc at h
  simp only [Option.bind_eq_bind, Option.bind_eq_some] at h
  obtain ⟨g1, h1, ga, ha, gb, hb, gc, hc, gd, hd, h⟩ := h
  have s1 : TbfSafe g1 lt ∧ g1.gcemergency = g.gcemergency := by
    split at h1
    · exact ⟨entersweep_tbf _ _ _ _ hS h1, entersweep_em _ _ _ h1⟩
    · cases h1
      exact ⟨hS, rfl⟩
  have m1 : g1.gcemergency ≠ 0 := by rw [s1.2]; exact hem
  obtain ⟨ea, sa, ma, -⟩ := luaC_runtilstate_tbf _ _ _ _ _ _ _ _ s1.1 m1 ha
  have ma2 : ga.gcemergency ≠ 0 := by rw [ma]; exact m1
  obtain ⟨eb, sb, mb, -⟩ := luaC_runtilstate_tbf _ _ _ _ _ _ _ _ sa ma2 hb
  have mb2 : gb.gcemergency ≠ 0 := by rw [mb]; exact ma2
  have sb2 : TbfSafe { gb with gcstate := GCSenteratomic } (lt ++ ea ++ eb) :=
    tbfSafe_congr gb _ _ rfl rfl rfl sb
  obtain ⟨ec, sc, mc, -⟩ := luaC_runtilstate_tbf _ _ _ _ _ _ _ _ sb2 mb2 hc
  have mc2 : gc.gcemergency ≠ 0 := by rw [mc]; exact mb2
  obtain ⟨ed, sd, md, -⟩ := luaC_runtilstate_tbf _ _ _ _ _ _ _ _ sc mc2 hd
  obtain ⟨s7, m7⟩ := setpause_tbf _ hdebt _ _ _ sd h
  refine ⟨ea ++ eb ++ ec ++ ed, ?_, ?_⟩
  · have e : lt ++ (ea ++ eb ++ ec ++ ed) = lt ++ ea ++ eb ++ ec ++ ed := by
      simp only [List.append_assoc]
    rw [e]
    exact s7
  · rw [m7, md, mc]
    show gb.gcemergency = _
    rw [mb, ma, s1.2]

/-- Entering generational mode in emergency mode keeps the objects to be
finalized. -/
theorem entergen_tbf (luaE_setdebt : global_State → Int → global_State)
    (hdebt : DebtOnly luaE_setdebt) (env : Env) (fuel : Nat) (L : Addr) (g g2 : global_State)
    (n : Nat) (lt : List Addr) (hS : TbfSafe g lt) (hem : g.gcemergency ≠ 0)
    (h : entergen luaE_setdebt env fuel L g = some (g2, n)) :
    ∃ ext, TbfSafe g2 (lt ++ ext) ∧ g2.gcemergency = g.gcemergency := by
  unfold entergen at h
  simp only [Option.bind_eq_bind, Option.bind_eq_some] at h
  obtain ⟨ga, ha, gb, hb, ⟨gc, nc⟩, hc, gd, hd, h⟩ := h
  simp only [Option.some.injEq, Prod.mk.injEq] at h
  obtain ⟨rfl, -⟩ := h
  obtain ⟨ea, sa, ma, -⟩ := luaC_runtilstate_tbf _ _ _ _ _ _ _ _ hS hem ha
  have ma2 : ga.gcemergency ≠ 0 := by rw [ma]; exact hem
  obtain ⟨eb, sb, mb, -⟩ := luaC_runtilstate_tbf _ _ _ _ _ _ _ _ sa ma2 hb
  have mb2 : gb.gcemergency ≠ 0 := by rw [mb]; exact ma2
  obtain ⟨ec, sc⟩ := atomic_marked _ _ _ _ _ _ _ sb hc
  have mc : gc.gcemergency = gb.gcemergency := by
    have := congrArg (fun t => t.2.2.1) (atomic_ctl _ _ _ _ _ _ hc)
    simpa [ctl] using this
  have mc2 : gc.gcemergency ≠ 0 := by rw [mc]; exact mb2
  obtain ⟨sd, md⟩ := atomic2gen_tbf _ _ _ _ _ _ sc mc2 hd
  obtain ⟨s7, m7⟩ := setminordebt_marked _ hdebt _ _ sd
  refine ⟨ea ++ eb ++ ec, ?_, ?_⟩
  · have e : lt ++ (ea ++ eb ++ ec) = lt ++ ea ++ eb ++ ec := by
      simp only [List.append_assoc]
    rw [e]
    exact tbfMarked_safe _ _ s7
  · rw [m7, md, mc, mb, ma]

/-- A generational full collection in emergency mode keeps the objects to be
finalized. -/
theorem fullgen_tbf (luaE_setdebt : global_State → Int → global_State)
    (hdebt : DebtOnly luaE_setdebt) (env : Env) (fuel : Nat) (L : Addr) (g g2 : global_State)
    (n : Nat) (lt : List Addr) (hS : TbfSafe g lt) (hem : g.gcemergency ≠ 0)
    (h : fullgen luaE_setdebt env fuel L g = some (g2, n)) :
    ∃ ext, TbfSafe g2 (lt ++ ext) ∧ g2.gcemergency = g.gcemergency := by
  unfold fullgen at h
  simp only [Option.bind_eq_bind, Option.bind_eq_some] at h
  obtain ⟨g1, h1, h⟩ := h
  obtain ⟨s1, m1, -⟩ := enterinc_tbf _ _ _ _ hS h1
  obtain ⟨ext, s2, m2⟩ := entergen_tbf _ hdebt _ _ _ _ _ _ _ s1 (by rw [m1]; exact hem) h
  exact ⟨ext, s2, m2.trans m1⟩

theorem singlestep_callfin_emergency (env : Env) (fuel : Nat) (g : global_State) (L : Addr)
    (hst : g.gcstate = GCScallfin) (hem : g.gcemergency ≠ 0) :
    singlestep env fuel g L = some ({ g with gcstate := GCSpause, gcstopem := 0 }, 0) := by
  unfold singlestep
  have h1 : singlestep_switch env fuel { g with gcstopem := 1 } L =
      some ({ ({ g with gcstopem := 1 } : global_State) with gcstate := GCSpause }, some 0) := by
    rw [singlestep_switch_callfin env fuel { g with gcstopem := 1 } L hst]
    exact if_neg (fun hc => hem hc.2)
  simp only [Option.bind_eq_bind, h1, Option.some_bind]

/-- An emergency full collection keeps the objects to be finalized safe. -/
theorem luaC_fullgc_tbf (luaE_setdebt : global_State → Int → global_State) (env : Env)
    (fuel : Nat) (g : global_State) (L : Addr) (lt : List Addr) (g2 : global_State)
    (hdebt : DebtOnly luaE_setdebt) (hS : TbfSafe g lt)
    (hrun : luaC_fullgc luaE_setdebt env fuel g L 1 = some g2) :
    ∃ ext, TbfSafe g2 (lt ++ ext) ∧ g2.gcemergency = 0 := by
  unfold luaC_fullgc at hrun
  simp only [Option.bind_eq_bind, Option.bind_eq_some] at hrun
  obtain ⟨g3, h3, h⟩ := hrun
  simp only [Option.some.injEq] at h
  subst h
  have s0 : TbfSafe { g with gcemergency := 1 } lt := tbfSafe_congr g _ _ rfl rfl rfl hS
  have m0 : ({ g with gcemergency := 1 } : global_State).gcemergency ≠ 0 := by
    show (1 : Nat) ≠ 0
    decide
  split at h3
  · obtain ⟨ext, s3, -⟩ := fullinc_tbf _ hdebt _ _ _ _ _ _ s0 m0 h3
    exact ⟨ext, tbfSafe_congr g3 _ _ rfl rfl rfl s3, rfl⟩
  · simp only [Option.map_eq_some'] at h3
    obtain ⟨⟨g4, n⟩, h4, rfl⟩ := h3
    obtain ⟨ext, s3, -⟩ := fullgen_tbf _ hdebt _ _ _ _ _ _ _ s0 m0 h4
    exact ⟨ext, tbfSafe_congr g4 _ _ rfl rfl rfl s3, rfl⟩

/-- C14. Emergency cycles never invoke finalizers.  While `gcemergency` is
set, `singlestep` in state `GCScallfin` moves to `GCSpause` with work 0 and
changes nothing else (but `gcstopem`), whatever `tobefnz` holds, and
`finishgencycle` does not call `callallpendingfinalizers`: it only corrects
the gray lists and sets the state.  Hence, in a state whose list `tobefnz`
is `lt` and holds no dead object, every step of an emergency collection
keeps `lt` at the head of `tobefnz` (the list only grows at its end), and so
does the whole of `luaC_fullgc(L, 1)`, in incremental and in generational
mode: when it returns, `tobefnz` is `lt` followed by the objects separated
meanwhile, every object of `lt` is still live, and `gcemergency` is 0. -/
theorem luaC_fullgc_emergency (luaE_setdebt : global_State → Int → global_State) (env : Env)
    (fuel : Nat) (g : global_State) (L : Addr) (lt : List Addr) (g2 : global_State)
    (hdebt : DebtOnly luaE_setdebt) (hS : TbfSafe g lt)
    (hrun : luaC_fullgc luaE_setdebt env fuel g L 1 = some g2) :
    (∃ ext, IsList g2.heap g2.tobefnz (lt ++ ext) ∧ TbfSafe g2 (lt ++ ext)) ∧
    (∀ a, a ∈ lt → (g2.heap a).isSome) ∧
    g2.gcemergency = 0 ∧
    (∀ (env2 : Env) (fuel2 : Nat) (s : global_State) (L2 : Addr), s.gcstate = GCScallfin →
      s.gcemergency ≠ 0 →
      singlestep env2 fuel2 s L2 = some ({ s with gcstate := GCSpause, gcstopem := 0 }, 0)) ∧
    (∀ (env2 : Env) (fuel2 : Nat) (L2 : Addr) (s : global_State), s.gcemergency ≠ 0 →
      finishgencycle env2 fuel2 L2 s =
        (correctgraylists fuel2 s).map (fun s1 => { s1 with gcstate := GCSpropagate })) ∧
    (∀ (env2 : Env) (fuel2 : Nat) (s : global_State) (L2 : Addr) (l : List Addr)
      (s2 : global_State) (w : Nat), TbfSafe s l → s.gcemergency ≠ 0 →
      singlestep env2 fuel2 s L2 = some (s2, w) →
      ∃ ext, IsList s2.heap s2.tobefnz (l ++ ext) ∧ TbfSafe s2 (l ++ ext) ∧
        s2.gcemergency = s.gcemergency) := by
  have hlist : ∀ (s : global_State) (l : List Addr), TbfSafe s l → IsList s.heap s.tobefnz l := by
    intro s l hs
    obtain ⟨⟨la, lf, lx, hL⟩, -, -⟩ := hs
    exact hL.2.2.1
  have hlive : ∀ (s : global_State) (l : List Addr), TbfSafe s l → ∀ a, a ∈ l →
      (s.heap a).isSome := by
    intro s l hs a ha
    obtain ⟨⟨la, lf, lx, hL⟩, -, -⟩ := hs
    rw [hL.2.2.2.2.2 a]
    exact List.mem_append_left _ (List.mem_append_right _ ha)
  obtain ⟨ext, s2, m2⟩ := luaC_fullgc_tbf luaE_setdebt env fuel g L lt g2 hdebt hS hrun
  refine ⟨⟨ext, hlist _ _ s2, s2⟩, ?_, m2, ?_, ?_, ?_⟩
  · intro a ha
    exact hlive _ _ s2 a (List.mem_append_left _ ha)
  · intro env2 fuel2 s L2 hst hem
    exact singlestep_callfin_emergency env2 fuel2 s L2 hst hem
  · intro env2 fuel2 L2 s hem
    exact finishgencycle_emergency env2 fuel2 L2 s hem
  · intro env2 fuel2 s L2 l s2 w hs hem hstep
    obtain ⟨e, s3, m3⟩ := singlestep_tbf env2 fuel2 s L2 l s2 w hs hem hstep
    exact ⟨e, hlist _ _ s3, s3, m3⟩

theorem exSetdebt_debtonly : DebtOnly exSetdebt := fun g d => ⟨_, _, rfl⟩

/-- C1. List disjointness is an invariant.  When every live object of `g`
is on exactly one of `allgc`, `finobj`, `tobefnz`, `fixedgc` (the lists
being `la`, `lf`, `lt`, `lx`), the same holds after each of the six
operations: `luaC_newobjdt` adds the fresh object at the head of `allgc`,
when the allocator hands out the block at the first try and, after the
emergency collection that a failed first try runs inside the call, at the
head of the `allgc` that collection left (there the current white is taken to
be one white bit and no object of `tobefnz` to be dead);
`luaC_fix` moves the head of `allgc` to `fixedgc`; `luaC_checkfinalizer`
leaves sublists of the old lists, with at most `o` new at the head of
`finobj`; `separatetobefnz` moves objects of `finobj` to the end of
`tobefnz`; `udata2finalize` moves the head of `tobefnz` to `allgc`; and
`sweeplist` leaves of each list a sublist, the live objects being exactly
those still linked. -/
theorem lists_disjoint_invariant (g : global_State) (la lf lt lx : List Addr)
    (hL : Lists g la lf lt lx) :
    (∀ luaE_setdebt env fuel alloc L tt sz init p, alloc g sz = some p → g.heap p = none →
      ∃ g2, luaC_newobjdt luaE_setdebt env fuel alloc g L tt sz init = some (g2, some p) ∧
        Lists g2 (p :: la) lf lt lx) ∧
    (∀ luaE_setdebt env fuel alloc L tt sz init g0 p, DebtOnly luaE_setdebt →
      (g.currentwhite = bitmask WHITE0BIT ∨ g.currentwhite = bitmask WHITE1BIT) →
      (∀ a, a ∈ lt → ∀ x, g.heap a = some x → isdead g x.marked = false) →
      alloc g sz = none → g.gcstopem = 0 →
      luaC_fullgc luaE_setdebt env fuel g L 1 = some g0 → alloc g0 sz = some p →
      g0.heap p = none →
      ∃ g2 la0 lf0 lt0 lx0,
        luaC_newobjdt luaE_setdebt env fuel alloc g L tt sz init = some (g2, some p) ∧
        Lists g0 la0 lf0 lt0 lx0 ∧ Lists g2 (p :: la0) lf0 lt0 lx0) ∧
    (∀ o g2, g.allgc = some o → luaC_fix g o = some g2 →
      Lists g2 (la.erase o) lf lt (o :: lx)) ∧
    (∀ fuel o mt g2, luaC_checkfinalizer fuel g o mt = some g2 →
      ∃ la2 lf2 lt2 lx2, Lists g2 la2 lf2 lt2 lx2 ∧ la2.Sublist la ∧
        (lf2.Sublist lf ∨ ∃ lf3, lf2 = o :: lf3 ∧ lf3.Sublist lf) ∧
        lt2.Sublist lt ∧ lx2.Sublist lx) ∧
    (∀ fuel all g2, separatetobefnz fuel g all = some g2 →
      ∃ lf2 moved, Lists g2 la lf2 (lt ++ moved) lx ∧ lf2.Sublist lf ∧
        ∀ a, a ∈ moved → a ∈ lf) ∧
    (∀ g2 o, udata2finalize g = some (g2, o) → Lists g2 (o :: la) lf (lt.erase o) lx) ∧
    (∀ p n g2 q i, sweeplist g p n = some (g2, q, i) →
      ∃ la2 lf2 lt2 lx2, Lists g2 la2 lf2 lt2 lx2 ∧ la2.Sublist la ∧ lf2.Sublist lf ∧
        lt2.Sublist lt ∧ lx2.Sublist lx) := by
  refine ⟨?_, ?_, ?_, ?_, ?_, ?_, ?_⟩
  · intro luaE_setdebt env fuel alloc L tt sz init p ha hp
    exact ⟨_, luaC_newobjdt_of _ _ _ _ _ _ tt _ init _ _
        (luaM_newobject_first luaE_setdebt env fuel alloc g L sz p ha),
      lists_newobj { g with GCdebt := g.GCdebt + sz } tt p init la lf lt lx hL hp⟩
  · intro luaE_setdebt env fuel alloc L tt sz init g0 p hdebt hcw hdead ha hs hgc h0 hp
    obtain ⟨ext, ⟨⟨la0, lf0, lx0, hL0⟩, -, -⟩, -⟩ :=
      luaC_fullgc_tbf luaE_setdebt env fuel g L lt g0 hdebt ⟨⟨la, lf, lx, hL⟩, hcw, hdead⟩ hgc
    exact ⟨_, la0, lf0, lt ++ ext, lx0, luaC_newobjdt_of _ _ _ _ _ _ tt _ init _ _
        (luaM_newobject_retry luaE_setdebt env fuel alloc g L sz g0 p ha hs hgc h0), hL0,
      lists_newobj { g0 with GCdebt := g0.GCdebt + sz } tt p init la0 lf0 (lt ++ ext) lx0 hL0 hp⟩
  · intro o g2 ho hrun
    exact lists_fix g g2 o la lf lt lx hL ho hrun
  · intro fuel o mt g2 hrun
    exact checkfinalizer_lists fuel g g2 o mt la lf lt lx hL hrun
  · intro fuel all g2 hrun
    obtain ⟨lf2, moved, h1, h2, h3, -⟩ := separatetobefnz_lists fuel g g2 all la lf lt lx hL hrun
    exact ⟨lf2, moved, h1, h2, h3⟩
  · intro g2 o hrun
    exact (lists_udata2finalize g g2 o la lf lt lx hL hrun).1
  · intro p n g2 q i hrun
    exact sweeplist_disjoint g g2 p n q i la lf lt lx hL hrun

/-- C1 at the concrete state `exFin`: each of the six operations returns a
state whose lists are again disjoint. -/
theorem lists_disjoint_invariant_witness :
    Lists exFin [4, 1, 2, 3] [5] [6] [] ∧
    (∃ g2, luaC_newobjdt exSetdebt exEnv 10 (fun _ _ => some 9) exFin 0 .LUA_VTABLE 56
        (GCObject.blank .LUA_VTABLE) = some (g2, some 9) ∧
      Lists g2 [9, 4, 1, 2, 3] [5] [6] []) ∧
    (∃ g2, luaC_fix exFin 4 = some g2 ∧ Lists g2 [1, 2, 3] [5] [6] [4]) ∧
    (∃ g2, luaC_checkfinalizer 10 exFin 1 (some 4) = some g2 ∧ ListsDisjoint g2) ∧
    (∃ g2 lf2 moved, separatetobefnz 10 exFin false = some g2 ∧
      Lists g2 [4, 1, 2, 3] lf2 ([6] ++ moved) []) ∧
    (∃ g2 o, udata2finalize exFin = some (g2, o) ∧
      Lists g2 (o :: [4, 1, 2, 3]) [5] ([6].erase o) []) ∧
    (∃ g2 q i, sweeplist exFin .allgc 10 = some (g2, q, i) ∧ ListsDisjoint g2) := by
  have W := lists_disjoint_invariant exFin _ _ _ _ exFin_lists
  have h2 : (luaC_fix exFin 4).isSome = true := by rfl
  have h3 : (luaC_checkfinalizer 10 exFin 1 (some 4)).isSome = true := by rfl
  have h4 : (separatetobefnz 10 exFin false).isSome = true := by rfl
  have h5 : (udata2finalize exFin).isSome = true := by rfl
  have h6 : (sweeplist exFin .allgc 10).isSome = true := by rfl
  obtain ⟨g2, hg2⟩ := Option.isSome_iff_exists.1 h2
  obtain ⟨g3, hg3⟩ := Option.isSome_iff_exists.1 h3
  obtain ⟨g4, hg4⟩ := Option.isSome_iff_exists.1 h4
  obtain ⟨⟨g5, o5⟩, hg5⟩ := Option.isSome_iff_exists.1 h5
  obtain ⟨⟨g6, q6, i6⟩, hg6⟩ := Option.isSome_iff_exists.1 h6
  refine ⟨exFin_lists, W.1 exSetdebt exEnv 10 (fun _ _ => some 9) 0 .LUA_VTABLE 56 _ 9 rfl rfl, ⟨g2, hg2, W.2.2.1 4 g2 rfl hg2⟩, ?_, ?_,
    ⟨g5, o5, hg5, W.2.2.2.2.2.1 g5 o5 hg5⟩, ?_⟩
  · obtain ⟨la2, lf2, lt2, lx2, k, -⟩ := W.2.2.2.1 10 1 (some 4) g3 hg3
    exact ⟨g3, hg3, la2, lf2, lt2, lx2, k⟩
  · obtain ⟨lf2, moved, k, -⟩ := W.2.2.2.2.1 10 false g4 hg4
    exact ⟨g4, lf2, moved, hg4, k⟩
  · obtain ⟨la2, lf2, lt2, lx2, k, -⟩ := W.2.2.2.2.2.2 .allgc 10 g6 q6 i6 hg6
    exact ⟨g6, q6, i6, hg6, la2, lf2, lt2, lx2, k⟩

/-! ### C21: leaving generational mode -/

/-- C21 (amended). When `luaC_changemode` switches from generational to
incremental mode it returns (the lists being well formed and shorter than
the fuel), and the generational cursors of the lists are cleared:
`survival`, `old1` and `reallyold` for `allgc`, and `finobjsur`,
`finobjold1` and `finobjrold` for `finobj`, are all `NULL`; the collector is
in incremental mode, in the pause state.  The pointer `firstold1` is left as
it was. -/
theorem luaC_changemode_inc (luaE_setdebt : global_State → Int → global_State) (env : Env)
    (fuel : Nat) (L : Addr) (g : global_State) (la lf lt lx : List Addr)
    (hL : Lists g la lf lt lx) (hfa : la.length < fuel) (hff : lf.length < fuel)
    (hft : lt.length < fuel) (hgen : g.gckind = KGC_GEN) :
    ∃ g2, luaC_changemode luaE_setdebt env fuel L g KGC_INC = some g2 ∧
      g2.survival = none ∧ g2.old1 = none ∧ g2.reallyold = none ∧
      g2.finobjsur = none ∧ g2.finobjold1 = none ∧ g2.finobjrold = none ∧
      g2.firstold1 = g.firstold1 ∧
      g2.gckind = KGC_INC ∧ g2.gcstate = GCSpause ∧ g2.lastatomic = 0 := by
  obtain ⟨g1, hp, h1, e1, -⟩ := enterinc_detail fuel g la lf lt lx hL hfa hff hft
  have hne : KGC_INC ≠ g.gckind := by rw [hgen]; decide
  have hng : ¬ KGC_INC = KGC_GEN := by decide
  refine ⟨{ g1 with lastatomic := 0 }, ?_, ?_⟩
  · unfold luaC_changemode
    rw [if_pos hne, if_neg hng, h1]
    rfl
  · subst e1
    exact ⟨rfl, rfl, rfl, rfl, rfl, rfl, rfl, rfl, rfl, rfl⟩

theorem exGenFin_lists : Lists exGenFin [4, 1, 2, 3] [5] [6] [] :=
  lists_congr exFin exGenFin _ _ _ _ (fun _ => rfl) rfl exFin_lists

/-- Witness of C21: the mode change of `exGenFin`. -/
theorem luaC_changemode_inc_witness :
    ∃ g2, luaC_changemode exSetdebt exEnv 10 1 exGenFin KGC_INC = some g2 ∧
      g2.survival = none ∧ g2.old1 = none ∧ g2.reallyold = none ∧
      g2.finobjsur = none ∧ g2.finobjold1 = none ∧ g2.finobjrold = none ∧
      g2.firstold1 = exGenFin.firstold1 ∧
      g2.gckind = KGC_INC ∧ g2.gcstate = GCSpause ∧ g2.lastatomic = 0 :=
  luaC_changemode_inc exSetdebt exEnv 10 1 exGenFin _ _ _ _ exGenFin_lists
    (by decide) (by decide) (by decide) rfl

/-- Counterexample to C21 as stated: after the switch of `exGenFin` from
generational to incremental mode, `firstold1` is not `NULL`. -/
theorem luaC_changemode_counterexample :
    exGenFin.gckind = KGC_GEN ∧
    ∃ g2, luaC_changemode exSetdebt exEnv 10 1 exGenFin KGC_INC = some g2 ∧
      g2.gckind = KGC_INC ∧ g2.firstold1 = some 1 ∧
      ¬ (g2.survival = none ∧ g2.old1 = none ∧ g2.reallyold = none ∧ g2.firstold1 = none ∧
        g2.finobjsur = none ∧ g2.finobjold1 = none ∧ g2.finobjrold = none) := by
  refine ⟨rfl, ?_⟩
  have h : (luaC_changemode exSetdebt exEnv 10 1 exGenFin KGC_INC).isSome = true := by rfl
  obtain ⟨r, hr⟩ := Option.isSome_iff_exists.1 h
  have e : (luaC_changemode exSetdebt exEnv 10 1 exGenFin KGC_INC).map
      (fun s => (s.gckind, s.firstold1)) = some (KGC_INC, some 1) := by rfl
  rw [hr] at e
  simp only [Option.map_some', Option.some.injEq, Prod.mk.injEq] at e
  refine ⟨r, hr, e.1, e.2, ?_⟩
  intro hc
  rw [e.2] at hc
  exact absurd hc.2.2.2.1 (by simp)

/-! ### Marking repaints objects and keeps the lists -/

theorem paints_refl {R : Nat → Nat → Prop} (hR : MarkRel R) (x : GCObject) : paints R x x :=
  ⟨rfl, rfl, hR.refl _⟩

theorem paints_trans {R : Nat → Nat → Prop} (hR : MarkRel R) (x y z : GCObject)
    (h1 : paints R x y) (h2 : paints R y z) : paints R x z :=
  ⟨h2.1.trans h1.1, h2.2.1.trans h1.2.1, hR.trans _ _ _ h1.2.2 h2.2.2⟩

theorem paints_gray {R : Nat → Nat → Prop} (hR : MarkRel R) (x : GCObject) :
    paints R x { x with marked := set2gray x.marked } := ⟨rfl, rfl, hR.gray _⟩

theorem paints_black {R : Nat → Nat → Prop} (hR : MarkRel R) (x : GCObject) :
    paints R x { x with marked := set2black x.marked } := ⟨rfl, rfl, hR.black _⟩

theorem paints_nw2black {R : Nat → Nat → Prop} (hR : MarkRel R) (x : GCObject) :
    paints R x { x with marked := nw2black x.marked } := ⟨rfl, rfl, hR.nwblack _⟩

theorem paints_same {R : Nat → Nat → Prop} (hR : MarkRel R) (x y : GCObject)
    (h1 : y.next = x.next) (h2 : y.tt = x.tt) (h3 : y.marked = x.marked) : paints R x y :=
  ⟨h1, h2, by rw [h3]; exact hR.refl _⟩

theorem paint_refl {R : Nat → Nat → Prop} (hR : MarkRel R) (h : Heap) : Paint R h h := fun _ => ⟨fun e => e, fun x e => ⟨x, e, paints_refl hR x⟩⟩

theorem paint_trans {R : Nat → Nat → Prop} (hR : MarkRel R) (h1 h2 h3 : Heap) (h12 : Paint R h1 h2) (h23 : Paint R h2 h3) : Paint R h1 h3 := by
  intro a
  refine ⟨fun e => (h23 a).1 ((h12 a).1 e), ?_⟩
  intro x e
  obtain ⟨y, hy, f1⟩ := (h12 a).2 x e
  obtain ⟨z, hz, f2⟩ := (h23 a).2 y hy
  exact ⟨z, hz, paints_trans hR _ _ _ f1 f2⟩

theorem paintS_refl {R : Nat → Nat → Prop} (hR : MarkRel R) (g : global_State) : PaintS R g g := ⟨rfl, paint_refl hR _⟩

theorem paintS_trans {R : Nat → Nat → Prop} (hR : MarkRel R) (g1 g2 g3 : global_State) (h12 : PaintS R g1 g2) (h23 : PaintS R g2 g3) :
    PaintS R g1 g3 :=
  ⟨h23.1.trans h12.1, paint_trans hR _ _ _ h12.2 h23.2⟩

theorem paint_set {R : Nat → Nat → Prop} (hR : MarkRel R) (h : Heap) (a : Addr) (x y : GCObject) (hx : h a = some x) (hf : paints R x y) :
    Paint R h (Heap.set h a y) := by
  intro b
  by_cases hb : b = a
  · subst hb
    refine ⟨(fun e => by rw [hx] at e; cases e), ?_⟩
    intro z hz
    rw [hx] at hz
    cases hz
    exact ⟨y, heap_set_same _ _ _, hf⟩
  · rw [heap_set_ne _ _ _ _ hb]
    exact ⟨fun e => e, fun z hz => ⟨z, hz, paints_refl hR z⟩⟩

theorem paintS_setobj {R : Nat → Nat → Prop} (hR : MarkRel R) (g : global_State) (a : Addr) (x y : GCObject) (hx : g.heap a = some x)
    (hf : paints R x y) : PaintS R g (g.setobj a y) :=
  ⟨rfl, paint_set hR g.heap a x y hx hf⟩

theorem paintS_setlist {R : Nat → Nat → Prop} (hR : MarkRel R) (g : global_State) (l : GrayList) (v : Option Addr) :
    PaintS R g (g.setlist l v) := by
  cases l <;> exact ⟨rfl, paint_refl hR _⟩

theorem linkgclist__paint {R : Nat → Nat → Prop} (hR : MarkRel R) (g g2 : global_State) (o : Addr) (pn : Option Addr) (l : GrayList)
    (h : linkgclist_ g o pn l = some g2) : PaintS R g g2 := by
  unfold linkgclist_ at h
  simp only [Option.bind_eq_bind, Option.bind_eq_some] at h
  obtain ⟨a, -, x, hx, y, hy, h⟩ := h
  cases h
  have f1 : PaintS R g (g.setobj a { x with gclist := g.getlist l }) :=
    paintS_setobj hR g a x _ hx ⟨rfl, rfl, hR.refl _⟩
  have f2 := paintS_setlist hR (g.setobj a { x with gclist := g.getlist l }) l (some o)
  exact paintS_trans hR _ _ _ (paintS_trans hR _ _ _ f1 f2) (paintS_setobj hR _ o y _ hy (paints_gray hR y))

theorem linkobjgclist_paint {R : Nat → Nat → Prop} (hR : MarkRel R) (g g2 : global_State) (o : Addr) (l : GrayList)
    (h : linkobjgclist g o l = some g2) : PaintS R g g2 := by
  unfold linkobjgclist at h
  simp only [Option.bind_eq_bind, Option.bind_eq_some] at h
  obtain ⟨x, -, h⟩ := h
  exact linkgclist__paint hR _ _ _ _ _ h

theorem markobject_with_paint {R : Nat → Nat → Prop} (hR : MarkRel R) (mark : global_State → Addr → Option global_State)
    (hmark : ∀ g o g2, mark g o = some g2 → PaintS R g g2)
    (g g2 : global_State) (t : Addr) (h : markobject_with mark g t = some g2) :
    PaintS R g g2 := by
  unfold markobject_with at h
  simp only [Option.bind_eq_bind, Option.bind_eq_some] at h
  obtain ⟨x, -, h⟩ := h
  split at h
  · exact hmark _ _ _ h
  · cases h
    exact paintS_refl hR _

theorem markrec_paint {R : Nat → Nat → Prop} (hR : MarkRel R) (fuel : Nat) : ∀ (g : global_State) (o : Addr) (g2 : global_State),
    markrec fuel g o = some g2 → PaintS R g g2 := by
  induction fuel with
  | zero => intro g o g2 h; simp [markrec] at h
  | succ n ih =>
    intro g o g2 h
    rw [markrec] at h
    simp only [Option.bind_eq_bind, Option.bind_eq_some] at h
    obtain ⟨x, hx, h⟩ := h
    split at h
    · cases h
      exact paintS_setobj hR _ _ _ _ hx (paints_black hR x)
    · cases h
      exact paintS_setobj hR _ _ _ _ hx (paints_black hR x)
    · have f1 : PaintS R g (g.setobj o
          { x with marked := if upisopen x then set2gray x.marked else set2black x.marked }) := by
        refine paintS_setobj hR _ _ _ _ hx ?_
        split
        · exact paints_gray hR x
        · exact paints_black hR x
      split at h
      · cases h
      · exact paintS_trans hR _ _ _ f1 (markobject_with_paint hR _ ih _ _ _ h)
      · cases h
        exact f1
    · split at h
      · split at h
        · simp only [Option.some_bind, Option.bind_eq_some] at h
          obtain ⟨y, hy, h⟩ := h
          cases h
          exact paintS_setobj hR _ _ _ _ hy (paints_black hR y)
        · simp only [Option.bind_eq_some] at h
          obtain ⟨g1, h1, y, hy, h⟩ := h
          cases h
          exact paintS_trans hR _ _ _ (markobject_with_paint hR _ ih _ _ _ h1)
            (paintS_setobj hR _ _ _ _ hy (paints_black hR y))
      · exact linkobjgclist_paint hR _ _ _ _ h
    · exact linkobjgclist_paint hR _ _ _ _ h

theorem reallymarkobject_paint {R : Nat → Nat → Prop} (hR : MarkRel R) (g : global_State) (o : Addr) (g2 : global_State)
    (h : reallymarkobject g o = some g2) : PaintS R g g2 :=
  markrec_paint hR 3 g o g2 h

theorem markobject_paint {R : Nat → Nat → Prop} (hR : MarkRel R) (g : global_State) (t : Addr) (g2 : global_State)
    (h : markobject g t = some g2) : PaintS R g g2 :=
  markobject_with_paint hR _ (reallymarkobject_paint hR) g g2 t h

theorem markvalue_paint {R : Nat → Nat → Prop} (hR : MarkRel R) (g : global_State) (v : TValue) (g2 : global_State)
    (h : markvalue g v = some g2) : PaintS R g g2 := by
  unfold markvalue at h
  split at h
  · exact markobject_paint hR _ _ _ h
  · cases h
    exact paintS_refl hR _

theorem markkey_paint {R : Nat → Nat → Prop} (hR : MarkRel R) (g : global_State) (n : Node) (g2 : global_State)
    (h : markkey g n = some g2) : PaintS R g g2 := by
  unfold markkey at h
  split at h
  · exact markobject_paint hR _ _ _ h
  · cases h
    exact paintS_refl hR _

theorem markobjectN_paint {R : Nat → Nat → Prop} (hR : MarkRel R) (g : global_State) (t : Option Addr) (g2 : global_State)
    (h : markobjectN g t = some g2) : PaintS R g g2 := by
  unfold markobjectN at h
  split at h
  · cases h
    exact paintS_refl hR _
  · exact markobject_paint hR _ _ _ h

theorem iscleared_paint {R : Nat → Nat → Prop} (hR : MarkRel R) (g : global_State) (o : Option Addr) (g2 : global_State) (b : Bool)
    (h : iscleared g o = some (g2, b)) : PaintS R g g2 := by
  unfold iscleared at h
  split at h
  · cases h
    exact paintS_refl hR _
  · simp only [Option.bind_eq_bind, Option.bind_eq_some] at h
    obtain ⟨x, -, h⟩ := h
    split at h
    · simp only [Option.bind_eq_some] at h
      obtain ⟨g1, h1, h⟩ := h
      cases h
      exact markobject_paint hR _ _ _ h1
    · cases h
      exact paintS_refl hR _

theorem linkgclist_paint {R : Nat → Nat → Prop} (hR : MarkRel R) (g g2 : global_State) (o : Addr) (l : GrayList)
    (h : linkgclist g o l = some g2) : PaintS R g g2 :=
  linkgclist__paint hR _ _ _ _ _ h

theorem genlink_paint {R : Nat → Nat → Prop} (hR : MarkRel R) (g : global_State) (o : Addr) (g2 : global_State)
    (h : genlink g o = some g2) : PaintS R g g2 := by
  unfold genlink at h
  simp only [Option.bind_eq_bind, Option.bind_eq_some] at h
  obtain ⟨x, hx, h⟩ := h
  split at h
  · exact linkobjgclist_paint hR _ _ _ _ h
  · split at h
    · cases h
      rename_i hage
      exact paintS_setobj hR _ _ _ _ hx ⟨rfl, rfl, hR.old _ hage⟩
    · cases h
      exact paintS_refl hR _

theorem markvalues_paint {R : Nat → Nat → Prop} (hR : MarkRel R) (l : List TValue) : ∀ (g g2 : global_State),
    markvalues l g = some g2 → PaintS R g g2 := by
  induction l with
  | nil => intro g g2 h; cases h; exact paintS_refl hR _
  | cons x rest ih =>
    intro g g2 h
    rw [markvalues] at h
    simp only [Option.bind_eq_bind, Option.bind_eq_some] at h
    obtain ⟨g1, h1, h⟩ := h
    exact paintS_trans hR _ _ _ (markvalue_paint hR _ _ _ h1) (ih _ _ h)

theorem markobjectsN_paint {R : Nat → Nat → Prop} (hR : MarkRel R) (l : List (Option Addr)) : ∀ (g g2 : global_State),
    markobjectsN l g = some g2 → PaintS R g g2 := by
  induction l with
  | nil => intro g g2 h; cases h; exact paintS_refl hR _
  | cons x rest ih =>
    intro g g2 h
    rw [markobjectsN] at h
    simp only [Option.bind_eq_bind, Option.bind_eq_some] at h
    obtain ⟨g1, h1, h⟩ := h
    exact paintS_trans hR _ _ _ (markobjectN_paint hR _ _ _ h1) (ih _ _ h)

theorem traverseweakvalue_loop_paint {R : Nat → Nat → Prop} (hR : MarkRel R) (h : Addr) (n : Nat) : ∀ (i : Nat) (g : global_State)
    (c : Bool) (g2 : global_State) (c2 : Bool),
    traverseweakvalue_loop h n i g c = some (g2, c2) → PaintS R g g2 := by
  induction n with
  | zero => intro i g c g2 c2 hr; cases hr; exact paintS_refl hR _
  | succ n ih =>
    intro i g c g2 c2 hr
    rw [traverseweakvalue_loop] at hr
    simp only [Option.bind_eq_bind, Option.bind_eq_some] at hr
    obtain ⟨t, ht, nd, -, hr⟩ := hr
    split at hr
    · have e := ih _ _ _ _ _ hr
      refine paintS_trans hR _ _ _ ?_ e
      exact paintS_setobj hR _ _ _ _ ht (paints_same hR _ _ rfl rfl rfl)
    · simp only [Option.bind_eq_some] at hr
      obtain ⟨g1, h1, hr⟩ := hr
      split at hr
      · simp only [Option.bind_eq_some] at hr
        obtain ⟨⟨g3, c3⟩, h3, hr⟩ := hr
        exact paintS_trans hR _ _ _ (paintS_trans hR _ _ _ (markkey_paint hR _ _ _ h1)
          (iscleared_paint hR _ _ _ _ h3)) (ih _ _ _ _ _ hr)
      · exact paintS_trans hR _ _ _ (markkey_paint hR _ _ _ h1) (ih _ _ _ _ _ hr)

theorem traverseweakvalue_paint {R : Nat → Nat → Prop} (hR : MarkRel R) (g : global_State) (h : Addr) (g2 : global_State)
    (hr : traverseweakvalue g h = some g2) : PaintS R g g2 := by
  unfold traverseweakvalue at hr
  simp only [Option.bind_eq_bind, Option.bind_eq_some] at hr
  obtain ⟨t, -, ⟨g1, c⟩, h1, hr⟩ := hr
  have e1 := traverseweakvalue_loop_paint hR _ _ _ _ _ _ _ h1
  split at hr
  · exact paintS_trans hR _ _ _ e1 (linkgclist_paint hR _ _ _ _ hr)
  · exact paintS_trans hR _ _ _ e1 (linkgclist_paint hR _ _ _ _ hr)

theorem traverseephemeron_array_paint {R : Nat → Nat → Prop} (hR : MarkRel R) (l : List TValue) : ∀ (g : global_State) (m : Bool)
    (g2 : global_State) (m2 : Bool),
    traverseephemeron_array l g m = some (g2, m2) → PaintS R g g2 := by
  induction l with
  | nil => intro g m g2 m2 h; cases h; exact paintS_refl hR _
  | cons x rest ih =>
    intro g m g2 m2 h
    rw [traverseephemeron_array] at h
    simp only [Option.bind_eq_bind, Option.bind_eq_some] at h
    obtain ⟨w, -, h⟩ := h
    split at h
    · simp only [Option.bind_eq_some] at h
      obtain ⟨r, -, g1, h1, h⟩ := h
      exact paintS_trans hR _ _ _ (reallymarkobject_paint hR _ _ _ h1) (ih _ _ _ _ h)
    · exact ih _ _ _ _ h

theorem traverseephemeron_loop_paint {R : Nat → Nat → Prop} (hR : MarkRel R) (h : Addr) (inv : Bool) (nsize : Nat) (n : Nat) :
    ∀ (i : Nat) (g : global_State) (f : EphFlags) (g2 : global_State) (f2 : EphFlags),
    traverseephemeron_loop h inv nsize n i g f = some (g2, f2) → PaintS R g g2 := by
  induction n with
  | zero => intro i g f g2 f2 hr; cases hr; exact paintS_refl hR _
  | succ n ih =>
    intro i g f g2 f2 hr
    rw [traverseephemeron_loop] at hr
    simp only [Option.bind_eq_bind, Option.bind_eq_some] at hr
    obtain ⟨t, ht, nd, -, hr⟩ := hr
    split at hr
    · have e := ih _ _ _ _ _ hr
      refine paintS_trans hR _ _ _ ?_ e
      exact paintS_setobj hR _ _ _ _ ht (paints_same hR _ _ rfl rfl rfl)
    · simp only [Option.bind_eq_some] at hr
      obtain ⟨⟨g1, c⟩, h1, w, -, hr⟩ := hr
      have e1 := iscleared_paint hR _ _ _ _ h1
      split at hr
      · exact paintS_trans hR _ _ _ (e1) (ih _ _ _ _ _ hr)
      · split at hr
        · simp only [Option.bind_eq_some] at hr
          obtain ⟨r, -, g3, h3, hr⟩ := hr
          exact paintS_trans hR _ _ _ (paintS_trans hR _ _ _ (e1) (reallymarkobject_paint hR _ _ _ h3)) (ih _ _ _ _ _ hr)
        · exact paintS_trans hR _ _ _ (e1) (ih _ _ _ _ _ hr)

theorem traverseephemeron_paint {R : Nat → Nat → Prop} (hR : MarkRel R) (g : global_State) (h : Addr) (inv : Bool) (g2 : global_State)
    (m : Bool) (hr : traverseephemeron g h inv = some (g2, m)) : PaintS R g g2 := by
  unfold traverseephemeron at hr
  simp only [Option.bind_eq_bind, Option.bind_eq_some] at hr
  obtain ⟨t, -, ⟨g1, m1⟩, h1, ⟨g3, f⟩, h3, hr⟩ := hr
  have e1 := traverseephemeron_array_paint hR _ _ _ _ _ h1
  have e3 := traverseephemeron_loop_paint hR _ _ _ _ _ _ _ _ _ h3
  dsimp only at hr
  have key : ∀ r : Option global_State, (∀ g4, r = some g4 → PaintS R g3 g4) →
      (r.bind fun y => some (y, f.marked)) = some (g2, m) → PaintS R g g2 := by
    intro r hk hb
    simp only [Option.bind_eq_some, Option.some.injEq, Prod.mk.injEq] at hb
    obtain ⟨g4, h4, rfl, -⟩ := hb
    exact paintS_trans hR _ _ _ (paintS_trans hR _ _ _ (e1) (e3)) (hk _ h4)
  split at hr
  · exact key _ (fun g4 h4 => linkgclist_paint hR _ _ _ _ h4) hr
  · split at hr
    · exact key _ (fun g4 h4 => linkgclist_paint hR _ _ _ _ h4) hr
    · split at hr
      · exact key _ (fun g4 h4 => linkgclist_paint hR _ _ _ _ h4) hr
      · exact key _ (fun g4 h4 => genlink_paint hR _ _ _ h4) hr

theorem traversestrongtable_loop_paint {R : Nat → Nat → Prop} (hR : MarkRel R) (h : Addr) (n : Nat) : ∀ (i : Nat) (g g2 : global_State),
    traversestrongtable_loop h n i g = some g2 → PaintS R g g2 := by
  induction n with
  | zero => intro i g g2 hr; cases hr; exact paintS_refl hR _
  | succ n ih =>
    intro i g g2 hr
    rw [traversestrongtable_loop] at hr
    simp only [Option.bind_eq_bind, Option.bind_eq_some] at hr
    obtain ⟨t, ht, nd, -, hr⟩ := hr
    split at hr
    · have e := ih _ _ _ hr
      refine paintS_trans hR _ _ _ ?_ e
      exact paintS_setobj hR _ _ _ _ ht (paints_same hR _ _ rfl rfl rfl)
    · simp only [Option.bind_eq_some] at hr
      obtain ⟨g1, h1, g3, h3, hr⟩ := hr
      exact paintS_trans hR _ _ _ (paintS_trans hR _ _ _ (markkey_paint hR _ _ _ h1) (markvalue_paint hR _ _ _ h3)) (ih _ _ _ hr)

theorem traversestrongtable_paint {R : Nat → Nat → Prop} (hR : MarkRel R) (g : global_State) (h : Addr) (g2 : global_State)
    (hr : traversestrongtable g h = some g2) : PaintS R g g2 := by
  unfold traversestrongtable at hr
  simp only [Option.bind_eq_bind, Option.bind_eq_some] at hr
  obtain ⟨t, -, g1, h1, g3, h3, hr⟩ := hr
  exact paintS_trans hR _ _ _ (paintS_trans hR _ _ _ (markvalues_paint hR _ _ _ h1) (traversestrongtable_loop_paint hR _ _ _ _ _ h3)) (genlink_paint hR _ _ _ hr)

theorem traversetable_paint {R : Nat → Nat → Prop} (hR : MarkRel R) (g : global_State) (h : Addr) (g2 : global_State) (w : Nat)
    (hr : traversetable g h = some (g2, w)) : PaintS R g g2 := by
  unfold traversetable at hr
  simp only [Option.bind_eq_bind, Option.bind_eq_some] at hr
  obtain ⟨t, -, mode, -, g1, h1, hr⟩ := hr
  have e1 := markobjectN_paint hR _ _ _ h1
  have key : ∀ r : Option global_State, (∀ g3, r = some g3 → PaintS R g1 g3) →
      (r.bind fun g3 => (g3.heap h).bind fun t2 =>
        some (g3, 1 + t2.alimit + 2 * allocsizenode t2)) = some (g2, w) → PaintS R g g2 := by
    intro r hk hb
    simp only [Option.bind_eq_some, Option.some.injEq, Prod.mk.injEq] at hb
    obtain ⟨g3, h3, t2, -, rfl, -⟩ := hb
    exact paintS_trans hR _ _ _ (e1) (hk _ h3)
  split at hr
  · simp only [Option.bind_eq_bind, Option.bind_eq_some] at hr
    obtain ⟨smode, -, hr⟩ := hr
    split at hr
    · split at hr
      · exact key _ (fun g3 h3 => traverseweakvalue_paint hR _ _ _ h3) hr
      · split at hr
        · refine key _ ?_ hr
          intro g3 h3
          simp only [Option.map_eq_some'] at h3
          obtain ⟨⟨g4, m⟩, h4, rfl⟩ := h3
          exact traverseephemeron_paint hR _ _ _ _ _ h4
        · exact key _ (fun g3 h3 => linkgclist_paint hR _ _ _ _ h3) hr
    · exact key _ (fun g3 h3 => traversestrongtable_paint hR _ _ _ h3) hr
  · exact key _ (fun g3 h3 => traversestrongtable_paint hR _ _ _ h3) hr

theorem traverseudata_paint {R : Nat → Nat → Prop} (hR : MarkRel R) (g : global_State) (u : Addr) (g2 : global_State) (w : Nat)
    (hr : traverseudata g u = some (g2, w)) : PaintS R g g2 := by
  unfold traverseudata at hr
  simp only [Option.bind_eq_bind, Option.bind_eq_some] at hr
  obtain ⟨x, -, g1, h1, g3, h3, g4, h4, y, -, hr⟩ := hr
  simp only [Option.some.injEq, Prod.mk.injEq] at hr
  obtain ⟨rfl, -⟩ := hr
  exact paintS_trans hR _ _ _ (paintS_trans hR _ _ _ (markobjectN_paint hR _ _ _ h1) (markvalues_paint hR _ _ _ h3)) (genlink_paint hR _ _ _ h4)

theorem traverseproto_paint {R : Nat → Nat → Prop} (hR : MarkRel R) (g : global_State) (f : Addr) (g2 : global_State) (w : Nat)
    (hr : traverseproto g f = some (g2, w)) : PaintS R g g2 := by
  unfold traverseproto at hr
  simp only [Option.bind_eq_bind, Option.bind_eq_some] at hr
  obtain ⟨x, -, g1, h1, g3, h3, g4, h4, g5, h5, g6, h6, hr⟩ := hr
  simp only [Option.some.injEq, Prod.mk.injEq] at hr
  obtain ⟨rfl, -⟩ := hr
  exact paintS_trans hR _ _ _ (paintS_trans hR _ _ _ (paintS_trans hR _ _ _ (paintS_trans hR _ _ _ (markobjectN_paint hR _ _ _ h1) (markvalues_paint hR _ _ _ h3)) (markobjectsN_paint hR _ _ _ h4)) (markobjectsN_paint hR _ _ _ h5)) (markobjectsN_paint hR _ _ _ h6)

theorem traverseCclosure_paint {R : Nat → Nat → Prop} (hR : MarkRel R) (g : global_State) (cl : Addr) (g2 : global_State) (w : Nat)
    (hr : traverseCclosure g cl = some (g2, w)) : PaintS R g g2 := by
  unfold traverseCclosure at hr
  simp only [Option.bind_eq_bind, Option.bind_eq_some] at hr
  obtain ⟨x, -, g1, h1, hr⟩ := hr
  simp only [Option.some.injEq, Prod.mk.injEq] at hr
  obtain ⟨rfl, -⟩ := hr
  exact markvalues_paint hR _ _ _ h1

theorem traverseLclosure_paint {R : Nat → Nat → Prop} (hR : MarkRel R) (g : global_State) (cl : Addr) (g2 : global_State) (w : Nat)
    (hr : traverseLclosure g cl = some (g2, w)) : PaintS R g g2 := by
  unfold traverseLclosure at hr
  simp only [Option.bind_eq_bind, Option.bind_eq_some] at hr
  obtain ⟨x, -, g1, h1, g3, h3, hr⟩ := hr
  simp only [Option.some.injEq, Prod.mk.injEq] at hr
  obtain ⟨rfl, -⟩ := hr
  exact paintS_trans hR _ _ _ (markobjectN_paint hR _ _ _ h1) (markobjectsN_paint hR _ _ _ h3)

theorem luaD_shrinkstack_paint {R : Nat → Nat → Prop} (hR : MarkRel R) (env : Env) (g : global_State) (th : Addr) (g2 : global_State)
    (hr : luaD_shrinkstack env g th = some g2) : PaintS R g g2 := by
  unfold luaD_shrinkstack at hr
  simp only [Option.bind_eq_bind, Option.bind_eq_some] at hr
  obtain ⟨t, ht, s, -, hr⟩ := hr
  split at hr
  · cases hr
    exact paintS_setobj hR _ _ _ _ ht (paints_same hR _ _ rfl rfl rfl)
  · cases hr
    exact paintS_refl hR _

theorem traversethread_uvs_paint {R : Nat → Nat → Prop} (hR : MarkRel R) (fuel : Nat) : ∀ (g : global_State) (uv : Option Addr)
    (g2 : global_State), traversethread_uvs fuel g uv = some g2 → PaintS R g g2 := by
  induction fuel with
  | zero => intro g uv g2 hr; simp [traversethread_uvs] at hr
  | succ n ih =>
    intro g uv g2 hr
    cases uv with
    | none =>
      simp only [traversethread_uvs, Option.some.injEq] at hr
      subst hr
      exact paintS_refl hR _
    | some u =>
      rw [traversethread_uvs] at hr
      simp only [Option.bind_eq_bind, Option.bind_eq_some] at hr
      obtain ⟨g1, h1, x, -, hr⟩ := hr
      exact paintS_trans hR _ _ _ (markobject_paint hR _ _ _ h1) (ih _ _ _ hr)

theorem traversethread_paint {R : Nat → Nat → Prop} (hR : MarkRel R) (env : Env) (fuel : Nat) (g : global_State) (th : Addr)
    (g2 : global_State) (w : Nat) (hr : traversethread env fuel g th = some (g2, w)) :
    PaintS R g g2 := by
  unfold traversethread at hr
  simp only [Option.bind_eq_bind, Option.bind_eq_some] at hr
  obtain ⟨t, -, g1, h1, hr⟩ := hr
  have e1 : PaintS R g g1 := by
    split at h1
    · exact linkgclist_paint hR _ _ _ _ h1
    · cases h1
      exact paintS_refl hR _
  split at hr
  · simp only [Option.some.injEq, Prod.mk.injEq] at hr
    obtain ⟨rfl, -⟩ := hr
    exact e1
  · simp only [Option.bind_eq_bind, Option.bind_eq_some] at hr
    obtain ⟨g3, h3, t2, -, g4, h4, g5, h5, t7, -, hr⟩ := hr
    simp only [Option.some.injEq, Prod.mk.injEq] at hr
    obtain ⟨rfl, -⟩ := hr
    have e3 := markvalues_paint hR _ _ _ h3
    have e4 := traversethread_uvs_paint hR _ _ _ _ h4
    have e5 : PaintS R g4 g5 := by
      split at h5
      · simp only [Option.bind_eq_bind, Option.bind_eq_some] at h5
        obtain ⟨g6, h6, t5, ht5, s5, -, t6, ht6, h5⟩ := h5
        have e6 : PaintS R g4 g6 := by
          split at h6
          · exact luaD_shrinkstack_paint hR _ _ _ _ h6
          · cases h6
            exact paintS_refl hR _
        have e7 : PaintS R g6 (g6.setobj th
            { t5 with stack := some (clearslice s5 t5.top (t5.stack_last + EXTRA_STACK)) }) :=
          paintS_setobj hR _ _ _ _ ht5 (paints_same hR _ _ rfl rfl rfl)
        split at h5
        · cases h5
          refine paintS_trans hR _ _ _ (paintS_trans hR _ _ _ e6 e7) ?_
          exact ⟨rfl, paint_set hR _ _ _ _ ht6 (paints_same hR _ _ rfl rfl rfl)⟩
        · cases h5
          exact paintS_trans hR _ _ _ e6 e7
      · cases h5
        exact paintS_refl hR _
    exact paintS_trans hR _ _ _ (paintS_trans hR _ _ _ (paintS_trans hR _ _ _ (e1) (e3)) (e4)) (e5)

/-- Traversing one gray object keeps the lists and sets no white bit. -/
theorem propagatemark_paint {R : Nat → Nat → Prop} (hR : MarkRel R) (env : Env) (fuel : Nat) (g g2 : global_State) (w : Nat)
    (hr : propagatemark env fuel g = some (g2, w)) : PaintS R g g2 := by
  unfold propagatemark at hr
  simp only [Option.bind_eq_bind, Option.bind_eq_some] at hr
  obtain ⟨o, -, x, hx, x1, -, pl, -, y, -, hr⟩ := hr
  have f0 : PaintS R g { g.setobj o { x with marked := nw2black x.marked } with
      gray := y.gclist } :=
    ⟨rfl, paint_set hR _ _ _ _ hx (paints_nw2black hR x)⟩
  split at hr
  · exact paintS_trans hR _ _ _ f0 (traversetable_paint hR _ _ _ _ hr)
  · exact paintS_trans hR _ _ _ f0 (traverseudata_paint hR _ _ _ _ hr)
  · exact paintS_trans hR _ _ _ f0 (traverseLclosure_paint hR _ _ _ _ hr)
  · exact paintS_trans hR _ _ _ f0 (traverseCclosure_paint hR _ _ _ _ hr)
  · exact paintS_trans hR _ _ _ f0 (traverseproto_paint hR _ _ _ _ hr)
  · exact paintS_trans hR _ _ _ f0 (traversethread_paint hR _ _ _ _ _ _ hr)
  · simp only [Option.some.injEq, Prod.mk.injEq] at hr
    obtain ⟨rfl, -⟩ := hr
    exact f0


theorem markmt_loop_paint {R : Nat → Nat → Prop} (hR : MarkRel R) (l : List (Option Addr)) : ∀ (g g2 : global_State),
    markmt_loop l g = some g2 → PaintS R g g2 := by
  induction l with
  | nil => intro g g2 h; cases h; exact paintS_refl hR _
  | cons x rest ih =>
    intro g g2 h
    rw [markmt_loop] at h
    simp only [Option.bind_eq_bind, Option.bind_eq_some] at h
    obtain ⟨g1, h1, h⟩ := h
    exact paintS_trans hR _ _ _ (markobjectN_paint hR _ _ _ h1) (ih _ _ h)

theorem markmt_paint {R : Nat → Nat → Prop} (hR : MarkRel R) (g g2 : global_State) (h : markmt g = some g2) : PaintS R g g2 :=
  markmt_loop_paint hR _ _ _ h

theorem markbeingfnz_loop_paint {R : Nat → Nat → Prop} (hR : MarkRel R) (fuel : Nat) : ∀ (g : global_State) (o : Option Addr) (c : Nat)
    (g2 : global_State) (c2 : Nat),
    markbeingfnz_loop fuel g o c = some (g2, c2) → PaintS R g g2 := by
  induction fuel with
  | zero => intro g o c g2 c2 h; simp [markbeingfnz_loop] at h
  | succ n ih =>
    intro g o c g2 c2 h
    cases o with
    | none =>
      simp only [markbeingfnz_loop, Option.some.injEq, Prod.mk.injEq] at h
      obtain ⟨rfl, -⟩ := h
      exact paintS_refl hR _
    | some a =>
      rw [markbeingfnz_loop] at h
      simp only [Option.bind_eq_bind, Option.bind_eq_some] at h
      obtain ⟨g1, h1, x, -, h⟩ := h
      exact paintS_trans hR _ _ _ (markobject_paint hR _ _ _ h1) (ih _ _ _ _ _ h)

theorem markbeingfnz_paint {R : Nat → Nat → Prop} (hR : MarkRel R) (fuel : Nat) (g g2 : global_State) (c : Nat)
    (h : markbeingfnz fuel g = some (g2, c)) : PaintS R g g2 :=
  markbeingfnz_loop_paint hR _ _ _ _ _ _ h

theorem propagateall_paint {R : Nat → Nat → Prop} (hR : MarkRel R) (fuel : Nat) : ∀ (env : Env) (g g2 : global_State) (w : Nat),
    propagateall fuel env g = some (g2, w) → PaintS R g g2 := by
  induction fuel with
  | zero => intro env g g2 w h; simp [propagateall] at h
  | succ n ih =>
    intro env g g2 w h
    rw [propagateall] at h
    split at h
    · simp only [Option.some.injEq, Prod.mk.injEq] at h
      obtain ⟨rfl, -⟩ := h
      exact paintS_refl hR _
    · simp only [Option.bind_eq_bind, Option.bind_eq_some] at h
      obtain ⟨⟨g1, w1⟩, h1, ⟨g3, w3⟩, h3, h⟩ := h
      simp only [Option.some.injEq, Prod.mk.injEq] at h
      obtain ⟨rfl, -⟩ := h
      exact paintS_trans hR _ _ _ (propagatemark_paint hR _ _ _ _ _ h1) (ih _ _ _ _ h3)

theorem remarkupvals_uvs_paint {R : Nat → Nat → Prop} (hR : MarkRel R) (fuel : Nat) : ∀ (g : global_State) (uv : Option Addr) (w : Nat)
    (g2 : global_State) (w2 : Nat),
    remarkupvals_uvs fuel g uv w = some (g2, w2) → PaintS R g g2 := by
  induction fuel with
  | zero => intro g uv w g2 w2 h; simp [remarkupvals_uvs] at h
  | succ n ih =>
    intro g uv w g2 w2 h
    cases uv with
    | none =>
      simp only [remarkupvals_uvs, Option.some.injEq, Prod.mk.injEq] at h
      obtain ⟨rfl, -⟩ := h
      exact paintS_refl hR _
    | some a =>
      rw [remarkupvals_uvs] at h
      simp only [Option.bind_eq_bind, Option.bind_eq_some] at h
      obtain ⟨u, -, h⟩ := h
      split at h
      · simp only [Option.bind_eq_bind, Option.bind_eq_some] at h
        obtain ⟨val, -, g1, h1, u1, -, h⟩ := h
        exact paintS_trans hR _ _ _ (markvalue_paint hR _ _ _ h1) (ih _ _ _ _ _ h)
      · simp only [Option.bind_eq_bind, Option.bind_eq_some, Option.some_bind] at h
        obtain ⟨u1, -, h⟩ := h
        exact ih _ _ _ _ _ h

theorem store_twups_paint {R : Nat → Nat → Prop} (hR : MarkRel R) (g g2 : global_State) (p v : Option Addr)
    (h : g.store_twups p v = some g2) : PaintS R g g2 := by
  cases p with
  | none =>
    simp only [global_State.store_twups, Option.some.injEq] at h
    subst h
    exact paintS_refl hR _
  | some th =>
    simp only [global_State.store_twups, Option.map_eq_some'] at h
    obtain ⟨t, ht, rfl⟩ := h
    exact paintS_setobj hR _ _ _ _ ht (paints_same hR _ _ rfl rfl rfl)
theorem remarkupvals_loop_paint {R : Nat → Nat → Prop} (hR : MarkRel R) (fuel : Nat) : ∀ (g : global_State) (p : Option Addr) (w : Nat)
    (g2 : global_State) (w2 : Nat),
    remarkupvals_loop fuel g p w = some (g2, w2) → PaintS R g g2 := by
  induction fuel with
  | zero => intro g p w g2 w2 h; simp [remarkupvals_loop] at h
  | succ n ih =>
    intro g p w g2 w2 h
    rw [remarkupvals_loop] at h
    simp only [Option.bind_eq_bind, Option.bind_eq_some] at h
    obtain ⟨cur, -, h⟩ := h
    split at h
    · simp only [Option.some.injEq, Prod.mk.injEq] at h
      obtain ⟨rfl, -⟩ := h
      exact paintS_refl hR _
    · simp only [Option.bind_eq_bind, Option.bind_eq_some] at h
      obtain ⟨t, -, h⟩ := h
      split at h
      · exact ih _ _ _ _ _ h
      · simp only [Option.bind_eq_bind, Option.bind_eq_some] at h
        obtain ⟨g1, h1, t1, ht1, t2, -, ⟨g3, w3⟩, h3, h⟩ := h
        have e3 := remarkupvals_uvs_paint hR _ _ _ _ _ _ h3
        have e1 := store_twups_paint hR _ _ _ _ h1
        refine paintS_trans hR _ _ _ (paintS_trans hR _ _ _ (paintS_trans hR _ _ _ e1 ?_) e3)
          (ih _ _ _ _ _ h)
        exact paintS_setobj hR _ _ _ _ ht1 (paints_same hR _ _ rfl rfl rfl)

theorem remarkupvals_paint {R : Nat → Nat → Prop} (hR : MarkRel R) (fuel : Nat) (g g2 : global_State) (w : Nat)
    (h : remarkupvals fuel g = some (g2, w)) : PaintS R g g2 :=
  remarkupvals_loop_paint hR _ _ _ _ _ _ h

theorem convergeephemerons_tables_paint {R : Nat → Nat → Prop} (hR : MarkRel R) (env : Env) (dir : Bool) (fuel : Nat) :
    ∀ (g : global_State) (w : Option Addr) (c : Bool) (g2 : global_State) (c2 : Bool),
    convergeephemerons_tables env dir fuel g w c = some (g2, c2) → PaintS R g g2 := by
  induction fuel with
  | zero => intro g w c g2 c2 h; simp [convergeephemerons_tables] at h
  | succ n ih =>
    intro g w c g2 c2 h
    cases w with
    | none =>
      simp only [convergeephemerons_tables, Option.some.injEq, Prod.mk.injEq] at h
      obtain ⟨rfl, -⟩ := h
      exact paintS_refl hR _
    | some a =>
      rw [convergeephemerons_tables] at h
      simp only [Option.bind_eq_bind, Option.bind_eq_some] at h
      obtain ⟨x, hx, ⟨g3, m⟩, h3, h⟩ := h
      have e0 : PaintS R g (g.setobj a { x with marked := nw2black x.marked }) :=
        paintS_setobj hR _ _ _ _ hx (paints_nw2black hR x)
      have e3 := paintS_trans hR _ _ _ e0 (traverseephemeron_paint hR _ _ _ _ _ h3)
      split at h
      · simp only [Option.bind_eq_bind, Option.bind_eq_some] at h
        obtain ⟨⟨g4, w4⟩, h4, h⟩ := h
        exact paintS_trans hR _ _ _ (paintS_trans hR _ _ _ e3 (propagateall_paint hR _ _ _ _ _ h4))
          (ih _ _ _ _ _ h)
      · exact paintS_trans hR _ _ _ e3 (ih _ _ _ _ _ h)

theorem convergeephemerons_rounds_paint {R : Nat → Nat → Prop} (hR : MarkRel R) (env : Env) (fuel : Nat) : ∀ (g : global_State)
    (dir : Bool) (g2 : global_State),
    convergeephemerons_rounds env fuel g dir = some g2 → PaintS R g g2 := by
  induction fuel with
  | zero => intro g dir g2 h; simp [convergeephemerons_rounds] at h
  | succ n ih =>
    intro g dir g2 h
    rw [convergeephemerons_rounds] at h
    simp only [Option.bind_eq_bind, Option.bind_eq_some] at h
    obtain ⟨⟨g1, c⟩, h1, h⟩ := h
    have e1 : PaintS R g g1 :=
      paintS_trans hR _ _ _ (show PaintS R g { g with ephemeron := none } from ⟨rfl, paint_refl hR _⟩)
        (convergeephemerons_tables_paint hR _ _ _ _ _ _ _ _ h1)
    split at h
    · exact paintS_trans hR _ _ _ e1 (ih _ _ _ h)
    · cases h
      exact e1

theorem convergeephemerons_paint {R : Nat → Nat → Prop} (hR : MarkRel R) (env : Env) (fuel : Nat) (g g2 : global_State)
    (h : convergeephemerons env fuel g = some g2) : PaintS R g g2 :=
  convergeephemerons_rounds_paint hR _ _ _ _ _ h

theorem clearbykeys_nodes_paint {R : Nat → Nat → Prop} (hR : MarkRel R) (h : Addr) (n : Nat) : ∀ (i : Nat) (g g2 : global_State),
    clearbykeys_nodes h n i g = some g2 → PaintS R g g2 := by
  induction n with
  | zero => intro i g g2 hr; cases hr; exact paintS_refl hR _
  | succ n ih =>
    intro i g g2 hr
    rw [clearbykeys_nodes] at hr
    simp only [Option.bind_eq_bind, Option.bind_eq_some] at hr
    obtain ⟨t, -, nd, -, ⟨g1, c⟩, h1, t1, ht1, nd1, -, hr⟩ := hr
    have e1 := iscleared_paint hR _ _ _ _ h1
    have e2 := ih _ _ _ hr
    refine paintS_trans hR _ _ _ (paintS_trans hR _ _ _ e1 ?_) e2
    exact paintS_setobj hR _ _ _ _ ht1 (paints_same hR _ _ rfl rfl rfl)

theorem clearbykeys_paint {R : Nat → Nat → Prop} (hR : MarkRel R) (fuel : Nat) : ∀ (g : global_State) (l : Option Addr)
    (g2 : global_State), clearbykeys fuel g l = some g2 → PaintS R g g2 := by
  induction fuel with
  | zero => intro g l g2 h; simp [clearbykeys] at h
  | succ n ih =>
    intro g l g2 h
    cases l with
    | none =>
      simp only [clearbykeys, Option.some.injEq] at h
      subst h
      exact paintS_refl hR _
    | some a =>
      rw [clearbykeys] at h
      simp only [Option.bind_eq_bind, Option.bind_eq_some] at h
      obtain ⟨t, -, g1, h1, t1, -, h⟩ := h
      exact paintS_trans hR _ _ _ (clearbykeys_nodes_paint hR _ _ _ _ _ h1) (ih _ _ _ h)

theorem clearbyvalues_array_paint {R : Nat → Nat → Prop} (hR : MarkRel R) (h : Addr) (n : Nat) : ∀ (i : Nat) (g g2 : global_State),
    clearbyvalues_array h n i g = some g2 → PaintS R g g2 := by
  induction n with
  | zero => intro i g g2 hr; cases hr; exact paintS_refl hR _
  | succ n ih =>
    intro i g g2 hr
    rw [clearbyvalues_array] at hr
    simp only [Option.bind_eq_bind, Option.bind_eq_some] at hr
    obtain ⟨t, -, o, -, ⟨g1, c⟩, h1, t1, ht1, hr⟩ := hr
    have e1 := iscleared_paint hR _ _ _ _ h1
    have e2 := ih _ _ _ hr
    refine paintS_trans hR _ _ _ (paintS_trans hR _ _ _ e1 ?_) e2
    split
    · exact paintS_setobj hR _ _ _ _ ht1 (paints_same hR _ _ rfl rfl rfl)
    · exact paintS_refl hR _

theorem clearbyvalues_nodes_paint {R : Nat → Nat → Prop} (hR : MarkRel R) (h : Addr) (n : Nat) : ∀ (i : Nat) (g g2 : global_State),
    clearbyvalues_nodes h n i g = some g2 → PaintS R g g2 := by
  induction n with
  | zero => intro i g g2 hr; cases hr; exact paintS_refl hR _
  | succ n ih =>
    intro i g g2 hr
    rw [clearbyvalues_nodes] at hr
    simp only [Option.bind_eq_bind, Option.bind_eq_some] at hr
    obtain ⟨t, -, nd, -, ⟨g1, c⟩, h1, t1, ht1, nd1, -, hr⟩ := hr
    have e1 := iscleared_paint hR _ _ _ _ h1
    have e2 := ih _ _ _ hr
    refine paintS_trans hR _ _ _ (paintS_trans hR _ _ _ e1 ?_) e2
    exact paintS_setobj hR _ _ _ _ ht1 (paints_same hR _ _ rfl rfl rfl)

theorem clearbyvalues_paint {R : Nat → Nat → Prop} (hR : MarkRel R) (fuel : Nat) : ∀ (g : global_State) (l f : Option Addr)
    (g2 : global_State), clearbyvalues fuel g l f = some g2 → PaintS R g g2 := by
  induction fuel with
  | zero => intro g l f g2 h; simp [clearbyvalues] at h
  | succ n ih =>
    intro g l f g2 h
    rw [clearbyvalues] at h
    split at h
    · cases h
      exact paintS_refl hR _
    · simp only [Option.bind_eq_bind, Option.bind_eq_some] at h
      obtain ⟨a, -, t, -, g1, h1, g3, h3, t2, -, h⟩ := h
      exact paintS_trans hR _ _ _ (paintS_trans hR _ _ _ (clearbyvalues_array_paint hR _ _ _ _ _ h1)
        (clearbyvalues_nodes_paint hR _ _ _ _ _ h3)) (ih _ _ _ _ h)

theorem luaS_clearcache_paint {R : Nat → Nat → Prop} (hR : MarkRel R) (g g2 : global_State) (h : luaS_clearcache g = some g2) :
    PaintS R g g2 := by
  unfold luaS_clearcache at h
  simp only [Option.map_eq_some'] at h
  obtain ⟨c, -, rfl⟩ := h
  exact ⟨rfl, paint_refl hR _⟩
/-! ### C22: `sweep2old` -/

theorem store_uvlink_nolinks (g g2 : global_State) (l : UpValLink) (v : Option Addr)
    (h : g.store_uvlink l v = some g2) :
    (∀ a, (g2.heap a).map nolinks = (g.heap a).map nolinks) ∧ g2 = { g with heap := g2.heap } := by
  have key : ∀ (t : Addr) (x y : GCObject), g.heap t = some x → nolinks y = nolinks x →
      ∀ a, ((g.setobj t y).heap a).map nolinks = (g.heap a).map nolinks := by
    intro t x y hx hy a
    show (Heap.set g.heap t y a).map nolinks = _
    by_cases hat : a = t
    · subst hat
      rw [heap_set_same, hx, Option.map_some', Option.map_some', hy]
    · rw [heap_set_ne _ _ _ _ hat]
  cases l with
  | openupval th =>
    simp only [global_State.store_uvlink, Option.map_eq_some'] at h
    obtain ⟨t, ht, rfl⟩ := h
    exact ⟨key th t _ ht rfl, rfl⟩
  | open_next u =>
    simp only [global_State.store_uvlink, Option.map_eq_some'] at h
    obtain ⟨t, ht, rfl⟩ := h
    exact ⟨key u t _ ht rfl, rfl⟩

theorem luaF_unlinkupval_nolinks (g g2 : global_State) (uv : Addr)
    (h : luaF_unlinkupval g uv = some g2) :
    (∀ a, (g2.heap a).map nolinks = (g.heap a).map nolinks) ∧ g2 = { g with heap := g2.heap } := by
  unfold luaF_unlinkupval at h
  simp only [Option.bind_eq_bind, Option.bind_eq_some] at h
  obtain ⟨u, -, prev, -, g1, h1, h⟩ := h
  obtain ⟨k1, k2⟩ := store_uvlink_nolinks _ _ _ _ h1
  split at h
  · cases h
    exact ⟨k1, k2⟩
  · simp only [Option.bind_eq_some] at h
    obtain ⟨y, hy, h⟩ := h
    cases h
    refine ⟨?_, ?_⟩
    · intro a
      rw [← k1 a]
      show (Heap.set g1.heap _ _ a).map nolinks = _
      rename_i n _
      by_cases han : a = n
      · subst han
        rw [heap_set_same, hy]
        rfl
      · rw [heap_set_ne _ _ _ _ han]
    · rw [k2]
      rfl

/-- Freeing an object: the object leaves the memory, the other objects keep
everything but their list links, and of the global state only the memory,
the debt and the count of strings change. -/
theorem freeobj_frame (g g2 : global_State) (c : Addr) (h : freeobj g c = some g2) :
    g2.heap c = none ∧ (∀ a, a ≠ c → (g2.heap a).map nolinks = (g.heap a).map nolinks) ∧
    g2 = { g with heap := g2.heap, GCdebt := g2.GCdebt, strt_nuse := g2.strt_nuse } := by
  unfold freeobj at h
  simp only [Option.bind_eq_bind, Option.bind_eq_some] at h
  obtain ⟨x, -, h⟩ := h
  have plain : ∀ g1 : global_State, (∀ a, (g1.heap a).map nolinks = (g.heap a).map nolinks) →
      g1 = { g with heap := g1.heap, strt_nuse := g1.strt_nuse } → ∀ sz,
      (luaM_freemem g1 c sz).heap c = none ∧
      (∀ a, a ≠ c → ((luaM_freemem g1 c sz).heap a).map nolinks = (g.heap a).map nolinks) ∧
      luaM_freemem g1 c sz = { g with
        heap := (luaM_freemem g1 c sz).heap, GCdebt := (luaM_freemem g1 c sz).GCdebt,
        strt_nuse := (luaM_freemem g1 c sz).strt_nuse } := by
    intro g1 k1 k2 sz
    refine ⟨heap_free_same _ _, ?_, ?_⟩
    · intro a ha
      show (Heap.free g1.heap c a).map nolinks = _
      rw [heap_free_ne _ _ _ ha, k1 a]
    · unfold luaM_freemem
      rw [k2]
  split at h
  · unfold freeupval at h
    simp only [Option.bind_eq_bind, Option.bind_eq_some] at h
    obtain ⟨u, -, h⟩ := h
    by_cases hop : upisopen u = true
    · simp only [hop, if_true, Option.bind_eq_some] at h
      obtain ⟨g1, h1, h⟩ := h
      cases h
      obtain ⟨k1, k2⟩ := luaF_unlinkupval_nolinks _ _ _ h1
      exact plain g1 k1 (by rw [k2]) _
    · simp only [hop, Bool.false_eq_true, if_false, Option.some_bind] at h
      cases h
      exact plain g (fun _ => rfl) rfl _
  · cases h
    exact plain (luaS_remove g c) (fun _ => rfl) rfl _
  · cases h
    exact plain g (fun _ => rfl) rfl _

theorem store_nolinks (g g1 : global_State) (p : GCRef) (v : Option Addr)
    (h : g.store p v = some g1) :
    (∀ a, (g1.heap a).map nolinks = (g.heap a).map nolinks) ∧
    g1 = { g with
      heap := g1.heap, allgc := g1.allgc, finobj := g1.finobj, tobefnz := g1.tobefnz } := by
  cases p with
  | allgc => cases h; exact ⟨fun _ => rfl, rfl⟩
  | finobj => cases h; exact ⟨fun _ => rfl, rfl⟩
  | tobefnz => cases h; exact ⟨fun _ => rfl, rfl⟩
  | next o =>
    simp only [global_State.store, Option.map_eq_some'] at h
    obtain ⟨x, hx, rfl⟩ := h
    refine ⟨?_, rfl⟩
    intro a
    show (Heap.set g.heap o _ a).map nolinks = _
    by_cases hao : a = o
    · subst hao
      rw [heap_set_same, hx]
      rfl
    · rw [heap_set_ne _ _ _ _ hao]

theorem sweep2old_nil (fuel : Nat) (g : global_State) (p : GCRef) (hp : g.load p = some none) :
    sweep2old (fuel + 1) g p = some g := by
  rw [sweep2old]
  simp only [hp, Option.bind_eq_bind, Option.some_bind]

theorem sweep2old_free (fuel : Nat) (g : global_State) (p : GCRef) (curr : Addr) (x : GCObject)
    (hp : g.load p = some (some curr)) (hx : g.heap curr = some x)
    (hw : iswhite x.marked = true) :
    sweep2old (fuel + 1) g p =
      (g.store p x.next).bind (fun g1 => (freeobj g1 curr).bind (fun g2 => sweep2old fuel g2 p)) := by
  rw [sweep2old]
  simp only [hp, hx, Option.bind_eq_bind, Option.some_bind, hw, if_true]

theorem sweep2old_keep (fuel : Nat) (g : global_State) (p : GCRef) (curr : Addr) (x : GCObject)
    (hp : g.load p = some (some curr)) (hx : g.heap curr = some x)
    (hw : iswhite x.marked = false) :
    sweep2old (fuel + 1) g p = sweep2old fuel (after2old g curr x) (.next curr) := by
  rw [sweep2old]
  simp only [hp, hx, Option.bind_eq_bind, Option.some_bind, hw, Bool.false_eq_true, if_false]
  by_cases ht : x.tt = .LUA_VTHREAD
  · have e : linkgclist (g.setobj curr { x with marked := setage x.marked G_OLD }) curr
        .grayagain = some (after2old g curr x) := by
      unfold linkgclist linkgclist_ after2old mark2old
      simp only [Option.bind_eq_bind, Option.some_bind, global_State.setobj, heap_set_same,
        global_State.setlist, global_State.getlist, if_pos ht]
      congr 2
      funext a
      by_cases hac : a = curr
      · subst hac
        simp [Heap.set]
      · simp [Heap.set, hac]
    rw [if_pos ht, e, Option.some_bind]
  · rw [if_neg ht]
    have e1 : (g.setobj curr { x with marked := setage x.marked G_OLD }).heap curr =
        some { x with marked := setage x.marked G_OLD } := heap_set_same _ _ _
    have e2 : ∀ m, (g.setobj curr { x with marked := setage x.marked G_OLD }).setobj curr
        { ({ x with marked := setage x.marked G_OLD } : GCObject) with marked := m } =
        g.setobj curr { x with marked := m } := by
      intro m
      unfold global_State.setobj
      congr 1
      funext a
      by_cases hac : a = curr
      · subst hac
        simp [Heap.set]
      · simp [Heap.set, hac]
    simp only [e1, Option.some_bind]
    unfold after2old mark2old
    rw [if_neg ht, if_neg ht]
    split
    · rw [e2]
    · rw [e2]

theorem nolinks_fields (x y : GCObject) (h : nolinks y = nolinks x) :
    y.marked = x.marked ∧ y.tt = x.tt ∧ y.gclist = x.gclist ∧ y.v = x.v :=
  ⟨congrArg (fun o => o.marked) h, congrArg (fun o => o.tt) h, congrArg (fun o => o.gclist) h,
    congrArg (fun o => o.v) h⟩

theorem nolinks_map (h h2 : Heap) (a : Addr) (x : GCObject)
    (e : (h2 a).map nolinks = (h a).map nolinks) (hx : h a = some x) :
    ∃ x2, h2 a = some x2 ∧ nolinks x2 = nolinks x := by
  rw [hx] at e
  cases e2 : h2 a with
  | none => rw [e2] at e; cases e
  | some x2 =>
    rw [e2] at e
    exact ⟨x2, rfl, Option.some.inj e⟩

theorem whiteIn_congr (h h2 : Heap) (a : Addr)
    (e : (h2 a).map nolinks = (h a).map nolinks) : whiteIn h2 a = whiteIn h a := by
  unfold whiteIn
  cases e1 : h a with
  | none =>
    rw [e1] at e
    cases e2 : h2 a with
    | none => rfl
    | some y => rw [e2] at e; cases e
  | some x =>
    obtain ⟨x2, hx2, f⟩ := nolinks_map h h2 a x e e1
    rw [hx2]
    show iswhite x2.marked = iswhite x.marked
    rw [(nolinks_fields _ _ f).1]

theorem threadIn_congr (h h2 : Heap) (a : Addr)
    (e : (h2 a).map nolinks = (h a).map nolinks) : threadIn h2 a = threadIn h a := by
  unfold threadIn
  cases e1 : h a with
  | none =>
    rw [e1] at e
    cases e2 : h2 a with
    | none => rfl
    | some y => rw [e2] at e; cases e
  | some x =>
    obtain ⟨x2, hx2, f⟩ := nolinks_map h h2 a x e e1
    rw [hx2]
    show decide (x2.tt = .LUA_VTHREAD) = decide (x.tt = .LUA_VTHREAD)
    rw [(nolinks_fields _ _ f).2.1]

theorem mark2old_congr (x y : GCObject) (h : nolinks y = nolinks x) :
    mark2old y = mark2old x := by
  obtain ⟨e1, e2, -, e4⟩ := nolinks_fields x y h
  unfold mark2old upisopen
  rw [e1, e2, e4]

theorem nolinks_with (x y : GCObject) (h : nolinks y = nolinks x) (m : Nat) (gl : Option Addr) :
    nolinks { y with marked := m, gclist := gl } = nolinks { x with marked := m, gclist := gl } := by
  have e : nolinks { y with marked := m, gclist := gl } =
      { nolinks y with marked := m, gclist := gl } := rfl
  rw [e, h]
  rfl

theorem isGSeg_append (h : Heap) (l1 : List Addr) : ∀ (p q r : Option Addr) (l2 : List Addr),
    IsGSeg h p l1 q → IsGSeg h q l2 r → IsGSeg h p (l1 ++ l2) r := by
  induction l1 with
  | nil =>
    intro p q r l2 h1 h2
    have e : p = q := h1
    subst e
    exact h2
  | cons b l ih =>
    intro p q r l2 h1 h2
    obtain ⟨hp, o, ho, hl⟩ := h1
    exact ⟨hp, o, ho, ih _ _ _ _ hl h2⟩

theorem after2old_spec (g : global_State) (curr : Addr) (x : GCObject) :
    ∃ y, (after2old g curr x).heap = Heap.set g.heap curr y ∧ y.next = x.next ∧
      nolinks y = nolinks { x with marked := mark2old x, gclist := y.gclist } ∧
      (x.tt ≠ .LUA_VTHREAD → y.gclist = x.gclist ∧ (after2old g curr x).grayagain = g.grayagain) ∧
      (x.tt = .LUA_VTHREAD → y.gclist = g.grayagain ∧
        (after2old g curr x).grayagain = some curr) ∧
      heads (after2old g curr x) = heads g ∧ ctl (after2old g curr x) = ctl g ∧
      after2old g curr x = { g with
        heap := (after2old g curr x).heap, grayagain := (after2old g curr x).grayagain } := by
  unfold after2old
  by_cases ht : x.tt = .LUA_VTHREAD
  · rw [if_pos ht]
    exact ⟨_, rfl, rfl, rfl, fun h => absurd ht h, fun _ => ⟨rfl, rfl⟩, rfl, rfl, rfl⟩
  · rw [if_neg ht]
    exact ⟨_, rfl, rfl, rfl, fun _ => ⟨rfl, rfl⟩, fun h => absurd h ht, rfl, rfl, rfl⟩

theorem sweepFrame_refl (g : global_State) : SweepFrame g g := rfl

theorem sweepFrame_trans (g g2 g3 : global_State) (h1 : SweepFrame g g2)
    (h2 : SweepFrame g2 g3) : SweepFrame g g3 := by
  unfold SweepFrame at *
  rw [h2]
  rw [h1]

theorem store_sweepFrame (g g1 : global_State) (p : GCRef) (v : Option Addr)
    (h : g.store p v = some g1) : SweepFrame g g1 := by
  have e := (store_nolinks g g1 p v h).2
  unfold SweepFrame
  rw [e]

theorem freeobj_sweepFrame (g g2 : global_State) (c : Addr) (h : freeobj g c = some g2) :
    SweepFrame g g2 := by
  have e := (freeobj_frame g g2 c h).2.2
  unfold SweepFrame
  rw [e]

theorem after2old_sweepFrame (g : global_State) (curr : Addr) (x : GCObject) :
    SweepFrame g (after2old g curr x) := by
  obtain ⟨y, -, -, -, -, -, -, -, e⟩ := after2old_spec g curr x
  unfold SweepFrame
  rw [e]

theorem sweepFrame_ctl (g g2 : global_State) (h : SweepFrame g g2) :
    ctl g2 = ctl g ∧ g2.fixedgc = g.fixedgc ∧ g2.gray = g.gray ∧ g2.weak = g.weak ∧
    g2.allweak = g.allweak ∧ g2.ephemeron = g.ephemeron := by
  unfold SweepFrame at h
  rw [h]
  exact ⟨rfl, rfl, rfl, rfl, rfl, rfl⟩

/-- The sweep `sweep2old`, in detail, for the list `rest` that starts at
`*p`: it returns when the fuel exceeds the length of the list and no white
upvalue of the list is open, and what it leaves is `SweptOld`; the four
heap lists stay well formed, each a sublist of what it was. -/
theorem sweep2old_detail (rest : List Addr) : ∀ (fuel : Nat) (g : global_State) (p : GCRef)
    (la lf lt lx : List Addr) (c0 : Option Addr),
    Lists g la lf lt lx → g.load p = some c0 → IsList g.heap c0 rest →
    (∀ s, p = .next s → s ∉ rest) →
    (DeadClosedIn g.heap rest → rest.length < fuel → ∃ g2, sweep2old fuel g p = some g2) ∧
    ∀ g2, sweep2old fuel g p = some g2 → SweptOld g p rest g2 ∧
      ∃ la2 lf2 lt2 lx2, Lists g2 la2 lf2 lt2 lx2 ∧ la2.Sublist la ∧ lf2.Sublist lf ∧
        lt2.Sublist lt ∧ lx2.Sublist lx := by
  induction rest with
  | nil =>
    intro fuel g p la lf lt lx c0 hL hp hr hown
    have hc : c0 = none := hr
    subst hc
    cases fuel with
    | zero =>
      exact ⟨fun _ h => absurd h (Nat.lt_irrefl _), fun g2 h => by simp [sweep2old] at h⟩
    | succ n =>
      rw [sweep2old_nil n g p hp]
      refine ⟨fun _ _ => ⟨g, rfl⟩, ?_⟩
      intro g2 h
      cases h
      exact ⟨⟨⟨none, hp, rfl⟩, (fun a ha => by cases ha), (fun a x ha => by cases ha), rfl,
        fun _ _ => rfl, fun _ _ _ => rfl, sweepFrame_refl _⟩, la, lf, lt, lx, hL,
        List.Sublist.refl _, List.Sublist.refl _, List.Sublist.refl _, List.Sublist.refl _⟩
  | cons curr rest2 ih =>
    intro fuel g p la lf lt lx c0 hL hp hr hown
    obtain ⟨hc0, x, hx, hr2⟩ := hr
    subst hc0
    have hnd : (curr :: rest2).Nodup := isList_nodup _ _ _ ⟨rfl, x, hx, hr2⟩
    have hcn : curr ∉ rest2 := (List.nodup_cons.1 hnd).1
    have hown2 : ∀ s, p = .next s → s ∉ rest2 :=
      fun s hs hm => hown s hs (List.mem_cons_of_mem _ hm)
    have hpne : p ≠ .next curr := fun e => hown curr e (List.mem_cons_self _ _)
    cases fuel with
    | zero =>
      exact ⟨fun _ h => absurd h (Nat.not_lt_zero _), fun g2 h => by simp [sweep2old] at h⟩
    | succ n =>
      by_cases hw : iswhite x.marked = true
      · rw [sweep2old_free n g p curr x hp hx hw]
        have hwi : whiteIn g.heap curr = true := by
          unfold whiteIn
          rw [hx]
          exact hw
        have step : ∀ g1 g3, g.store p x.next = some g1 → freeobj g1 curr = some g3 →
            Lists g3 (la.erase curr) (lf.erase curr) (lt.erase curr) (lx.erase curr) ∧
            g3.load p = some x.next ∧ IsList g3.heap x.next rest2 ∧ g3.heap curr = none ∧
            (∀ a, a ≠ curr → (g3.heap a).map nolinks = (g.heap a).map nolinks) ∧
            (∀ q, q ≠ p → (∀ s, q = .next s → s ≠ curr) → g3.load q = g.load q) ∧
            SweepFrame g g3 := by
          intro g1 g3 h1 h3
          obtain ⟨k1, k2, k3, -, -, -, -⟩ :=
            sweep_remove g g1 g3 p curr x la lf lt lx rest2 hL hp hx hr2 hcn hown h1 h3
          obtain ⟨-, -, f3⟩ := sweep_remove_frame g g1 g3 p curr x h1 h3
          obtain ⟨s1, -⟩ := store_nolinks g g1 p _ h1
          obtain ⟨r1, r2, -⟩ := freeobj_frame g1 g3 curr h3
          refine ⟨k1, k2, k3, r1, ?_, f3, sweepFrame_trans _ _ _ (store_sweepFrame _ _ _ _ h1)
            (freeobj_sweepFrame _ _ _ h3)⟩
          intro a ha
          rw [r2 a ha, s1 a]
        constructor
        · intro hcl hf
          obtain ⟨g1, h1⟩ := store_some g p _ x.next hp
          have hx1 : g1.heap curr = some x := by
            rw [store_frame g g1 p x.next h1 curr hpne]
            exact hx
          obtain ⟨g3, h3, e3⟩ := freeobj_closed g1 curr x hx1
            (hcl curr (List.mem_cons_self _ _) x hx hw)
          obtain ⟨k1, k2, k3, -, -, -, -⟩ := step g1 g3 h1 h3
          have hh3 : ∀ b, b ∈ rest2 → g3.heap b = g.heap b := by
            intro b hb
            have hbc : b ≠ curr := fun e => hcn (e ▸ hb)
            rw [e3, heap_free_ne _ _ _ hbc]
            exact store_frame g g1 p x.next h1 b (fun e => hown2 b e hb)
          have hcl3 : DeadClosedIn g3.heap rest2 := by
            intro b hb y hy
            rw [hh3 b hb] at hy
            exact hcl b (List.mem_cons_of_mem _ hb) y hy
          obtain ⟨g2, h2⟩ := (ih n g3 p _ _ _ _ x.next k1 k2 k3 hown2).1 hcl3
            (by simp only [List.length_cons] at hf; omega)
          exact ⟨g2, by simp only [h1, h3, Option.some_bind, h2]⟩
        · intro g2 h
          simp only [Option.bind_eq_some] at h
          obtain ⟨g1, h1, g3, h3, h⟩ := h
          obtain ⟨k1, k2, k3, k4, k5, k6, k7⟩ := step g1 g3 h1 h3
          obtain ⟨⟨⟨cs, m1, m2⟩, m3, m4, m5, m6, m7, m8⟩, la2, lf2, lt2, lx2, n1, n2, n3, n4, n5⟩ :=
            (ih n g3 p _ _ _ _ x.next k1 k2 k3 hown2).2 g2 h
          have hrest : ∀ a, a ∈ rest2 → (g3.heap a).map nolinks = (g.heap a).map nolinks :=
            fun a ha => k5 a (fun e => hcn (e ▸ ha))
          have hf1 : rest2.filter (fun a => !whiteIn g3.heap a) =
              rest2.filter (fun a => !whiteIn g.heap a) :=
            List.filter_congr (fun a ha => by rw [whiteIn_congr _ _ a (hrest a ha)])
          have hf2 : rest2.filter (fun a => !whiteIn g3.heap a && threadIn g3.heap a) =
              rest2.filter (fun a => !whiteIn g.heap a && threadIn g.heap a) :=
            List.filter_congr (fun a ha => by
              rw [whiteIn_congr _ _ a (hrest a ha), threadIn_congr _ _ a (hrest a ha)])
          have hg3 : g3.grayagain = g.grayagain := by
            have e1 := store_nolinks g g1 p _ h1
            have e2 := freeobj_frame g1 g3 curr h3
            rw [e2.2.2]
            show g1.grayagain = _
            rw [e1.2]
          refine ⟨⟨⟨cs, m1, ?_⟩, ?_, ?_, ?_, ?_, ?_, sweepFrame_trans _ _ _ k7 m8⟩,
            la2, lf2, lt2, lx2, n1, n2.trans (List.erase_sublist _ _),
            n3.trans (List.erase_sublist _ _), n4.trans (List.erase_sublist _ _),
            n5.trans (List.erase_sublist _ _)⟩
          · rw [List.filter_cons, hwi]
            simp only [Bool.not_true, Bool.false_eq_true, if_false]
            rw [← hf1]
            exact m2
          · intro a ha hwa
            rcases List.mem_cons.1 ha with rfl | ha
            · have e := m6 a hcn
              rw [k4] at e
              cases e2 : g2.heap a with
              | none => rfl
              | some y => rw [e2] at e; cases e
            · exact m3 a ha (by rw [whiteIn_congr _ _ a (hrest a ha)]; exact hwa)
          · intro a y ha hy hwy
            rcases List.mem_cons.1 ha with rfl | ha
            · rw [hx] at hy
              cases hy
              rw [hw] at hwy
              cases hwy
            · obtain ⟨y3, hy3, f3⟩ := nolinks_map _ _ a y (hrest a ha) hy
              obtain ⟨e1, e2, e3, -⟩ := nolinks_fields _ _ f3
              obtain ⟨x2, q1, q2, q3⟩ := m4 a y3 ha hy3 (by rw [e1]; exact hwy)
              refine ⟨x2, q1, ?_, ?_⟩
              · rw [q2, mark2old_congr _ _ f3]
                exact nolinks_with _ _ f3 _ _
              · intro ht
                rw [q3 (by rw [e2]; exact ht), e3]
          · rw [List.filter_cons, hwi]
            simp only [Bool.not_true, Bool.false_and, Bool.false_eq_true, if_false]
            rw [← hf2, ← hg3]
            exact m5
          · intro a ha
            have hac : a ≠ curr := fun e => ha (e ▸ List.mem_cons_self _ _)
            rw [m6 a (fun hm => ha (List.mem_cons_of_mem _ hm)), k5 a hac]
          · intro q hq hqo
            rw [m7 q hq (fun s hs hm => hqo s hs (List.mem_cons_of_mem _ hm))]
            exact k6 q hq (fun s hs e => hqo s hs (e ▸ List.mem_cons_self _ _))
      · have hw2 : iswhite x.marked = false := by simpa using hw
        rw [sweep2old_keep n g p curr x hp hx hw2]
        have hwi : whiteIn g.heap curr = false := by
          unfold whiteIn
          rw [hx]
          exact hw2
        obtain ⟨y, hheap, hynext, hyno, hnt, hth, hheads, -, -⟩ := after2old_spec g curr x
        have hh1 : ∀ a, a ≠ curr → (after2old g curr x).heap a = g.heap a := by
          intro a ha
          rw [hheap, heap_set_ne _ _ _ _ ha]
        have hc1 : (after2old g curr x).heap curr = some y := by
          rw [hheap, heap_set_same]
        have hnx : ∀ a, nextOf (after2old g curr x).heap a = nextOf g.heap a := by
          intro a
          unfold nextOf
          by_cases hac : a = curr
          · subst hac
            rw [hc1, hx, Option.map_some', Option.map_some', hynext]
          · rw [hh1 a hac]
        have hL1 : Lists (after2old g curr x) la lf lt lx :=
          lists_congr g _ la lf lt lx hnx hheads hL
        have hp1 : (after2old g curr x).load (.next curr) = some x.next := by
          show ((after2old g curr x).heap curr).map (fun o => o.next) = _
          rw [hc1, Option.map_some', hynext]
        have hr1 : IsList (after2old g curr x).heap x.next rest2 := by
          rw [hheap]
          exact isList_set_of_not_mem _ _ _ _ _ hr2 hcn
        have hown1 : ∀ s, GCRef.next curr = .next s → s ∉ rest2 := by
          intro s hs
          cases hs
          exact hcn
        have hrest : ∀ a, a ∈ rest2 → (after2old g curr x).heap a = g.heap a :=
          fun a ha => hh1 a (fun e => hcn (e ▸ ha))
        constructor
        · intro hcl hf
          have hcl1 : DeadClosedIn (after2old g curr x).heap rest2 := by
            intro b hb z hz
            rw [hrest b hb] at hz
            exact hcl b (List.mem_cons_of_mem _ hb) z hz
          exact (ih n _ (.next curr) la lf lt lx x.next hL1 hp1 hr1 hown1).1 hcl1
            (by simp only [List.length_cons] at hf; omega)
        · intro g2 h
          obtain ⟨⟨⟨cs, m1, m2⟩, m3, m4, m5, m6, m7, m8⟩, hlists⟩ :=
            (ih n _ (.next curr) la lf lt lx x.next hL1 hp1 hr1 hown1).2 g2 h
          have hf1 : rest2.filter (fun a => !whiteIn (after2old g curr x).heap a) =
              rest2.filter (fun a => !whiteIn g.heap a) :=
            List.filter_congr (fun a ha => by unfold whiteIn; rw [hrest a ha])
          have hf2 : rest2.filter (fun a => !whiteIn (after2old g curr x).heap a &&
              threadIn (after2old g curr x).heap a) =
              rest2.filter (fun a => !whiteIn g.heap a && threadIn g.heap a) :=
            List.filter_congr (fun a ha => by unfold whiteIn threadIn; rw [hrest a ha])
          have hcurr2 := m6 curr hcn
          rw [hc1, Option.map_some'] at hcurr2
          obtain ⟨xc, hxc, hxcn⟩ : ∃ xc, g2.heap curr = some xc ∧ nolinks xc = nolinks y := by
            cases e : g2.heap curr with
            | none => rw [e] at hcurr2; cases hcurr2
            | some xc =>
              rw [e] at hcurr2
              exact ⟨xc, rfl, Option.some.inj hcurr2⟩
          have hxcg : xc.gclist = y.gclist := (nolinks_fields _ _ hxcn).2.2.1
          have hnext : xc.next = cs := by
            have : g2.load (.next curr) = some xc.next := by
              simp [global_State.load, hxc]
            rw [m1] at this
            exact (Option.some.inj this).symm
          have hloadp : g2.load p = some (some curr) := by
            rw [m7 p hpne hown2, ← hp]
            exact load_congr g _ p hheads (fun s _ => hnx s)
          refine ⟨⟨⟨some curr, hloadp, ?_⟩, ?_, ?_, ?_, ?_, ?_,
            sweepFrame_trans _ _ _ (after2old_sweepFrame g curr x) m8⟩, hlists⟩
          · rw [List.filter_cons, hwi]
            simp only [Bool.not_false, if_true]
            rw [← hf1]
            exact ⟨rfl, xc, hxc, by rw [hnext]; exact m2⟩
          · intro a ha hwa
            rcases List.mem_cons.1 ha with rfl | ha
            · rw [hwi] at hwa
              cases hwa
            · exact m3 a ha (by unfold whiteIn; rw [hrest a ha]; exact hwa)
          · intro a z ha hz hwz
            rcases List.mem_cons.1 ha with rfl | ha
            · rw [hx] at hz
              cases hz
              refine ⟨xc, hxc, ?_, ?_⟩
              · rw [hxcn, hxcg]
                exact hyno
              · intro ht
                rw [hxcg]
                exact (hnt ht).1
            · exact m4 a z ha (by rw [hrest a ha]; exact hz) hwz
          · by_cases ht : x.tt = .LUA_VTHREAD
            · have hti : threadIn g.heap curr = true := by
                unfold threadIn
                rw [hx]
                exact decide_eq_true ht
              rw [List.filter_cons, hwi, hti]
              simp only [Bool.not_false, Bool.and_self, if_true, List.reverse_cons]
              rw [← hf2]
              rw [(hth ht).2] at m5
              refine isGSeg_append _ _ _ _ _ _ m5 ⟨rfl, xc, hxc, ?_⟩
              show xc.gclist = g.grayagain
              rw [hxcg]
              exact (hth ht).1
            · have hti : threadIn g.heap curr = false := by
                unfold threadIn
                rw [hx]
                exact decide_eq_false ht
              rw [List.filter_cons, hwi, hti]
              simp only [Bool.not_false, Bool.and_false, Bool.false_eq_true, if_false]
              rw [← hf2, ← (hnt ht).2]
              exact m5
          · intro a ha
            have hac : a ≠ curr := fun e => ha (e ▸ List.mem_cons_self _ _)
            rw [m6 a (fun hm => ha (List.mem_cons_of_mem _ hm)), hh1 a hac]
          · intro q hq hqo
            have hqc : q ≠ .next curr := fun e => hqo curr e (List.mem_cons_self _ _)
            rw [m7 q hqc (fun s hs hm => hqo s hs (List.mem_cons_of_mem _ hm))]
            exact load_congr g _ q hheads (fun s _ => hnx s)

theorem sweepgen_stop (white : Nat) (limit : Option Addr) (fuel : Nat) (g : global_State)
    (p : GCRef) (pf : FirstOld) (hp : g.load p = some limit) :
    sweepgen_loop white limit (fuel + 1) g p pf = some (g, p, pf) := by
  rw [sweepgen_loop]
  simp only [hp, Option.bind_eq_bind, Option.some_bind, if_true]

theorem sweepgen_free (white : Nat) (limit : Option Addr) (fuel : Nat) (g : global_State)
    (p : GCRef) (pf : FirstOld) (curr : Addr) (x : GCObject)
    (hp : g.load p = some (some curr)) (hl : some curr ≠ limit) (hx : g.heap curr = some x)
    (hw : iswhite x.marked = true) :
    sweepgen_loop white limit (fuel + 1) g p pf =
      (g.store p x.next).bind (fun g1 => (freeobj g1 curr).bind
        (fun g2 => sweepgen_loop white limit fuel g2 p pf)) := by
  rw [sweepgen_loop]
  simp only [hp, hx, Option.bind_eq_bind, Option.some_bind, hw, if_true, if_neg hl]

theorem sweepgen_keep (white : Nat) (limit : Option Addr) (fuel : Nat) (g : global_State)
    (p : GCRef) (pf : FirstOld) (curr : Addr) (x : GCObject) (m2 : Nat)
    (hp : g.load p = some (some curr)) (hl : some curr ≠ limit) (hx : g.heap curr = some x)
    (hw : iswhite x.marked = false) (hm : markgen white x.marked = some m2) :
    sweepgen_loop white limit (fuel + 1) g p pf =
      sweepgen_loop white limit fuel (aftergen g curr x m2 pf).1 (.next curr)
        (aftergen g curr x m2 pf).2 := by
  rw [sweepgen_loop]
  simp only [hp, hx, Option.bind_eq_bind, Option.some_bind, hw, Bool.false_eq_true, if_false,
    if_neg hl]
  unfold markgen at hm
  unfold aftergen
  by_cases hn : getage x.marked = G_NEW
  · rw [if_pos hn] at hm
    cases hm
    rw [if_pos hn, if_neg (fun h => h.1 hn)]
  · rw [if_neg hn] at hm
    simp only [Option.map_eq_some'] at hm
    obtain ⟨na, hna, rfl⟩ := hm
    rw [if_neg hn, hna]
    simp only [Option.some_bind, ne_eq, hn, not_false_eq_true, true_and]

theorem sweepgen_crash (white : Nat) (limit : Option Addr) (fuel : Nat) (g : global_State)
    (p : GCRef) (pf : FirstOld) (curr : Addr) (x : GCObject)
    (hp : g.load p = some (some curr)) (hl : some curr ≠ limit) (hx : g.heap curr = some x)
    (hw : iswhite x.marked = false) (hm : markgen white x.marked = none) :
    sweepgen_loop white limit (fuel + 1) g p pf = none := by
  rw [sweepgen_loop]
  simp only [hp, hx, Option.bind_eq_bind, Option.some_bind, hw, Bool.false_eq_true, if_false,
    if_neg hl]
  unfold markgen at hm
  by_cases hn : getage x.marked = G_NEW
  · rw [if_pos hn] at hm
    cases hm
  · rw [if_neg hn] at hm
    simp only [Option.map_eq_none'] at hm
    rw [if_neg hn, hm]
    rfl

theorem aftergen_spec (g : global_State) (curr : Addr) (x : GCObject) (m2 : Nat)
    (pf : FirstOld) :
    (aftergen g curr x m2 pf).1.heap = Heap.set g.heap curr { x with marked := m2 } ∧
    heads (aftergen g curr x m2 pf).1 = heads g ∧
    SweepFrame g (aftergen g curr x m2 pf).1 := by
  unfold aftergen
  split
  · cases pf with
    | global => exact ⟨rfl, rfl, rfl⟩
    | localvar v => exact ⟨rfl, rfl, rfl⟩
  · exact ⟨rfl, rfl, rfl⟩

theorem isList_head_eq (h : Heap) (p : Option Addr) (l : List Addr) (hl : IsList h p l) :
    p = l.head? := by
  cases l with
  | nil => exact hl
  | cons b l2 => exact hl.1

theorem nolinks_mark (x y : GCObject) (h : nolinks y = nolinks x) (m : Nat) :
    nolinks { y with marked := m } = nolinks { x with marked := m } := by
  have e : nolinks { y with marked := m } = { nolinks y with marked := m } := rfl
  rw [e, h]
  rfl

theorem markgen_some (white m : Nat) (h : getage m ≠ 7) : markgen white m ≠ none := by
  unfold markgen
  split
  · simp
  · have hlt : getage m < 8 := by
      unfold getage
      exact lt_of_le_of_lt Nat.and_le_right (by decide)
    have : ∀ a : Nat, a < 8 → a ≠ 7 → nextage a ≠ none := by decide
    have h2 := this _ hlt h
    cases e : nextage (getage m) with
    | none => exact absurd e h2
    | some na => simp

/-- The loop of `sweepgen`, in detail, for the list at `*p` that is `pre`
followed by `post`, with `limit` the head of `post`: it returns when the
fuel exceeds the length of `pre`, no white upvalue of `pre` is open and no
survivor has the age 7, beyond the table `nextage`; what it leaves is
`SweptGen`, and the four heap lists stay well formed, each a sublist of what
it was. -/
theorem sweepgen_detail (white : Nat) (post : List Addr) (pre : List Addr) :
    ∀ (fuel : Nat) (g : global_State) (p : GCRef) (pf : FirstOld)
    (la lf lt lx : List Addr) (c0 : Option Addr),
    Lists g la lf lt lx → g.load p = some c0 → IsList g.heap c0 (pre ++ post) →
    (∀ s, p = .next s → s ∉ pre ++ post) →
    (DeadClosedIn g.heap pre →
      (∀ a y, a ∈ pre → g.heap a = some y → iswhite y.marked = false → getage y.marked ≠ 7) →
      pre.length < fuel → ∃ r, sweepgen_loop white post.head? fuel g p pf = some r) ∧
    ∀ g2 p2 pf2, sweepgen_loop white post.head? fuel g p pf = some (g2, p2, pf2) →
      SweptGen white g p pre post g2 p2 ∧
      ∃ la2 lf2 lt2 lx2, Lists g2 la2 lf2 lt2 lx2 ∧ la2.Sublist la ∧ lf2.Sublist lf ∧
        lt2.Sublist lt ∧ lx2.Sublist lx := by
  induction pre with
  | nil =>
    intro fuel g p pf la lf lt lx c0 hL hp hr hown
    have hc : c0 = post.head? := isList_head_eq _ _ _ hr
    subst hc
    cases fuel with
    | zero =>
      exact ⟨fun _ _ h => absurd h (Nat.lt_irrefl _),
        fun g2 p2 pf2 h => by simp [sweepgen_loop] at h⟩
    | succ n =>
      rw [sweepgen_stop white _ n g p pf hp]
      refine ⟨fun _ _ _ => ⟨_, rfl⟩, ?_⟩
      intro g2 p2 pf2 h
      simp only [Option.some.injEq, Prod.mk.injEq] at h
      obtain ⟨rfl, rfl, rfl⟩ := h
      exact ⟨⟨⟨_, hp, hr⟩, hp, fun _ => rfl, (fun s hs => by cases hs), (fun a ha => by cases ha),
        (fun a x ha => by cases ha), fun _ _ => rfl, fun _ _ _ => rfl, sweepFrame_refl _⟩,
        la, lf, lt, lx, hL, List.Sublist.refl _, List.Sublist.refl _, List.Sublist.refl _,
        List.Sublist.refl _⟩
  | cons curr pre2 ih =>
    intro fuel g p pf la lf lt lx c0 hL hp hr hown
    obtain ⟨hc0, x, hx, hr2⟩ := hr
    subst hc0
    have hnd : (curr :: (pre2 ++ post)).Nodup := isList_nodup _ _ _ ⟨rfl, x, hx, hr2⟩
    have hcn : curr ∉ pre2 ++ post := (List.nodup_cons.1 hnd).1
    have hcn2 : curr ∉ pre2 := fun h => hcn (List.mem_append_left _ h)
    have hown2 : ∀ s, p = .next s → s ∉ pre2 ++ post :=
      fun s hs hm => hown s hs (List.mem_cons_of_mem _ hm)
    have hpne : p ≠ .next curr := fun e => hown curr e (List.mem_cons_self _ _)
    have hl : some curr ≠ post.head? := by
      intro e
      exact hcn (List.mem_append_right _ (List.mem_of_mem_head? e.symm))
    cases fuel with
    | zero =>
      exact ⟨fun _ _ h => absurd h (Nat.not_lt_zero _),
        fun g2 p2 pf2 h => by simp [sweepgen_loop] at h⟩
    | succ n =>
      by_cases hw : iswhite x.marked = true
      · rw [sweepgen_free white _ n g p pf curr x hp hl hx hw]
        have hwi : whiteIn g.heap curr = true := by
          unfold whiteIn
          rw [hx]
          exact hw
        have step : ∀ g1 g3, g.store p x.next = some g1 → freeobj g1 curr = some g3 →
            Lists g3 (la.erase curr) (lf.erase curr) (lt.erase curr) (lx.erase curr) ∧
            g3.load p = some x.next ∧ IsList g3.heap x.next (pre2 ++ post) ∧
            g3.heap curr = none ∧
            (∀ a, a ≠ curr → (g3.heap a).map nolinks = (g.heap a).map nolinks) ∧
            (∀ q, q ≠ p → (∀ s, q = .next s → s ≠ curr) → g3.load q = g.load q) ∧
            SweepFrame g g3 := by
          intro g1 g3 h1 h3
          obtain ⟨k1, k2, k3, -, -, -, -⟩ :=
            sweep_remove g g1 g3 p curr x la lf lt lx (pre2 ++ post) hL hp hx hr2 hcn hown h1 h3
          obtain ⟨-, -, f3⟩ := sweep_remove_frame g g1 g3 p curr x h1 h3
          obtain ⟨s1, -⟩ := store_nolinks g g1 p _ h1
          obtain ⟨r1, r2, -⟩ := freeobj_frame g1 g3 curr h3
          refine ⟨k1, k2, k3, r1, ?_, f3, sweepFrame_trans _ _ _ (store_sweepFrame _ _ _ _ h1)
            (freeobj_sweepFrame _ _ _ h3)⟩
          intro a ha
          rw [r2 a ha, s1 a]
        constructor
        · intro hcl hage hf
          obtain ⟨g1, h1⟩ := store_some g p _ x.next hp
          have hx1 : g1.heap curr = some x := by
            rw [store_frame g g1 p x.next h1 curr hpne]
            exact hx
          obtain ⟨g3, h3, e3⟩ := freeobj_closed g1 curr x hx1
            (hcl curr (List.mem_cons_self _ _) x hx hw)
          obtain ⟨k1, k2, k3, -, -, -, -⟩ := step g1 g3 h1 h3
          have hh3 : ∀ b, b ∈ pre2 → g3.heap b = g.heap b := by
            intro b hb
            have hbc : b ≠ curr := fun e => hcn2 (e ▸ hb)
            rw [e3, heap_free_ne _ _ _ hbc]
            exact store_frame g g1 p x.next h1 b
              (fun e => hown2 b e (List.mem_append_left _ hb))
          have hcl3 : DeadClosedIn g3.heap pre2 := by
            intro b hb y hy
            rw [hh3 b hb] at hy
            exact hcl b (List.mem_cons_of_mem _ hb) y hy
          have hage3 : ∀ a y, a ∈ pre2 → g3.heap a = some y → iswhite y.marked = false →
              getage y.marked ≠ 7 := by
            intro b y hb hy
            rw [hh3 b hb] at hy
            exact hage b y (List.mem_cons_of_mem _ hb) hy
          obtain ⟨r, h2⟩ := (ih n g3 p pf _ _ _ _ x.next k1 k2 k3 hown2).1 hcl3 hage3
            (by simp only [List.length_cons] at hf; omega)
          exact ⟨r, by simp only [h1, h3, Option.some_bind, h2]⟩
        · intro g2 p2 pf2 h
          simp only [Option.bind_eq_some] at h
          obtain ⟨g1, h1, g3, h3, h⟩ := h
          obtain ⟨k1, k2, k3, k4, k5, k6, k7⟩ := step g1 g3 h1 h3
          obtain ⟨⟨⟨cs, m1, m2⟩, m3, m4, m5, m6, m7, m8, m9, m10⟩,
              la2, lf2, lt2, lx2, n1, n2, n3, n4, n5⟩ :=
            (ih n g3 p pf _ _ _ _ x.next k1 k2 k3 hown2).2 g2 p2 pf2 h
          have hrest : ∀ a, a ∈ pre2 → (g3.heap a).map nolinks = (g.heap a).map nolinks :=
            fun a ha => k5 a (fun e => hcn2 (e ▸ ha))
          have hk : (curr :: pre2).filter (fun a => !whiteIn g.heap a) =
              pre2.filter (fun a => !whiteIn g3.heap a) := by
            rw [List.filter_cons, hwi]
            simp only [Bool.not_true, Bool.false_eq_true, if_false]
            exact List.filter_congr (fun a ha => by rw [whiteIn_congr _ _ a (hrest a ha)])
          refine ⟨⟨⟨cs, m1, by rw [hk]; exact m2⟩, m3, by rw [hk]; exact m4,
            by rw [hk]; exact m5, ?_, ?_, ?_, ?_, sweepFrame_trans _ _ _ k7 m10⟩,
            la2, lf2, lt2, lx2, n1, n2.trans (List.erase_sublist _ _),
            n3.trans (List.erase_sublist _ _), n4.trans (List.erase_sublist _ _),
            n5.trans (List.erase_sublist _ _)⟩
          · intro a ha hwa
            rcases List.mem_cons.1 ha with rfl | ha
            · have e := m8 a hcn2
              rw [k4] at e
              cases e2 : g2.heap a with
              | none => rfl
              | some y => rw [e2] at e; cases e
            · exact m6 a ha (by rw [whiteIn_congr _ _ a (hrest a ha)]; exact hwa)
          · intro a y ha hy hwy
            rcases List.mem_cons.1 ha with rfl | ha
            · rw [hx] at hy
              cases hy
              rw [hw] at hwy
              cases hwy
            · obtain ⟨y3, hy3, f3⟩ := nolinks_map _ _ a y (hrest a ha) hy
              obtain ⟨e1, -, -, -⟩ := nolinks_fields _ _ f3
              obtain ⟨m2b, x2, q1, q2, q3⟩ := m7 a y3 ha hy3 (by rw [e1]; exact hwy)
              refine ⟨m2b, x2, by rw [← e1]; exact q1, q2, ?_⟩
              rw [q3]
              exact nolinks_mark _ _ f3 _
          · intro a ha
            have hac : a ≠ curr := fun e => ha (e ▸ List.mem_cons_self _ _)
            rw [m8 a (fun hm => ha (List.mem_cons_of_mem _ hm)), k5 a hac]
          · intro q hq hqo
            rw [m9 q hq (fun s hs hm => hqo s hs (List.mem_cons_of_mem _ hm))]
            exact k6 q hq (fun s hs e => hqo s hs (e ▸ List.mem_cons_self _ _))
      · have hw2 : iswhite x.marked = false := by simpa using hw
        have hwi : whiteIn g.heap curr = false := by
          unfold whiteIn
          rw [hx]
          exact hw2
        cases hm : markgen white x.marked with
        | none =>
          rw [sweepgen_crash white _ n g p pf curr x hp hl hx hw2 hm]
          refine ⟨?_, fun g2 p2 pf2 h => by cases h⟩
          intro _ hage _
          exfalso
          exact markgen_some white x.marked (hage curr x (List.mem_cons_self _ _) hx hw2) hm
        | some mk =>
          rw [sweepgen_keep white _ n g p pf curr x mk hp hl hx hw2 hm]
          obtain ⟨hheap, hheads, hframe⟩ := aftergen_spec g curr x mk pf
          have hh1 : ∀ a, a ≠ curr → (aftergen g curr x mk pf).1.heap a = g.heap a := by
            intro a ha
            rw [hheap, heap_set_ne _ _ _ _ ha]
          have hc1 : (aftergen g curr x mk pf).1.heap curr = some { x with marked := mk } := by
            rw [hheap, heap_set_same]
          have hnx : ∀ a, nextOf (aftergen g curr x mk pf).1.heap a = nextOf g.heap a := by
            intro a
            unfold nextOf
            by_cases hac : a = curr
            · subst hac
              rw [hc1, hx]
              rfl
            · rw [hh1 a hac]
          have hL1 : Lists (aftergen g curr x mk pf).1 la lf lt lx :=
            lists_congr g _ la lf lt lx hnx hheads hL
          have hp1 : (aftergen g curr x mk pf).1.load (.next curr) = some x.next := by
            show ((aftergen g curr x mk pf).1.heap curr).map (fun o => o.next) = _
            rw [hc1]
            rfl
          have hr1 : IsList (aftergen g curr x mk pf).1.heap x.next (pre2 ++ post) := by
            rw [hheap]
            exact isList_set_of_not_mem _ _ _ _ _ hr2 hcn
          have hown1 : ∀ s, GCRef.next curr = .next s → s ∉ pre2 ++ post := by
            intro s hs
            cases hs
            exact hcn
          have hrest : ∀ a, a ∈ pre2 → (aftergen g curr x mk pf).1.heap a = g.heap a :=
            fun a ha => hh1 a (fun e => hcn2 (e ▸ ha))
          constructor
          · intro hcl hage hf
            have hcl1 : DeadClosedIn (aftergen g curr x mk pf).1.heap pre2 := by
              intro b hb z hz
              rw [hrest b hb] at hz
              exact hcl b (List.mem_cons_of_mem _ hb) z hz
            have hage1 : ∀ a y, a ∈ pre2 → (aftergen g curr x mk pf).1.heap a = some y →
                iswhite y.marked = false → getage y.marked ≠ 7 := by
              intro b y hb hy
              rw [hrest b hb] at hy
              exact hage b y (List.mem_cons_of_mem _ hb) hy
            exact (ih n _ (.next curr) _ la lf lt lx x.next hL1 hp1 hr1 hown1).1 hcl1 hage1
              (by simp only [List.length_cons] at hf; omega)
          · intro g2 p2 pf2 h
            obtain ⟨⟨⟨cs, m1, m2⟩, m3, m4, m5, m6, m7, m8, m9, m10⟩, hlists⟩ :=
              (ih n _ (.next curr) _ la lf lt lx x.next hL1 hp1 hr1 hown1).2 g2 p2 pf2 h
            have hk : (curr :: pre2).filter (fun a => !whiteIn g.heap a) =
                curr :: pre2.filter (fun a => !whiteIn (aftergen g curr x mk pf).1.heap a) := by
              rw [List.filter_cons, hwi]
              simp only [Bool.not_false, if_true]
              congr 1
              exact List.filter_congr (fun a ha => by unfold whiteIn; rw [hrest a ha])
            have hcurr2 := m8 curr hcn2
            rw [hc1, Option.map_some'] at hcurr2
            obtain ⟨xc, hxc, hxcn⟩ : ∃ xc, g2.heap curr = some xc ∧
                nolinks xc = nolinks { x with marked := mk } := by
              cases e : g2.heap curr with
              | none => rw [e] at hcurr2; cases hcurr2
              | some xc =>
                rw [e] at hcurr2
                exact ⟨xc, rfl, Option.some.inj hcurr2⟩
            have hnext : xc.next = cs := by
              have : g2.load (.next curr) = some xc.next := by
                simp [global_State.load, hxc]
              rw [m1] at this
              exact (Option.some.inj this).symm
            have hloadp : g2.load p = some (some curr) := by
              rw [m9 p hpne (fun s hs hm => hown2 s hs (List.mem_append_left _ hm)), ← hp]
              exact load_congr g _ p hheads (fun s _ => hnx s)
            refine ⟨⟨⟨some curr, hloadp, ?_⟩, m3, ?_, ?_, ?_, ?_, ?_, ?_,
              sweepFrame_trans _ _ _ hframe m10⟩, hlists⟩
            · rw [hk]
              exact ⟨rfl, xc, hxc, by rw [hnext]; exact m2⟩
            · rw [hk]
              intro e
              cases e
            · rw [hk]
              intro s hs
              cases hkk : pre2.filter
                  (fun a => !whiteIn (aftergen g curr x mk pf).1.heap a) with
              | nil =>
                rw [hkk] at hs
                simp only [List.getLast?_singleton, Option.some.injEq] at hs
                subst hs
                exact m4 hkk
              | cons b l =>
                rw [hkk, List.getLast?_cons_cons] at hs
                rw [← hkk] at hs
                exact m5 s hs
            · intro a ha hwa
              rcases List.mem_cons.1 ha with rfl | ha
              · rw [hwi] at hwa
                cases hwa
              · exact m6 a ha (by unfold whiteIn; rw [hrest a ha]; exact hwa)
            · intro a z ha hz hwz
              rcases List.mem_cons.1 ha with rfl | ha
              · rw [hx] at hz
                cases hz
                exact ⟨mk, xc, hm, hxc, hxcn⟩
              · exact m7 a z ha (by rw [hrest a ha]; exact hz) hwz
            · intro a ha
              have hac : a ≠ curr := fun e => ha (e ▸ List.mem_cons_self _ _)
              rw [m8 a (fun hm => ha (List.mem_cons_of_mem _ hm)), hh1 a hac]
            · intro q hq hqo
              have hqc : q ≠ .next curr := fun e => hqo curr e (List.mem_cons_self _ _)
              rw [m9 q hqc (fun s hs hm => hqo s hs (List.mem_cons_of_mem _ hm))]
              exact load_congr g _ q hheads (fun s _ => hnx s)

theorem markgen_mod (w m : Nat) : markgen w m = markgen w (m % 256) := by
  have e : (fun na => setage m na) = (fun na => setage (m % 256) na) :=
    funext (fun na => setage_mod m na)
  unfold markgen
  rw [getage_mod m, e, and_byte m (bnot8 maskgcbits) (by decide)]

set_option maxRecDepth 1000000 in
theorem markgen_byte (w : Nat) (hw : w = 0 ∨ w = 8 ∨ w = 16 ∨ w = 24) : ∀ m : Nat, m < 256 →
    iswhite m = false →
    (match markgen w m with
    | some m2 => decide (
      (getage m = G_NEW → getage m2 = G_SURVIVAL ∧ m2 &&& WHITEBITS = w ∧ isblack m2 = false) ∧
      (getage m = G_SURVIVAL → getage m2 = G_OLD1) ∧
      (getage m = G_OLD0 → getage m2 = G_OLD1) ∧
      (getage m = G_OLD1 → getage m2 = G_OLD) ∧
      (getage m = G_OLD → getage m2 = G_OLD) ∧
      (getage m = G_TOUCHED1 → getage m2 = G_TOUCHED1) ∧
      (getage m = G_TOUCHED2 → getage m2 = G_TOUCHED2) ∧
      (getage m ≠ G_NEW → m2 &&& maskcolors = m &&& maskcolors) ∧
      getage m ≤ getage m2 ∧ (isold m = true → isold m2 = true) ∧
      tofinalize m2 = tofinalize m)
    | none => decide (getage m = 7)) = true := by
  rcases hw with rfl | rfl | rfl | rfl <;> decide

/-- The mark `markgen` of a non-white object: the ages advance along the
table `nextage`, never backward, and an old object stays old; a new object
gets the white `w` and is not black, any other keeps its colour; the
`FINALIZEDBIT` stays. -/
theorem markgen_spec (w : Nat) (hw : w = 0 ∨ w = 8 ∨ w = 16 ∨ w = 24) (m m2 : Nat)
    (hnw : iswhite m = false) (h : markgen w m = some m2) :
    (getage m = G_NEW → getage m2 = G_SURVIVAL ∧ m2 &&& WHITEBITS = w ∧ isblack m2 = false) ∧
    (getage m = G_SURVIVAL → getage m2 = G_OLD1) ∧
    (getage m = G_OLD0 → getage m2 = G_OLD1) ∧
    (getage m = G_OLD1 → getage m2 = G_OLD) ∧
    (getage m = G_OLD → getage m2 = G_OLD) ∧
    (getage m = G_TOUCHED1 → getage m2 = G_TOUCHED1) ∧
    (getage m = G_TOUCHED2 → getage m2 = G_TOUCHED2) ∧
    (getage m ≠ G_NEW → m2 &&& maskcolors = m &&& maskcolors) ∧
    getage m ≤ getage m2 ∧ (isold m = true → isold m2 = true) ∧
    tofinalize m2 = tofinalize m := by
  have B := markgen_byte w hw (m % 256) (Nat.mod_lt _ (by decide))
    (by rw [← iswhite_mod]; exact hnw)
  rw [← markgen_mod, h] at B
  have B2 := of_decide_eq_true B
  rw [← getage_mod, ← isold_mod, ← tofinalize_mod, ← and_byte m maskcolors (by decide)] at B2
  exact B2

theorem store_total (g : global_State) (p : GCRef) (v : Option Addr) (c : Option Addr)
    (h : g.load p = some c) : ∃ g1, g.store p v = some g1 := by
  cases p with
  | allgc => exact ⟨_, rfl⟩
  | finobj => exact ⟨_, rfl⟩
  | tobefnz => exact ⟨_, rfl⟩
  | next o =>
    simp only [global_State.load, Option.map_eq_some'] at h
    obtain ⟨x, hx, -⟩ := h
    exact ⟨g.setobj o { x with next := v }, by simp [global_State.store, hx]⟩

theorem store_finobjold1 (g g1 : global_State) (p : GCRef) (v : Option Addr)
    (h : g.store p v = some g1) : g1.finobjold1 = g.finobjold1 := by
  have e := (store_nolinks g g1 p v h).2
  rw [e]

theorem sameMarks_live (h h2 : Heap) (hs : SameMarks h h2) (a : Addr) :
    (h2 a).isSome = (h a).isSome := by
  have e := congrArg Option.isSome (hs a)
  simpa using e

theorem whiteIn_sameMarks (h h2 : Heap) (hs : SameMarks h h2) (a : Addr) :
    whiteIn h2 a = whiteIn h a := by
  have e := hs a
  unfold whiteIn
  cases e1 : h a with
  | none =>
    rw [e1] at e
    cases e2 : h2 a with
    | none => rfl
    | some y => rw [e2] at e; cases e
  | some x =>
    rw [e1] at e
    cases e2 : h2 a with
    | none => rw [e2] at e; cases e
    | some y =>
      rw [e2] at e
      simp only [Option.map_some', Option.some.injEq, Prod.mk.injEq] at e
      show iswhite y.marked = iswhite x.marked
      rw [e.1]

/-- The link that the cursor of `separatetobefnz` owns points to the first
object not yet visited. -/
theorem sep_cursor (g : global_State) (p : GCRef) (done rest : List Addr)
    (hl : IsList g.heap g.finobj (done ++ rest))
    (hp : (p = .finobj ∧ done = []) ∨ ∃ d0 s, done = d0 ++ [s] ∧ p = .next s) :
    g.load p = some rest.head? := by
  rcases hp with ⟨rfl, rfl⟩ | ⟨d0, s, rfl, rfl⟩
  · simp only [List.nil_append] at hl
    simp only [global_State.load, Option.some.injEq]
    exact isList_head_eq _ _ _ hl
  · rw [isList_iff_isSeg, isSeg_append_iff] at hl
    obtain ⟨r, h1, h2⟩ := hl
    rw [isSeg_append_iff] at h1
    obtain ⟨r1, -, h3⟩ := h1
    rw [isSeg_cons_iff] at h3
    obtain ⟨-, o, ho, h4⟩ := h3
    have h5 : o.next = r := h4
    rw [← isList_iff_isSeg] at h2
    have h6 := isList_head_eq _ _ _ h2
    simp only [global_State.load, ho, Option.map_some', Option.some.injEq]
    rw [h5, h6]

theorem load_total (g : global_State) (q : GCRef)
    (h : ∀ s, q = .next s → (g.heap s).isSome = true) : ∃ c, g.load q = some c := by
  cases q with
  | allgc => exact ⟨_, rfl⟩
  | finobj => exact ⟨_, rfl⟩
  | tobefnz => exact ⟨_, rfl⟩
  | next o =>
    obtain ⟨x, hx⟩ := Option.isSome_iff_exists.1 (h o rfl)
    exact ⟨x.next, by simp [global_State.load, hx]⟩

/-- The loop of `separatetobefnz`, exactly: of the objects `todo` between
the cursor and `finobjold1`, those that are white (or all of them) go to the
end of `tobefnz` in their order, and the others stay in their order. -/
theorem separatetobefnz_loop_exact (all : Bool) (h0 : Heap) : ∀ (todo : List Addr) (fuel : Nat)
    (g : global_State) (p lastnext : GCRef) (la done tail lt lx : List Addr),
    Lists g la (done ++ todo ++ tail) lt lx → SameMarks h0 g.heap →
    ((p = .finobj ∧ done = []) ∨ ∃ d0 s, done = d0 ++ [s] ∧ p = .next s) →
    ((lastnext = .tobefnz ∧ lt = []) ∨ ∃ l0 s, lt = l0 ++ [s] ∧ lastnext = .next s) →
    tail.head? = g.finobjold1 → todo.length < fuel →
    ∃ g2, separatetobefnz_loop all fuel g p lastnext = some g2 ∧
      Lists g2 la (done ++ todo.filter (fun a => !(whiteIn h0 a || all)) ++ tail)
        (lt ++ todo.filter (fun a => whiteIn h0 a || all)) lx ∧
      SameMarks h0 g2.heap := by
  intro todo
  induction todo with
  | nil =>
    intro fuel g p lastnext la done tail lt lx hL hsm hp hlast htail hfuel
    obtain ⟨n, rfl⟩ : ∃ n, fuel = n + 1 := ⟨fuel - 1, by omega⟩
    have hcur := sep_cursor g p done tail (by simpa using hL.2.1) hp
    refine ⟨g, ?_, by simpa using hL, hsm⟩
    rw [separatetobefnz_loop]
    simp only [hcur, Option.bind_eq_bind, Option.some_bind]
    rw [if_pos htail]
  | cons c todo2 ih =>
    intro fuel g p lastnext la done tail lt lx hL hsm hp hlast htail hfuel
    obtain ⟨n, rfl⟩ : ∃ n, fuel = n + 1 :=
      ⟨fuel - 1, by simp only [List.length_cons] at hfuel; omega⟩
    have hfuel2 : todo2.length < n := by simp only [List.length_cons] at hfuel; omega
    have hlf : IsList g.heap g.finobj (done ++ (c :: (todo2 ++ tail))) := by
      simpa [List.append_assoc] using hL.2.1
    have hcur : g.load p = some (some c) := by
      simpa using sep_cursor g p done (c :: (todo2 ++ tail)) hlf hp
    obtain ⟨nda, ndf, ndt, ndx, da, df, dt, dx⟩ := nodup4 _ _ _ _ hL.2.2.2.2.1
    have hcm : c ∈ done ++ c :: todo2 ++ tail := by simp
    have hcd : c ∉ done := fun hd =>
      (List.nodup_append.1 (List.nodup_append.1 ndf).1).2.2 hd (List.mem_cons_self _ _)
    have hne : ¬ (some c = g.finobjold1) := by
      intro e
      rw [← htail] at e
      have hct : c ∈ tail := List.mem_of_mem_head? e.symm
      exact (List.nodup_append.1 ndf).2.2 (by simp) hct
    obtain ⟨x, hx⟩ := Option.isSome_iff_exists.1
      ((hL.2.2.2.2.2 c).2 (by simp))
    have hw : whiteIn h0 c = iswhite x.marked := by
      rw [← whiteIn_sameMarks h0 g.heap hsm c]
      simp [whiteIn, hx]
    rw [separatetobefnz_loop]
    simp only [hcur, Option.bind_eq_bind, Option.some_bind]
    rw [if_neg hne]
    simp only [hx, Option.some_bind]
    by_cases hmv : (iswhite x.marked || all) = true
    · rw [if_neg (by simp only [hmv]; decide)]
      obtain ⟨fs, hfs⟩ : ∃ fs, (if some c = g.finobjsur then { g with finobjsur := x.next }
          else g) = { g with finobjsur := fs } := by
        split
        · exact ⟨_, rfl⟩
        · exact ⟨g.finobjsur, rfl⟩
      simp only [hfs]
      have hx1 : global_State.heap { g with finobjsur := fs } c = some x := hx
      have hload1 : global_State.load { g with finobjsur := fs } p = some (some c) := by
        rw [← hcur]
        exact load_congr g _ p rfl (fun _ _ => rfl)
      have hL1 : Lists { g with finobjsur := fs } la (done ++ c :: todo2 ++ tail) lt lx :=
        lists_congr g _ _ _ _ _ (fun _ => rfl) rfl hL
      obtain ⟨g2a, hstore⟩ := store_total { g with finobjsur := fs } p x.next (some c) hload1
      obtain ⟨-, hc2, hsm1, -, -⟩ := lists_unlink _ g2a p c x la _ lt lx hL1 hload1 hx hstore
      have hlive2 : ∀ s, lastnext = .next s → (g2a.heap s).isSome = true := by
        intro s hs
        rw [sameMarks_live _ _ hsm1 s]
        rcases hlast with ⟨rfl, -⟩ | ⟨l0, s2, rfl, rfl⟩
        · cases hs
        · cases hs
          exact (hL.2.2.2.2.2 s).2 (by simp)
      obtain ⟨ln, hln⟩ := load_total g2a lastnext hlive2
      obtain ⟨ln3, hln3⟩ := load_total (g2a.setobj c { x with next := ln }) lastnext (by
        intro s hs
        show (Heap.set g2a.heap c _ s).isSome = true
        rw [heap_set_apply]
        split
        · rfl
        · exact hlive2 s hs)
      obtain ⟨g4, hs4⟩ := store_total (g2a.setobj c { x with next := ln }) lastnext (some c)
        ln3 hln3
      simp only [hx, hstore, hln, hc2, hs4, Option.some_bind]
      have hpm : p = .finobj ∨ ∃ s, s ∈ done ++ c :: todo2 ++ tail ∧ p = .next s := by
        rcases hp with ⟨rfl, -⟩ | ⟨d0, s, rfl, rfl⟩
        · exact Or.inl rfl
        · exact Or.inr ⟨s, by simp, rfl⟩
      obtain ⟨k1, -, -, k4⟩ := separate_move g g2a g4 fs p lastnext c x ln la _ lt lx hL
        hpm hlast hcur hx hstore hln hs4
      have herase : (done ++ c :: todo2 ++ tail).erase c = done ++ todo2 ++ tail := by
        rw [List.append_assoc, List.erase_append_right _ hcd, List.cons_append,
          List.erase_cons_head, ← List.append_assoc]
      rw [herase] at k1
      have hfo : g4.finobjold1 = g.finobjold1 := by
        rw [store_finobjold1 _ _ _ _ hs4]
        show g2a.finobjold1 = _
        rw [store_finobjold1 _ _ _ _ hstore]
      obtain ⟨g2, r1, r2, r3⟩ := ih n g4 p (.next c) la done tail (lt ++ [c]) lx k1
        (sameMarks_trans _ _ _ hsm k4) hp (Or.inr ⟨lt, c, rfl, rfl⟩) (htail.trans hfo.symm)
        hfuel2
      refine ⟨g2, r1, ?_, r3⟩
      have f1 : (whiteIn h0 c || all) = true := by rw [hw]; exact hmv
      simp only [List.filter_cons, f1, Bool.not_true, if_true] at r2 ⊢
      simpa [List.append_assoc] using r2
    · rw [if_pos (by simp only [hmv]; decide)]
      obtain ⟨g2, r1, r2, r3⟩ := ih n g (.next c) lastnext la (done ++ [c]) tail lt lx
        (by simpa [List.append_assoc] using hL) hsm (Or.inr ⟨done, c, rfl, rfl⟩) hlast htail
        hfuel2
      refine ⟨g2, r1, ?_, r3⟩
      have f1 : (whiteIn h0 c || all) = false := by
        rw [hw]
        simpa using hmv
      simp only [List.filter_cons, f1, Bool.not_false, if_true] at r2 ⊢
      simpa [List.append_assoc] using r2

theorem findlast_total : ∀ (l : List Addr) (fuel : Nat) (g : global_State) (p : GCRef)
    (c0 : Option Addr), g.load p = some c0 → IsList g.heap c0 l → l.length < fuel →
    ∃ q, findlast fuel g p = some q := by
  intro l
  induction l with
  | nil =>
    intro fuel g p c0 hp hl hf
    obtain ⟨n, rfl⟩ : ∃ n, fuel = n + 1 := ⟨fuel - 1, by omega⟩
    have e : c0 = none := hl
    subst e
    exact ⟨p, by rw [findlast]; simp only [hp, Option.bind_eq_bind, Option.some_bind]⟩
  | cons b l2 ih =>
    intro fuel g p c0 hp hl hf
    obtain ⟨n, rfl⟩ : ∃ n, fuel = n + 1 :=
      ⟨fuel - 1, by simp only [List.length_cons] at hf; omega⟩
    obtain ⟨rfl, y, hy, hl2⟩ := hl
    have hp2 : g.load (.next b) = some y.next := by simp [global_State.load, hy]
    obtain ⟨q, hq⟩ := ih n g (.next b) y.next hp2 hl2
      (by simp only [List.length_cons] at hf; omega)
    exact ⟨q, by rw [findlast]; simp only [hp, Option.bind_eq_bind, Option.some_bind]; exact hq⟩

/-- What `separatetobefnz` does to the lists `finobj` and `tobefnz`, with the
fuel that makes it return. -/
theorem separatetobefnz_exact (fuel : Nat) (g : global_State) (all : Bool)
    (la pre post lt lx : List Addr) (hL : Lists g la (pre ++ post) lt lx)
    (hold : g.finobjold1 = post.head?) (hfuel : pre.length < fuel ∧ lt.length < fuel) :
    ∃ g2, separatetobefnz fuel g all = some g2 ∧ SameMarks g.heap g2.heap ∧
      (all = false →
        Lists g2 la (pre.filter (fun a => !whiteIn g.heap a) ++ post)
          (lt ++ pre.filter (fun a => whiteIn g.heap a)) lx) ∧
      (all = true →
        Lists g2 la post (lt ++ pre) lx ∧ (g.finobjold1 = none → g2.finobj = none)) := by
  obtain ⟨lastnext, hfind⟩ := findlast_total lt fuel g .tobefnz g.tobefnz rfl hL.2.2.1 hfuel.2
  have hlast := findlast_spec fuel g .tobefnz lastnext g.tobefnz lt hfind rfl hL.2.2.1
  obtain ⟨g2, hrun, hL2, hsm⟩ := separatetobefnz_loop_exact all g.heap pre fuel g .finobj
    lastnext la [] post lt lx (by simpa using hL) (sameMarks_refl _) (Or.inl ⟨rfl, rfl⟩) hlast
    hold.symm hfuel.1
  refine ⟨g2, ?_, hsm, ?_, ?_⟩
  · unfold separatetobefnz
    simp only [hfind, Option.bind_eq_bind, Option.some_bind]
    exact hrun
  · intro ha
    subst ha
    simpa using hL2
  · intro ha
    subst ha
    have hL3 : Lists g2 la post (lt ++ pre) lx := by simpa using hL2
    refine ⟨hL3, ?_⟩
    intro hn
    rw [hn] at hold
    have hp : post = [] := by
      cases post with
      | nil => rfl
      | cons b l => cases hold
    rw [hp] at hL3
    exact hL3.2.1

/-- C23: `separatetobefnz`, exactly. Let `finobj` be `pre ++ post`, where
`post` starts at `finobjold1` (and is empty when `finobjold1` is NULL). With
enough fuel the call returns, and changes no mark. With `all = 0` the white
objects of `pre` are appended to `tobefnz`, after the objects already there
and in their order, and `finobj` keeps the non-white objects of `pre` in
their order, followed by `post`. With `all = 1` all of `pre` is appended to
`tobefnz` and `finobj` is `post`; so `finobj` is empty when `finobjold1` is
NULL. -/
theorem separatetobefnz_spec (fuel : Nat) (g : global_State) (all : Bool)
    (la pre post lt lx : List Addr) (hL : Lists g la (pre ++ post) lt lx)
    (hold : g.finobjold1 = post.head?) (hfuel : pre.length < fuel ∧ lt.length < fuel) :
    ∃ g2, separatetobefnz fuel g all = some g2 ∧ SameMarks g.heap g2.heap ∧
      (all = false →
        Lists g2 la (pre.filter (fun a => !whiteIn g.heap a) ++ post)
          (lt ++ pre.filter (fun a => whiteIn g.heap a)) lx) ∧
      (all = true →
        Lists g2 la post (lt ++ pre) lx ∧ (g.finobjold1 = none → g2.finobj = none)) :=
  separatetobefnz_exact fuel g all la pre post lt lx hL hold hfuel

theorem exSep_lists : Lists exSep [] ([1, 2, 3] ++ [4]) [5] [] := by
  refine ⟨rfl, ⟨rfl, _, rfl, rfl, _, rfl, rfl, _, rfl, rfl, _, rfl, rfl⟩, ⟨rfl, _, rfl, rfl⟩,
    rfl, by decide, ?_⟩
  intro a
  show (exSepHeap a).isSome ↔ _
  unfold exSepHeap
  simp only [List.cons_append, List.nil_append, List.append_nil, List.mem_cons,
    List.mem_singleton, List.not_mem_nil, or_false]
  split_ifs <;> simp_all

/-- Witness of C23: in `exSep` the white userdata 1 and 3 move behind the
userdata 5 on `tobefnz`; the black 2 and the old 4 stay on `finobj`. -/
theorem separatetobefnz_spec_witness :
    ∃ g2, separatetobefnz 10 exSep false = some g2 ∧ Lists g2 [] [2, 4] [5, 1, 3] [] := by
  obtain ⟨g2, h, -, h0, -⟩ := separatetobefnz_spec 10 exSep false [] [1, 2, 3] [4] [5] []
    exSep_lists rfl (by decide)
  exact ⟨g2, h, h0 rfl⟩

theorem isGList_congr (h h2 : Heap) : ∀ (l : List Addr) (p : Option Addr),
    (∀ a, a ∈ l → (h2 a).map (fun o => o.gclist) = (h a).map (fun o => o.gclist)) →
    IsGList h p l → IsGList h2 p l := by
  intro l
  induction l with
  | nil => intro p _ hl; exact hl
  | cons b l ih =>
    intro p hs hl
    obtain ⟨rfl, o, ho, hl2⟩ := hl
    have e := hs b (List.mem_cons_self _ _)
    rw [ho] at e
    cases e2 : h2 b with
    | none => rw [e2] at e; cases e
    | some o2 =>
      rw [e2] at e
      simp only [Option.map_some', Option.some.injEq] at e
      refine ⟨rfl, o2, e2, ?_⟩
      rw [e]
      exact ih _ (fun a ha => hs a (List.mem_cons_of_mem _ ha)) hl2

theorem isGList_setmark (g : global_State) (o : Addr) (x : GCObject) (m : Nat)
    (hx : g.heap o = some x) (l : List Addr) (p : Option Addr) (hl : IsGList g.heap p l) :
    IsGList (g.setobj o { x with marked := m }).heap p l := by
  refine isGList_congr _ _ l p ?_ hl
  intro a _
  show (Heap.set g.heap o _ a).map _ = _
  rw [heap_set_apply]
  split
  · rename_i e
    subst e
    rw [hx]
    rfl
  · rfl

theorem set2gray_isgray (m : Nat) : isgray (set2gray m) = true := by
  rw [set2gray_mod]
  exact (set2gray_byte _ (Nat.mod_lt _ (by decide))).2.2.1

/-- What `linkobjgclist(o, g->gray)` returns for an object with a `gclist`
field. -/
theorem linkobjgclist_exact (g : global_State) (o : Addr) (x : GCObject)
    (hx : g.heap o = some x) (hg : getgclist o x = some o) :
    linkobjgclist g o .gray = some { g with
      heap := g.heap.set o { x with gclist := g.gray, marked := set2gray x.marked },
      gray := some o } := by
  unfold linkobjgclist
  simp only [hx, Option.bind_eq_bind, Option.some_bind, hg]
  unfold linkgclist_
  simp only [hx, Option.bind_eq_bind, Option.some_bind, global_State.setlist,
    global_State.getlist, global_State.setobj, heap_set_same, heap_set_set]

/-- The kinds of object that `reallymarkobject` links into the gray list. -/
theorem markrec_link (n : Nat) (g : global_State) (o : Addr) (x : GCObject)
    (hx : g.heap o = some x)
    (hk : x.tt = .LUA_VTABLE ∨ x.tt = .LUA_VLCL ∨ x.tt = .LUA_VCCL ∨ x.tt = .LUA_VPROTO ∨
      x.tt = .LUA_VTHREAD ∨ (x.tt = .LUA_VUSERDATA ∧ x.uv.length ≠ 0)) :
    markrec (n + 1) g o = some { g with
      heap := g.heap.set o { x with gclist := g.gray, marked := set2gray x.marked },
      gray := some o } := by
  have hg : getgclist o x = some o := by
    unfold getgclist
    rcases hk with e | e | e | e | e | ⟨e, -⟩ <;> rw [e]
  rw [← linkobjgclist_exact g o x hx hg, markrec]
  simp only [hx, Option.bind_eq_bind, Option.some_bind]
  rcases hk with e | e | e | e | e | ⟨e, e2⟩ <;> simp only [e]
  rw [if_neg e2]

theorem linked_cases (x : GCObject) :
    (x.tt = .LUA_VSHRSTR ∨ x.tt = .LUA_VLNGSTR) ∨ x.tt = .LUA_VUPVAL ∨
    (x.tt = .LUA_VUSERDATA ∧ x.uv.length = 0) ∨
    (x.tt = .LUA_VTABLE ∨ x.tt = .LUA_VLCL ∨ x.tt = .LUA_VCCL ∨ x.tt = .LUA_VPROTO ∨
      x.tt = .LUA_VTHREAD ∨ (x.tt = .LUA_VUSERDATA ∧ x.uv.length ≠ 0)) := by
  cases e : x.tt <;> simp only [true_or, or_true, true_and, reduceCtorEq, false_or, or_false,
    false_and]
  exact Classical.em _

theorem linked_of_kind (x : GCObject)
    (hk : x.tt = .LUA_VTABLE ∨ x.tt = .LUA_VLCL ∨ x.tt = .LUA_VCCL ∨ x.tt = .LUA_VPROTO ∨
      x.tt = .LUA_VTHREAD ∨ (x.tt = .LUA_VUSERDATA ∧ x.uv.length ≠ 0)) : linked x = true := by
  unfold linked
  rcases hk with e | e | e | e | e | ⟨e, e2⟩ <;> simp only [e]
  simpa using e2

theorem markrec_string (n : Nat) (g : global_State) (o : Addr) (x : GCObject)
    (hx : g.heap o = some x) (hk : x.tt = .LUA_VSHRSTR ∨ x.tt = .LUA_VLNGSTR) :
    markrec (n + 1) g o = some (g.setobj o { x with marked := set2black x.marked }) := by
  rw [markrec]
  simp only [hx, Option.bind_eq_bind, Option.some_bind]
  rcases hk with e | e <;> simp only [e]

theorem markrec_upval (n : Nat) (g : global_State) (o : Addr) (x : GCObject)
    (hx : g.heap o = some x) (hk : x.tt = .LUA_VUPVAL) :
    markrec (n + 1) g o =
      match (g.setobj o { x with
          marked := if upisopen x then set2gray x.marked else set2black x.marked }).upvalue_v x with
      | none => none
      | some (.gc _ r) => markobject_with (markrec n) (g.setobj o { x with
          marked := if upisopen x then set2gray x.marked else set2black x.marked }) r
      | some _ => some (g.setobj o { x with
          marked := if upisopen x then set2gray x.marked else set2black x.marked }) := by
  rw [markrec]
  simp only [hx, Option.bind_eq_bind, Option.some_bind]
  split <;> first | rfl | simp_all

theorem markrec_udata0 (n : Nat) (g : global_State) (o : Addr) (x : GCObject)
    (hx : g.heap o = some x) (hk : x.tt = .LUA_VUSERDATA) (hu : x.uv.length = 0) :
    markrec (n + 1) g o =
      (match x.metatable with
        | none => some g
        | some mt => markobject_with (markrec n) g mt).bind (fun g1 =>
          (g1.heap o).bind (fun y => some (g1.setobj o { y with marked := set2black y.marked }))) := by
  rw [markrec]
  simp only [hx, Option.bind_eq_bind, Option.some_bind]
  split
  case h_4 =>
    rw [if_pos hu]
    cases hm : x.metatable with
    | none => simp only [Option.some_bind, Option.bind_eq_bind, hx, hm]
    | some mt => rfl
  all_goals simp_all

theorem markrec_udata0_none (n : Nat) (g : global_State) (o : Addr) (x : GCObject)
    (hx : g.heap o = some x) (hk : x.tt = .LUA_VUSERDATA) (hu : x.uv.length = 0)
    (hm : x.metatable = none) :
    markrec (n + 1) g o = some (g.setobj o { x with marked := set2black x.marked }) := by
  rw [markrec_udata0 n g o x hx hk hu]
  have e : (match x.metatable with
      | none => some g
      | some mt => markobject_with (markrec n) g mt) = some g := by rw [hm]
  rw [e]
  simp only [Option.some_bind, hx]

theorem markrec_udata0_some (n : Nat) (g : global_State) (o : Addr) (x : GCObject)
    (hx : g.heap o = some x) (hk : x.tt = .LUA_VUSERDATA) (hu : x.uv.length = 0) (mt : Addr)
    (hm : x.metatable = some mt) :
    markrec (n + 1) g o = (markobject_with (markrec n) g mt).bind (fun g1 =>
      (g1.heap o).bind (fun y => some (g1.setobj o { y with marked := set2black y.marked }))) := by
  rw [markrec_udata0 n g o x hx hk hu]
  have e : (match x.metatable with
      | none => some g
      | some mt => markobject_with (markrec n) g mt) = markobject_with (markrec n) g mt := by
    rw [hm]
  rw [e]

theorem whiteIn_some (h : Heap) (a : Addr) (x : GCObject) (hx : h a = some x) :
    whiteIn h a = iswhite x.marked := by
  simp [whiteIn, hx]

theorem whiteIn_setmark (g : global_State) (o : Addr) (x : GCObject) (m : Nat) (a : Addr)
    (hm : iswhite m = false) (ha : whiteIn g.heap a = false) :
    whiteIn (g.setobj o { x with marked := m }).heap a = false := by
  show whiteIn (Heap.set g.heap o _) a = false
  by_cases e : a = o
  · subst e
    rw [whiteIn_some _ _ _ (heap_set_same _ _ _)]
    exact hm
  · unfold whiteIn
    rw [heap_set_ne _ _ _ _ e]
    exact ha

theorem markFrame_refl (g : global_State) : MarkFrame g g :=
  ⟨fun _ _ => rfl, fun l hl _ => ⟨l, hl, fun _ ha => Or.inl ha⟩⟩

/-- Painting a white object that is not linked. -/
theorem markFrame_paint (g g2 : global_State) (o : Addr) (x : GCObject) (m : Nat)
    (hx : g.heap o = some x) (hm : iswhite m = false)
    (h : MarkFrame (g.setobj o { x with marked := m }) g2) :
    (∀ a, a ≠ o → whiteIn g.heap a = false → g2.heap a = g.heap a) ∧
    ∀ l, IsGList g.heap g.gray l → (∀ a, a ∈ l → whiteIn g.heap a = false) →
      ∃ l2, IsGList g2.heap g2.gray l2 ∧ ∀ a, a ∈ l2 →
        a ∈ l ∨ ∃ y, a ≠ o ∧ g.heap a = some y ∧ iswhite y.marked = true ∧ linked y = true := by
  obtain ⟨hA, hB⟩ := h
  constructor
  · intro a hao ha
    rw [hA a (whiteIn_setmark g o x m a hm ha)]
    exact heap_set_ne _ _ _ _ hao
  · intro l hl hnw
    obtain ⟨l2, h1, h2⟩ := hB l (isGList_setmark g o x m hx l _ hl)
      (fun a ha => whiteIn_setmark g o x m a hm (hnw a ha))
    refine ⟨l2, h1, ?_⟩
    intro a ha
    rcases h2 a ha with h3 | ⟨y, hy, hw, hk⟩
    · exact Or.inl h3
    · right
      have hao : a ≠ o := by
        intro e
        subst e
        have e2 : Heap.set g.heap a { x with marked := m } a = some y := hy
        rw [heap_set_same] at e2
        cases e2
        rw [hm] at hw
        cases hw
      have e2 : Heap.set g.heap o { x with marked := m } a = some y := hy
      rw [heap_set_ne _ _ _ _ hao] at e2
      exact ⟨y, hao, e2, hw, hk⟩

theorem markobject_with_frame (mark : global_State → Addr → Option global_State)
    (hmark : ∀ g o g2, mark g o = some g2 → whiteIn g.heap o = true →
      (∀ a, a ≠ o → whiteIn g.heap a = false → g2.heap a = g.heap a) ∧
      ∀ l, IsGList g.heap g.gray l → (∀ a, a ∈ l → whiteIn g.heap a = false) →
        ∃ l2, IsGList g2.heap g2.gray l2 ∧ ∀ a, a ∈ l2 →
          a ∈ l ∨ ∃ y, g.heap a = some y ∧ iswhite y.marked = true ∧ linked y = true)
    (g : global_State) (t : Addr) (g2 : global_State)
    (h : markobject_with mark g t = some g2) : MarkFrame g g2 := by
  unfold markobject_with at h
  simp only [Option.bind_eq_bind, Option.bind_eq_some] at h
  obtain ⟨y, hy, h⟩ := h
  split at h
  · rename_i hw
    have hwt : whiteIn g.heap t = true := by rw [whiteIn_some _ _ _ hy]; exact hw
    obtain ⟨hA, hB⟩ := hmark g t g2 h hwt
    refine ⟨?_, hB⟩
    intro a ha
    refine hA a ?_ ha
    intro e
    subst e
    rw [hwt] at ha
    cases ha
  · cases h
    exact markFrame_refl g

/-- What `reallymarkobject` leaves alone and what it adds to the gray list. -/
theorem markrec_frame (n : Nat) : ∀ (g : global_State) (o : Addr) (g2 : global_State),
    markrec n g o = some g2 → whiteIn g.heap o = true →
    (∀ a, a ≠ o → whiteIn g.heap a = false → g2.heap a = g.heap a) ∧
    ∀ l, IsGList g.heap g.gray l → (∀ a, a ∈ l → whiteIn g.heap a = false) →
      ∃ l2, IsGList g2.heap g2.gray l2 ∧ ∀ a, a ∈ l2 →
        a ∈ l ∨ ∃ y, g.heap a = some y ∧ iswhite y.marked = true ∧ linked y = true := by
  induction n with
  | zero => intro g o g2 h; simp [markrec] at h
  | succ n ih =>
    intro g o g2 h hwo
    cases hx : g.heap o with
    | none =>
      rw [markrec] at h
      simp [hx] at h
    | some x =>
      have hwx : iswhite x.marked = true := by rw [← whiteIn_some _ _ _ hx]; exact hwo
      have weaken : ∀ (l l2 : List Addr),
          (∀ a, a ∈ l2 → a ∈ l ∨ ∃ y, a ≠ o ∧ g.heap a = some y ∧ iswhite y.marked = true ∧
            linked y = true) →
          ∀ a, a ∈ l2 → a ∈ l ∨ ∃ y, g.heap a = some y ∧ iswhite y.marked = true ∧
            linked y = true := by
        intro l l2 hh a ha
        rcases hh a ha with h3 | ⟨y, -, h4⟩
        · exact Or.inl h3
        · exact Or.inr ⟨y, h4⟩
      rcases linked_cases x with hk | hk | ⟨hk, hu⟩ | hk
      · rw [markrec_string n g o x hx hk] at h
        cases h
        refine ⟨fun a hao _ => heap_set_ne _ _ _ _ hao, ?_⟩
        intro l hl _
        exact ⟨l, isGList_setmark g o x _ hx l _ hl, fun _ ha => Or.inl ha⟩
      · rw [markrec_upval n g o x hx hk] at h
        have hm : iswhite (if upisopen x then set2gray x.marked else set2black x.marked)
            = false := by
          split
          · exact gray_nonwhite _
          · exact black_nonwhite _
        have hF : MarkFrame (g.setobj o { x with
            marked := if upisopen x then set2gray x.marked else set2black x.marked }) g2 := by
          split at h
          · cases h
          · exact markobject_with_frame _ ih _ _ _ h
          · cases h
            exact markFrame_refl _
        obtain ⟨hA, hB⟩ := markFrame_paint g g2 o x _ hx hm hF
        refine ⟨hA, ?_⟩
        intro l hl hnw
        obtain ⟨l2, h1, h2⟩ := hB l hl hnw
        exact ⟨l2, h1, weaken l l2 h2⟩
      · rw [markrec_udata0 n g o x hx hk hu] at h
        simp only [Option.bind_eq_some] at h
        obtain ⟨g1, h1, y, hy, h2⟩ := h
        cases h2
        have hF : MarkFrame g g1 := by
          split at h1
          · cases h1
            exact markFrame_refl _
          · exact markobject_with_frame _ ih _ _ _ h1
        obtain ⟨hA, hB⟩ := hF
        constructor
        · intro a hao ha
          show Heap.set g1.heap o _ a = _
          rw [heap_set_ne _ _ _ _ hao]
          exact hA a ha
        · intro l hl hnw
          obtain ⟨l2, h3, h4⟩ := hB l hl hnw
          exact ⟨l2, isGList_setmark g1 o y _ hy l2 _ h3, h4⟩
      · rw [markrec_link n g o x hx hk] at h
        cases h
        refine ⟨fun a hao _ => heap_set_ne _ _ _ _ hao, ?_⟩
        intro l hl hnw
        have hol : o ∉ l := by
          intro ho
          rw [hnw o ho] at hwo
          cases hwo
        refine ⟨o :: l, ⟨rfl, _, heap_set_same _ _ _, ?_⟩, ?_⟩
        · refine isGList_congr _ _ l _ ?_ hl
          intro a ha
          have hao : a ≠ o := fun e => hol (e ▸ ha)
          show (Heap.set g.heap o _ a).map _ = _
          rw [heap_set_ne _ _ _ _ hao]
        · intro a ha
          rcases List.mem_cons.1 ha with rfl | ha
          · exact Or.inr ⟨x, hx, hwx, linked_of_kind x hk⟩
          · exact Or.inl ha

theorem upvalue_v_setmark (g : global_State) (o : Addr) (x : GCObject) (m : Nat)
    (hx : g.heap o = some x) (u : GCObject) :
    (g.setobj o { x with marked := m }).upvalue_v u = g.upvalue_v u := by
  unfold global_State.upvalue_v
  cases u.v with
  | closed => rfl
  | stack th idx =>
    show (Heap.set g.heap o _ th).bind _ = (g.heap th).bind _
    by_cases e : th = o
    · subst e
      rw [heap_set_same, hx]
      rfl
    · rw [heap_set_ne _ _ _ _ e]

/-- Marking a live table through `markobject`. -/
theorem markobject_with_table (n : Nat) (g : global_State) (mt : Addr) (z : GCObject)
    (hz : g.heap mt = some z) (hk : z.tt = .LUA_VTABLE) :
    ∃ g1, markobject_with (markrec (n + 1)) g mt = some g1 ∧
      (∀ a, a ≠ mt → g1.heap a = g.heap a) ∧
      ∃ z2, g1.heap mt = some z2 ∧ iswhite z2.marked = false := by
  unfold markobject_with
  simp only [hz, Option.bind_eq_bind, Option.some_bind]
  split
  · rw [markrec_link n g mt z hz (Or.inl hk)]
    exact ⟨_, rfl, fun a ha => heap_set_ne _ _ _ _ ha, _, heap_set_same _ _ _, gray_nonwhite _⟩
  · rename_i hw
    exact ⟨g, rfl, fun _ _ => rfl, z, hz, by simpa using hw⟩

/-- Marking a userdata without user values whose metatable, if any, is a
live table. -/
theorem markrec_udata0_spec (n : Nat) (g : global_State) (o : Addr) (x : GCObject)
    (hx : g.heap o = some x) (hk : x.tt = .LUA_VUSERDATA) (hu : x.uv.length = 0)
    (hmt : ∀ mt, x.metatable = some mt → ∃ z, g.heap mt = some z ∧ z.tt = .LUA_VTABLE) :
    ∃ g2, markrec (n + 2) g o = some g2 ∧
      g2.heap o = some { x with marked := set2black x.marked } ∧
      ∀ mt, x.metatable = some mt → ∃ z2, g2.heap mt = some z2 ∧ iswhite z2.marked = false := by
  rcases Option.eq_none_or_eq_some x.metatable with hm | ⟨mt, hm⟩
  · rw [markrec_udata0_none (n + 1) g o x hx hk hu hm]
    exact ⟨_, rfl, heap_set_same _ _ _, fun mt h => by rw [hm] at h; cases h⟩
  · rw [markrec_udata0_some (n + 1) g o x hx hk hu mt hm]
    obtain ⟨z, hz, hzt⟩ := hmt mt hm
    obtain ⟨g1, h1, hf, z2, hz2, hw2⟩ := markobject_with_table n g mt z hz hzt
    have hne : o ≠ mt := by
      intro e
      subst e
      rw [hx] at hz
      cases hz
      rw [hk] at hzt
      cases hzt
    have ho : g1.heap o = some x := by rw [hf o hne]; exact hx
    simp only [h1, ho, Option.some_bind]
    refine ⟨_, rfl, heap_set_same _ _ _, ?_⟩
    intro mt2 h2
    rw [hm] at h2
    cases h2
    refine ⟨z2, ?_, hw2⟩
    show Heap.set g1.heap o _ mt = _
    rw [heap_set_ne _ _ _ _ (Ne.symm hne)]
    exact hz2

/-- With the depth that `reallymarkobject` allows below an upvalue, the
marking of an object that is not an upvalue returns. -/
theorem markrec_total_noup (n : Nat) (g : global_State) (r : Addr) (y : GCObject)
    (hy : g.heap r = some y) (hnu : y.tt ≠ .LUA_VUPVAL)
    (hmt : y.tt = .LUA_VUSERDATA → ∀ mt, y.metatable = some mt →
      ∃ z, g.heap mt = some z ∧ z.tt = .LUA_VTABLE) :
    ∃ g2, markrec (n + 2) g r = some g2 := by
  rcases linked_cases y with hk | hk | ⟨hk, hu⟩ | hk
  · exact ⟨_, markrec_string (n + 1) g r y hy hk⟩
  · exact absurd hk hnu
  · obtain ⟨g2, h, -⟩ := markrec_udata0_spec n g r y hy hk hu (hmt hk)
    exact ⟨g2, h⟩
  · exact ⟨_, markrec_link (n + 1) g r y hy hk⟩

theorem excl_su (x : GCObject) (h1 : x.tt = .LUA_VSHRSTR ∨ x.tt = .LUA_VLNGSTR)
    (h2 : x.tt = .LUA_VUPVAL) : False := by
  rcases h1 with e | e <;> rw [e] at h2 <;> cases h2

theorem excl_sd (x : GCObject) (h1 : x.tt = .LUA_VSHRSTR ∨ x.tt = .LUA_VLNGSTR)
    (h2 : x.tt = .LUA_VUSERDATA) : False := by
  rcases h1 with e | e <;> rw [e] at h2 <;> cases h2

theorem excl_ud (x : GCObject) (h1 : x.tt = .LUA_VUPVAL) (h2 : x.tt = .LUA_VUSERDATA) :
    False := by
  rw [h1] at h2
  cases h2

theorem linked_false_of_kind (x : GCObject)
    (hk : x.tt = .LUA_VSHRSTR ∨ x.tt = .LUA_VLNGSTR ∨ x.tt = .LUA_VUPVAL ∨
      (x.tt = .LUA_VUSERDATA ∧ x.uv.length = 0)) : linked x = false := by
  unfold linked
  rcases hk with e | e | e | ⟨e, e2⟩ <;> simp only [e]
  simpa using e2

theorem excl_l (x : GCObject)
    (h1 : x.tt = .LUA_VSHRSTR ∨ x.tt = .LUA_VLNGSTR ∨ x.tt = .LUA_VUPVAL ∨
      (x.tt = .LUA_VUSERDATA ∧ x.uv.length = 0))
    (h2 : x.tt = .LUA_VTABLE ∨ x.tt = .LUA_VLCL ∨ x.tt = .LUA_VCCL ∨ x.tt = .LUA_VPROTO ∨
      x.tt = .LUA_VTHREAD ∨ (x.tt = .LUA_VUSERDATA ∧ x.uv.length ≠ 0)) : False := by
  have e1 := linked_false_of_kind x h1
  rw [linked_of_kind x h2] at e1
  cases e1

/-- Marking an upvalue whose value is readable and is not an upvalue. -/
theorem markrec_upval_spec (g : global_State) (o : Addr) (x : GCObject)
    (hx : g.heap o = some x) (hk : x.tt = .LUA_VUPVAL) (ht : RefsTyped g) :
    ∃ g2, markrec 3 g o = some g2 ∧
      g2.heap o = some { x with
        marked := if upisopen x then set2gray x.marked else set2black x.marked } ∧
      ∀ t r, g.upvalue_v x = some (.gc t r) →
        ∃ y2, g2.heap r = some y2 ∧ iswhite y2.marked = false := by
  have hm : iswhite (if upisopen x then set2gray x.marked else set2black x.marked)
      = false := by
    split
    · exact gray_nonwhite _
    · exact black_nonwhite _
  obtain ⟨v, hv, hvt⟩ := (ht o x hx).2 hk
  rw [markrec_upval 2 g o x hx hk, upvalue_v_setmark g o x _ hx x, hv]
  cases v with
  | nil => exact ⟨_, rfl, heap_set_same _ _ _, fun t r h => by cases h⟩
  | empty => exact ⟨_, rfl, heap_set_same _ _ _, fun t r h => by cases h⟩
  | prim k => exact ⟨_, rfl, heap_set_same _ _ _, fun t r h => by cases h⟩
  | gc t r =>
    obtain ⟨y, hy, hyt⟩ := hvt t r rfl
    have hro : r ≠ o := by
      intro e
      subst e
      rw [hx] at hy
      cases hy
      exact hyt hk
    have hy1 : (g.setobj o { x with
        marked := if upisopen x then set2gray x.marked else set2black x.marked }).heap r
        = some y := by
      show Heap.set g.heap o _ r = _
      rw [heap_set_ne _ _ _ _ hro]
      exact hy
    show ∃ g2, markobject_with (markrec 2) _ r = some g2 ∧ _
    unfold markobject_with
    simp only [hy1, Option.bind_eq_bind, Option.some_bind]
    by_cases hw : iswhite y.marked = true
    · rw [if_pos hw]
      obtain ⟨g2, h2⟩ := markrec_total_noup 0 _ r y hy1 hyt (by
        intro hu mt hmt
        obtain ⟨z, hz, hzt⟩ := (ht r y hy).1 hu mt hmt
        refine ⟨z, ?_, hzt⟩
        show Heap.set g.heap o _ mt = _
        rw [heap_set_ne _ _ _ _ ?_]
        · exact hz
        · intro e
          subst e
          rw [hx] at hz
          cases hz
          rw [hk] at hzt
          cases hzt)
      have hwr : whiteIn (g.setobj o { x with
          marked := if upisopen x then set2gray x.marked else set2black x.marked }).heap r
          = true := by
        rw [whiteIn_some _ _ _ hy1]
        exact hw
      have hA := (markrec_frame 2 _ r g2 h2 hwr).1 o (Ne.symm hro)
        (by
          show whiteIn (Heap.set g.heap o _) o = false
          rw [whiteIn_some _ _ _ (heap_set_same _ _ _)]
          exact hm)
      refine ⟨g2, h2, ?_, ?_⟩
      · rw [hA]
        exact heap_set_same _ _ _
      · intro t2 r2 h3
        cases h3
        exact markrec_nonwhite 2 _ r g2 h2
    · rw [if_neg hw]
      refine ⟨_, rfl, heap_set_same _ _ _, ?_⟩
      intro t2 r2 h3
      cases h3
      exact ⟨y, hy1, by simpa using hw⟩

/-- C30: `reallymarkobject` on a white object `o`, in a memory whose
metatables are tables and whose upvalues hold no upvalue. The call returns
and leaves `o` non-white. A string becomes black and nothing else changes.
An upvalue changes only its mark, to gray when open and to black when
closed, and a collectable value it holds is non-white afterwards. A userdata
without user values changes only its mark, to black, and its metatable, if
any, is non-white afterwards. A table, closure, prototype, thread or
userdata with user values becomes gray and the head of the gray list, with
the old gray list in its `gclist`, and nothing else changes. A string, an
upvalue or a userdata without user values is not on the gray list
afterwards. -/
theorem reallymarkobject_spec (g : global_State) (o : Addr) (x : GCObject)
    (hx : g.heap o = some x) (hw : iswhite x.marked = true) (ht : RefsTyped g) :
    ∃ g2 x2, reallymarkobject g o = some g2 ∧ g2.heap o = some x2 ∧
      iswhite x2.marked = false ∧
      ((x.tt = .LUA_VSHRSTR ∨ x.tt = .LUA_VLNGSTR) →
        isblack x2.marked = true ∧
        g2 = g.setobj o { x with marked := set2black x.marked }) ∧
      (x.tt = .LUA_VUPVAL →
        x2 = { x with
          marked := if upisopen x then set2gray x.marked else set2black x.marked } ∧
        (upisopen x = true → isgray x2.marked = true) ∧
        (upisopen x = false → isblack x2.marked = true) ∧
        ∀ t r, g.upvalue_v x = some (.gc t r) →
          ∃ y2, g2.heap r = some y2 ∧ iswhite y2.marked = false) ∧
      (x.tt = .LUA_VUSERDATA → x.uv.length = 0 →
        x2 = { x with marked := set2black x.marked } ∧ isblack x2.marked = true ∧
        ∀ mt, x.metatable = some mt →
          ∃ y2, g2.heap mt = some y2 ∧ iswhite y2.marked = false) ∧
      ((x.tt = .LUA_VTABLE ∨ x.tt = .LUA_VLCL ∨ x.tt = .LUA_VCCL ∨ x.tt = .LUA_VPROTO ∨
          x.tt = .LUA_VTHREAD ∨ (x.tt = .LUA_VUSERDATA ∧ x.uv.length ≠ 0)) →
        isgray x2.marked = true ∧ g2.gray = some o ∧ x2.gclist = g.gray ∧
        g2 = { g with
          heap := g.heap.set o { x with gclist := g.gray, marked := set2gray x.marked },
          gray := some o }) ∧
      ((x.tt = .LUA_VSHRSTR ∨ x.tt = .LUA_VLNGSTR ∨ x.tt = .LUA_VUPVAL ∨
          (x.tt = .LUA_VUSERDATA ∧ x.uv.length = 0)) →
        ∀ l, IsGList g.heap g.gray l → (∀ a, a ∈ l → whiteIn g.heap a = false) →
          ∃ l2, IsGList g2.heap g2.gray l2 ∧ o ∉ l2) := by
  have hwo : whiteIn g.heap o = true := by rw [whiteIn_some _ _ _ hx]; exact hw
  have key : ∃ g2, markrec 3 g o = some g2 ∧
      ((x.tt = .LUA_VSHRSTR ∨ x.tt = .LUA_VLNGSTR) →
        g2 = g.setobj o { x with marked := set2black x.marked }) ∧
      (x.tt = .LUA_VUPVAL →
        g2.heap o = some { x with
          marked := if upisopen x then set2gray x.marked else set2black x.marked } ∧
        ∀ t r, g.upvalue_v x = some (.gc t r) →
          ∃ y2, g2.heap r = some y2 ∧ iswhite y2.marked = false) ∧
      (x.tt = .LUA_VUSERDATA → x.uv.length = 0 →
        g2.heap o = some { x with marked := set2black x.marked } ∧
        ∀ mt, x.metatable = some mt →
          ∃ y2, g2.heap mt = some y2 ∧ iswhite y2.marked = false) ∧
      ((x.tt = .LUA_VTABLE ∨ x.tt = .LUA_VLCL ∨ x.tt = .LUA_VCCL ∨ x.tt = .LUA_VPROTO ∨
          x.tt = .LUA_VTHREAD ∨ (x.tt = .LUA_VUSERDATA ∧ x.uv.length ≠ 0)) →
        g2 = { g with
          heap := g.heap.set o { x with gclist := g.gray, marked := set2gray x.marked },
          gray := some o }) := by
    rcases linked_cases x with hk | hk | ⟨hk, hu⟩ | hk
    · exact ⟨_, markrec_string 2 g o x hx hk, fun _ => rfl,
        fun h => (excl_su x hk h).elim, fun h _ => (excl_sd x hk h).elim,
        fun h => (excl_l x (by tauto) h).elim⟩
    · obtain ⟨g2, h, h1, h2⟩ := markrec_upval_spec g o x hx hk ht
      exact ⟨g2, h, fun h3 => (excl_su x h3 hk).elim, fun _ => ⟨h1, h2⟩,
        fun h3 _ => (excl_ud x hk h3).elim, fun h3 => (excl_l x (by tauto) h3).elim⟩
    · obtain ⟨g2, h, h1, h2⟩ := markrec_udata0_spec 1 g o x hx hk hu
        (fun mt hm => (ht o x hx).1 hk mt hm)
      exact ⟨g2, h, fun h3 => (excl_sd x h3 hk).elim, fun h3 => (excl_ud x h3 hk).elim,
        fun _ _ => ⟨h1, h2⟩, fun h3 => (excl_l x (by tauto) h3).elim⟩
    · exact ⟨_, markrec_link 2 g o x hx hk, fun h => (excl_l x (by tauto) hk).elim,
        fun h => (excl_l x (by tauto) hk).elim, fun h hu => (excl_l x (by tauto) hk).elim,
        fun _ => rfl⟩
  obtain ⟨g2, h, k1, k2, k3, k4⟩ := key
  obtain ⟨x2, hx2, hnw⟩ := markrec_nonwhite 3 g o g2 h
  refine ⟨g2, x2, h, hx2, hnw, ?_, ?_, ?_, ?_, ?_⟩
  · intro hk
    have e := k1 hk
    refine ⟨?_, e⟩
    subst e
    have e2 : Heap.set g.heap o { x with marked := set2black x.marked } o = some x2 := hx2
    rw [heap_set_same] at e2
    cases e2
    exact (set2black_nonwhite _).2.1
  · intro hk
    obtain ⟨e1, e2⟩ := k2 hk
    rw [hx2] at e1
    cases e1
    refine ⟨rfl, ?_, ?_, e2⟩
    · intro ho
      show isgray (if upisopen x then set2gray x.marked else set2black x.marked) = true
      rw [if_pos ho]
      exact set2gray_isgray _
    · intro ho
      show isblack (if upisopen x then set2gray x.marked else set2black x.marked) = true
      rw [if_neg (by rw [ho]; decide)]
      exact (set2black_nonwhite _).2.1
  · intro hk hu
    obtain ⟨e1, e2⟩ := k3 hk hu
    rw [hx2] at e1
    cases e1
    exact ⟨rfl, (set2black_nonwhite _).2.1, e2⟩
  · intro hk
    have e := k4 hk
    subst e
    have e2 : Heap.set g.heap o { x with gclist := g.gray, marked := set2gray x.marked } o
        = some x2 := hx2
    rw [heap_set_same] at e2
    cases e2
    exact ⟨set2gray_isgray _, rfl, rfl, rfl⟩
  · intro hk l hl hnwl
    obtain ⟨l2, h1, h2⟩ := (markrec_frame 3 g o g2 h hwo).2 l hl hnwl
    refine ⟨l2, h1, ?_⟩
    intro ho
    rcases h2 o ho with h3 | ⟨y, hy, -, hly⟩
    · rw [hnwl o h3] at hwo
      cases hwo
    · rw [hx] at hy
      cases hy
      rw [linked_false_of_kind x hk] at hly
      cases hly

theorem exMark_typed : RefsTyped exMark := by
  intro a x hx
  have hx2 : exMarkHeap a = some x := hx
  unfold exMarkHeap at hx2
  split_ifs at hx2 with h1 h2 h3
  · cases hx2
    refine ⟨fun htt => absurd htt (by decide), fun _ => ⟨.gc .LUA_VTABLE 2, rfl, ?_⟩⟩
    intro t r h
    cases h
    exact ⟨_, rfl, by decide⟩
  · cases hx2
    exact ⟨fun htt => absurd htt (by decide), fun htt => absurd htt (by decide)⟩
  · cases hx2
    refine ⟨fun _ mt hmt => ?_, fun htt => absurd htt (by decide)⟩
    cases hmt
    exact ⟨_, rfl, rfl⟩

/-- Witness of C30: marking the white closed upvalue 1 of `exMark` paints it
black and leaves the table 2 it holds non-white. -/
theorem reallymarkobject_spec_witness :
    ∃ g2 x2, reallymarkobject exMark 1 = some g2 ∧ g2.heap 1 = some x2 ∧
      isblack x2.marked = true ∧ ∃ y2, g2.heap 2 = some y2 ∧ iswhite y2.marked = false := by
  obtain ⟨g2, x2, h, hx2, -, -, hup, -⟩ := reallymarkobject_spec exMark 1
    { exObj .LUA_VUPVAL 8 (some 2) with value := .gc .LUA_VTABLE 2 } rfl (by decide)
    exMark_typed
  obtain ⟨-, -, hb, hr⟩ := hup rfl
  exact ⟨g2, x2, h, hx2, hb rfl, hr .LUA_VTABLE 2 rfl⟩

theorem finKept_refl (h : Heap) : FinKept h h := fun _ x2 e => ⟨x2, e, rfl⟩

theorem finKept_trans (h1 h2 h3 : Heap) (h12 : FinKept h1 h2) (h23 : FinKept h2 h3) :
    FinKept h1 h3 := by
  intro a x3 e3
  obtain ⟨x2, e2, f2⟩ := h23 a x3 e3
  obtain ⟨x1, e1, f1⟩ := h12 a x2 e2
  exact ⟨x1, e1, f2.trans f1⟩

theorem finKept_of_eq (h h2 : Heap) (e : h2 = h) : FinKept h h2 := by
  subst e
  exact finKept_refl _

theorem finKept_of_marks (h h2 : Heap)
    (hs : ∀ a, h2 a = none ∨
      (h2 a).map (fun o => o.marked) = (h a).map (fun o => o.marked)) : FinKept h h2 := by
  intro a x2 e2
  rcases hs a with e | e
  · rw [e] at e2
    cases e2
  · rw [e2] at e
    cases e1 : h a with
    | none => rw [e1] at e; cases e
    | some x =>
      rw [e1] at e
      simp only [Option.map_some', Option.some.injEq] at e
      exact ⟨x, rfl, by rw [e]⟩

theorem finKept_of_sameMarks (h h2 : Heap) (hs : SameMarks h h2) : FinKept h h2 := by
  refine finKept_of_marks h h2 (fun a => Or.inr ?_)
  have e := congrArg (Option.map Prod.fst) (hs a)
  simpa [Option.map_map, Function.comp] using e

theorem finKept_of_nolinks (h h2 : Heap)
    (hs : ∀ a, h2 a = none ∨ (h2 a).map nolinks = (h a).map nolinks) : FinKept h h2 := by
  refine finKept_of_marks h h2 (fun a => ?_)
  rcases hs a with e | e
  · exact Or.inl e
  · right
    have e2 := congrArg (Option.map (fun o : GCObject => o.marked)) e
    simpa [Option.map_map, Function.comp, nolinks] using e2

/-- Writing a mark with the same `FINALIZEDBIT`. -/
theorem finKept_set (h : Heap) (a : Addr) (x y : GCObject) (hx : h a = some x)
    (hm : tofinalize y.marked = tofinalize x.marked) : FinKept h (Heap.set h a y) := by
  intro b x2 e2
  rw [heap_set_apply] at e2
  split at e2
  · rename_i e
    subst e
    cases e2
    exact ⟨x, hx, hm⟩
  · exact ⟨x2, e2, rfl⟩

/-- The invariant at one address, from the bit before. -/
theorem finInv_at (g g2 : global_State) (la lf lt lx la2 lf2 lt2 lx2 : List Addr)
    (hI : FinInv g la lf lt lx) (hL2 : Lists g2 la2 lf2 lt2 lx2) (a : Addr)
    (x x2 : GCObject) (e : g.heap a = some x) (e2 : g2.heap a = some x2)
    (f : tofinalize x2.marked = tofinalize x.marked)
    (s1 : a ∈ la2 ∨ a ∈ lx2 → a ∈ la ∨ a ∈ lx) (s2 : a ∈ lf2 ∨ a ∈ lt2 → a ∈ lf ∨ a ∈ lt) :
    tofinalize x2.marked = true ↔ a ∈ lf2 ∨ a ∈ lt2 := by
  obtain ⟨-, -, -, -, da, df, dt, dx⟩ := nodup4 la lf lt lx hI.1.2.2.2.2.1
  have hlive : a ∈ la2 ++ lf2 ++ lt2 ++ lx2 := (hL2.2.2.2.2.2 a).1 (by rw [e2]; rfl)
  simp only [List.mem_append] at hlive
  rw [f, hI.2 a x e]
  constructor
  · intro h
    rcases hlive with ((h2 | h2) | h2) | h2
    · rcases s1 (Or.inl h2) with h3 | h3
      · rcases h with h | h
        · exact absurd h3 (df a h).1
        · exact absurd h3 (dt a h).1
      · rcases h with h | h
        · exact absurd h3 (df a h).2.2
        · exact absurd h3 (dt a h).2.2
    · exact Or.inl h2
    · exact Or.inr h2
    · rcases s1 (Or.inr h2) with h3 | h3
      · rcases h with h | h
        · exact absurd h3 (df a h).1
        · exact absurd h3 (dt a h).1
      · rcases h with h | h
        · exact absurd h3 (df a h).2.2
        · exact absurd h3 (dt a h).2.2
  · exact s2

/-- What is left of the lists, with the bits kept, satisfies the invariant:
objects may have moved between `allgc` and `fixedgc`, and between `finobj`
and `tobefnz`. -/
theorem finInv_sub (g g2 : global_State) (la lf lt lx la2 lf2 lt2 lx2 : List Addr)
    (hI : FinInv g la lf lt lx) (hL2 : Lists g2 la2 lf2 lt2 lx2)
    (s1 : ∀ a, a ∈ la2 ∨ a ∈ lx2 → a ∈ la ∨ a ∈ lx)
    (s2 : ∀ a, a ∈ lf2 ∨ a ∈ lt2 → a ∈ lf ∨ a ∈ lt)
    (hk : FinKept g.heap g2.heap) : FinInv g2 la2 lf2 lt2 lx2 := by
  refine ⟨hL2, ?_⟩
  intro a x2 e2
  obtain ⟨x, e, f⟩ := hk a x2 e2
  exact finInv_at g g2 la lf lt lx la2 lf2 lt2 lx2 hI hL2 a x x2 e e2 f (s1 a) (s2 a)

/-- The same when one object `o` has changed its list and its bit. -/
theorem finInv_except (g g2 : global_State) (la lf lt lx la2 lf2 lt2 lx2 : List Addr)
    (o : Addr) (hI : FinInv g la lf lt lx) (hL2 : Lists g2 la2 lf2 lt2 lx2)
    (s1 : ∀ a, a ≠ o → a ∈ la2 ∨ a ∈ lx2 → a ∈ la ∨ a ∈ lx)
    (s2 : ∀ a, a ≠ o → a ∈ lf2 ∨ a ∈ lt2 → a ∈ lf ∨ a ∈ lt)
    (hk : ∀ a x2, a ≠ o → g2.heap a = some x2 →
      ∃ x, g.heap a = some x ∧ tofinalize x2.marked = tofinalize x.marked)
    (ho : ∀ x2, g2.heap o = some x2 → (tofinalize x2.marked = true ↔ o ∈ lf2 ∨ o ∈ lt2)) :
    FinInv g2 la2 lf2 lt2 lx2 := by
  refine ⟨hL2, ?_⟩
  intro a x2 e2
  by_cases hao : a = o
  · subst hao
    exact ho x2 e2
  · obtain ⟨x, e, f⟩ := hk a x2 hao e2
    exact finInv_at g g2 la lf lt lx la2 lf2 lt2 lx2 hI hL2 a x x2 e e2 f (s1 a hao) (s2 a hao)

set_option maxRecDepth 1000000 in
theorem finbit_colour_byte : ∀ m : Nat, m < 256 →
    tofinalize (set2gray m) = tofinalize m ∧ tofinalize (set2black m) = tofinalize m ∧
    ((m &&& 64) ||| (32 &&& 64) != 0) = (m &&& 64 != 0) ∧
    ((m &&& 64) ^^^ (2 &&& 64) != 0) = (m &&& 64 != 0) ∧
    tofinalize (setage m G_OLD) = tofinalize m ∧
    tofinalize (resetbit m FINALIZEDBIT) = false := by
  decide

theorem setage_mod2 (m a : Nat) : setage m a = setage (m % 256) a := by
  unfold setage
  rw [and_byte m _ (by decide)]

theorem resetbit_fin_mod (m : Nat) :
    resetbit m FINALIZEDBIT = resetbit (m % 256) FINALIZEDBIT := by
  unfold resetbit resetbits
  rw [and_byte m _ (by decide)]

theorem finbit_gray (m : Nat) : tofinalize (set2gray m) = tofinalize m := by
  rw [set2gray_mod, tofinalize_mod m]
  exact (finbit_colour_byte _ (Nat.mod_lt _ (by decide))).1

theorem finbit_black (m : Nat) : tofinalize (set2black m) = tofinalize m := by
  rw [set2black_mod, tofinalize_mod m]
  exact (finbit_colour_byte _ (Nat.mod_lt _ (by decide))).2.1

theorem finbit_nw2black (m : Nat) : tofinalize (nw2black m) = tofinalize m := by
  have h64 : bitmask FINALIZEDBIT = 64 := by decide
  have h32 : bitmask BLACKBIT = 32 := by decide
  unfold tofinalize testbit testbits nw2black l_setbit setbits
  rw [h64, h32, Nat.and_distrib_right, and_byte m 64 (by decide)]
  exact (finbit_colour_byte _ (Nat.mod_lt _ (by decide))).2.2.1

theorem finbit_changeage (m : Nat) :
    tofinalize (changeage m G_TOUCHED2 G_OLD) = tofinalize m := by
  have h64 : bitmask FINALIZEDBIT = 64 := by decide
  have h2 : G_TOUCHED2 ^^^ G_OLD = 2 := by decide
  unfold tofinalize testbit testbits changeage
  rw [h64, h2, Nat.and_xor_distrib_right, and_byte m 64 (by decide)]
  exact (finbit_colour_byte _ (Nat.mod_lt _ (by decide))).2.2.2.1

theorem finbit_setage_old (m : Nat) : tofinalize (setage m G_OLD) = tofinalize m := by
  rw [setage_mod2, tofinalize_mod m]
  exact (finbit_colour_byte _ (Nat.mod_lt _ (by decide))).2.2.2.2.1

theorem finbit_reset (m : Nat) : tofinalize (resetbit m FINALIZEDBIT) = false := by
  rw [resetbit_fin_mod]
  exact (finbit_colour_byte _ (Nat.mod_lt _ (by decide))).2.2.2.2.2

/-- No colour operation of the marker touches `FINALIZEDBIT`. -/
theorem markRel_sameFin : MarkRel SameFin where
  refl := fun _ => rfl
  trans := fun _ _ _ h1 h2 => Eq.trans h2 h1
  gray := finbit_gray
  black := finbit_black
  nwblack := finbit_nw2black
  old := fun m _ => finbit_changeage m

theorem paint_next {R : Nat → Nat → Prop} (h h2 : Heap) (hp : Paint R h h2) (a : Addr) :
    nextOf h2 a = nextOf h a := by
  unfold nextOf
  cases e : h a with
  | none => rw [(hp a).1 e]
  | some x =>
    obtain ⟨x2, e2, f, -⟩ := (hp a).2 x e
    rw [e2]
    simp [f]

theorem lists_paint {R : Nat → Nat → Prop} (g g2 : global_State) (la lf lt lx : List Addr)
    (hp : PaintS R g g2) (hL : Lists g la lf lt lx) : Lists g2 la lf lt lx :=
  lists_congr g g2 la lf lt lx (paint_next _ _ hp.2) hp.1 hL

theorem finKept_paint (h h2 : Heap) (hp : Paint SameFin h h2) : FinKept h h2 := by
  intro a x2 e2
  cases e : h a with
  | none =>
    rw [(hp a).1 e] at e2
    cases e2
  | some x =>
    obtain ⟨y, ey, -, -, f⟩ := (hp a).2 x e
    rw [e2] at ey
    cases ey
    exact ⟨x, rfl, f⟩

/-- Marking keeps the invariant of `FINALIZEDBIT`. -/
theorem finInv_paint (g g2 : global_State) (la lf lt lx : List Addr)
    (hp : PaintS SameFin g g2) (hI : FinInv g la lf lt lx) :
    FinInv g2 la lf lt lx ∧ FinKept g.heap g2.heap :=
  ⟨finInv_sub g g2 la lf lt lx la lf lt lx hI (lists_paint g g2 la lf lt lx hp hI.1)
    (fun _ h => h) (fun _ h => h) (finKept_paint _ _ hp.2),
    finKept_paint _ _ hp.2⟩

/-- Unlinking and freeing an object keeps the bits of the others. -/
theorem free_step_finKept (g g1 g2 : global_State) (p : GCRef) (v : Option Addr) (c : Addr)
    (h1 : g.store p v = some g1) (h2 : freeobj g1 c = some g2) :
    FinKept g.heap g2.heap := by
  obtain ⟨f1, f2, -⟩ := freeobj_frame g1 g2 c h2
  refine finKept_of_nolinks _ _ (fun a => ?_)
  by_cases e : a = c
  · subst e
    exact Or.inl f1
  · exact Or.inr ((f2 a e).trans ((store_nolinks g g1 p v h1).1 a))

theorem sweptmark_fin (w : Nat) (hw : w = 0 ∨ w = 8 ∨ w = 16 ∨ w = 24) (m : Nat) :
    tofinalize (cast_byte ((m &&& bnot8 maskgcbits) ||| w)) = tofinalize m := by
  rw [tofinalize_mod m, and_byte m (bnot8 maskgcbits) (by decide)]
  exact (sweptmark_byte w hw _ (Nat.mod_lt _ (by decide))).2.2.2

/-- The loop of `sweeplist` changes no `FINALIZEDBIT`. -/
theorem sweeplist_loop_finKept (ow white : Nat) (hw : white = 0 ∨ white = 8 ∨ white = 16 ∨
    white = 24) (n : Nat) : ∀ (g : global_State) (p : GCRef) (i : Nat)
    (r : global_State × GCRef × Nat), sweeplist_loop ow white n g p i = some r →
    FinKept g.heap r.1.heap := by
  induction n with
  | zero =>
    intro g p i r h
    simp only [sweeplist_loop, Option.some.injEq] at h
    subst h
    exact finKept_refl _
  | succ n ih =>
    intro g p i r h
    rw [sweeplist_loop] at h
    simp only [Option.bind_eq_bind, Option.bind_eq_some] at h
    obtain ⟨c, -, h⟩ := h
    cases c with
    | none =>
      simp only [Option.some.injEq] at h
      subst h
      exact finKept_refl _
    | some curr =>
      simp only [Option.bind_eq_some] at h
      obtain ⟨x, hx, h⟩ := h
      split at h
      · simp only [Option.bind_eq_bind, Option.bind_eq_some] at h
        obtain ⟨g1, h1, g2, h2, h⟩ := h
        exact finKept_trans _ _ _ (free_step_finKept g g1 g2 p _ curr h1 h2) (ih _ _ _ _ h)
      · exact finKept_trans _ _ _
          (finKept_set g.heap curr x _ hx (sweptmark_fin white hw x.marked)) (ih _ _ _ _ h)

/-- `sweeplist` changes no `FINALIZEDBIT`. -/
theorem sweeplist_finKept (g g2 : global_State) (p : GCRef) (n : Nat) (q : Option GCRef)
    (i : Nat) (h : sweeplist g p n = some (g2, q, i)) : FinKept g.heap g2.heap := by
  unfold sweeplist at h
  simp only [Option.bind_eq_bind, Option.bind_eq_some] at h
  obtain ⟨⟨g1, p1, i1⟩, h1, c, -, h⟩ := h
  simp only [Option.some.injEq, Prod.mk.injEq] at h
  obtain ⟨rfl, -, -⟩ := h
  exact sweeplist_loop_finKept _ _ (luaC_white_cases g) n g p 0 _ h1

theorem sweeptolive_finKept (fuel : Nat) : ∀ (g g2 : global_State) (old : GCRef)
    (q : Option GCRef), sweeptolive fuel g old = some (g2, q) → FinKept g.heap g2.heap := by
  induction fuel with
  | zero => intro g g2 old q h; simp [sweeptolive] at h
  | succ n ih =>
    intro g g2 old q h
    rw [sweeptolive] at h
    simp only [Option.bind_eq_bind, Option.bind_eq_some] at h
    obtain ⟨⟨g1, p1, i1⟩, h1, h⟩ := h
    have k1 := sweeplist_finKept g g1 old 1 p1 i1 h1
    split at h
    · exact finKept_trans _ _ _ k1 (ih _ _ _ _ h)
    · simp only [Option.some.injEq, Prod.mk.injEq] at h
      obtain ⟨rfl, -⟩ := h
      exact k1

/-- The loop of `whitelist` changes no link and no `FINALIZEDBIT`. -/
theorem whitelist_loop_fin (white : Nat) (hw : white = 0 ∨ white = 8 ∨ white = 16 ∨
    white = 24) (fuel : Nat) : ∀ (g : global_State) (p : Option Addr) (g2 : global_State),
    whitelist_loop white fuel g p = some g2 →
    (∀ a, nextOf g2.heap a = nextOf g.heap a) ∧ heads g2 = heads g ∧
    FinKept g.heap g2.heap := by
  induction fuel with
  | zero => intro g p g2 h; simp [whitelist_loop] at h
  | succ k ih =>
    intro g p g2 h
    cases p with
    | none =>
      simp only [whitelist_loop, Option.some.injEq] at h
      subst h
      exact ⟨fun _ => rfl, rfl, finKept_refl _⟩
    | some a =>
      rw [whitelist_loop] at h
      simp only [Option.bind_eq_bind, Option.bind_eq_some] at h
      obtain ⟨x, hx, h⟩ := h
      obtain ⟨r1, r2, r3⟩ := ih _ _ _ h
      refine ⟨?_, r2.trans rfl, finKept_trans _ _ _
        (finKept_set g.heap a x _ hx (sweptmark_fin white hw x.marked)) r3⟩
      intro b
      rw [r1 b]
      show nextOf (Heap.set g.heap a _) b = _
      unfold nextOf
      rw [heap_set_apply]
      split
      · rename_i e
        subst e
        rw [hx]
        rfl
      · rfl

/-- `sweep2old` changes no `FINALIZEDBIT`. -/
theorem sweep2old_finKept (fuel : Nat) : ∀ (g : global_State) (p : GCRef) (g2 : global_State),
    sweep2old fuel g p = some g2 → FinKept g.heap g2.heap := by
  induction fuel with
  | zero => intro g p g2 h; simp [sweep2old] at h
  | succ n ih =>
    intro g p g2 h
    rw [sweep2old] at h
    simp only [Option.bind_eq_bind, Option.bind_eq_some] at h
    obtain ⟨c, -, h⟩ := h
    cases c with
    | none =>
      simp only [Option.some.injEq] at h
      subst h
      exact finKept_refl _
    | some curr =>
      simp only [Option.bind_eq_some] at h
      obtain ⟨x, hx, h⟩ := h
      split at h
      · simp only [Option.bind_eq_bind, Option.bind_eq_some] at h
        obtain ⟨g1, h1, g3, h3, h⟩ := h
        exact finKept_trans _ _ _ (free_step_finKept g g1 g3 p _ curr h1 h3) (ih _ _ _ h)
      · have k1 : FinKept g.heap (g.setobj curr { x with marked := setage x.marked G_OLD }).heap :=
          finKept_set g.heap curr x _ hx (finbit_setage_old x.marked)
        split at h
        · simp only [Option.bind_eq_bind, Option.bind_eq_some] at h
          obtain ⟨g3, h3, h⟩ := h
          have k2 := finKept_paint _ _ (linkgclist_paint markRel_sameFin _ _ _ _ h3).2
          exact finKept_trans _ _ _ (finKept_trans _ _ _ k1 k2) (ih _ _ _ h)
        · simp only [Option.bind_eq_bind, Option.bind_eq_some] at h
          obtain ⟨y, hy, h⟩ := h
          split at h
          · simp only [Option.some_bind] at h
            exact finKept_trans _ _ _ (finKept_trans _ _ _ k1
              (finKept_set _ curr y _ hy (finbit_gray y.marked))) (ih _ _ _ h)
          · simp only [Option.some_bind] at h
            exact finKept_trans _ _ _ (finKept_trans _ _ _ k1
              (finKept_set _ curr y _ hy (finbit_nw2black y.marked))) (ih _ _ _ h)

theorem firstOld_write_heap (pf : FirstOld) (g : global_State) (v : Option Addr) :
    (pf.write g v).1.heap = g.heap := by
  cases pf <;> rfl

/-- The loop of `sweepgen` changes no `FINALIZEDBIT`. -/
theorem sweepgen_loop_finKept (white : Nat) (hw : white = 0 ∨ white = 8 ∨ white = 16 ∨
    white = 24) (limit : Option Addr) (fuel : Nat) : ∀ (g : global_State) (p : GCRef)
    (pf : FirstOld) (r : global_State × GCRef × FirstOld),
    sweepgen_loop white limit fuel g p pf = some r → FinKept g.heap r.1.heap := by
  induction fuel with
  | zero => intro g p pf r h; simp [sweepgen_loop] at h
  | succ n ih =>
    intro g p pf r h
    rw [sweepgen_loop] at h
    simp only [Option.bind_eq_bind, Option.bind_eq_some] at h
    obtain ⟨c, -, h⟩ := h
    split at h
    · simp only [Option.some.injEq] at h
      subst h
      exact finKept_refl _
    · cases c with
      | none => cases h
      | some curr =>
        simp only [Option.bind_eq_bind, Option.bind_eq_some] at h
        obtain ⟨x, hx, h⟩ := h
        split at h
        · simp only [Option.bind_eq_bind, Option.bind_eq_some] at h
          obtain ⟨g1, h1, g3, h3, h⟩ := h
          exact finKept_trans _ _ _ (free_step_finKept g g1 g3 p _ curr h1 h3) (ih _ _ _ _ h)
        · rename_i hnw
          have hnw2 : iswhite x.marked = false := by simpa using hnw
          split at h
          · rename_i hnew
            have hm : markgen white x.marked = some (cast_byte
                ((x.marked &&& bnot8 maskgcbits) ||| G_SURVIVAL ||| white)) := by
              unfold markgen
              rw [if_pos hnew]
            have hf := (markgen_spec white hw _ _ hnw2 hm).2.2.2.2.2.2.2.2.2.2
            exact finKept_trans _ _ _ (finKept_set g.heap curr x _ hx hf) (ih _ _ _ _ h)
          · rename_i hold
            simp only [Option.bind_eq_bind, Option.bind_eq_some] at h
            obtain ⟨na, hna, h⟩ := h
            have hm : markgen white x.marked = some (setage x.marked na) := by
              unfold markgen
              rw [if_neg hold, hna]
              rfl
            have hf := (markgen_spec white hw _ _ hnw2 hm).2.2.2.2.2.2.2.2.2.2
            have k1 : FinKept g.heap
                (g.setobj curr { x with marked := setage x.marked na }).heap :=
              finKept_set g.heap curr x _ hx hf
            refine finKept_trans _ _ _ (finKept_trans _ _ _ k1 ?_) (ih _ _ _ _ h)
            split
            · rw [firstOld_write_heap]
              exact finKept_refl _
            · exact finKept_refl _

set_option maxRecDepth 1000000 in
theorem finbit_makewhite_byte (w : Nat) (hw : w = 0 ∨ w = 8 ∨ w = 16 ∨ w = 24) :
    ∀ m : Nat, m < 256 →
    tofinalize (cast_byte ((m &&& bnot8 maskcolors) ||| w)) = tofinalize m := by
  rcases hw with rfl | rfl | rfl | rfl <;> decide

theorem finbit_makewhite (g : global_State) (m : Nat) :
    tofinalize (makewhite g m) = tofinalize m := by
  rw [makewhite_mod, tofinalize_mod m]
  unfold makewhite
  exact finbit_makewhite_byte _ (luaC_white_cases g) _ (Nat.mod_lt _ (by decide))

/-- A new object keeps the invariant: it is on `allgc` without the bit. -/
theorem finInv_newobj (g : global_State) (tt : Tag) (p : Addr) (init : GCObject)
    (la lf lt lx : List Addr) (hI : FinInv g la lf lt lx) (hp : g.heap p = none) :
    FinInv (luaC_newobjdt_link g tt p init) (p :: la) lf lt lx := by
  have hL2 := lists_newobj g tt p init la lf lt lx hI.1 hp
  have hnm : p ∉ la ++ lf ++ lt ++ lx := by
    intro hm
    have := (hI.1.2.2.2.2.2 p).2 hm
    rw [hp] at this
    cases this
  simp only [List.mem_append, not_or] at hnm
  refine finInv_except g _ la lf lt lx (p :: la) lf lt lx p hI hL2 ?_ (fun _ _ h => h) ?_ ?_
  · intro a hap h
    rcases h with h | h
    · rcases List.mem_cons.1 h with e | e
      · exact absurd e hap
      · exact Or.inl e
    · exact Or.inr h
  · intro a x2 hap e2
    have e3 : Heap.set g.heap p _ a = some x2 := e2
    rw [heap_set_ne _ _ _ _ hap] at e3
    exact ⟨x2, e3, rfl⟩
  · intro x2 e2
    have e3 : Heap.set g.heap p _ p = some x2 := e2
    rw [heap_set_same] at e3
    cases e3
    have hb : tofinalize (luaC_white g) = false := (luaC_white_bits g).2.2
    constructor
    · intro h
      have h2 : tofinalize (luaC_white g) = true := h
      rw [hb] at h2
      cases h2
    · rintro (h | h)
      · exact absurd h hnm.1.1.2
      · exact absurd h hnm.1.2

/-- `luaC_fix` changes no `FINALIZEDBIT`. -/
theorem luaC_fix_finKept (g g2 : global_State) (o : Addr) (hrun : luaC_fix g o = some g2) :
    FinKept g.heap g2.heap := by
  unfold luaC_fix at hrun
  simp only [Option.bind_eq_bind, Option.bind_eq_some] at hrun
  obtain ⟨oo, hoo, o1, h1, o2, h2, hrun⟩ := hrun
  simp only [Option.some.injEq] at hrun
  subst hrun
  exact finKept_trans _ _ _ (finKept_trans _ _ _
    (finKept_set g.heap o oo _ hoo (finbit_gray oo.marked))
    (finKept_set _ o o1 _ h1 (finbit_setage_old o1.marked)))
    (finKept_set _ o o2 { o2 with next := g.fixedgc } h2 rfl)

theorem finInv_fix (g g2 : global_State) (o : Addr) (la lf lt lx : List Addr)
    (hI : FinInv g la lf lt lx) (ho : g.allgc = some o) (hrun : luaC_fix g o = some g2) :
    FinInv g2 (la.erase o) lf lt (o :: lx) := by
  have hom : o ∈ la := by
    have := hI.1.1
    rw [ho] at this
    obtain ⟨l2, e, -⟩ := isList_head _ _ _ this
    rw [e]
    exact List.mem_cons_self _ _
  refine finInv_sub g g2 la lf lt lx _ _ _ _ hI (lists_fix g g2 o la lf lt lx hI.1 ho hrun)
    ?_ (fun _ h => h) (luaC_fix_finKept g g2 o hrun)
  intro a h
  rcases h with h | h
  · exact Or.inl (List.mem_of_mem_erase h)
  · rcases List.mem_cons.1 h with e | e
    · exact Or.inl (e ▸ hom)
    · exact Or.inr e

/-- What `udata2finalize` does to the memory: only the object returned
changes, and it has no `FINALIZEDBIT` afterwards. -/
theorem udata2finalize_heap (g g2 : global_State) (o : Addr)
    (hrun : udata2finalize g = some (g2, o)) :
    (∀ a, a ≠ o → g2.heap a = g.heap a) ∧
    ∃ x2, g2.heap o = some x2 ∧ tofinalize x2.marked = false := by
  unfold udata2finalize at hrun
  simp only [Option.bind_eq_bind, Option.bind_eq_some] at hrun
  obtain ⟨c, hc, x, hx, x3, h3, x4, h4, hrun⟩ := hrun
  rw [show (global_State.setobj _ c _).heap c = some _ from heap_set_same _ _ _] at h3
  cases h3
  rw [show (global_State.setobj _ c _).heap c = some _ from heap_set_same _ _ _] at h4
  cases h4
  have hf : ∀ a, a ≠ c → Heap.set (Heap.set g.heap c { x with next := g.allgc }) c
      { x with next := g.allgc, marked := resetbit x.marked FINALIZEDBIT } a = g.heap a := by
    intro a ha
    rw [heap_set_ne _ _ _ _ ha, heap_set_ne _ _ _ _ ha]
  split at hrun
  · simp only [Option.some.injEq, Prod.mk.injEq] at hrun
    obtain ⟨rfl, rfl⟩ := hrun
    refine ⟨?_, _, heap_set_same _ _ _, ?_⟩
    · intro a ha
      show Heap.set _ c _ a = _
      rw [heap_set_ne _ _ _ _ ha]
      exact hf a ha
    · show tofinalize (makewhite _ (resetbit x.marked FINALIZEDBIT)) = false
      rw [finbit_makewhite]
      exact finbit_reset _
  · split at hrun
    · simp only [Option.some.injEq, Prod.mk.injEq] at hrun
      obtain ⟨rfl, rfl⟩ := hrun
      exact ⟨hf, _, heap_set_same _ _ _, finbit_reset _⟩
    · simp only [Option.some.injEq, Prod.mk.injEq] at hrun
      obtain ⟨rfl, rfl⟩ := hrun
      exact ⟨hf, _, heap_set_same _ _ _, finbit_reset _⟩

theorem finInv_udata2finalize (g g2 : global_State) (o : Addr) (la lf lt lx : List Addr)
    (hI : FinInv g la lf lt lx) (hrun : udata2finalize g = some (g2, o)) :
    FinInv g2 (o :: la) lf (lt.erase o) lx := by
  obtain ⟨hL2, hto⟩ := lists_udata2finalize g g2 o la lf lt lx hI.1 hrun
  obtain ⟨hf, x2, hx2, hb⟩ := udata2finalize_heap g g2 o hrun
  have hom : o ∈ lt := by
    have := hI.1.2.2.1
    rw [hto] at this
    obtain ⟨l2, e, -⟩ := isList_head _ _ _ this
    rw [e]
    exact List.mem_cons_self _ _
  obtain ⟨-, -, ndt, -, -, -, dt, -⟩ := nodup4 la lf lt lx hI.1.2.2.2.2.1
  refine finInv_except g g2 la lf lt lx _ _ _ _ o hI hL2 ?_ ?_ ?_ ?_
  · intro a hao h
    rcases h with h | h
    · rcases List.mem_cons.1 h with e | e
      · exact absurd e hao
      · exact Or.inl e
    · exact Or.inr h
  · intro a _ h
    rcases h with h | h
    · exact Or.inl h
    · exact Or.inr (List.mem_of_mem_erase h)
  · intro a y hao e2
    rw [hf a hao] at e2
    exact ⟨y, e2, rfl⟩
  · intro y e2
    rw [hx2] at e2
    cases e2
    rw [hb]
    constructor
    · intro h
      cases h
    · rintro (h | h)
      · exact absurd h (dt o hom).2.1
      · exact absurd h (List.Nodup.not_mem_erase ndt)

/-- The first half of `luaC_checkfinalizer` changes no `FINALIZEDBIT`. -/
theorem checkfinalizer_prepare_finKept (fuel : Nat) (g g1 : global_State) (o : Addr)
    (x : GCObject) (hx : g.heap o = some x)
    (hrun : luaC_checkfinalizer_prepare fuel g o x = some g1) : FinKept g.heap g1.heap := by
  unfold luaC_checkfinalizer_prepare at hrun
  split at hrun
  · have k0 : FinKept g.heap (g.setobj o { x with marked := makewhite g x.marked }).heap :=
      finKept_set g.heap o x _ hx (finbit_makewhite g x.marked)
    simp only [Option.bind_eq_bind] at hrun
    split at hrun
    · simp only [Option.bind_eq_some] at hrun
      obtain ⟨⟨g0a, p⟩, h1, hrun⟩ := hrun
      simp only [Option.some.injEq] at hrun
      subst hrun
      exact finKept_trans _ _ _ k0 (sweeptolive_finKept fuel _ g0a _ _ h1)
    · simp only [Option.some.injEq] at hrun
      subst hrun
      exact k0
  · unfold correctpointers at hrun
    simp only [Option.bind_eq_bind, Option.bind_eq_some] at hrun
    obtain ⟨y, -, hrun⟩ := hrun
    simp only [Option.some.injEq] at hrun
    subst hrun
    exact finKept_refl _

/-- The second half of `luaC_checkfinalizer` sets the bit of `o` and changes
no other `FINALIZEDBIT`. -/
theorem checkfinalizer_move_heap (fuel : Nat) (g1 g3 : global_State) (o : Addr)
    (hrun : luaC_checkfinalizer_move fuel g1 o = some g3) :
    (∀ a x3, a ≠ o → g3.heap a = some x3 →
      ∃ x, g1.heap a = some x ∧ tofinalize x3.marked = tofinalize x.marked) ∧
    ∃ x3, g3.heap o = some x3 ∧ tofinalize x3.marked = true := by
  unfold luaC_checkfinalizer_move at hrun
  simp only [Option.bind_eq_bind, Option.bind_eq_some] at hrun
  obtain ⟨p, -, x1, -, g2, hstore, x2, hx2, x4, hx4, hrun⟩ := hrun
  simp only [Option.some.injEq] at hrun
  subst hrun
  have k := finKept_of_nolinks g1.heap g2.heap
    (fun a => Or.inr ((store_nolinks g1 g2 p _ hstore).1 a))
  refine ⟨?_, _, heap_set_same _ _ _, finbit_mark _⟩
  intro a x3 hao e3
  have e4 : Heap.set (Heap.set g2.heap o _) o _ a = some x3 := e3
  rw [heap_set_ne _ _ _ _ hao, heap_set_ne _ _ _ _ hao] at e4
  exact k a x3 e4

/-- `luaC_checkfinalizer` keeps the invariant: it sets the bit of `o` when
it moves `o` to `finobj`, and changes no other bit. -/
theorem finInv_checkfinalizer (fuel : Nat) (g g2 : global_State) (o : Addr)
    (mt : Option Addr) (la lf lt lx : List Addr) (hI : FinInv g la lf lt lx)
    (hrun : luaC_checkfinalizer fuel g o mt = some g2) :
    ∃ la2 lf2 lt2 lx2, FinInv g2 la2 lf2 lt2 lx2 ∧
      (∀ a x2, a ≠ o → g2.heap a = some x2 →
        ∃ x, g.heap a = some x ∧ tofinalize x2.marked = tofinalize x.marked) := by
  have hsame : ∃ la2 lf2 lt2 lx2, FinInv g la2 lf2 lt2 lx2 ∧
      (∀ a x2, a ≠ o → g.heap a = some x2 →
        ∃ x, g.heap a = some x ∧ tofinalize x2.marked = tofinalize x.marked) :=
    ⟨la, lf, lt, lx, hI, fun a x2 _ e => ⟨x2, e, rfl⟩⟩
  unfold luaC_checkfinalizer at hrun
  simp only [Option.bind_eq_bind, Option.bind_eq_some] at hrun
  obtain ⟨x, hx, hrun⟩ := hrun
  split at hrun
  · cases hrun
    exact hsame
  · simp only [Option.bind_eq_bind, Option.bind_eq_some] at hrun
    obtain ⟨tm, -, hrun⟩ := hrun
    split at hrun
    · cases hrun
      exact hsame
    · split at hrun
      · cases hrun
        exact hsame
      · simp only [Option.bind_eq_bind, Option.bind_eq_some] at hrun
        obtain ⟨g1, hprep, hmove⟩ := hrun
        obtain ⟨la1, lf1, lt1, lx1, hL1, s1, s2, s3, s4⟩ :=
          checkfinalizer_prepare_lists fuel g g1 o x la lf lt lx hI.1 hx hprep
        have k1 := checkfinalizer_prepare_finKept fuel g g1 o x hx hprep
        have hI1 : FinInv g1 la1 lf1 lt1 lx1 :=
          finInv_sub g g1 la lf lt lx la1 lf1 lt1 lx1 hI hL1
            (fun a h => h.elim (fun h => Or.inl (s1.subset h)) (fun h => Or.inr (s4.subset h)))
            (fun a h => h.elim (fun h => Or.inl (s2.subset h)) (fun h => Or.inr (s3.subset h)))
            k1
        have hL3 := checkfinalizer_move_lists fuel g1 g2 o la1 lf1 lt1 lx1 hL1 hmove
        obtain ⟨m1, x3, hx3, hb3⟩ := checkfinalizer_move_heap fuel g1 g2 o hmove
        refine ⟨_, _, _, _, finInv_except g1 g2 la1 lf1 lt1 lx1 _ _ _ _ o hI1 hL3 ?_ ?_ m1 ?_, ?_⟩
        · intro a _ h
          exact h.elim (fun h => Or.inl (List.mem_of_mem_erase h))
            (fun h => Or.inr (List.mem_of_mem_erase h))
        · intro a hao h
          rcases h with h | h
          · rcases List.mem_cons.1 h with e | e
            · exact absurd e hao
            · exact Or.inl (List.mem_of_mem_erase e)
          · exact Or.inr (List.mem_of_mem_erase h)
        · intro y e
          rw [hx3] at e
          cases e
          rw [hb3]
          exact ⟨fun _ => Or.inl (List.mem_cons_self _ _), fun _ => rfl⟩
        · intro a y hao e
          obtain ⟨y1, e1, f1⟩ := m1 a y hao e
          obtain ⟨y0, e0, f0⟩ := k1 a y1 e1
          exact ⟨y0, e0, f1.trans f0⟩

theorem finInv_swept (g g2 : global_State) (la lf lt lx la2 lf2 lt2 lx2 : List Addr)
    (hI : FinInv g la lf lt lx) (hL2 : Lists g2 la2 lf2 lt2 lx2) (sa : la2.Sublist la)
    (sf : lf2.Sublist lf) (st : lt2.Sublist lt) (sx : lx2.Sublist lx)
    (hk : FinKept g.heap g2.heap) : FinInv g2 la2 lf2 lt2 lx2 :=
  finInv_sub g g2 la lf lt lx la2 lf2 lt2 lx2 hI hL2
    (fun _ h => h.elim (fun h => Or.inl (sa.subset h)) (fun h => Or.inr (sx.subset h)))
    (fun _ h => h.elim (fun h => Or.inl (sf.subset h)) (fun h => Or.inr (st.subset h))) hk

/-- `sweep2old` keeps the lists disjoint. -/
theorem sweep2old_disjoint (fuel : Nat) (g g2 : global_State) (p : GCRef)
    (la lf lt lx : List Addr) (hL : Lists g la lf lt lx)
    (hrun : sweep2old fuel g p = some g2) :
    ∃ la2 lf2 lt2 lx2, Lists g2 la2 lf2 lt2 lx2 ∧ la2.Sublist la ∧ lf2.Sublist lf ∧
      lt2.Sublist lt ∧ lx2.Sublist lx := by
  have hload : ∃ c0, g.load p = some c0 := by
    cases fuel with
    | zero => simp [sweep2old] at hrun
    | succ n =>
      rw [sweep2old] at hrun
      simp only [Option.bind_eq_bind, Option.bind_eq_some] at hrun
      obtain ⟨c, hc, -⟩ := hrun
      exact ⟨c, hc⟩
  obtain ⟨c0, hc0⟩ := hload
  obtain ⟨rest, hrest, hown⟩ := lists_rest _ _ _ _ _ hL p c0 hc0
  exact ((sweep2old_detail rest fuel g p la lf lt lx c0 hL hc0 hrest hown).2 g2 hrun).2

/-- C27: The invariant of `FINALIZEDBIT`. When in `g` the heap lists are
`la`, `lf`, `lt`, `lx` and an object has the bit if and only if it is on
`finobj` or `tobefnz`, the same holds after each operation that links
objects or writes marks. A new object is on `allgc` without the bit, when
the allocator hands out its block at the first try and, from the invariant
in the state the emergency collection left, when it does so after a failed
first try;
`luaC_fix` changes no bit; `luaC_checkfinalizer` changes at most the bit of
`o`, which is set exactly when `o` is on `finobj` afterwards;
`separatetobefnz` moves objects from `finobj` to `tobefnz` and changes no
mark; `udata2finalize` moves its object to `allgc` with the bit cleared and
changes no other object; `sweeplist`, `whitelist`, `sweepgen`, `sweep2old`,
`reallymarkobject` and `propagatemark` change no bit of an object they
keep. -/
theorem finalized_invariant (g : global_State) (la lf lt lx : List Addr)
    (hI : FinInv g la lf lt lx) :
    (∀ luaE_setdebt env fuel alloc L tt sz init p, alloc g sz = some p → g.heap p = none →
      ∃ g2, luaC_newobjdt luaE_setdebt env fuel alloc g L tt sz init = some (g2, some p) ∧
        FinInv g2 (p :: la) lf lt lx) ∧
    (∀ luaE_setdebt env fuel alloc L tt sz init g0 p la0 lf0 lt0 lx0, alloc g sz = none →
      g.gcstopem = 0 → luaC_fullgc luaE_setdebt env fuel g L 1 = some g0 →
      alloc g0 sz = some p → g0.heap p = none → FinInv g0 la0 lf0 lt0 lx0 →
      ∃ g2, luaC_newobjdt luaE_setdebt env fuel alloc g L tt sz init = some (g2, some p) ∧
        FinInv g2 (p :: la0) lf0 lt0 lx0) ∧
    (∀ o g2, g.allgc = some o → luaC_fix g o = some g2 →
      FinInv g2 (la.erase o) lf lt (o :: lx) ∧ FinKept g.heap g2.heap) ∧
    (∀ fuel o mt g2, luaC_checkfinalizer fuel g o mt = some g2 →
      ∃ la2 lf2 lt2 lx2, FinInv g2 la2 lf2 lt2 lx2 ∧
        ∀ a x2, a ≠ o → g2.heap a = some x2 →
          ∃ x, g.heap a = some x ∧ tofinalize x2.marked = tofinalize x.marked) ∧
    (∀ fuel all g2, separatetobefnz fuel g all = some g2 →
      ∃ lf2 moved, FinInv g2 la lf2 (lt ++ moved) lx ∧ SameMarks g.heap g2.heap) ∧
    (∀ g2 o, udata2finalize g = some (g2, o) →
      FinInv g2 (o :: la) lf (lt.erase o) lx ∧ (∀ a, a ≠ o → g2.heap a = g.heap a) ∧
      ∃ x2, g2.heap o = some x2 ∧ tofinalize x2.marked = false) ∧
    (∀ p n g2 q i, sweeplist g p n = some (g2, q, i) →
      FinKept g.heap g2.heap ∧ ∃ la2 lf2 lt2 lx2, FinInv g2 la2 lf2 lt2 lx2) ∧
    (∀ fuel p g2, whitelist fuel g p = some g2 →
      FinKept g.heap g2.heap ∧ FinInv g2 la lf lt lx) ∧
    (∀ fuel p pf pre post c0 g2 p2 pf2, g.load p = some c0 →
      IsList g.heap c0 (pre ++ post) → (∀ s, p = .next s → s ∉ pre ++ post) →
      sweepgen fuel g p post.head? pf = some (g2, p2, pf2) →
      FinKept g.heap g2.heap ∧ ∃ la2 lf2 lt2 lx2, FinInv g2 la2 lf2 lt2 lx2) ∧
    (∀ fuel p g2, sweep2old fuel g p = some g2 →
      FinKept g.heap g2.heap ∧ ∃ la2 lf2 lt2 lx2, FinInv g2 la2 lf2 lt2 lx2) ∧
    (∀ o g2, reallymarkobject g o = some g2 →
      FinKept g.heap g2.heap ∧ FinInv g2 la lf lt lx) ∧
    (∀ env fuel g2 w, propagatemark env fuel g = some (g2, w) →
      FinKept g.heap g2.heap ∧ FinInv g2 la lf lt lx) := by
  refine ⟨?_, ?_, ?_, ?_, ?_, ?_, ?_, ?_, ?_, ?_, ?_, ?_⟩
  · intro luaE_setdebt env fuel alloc L tt sz init p ha hp
    exact ⟨_, luaC_newobjdt_of _ _ _ _ _ _ tt _ init _ _
        (luaM_newobject_first luaE_setdebt env fuel alloc g L sz p ha),
      finInv_newobj { g with GCdebt := g.GCdebt + sz } tt p init la lf lt lx hI hp⟩
  · intro luaE_setdebt env fuel alloc L tt sz init g0 p la0 lf0 lt0 lx0 ha hs hgc h0 hp hI0
    exact ⟨_, luaC_newobjdt_of _ _ _ _ _ _ tt _ init _ _
        (luaM_newobject_retry luaE_setdebt env fuel alloc g L sz g0 p ha hs hgc h0),
      finInv_newobj { g0 with GCdebt := g0.GCdebt + sz } tt p init la0 lf0 lt0 lx0 hI0 hp⟩
  · intro o g2 ho hrun
    exact ⟨finInv_fix g g2 o la lf lt lx hI ho hrun, luaC_fix_finKept g g2 o hrun⟩
  · intro fuel o mt g2 hrun
    exact finInv_checkfinalizer fuel g g2 o mt la lf lt lx hI hrun
  · intro fuel all g2 hrun
    obtain ⟨lf2, moved, h1, h2, h3, h4⟩ :=
      separatetobefnz_lists fuel g g2 all la lf lt lx hI.1 hrun
    refine ⟨lf2, moved, finInv_sub g g2 la lf lt lx _ _ _ _ hI h1 (fun _ h => h) ?_
      (finKept_of_sameMarks _ _ h4), h4⟩
    intro a h
    rcases h with h | h
    · exact Or.inl (h2.subset h)
    · rcases List.mem_append.1 h with h | h
      · exact Or.inr h
      · exact Or.inl (h3 a h)
  · intro g2 o hrun
    exact ⟨finInv_udata2finalize g g2 o la lf lt lx hI hrun, udata2finalize_heap g g2 o hrun⟩
  · intro p n g2 q i hrun
    have hk := sweeplist_finKept g g2 p n q i hrun
    obtain ⟨la2, lf2, lt2, lx2, hL2, sa, sf, st, sx⟩ :=
      sweeplist_disjoint g g2 p n q i la lf lt lx hI.1 hrun
    exact ⟨hk, la2, lf2, lt2, lx2, finInv_swept g g2 _ _ _ _ _ _ _ _ hI hL2 sa sf st sx hk⟩
  · intro fuel p g2 hrun
    obtain ⟨r1, r2, r3⟩ := whitelist_loop_fin _ (luaC_white_cases g) fuel g p g2 hrun
    exact ⟨r3, finInv_sub g g2 la lf lt lx la lf lt lx hI
      (lists_congr g g2 la lf lt lx r1 r2 hI.1) (fun _ h => h) (fun _ h => h) r3⟩
  · intro fuel p pf pre post c0 g2 p2 pf2 hp hr hown hrun
    have hk : FinKept g.heap g2.heap :=
      sweepgen_loop_finKept _ (luaC_white_cases g) _ fuel g p pf _ hrun
    obtain ⟨-, la2, lf2, lt2, lx2, hL2, sa, sf, st, sx⟩ :=
      (sweepgen_detail (luaC_white g) post pre fuel g p pf la lf lt lx c0 hI.1 hp hr hown).2
        g2 p2 pf2 hrun
    exact ⟨hk, la2, lf2, lt2, lx2, finInv_swept g g2 _ _ _ _ _ _ _ _ hI hL2 sa sf st sx hk⟩
  · intro fuel p g2 hrun
    have hk := sweep2old_finKept fuel g p g2 hrun
    obtain ⟨la2, lf2, lt2, lx2, hL2, sa, sf, st, sx⟩ :=
      sweep2old_disjoint fuel g g2 p la lf lt lx hI.1 hrun
    exact ⟨hk, la2, lf2, lt2, lx2, finInv_swept g g2 _ _ _ _ _ _ _ _ hI hL2 sa sf st sx hk⟩
  · intro o g2 hrun
    have hp := reallymarkobject_paint markRel_sameFin g o g2 hrun
    exact ⟨finKept_paint _ _ hp.2, (finInv_paint g g2 la lf lt lx hp hI).1⟩
  · intro env fuel g2 w hrun
    have hp := propagatemark_paint markRel_sameFin env fuel g g2 w hrun
    exact ⟨finKept_paint _ _ hp.2, (finInv_paint g g2 la lf lt lx hp hI).1⟩

theorem exFin_finInv : FinInv exFin [4, 1, 2, 3] [5] [6] [] := by
  refine ⟨exFin_lists, ?_⟩
  intro a x hx
  have hx2 : exFinHeap a = some x := hx
  unfold exFinHeap at hx2
  simp only [List.mem_singleton]
  split_ifs at hx2 with h1 h2 h3 h4 h5 h6 <;> cases hx2 <;> subst_vars <;> decide

/-- Witness of C27: in `exFin` the userdata 6 waits on `tobefnz` with the
bit set; `udata2finalize` returns it to `allgc` with the bit cleared, and the
invariant holds afterwards. -/
theorem finalized_invariant_witness :
    ∃ g2 o, udata2finalize exFin = some (g2, o) ∧
      FinInv g2 (o :: [4, 1, 2, 3]) [5] ([6].erase o) [] ∧
      ∃ x2, g2.heap o = some x2 ∧ tofinalize x2.marked = false := by
  have h : (udata2finalize exFin).isSome = true := by rfl
  obtain ⟨⟨g2, o⟩, hr⟩ := Option.isSome_iff_exists.1 h
  obtain ⟨h1, -, h3⟩ := (finalized_invariant exFin [4, 1, 2, 3] [5] [6] [] exFin_finInv).2.2.2.2.2.1
    g2 o hr
  exact ⟨g2, o, hr, h1, h3⟩

/-- `luaC_checkfinalizer` on `o` changes the `FINALIZEDBIT` of no other
object. -/
theorem checkfinalizer_others (fuel : Nat) (g g2 : global_State) (o : Addr) (mt : Option Addr)
    (hrun : luaC_checkfinalizer fuel g o mt = some g2) :
    ∀ a x2, a ≠ o → g2.heap a = some x2 →
      ∃ x, g.heap a = some x ∧ tofinalize x2.marked = tofinalize x.marked := by
  have hsame : ∀ a x2, a ≠ o → g.heap a = some x2 →
      ∃ x, g.heap a = some x ∧ tofinalize x2.marked = tofinalize x.marked :=
    fun a x2 _ e => ⟨x2, e, rfl⟩
  unfold luaC_checkfinalizer at hrun
  simp only [Option.bind_eq_bind, Option.bind_eq_some] at hrun
  obtain ⟨x, hx, hrun⟩ := hrun
  split at hrun
  · cases hrun
    exact hsame
  · simp only [Option.bind_eq_bind, Option.bind_eq_some] at hrun
    obtain ⟨tm, -, hrun⟩ := hrun
    split at hrun
    · cases hrun
      exact hsame
    · split at hrun
      · cases hrun
        exact hsame
      · simp only [Option.bind_eq_bind, Option.bind_eq_some] at hrun
        obtain ⟨g1, hprep, hmove⟩ := hrun
        have k1 := checkfinalizer_prepare_finKept fuel g g1 o x hx hprep
        obtain ⟨m1, -⟩ := checkfinalizer_move_heap fuel g1 g2 o hmove
        intro a y hao e
        obtain ⟨y1, e1, f1⟩ := m1 a y hao e
        obtain ⟨y0, e0, f0⟩ := k1 a y1 e1
        exact ⟨y0, e0, f1.trans f0⟩

/-- `luaC_checkfinalizer` on an object without the bit sets the bit exactly
when the metatable has a finalizer and the state is not being closed. -/
theorem checkfinalizer_self (fuel : Nat) (g g2 : global_State) (o : Addr) (mt : Option Addr)
    (x : GCObject) (hx : g.heap o = some x) (hb : tofinalize x.marked = false)
    (hrun : luaC_checkfinalizer fuel g o mt = some g2) :
    ∀ x2, g2.heap o = some x2 →
      (tofinalize x2.marked = true ↔
        (∃ tm, gfasttm g mt .TM_GC = some (some tm)) ∧ g.gcstp &&& GCSTPCLS = 0) := by
  unfold luaC_checkfinalizer at hrun
  simp only [hx, Option.bind_eq_bind, Option.some_bind, hb] at hrun
  rw [if_neg (by decide)] at hrun
  simp only [Option.bind_eq_some] at hrun
  obtain ⟨tm, htm, hrun⟩ := hrun
  intro x2 hx2
  split at hrun
  · rename_i hnone
    cases hrun
    rw [hx] at hx2
    cases hx2
    rw [hb, htm, hnone]
    constructor
    · intro h
      cases h
    · rintro ⟨⟨t, ht⟩, -⟩
      cases ht
  · rename_i hsome
    split at hrun
    · rename_i hcls
      cases hrun
      rw [hx] at hx2
      cases hx2
      rw [hb]
      constructor
      · intro h
        cases h
      · rintro ⟨-, h0⟩
        exact absurd h0 hcls
    · rename_i hcls
      simp only [Option.bind_eq_bind, Option.bind_eq_some] at hrun
      obtain ⟨g1, -, hmove⟩ := hrun
      obtain ⟨-, x3, hx3, hb3⟩ := checkfinalizer_move_heap fuel g1 g2 o hmove
      rw [hx2] at hx3
      cases hx3
      rw [hb3]
      refine ⟨fun _ => ⟨?_, ?_⟩, fun _ => rfl⟩
      · cases tm with
        | none => exact absurd rfl hsome
        | some t => exact ⟨t, htm⟩
      · exact not_not.1 hcls

theorem kept_clear (h h2 : Heap) (hk : FinKept h h2) (a : Addr) (x : GCObject)
    (hx : h a = some x) (hb : tofinalize x.marked = false) :
    ∀ x2, h2 a = some x2 → tofinalize x2.marked = false := by
  intro x2 e2
  obtain ⟨y, ey, f⟩ := hk a x2 e2
  rw [hx] at ey
  cases ey
  rw [f, hb]

/-- C28, amended: the bit of an object that has no `FINALIZEDBIT` (as after
`udata2finalize` has cleared it) stays clear under every operation of the
collector but `luaC_checkfinalizer` on that object: the creation of an
object (at the first try of the allocator and, from the state the emergency
collection left, after a failed first try), `luaC_fix`, `luaC_checkfinalizer` on another object,
`separatetobefnz`, `udata2finalize`, `sweeplist`, `whitelist`, `sweepgen`,
`sweep2old`, `reallymarkobject` and `propagatemark`. A call of
`luaC_checkfinalizer` on the object sets the bit again exactly when the
metatable defines a finalizer and the state is not being closed. -/
theorem finalized_cleared_stays (g : global_State) (la lf lt lx : List Addr) (a : Addr)
    (x : GCObject) (hL : Lists g la lf lt lx) (hx : g.heap a = some x)
    (hb : tofinalize x.marked = false) :
    (∀ luaE_setdebt env fuel alloc L tt sz init p, alloc g sz = some p → g.heap p = none →
      ∃ g2, luaC_newobjdt luaE_setdebt env fuel alloc g L tt sz init = some (g2, some p) ∧
        ∀ x2, g2.heap a = some x2 → tofinalize x2.marked = false) ∧
    (∀ luaE_setdebt env fuel alloc L tt sz init g0 p x0, alloc g sz = none →
      g.gcstopem = 0 → luaC_fullgc luaE_setdebt env fuel g L 1 = some g0 →
      alloc g0 sz = some p → g0.heap p = none → g0.heap a = some x0 →
      tofinalize x0.marked = false →
      ∃ g2, luaC_newobjdt luaE_setdebt env fuel alloc g L tt sz init = some (g2, some p) ∧
        ∀ x2, g2.heap a = some x2 → tofinalize x2.marked = false) ∧
    (∀ o g2, luaC_fix g o = some g2 →
      ∀ x2, g2.heap a = some x2 → tofinalize x2.marked = false) ∧
    (∀ fuel o mt g2, o ≠ a → luaC_checkfinalizer fuel g o mt = some g2 →
      ∀ x2, g2.heap a = some x2 → tofinalize x2.marked = false) ∧
    (∀ fuel all g2, separatetobefnz fuel g all = some g2 →
      ∀ x2, g2.heap a = some x2 → tofinalize x2.marked = false) ∧
    (∀ g2 o, udata2finalize g = some (g2, o) →
      ∀ x2, g2.heap a = some x2 → tofinalize x2.marked = false) ∧
    (∀ p n g2 q i, sweeplist g p n = some (g2, q, i) →
      ∀ x2, g2.heap a = some x2 → tofinalize x2.marked = false) ∧
    (∀ fuel p g2, whitelist fuel g p = some g2 →
      ∀ x2, g2.heap a = some x2 → tofinalize x2.marked = false) ∧
    (∀ fuel p limit pf g2 p2 pf2, sweepgen fuel g p limit pf = some (g2, p2, pf2) →
      ∀ x2, g2.heap a = some x2 → tofinalize x2.marked = false) ∧
    (∀ fuel p g2, sweep2old fuel g p = some g2 →
      ∀ x2, g2.heap a = some x2 → tofinalize x2.marked = false) ∧
    (∀ o g2, reallymarkobject g o = some g2 →
      ∀ x2, g2.heap a = some x2 → tofinalize x2.marked = false) ∧
    (∀ env fuel g2 w, propagatemark env fuel g = some (g2, w) →
      ∀ x2, g2.heap a = some x2 → tofinalize x2.marked = false) ∧
    (∀ fuel mt g2, luaC_checkfinalizer fuel g a mt = some g2 →
      ∀ x2, g2.heap a = some x2 →
        (tofinalize x2.marked = true ↔
          (∃ tm, gfasttm g mt .TM_GC = some (some tm)) ∧ g.gcstp &&& GCSTPCLS = 0)) := by
  refine ⟨?_, ?_, ?_, ?_, ?_, ?_, ?_, ?_, ?_, ?_, ?_, ?_, ?_⟩
  · intro luaE_setdebt env fuel alloc L tt sz init p ha hp
    refine ⟨_, luaC_newobjdt_of _ _ _ _ _ _ tt _ init _ _
        (luaM_newobject_first luaE_setdebt env fuel alloc g L sz p ha), ?_⟩
    intro x2 e2
    have hap : a ≠ p := by
      intro e
      subst e
      rw [hx] at hp
      cases hp
    have e3 : Heap.set g.heap p _ a = some x2 := e2
    rw [heap_set_ne _ _ _ _ hap, hx] at e3
    cases e3
    exact hb
  · intro luaE_setdebt env fuel alloc L tt sz init g0 p x0 ha hs hgc h0 hp hx0 hb0
    refine ⟨_, luaC_newobjdt_of _ _ _ _ _ _ tt _ init _ _
        (luaM_newobject_retry luaE_setdebt env fuel alloc g L sz g0 p ha hs hgc h0), ?_⟩
    intro x2 e2
    have hap : a ≠ p := by
      intro e
      subst e
      rw [hx0] at hp
      cases hp
    have e3 : Heap.set g0.heap p _ a = some x2 := e2
    rw [heap_set_ne _ _ _ _ hap, hx0] at e3
    cases e3
    exact hb0
  · intro o g2 hrun
    exact kept_clear _ _ (luaC_fix_finKept g g2 o hrun) a x hx hb
  · intro fuel o mt g2 hoa hrun x2 e2
    obtain ⟨y, ey, f⟩ := checkfinalizer_others fuel g g2 o mt hrun a x2 (Ne.symm hoa) e2
    rw [hx] at ey
    cases ey
    rw [f, hb]
  · intro fuel all g2 hrun
    obtain ⟨lf2, moved, -, -, -, h4⟩ := separatetobefnz_lists fuel g g2 all la lf lt lx hL hrun
    exact kept_clear _ _ (finKept_of_sameMarks _ _ h4) a x hx hb
  · intro g2 o hrun x2 e2
    obtain ⟨hf, y, hy, hyb⟩ := udata2finalize_heap g g2 o hrun
    by_cases hao : a = o
    · subst hao
      rw [hy] at e2
      cases e2
      exact hyb
    · rw [hf a hao, hx] at e2
      cases e2
      exact hb
  · intro p n g2 q i hrun
    exact kept_clear _ _ (sweeplist_finKept g g2 p n q i hrun) a x hx hb
  · intro fuel p g2 hrun
    exact kept_clear _ _ (whitelist_loop_fin _ (luaC_white_cases g) fuel g p g2 hrun).2.2
      a x hx hb
  · intro fuel p limit pf g2 p2 pf2 hrun
    exact kept_clear _ _ (sweepgen_loop_finKept _ (luaC_white_cases g) limit fuel g p pf _ hrun)
      a x hx hb
  · intro fuel p g2 hrun
    exact kept_clear _ _ (sweep2old_finKept fuel g p g2 hrun) a x hx hb
  · intro o g2 hrun
    exact kept_clear _ _
      (finKept_paint _ _ (reallymarkobject_paint markRel_sameFin g o g2 hrun).2) a x hx hb
  · intro env fuel g2 w hrun
    exact kept_clear _ _
      (finKept_paint _ _ (propagatemark_paint markRel_sameFin env fuel g g2 w hrun).2) a x hx hb
  · intro fuel mt g2 hrun
    exact checkfinalizer_self fuel g g2 a mt x hx hb hrun

/-- Witness of the amended C28: in `exFin` the table 1 has no
`FINALIZEDBIT`; `luaC_checkfinalizer` with the metatable 4, which defines a
finalizer, sets it. -/
theorem finalized_cleared_stays_witness :
    ∃ g2 x2, luaC_checkfinalizer 10 exFin 1 (some 4) = some g2 ∧ g2.heap 1 = some x2 ∧
      tofinalize x2.marked = true := by
  have h : ((luaC_checkfinalizer 10 exFin 1 (some 4)).bind (fun g => g.heap 1)).isSome
      = true := by rfl
  obtain ⟨x2, hr⟩ := Option.isSome_iff_exists.1 h
  simp only [Option.bind_eq_some] at hr
  obtain ⟨g2, hg2, hx2⟩ := hr
  have k := (finalized_cleared_stays exFin [4, 1, 2, 3] [5] [6] [] 1
    (exObj .LUA_VTABLE 8 (some 2)) exFin_lists rfl (by decide)).2.2.2.2.2.2.2.2.2.2.2.2
    10 (some 4) g2 hg2 x2 hx2
  exact ⟨g2, x2, hg2, hx2, k.2 ⟨⟨.prim 0, rfl⟩, by decide⟩⟩

/-- Counterexample to C28 as stated: in `exFin`, `udata2finalize` returns
the userdata 6 to `allgc` with `FINALIZEDBIT` cleared; a later
`luaC_checkfinalizer` on it with the metatable 4, which defines a finalizer,
sets the bit again. -/
theorem finalized_again_counterexample :
    ∃ g2 x2 g3 x3, udata2finalize exFin = some (g2, 6) ∧ g2.heap 6 = some x2 ∧
      tofinalize x2.marked = false ∧ luaC_checkfinalizer 10 g2 6 (some 4) = some g3 ∧
      g3.heap 6 = some x3 ∧ tofinalize x3.marked = true := by
  have e : (udata2finalize exFin).bind (fun r =>
      (r.1.heap 6).bind (fun x2 =>
        (luaC_checkfinalizer 10 r.1 6 (some 4)).bind (fun g3 =>
          (g3.heap 6).map (fun x3 => (r.2, tofinalize x2.marked, tofinalize x3.marked)))))
      = some (6, false, true) := by rfl
  simp only [Option.bind_eq_some, Option.map_eq_some', Prod.mk.injEq] at e
  obtain ⟨⟨g2, o⟩, h1, x2, h2, g3, h3, x3, h4, h5, h6, h7⟩ := e
  have ho : o = 6 := h5
  subst ho
  exact ⟨g2, x2, g3, x3, h1, h2, h6, h3, h4, h7⟩

theorem prog_get {α : Type} (F : α → α) : ∀ (l : List α) (i : Nat),
    ((l.take i).map F ++ l.drop i).get? i = l.get? i := by
  intro l
  induction l with
  | nil => intro i; simp
  | cons a l ih =>
    intro i
    cases i with
    | zero => simp
    | succ k => simpa using ih k

theorem prog_set {α : Type} (F : α → α) : ∀ (l : List α) (i : Nat) (x : α),
    l.get? i = some x →
    ((l.take i).map F ++ l.drop i).set i (F x) = (l.take (i + 1)).map F ++ l.drop (i + 1) := by
  intro l
  induction l with
  | nil => intro i x h; simp at h
  | cons a l ih =>
    intro i x h
    cases i with
    | zero =>
      simp only [List.get?_cons_zero, Option.some.injEq] at h
      subst h
      simp
    | succ k =>
      simp only [List.get?_cons_succ] at h
      simpa using ih k x h

theorem prog_set_same {α : Type} (F : α → α) : ∀ (l : List α) (i : Nat) (x : α),
    l.get? i = some x → F x = x →
    (l.take (i + 1)).map F ++ l.drop (i + 1) = (l.take i).map F ++ l.drop i := by
  intro l
  induction l with
  | nil => intro i x h; simp at h
  | cons a l ih =>
    intro i x h hF
    cases i with
    | zero =>
      simp only [List.get?_cons_zero, Option.some.injEq] at h
      subst h
      simp [hF]
    | succ k =>
      simp only [List.get?_cons_succ] at h
      simpa using ih k x h hF

theorem prog_all {α : Type} (F : α → α) (l : List α) (i : Nat) (h : l.length ≤ i) :
    (l.take i).map F ++ l.drop i = l.map F := by
  rw [List.take_of_length_le h, List.drop_eq_nil_of_le h, List.append_nil]

theorem novariant_string (tt : Tag) :
    novariant tt = LUA_TSTRING ↔ tt = .LUA_VSHRSTR ∨ tt = .LUA_VLNGSTR := by
  cases tt <;> decide

theorem clearing_refl (g : global_State) : Clearing (fun _ x => x) (fun _ => False) g g := by
  refine ⟨rfl, fun a => ⟨fun e => e, fun x e => ⟨fun _ => ⟨x.marked, e, fun _ => rfl, fun h => h.elim⟩,
    fun _ => e⟩⟩⟩

theorem keepsHeader_id : KeepsHeader (fun _ x => x) := fun _ _ => rfl

theorem keepsHeader_tt (T : Addr → GCObject → GCObject) (hK : KeepsHeader T) (a : Addr)
    (x : GCObject) : (T a x).tt = x.tt ∧ (T a x).marked = x.marked ∧
      (T a x).gclist = x.gclist := by
  have e := hK a x
  refine ⟨?_, ?_, ?_⟩
  · rw [e]
  · rw [e]
  · rw [e]

/-- The answer of `iscleared` while weak tables are cleared. -/
theorem iscleared_clearing (T : Addr → GCObject → GCObject) (V : Addr → Prop)
    (g gi : global_State) (o : Option Addr) (hC : Clearing T V g gi) (hK : KeepsHeader T)
    (hlive : ∀ a, o = some a → (g.heap a).isSome = true) :
    ∃ g1, iscleared gi o = some (g1, clearedIn g.heap o) ∧
      Clearing T (fun b => V b ∨ o = some b) g g1 := by
  have weaken : Clearing T (fun b => V b ∨ o = some b) g gi →
      ∃ g1, some (gi, clearedIn g.heap o) = some (g1, clearedIn g.heap o) ∧
        Clearing T (fun b => V b ∨ o = some b) g g1 := fun h => ⟨gi, rfl, h⟩
  cases o with
  | none =>
    refine ⟨gi, rfl, hC.1, fun a => ⟨(hC.2 a).1, fun x e => ⟨?_, ((hC.2 a).2 x e).2⟩⟩⟩
    intro hs
    obtain ⟨m, h1, h2, h3⟩ := ((hC.2 a).2 x e).1 hs
    exact ⟨m, h1, h2, fun hv => h3 (hv.elim id (fun h => by cases h))⟩
  | some a =>
    obtain ⟨x, hx⟩ := Option.isSome_iff_exists.1 (hlive a rfl)
    by_cases hs : novariant x.tt = LUA_TSTRING
    · obtain ⟨m, h1, h2, h3⟩ := ((hC.2 a).2 x hx).1 hs
      have hcl : clearedIn g.heap (some a) = false := by
        simp [clearedIn, hx, hs]
      rw [hcl]
      unfold iscleared
      simp only [h1, Option.bind_eq_bind, Option.some_bind]
      rw [if_pos hs]
      unfold markobject markobject_with
      simp only [h1, Option.bind_eq_bind, Option.some_bind]
      by_cases hw : iswhite m = true
      · rw [if_pos hw]
        have hm := markrec_string 2 gi a { x with marked := m } h1
          ((novariant_string x.tt).1 hs)
        unfold reallymarkobject
        rw [hm]
        refine ⟨_, rfl, ?_, ?_⟩
        · show gi.setobj a _ = { g with heap := _ }
          unfold global_State.setobj
          rw [hC.1]
        · intro b
          show (g.heap b = none → Heap.set gi.heap a _ b = none) ∧ _
          by_cases hba : b = a
          · subst hba
            refine ⟨fun e => (by rw [hx] at e; cases e), ?_⟩
            intro y hy
            rw [hx] at hy
            cases hy
            refine ⟨fun _ => ⟨set2black m, heap_set_same _ _ _, ?_, fun _ => black_nonwhite m⟩,
              fun hn => absurd hs hn⟩
            intro hnw
            rw [h2 hnw] at hw
            rw [hnw] at hw
            cases hw
          · refine ⟨fun e => (by rw [heap_set_ne _ _ _ _ hba]; exact (hC.2 b).1 e), ?_⟩
            intro y hy
            refine ⟨?_, fun hn => by
              show Heap.set gi.heap a _ b = _
              rw [heap_set_ne _ _ _ _ hba]; exact ((hC.2 b).2 y hy).2 hn⟩
            intro hsy
            obtain ⟨m2, k1, k2, k3⟩ := ((hC.2 b).2 y hy).1 hsy
            refine ⟨m2, ?_, k2, fun hv => k3 (hv.elim id (fun h => ?_))⟩
            · show Heap.set gi.heap a _ b = _
              rw [heap_set_ne _ _ _ _ hba]
              exact k1
            · cases h
              exact absurd rfl hba
      · rw [if_neg hw]
        refine ⟨gi, rfl, hC.1, fun b => ⟨(hC.2 b).1, fun y hy => ⟨?_, ((hC.2 b).2 y hy).2⟩⟩⟩
        intro hsy
        obtain ⟨m2, k1, k2, k3⟩ := ((hC.2 b).2 y hy).1 hsy
        refine ⟨m2, k1, k2, fun hv => hv.elim k3 (fun h => ?_)⟩
        cases h
        rw [h1] at k1
        have e : m = m2 := by
          have := Option.some.inj k1
          exact congrArg GCObject.marked this
        rw [← e]
        simpa using hw
    · have h1 := ((hC.2 a).2 x hx).2 hs
      obtain ⟨t1, t2, -⟩ := keepsHeader_tt T hK a x
      have hcl : clearedIn g.heap (some a) = iswhite x.marked := by
        simp [clearedIn, hx, hs]
      rw [hcl]
      unfold iscleared
      simp only [h1, Option.bind_eq_bind, Option.some_bind]
      rw [t1, if_neg hs, t2]
      refine ⟨gi, rfl, hC.1, fun b => ⟨(hC.2 b).1, fun y hy => ⟨?_, ((hC.2 b).2 y hy).2⟩⟩⟩
      intro hsy
      obtain ⟨m2, k1, k2, k3⟩ := ((hC.2 b).2 y hy).1 hsy
      refine ⟨m2, k1, k2, fun hv => hv.elim k3 (fun h => ?_)⟩
      cases h
      rw [hx] at hy
      cases hy
      exact absurd hsy hs

theorem hdr_setnode (x y : GCObject) (N : List Node)
    (k : y = { x with array := y.array, node := y.node }) :
    ({ y with node := N } : GCObject) = { x with array := y.array, node := N } := by
  rw [k]

theorem hdr_setarray (x y : GCObject) (A : List TValue)
    (k : y = { x with array := y.array, node := y.node }) :
    ({ y with array := A } : GCObject) = { x with array := A, node := y.node } := by
  rw [k]

theorem keepsHeader_setnode (T : Addr → GCObject → GCObject) (hK : KeepsHeader T) (h : Addr)
    (N : GCObject → List Node) :
    KeepsHeader (fun a x => if a = h then { T a x with node := N x } else T a x) := by
  intro a x
  show (if a = h then { T a x with node := N x } else T a x) = _
  by_cases e : a = h
  · simp only [if_pos e]
    exact hdr_setnode x (T a x) (N x) (hK a x)
  · simp only [if_neg e]
    exact hK a x

theorem keepsHeader_setarray (T : Addr → GCObject → GCObject) (hK : KeepsHeader T) (h : Addr)
    (A : GCObject → List TValue) :
    KeepsHeader (fun a x => if a = h then { T a x with array := A x } else T a x) := by
  intro a x
  show (if a = h then { T a x with array := A x } else T a x) = _
  by_cases e : a = h
  · simp only [if_pos e]
    exact hdr_setarray x (T a x) (A x) (hK a x)
  · simp only [if_neg e]
    exact hK a x

/-- Writing the table `h` while weak tables are cleared. -/
theorem clearing_set (T : Addr → GCObject → GCObject) (V : Addr → Prop) (g g1 : global_State)
    (h : Addr) (t : GCObject) (y : GCObject) (hC : Clearing T V g g1)
    (ht : g.heap h = some t) (hns : novariant t.tt ≠ LUA_TSTRING)
    (T2 : Addr → GCObject → GCObject) (h1 : T2 h t = y) (h2 : ∀ a x, a ≠ h → T2 a x = T a x) :
    Clearing T2 V g (g1.setobj h y) := by
  refine ⟨?_, ?_⟩
  · show g1.setobj h y = { g with heap := _ }
    unfold global_State.setobj
    rw [hC.1]
  · intro b
    show (g.heap b = none → Heap.set g1.heap h y b = none) ∧ _
    by_cases hb : b = h
    · subst hb
      refine ⟨fun e => (by rw [ht] at e; cases e), ?_⟩
      intro x hx
      rw [ht] at hx
      cases hx
      refine ⟨fun hs => absurd hs hns, fun _ => ?_⟩
      show Heap.set g1.heap b y b = _
      rw [heap_set_same, h1]
    · refine ⟨fun e => (by rw [heap_set_ne _ _ _ _ hb]; exact (hC.2 b).1 e), ?_⟩
      intro x hx
      refine ⟨fun hs => ?_, fun hn => ?_⟩
      · obtain ⟨m, k1, k2, k3⟩ := ((hC.2 b).2 x hx).1 hs
        refine ⟨m, ?_, k2, k3⟩
        show Heap.set g1.heap h y b = _
        rw [heap_set_ne _ _ _ _ hb]
        exact k1
      · show Heap.set g1.heap h y b = _
        rw [heap_set_ne _ _ _ _ hb, h2 b x hb]
        exact ((hC.2 b).2 x hx).2 hn

/-- The node loop of `clearbykeys`: it returns, and clears the nodes `i`
to `i + n` of the table `h`. -/
theorem clearbykeys_nodes_spec (g : global_State) (h : Addr) (t : GCObject)
    (ht : g.heap h = some t) (hns : novariant t.tt ≠ LUA_TSTRING)
    (hlive : ∀ nd, nd ∈ t.node → ∀ a, gckeyN nd = some a → (g.heap a).isSome = true) :
    ∀ (n i : Nat) (gi : global_State) (T : Addr → GCObject → GCObject) (V : Addr → Prop),
    Clearing T V g gi → KeepsHeader T →
    (T h t).node = (t.node.take i).map (fun nd => clearnode (clearedIn g.heap (gckeyN nd)) nd)
      ++ t.node.drop i →
    i + n ≤ t.node.length →
    ∃ g2 T2 V2, clearbykeys_nodes h n i gi = some g2 ∧ Clearing T2 V2 g g2 ∧ KeepsHeader T2 ∧
      (∀ a x, a ≠ h → T2 a x = T a x) ∧
      (T2 h t).node = (t.node.take (i + n)).map
        (fun nd => clearnode (clearedIn g.heap (gckeyN nd)) nd) ++ t.node.drop (i + n) ∧
      (T2 h t).array = (T h t).array ∧ (∀ b, V b → V2 b) ∧
      (∀ k nd a, i ≤ k → k < i + n → t.node.get? k = some nd → gckeyN nd = some a → V2 a) := by
  intro n
  induction n with
  | zero =>
    intro i gi T V hC hK hp _
    exact ⟨gi, T, V, rfl, hC, hK, fun _ _ _ => rfl, hp, rfl, fun _ h => h,
      fun k nd a h1 h2 => absurd h2 (by omega)⟩
  | succ n ih =>
    intro i gi T V hC hK hp hlen
    have hi : i < t.node.length := by omega
    have hnd : t.node.get? i = some (t.node.get ⟨i, hi⟩) := List.get?_eq_get hi
    generalize t.node.get ⟨i, hi⟩ = nd at hnd
    have hgi : gi.heap h = some (T h t) := ((hC.2 h).2 t ht).2 hns
    have hndT : (T h t).node.get? i = some nd := by rw [hp, prog_get, hnd]
    obtain ⟨g1, hic, hC1⟩ := iscleared_clearing T V g gi (gckeyN nd) hC hK
      (fun a ha => hlive nd (List.get?_mem hnd) a ha)
    have hg1 : g1.heap h = some (T h t) := ((hC1.2 h).2 t ht).2 hns
    have hK2 := keepsHeader_setnode T hK h
      (fun x => (T h x).node.set i (clearnode (clearedIn g.heap (gckeyN nd)) nd))
    have hp2 : ((fun a x => if a = h then { T a x with
        node := (T h x).node.set i (clearnode (clearedIn g.heap (gckeyN nd)) nd) }
        else T a x) h t).node =
        (t.node.take (i + 1)).map (fun nd => clearnode (clearedIn g.heap (gckeyN nd)) nd)
          ++ t.node.drop (i + 1) := by
      show ((if h = h then ({ T h t with
        node := (T h t).node.set i (clearnode (clearedIn g.heap (gckeyN nd)) nd) } : GCObject)
        else T h t)).node = _
      rw [if_pos rfl]
      show (T h t).node.set i _ = _
      rw [hp]
      exact prog_set _ t.node i nd hnd
    obtain ⟨g2, T2, V2, r1, r2, r3, r4, r5, r6, r7, r8⟩ := ih (i + 1)
      (g1.setobj h { T h t with
        node := (T h t).node.set i (clearnode (clearedIn g.heap (gckeyN nd)) nd) })
      _ _ (by
        refine clearing_set T _ g g1 h t _ hC1 ht hns _ ?_ ?_
        · exact if_pos rfl
        · intro a x ha
          exact if_neg ha) hK2 hp2 (by omega)
    refine ⟨g2, T2, V2, ?_, r2, r3, ?_, ?_, ?_, ?_, ?_⟩
    · rw [clearbykeys_nodes]
      simp only [hgi, hndT, hic, hg1, Option.bind_eq_bind, Option.some_bind]
      exact r1
    · intro a x ha
      rw [r4 a x ha]
      exact if_neg ha
    · rw [r5, Nat.add_assoc, Nat.add_comm 1 n]
    · rw [r6]
      show ((if h = h then ({ T h t with
        node := (T h t).node.set i (clearnode (clearedIn g.heap (gckeyN nd)) nd) } : GCObject)
        else T h t)).array = _
      rw [if_pos rfl]
    · intro b hb
      exact r7 b (Or.inl hb)
    · intro k nd2 a h1 h2 h3 h4
      by_cases hk : k = i
      · subst hk
        rw [hnd] at h3
        cases h3
        exact r7 a (Or.inr h4)
      · exact r8 k nd2 a (by omega) (by omega) h3 h4

theorem isGSeg_unique (h : Heap) (f : Option Addr) : ∀ (A B : List Addr) (p : Option Addr),
    IsGSeg h p A f → IsGSeg h p B f → (∀ b, b ∈ A → some b ≠ f) → (∀ b, b ∈ B → some b ≠ f) →
    A = B := by
  intro A
  induction A with
  | nil =>
    intro B p hA hB _ fB
    have e : p = f := hA
    cases B with
    | nil => rfl
    | cons c B2 =>
      obtain ⟨e2, -⟩ := hB
      exact absurd (e2.symm.trans e) (fB c (List.mem_cons_self _ _))
  | cons a A2 ih =>
    intro B p hA hB fA fB
    obtain ⟨e1, o, ho, hA2⟩ := hA
    cases B with
    | nil =>
      have e : p = f := hB
      exact absurd (e1.symm.trans e) (fA a (List.mem_cons_self _ _))
    | cons c B2 =>
      obtain ⟨e2, o2, ho2, hB2⟩ := hB
      have e3 : a = c := Option.some.inj (e1.symm.trans e2)
      subst e3
      rw [ho] at ho2
      cases ho2
      rw [ih B2 _ hA2 hB2 (fun b hb => fA b (List.mem_cons_of_mem _ hb))
        (fun b hb => fB b (List.mem_cons_of_mem _ hb))]

theorem isGSeg_suffix (h : Heap) (f : Option Addr) : ∀ (L : List Addr) (p : Option Addr)
    (b : Addr), IsGSeg h p L f → b ∈ L →
    ∃ L1 L2 o, L = L1 ++ b :: L2 ∧ h b = some o ∧ IsGSeg h o.gclist L2 f := by
  intro L
  induction L with
  | nil => intro p b _ hb; cases hb
  | cons a L2 ih =>
    intro p b hL hb
    obtain ⟨-, o, ho, hL2⟩ := hL
    rcases List.mem_cons.1 hb with e | hb2
    · subst e
      exact ⟨[], L2, o, rfl, ho, hL2⟩
    · obtain ⟨L1, L3, o3, e, ho3, h3⟩ := ih _ b hL2 hb2
      exact ⟨a :: L1, L3, o3, by rw [e]; rfl, ho3, h3⟩

/-- A segment of a gray list that does not pass its end has no repetition. -/
theorem isGSeg_nodup (h : Heap) (f : Option Addr) : ∀ (L : List Addr) (p : Option Addr),
    IsGSeg h p L f → (∀ b, b ∈ L → some b ≠ f) → L.Nodup := by
  intro L
  induction L with
  | nil => intro p _ _; exact List.nodup_nil
  | cons a L2 ih =>
    intro p hL hf
    obtain ⟨-, o, ho, hL2⟩ := hL
    have hf2 : ∀ b, b ∈ L2 → some b ≠ f := fun b hb => hf b (List.mem_cons_of_mem _ hb)
    refine List.nodup_cons.2 ⟨?_, ih _ hL2 hf2⟩
    intro ha
    obtain ⟨L1, L3, o3, e, ho3, h3⟩ := isGSeg_suffix h f L2 _ a hL2 ha
    rw [ho] at ho3
    cases ho3
    have hf3 : ∀ b, b ∈ L3 → some b ≠ f := by
      intro b hb
      refine hf2 b ?_
      rw [e]
      exact List.mem_append_right _ (List.mem_cons_of_mem _ hb)
    have e2 := isGSeg_unique h f L2 L3 _ hL2 h3 hf2 hf3
    have e3 := congrArg List.length e
    rw [e2] at e3
    simp only [List.length_append, List.length_cons] at e3
    omega

theorem keyscleared_of (g : global_State) (t y : GCObject)
    (k : y = { t with array := y.array, node := y.node }) (ha : y.array = t.array)
    (hn : y.node = t.node.map (fun nd => clearnode (clearedIn g.heap (gckeyN nd)) nd)) :
    y = keyscleared g.heap t := by
  rw [k, ha, hn]
  rfl

/-- The loop of `clearbykeys` over the tables `L` of a gray list: it
returns, and each table is left as `keyscleared` says. -/
theorem clearbykeys_list (g : global_State) : ∀ (L : List Addr) (fuel : Nat)
    (gi : global_State) (T : Addr → GCObject → GCObject) (V : Addr → Prop) (l : Option Addr),
    Clearing T V g gi → KeepsHeader T → IsGSeg g.heap l L none → L.Nodup →
    (∀ h, h ∈ L → ∀ t, g.heap h = some t → T h t = t) →
    (∀ h, h ∈ L → ∀ t, g.heap h = some t → novariant t.tt ≠ LUA_TSTRING ∧
      ∀ nd, nd ∈ t.node → ∀ a, gckeyN nd = some a → (g.heap a).isSome = true) →
    L.length < fuel →
    ∃ g2 T2 V2, clearbykeys fuel gi l = some g2 ∧ Clearing T2 V2 g g2 ∧ KeepsHeader T2 ∧
      (∀ a x, a ∉ L → T2 a x = T a x) ∧
      (∀ h, h ∈ L → ∀ t, g.heap h = some t → T2 h t = keyscleared g.heap t) ∧
      (∀ b, V b → V2 b) ∧
      (∀ h, h ∈ L → ∀ t nd a, g.heap h = some t → nd ∈ t.node → gckeyN nd = some a →
        V2 a) := by
  intro L
  induction L with
  | nil =>
    intro fuel gi T V l hC hK hL _ _ _ hf
    obtain ⟨n, rfl⟩ : ∃ n, fuel = n + 1 := ⟨fuel - 1, by omega⟩
    have e : l = none := hL
    subst e
    exact ⟨gi, T, V, rfl, hC, hK, fun _ _ _ => rfl, fun h hh => (by cases hh), fun _ h => h,
      fun h hh => (by cases hh)⟩
  | cons h L2 ih =>
    intro fuel gi T V l hC hK hL hnd hun htab hf
    obtain ⟨n, rfl⟩ : ∃ n, fuel = n + 1 :=
      ⟨fuel - 1, by simp only [List.length_cons] at hf; omega⟩
    obtain ⟨e, t, ht, hL2⟩ := hL
    subst e
    obtain ⟨hns, hlive⟩ := htab h (List.mem_cons_self _ _) t ht
    have hTt : T h t = t := hun h (List.mem_cons_self _ _) t ht
    have hgi : gi.heap h = some t := by
      rw [← hTt]
      exact ((hC.2 h).2 t ht).2 hns
    obtain ⟨g1, T1, V1, r1, r2, r3, r4, r5, r6, r7, r8⟩ :=
      clearbykeys_nodes_spec g h t ht hns hlive t.node.length 0 gi T V hC hK
        (by rw [hTt]; simp) (by omega)
    have hk1 : T1 h t = keyscleared g.heap t := by
      refine keyscleared_of g t _ (r3 h t) (by rw [r6, hTt]) ?_
      rw [r5, Nat.zero_add]
      exact prog_all _ _ _ (Nat.le_refl _)
    have hg1 : g1.heap h = some (keyscleared g.heap t) := by
      rw [← hk1]
      exact ((r2.2 h).2 t ht).2 hns
    have hh2 : h ∉ L2 := (List.nodup_cons.1 hnd).1
    obtain ⟨g2, T2, V2, s1, s2, s3, s4, s5, s6, s7⟩ := ih n g1 T1 V1 t.gclist r2 r3 hL2
      (List.nodup_cons.1 hnd).2
      (fun h2 hm t2 ht2 => by
        rw [r4 h2 t2 (fun e => hh2 (e ▸ hm))]
        exact hun h2 (List.mem_cons_of_mem _ hm) t2 ht2)
      (fun h2 hm => htab h2 (List.mem_cons_of_mem _ hm))
      (by simp only [List.length_cons] at hf; omega)
    refine ⟨g2, T2, V2, ?_, s2, s3, ?_, ?_, fun b hb => s6 b (r7 b hb), ?_⟩
    · rw [clearbykeys]
      simp only [hgi, r1, hg1, Option.bind_eq_bind, Option.some_bind]
      exact s1
    · intro a x ha
      have ha1 : a ≠ h := fun e => ha (e ▸ List.mem_cons_self _ _)
      have ha2 : a ∉ L2 := fun e => ha (List.mem_cons_of_mem _ e)
      rw [s4 a x ha2, r4 a x ha1]
    · intro h2 hm t2 ht2
      rcases List.mem_cons.1 hm with e | hm2
      · subst e
        rw [ht] at ht2
        cases ht2
        rw [s4 h2 t hh2, hk1]
      · exact s5 h2 hm2 t2 ht2
    · intro h2 hm t2 nd a ht2 hnd2 hka
      rcases List.mem_cons.1 hm with e | hm2
      · subst e
        rw [ht] at ht2
        cases ht2
        obtain ⟨k, hk⟩ := List.get?_of_mem hnd2
        have hklt : k < t.node.length := by
          rcases Nat.lt_or_ge k t.node.length with h1 | h1
          · exact h1
          · rw [List.get?_eq_none.2 h1] at hk
            cases hk
        exact s6 a (r8 k nd a (Nat.zero_le _) (by omega) hk hka)
      · exact s7 h2 hm2 t2 nd a ht2 hnd2 hka

theorem clearnode_spec (c : Bool) (nd : Node) :
    (c = true → (clearnode c nd).i_val = .empty ∧
      ∀ a, gckeyN nd = some a → (clearnode c nd).key = .dead a) ∧
    (c = false → (clearnode c nd).i_val = nd.i_val) ∧
    (isempty (clearnode c nd).i_val = true → keyiscollectable (clearnode c nd) = false) := by
  obtain ⟨v, k⟩ := nd
  cases c <;> cases v <;> cases k <;>
    simp [clearnode, Node.setempty, clearkey, setdeadkey, keyiscollectable, isempty, gckeyN]

theorem clearedIn_true (h : Heap) (a : Addr) (x : GCObject) (hx : h a = some x)
    (hs : novariant x.tt ≠ LUA_TSTRING) (hw : iswhite x.marked = true) :
    clearedIn h (some a) = true := by
  simp [clearedIn, hx, hs, hw]

theorem clearedIn_false (h : Heap) (o : Option Addr)
    (hk : o = none ∨ ∃ a x, o = some a ∧ h a = some x ∧
      (novariant x.tt = LUA_TSTRING ∨ iswhite x.marked = false)) :
    clearedIn h o = false := by
  rcases hk with rfl | ⟨a, x, rfl, hx, hs | hw⟩
  · rfl
  · simp [clearedIn, hx, hs]
  · simp [clearedIn, hx, hw]

/-- The state after the clearing of weak tables, for the objects that are
not tables of the list: strings change at most their mark, the visited ones
are not white, and the other objects are the same. -/
theorem clearing_frame (T : Addr → GCObject → GCObject) (V : Addr → Prop)
    (g g2 : global_State) (hC : Clearing T V g g2) :
    g2 = { g with heap := g2.heap } ∧
    (∀ a, g.heap a = none → g2.heap a = none) ∧
    (∀ a x, g.heap a = some x → novariant x.tt = LUA_TSTRING →
      ∃ x2, g2.heap a = some x2 ∧ x2 = { x with marked := x2.marked } ∧
        (iswhite x.marked = false → x2.marked = x.marked) ∧
        (V a → iswhite x2.marked = false)) := by
  refine ⟨hC.1, fun a => (hC.2 a).1, ?_⟩
  intro a x hx hs
  obtain ⟨m, h1, h2, h3⟩ := ((hC.2 a).2 x hx).1 hs
  exact ⟨_, h1, rfl, h2, h3⟩

/-- C26: `clearbykeys` on the list `l` of the tables `L`, whose collectable
keys are live objects. With enough fuel the call returns. In every table of
the list the array part and everything but the nodes is as before, and node
by node: an entry whose key was a white collectable object that is not a
string has an empty value and a dead key; an entry whose key is not
collectable, is a string or is a marked object keeps its value; and no entry
with an empty value keeps a collectable key. Only the memory changes: an
object that is neither a string nor a table of the list is the same, a
string changes at most its mark, and a string that is a key is not white
afterwards. -/
theorem clearbykeys_spec (fuel : Nat) (g : global_State) (l : Option Addr) (L : List Addr)
    (hL : IsGSeg g.heap l L none)
    (htab : ∀ h, h ∈ L → ∀ t, g.heap h = some t → novariant t.tt ≠ LUA_TSTRING ∧
      ∀ nd, nd ∈ t.node → ∀ a, gckeyN nd = some a → (g.heap a).isSome = true)
    (hf : L.length < fuel) :
    ∃ g2, clearbykeys fuel g l = some g2 ∧ g2 = { g with heap := g2.heap } ∧
      (∀ h, h ∈ L → ∀ t, g.heap h = some t →
        ∃ t2, g2.heap h = some t2 ∧ t2 = { t with node := t2.node } ∧
          t2.array = t.array ∧
          ∀ i nd, t.node.get? i = some nd → ∃ nd2, t2.node.get? i = some nd2 ∧
            (∀ a x, gckeyN nd = some a → g.heap a = some x →
              novariant x.tt ≠ LUA_TSTRING → iswhite x.marked = true →
              nd2.i_val = .empty ∧ nd2.key = .dead a) ∧
            ((gckeyN nd = none ∨ ∃ a x, gckeyN nd = some a ∧ g.heap a = some x ∧
                (novariant x.tt = LUA_TSTRING ∨ iswhite x.marked = false)) →
              nd2.i_val = nd.i_val) ∧
            (isempty nd2.i_val = true → keyiscollectable nd2 = false)) ∧
      (∀ a x, a ∉ L → g.heap a = some x → novariant x.tt ≠ LUA_TSTRING →
        g2.heap a = some x) ∧
      (∀ a, g.heap a = none → g2.heap a = none) ∧
      (∀ a x, g.heap a = some x → novariant x.tt = LUA_TSTRING →
        ∃ x2, g2.heap a = some x2 ∧ x2 = { x with marked := x2.marked } ∧
          (iswhite x.marked = false → x2.marked = x.marked) ∧
          ((∃ h t nd, h ∈ L ∧ g.heap h = some t ∧ nd ∈ t.node ∧ gckeyN nd = some a) →
            iswhite x2.marked = false)) := by
  have hnd := isGSeg_nodup g.heap none L l hL (fun b _ e => by cases e)
  obtain ⟨g2, T2, V2, r1, r2, r3, r4, r5, r6, r7⟩ := clearbykeys_list g L fuel g
    (fun _ x => x) (fun _ => False) l (clearing_refl g) keepsHeader_id hL hnd
    (fun _ _ _ _ => rfl) htab hf
  obtain ⟨f1, f2, f3⟩ := clearing_frame T2 V2 g g2 r2
  refine ⟨g2, r1, f1, ?_, ?_, f2, ?_⟩
  · intro h hh t ht
    have hns := (htab h hh t ht).1
    have hg2 : g2.heap h = some (keyscleared g.heap t) := by
      rw [← r5 h hh t ht]
      exact ((r2.2 h).2 t ht).2 hns
    refine ⟨_, hg2, rfl, rfl, ?_⟩
    intro i nd hi
    refine ⟨clearnode (clearedIn g.heap (gckeyN nd)) nd, ?_, ?_, ?_, ?_⟩
    · show (t.node.map _).get? i = _
      rw [List.get?_eq_getElem?, List.getElem?_map, ← List.get?_eq_getElem?, hi]
      rfl
    · intro a x hk hx hs hw
      have hc : clearedIn g.heap (gckeyN nd) = true := by
        rw [hk]
        exact clearedIn_true g.heap a x hx hs hw
      obtain ⟨c1, -, -⟩ := clearnode_spec (clearedIn g.heap (gckeyN nd)) nd
      exact ⟨(c1 hc).1, (c1 hc).2 a hk⟩
    · intro hk
      exact (clearnode_spec _ nd).2.1 (clearedIn_false g.heap _ hk)
    · exact (clearnode_spec _ nd).2.2
  · intro a x ha hx hs
    rw [← r4 a x ha]
    exact ((r2.2 a).2 x hx).2 hs
  · intro a x hx hs
    obtain ⟨x2, k1, k2, k3, k4⟩ := f3 a x hx hs
    refine ⟨x2, k1, k2, k3, ?_⟩
    rintro ⟨h, t, nd, hh, ht, hn, hk⟩
    exact k4 (r7 h hh t nd a ht hn hk)

theorem exWeak_seg : IsGSeg exWeak.heap (some 1) [1] none := ⟨rfl, _, rfl, rfl⟩

theorem exWeak_keys : ∀ h, h ∈ [1] → ∀ t, exWeak.heap h = some t →
    novariant t.tt ≠ LUA_TSTRING ∧
    ∀ nd, nd ∈ t.node → ∀ a, gckeyN nd = some a → (exWeak.heap a).isSome = true := by
  intro h hh t ht
  simp only [List.mem_singleton] at hh
  subst hh
  simp only [exWeak, exWeakHeap] at ht
  cases ht
  refine ⟨by decide, ?_⟩
  intro nd hnd a ha
  simp only [exObj, GCObject.blank, List.mem_cons, List.mem_singleton, List.not_mem_nil,
    or_false] at hnd
  rcases hnd with rfl | rfl | rfl | rfl <;> cases ha <;> rfl

/-- Witness of C26: `clearbykeys` on the weak table 1 of `exWeak` empties the
entry whose key is the white table 2 and makes its key dead, and keeps the
value of the entry whose key is the string 3. -/
theorem clearbykeys_spec_witness :
    ∃ g2 t2, clearbykeys 5 exWeak (some 1) = some g2 ∧ g2.heap 1 = some t2 ∧
      t2.array = [.gc .LUA_VTABLE 2, .gc .LUA_VSHRSTR 3, .prim 5] ∧
      (∃ nd2, t2.node.get? 0 = some nd2 ∧ nd2.i_val = .empty ∧ nd2.key = .dead 2) ∧
      (∃ nd2, t2.node.get? 2 = some nd2 ∧ nd2.i_val = .gc .LUA_VSHRSTR 3) := by
  obtain ⟨g2, h1, -, h2, -⟩ := clearbykeys_spec 5 exWeak (some 1) [1] exWeak_seg exWeak_keys
    (by decide)
  obtain ⟨t2, k1, -, k2, k3⟩ := h2 1 (List.mem_singleton.2 rfl) _ rfl
  obtain ⟨n0, a1, a2, -, -⟩ := k3 0 _ rfl
  obtain ⟨n2, b1, -, b2, -⟩ := k3 2 _ rfl
  refine ⟨g2, t2, h1, k1, k2, ⟨n0, a1, a2 2 _ rfl rfl (by decide) (by decide)⟩, ⟨n2, b1, ?_⟩⟩
  exact b2 (Or.inr ⟨3, _, rfl, rfl, Or.inl (by decide)⟩)

/-- The array loop of `clearbyvalues`: it returns, and clears the slots `i`
to `i + n` of the table `h`. -/
theorem clearbyvalues_array_spec (g : global_State) (h : Addr) (t : GCObject)
    (ht : g.heap h = some t) (hns : novariant t.tt ≠ LUA_TSTRING)
    (hlive : ∀ v, v ∈ t.array → ∀ a, gcvalueN v = some a → (g.heap a).isSome = true) :
    ∀ (n i : Nat) (gi : global_State) (T : Addr → GCObject → GCObject) (V : Addr → Prop),
    Clearing T V g gi → KeepsHeader T →
    (T h t).array = (t.array.take i).map (fun v => clearslot (clearedIn g.heap (gcvalueN v)) v)
      ++ t.array.drop i →
    i + n ≤ t.array.length →
    ∃ g2 T2 V2, clearbyvalues_array h n i gi = some g2 ∧ Clearing T2 V2 g g2 ∧
      KeepsHeader T2 ∧ (∀ a x, a ≠ h → T2 a x = T a x) ∧
      (T2 h t).array = (t.array.take (i + n)).map
        (fun v => clearslot (clearedIn g.heap (gcvalueN v)) v) ++ t.array.drop (i + n) ∧
      (T2 h t).node = (T h t).node ∧ (∀ b, V b → V2 b) ∧
      (∀ k v a, i ≤ k → k < i + n → t.array.get? k = some v → gcvalueN v = some a → V2 a) := by
  intro n
  induction n with
  | zero =>
    intro i gi T V hC hK hp _
    exact ⟨gi, T, V, rfl, hC, hK, fun _ _ _ => rfl, hp, rfl, fun _ h => h,
      fun k nd a h1 h2 => absurd h2 (by omega)⟩
  | succ n ih =>
    intro i gi T V hC hK hp hlen
    have hi : i < t.array.length := by omega
    have hnd : t.array.get? i = some (t.array.get ⟨i, hi⟩) := List.get?_eq_get hi
    generalize t.array.get ⟨i, hi⟩ = v at hnd
    have hgi : gi.heap h = some (T h t) := ((hC.2 h).2 t ht).2 hns
    have hndT : (T h t).array.get? i = some v := by rw [hp, prog_get, hnd]
    obtain ⟨g1, hic, hC1⟩ := iscleared_clearing T V g gi (gcvalueN v) hC hK
      (fun a ha => hlive v (List.get?_mem hnd) a ha)
    have hg1 : g1.heap h = some (T h t) := ((hC1.2 h).2 t ht).2 hns
    have fin : ∀ g3 T3, Clearing T3 (fun b => V b ∨ gcvalueN v = some b) g g3 →
        KeepsHeader T3 → (∀ a x, a ≠ h → T3 a x = T a x) →
        (T3 h t).array = (t.array.take (i + 1)).map
          (fun v => clearslot (clearedIn g.heap (gcvalueN v)) v) ++ t.array.drop (i + 1) →
        (T3 h t).node = (T h t).node →
        (if clearedIn g.heap (gcvalueN v) = true then
          g1.setobj h { T h t with array := (T h t).array.set i .empty } else g1) = g3 →
        ∃ g2 T2 V2, clearbyvalues_array h (n + 1) i gi = some g2 ∧ Clearing T2 V2 g g2 ∧
          KeepsHeader T2 ∧ (∀ a x, a ≠ h → T2 a x = T a x) ∧
          (T2 h t).array = (t.array.take (i + (n + 1))).map
            (fun v => clearslot (clearedIn g.heap (gcvalueN v)) v)
            ++ t.array.drop (i + (n + 1)) ∧
          (T2 h t).node = (T h t).node ∧ (∀ b, V b → V2 b) ∧
          (∀ k v a, i ≤ k → k < i + (n + 1) → t.array.get? k = some v →
            gcvalueN v = some a → V2 a) := by
      intro g3 T3 hC3 hK3 hT3 hp3 hn3 hg3
      obtain ⟨g2, T2, V2, r1, r2, r3, r4, r5, r6, r7, r8⟩ := ih (i + 1) g3 T3 _ hC3 hK3 hp3
        (by omega)
      refine ⟨g2, T2, V2, ?_, r2, r3, ?_, ?_, ?_, ?_, ?_⟩
      · rw [clearbyvalues_array]
        simp only [hgi, hndT, hic, hg1, Option.bind_eq_bind, Option.some_bind]
        rw [hg3]
        exact r1
      · intro a x ha
        rw [r4 a x ha, hT3 a x ha]
      · rw [r5, Nat.add_assoc, Nat.add_comm 1 n]
      · rw [r6, hn3]
      · intro b hb
        exact r7 b (Or.inl hb)
      · intro k v2 a h1 h2 h3 h4
        by_cases hk : k = i
        · subst hk
          rw [hnd] at h3
          cases h3
          exact r7 a (Or.inr h4)
        · exact r8 k v2 a (by omega) (by omega) h3 h4
    by_cases hc : clearedIn g.heap (gcvalueN v) = true
    · refine fin (g1.setobj h { T h t with array := (T h t).array.set i .empty })
        (fun a x => if a = h then { T a x with array := (T h x).array.set i .empty }
          else T a x) ?_ (keepsHeader_setarray T hK h _) (fun a x ha => if_neg ha) ?_ ?_
        (if_pos hc)
      · exact clearing_set T _ g g1 h t _ hC1 ht hns _ (if_pos rfl) (fun a x ha => if_neg ha)
      · show ((if h = h then ({ T h t with array := (T h t).array.set i .empty } : GCObject)
          else T h t)).array = _
        rw [if_pos rfl]
        show (T h t).array.set i .empty = _
        rw [hp]
        have e := prog_set (fun v => clearslot (clearedIn g.heap (gcvalueN v)) v) t.array i v hnd
        simp only [clearslot, hc, if_true] at e
        exact e
      · show ((if h = h then ({ T h t with array := (T h t).array.set i .empty } : GCObject)
          else T h t)).node = _
        rw [if_pos rfl]
    · refine fin g1 T hC1 hK (fun _ _ _ => rfl) ?_ rfl (if_neg hc)
      rw [hp]
      refine (prog_set_same _ t.array i v hnd ?_).symm
      simp only [clearslot, hc]
      rfl

/-- The node loop of `clearbyvalues`: it returns, and clears the nodes `i`
to `i + n` of the table `h`. -/
theorem clearbyvalues_nodes_spec (g : global_State) (h : Addr) (t : GCObject)
    (ht : g.heap h = some t) (hns : novariant t.tt ≠ LUA_TSTRING)
    (hlive : ∀ nd, nd ∈ t.node → ∀ a, gcvalueN nd.i_val = some a → (g.heap a).isSome = true) :
    ∀ (n i : Nat) (gi : global_State) (T : Addr → GCObject → GCObject) (V : Addr → Prop),
    Clearing T V g gi → KeepsHeader T →
    (T h t).node = (t.node.take i).map (fun nd => clearnode (clearedIn g.heap (gcvalueN nd.i_val)) nd)
      ++ t.node.drop i →
    i + n ≤ t.node.length →
    ∃ g2 T2 V2, clearbyvalues_nodes h n i gi = some g2 ∧ Clearing T2 V2 g g2 ∧ KeepsHeader T2 ∧
      (∀ a x, a ≠ h → T2 a x = T a x) ∧
      (T2 h t).node = (t.node.take (i + n)).map
        (fun nd => clearnode (clearedIn g.heap (gcvalueN nd.i_val)) nd) ++ t.node.drop (i + n) ∧
      (T2 h t).array = (T h t).array ∧ (∀ b, V b → V2 b) ∧
      (∀ k nd a, i ≤ k → k < i + n → t.node.get? k = some nd → gcvalueN nd.i_val = some a → V2 a) := by
  intro n
  induction n with
  | zero =>
    intro i gi T V hC hK hp _
    exact ⟨gi, T, V, rfl, hC, hK, fun _ _ _ => rfl, hp, rfl, fun _ h => h,
      fun k nd a h1 h2 => absurd h2 (by omega)⟩
  | succ n ih =>
    intro i gi T V hC hK hp hlen
    have hi : i < t.node.length := by omega
    have hnd : t.node.get? i = some (t.node.get ⟨i, hi⟩) := List.get?_eq_get hi
    generalize t.node.get ⟨i, hi⟩ = nd at hnd
    have hgi : gi.heap h = some (T h t) := ((hC.2 h).2 t ht).2 hns
    have hndT : (T h t).node.get? i = some nd := by rw [hp, prog_get, hnd]
    obtain ⟨g1, hic, hC1⟩ := iscleared_clearing T V g gi (gcvalueN nd.i_val) hC hK
      (fun a ha => hlive nd (List.get?_mem hnd) a ha)
    have hg1 : g1.heap h = some (T h t) := ((hC1.2 h).2 t ht).2 hns
    have hK2 := keepsHeader_setnode T hK h
      (fun x => (T h x).node.set i (clearnode (clearedIn g.heap (gcvalueN nd.i_val)) nd))
    have hp2 : ((fun a x => if a = h then { T a x with
        node := (T h x).node.set i (clearnode (clearedIn g.heap (gcvalueN nd.i_val)) nd) }
        else T a x) h t).node =
        (t.node.take (i + 1)).map (fun nd => clearnode (clearedIn g.heap (gcvalueN nd.i_val)) nd)
          ++ t.node.drop (i + 1) := by
      show ((if h = h then ({ T h t with
        node := (T h t).node.set i (clearnode (clearedIn g.heap (gcvalueN nd.i_val)) nd) } : GCObject)
        else T h t)).node = _
      rw [if_pos rfl]
      show (T h t).node.set i _ = _
      rw [hp]
      exact prog_set _ t.node i nd hnd
    obtain ⟨g2, T2, V2, r1, r2, r3, r4, r5, r6, r7, r8⟩ := ih (i + 1)
      (g1.setobj h { T h t with
        node := (T h t).node.set i (clearnode (clearedIn g.heap (gcvalueN nd.i_val)) nd) })
      _ _ (by
        refine clearing_set T _ g g1 h t _ hC1 ht hns _ ?_ ?_
        · exact if_pos rfl
        · intro a x ha
          exact if_neg ha) hK2 hp2 (by omega)
    refine ⟨g2, T2, V2, ?_, r2, r3, ?_, ?_, ?_, ?_, ?_⟩
    · rw [clearbyvalues_nodes]
      simp only [hgi, hndT, hic, hg1, Option.bind_eq_bind, Option.some_bind]
      exact r1
    · intro a x ha
      rw [r4 a x ha]
      exact if_neg ha
    · rw [r5, Nat.add_assoc, Nat.add_comm 1 n]
    · rw [r6]
      show ((if h = h then ({ T h t with
        node := (T h t).node.set i (clearnode (clearedIn g.heap (gcvalueN nd.i_val)) nd) } : GCObject)
        else T h t)).array = _
      rw [if_pos rfl]
    · intro b hb
      exact r7 b (Or.inl hb)
    · intro k nd2 a h1 h2 h3 h4
      by_cases hk : k = i
      · subst hk
        rw [hnd] at h3
        cases h3
        exact r7 a (Or.inr h4)
      · exact r8 k nd2 a (by omega) (by omega) h3 h4

theorem valuescleared_of (g : global_State) (t y : GCObject)
    (k : y = { t with array := y.array, node := y.node })
    (ha : y.array = t.array.map (fun v => clearslot (clearedIn g.heap (gcvalueN v)) v))
    (hn : y.node = t.node.map (fun nd => clearnode (clearedIn g.heap (gcvalueN nd.i_val)) nd)) :
    y = valuescleared g.heap t := by
  rw [k, ha, hn]
  rfl

/-- The loop of `clearbyvalues` over the tables `L` of a gray list up to
`f`: it returns, and each table is left as `valuescleared` says. -/
theorem clearbyvalues_list (g : global_State) (f : Option Addr) : ∀ (L : List Addr)
    (fuel : Nat) (gi : global_State) (T : Addr → GCObject → GCObject) (V : Addr → Prop)
    (l : Option Addr),
    Clearing T V g gi → KeepsHeader T → IsGSeg g.heap l L f → (∀ b, b ∈ L → some b ≠ f) →
    L.Nodup → (∀ h, h ∈ L → ∀ t, g.heap h = some t → T h t = t) →
    (∀ h, h ∈ L → ∀ t, g.heap h = some t → novariant t.tt ≠ LUA_TSTRING ∧
      (∀ v, v ∈ t.array → ∀ a, gcvalueN v = some a → (g.heap a).isSome = true) ∧
      ∀ nd, nd ∈ t.node → ∀ a, gcvalueN nd.i_val = some a → (g.heap a).isSome = true) →
    L.length < fuel →
    ∃ g2 T2 V2, clearbyvalues fuel gi l f = some g2 ∧ Clearing T2 V2 g g2 ∧ KeepsHeader T2 ∧
      (∀ a x, a ∉ L → T2 a x = T a x) ∧
      (∀ h, h ∈ L → ∀ t, g.heap h = some t → T2 h t = valuescleared g.heap t) ∧
      (∀ b, V b → V2 b) ∧
      (∀ h, h ∈ L → ∀ t a, g.heap h = some t →
        ((∃ v, v ∈ t.array ∧ gcvalueN v = some a) ∨
          (∃ nd, nd ∈ t.node ∧ gcvalueN nd.i_val = some a)) → V2 a) := by
  intro L
  induction L with
  | nil =>
    intro fuel gi T V l hC hK hL _ _ _ _ hf
    obtain ⟨n, rfl⟩ : ∃ n, fuel = n + 1 := ⟨fuel - 1, by omega⟩
    have e : l = f := hL
    refine ⟨gi, T, V, ?_, hC, hK, fun _ _ _ => rfl, fun h hh => (by cases hh), fun _ h => h,
      fun h hh => (by cases hh)⟩
    rw [clearbyvalues, if_pos e]
  | cons h L2 ih =>
    intro fuel gi T V l hC hK hL hfl hnd hun htab hf
    obtain ⟨n, rfl⟩ : ∃ n, fuel = n + 1 :=
      ⟨fuel - 1, by simp only [List.length_cons] at hf; omega⟩
    obtain ⟨e, t, ht, hL2⟩ := hL
    subst e
    obtain ⟨hns, hlivea, hliven⟩ := htab h (List.mem_cons_self _ _) t ht
    have hTt : T h t = t := hun h (List.mem_cons_self _ _) t ht
    have hgi : gi.heap h = some t := by
      rw [← hTt]
      exact ((hC.2 h).2 t ht).2 hns
    obtain ⟨g1, T1, V1, r1, r2, r3, r4, r5, r6, r7, r8⟩ :=
      clearbyvalues_array_spec g h t ht hns hlivea t.array.length 0 gi T V hC hK
        (by rw [hTt]; simp) (by omega)
    obtain ⟨g2, T2, V2, q1, q2, q3, q4, q5, q6, q7, q8⟩ :=
      clearbyvalues_nodes_spec g h t ht hns hliven t.node.length 0 g1 T1 V1 r2 r3
        (by rw [r6, hTt]; simp) (by omega)
    have hk1 : T2 h t = valuescleared g.heap t := by
      refine valuescleared_of g t _ (q3 h t) ?_ ?_
      · rw [q6, r5, Nat.zero_add]
        exact prog_all _ _ _ (Nat.le_refl _)
      · rw [q5, Nat.zero_add]
        exact prog_all _ _ _ (Nat.le_refl _)
    have hg2 : g2.heap h = some (valuescleared g.heap t) := by
      rw [← hk1]
      exact ((q2.2 h).2 t ht).2 hns
    have hh2 : h ∉ L2 := (List.nodup_cons.1 hnd).1
    obtain ⟨g3, T3, V3, s1, s2, s3, s4, s5, s6, s7⟩ := ih n g2 T2 V2 t.gclist q2 q3 hL2
      (fun b hb => hfl b (List.mem_cons_of_mem _ hb)) (List.nodup_cons.1 hnd).2
      (fun h2 hm t2 ht2 => by
        rw [q4 h2 t2 (fun e => hh2 (e ▸ hm)), r4 h2 t2 (fun e => hh2 (e ▸ hm))]
        exact hun h2 (List.mem_cons_of_mem _ hm) t2 ht2)
      (fun h2 hm => htab h2 (List.mem_cons_of_mem _ hm))
      (by simp only [List.length_cons] at hf; omega)
    refine ⟨g3, T3, V3, ?_, s2, s3, ?_, ?_, fun b hb => s6 b (q7 b (r7 b hb)), ?_⟩
    · rw [clearbyvalues, if_neg (hfl h (List.mem_cons_self _ _))]
      simp only [hgi, r1, q1, hg2, Option.bind_eq_bind, Option.some_bind]
      exact s1
    · intro a x ha
      have ha1 : a ≠ h := fun e => ha (e ▸ List.mem_cons_self _ _)
      have ha2 : a ∉ L2 := fun e => ha (List.mem_cons_of_mem _ e)
      rw [s4 a x ha2, q4 a x ha1, r4 a x ha1]
    · intro h2 hm t2 ht2
      rcases List.mem_cons.1 hm with e | hm2
      · subst e
        rw [ht] at ht2
        cases ht2
        rw [s4 h2 t hh2, hk1]
      · exact s5 h2 hm2 t2 ht2
    · intro h2 hm t2 a ht2 hva
      rcases List.mem_cons.1 hm with e | hm2
      · subst e
        rw [ht] at ht2
        cases ht2
        rcases hva with ⟨v, hv, hka⟩ | ⟨nd, hnd2, hka⟩
        · obtain ⟨k, hk⟩ := List.get?_of_mem hv
          have hklt : k < t.array.length := by
            rcases Nat.lt_or_ge k t.array.length with h1 | h1
            · exact h1
            · rw [List.get?_eq_none.2 h1] at hk
              cases hk
          exact s6 a (q7 a (r8 k v a (Nat.zero_le _) (by omega) hk hka))
        · obtain ⟨k, hk⟩ := List.get?_of_mem hnd2
          have hklt : k < t.node.length := by
            rcases Nat.lt_or_ge k t.node.length with h1 | h1
            · exact h1
            · rw [List.get?_eq_none.2 h1] at hk
              cases hk
          exact s6 a (q8 k nd a (Nat.zero_le _) (by omega) hk hka)
      · exact s7 h2 hm2 t2 a ht2 hva

theorem clearedIn_clearing (T : Addr → GCObject → GCObject) (V : Addr → Prop)
    (g g2 : global_State) (hC : Clearing T V g g2) (hK : KeepsHeader T) (o : Option Addr) :
    clearedIn g2.heap o = clearedIn g.heap o := by
  cases o with
  | none => rfl
  | some a =>
    cases hx : g.heap a with
    | none => simp [clearedIn, hx, (hC.2 a).1 hx]
    | some x =>
      by_cases hs : novariant x.tt = LUA_TSTRING
      · obtain ⟨m, h1, -⟩ := ((hC.2 a).2 x hx).1 hs
        simp [clearedIn, hx, h1, hs]
      · have h1 := ((hC.2 a).2 x hx).2 hs
        obtain ⟨t1, t2, -⟩ := keepsHeader_tt T hK a x
        simp [clearedIn, hx, h1, t1, t2]

theorem clearedIn_false_elim (h : Heap) (a : Addr) (x : GCObject) (hx : h a = some x)
    (hc : clearedIn h (some a) = false) :
    novariant x.tt = LUA_TSTRING ∨ iswhite x.marked = false := by
  simp only [clearedIn, hx, Bool.and_eq_false_iff, decide_eq_false_iff_not, not_not] at hc
  exact hc

theorem clearslot_after (h : Heap) (v : TValue) (a : Addr) (x : GCObject)
    (hv : gcvalueN (clearslot (clearedIn h (gcvalueN v)) v) = some a) (hx : h a = some x) :
    novariant x.tt = LUA_TSTRING ∨ iswhite x.marked = false := by
  cases hc : clearedIn h (gcvalueN v) with
  | true =>
    rw [hc] at hv
    cases hv
  | false =>
    rw [hc] at hv
    have e : gcvalueN v = some a := hv
    rw [e] at hc
    exact clearedIn_false_elim h a x hx hc

theorem clearnode_after (h : Heap) (nd : Node) (a : Addr) (x : GCObject)
    (hv : gcvalueN (clearnode (clearedIn h (gcvalueN nd.i_val)) nd).i_val = some a)
    (hx : h a = some x) : novariant x.tt = LUA_TSTRING ∨ iswhite x.marked = false := by
  cases hc : clearedIn h (gcvalueN nd.i_val) with
  | true =>
    rw [hc, ((clearnode_spec true nd).1 rfl).1] at hv
    cases hv
  | false =>
    rw [hc, (clearnode_spec false nd).2.1 rfl] at hv
    rw [hv] at hc
    exact clearedIn_false_elim h a x hx hc

/-- C25: `clearbyvalues` on the list segment of the tables `L` from `l` up
to `f`, whose collectable values are live objects. With enough fuel the call
returns. In every table of the segment everything but the array and the
nodes is as before; an array slot or a hash entry whose value was a white
collectable object that is not a string has an empty value, any other slot
or entry keeps its value, so that no value is a white object that is not a
string afterwards; and no hash entry with an empty value keeps a collectable
key. Only the memory changes: an object that is neither a string nor a table
of the segment is the same, a string changes at most its mark, and a string
that is a value is not white afterwards. -/
theorem clearbyvalues_spec (fuel : Nat) (g : global_State) (l f : Option Addr)
    (L : List Addr) (hL : IsGSeg g.heap l L f) (hfl : ∀ b, b ∈ L → some b ≠ f)
    (htab : ∀ h, h ∈ L → ∀ t, g.heap h = some t → novariant t.tt ≠ LUA_TSTRING ∧
      (∀ v, v ∈ t.array → ∀ a, gcvalueN v = some a → (g.heap a).isSome = true) ∧
      ∀ nd, nd ∈ t.node → ∀ a, gcvalueN nd.i_val = some a → (g.heap a).isSome = true)
    (hf : L.length < fuel) :
    ∃ g2, clearbyvalues fuel g l f = some g2 ∧ g2 = { g with heap := g2.heap } ∧
      (∀ h, h ∈ L → ∀ t, g.heap h = some t →
        ∃ t2, g2.heap h = some t2 ∧ t2 = { t with array := t2.array, node := t2.node } ∧
          (∀ i v, t.array.get? i = some v → ∃ v2, t2.array.get? i = some v2 ∧
            (∀ a x, gcvalueN v = some a → g.heap a = some x →
              novariant x.tt ≠ LUA_TSTRING → iswhite x.marked = true → v2 = .empty) ∧
            ((gcvalueN v = none ∨ ∃ a x, gcvalueN v = some a ∧ g.heap a = some x ∧
                (novariant x.tt = LUA_TSTRING ∨ iswhite x.marked = false)) → v2 = v) ∧
            (∀ a x2, gcvalueN v2 = some a → g2.heap a = some x2 →
              novariant x2.tt = LUA_TSTRING ∨ iswhite x2.marked = false)) ∧
          (∀ i nd, t.node.get? i = some nd → ∃ nd2, t2.node.get? i = some nd2 ∧
            (∀ a x, gcvalueN nd.i_val = some a → g.heap a = some x →
              novariant x.tt ≠ LUA_TSTRING → iswhite x.marked = true →
              nd2.i_val = .empty) ∧
            ((gcvalueN nd.i_val = none ∨ ∃ a x, gcvalueN nd.i_val = some a ∧
                g.heap a = some x ∧
                (novariant x.tt = LUA_TSTRING ∨ iswhite x.marked = false)) →
              nd2.i_val = nd.i_val) ∧
            (isempty nd2.i_val = true → keyiscollectable nd2 = false) ∧
            (∀ a x2, gcvalueN nd2.i_val = some a → g2.heap a = some x2 →
              novariant x2.tt = LUA_TSTRING ∨ iswhite x2.marked = false))) ∧
      (∀ a x, a ∉ L → g.heap a = some x → novariant x.tt ≠ LUA_TSTRING →
        g2.heap a = some x) ∧
      (∀ a, g.heap a = none → g2.heap a = none) ∧
      (∀ a x, g.heap a = some x → novariant x.tt = LUA_TSTRING →
        ∃ x2, g2.heap a = some x2 ∧ x2 = { x with marked := x2.marked } ∧
          (iswhite x.marked = false → x2.marked = x.marked) ∧
          ((∃ h t, h ∈ L ∧ g.heap h = some t ∧
              ((∃ v, v ∈ t.array ∧ gcvalueN v = some a) ∨
                (∃ nd, nd ∈ t.node ∧ gcvalueN nd.i_val = some a))) →
            iswhite x2.marked = false)) := by
  have hnd := isGSeg_nodup g.heap f L l hL hfl
  obtain ⟨g2, T2, V2, r1, r2, r3, r4, r5, r6, r7⟩ := clearbyvalues_list g f L fuel g
    (fun _ x => x) (fun _ => False) l (clearing_refl g) keepsHeader_id hL hfl hnd
    (fun _ _ _ _ => rfl) htab hf
  obtain ⟨f1, f2, f3⟩ := clearing_frame T2 V2 g g2 r2
  have stab := clearedIn_clearing T2 V2 g g2 r2 r3
  refine ⟨g2, r1, f1, ?_, ?_, f2, ?_⟩
  · intro h hh t ht
    have hns := (htab h hh t ht).1
    have hg2 : g2.heap h = some (valuescleared g.heap t) := by
      rw [← r5 h hh t ht]
      exact ((r2.2 h).2 t ht).2 hns
    refine ⟨_, hg2, rfl, ?_, ?_⟩
    · intro i v hi
      refine ⟨clearslot (clearedIn g.heap (gcvalueN v)) v, ?_, ?_, ?_, ?_⟩
      · show (t.array.map _).get? i = _
        rw [List.get?_eq_getElem?, List.getElem?_map, ← List.get?_eq_getElem?, hi]
        rfl
      · intro a x hk hx hs hw
        have hc : clearedIn g.heap (gcvalueN v) = true := by
          rw [hk]
          exact clearedIn_true g.heap a x hx hs hw
        rw [hc]
        rfl
      · intro hk
        rw [clearedIn_false g.heap _ hk]
        rfl
      · intro a x2 hv hx2
        rw [← stab] at hv
        exact clearslot_after g2.heap v a x2 hv hx2
    · intro i nd hi
      refine ⟨clearnode (clearedIn g.heap (gcvalueN nd.i_val)) nd, ?_, ?_, ?_, ?_, ?_⟩
      · show (t.node.map _).get? i = _
        rw [List.get?_eq_getElem?, List.getElem?_map, ← List.get?_eq_getElem?, hi]
        rfl
      · intro a x hk hx hs hw
        have hc : clearedIn g.heap (gcvalueN nd.i_val) = true := by
          rw [hk]
          exact clearedIn_true g.heap a x hx hs hw
        exact ((clearnode_spec _ nd).1 hc).1
      · intro hk
        exact (clearnode_spec _ nd).2.1 (clearedIn_false g.heap _ hk)
      · exact (clearnode_spec _ nd).2.2
      · intro a x2 hv hx2
        rw [← stab] at hv
        exact clearnode_after g2.heap nd a x2 hv hx2
  · intro a x ha hx hs
    rw [← r4 a x ha]
    exact ((r2.2 a).2 x hx).2 hs
  · intro a x hx hs
    obtain ⟨x2, k1, k2, k3, k4⟩ := f3 a x hx hs
    refine ⟨x2, k1, k2, k3, ?_⟩
    rintro ⟨h, t, hh, ht, hva⟩
    exact k4 (r7 h hh t a ht hva)

theorem exWeak_values : ∀ h, h ∈ [1] → ∀ t, exWeak.heap h = some t →
    novariant t.tt ≠ LUA_TSTRING ∧
    (∀ v, v ∈ t.array → ∀ a, gcvalueN v = some a → (exWeak.heap a).isSome = true) ∧
    ∀ nd, nd ∈ t.node → ∀ a, gcvalueN nd.i_val = some a → (exWeak.heap a).isSome = true := by
  intro h hh t ht
  simp only [List.mem_singleton] at hh
  subst hh
  simp only [exWeak, exWeakHeap] at ht
  cases ht
  refine ⟨by decide, ?_, ?_⟩
  · intro v hv a ha
    simp only [exObj, GCObject.blank, List.mem_cons, List.mem_singleton, List.not_mem_nil,
      or_false] at hv
    rcases hv with rfl | rfl | rfl <;> cases ha <;> rfl
  · intro nd hnd a ha
    simp only [exObj, GCObject.blank, List.mem_cons, List.mem_singleton, List.not_mem_nil,
      or_false] at hnd
    rcases hnd with rfl | rfl | rfl | rfl <;> cases ha <;> rfl

/-- Witness of C25: `clearbyvalues` on the weak table 1 of `exWeak` empties
the array slot and the hash entry that hold the white table 2, keeps the
slot that holds the string 3, and leaves the string 3 not white. -/
theorem clearbyvalues_spec_witness :
    ∃ g2 t2 x3, clearbyvalues 5 exWeak (some 1) none = some g2 ∧ g2.heap 1 = some t2 ∧
      t2.array.get? 0 = some .empty ∧ t2.array.get? 1 = some (.gc .LUA_VSHRSTR 3) ∧
      (∃ nd2, t2.node.get? 1 = some nd2 ∧ nd2.i_val = .empty) ∧
      g2.heap 3 = some x3 ∧ iswhite x3.marked = false := by
  obtain ⟨g2, h1, -, h2, -, -, h3⟩ := clearbyvalues_spec 5 exWeak (some 1) none [1]
    exWeak_seg (fun b _ e => by cases e) exWeak_values (by decide)
  obtain ⟨t2, k1, -, k2, k3⟩ := h2 1 (List.mem_singleton.2 rfl) _ rfl
  obtain ⟨v0, a1, a2, -, -⟩ := k2 0 _ rfl
  obtain ⟨v1, b1, -, b2, -⟩ := k2 1 _ rfl
  obtain ⟨n1, c1, c2, -, -⟩ := k3 1 _ rfl
  obtain ⟨x3, d1, -, -, d2⟩ := h3 3 _ rfl (by decide)
  have e0 := a2 2 _ rfl rfl (by decide) (by decide)
  have e1 := b2 (Or.inr ⟨3, _, rfl, rfl, Or.inl (by decide)⟩)
  rw [e0] at a1
  rw [e1] at b1
  refine ⟨g2, t2, x3, h1, k1, a1, b1, ⟨n1, c1, c2 2 _ rfl rfl (by decide) (by decide)⟩, d1, ?_⟩
  refine d2 ⟨1, _, List.mem_singleton.2 rfl, rfl, Or.inl ⟨.gc .LUA_VSHRSTR 3, ?_, rfl⟩⟩
  simp [exObj, GCObject.blank]

/-! ## The marker's frame: `Touch` and `Mk` -/

theorem nodeKept_refl (nd : Node) : nodeKept nd nd := ⟨rfl, Or.inl rfl⟩

theorem nodeKept_trans (a b c : Node) (h1 : nodeKept a b) (h2 : nodeKept b c) : nodeKept a c := by
  refine ⟨h2.1.trans h1.1, ?_⟩
  rcases h1.2 with e | ⟨e1, e2⟩
  · subst e
    exact h2.2
  · rcases h2.2 with e | ⟨-, e4⟩
    · subst e
      exact Or.inr ⟨e1, e2⟩
    · exact Or.inr ⟨e1, e4⟩

theorem touch_refl (x : GCObject) : Touch x x :=
  ⟨rfl, fun h => h, rfl, fun _ nd h => ⟨nd, h, nodeKept_refl nd⟩, fun h => h,
    fun s h => ⟨s, h, fun _ _ => rfl⟩⟩

theorem touch_top (x x2 : GCObject) (h : Touch x x2) : x2.top = x.top := by
  have e : x2.frozen.top = x.frozen.top := congrArg GCObject.top h.1
  exact e

theorem touch_tt (x x2 : GCObject) (h : Touch x x2) : x2.tt = x.tt := by
  have e : x2.frozen.tt = x.frozen.tt := congrArg GCObject.tt h.1
  exact e

theorem touch_trans (a b c : GCObject) (h1 : Touch a b) (h2 : Touch b c) : Touch a c := by
  obtain ⟨f1, m1, l1, n1, s1, t1⟩ := h1
  obtain ⟨f2, m2, l2, n2, s2, t2⟩ := h2
  refine ⟨f2.trans f1, fun h => m2 (m1 h), l2.trans l1, ?_, fun h => s2 (s1 h), ?_⟩
  · intro i nd hi
    obtain ⟨nd1, e1, k1⟩ := n1 i nd hi
    obtain ⟨nd2, e2, k2⟩ := n2 i nd1 e1
    exact ⟨nd2, e2, nodeKept_trans _ _ _ k1 k2⟩
  · intro s hs
    obtain ⟨sb, eb, kb⟩ := t1 s hs
    obtain ⟨sc, ec, kc⟩ := t2 sb eb
    have etop : b.frozen.top = a.frozen.top := congrArg GCObject.top f1
    have etop : b.top = a.top := etop
    exact ⟨sc, ec, fun i hi => (kc i (etop ▸ hi)).trans (kb i hi)⟩

/-- Writing the mark of an object touches it, when a non-white object stays
non-white. -/
theorem touch_mark (x : GCObject) (m : Nat) (hm : iswhite x.marked = false → iswhite m = false) :
    Touch x { x with marked := m } :=
  ⟨rfl, hm, rfl, fun _ nd h => ⟨nd, h, nodeKept_refl nd⟩, fun h => h,
    fun s h => ⟨s, h, fun _ _ => rfl⟩⟩

/-- Writing the mark and the `gclist` link of an object touches it. -/
theorem touch_link (x : GCObject) (m : Nat) (p : Option Addr)
    (hm : iswhite x.marked = false → iswhite m = false) :
    Touch x { x with gclist := p, marked := m } :=
  ⟨rfl, hm, rfl, fun _ nd h => ⟨nd, h, nodeKept_refl nd⟩, fun h => h,
    fun s h => ⟨s, h, fun _ _ => rfl⟩⟩

theorem mk_refl (S : Addr → Prop) (g : global_State) : Mk S g g :=
  ⟨rfl, fun _ => ⟨fun h => h, fun x hx => ⟨x, hx, touch_refl x, fun _ _ => rfl⟩⟩⟩

theorem mk_live (S : Addr → Prop) (g g2 : global_State) (h : Mk S g g2) (a : Addr)
    (x : GCObject) (hx : g.heap a = some x) : ∃ x2, g2.heap a = some x2 ∧ Touch x x2 := by
  obtain ⟨x2, e, t, -⟩ := (h.2 a).2 x hx
  exact ⟨x2, e, t⟩

theorem mk_back (S : Addr → Prop) (g g2 : global_State) (h : Mk S g g2) (a : Addr)
    (x2 : GCObject) (hx : g2.heap a = some x2) : ∃ x, g.heap a = some x ∧ Touch x x2 := by
  rcases Option.eq_none_or_eq_some (g.heap a) with e | ⟨x, e⟩
  · rw [(h.2 a).1 e] at hx
    cases hx
  · obtain ⟨y, e2, t⟩ := mk_live S g g2 h a x e
    rw [hx] at e2
    cases e2
    exact ⟨x, e, t⟩

/-- Marking steps compose; the subjects of the whole are those of the
parts. -/
theorem mk_trans (S S1 S2 : Addr → Prop) (g g1 g2 : global_State) (h1 : Mk S1 g g1)
    (h2 : Mk S2 g1 g2)
    (hS : ∀ a x, g.heap a = some x → iswhite x.marked = false → ¬ S a → ¬ S1 a ∧ ¬ S2 a) :
    Mk S g g2 := by
  refine ⟨h2.1.trans h1.1, fun a => ⟨fun e => (h2.2 a).1 ((h1.2 a).1 e), ?_⟩⟩
  intro x hx
  obtain ⟨x1, e1, t1, u1⟩ := (h1.2 a).2 x hx
  obtain ⟨x2, e2, t2, u2⟩ := (h2.2 a).2 x1 e1
  refine ⟨x2, e2, touch_trans _ _ _ t1 t2, ?_⟩
  intro hs hw
  obtain ⟨k1, k2⟩ := hS a x hx hw hs
  have e : x1 = x := u1 k1 hw
  subst e
  exact u2 k2 hw

theorem mk_trans_same (S : Addr → Prop) (g g1 g2 : global_State) (h1 : Mk S g g1)
    (h2 : Mk S g1 g2) : Mk S g g2 :=
  mk_trans S S S g g1 g2 h1 h2 (fun _ _ _ _ h => ⟨h, h⟩)

theorem mk_mono (S S2 : Addr → Prop) (g g2 : global_State) (h : Mk S g g2)
    (hS : ∀ a, S a → S2 a) : Mk S2 g g2 := by
  refine ⟨h.1, fun a => ⟨(h.2 a).1, ?_⟩⟩
  intro x hx
  obtain ⟨x2, e, t, u⟩ := (h.2 a).2 x hx
  exact ⟨x2, e, t, fun hs hw => u (fun k => hs (hS a k)) hw⟩

/-- A non-white object stays non-white. -/
theorem mk_nonwhite (S : Addr → Prop) (g g2 : global_State) (h : Mk S g g2) (a : Addr)
    (hw : whiteIn g.heap a = false) : whiteIn g2.heap a = false := by
  rcases Option.eq_none_or_eq_some (g.heap a) with e | ⟨x, e⟩
  · unfold whiteIn
    rw [(h.2 a).1 e]
  · obtain ⟨x2, e2, t⟩ := mk_live S g g2 h a x e
    rw [whiteIn_some _ _ _ e] at hw
    rw [whiteIn_some _ _ _ e2]
    exact t.2.1 hw

/-- A non-white object that is no subject is the same. -/
theorem mk_same (S : Addr → Prop) (g g2 : global_State) (h : Mk S g g2) (a : Addr)
    (hs : ¬ S a) (hw : whiteIn g.heap a = false) : g2.heap a = g.heap a := by
  rcases Option.eq_none_or_eq_some (g.heap a) with e | ⟨x, e⟩
  · rw [(h.2 a).1 e, e]
  · obtain ⟨x2, e2, -, u⟩ := (h.2 a).2 x e
    rw [whiteIn_some _ _ _ e] at hw
    rw [e2, e, u hs hw]

/-- Storing a touched object at the address of a subject is a marking
step. -/
theorem mk_store (S : Addr → Prop) (g g2 : global_State) (o : Addr) (x x2 : GCObject)
    (hx : g.heap o = some x) (ht : Touch x x2) (hS : iswhite x.marked = false → S o)
    (hfix : g2.fixed = g.fixed) (hheap : g2.heap = g.heap.set o x2) : Mk S g g2 := by
  refine ⟨hfix, fun a => ?_⟩
  rw [hheap]
  by_cases ha : a = o
  · subst ha
    refine ⟨fun e => ?_, fun y hy => ?_⟩
    · rw [hx] at e
      cases e
    · rw [hx] at hy
      cases hy
      exact ⟨x2, heap_set_same _ _ _, ht, fun hs hw => absurd (hS hw) hs⟩
  · rw [heap_set_ne _ _ _ _ ha]
    exact ⟨fun e => e, fun y hy => ⟨y, hy, touch_refl y, fun _ _ => rfl⟩⟩

/-! ## Well-formedness is kept by marking -/

/-- The frozen fields of a touched object, one by one. -/
theorem touch_fields (x x2 : GCObject) (h : Touch x x2) :
    x2.metatable = x.metatable ∧ x2.array = x.array ∧ x2.uv = x.uv ∧ x2.cl_p = x.cl_p ∧
    x2.upvals = x.upvals ∧ x2.upvalue = x.upvalue ∧ x2.source = x.source ∧ x2.k = x.k ∧
    x2.upvalues = x.upvalues ∧ x2.p = x.p ∧ x2.locvars = x.locvars ∧ x2.v = x.v ∧
    x2.value = x.value ∧ x2.openupval = x.openupval ∧ x2.open_next = x.open_next ∧
    x2.tm_mode = x.tm_mode ∧ x2.alimit = x.alimit ∧ x2.isdummy = x.isdummy ∧
    x2.contents = x.contents :=
  ⟨(congrArg GCObject.metatable h.1 : x2.frozen.metatable = x.frozen.metatable),
   (congrArg GCObject.array h.1 : x2.frozen.array = x.frozen.array),
   (congrArg GCObject.uv h.1 : x2.frozen.uv = x.frozen.uv),
   (congrArg GCObject.cl_p h.1 : x2.frozen.cl_p = x.frozen.cl_p),
   (congrArg GCObject.upvals h.1 : x2.frozen.upvals = x.frozen.upvals),
   (congrArg GCObject.upvalue h.1 : x2.frozen.upvalue = x.frozen.upvalue),
   (congrArg GCObject.source h.1 : x2.frozen.source = x.frozen.source),
   (congrArg GCObject.k h.1 : x2.frozen.k = x.frozen.k),
   (congrArg GCObject.upvalues h.1 : x2.frozen.upvalues = x.frozen.upvalues),
   (congrArg GCObject.p h.1 : x2.frozen.p = x.frozen.p),
   (congrArg GCObject.locvars h.1 : x2.frozen.locvars = x.frozen.locvars),
   (congrArg GCObject.v h.1 : x2.frozen.v = x.frozen.v),
   (congrArg GCObject.value h.1 : x2.frozen.value = x.frozen.value),
   (congrArg GCObject.openupval h.1 : x2.frozen.openupval = x.frozen.openupval),
   (congrArg GCObject.open_next h.1 : x2.frozen.open_next = x.frozen.open_next),
   (congrArg GCObject.tm_mode h.1 : x2.frozen.tm_mode = x.frozen.tm_mode),
   (congrArg GCObject.alimit h.1 : x2.frozen.alimit = x.frozen.alimit),
   (congrArg GCObject.isdummy h.1 : x2.frozen.isdummy = x.frozen.isdummy),
   (congrArg GCObject.contents h.1 : x2.frozen.contents = x.frozen.contents)⟩

theorem valOK_mk (S : Addr → Prop) (g g2 : global_State) (h : Mk S g g2) (v : TValue)
    (hv : ValOK g.heap v) : ValOK g2.heap v := by
  intro t r e
  obtain ⟨y, hy, hk⟩ := hv t r e
  obtain ⟨y2, e2, t2⟩ := mk_live S g g2 h r y hy
  exact ⟨y2, e2, by rw [touch_tt _ _ t2]; exact hk⟩

theorem ptrOK_mk (S : Addr → Prop) (g g2 : global_State) (h : Mk S g g2) (p : Option Addr)
    (hp : PtrOK g.heap p) : PtrOK g2.heap p := by
  intro r e
  obtain ⟨y, hy⟩ := hp r e
  obtain ⟨y2, e2, -⟩ := mk_live S g g2 h r y hy
  exact ⟨y2, e2⟩

theorem uvHeap_some (h : Heap) (a : Addr) (o : GCObject) (e : uvHeap h a = some o) :
    ∃ x, h a = some x ∧ o.gclist = x.open_next := by
  unfold uvHeap at e
  rcases Option.eq_none_or_eq_some (h a) with k | ⟨x, k⟩
  · rw [k] at e
    cases e
  · rw [k] at e
    cases e
    exact ⟨x, k, rfl⟩

theorem uvHeap_of (h : Heap) (a : Addr) (x : GCObject) (e : h a = some x) :
    ∃ o, uvHeap h a = some o ∧ o.gclist = x.open_next := by
  unfold uvHeap
  rw [e]
  exact ⟨_, rfl, rfl⟩

/-- The list of open upvalues of a thread is the same after marking. -/
theorem opened_mk (S : Addr → Prop) (g g2 : global_State) (h : Mk S g g2) :
    ∀ (C : List Addr) (p : Option Addr), IsGSeg (uvHeap g.heap) p C none →
      IsGSeg (uvHeap g2.heap) p C none := by
  intro C
  induction C with
  | nil => intro p hp; exact hp
  | cons b C ih =>
    intro p hp
    obtain ⟨e, o, ho, hr⟩ := hp
    obtain ⟨x, hx, eo⟩ := uvHeap_some _ _ _ ho
    obtain ⟨x2, e2, t2⟩ := mk_live S g g2 h b x hx
    obtain ⟨o2, ho2, eo2⟩ := uvHeap_of _ _ _ e2
    refine ⟨e, o2, ho2, ?_⟩
    rw [eo2, (touch_fields _ _ t2).2.2.2.2.2.2.2.2.2.2.2.2.2.2.1, ← eo]
    exact ih _ hr

theorem mem_get? (l : List Node) (nd : Node) (h : nd ∈ l) : ∃ i, l.get? i = some nd := by
  obtain ⟨i, hi, e⟩ := List.mem_iff_getElem.1 h
  exact ⟨i, by rw [List.get?_eq_getElem?, List.getElem?_eq_getElem hi, e]⟩

/-- A node of a touched object comes from a node of the object. -/
theorem touch_node_back (x x2 : GCObject) (h : Touch x x2) (i : Nat) (nd2 : Node)
    (e : x2.node.get? i = some nd2) : ∃ nd, x.node.get? i = some nd ∧ nodeKept nd nd2 := by
  have hi : i < x.node.length := by
    rw [← h.2.2.1]
    rw [List.get?_eq_getElem?] at e
    exact (List.getElem?_eq_some_iff.1 e).1
  have e1 : x.node.get? i = some (x.node.get ⟨i, hi⟩) := List.get?_eq_get hi
  obtain ⟨nd3, e3, k⟩ := h.2.2.2.1 i _ e1
  rw [e] at e3
  cases e3
  exact ⟨_, e1, k⟩

theorem touch_stack_back (x x2 : GCObject) (h : Touch x x2) (s2 : List TValue)
    (e : x2.stack = some s2) :
    ∃ s, x.stack = some s ∧ ∀ i, i < x.top → s2.get? i = s.get? i := by
  rcases Option.eq_none_or_eq_some x.stack with k | ⟨s, k⟩
  · rw [h.2.2.2.2.1 k] at e
    cases e
  · obtain ⟨s3, e3, k3⟩ := h.2.2.2.2.2 s k
    rw [e] at e3
    cases e3
    exact ⟨s, k, k3⟩

/-- A well-formed memory is well formed after marking. -/
theorem wf_mk (S : Addr → Prop) (g g2 : global_State) (h : Mk S g g2) (hwf : WF g) : WF g2 := by
  intro a x2 hx2
  obtain ⟨x, hx, t⟩ := mk_back S g g2 h a x2 hx2
  have W := hwf a x hx
  obtain ⟨f1, f2, f3, f4, f5, f6, f7, f8, f9, f10, f11, f12, f13, f14, -, -, -, -, -⟩ :=
    touch_fields x x2 t
  refine ⟨?_, ?_, ?_, ?_, ?_, ?_, ?_, ?_, ?_, ?_, ?_, ?_, ?_, ?_, ?_, ?_, ?_⟩
  · intro mt e
    rw [f1] at e
    obtain ⟨y, hy, hk, hm⟩ := W.metatable mt e
    obtain ⟨y2, e2, t2⟩ := mk_live S g g2 h mt y hy
    refine ⟨y2, e2, by rw [touch_tt _ _ t2]; exact hk, ?_⟩
    intro tg s em
    rw [(touch_fields _ _ t2).2.2.2.2.2.2.2.2.2.2.2.2.2.2.2.1] at em
    obtain ⟨z, hz⟩ := hm tg s em
    obtain ⟨z2, ez, -⟩ := mk_live S g g2 h s z hz
    exact ⟨z2, ez⟩
  · intro v hv
    rw [f2] at hv
    exact valOK_mk S g g2 h v (W.array v hv)
  · intro nd2 hnd
    obtain ⟨i, hi⟩ := mem_get? _ _ hnd
    obtain ⟨nd, e, k⟩ := touch_node_back x x2 t i nd2 hi
    rw [k.1]
    exact valOK_mk S g g2 h _ (W.nodeval nd (List.get?_mem e))
  · intro nd2 hnd r hr
    obtain ⟨i, hi⟩ := mem_get? _ _ hnd
    obtain ⟨nd, e, k⟩ := touch_node_back x x2 t i nd2 hi
    rcases k.2 with k2 | ⟨-, k2⟩
    · subst k2
      obtain ⟨y, hy, hk⟩ := W.nodekey nd2 (List.get?_mem e) r hr
      obtain ⟨y2, e2, t2⟩ := mk_live S g g2 h r y hy
      exact ⟨y2, e2, by rw [touch_tt _ _ t2]; exact hk⟩
    · rw [k2] at hr
      cases hr
  · intro v hv
    rw [f3] at hv
    exact valOK_mk S g g2 h v (W.uv v hv)
  · rw [f4]
    exact ptrOK_mk S g g2 h _ W.cl_p
  · intro p hp
    rw [f5] at hp
    exact ptrOK_mk S g g2 h _ (W.upvals p hp)
  · intro v hv
    rw [f6] at hv
    exact valOK_mk S g g2 h v (W.upvalue v hv)
  · rw [f7]
    exact ptrOK_mk S g g2 h _ W.source
  · intro v hv
    rw [f8] at hv
    exact valOK_mk S g g2 h v (W.k v hv)
  · intro p hp
    rw [f9] at hp
    exact ptrOK_mk S g g2 h _ (W.upvalues p hp)
  · intro p hp
    rw [f10] at hp
    exact ptrOK_mk S g g2 h _ (W.p p hp)
  · intro p hp
    rw [f11] at hp
    exact ptrOK_mk S g g2 h _ (W.locvars p hp)
  · intro s2 hs2 i v hi hv
    obtain ⟨s, hs, k⟩ := touch_stack_back x x2 t s2 hs2
    rw [touch_top _ _ t] at hi
    rw [k i hi] at hv
    exact valOK_mk S g g2 h v (W.stack s hs i v hi hv)
  · intro e
    rw [f12] at e
    rw [f13]
    exact valOK_mk S g g2 h _ (W.value e)
  · intro th idx e
    rw [f12] at e
    obtain ⟨t0, s, v, ht0, hs, hi, hv⟩ := W.slot th idx e
    obtain ⟨t2, e2, tt2⟩ := mk_live S g g2 h th t0 ht0
    obtain ⟨s2, es2, k2⟩ := tt2.2.2.2.2.2 s hs
    exact ⟨t2, s2, v, e2, es2, by rw [touch_top _ _ tt2]; exact hi, by rw [k2 idx hi]; exact hv⟩
  · obtain ⟨C, hC⟩ := W.opened
    rw [f14]
    exact ⟨C, opened_mk S g g2 h C _ hC⟩

/-- The value of an upvalue of a well-formed memory can be read, and is a
valid value. -/
theorem upvalue_v_wf (g : global_State) (hwf : WF g) (o : Addr) (x : GCObject)
    (hx : g.heap o = some x) : ∃ v, g.upvalue_v x = some v ∧ ValOK g.heap v := by
  have W := hwf o x hx
  unfold global_State.upvalue_v
  cases hv : x.v with
  | closed => exact ⟨x.value, rfl, W.value hv⟩
  | stack th idx =>
    obtain ⟨t, s, v, ht, hs, hi, hg⟩ := W.slot th idx hv
    refine ⟨v, ?_, (hwf th t ht).stack s hs idx v hi hg⟩
    simp only [ht, Option.bind_eq_bind, Option.some_bind, hs, hg]

/-! ## Steps of the marker -/

theorem isGSeg_congr (h h2 : Heap) (q : Option Addr) : ∀ (l : List Addr) (p : Option Addr),
    (∀ a, a ∈ l → h2 a = h a) → IsGSeg h p l q → IsGSeg h2 p l q := by
  intro l
  induction l with
  | nil => intro p _ hp; exact hp
  | cons b l ih =>
    intro p hag hp
    obtain ⟨e, o, ho, hr⟩ := hp
    refine ⟨e, o, ?_, ih _ (fun a ha => hag a (List.mem_cons_of_mem _ ha)) hr⟩
    rw [hag b (List.mem_cons_self _ _)]
    exact ho

theorem isGList_iff_seg (h : Heap) : ∀ (l : List Addr) (p : Option Addr),
    IsGList h p l ↔ IsGSeg h p l none := by
  intro l
  induction l with
  | nil => intro p; exact Iff.rfl
  | cons b l ih =>
    intro p
    constructor
    · rintro ⟨e, o, ho, hr⟩
      exact ⟨e, o, ho, (ih _).1 hr⟩
    · rintro ⟨e, o, ho, hr⟩
      exact ⟨e, o, ho, (ih _).2 hr⟩

theorem isGList_nodup (h : Heap) (l : List Addr) (p : Option Addr) (hl : IsGSeg h p l none) :
    l.Nodup :=
  isGSeg_nodup h none l p hl (fun _ _ e => by cases e)

/-- The objects of a list are live. -/
theorem isGSeg_live (h : Heap) (q : Option Addr) : ∀ (l : List Addr) (p : Option Addr),
    IsGSeg h p l q → ∀ a, a ∈ l → ∃ x, h a = some x := by
  intro l
  induction l with
  | nil => intro p _ a ha; cases ha
  | cons b l ih =>
    intro p hp a ha
    obtain ⟨-, o, ho, hr⟩ := hp
    rcases List.mem_cons.1 ha with e | e
    · subst e
      exact ⟨o, ho⟩
    · exact ih _ hr a e

/-- An object that is white after marking was white before. -/
theorem mk_white_back (S : Addr → Prop) (g g2 : global_State) (h : Mk S g g2) (a : Addr)
    (hw : whiteIn g2.heap a = true) : whiteIn g.heap a = true := by
  cases e : whiteIn g.heap a with
  | true => rfl
  | false =>
    rw [mk_nonwhite S g g2 h a e] at hw
    cases hw

theorem hasGclist_mk (S : Addr → Prop) (g g2 : global_State) (h : Mk S g g2) (a : Addr) :
    hasGclist g.heap a ↔ hasGclist g2.heap a := by
  constructor
  · rintro ⟨y, hy, hk⟩
    obtain ⟨y2, e2, t2⟩ := mk_live S g g2 h a y hy
    refine ⟨y2, e2, ?_⟩
    unfold getgclist at hk ⊢
    rw [touch_tt _ _ t2]
    exact hk
  · rintro ⟨y2, hy2, hk⟩
    obtain ⟨y, e, t⟩ := mk_back S g g2 h a y2 hy2
    refine ⟨y, e, ?_⟩
    unfold getgclist at hk ⊢
    rw [← touch_tt _ _ t]
    exact hk

theorem step_refl (S : Addr → Prop) (g : global_State) : Step S [] g g :=
  ⟨mk_refl S g, ⟨[], rfl, fun _ h => by cases h⟩, rfl, fun _ h => by cases h⟩

theorem step_mono (S S2 : Addr → Prop) (X : List Addr) (g g2 : global_State)
    (h : Step S X g g2) (hS : ∀ a, S a → S2 a) : Step S2 X g g2 :=
  ⟨mk_mono S S2 g g2 h.1 hS, h.2.1, h.2.2.1, fun a ha => hS a (h.2.2.2 a ha)⟩

/-- Steps compose, when the subjects are not white and the first step links
nothing into the ephemeron list. -/
theorem step_trans (S : Addr → Prop) (X : List Addr) (g g1 g2 : global_State)
    (hS : ∀ a, S a → whiteIn g.heap a = false)
    (h1 : Step S [] g g1) (h2 : Step S X g1 g2) : Step S X g g2 := by
  obtain ⟨m1, ⟨N1, s1, w1⟩, x1, -⟩ := h1
  obtain ⟨m2, ⟨N2, s2, w2⟩, x2, hX⟩ := h2
  refine ⟨mk_trans_same S g g1 g2 m1 m2, ⟨N2 ++ N1, ?_, ?_⟩, ?_, hX⟩
  · refine isGSeg_append _ _ _ _ _ _ s2 (isGSeg_congr g1.heap g2.heap _ N1 _ ?_ s1)
    intro a ha
    refine mk_same S g1 g2 m2 a (fun hs => ?_) (w1 a ha).2.1
    have k := (w1 a ha).1
    rw [hS a hs] at k
    cases k
  · intro a ha
    rcases List.mem_append.1 ha with k | k
    · exact ⟨mk_white_back S g g1 m1 a (w2 a k).1, (w2 a k).2.1,
        (hasGclist_mk S g g1 m1 a).2 (w2 a k).2.2⟩
    · exact ⟨(w1 a k).1, mk_nonwhite S g1 g2 m2 a (w1 a k).2.1, (w1 a k).2.2⟩
  · have e : g1.ephemeron = g.ephemeron := x1
    rw [← e]
    exact x2

/-- A step that marks without a subject, followed by a step. -/
theorem step_trans0 (S : Addr → Prop) (X : List Addr) (g g1 g2 : global_State)
    (hS : ∀ a, S a → whiteIn g.heap a = false)
    (h1 : Step (fun _ => False) [] g g1) (h2 : Step S X g1 g2) : Step S X g g2 :=
  step_trans S X g g1 g2 hS (step_mono _ S [] g g1 h1 (fun _ k => k.elim)) h2

theorem step_wf (S : Addr → Prop) (X : List Addr) (g g2 : global_State) (h : Step S X g g2)
    (hwf : WF g) : WF g2 :=
  wf_mk S g g2 h.1 hwf

/-- The subjects stay non-white along a step. -/
theorem step_subjects (S : Addr → Prop) (X : List Addr) (g g2 : global_State)
    (h : Step S X g g2) (hS : ∀ a, S a → whiteIn g.heap a = false) :
    ∀ a, S a → whiteIn g2.heap a = false :=
  fun a ha => mk_nonwhite S g g2 h.1 a (hS a ha)

/-! ## Elementary steps -/

theorem iswhite_nw2black (m : Nat) : iswhite (nw2black m) = iswhite m := by
  unfold iswhite testbits nw2black l_setbit setbits
  rw [Nat.and_distrib_right]
  have h : bitmask BLACKBIT &&& WHITEBITS = 0 := by decide
  rw [h, Nat.or_zero]

theorem iswhite_changeage (m : Nat) :
    iswhite (changeage m G_TOUCHED2 G_OLD) = iswhite m := by
  unfold iswhite testbits changeage
  rw [Nat.and_xor_distrib_right]
  have h : (G_TOUCHED2 ^^^ G_OLD) &&& WHITEBITS = 0 := by decide
  rw [h, Nat.xor_zero]

/-- Painting a white object is a step without a subject. -/
theorem step_setmark (g : global_State) (o : Addr) (x : GCObject) (m : Nat)
    (hx : g.heap o = some x) (hw : iswhite x.marked = true) (hm : iswhite m = false) :
    Step (fun _ => False) [] g (g.setobj o { x with marked := m }) := by
  refine ⟨mk_store _ g _ o x _ hx (touch_mark x m (fun _ => hm)) ?_ rfl rfl,
    ⟨[], rfl, fun _ h => by cases h⟩, rfl, fun _ h => by cases h⟩
  intro k
  rw [hw] at k
  cases k

/-- Linking a white object into the gray list is a step without a subject. -/
theorem step_link (g : global_State) (o : Addr) (x : GCObject)
    (hx : g.heap o = some x) (hw : iswhite x.marked = true) (hg : getgclist o x = some o) :
    Step (fun _ => False) [] g { g with
      heap := g.heap.set o { x with gclist := g.gray, marked := set2gray x.marked },
      gray := some o } := by
  refine ⟨mk_store _ g _ o x _ hx
      (touch_link x _ _ (fun _ => (set2gray_nonwhite x.marked).1)) ?_ rfl rfl,
    ⟨[o], ⟨rfl, _, heap_set_same _ _ _, rfl⟩, ?_⟩, rfl, fun _ h => by cases h⟩
  · intro k
    rw [hw] at k
    cases k
  · intro a ha
    rw [List.mem_singleton.1 ha]
    refine ⟨by rw [whiteIn_some _ _ _ hx]; exact hw, ?_, x, hx, hg⟩
    rw [whiteIn_some _ _ _ (heap_set_same _ _ _)]
    exact (set2gray_nonwhite x.marked).1

/-- Storing a touched object at the address of the subject, with the gray
list and the ephemeron list as they are, is a step. -/
theorem step_store (g g2 : global_State) (o : Addr) (x x2 : GCObject)
    (hx : g.heap o = some x) (ht : Touch x x2) (hfix : g2.fixed = g.fixed)
    (hheap : g2.heap = g.heap.set o x2) (hgray : g2.gray = g.gray)
    (heph : g2.ephemeron = g.ephemeron) : Step (fun a => a = o) [] g g2 :=
  ⟨mk_store _ g g2 o x x2 hx ht (fun _ => rfl) hfix hheap,
    ⟨[], hgray, fun _ h => by cases h⟩, heph, fun _ h => by cases h⟩

/-- The result of `linkgclist` on a live object. -/
theorem linkgclist_exact (g : global_State) (o : Addr) (x : GCObject) (l : GrayList)
    (hx : g.heap o = some x) :
    linkgclist g o l = some ((g.setlist l (some o)).setobj o
      { x with gclist := g.getlist l, marked := set2gray x.marked }) := by
  unfold linkgclist linkgclist_
  simp only [hx, Option.bind_eq_bind, Option.some_bind]
  cases l <;>
    simp only [global_State.setlist, global_State.getlist, global_State.setobj, heap_set_same,
      Option.some_bind, heap_set_set]

/-- Linking the subject into a list other than `gray` is a step; it pushes
the subject when the list is `ephemeron`. -/
theorem linkgclist_step (g : global_State) (o : Addr) (x : GCObject) (l : GrayList)
    (hx : g.heap o = some x) (hl : l ≠ .gray) :
    ∃ g2, linkgclist g o l = some g2 ∧
      Step (fun a => a = o) (if l = .ephemeron then [o] else []) g g2 := by
  refine ⟨_, linkgclist_exact g o x l hx, ?_⟩
  have hm : Mk (fun a => a = o) g ((g.setlist l (some o)).setobj o
      { x with gclist := g.getlist l, marked := set2gray x.marked }) := by
    refine mk_store _ g _ o x { x with gclist := g.getlist l, marked := set2gray x.marked } hx
      (touch_link x _ _ (fun _ => (set2gray_nonwhite x.marked).1)) (fun _ => rfl) ?_ ?_
    · cases l <;> rfl
    · cases l <;> rfl
  refine ⟨hm, ⟨[], ?_, fun _ h => by cases h⟩, ?_⟩
  · cases l
    · exact absurd rfl hl
    all_goals rfl
  · cases l
    case ephemeron =>
      rw [if_pos rfl]
      exact ⟨⟨rfl, _, heap_set_same _ _ _, rfl⟩, fun a ha => List.mem_singleton.1 ha⟩
    all_goals exact ⟨rfl, fun _ h => by cases h⟩

/-! ## `reallymarkobject` is total on a well-formed memory -/

theorem step_false_trans (g g1 g2 : global_State) (h1 : Step (fun _ => False) [] g g1)
    (h2 : Step (fun _ => False) [] g1 g2) : Step (fun _ => False) [] g g2 :=
  step_trans _ [] g g1 g2 (fun _ k => k.elim) h1 h2

theorem whiteIn_setobj (g : global_State) (o : Addr) (x2 : GCObject) :
    whiteIn (g.setobj o x2).heap o = iswhite x2.marked :=
  whiteIn_some _ _ _ (heap_set_same g.heap o x2)

theorem markobject_with_step (mark : global_State → Addr → Option global_State)
    (g : global_State) (t : Addr) (x : GCObject) (hx : g.heap t = some x)
    (hmark : iswhite x.marked = true →
      ∃ g2, mark g t = some g2 ∧ Step (fun _ => False) [] g g2 ∧ whiteIn g2.heap t = false) :
    ∃ g2, markobject_with mark g t = some g2 ∧ Step (fun _ => False) [] g g2 ∧
      whiteIn g2.heap t = false := by
  unfold markobject_with
  simp only [hx, Option.bind_eq_bind, Option.some_bind]
  cases hw : iswhite x.marked with
  | true =>
    rw [if_pos rfl]
    exact hmark hw
  | false =>
    rw [if_neg (by decide)]
    exact ⟨g, rfl, step_refl _ g, by rw [whiteIn_some _ _ _ hx]; exact hw⟩

/-- Marking a white object that is not an upvalue. -/
theorem markrec_noup_step (n : Nat) (g : global_State) (r : Addr) (y : GCObject) (hwf : WF g)
    (hy : g.heap r = some y) (hw : iswhite y.marked = true) (hnu : y.tt ≠ .LUA_VUPVAL) :
    ∃ g2, markrec (n + 2) g r = some g2 ∧ Step (fun _ => False) [] g g2 ∧
      whiteIn g2.heap r = false := by
  have hblack : ∀ (g0 : global_State) (y0 : GCObject), g0.heap r = some y0 →
      iswhite y0.marked = true →
      Step (fun _ => False) [] g0 (g0.setobj r { y0 with marked := set2black y0.marked }) ∧
      whiteIn (g0.setobj r { y0 with marked := set2black y0.marked }).heap r = false := by
    intro g0 y0 h0 w0
    refine ⟨step_setmark g0 r y0 _ h0 w0 (set2black_nonwhite _).1, ?_⟩
    rw [whiteIn_setobj]
    exact (set2black_nonwhite _).1
  have hlink : ∀ (k : Nat) (g0 : global_State) (a : Addr) (z : GCObject), g0.heap a = some z →
      iswhite z.marked = true →
      (z.tt = .LUA_VTABLE ∨ z.tt = .LUA_VLCL ∨ z.tt = .LUA_VCCL ∨ z.tt = .LUA_VPROTO ∨
        z.tt = .LUA_VTHREAD ∨ (z.tt = .LUA_VUSERDATA ∧ z.uv.length ≠ 0)) →
      ∃ g2, markrec (k + 1) g0 a = some g2 ∧ Step (fun _ => False) [] g0 g2 ∧
        whiteIn g2.heap a = false := by
    intro k g0 a z h0 w0 hk
    have hg : getgclist a z = some a := by
      unfold getgclist
      rcases hk with e | e | e | e | e | ⟨e, -⟩ <;> rw [e]
    refine ⟨_, markrec_link k g0 a z h0 hk, step_link g0 a z h0 w0 hg, ?_⟩
    rw [whiteIn_some _ _ _ (heap_set_same _ _ _)]
    exact (set2gray_nonwhite _).1
  rcases linked_cases y with hk | hk | ⟨hk, hu⟩ | hk
  · exact ⟨_, markrec_string (n + 1) g r y hy hk, (hblack g y hy hw).1, (hblack g y hy hw).2⟩
  · exact absurd hk hnu
  · rcases Option.eq_none_or_eq_some y.metatable with hm | ⟨mt, hm⟩
    · exact ⟨_, markrec_udata0_none (n + 1) g r y hy hk hu hm, (hblack g y hy hw).1,
        (hblack g y hy hw).2⟩
    · rw [markrec_udata0_some (n + 1) g r y hy hk hu mt hm]
      obtain ⟨z, hz, hzt, -⟩ := (hwf r y hy).metatable mt hm
      obtain ⟨g1, e1, s1, -⟩ := markobject_with_step (markrec (n + 1)) g mt z hz
        (fun w => hlink n g mt z hz w (Or.inl hzt))
      have hne : r ≠ mt := by
        intro e
        subst e
        rw [hy] at hz
        cases hz
        rw [hk] at hzt
        cases hzt
      obtain ⟨y1, hy1, -⟩ := mk_live _ g g1 s1.1 r y hy
      have hw1 : iswhite y1.marked = true := by
        unfold markobject_with at e1
        simp only [hz, Option.bind_eq_bind, Option.some_bind] at e1
        split at e1
        · rw [markrec_link n g mt z hz (Or.inl hzt)] at e1
          cases e1
          have e : (Heap.set g.heap mt _ r) = some y1 := hy1
          rw [heap_set_ne _ _ _ _ hne, hy] at e
          cases e
          exact hw
        · cases e1
          rw [hy] at hy1
          cases hy1
          exact hw
      refine ⟨_, ?_, step_false_trans g g1 _ s1 (hblack g1 y1 hy1 hw1).1,
        (hblack g1 y1 hy1 hw1).2⟩
      rw [e1]
      simp only [Option.bind_eq_bind, Option.some_bind, hy1]
  · exact hlink (n + 1) g r y hy hw hk

/-- Marking a white object of a well-formed memory returns, as a step
without a subject, and the object is not white afterwards. -/
theorem reallymarkobject_step (g : global_State) (o : Addr) (x : GCObject) (hwf : WF g)
    (hx : g.heap o = some x) (hw : iswhite x.marked = true) :
    ∃ g2, reallymarkobject g o = some g2 ∧ Step (fun _ => False) [] g g2 ∧
      whiteIn g2.heap o = false := by
  unfold reallymarkobject
  by_cases hk : x.tt = .LUA_VUPVAL
  · rw [markrec_upval 2 g o x hx hk, upvalue_v_setmark g o x _ hx x]
    obtain ⟨v, hv, hok⟩ := upvalue_v_wf g hwf o x hx
    rw [hv]
    have hm : iswhite (if upisopen x then set2gray x.marked else set2black x.marked) = false := by
      split
      · exact (set2gray_nonwhite _).1
      · exact (set2black_nonwhite _).1
    have s1 := step_setmark g o x _ hx hw hm
    have w1 : whiteIn (g.setobj o { x with
        marked := if upisopen x then set2gray x.marked else set2black x.marked }).heap o
        = false := by
      rw [whiteIn_setobj]
      exact hm
    cases v with
    | gc t r =>
      obtain ⟨y, hy, hnu⟩ := hok t r rfl
      obtain ⟨y1, hy1, ty1⟩ := mk_live _ g _ s1.1 r y hy
      obtain ⟨g2, e2, s2, -⟩ := markobject_with_step (markrec 2) _ r y1 hy1
        (fun w => markrec_noup_step 0 _ r y1 (step_wf _ _ g _ s1 hwf) hy1 w
          (by rw [touch_tt _ _ ty1]; exact hnu))
      exact ⟨g2, e2, step_false_trans g _ g2 s1 s2, mk_nonwhite _ _ g2 s2.1 o w1⟩
    | nil => exact ⟨_, rfl, s1, w1⟩
    | empty => exact ⟨_, rfl, s1, w1⟩
    | prim n => exact ⟨_, rfl, s1, w1⟩
  · exact markrec_noup_step 1 g o x hwf hx hw hk

theorem markobject_step (g : global_State) (t : Addr) (x : GCObject) (hwf : WF g)
    (hx : g.heap t = some x) :
    ∃ g2, markobject g t = some g2 ∧ Step (fun _ => False) [] g g2 ∧
      whiteIn g2.heap t = false :=
  markobject_with_step reallymarkobject g t x hx
    (fun w => reallymarkobject_step g t x hwf hx w)

theorem markvalue_step (g : global_State) (v : TValue) (hwf : WF g) (hv : ValOK g.heap v) :
    ∃ g2, markvalue g v = some g2 ∧ Step (fun _ => False) [] g g2 ∧
      ∀ r, gcvalueN v = some r → whiteIn g2.heap r = false := by
  cases v with
  | gc t r =>
    obtain ⟨y, hy, -⟩ := hv t r rfl
    obtain ⟨g2, e, s, w⟩ := markobject_step g r y hwf hy
    refine ⟨g2, e, s, fun r2 h2 => ?_⟩
    cases h2
    exact w
  | nil => exact ⟨g, rfl, step_refl _ g, fun _ h => by cases h⟩
  | empty => exact ⟨g, rfl, step_refl _ g, fun _ h => by cases h⟩
  | prim n => exact ⟨g, rfl, step_refl _ g, fun _ h => by cases h⟩

theorem markobjectN_step (g : global_State) (p : Option Addr) (hwf : WF g)
    (hp : PtrOK g.heap p) :
    ∃ g2, markobjectN g p = some g2 ∧ Step (fun _ => False) [] g g2 ∧
      ∀ r, p = some r → whiteIn g2.heap r = false := by
  cases p with
  | none => exact ⟨g, rfl, step_refl _ g, fun _ h => by cases h⟩
  | some r =>
    obtain ⟨y, hy⟩ := hp r rfl
    obtain ⟨g2, e, s, w⟩ := markobject_step g r y hwf hy
    refine ⟨g2, e, s, fun r2 h2 => ?_⟩
    cases h2
    exact w

/-! ## Marking values, keys and arrays of pointers -/

theorem markkey_step (g : global_State) (nd : Node) (hwf : WF g)
    (hk : ∀ r, gckeyN nd = some r → ∃ y, g.heap r = some y ∧ y.tt ≠ .LUA_VUPVAL) :
    ∃ g2, markkey g nd = some g2 ∧ Step (fun _ => False) [] g g2 ∧
      ∀ r, gckeyN nd = some r → whiteIn g2.heap r = false := by
  unfold markkey gckeyN
  unfold gckeyN at hk
  cases hkey : nd.key with
  | gc t r =>
    rw [hkey] at hk
    obtain ⟨y, hy, -⟩ := hk r rfl
    obtain ⟨g2, e, s, w⟩ := markobject_step g r y hwf hy
    refine ⟨g2, e, s, fun r2 h2 => ?_⟩
    cases h2
    exact w
  | nil => exact ⟨g, rfl, step_refl _ g, fun _ h => by cases h⟩
  | prim n => exact ⟨g, rfl, step_refl _ g, fun _ h => by cases h⟩
  | dead o => exact ⟨g, rfl, step_refl _ g, fun _ h => by cases h⟩

theorem markvalues_step : ∀ (l : List TValue) (g : global_State), WF g →
    (∀ v, v ∈ l → ValOK g.heap v) →
    ∃ g2, markvalues l g = some g2 ∧ Step (fun _ => False) [] g g2 ∧
      ∀ v, v ∈ l → ∀ r, gcvalueN v = some r → whiteIn g2.heap r = false := by
  intro l
  induction l with
  | nil => intro g _ _; exact ⟨g, rfl, step_refl _ g, fun _ h => by cases h⟩
  | cons v l ih =>
    intro g hwf hl
    obtain ⟨g1, e1, s1, w1⟩ := markvalue_step g v hwf (hl v (List.mem_cons_self _ _))
    obtain ⟨g2, e2, s2, w2⟩ := ih g1 (step_wf _ _ g g1 s1 hwf)
      (fun u hu => valOK_mk _ g g1 s1.1 u (hl u (List.mem_cons_of_mem _ hu)))
    refine ⟨g2, ?_, step_false_trans g g1 g2 s1 s2, ?_⟩
    · rw [markvalues]
      simp only [e1, Option.bind_eq_bind, Option.some_bind, e2]
    · intro u hu r hr
      rcases List.mem_cons.1 hu with k | k
      · subst k
        exact mk_nonwhite _ g1 g2 s2.1 r (w1 r hr)
      · exact w2 u k r hr

theorem markobjectsN_step : ∀ (l : List (Option Addr)) (g : global_State), WF g →
    (∀ p, p ∈ l → PtrOK g.heap p) →
    ∃ g2, markobjectsN l g = some g2 ∧ Step (fun _ => False) [] g g2 ∧
      ∀ r, some r ∈ l → whiteIn g2.heap r = false := by
  intro l
  induction l with
  | nil => intro g _ _; exact ⟨g, rfl, step_refl _ g, fun _ h => by cases h⟩
  | cons v l ih =>
    intro g hwf hl
    obtain ⟨g1, e1, s1, w1⟩ := markobjectN_step g v hwf (hl v (List.mem_cons_self _ _))
    obtain ⟨g2, e2, s2, w2⟩ := ih g1 (step_wf _ _ g g1 s1 hwf)
      (fun u hu => ptrOK_mk _ g g1 s1.1 u (hl u (List.mem_cons_of_mem _ hu)))
    refine ⟨g2, ?_, step_false_trans g g1 g2 s1 s2, ?_⟩
    · rw [markobjectsN]
      simp only [e1, Option.bind_eq_bind, Option.some_bind, e2]
    · intro r hr
      rcases List.mem_cons.1 hr with k | k
      · exact mk_nonwhite _ g1 g2 s2.1 r (w1 r k.symm)
      · exact w2 r k

/-- The test `valiswhite` on a valid value. -/
theorem valiswhite_wf (g : global_State) (v : TValue) (hv : ValOK g.heap v) :
    ∃ w, valiswhite g v = some w ∧
      (w = true → ∃ r y, gcvalueN v = some r ∧ g.heap r = some y ∧ iswhite y.marked = true) ∧
      (w = false → ∀ r, gcvalueN v = some r → whiteIn g.heap r = false) := by
  cases v with
  | gc t r =>
    obtain ⟨y, hy, -⟩ := hv t r rfl
    refine ⟨iswhite y.marked, ?_, fun e => ⟨r, y, rfl, hy, e⟩, fun e r2 h2 => ?_⟩
    · unfold valiswhite
      simp only [hy, Option.map_some']
    · cases h2
      rw [whiteIn_some _ _ _ hy]
      exact e
  | nil => exact ⟨false, rfl, fun e => (by cases e), fun _ _ h => (by cases h)⟩
  | empty => exact ⟨false, rfl, fun e => (by cases e), fun _ _ h => (by cases h)⟩
  | prim n => exact ⟨false, rfl, fun e => (by cases e), fun _ _ h => (by cases h)⟩

theorem quiet_refl (g : global_State) : Quiet g g := ⟨rfl, fun _ _ h _ _ => h⟩

theorem quiet_trans (g g1 g2 : global_State) (h1 : Quiet g g1) (h2 : Quiet g1 g2) :
    Quiet g g2 :=
  ⟨h2.1.trans h1.1, fun a x hx hw hk => h2.2 a x (h1.2 a x hx hw hk) hw hk⟩

/-- Storing at the address of an object that is not white, or is a string,
with the gray list as it is, is quiet. -/
theorem quiet_store (g g2 : global_State) (o : Addr) (x2 : GCObject)
    (ho : ∀ x, g.heap o = some x → iswhite x.marked = true → novariant x.tt = LUA_TSTRING)
    (hheap : g2.heap = g.heap.set o x2) (hgray : g2.gray = g.gray) : Quiet g g2 := by
  refine ⟨hgray, fun a x hx hw hk => ?_⟩
  rw [hheap]
  by_cases ha : a = o
  · subst ha
    exact absurd (ho x hx hw) hk
  · rw [heap_set_ne _ _ _ _ ha]
    exact hx

/-! ## `iscleared`, `genlink` and the clearing of a key -/

theorem clearedIn_some (h : Heap) (a : Addr) (x : GCObject) (hx : h a = some x) :
    clearedIn h (some a) = (decide (novariant x.tt ≠ LUA_TSTRING) && iswhite x.marked) := by
  unfold clearedIn
  simp only [hx]

/-- The test `iscleared` on a valid pointer: it returns whether the object is
white and no string, and changes nothing but the colour of a string. -/
theorem iscleared_step (g : global_State) (o : Option Addr) (hwf : WF g)
    (ho : PtrOK g.heap o) :
    ∃ g2 c, iscleared g o = some (g2, c) ∧ Step (fun _ => False) [] g g2 ∧ Quiet g g2 ∧
      c = clearedIn g.heap o ∧ clearedIn g2.heap o = c ∧ (c = true → g2 = g) ∧
      (c = false → ∀ a, o = some a → whiteIn g2.heap a = false) := by
  cases o with
  | none =>
    exact ⟨g, false, rfl, step_refl _ g, quiet_refl g, rfl, rfl, fun _ => rfl,
      fun _ _ h => (by cases h)⟩
  | some a =>
    obtain ⟨x, hx⟩ := ho a rfl
    unfold iscleared
    simp only [hx, Option.bind_eq_bind, Option.some_bind]
    by_cases hk : novariant x.tt = LUA_TSTRING
    · rw [if_pos hk]
      obtain ⟨g1, e1, s1, w1⟩ := markobject_step g a x hwf hx
      obtain ⟨x1, hx1, t1⟩ := mk_live _ g g1 s1.1 a x hx
      have hq : Quiet g g1 := by
        unfold markobject markobject_with at e1
        simp only [hx, Option.bind_eq_bind, Option.some_bind] at e1
        split at e1
        · unfold reallymarkobject at e1
          have hs : x.tt = .LUA_VSHRSTR ∨ x.tt = .LUA_VLNGSTR := by
            cases e : x.tt <;> rw [e] at hk <;> first | exact Or.inl rfl | exact Or.inr rfl | cases hk
          rw [markrec_string 2 g a x hx hs] at e1
          cases e1
          exact quiet_store g _ a _ (fun y hy _ => by rw [hx] at hy; cases hy; exact hk) rfl rfl
        · cases e1
          exact quiet_refl g
      have hk1 : novariant x1.tt = LUA_TSTRING := by rw [touch_tt _ _ t1]; exact hk
      refine ⟨g1, false, ?_, s1, hq, ?_, ?_, fun e => (by cases e), fun _ b hb => ?_⟩
      · simp only [e1, Option.some_bind]
      · rw [clearedIn_some _ _ _ hx]
        simp only [hk, ne_eq, not_true_eq_false, decide_False, Bool.false_and]
      · rw [clearedIn_some _ _ _ hx1]
        simp only [hk1, ne_eq, not_true_eq_false, decide_False, Bool.false_and]
      · cases hb
        exact w1
    · rw [if_neg hk]
      refine ⟨g, iswhite x.marked, rfl, step_refl _ g, quiet_refl g, ?_, ?_, fun _ => rfl,
        fun e b hb => ?_⟩
      · rw [clearedIn_some _ _ _ hx]
        simp only [ne_eq, hk, not_false_eq_true, decide_True, Bool.true_and]
      · rw [clearedIn_some _ _ _ hx]
        simp only [ne_eq, hk, not_false_eq_true, decide_True, Bool.true_and]
      · cases hb
        rw [whiteIn_some _ _ _ hx]
        exact e

/-- Linking a non-white subject into a list other than `gray` is quiet. -/
theorem linkgclist_quiet (g : global_State) (o : Addr) (x : GCObject) (l : GrayList)
    (hx : g.heap o = some x) (hl : l ≠ .gray) (hnw : iswhite x.marked = false) :
    ∃ g2, linkgclist g o l = some g2 ∧
      Step (fun a => a = o) (if l = .ephemeron then [o] else []) g g2 ∧ Quiet g g2 := by
  obtain ⟨g2, e, s⟩ := linkgclist_step g o x l hx hl
  refine ⟨g2, e, s, ?_⟩
  rw [linkgclist_exact g o x l hx] at e
  cases e
  refine quiet_store g _ o { x with gclist := g.getlist l, marked := set2gray x.marked }
    (fun y hy w => ?_) ?_ ?_
  · rw [hx] at hy
    cases hy
    rw [hnw] at w
    cases w
  · cases l <;> rfl
  · cases l
    · exact absurd rfl hl
    all_goals rfl

/-- The check `genlink` on a non-white subject that has a `gclist` field. -/
theorem genlink_step (g : global_State) (o : Addr) (x : GCObject) (hx : g.heap o = some x)
    (hg : getgclist o x = some o) (hnw : iswhite x.marked = false) :
    ∃ g2, genlink g o = some g2 ∧ Step (fun a => a = o) [] g g2 ∧ Quiet g g2 ∧
      g2.ephemeron = g.ephemeron := by
  unfold genlink
  simp only [hx, Option.bind_eq_bind, Option.some_bind]
  by_cases h1 : getage x.marked = G_TOUCHED1
  · rw [if_pos h1]
    obtain ⟨g2, e, s, q⟩ := linkgclist_quiet g o x .grayagain hx (by decide) hnw
    refine ⟨g2, ?_, s, q, s.2.2.1⟩
    unfold linkobjgclist
    simp only [hx, Option.bind_eq_bind, Option.some_bind, hg]
    exact e
  · rw [if_neg h1]
    by_cases h2 : getage x.marked = G_TOUCHED2
    · rw [if_pos h2]
      refine ⟨_, rfl, step_store g _ o x _ hx
        (touch_mark x _ (fun _ => by rw [iswhite_changeage]; exact hnw)) rfl rfl rfl rfl,
        quiet_store g _ o _ (fun y hy w => ?_) rfl rfl, rfl⟩
      rw [hx] at hy
      cases hy
      rw [hnw] at w
      cases w
    · rw [if_neg h2]
      exact ⟨g, rfl, step_refl _ g, quiet_refl g, rfl⟩

theorem clearkey_kept (nd : Node) (he : isempty nd.i_val = true) : nodeKept nd (clearkey nd) := by
  unfold clearkey keyiscollectable setdeadkey nodeKept gckeyN
  cases hk : nd.key <;> simp only [hk, if_true, he, true_and, and_self, or_true, Bool.false_eq_true,
    if_false, true_or]

/-- Clearing the key of an empty entry of the subject is a quiet step. -/
theorem clearkey_step (g : global_State) (h : Addr) (t : GCObject) (i : Nat) (nd : Node)
    (ht : g.heap h = some t) (hnw : iswhite t.marked = false) (hi : t.node.get? i = some nd)
    (he : isempty nd.i_val = true) :
    Step (fun a => a = h) [] g (g.setobj h { t with node := t.node.set i (clearkey nd) }) ∧
    Quiet g (g.setobj h { t with node := t.node.set i (clearkey nd) }) := by
  have hlt : i < t.node.length := by
    rw [List.get?_eq_getElem?] at hi
    exact (List.getElem?_eq_some_iff.1 hi).1
  have htouch : Touch t { t with node := t.node.set i (clearkey nd) } := by
    refine ⟨rfl, fun k => k, List.length_set _ _ _, ?_, fun k => k, fun s k => ⟨s, k, fun _ _ => rfl⟩⟩
    intro j ndj hj
    by_cases hji : i = j
    · subst hji
      rw [hi] at hj
      cases hj
      refine ⟨clearkey nd, ?_, clearkey_kept nd he⟩
      show (t.node.set i (clearkey nd)).get? i = _
      rw [List.get?_eq_getElem?, List.getElem?_set, if_pos rfl, if_pos hlt]
    · refine ⟨ndj, ?_, nodeKept_refl ndj⟩
      show (t.node.set i (clearkey nd)).get? j = _
      rw [List.get?_eq_getElem?, List.getElem?_set_ne hji, ← List.get?_eq_getElem?]
      exact hj
  refine ⟨step_store g _ h t _ ht htouch rfl rfl rfl rfl,
    quiet_store g _ h _ (fun y hy w => ?_) rfl rfl⟩
  rw [ht] at hy
  cases hy
  rw [hnw] at w
  cases w

/-! ## The hash loops of the strong and the weak-value traversal -/

/-- The subject after a step: still live, touched, not white, and the memory
is still well formed. -/
theorem step_subject (X : List Addr) (g g2 : global_State) (h : Addr) (t : GCObject)
    (s : Step (fun a => a = h) X g g2) (ht : g.heap h = some t)
    (hnw : iswhite t.marked = false) :
    ∃ t2, g2.heap h = some t2 ∧ Touch t t2 ∧ iswhite t2.marked = false := by
  obtain ⟨t2, e, k⟩ := mk_live _ g g2 s.1 h t ht
  exact ⟨t2, e, k, k.2.1 hnw⟩

theorem subject_nonwhite (g : global_State) (h : Addr) (t : GCObject) (ht : g.heap h = some t)
    (hnw : iswhite t.marked = false) : ∀ a, a = h → whiteIn g.heap a = false := by
  intro a e
  rw [e, whiteIn_some _ _ _ ht]
  exact hnw

theorem node_at (t : GCObject) (i n : Nat) (h : i + (n + 1) = t.node.length) :
    ∃ nd, t.node.get? i = some nd ∧ nd ∈ t.node := by
  have hi : i < t.node.length := by omega
  exact ⟨_, List.get?_eq_get hi, List.get_mem _ _ _⟩

theorem traversestrongtable_loop_step (h : Addr) : ∀ (n i : Nat) (g : global_State)
    (t : GCObject), WF g → g.heap h = some t → iswhite t.marked = false →
    i + n = t.node.length →
    ∃ g2, traversestrongtable_loop h n i g = some g2 ∧ Step (fun a => a = h) [] g g2 := by
  intro n
  induction n with
  | zero => intro i g t _ _ _ _; exact ⟨g, rfl, step_refl _ g⟩
  | succ n ih =>
    intro i g t hwf ht hnw hlen
    obtain ⟨nd, hnd, hmem⟩ := node_at t i n hlen
    rw [traversestrongtable_loop]
    simp only [ht, Option.bind_eq_bind, Option.some_bind, hnd]
    have hS := subject_nonwhite g h t ht hnw
    cases he : isempty nd.i_val with
    | true =>
      rw [if_pos rfl]
      obtain ⟨s1, -⟩ := clearkey_step g h t i nd ht hnw hnd he
      obtain ⟨g2, e2, s2⟩ := ih (i + 1) _ _ (step_wf _ _ g _ s1 hwf) (heap_set_same _ _ _) hnw
        (by rw [show ({ t with node := t.node.set i (clearkey nd) } : GCObject).node.length
          = t.node.length from List.length_set _ _ _]; omega)
      exact ⟨g2, e2, step_trans _ [] g _ g2 hS s1 s2⟩
    | false =>
      rw [if_neg (by decide)]
      obtain ⟨g1, e1, s1, -⟩ := markkey_step g nd hwf ((hwf h t ht).nodekey nd hmem)
      have hwf1 := step_wf _ _ g g1 s1 hwf
      obtain ⟨g2, e2, s2, -⟩ := markvalue_step g1 nd.i_val hwf1
        (valOK_mk _ g g1 s1.1 _ ((hwf h t ht).nodeval nd hmem))
      have s12 := step_false_trans g g1 g2 s1 s2
      obtain ⟨t2, ht2, tt2⟩ := mk_live _ g g2 s12.1 h t ht
      obtain ⟨g3, e3, s3⟩ := ih (i + 1) g2 t2 (step_wf _ _ g1 g2 s2 hwf1) ht2 (tt2.2.1 hnw)
        (by rw [tt2.2.2.1]; omega)
      refine ⟨g3, ?_, step_trans0 _ [] g g2 g3 hS s12 s3⟩
      simp only [e1, Option.some_bind, e2]
      exact e3

theorem traverseweakvalue_loop_step (h : Addr) : ∀ (n i : Nat) (g : global_State)
    (t : GCObject) (hc : Bool), WF g → g.heap h = some t → iswhite t.marked = false →
    i + n = t.node.length →
    ∃ r, traverseweakvalue_loop h n i g hc = some r ∧ Step (fun a => a = h) [] g r.1 := by
  intro n
  induction n with
  | zero => intro i g t hc _ _ _ _; exact ⟨(g, hc), rfl, step_refl _ g⟩
  | succ n ih =>
    intro i g t hc hwf ht hnw hlen
    obtain ⟨nd, hnd, hmem⟩ := node_at t i n hlen
    rw [traverseweakvalue_loop]
    simp only [ht, Option.bind_eq_bind, Option.some_bind, hnd]
    have hS := subject_nonwhite g h t ht hnw
    cases he : isempty nd.i_val with
    | true =>
      rw [if_pos rfl]
      obtain ⟨s1, -⟩ := clearkey_step g h t i nd ht hnw hnd he
      obtain ⟨r, e2, s2⟩ := ih (i + 1) _ _ hc (step_wf _ _ g _ s1 hwf) (heap_set_same _ _ _) hnw
        (by rw [show ({ t with node := t.node.set i (clearkey nd) } : GCObject).node.length
          = t.node.length from List.length_set _ _ _]; omega)
      exact ⟨r, e2, step_trans _ [] g _ r.1 hS s1 s2⟩
    | false =>
      rw [if_neg (by decide)]
      obtain ⟨g1, e1, s1, -⟩ := markkey_step g nd hwf ((hwf h t ht).nodekey nd hmem)
      have hwf1 := step_wf _ _ g g1 s1 hwf
      simp only [e1, Option.some_bind]
      cases hc with
      | false =>
        have hv : PtrOK g1.heap (gcvalueN nd.i_val) := by
          intro r hr
          have hv := valOK_mk _ g g1 s1.1 _ ((hwf h t ht).nodeval nd hmem)
          cases hval : nd.i_val with
          | gc tg a =>
            rw [hval] at hr
            cases hr
            obtain ⟨y, hy, -⟩ := hv tg r hval
            exact ⟨y, hy⟩
          | nil => rw [hval] at hr; cases hr
          | empty => rw [hval] at hr; cases hr
          | prim k => rw [hval] at hr; cases hr
        obtain ⟨g2, c, e2, s2, -⟩ := iscleared_step g1 (gcvalueN nd.i_val) hwf1 hv
        have s12 := step_false_trans g g1 g2 s1 s2
        obtain ⟨t2, ht2, tt2⟩ := mk_live _ g g2 s12.1 h t ht
        obtain ⟨r, e3, s3⟩ := ih (i + 1) g2 t2 c (step_wf _ _ g1 g2 s2 hwf1) ht2 (tt2.2.1 hnw)
          (by rw [tt2.2.2.1]; omega)
        refine ⟨r, ?_, step_trans0 _ [] g g2 r.1 hS s12 s3⟩
        simp only [Bool.not_false, if_true, e2, Option.some_bind]
        exact e3
      | true =>
        obtain ⟨t1, ht1, tt1⟩ := mk_live _ g g1 s1.1 h t ht
        obtain ⟨r, e3, s3⟩ := ih (i + 1) g1 t1 true hwf1 ht1 (tt1.2.1 hnw)
          (by rw [tt1.2.2.1]; omega)
        refine ⟨r, ?_, step_trans0 _ [] g g1 r.1 hS s1 s3⟩
        simp only [Bool.not_true, Bool.false_eq_true, if_false]
        exact e3

/-! ## The loops of the ephemeron traversal -/

theorem ptrOK_value (h : Heap) (v : TValue) (hv : ValOK h v) : PtrOK h (gcvalueN v) := by
  intro r hr
  cases v with
  | gc tg a =>
    cases hr
    obtain ⟨y, hy, -⟩ := hv tg _ rfl
    exact ⟨y, hy⟩
  | nil => cases hr
  | empty => cases hr
  | prim k => cases hr

theorem ptrOK_key (g : global_State) (hwf : WF g) (h : Addr) (t : GCObject)
    (ht : g.heap h = some t) (nd : Node) (hmem : nd ∈ t.node) : PtrOK g.heap (gckeyN nd) := by
  intro r hr
  obtain ⟨y, hy, -⟩ := (hwf h t ht).nodekey nd hmem r hr
  exact ⟨y, hy⟩

/-- A settled entry stays settled along a quiet marking step. -/
theorem entryOK_quiet (S : Addr → Prop) (g g2 : global_State) (hm : Mk S g g2)
    (hq : Quiet g g2) (nd : Node) (he : EntryOK g.heap nd) : EntryOK g2.heap nd := by
  intro hne hc r hr
  refine mk_nonwhite S g g2 hm r (he hne ?_ r hr)
  cases hk : clearedIn g.heap (gckeyN nd) with
  | false => rfl
  | true =>
    exfalso
    cases ho : gckeyN nd with
    | none =>
      rw [ho] at hk
      cases hk
    | some a =>
      rw [ho] at hk hc
      rcases Option.eq_none_or_eq_some (g.heap a) with e | ⟨x, e⟩
      · unfold clearedIn at hk
        simp only [e] at hk
        cases hk
      · rw [clearedIn_some _ _ _ e] at hk
        simp only [Bool.and_eq_true, decide_eq_true_eq] at hk
        rw [clearedIn_some _ _ _ (hq.2 a x e hk.2 hk.1)] at hc
        simp only [hk.2, Bool.and_true, decide_eq_false_iff_not, not_not] at hc
        exact hk.1 hc

theorem traverseephemeron_array_step : ∀ (l : List TValue) (g : global_State) (m : Bool),
    WF g → (∀ v, v ∈ l → ValOK g.heap v) →
    ∃ g2 m2, traverseephemeron_array l g m = some (g2, m2) ∧
      Step (fun _ => False) [] g g2 ∧
      (m2 = false → m = false ∧ g2 = g) ∧
      (m2 = true → m = true ∨ ∃ r, whiteIn g.heap r = true ∧ whiteIn g2.heap r = false) ∧
      ∀ v, v ∈ l → ∀ r, gcvalueN v = some r → whiteIn g2.heap r = false := by
  intro l
  induction l with
  | nil =>
    intro g m _ _
    exact ⟨g, m, rfl, step_refl _ g, fun e => ⟨e, rfl⟩, fun e => Or.inl e, fun _ hv => (by cases hv)⟩
  | cons v l ih =>
    intro g m hwf hl
    obtain ⟨w, hw, hw1, hw0⟩ := valiswhite_wf g v (hl v (List.mem_cons_self _ _))
    rw [traverseephemeron_array]
    simp only [hw, Option.bind_eq_bind, Option.some_bind]
    cases w with
    | true =>
      obtain ⟨r, y, hr, hy, hyw⟩ := hw1 rfl
      obtain ⟨g1, e1, s1, w1⟩ := reallymarkobject_step g r y hwf hy hyw
      obtain ⟨g2, m2, e2, s2, A, -, C⟩ := ih g1 true (step_wf _ _ g g1 s1 hwf)
        (fun u hu => valOK_mk _ g g1 s1.1 u (hl u (List.mem_cons_of_mem _ hu)))
      refine ⟨g2, m2, ?_, step_false_trans g g1 g2 s1 s2, fun e => ?_, fun _ => Or.inr ⟨r, ?_, ?_⟩, ?_⟩
      · simp only [if_true, hr, Option.some_bind, e1]
        exact e2
      · have k := (A e).1
        cases k
      · rw [whiteIn_some _ _ _ hy]
        exact hyw
      · exact mk_nonwhite _ g1 g2 s2.1 r w1
      · intro u hu r2 hr2
        rcases List.mem_cons.1 hu with k | k
        · subst k
          rw [hr] at hr2
          cases hr2
          exact mk_nonwhite _ g1 g2 s2.1 _ w1
        · exact C u k r2 hr2
    | false =>
      obtain ⟨g2, m2, e2, s2, A, B, C⟩ := ih g m hwf
        (fun u hu => hl u (List.mem_cons_of_mem _ hu))
      refine ⟨g2, m2, ?_, s2, A, B, ?_⟩
      · simp only [Bool.false_eq_true, if_false]
        exact e2
      · intro u hu r2 hr2
        rcases List.mem_cons.1 hu with k | k
        · subst k
          exact mk_nonwhite _ g g2 s2.1 _ (hw0 rfl r2 hr2)
        · exact C u k r2 hr2

/-- An entry of the subject that was settled when it was visited, or was
empty, is settled at the end of a quiet step. -/
theorem entry_final (S : Addr → Prop) (g1 g2 : global_State) (t t2 : GCObject) (k : Nat)
    (nd nd2 : Node) (htt : Touch t t2) (hnd : t.node.get? k = some nd)
    (hnd2 : t2.node.get? k = some nd2) (hm : Mk S g1 g2) (hq : Quiet g1 g2)
    (he : isempty nd.i_val = true ∨ EntryOK g1.heap nd) : EntryOK g2.heap nd2 := by
  obtain ⟨nd3, e3, kept⟩ := htt.2.2.2.1 k nd hnd
  rw [hnd2] at e3
  cases e3
  intro hne
  rcases kept.2 with e | ⟨e, -⟩
  · subst e
    rcases he with he | he
    · rw [he] at hne
      cases hne
    · exact entryOK_quiet S g1 g2 hm hq _ he hne
  · rw [kept.1, e] at hne
    cases hne

/-- The hash loop of `traverseephemeron` returns; when it reports no mark it
was quiet and every entry it visited is settled, and when it reports a mark
that was not reported before, some white object is not white any more. -/
theorem traverseephemeron_loop_step (h : Addr) (inv : Bool) (nsize : Nat) :
    ∀ (n i : Nat) (g : global_State) (t : GCObject) (f : EphFlags), WF g →
    g.heap h = some t → iswhite t.marked = false → t.node.length = nsize → i + n = nsize →
    ∃ g2 f2, traverseephemeron_loop h inv nsize n i g f = some (g2, f2) ∧
      Step (fun a => a = h) [] g g2 ∧
      (f2.marked = false → f.marked = false ∧ Quiet g g2 ∧
        ∀ j, i ≤ j → j < nsize → ∀ t2 nd, g2.heap h = some t2 →
          t2.node.get? (if inv then nsize - 1 - j else j) = some nd → EntryOK g2.heap nd) ∧
      (f2.marked = true →
        f.marked = true ∨ ∃ r, whiteIn g.heap r = true ∧ whiteIn g2.heap r = false) := by
  intro n
  induction n with
  | zero =>
    intro i g t f _ _ _ _ hlen
    refine ⟨g, f, rfl, step_refl _ g, fun e => ⟨e, quiet_refl g, fun j h1 h2 => ?_⟩,
      fun e => Or.inl e⟩
    omega
  | succ n ih =>
    intro i g t f hwf ht hnw hsz hlen
    have hidx : (if inv = true then nsize - 1 - i else i) < t.node.length := by
      split <;> omega
    have hnd : t.node.get? (if inv = true then nsize - 1 - i else i)
        = some (t.node.get ⟨_, hidx⟩) := List.get?_eq_get hidx
    have hmem : t.node.get ⟨_, hidx⟩ ∈ t.node := List.get_mem _ _ _
    generalize t.node.get ⟨_, hidx⟩ = nd at hnd hmem
    have hS := subject_nonwhite g h t ht hnw
    rw [traverseephemeron_loop]
    simp only [ht, Option.bind_eq_bind, Option.some_bind, hnd]
    -- the entries from `i` on, once entry `i` is known to be settled at the end
    have hfin : ∀ (g1 g2 : global_State) (t1 : GCObject) (nd : Node),
        Step (fun a => a = h) [] g g1 →
        g1.heap h = some t1 → t1.node.get? (if inv = true then nsize - 1 - i else i) = some nd →
        Step (fun a => a = h) [] g1 g2 → Quiet g1 g2 →
        (isempty nd.i_val = true ∨ EntryOK g1.heap nd) →
        (∀ j, i + 1 ≤ j → j < nsize → ∀ t2 nd2, g2.heap h = some t2 →
          t2.node.get? (if inv = true then nsize - 1 - j else j) = some nd2 →
          EntryOK g2.heap nd2) →
        ∀ j, i ≤ j → j < nsize → ∀ t2 nd2, g2.heap h = some t2 →
          t2.node.get? (if inv = true then nsize - 1 - j else j) = some nd2 →
          EntryOK g2.heap nd2 := by
      intro g1 g2 t1 nd _ ht1 hnd1 s2 q2 he hrest j hj1 hj2 t2 nd2 ht2 hnd2
      by_cases hji : j = i
      · subst hji
        obtain ⟨t3, e3, tt3⟩ := mk_live _ g1 g2 s2.1 h t1 ht1
        rw [ht2] at e3
        cases e3
        exact entry_final _ g1 g2 t1 t2 _ nd nd2 tt3 hnd1 hnd2 s2.1 q2 he
      · exact hrest j (by omega) hj2 t2 nd2 ht2 hnd2
    cases he : isempty nd.i_val with
    | true =>
      rw [if_pos rfl]
      obtain ⟨s1, q1⟩ := clearkey_step g h t _ nd ht hnw hnd he
      have hl1 : (t.node.set (if inv = true then nsize - 1 - i else i) (clearkey nd)).length
          = nsize := by
        rw [← hsz]
        exact List.length_set _ _ _
      obtain ⟨g2, f2, e2, s2, A, B⟩ := ih (i + 1) _
        { t with node := t.node.set (if inv = true then nsize - 1 - i else i) (clearkey nd) } f
        (step_wf _ _ g _ s1 hwf) (heap_set_same _ _ _) hnw hl1 (by omega)
      refine ⟨g2, f2, e2, step_trans _ [] g _ g2 hS s1 s2, fun e => ?_, fun e => ?_⟩
      · obtain ⟨a1, a2, a3⟩ := A e
        refine ⟨a1, quiet_trans g _ g2 q1 a2, ?_⟩
        refine hfin _ g2 _ (clearkey nd) s1 (heap_set_same _ _ _) ?_ s2 a2 (Or.inl ?_) a3
        · show (t.node.set _ (clearkey nd)).get? _ = _
          rw [List.get?_eq_getElem?, List.getElem?_set, if_pos rfl, if_pos hidx]
        · rw [(clearkey_kept nd he).1]
          exact he
      · rcases B e with k | ⟨r, k1, k2⟩
        · exact Or.inl k
        · exact Or.inr ⟨r, mk_white_back _ g _ s1.1 r k1, k2⟩
    | false =>
      rw [if_neg (by decide)]
      obtain ⟨g1, c, e1, s1, q1, hc, hc1, -, -⟩ := iscleared_step g (gckeyN nd) hwf
        (ptrOK_key g hwf h t ht nd hmem)
      have hwf1 := step_wf _ _ g g1 s1 hwf
      have s1h : Step (fun a => a = h) [] g g1 := step_mono _ _ [] g g1 s1 (fun _ k => k.elim)
      obtain ⟨t1, ht1, tt1⟩ := mk_live _ g g1 s1.1 h t ht
      have et1 : t1 = t := by
        have k := mk_same _ g g1 s1.1 h (fun k => k) (hS h rfl)
        rw [ht1, ht] at k
        cases k
        rfl
      subst et1
      obtain ⟨w, hw, hw1, hw0⟩ := valiswhite_wf g1 nd.i_val
        (valOK_mk _ g g1 s1.1 _ ((hwf h t1 ht).nodeval nd hmem))
      simp only [e1, Option.some_bind, hw]
      cases c with
      | true =>
        rw [if_pos rfl]
        obtain ⟨g2, f2, e2, s2, A, B⟩ := ih (i + 1) g1 t1
          { f with hasclears := true, hasww := if w = true then true else f.hasww } hwf1 ht1 hnw
          hsz (by omega)
        refine ⟨g2, f2, e2, step_trans _ [] g g1 g2 hS s1h s2, fun e => ?_, fun e => ?_⟩
        · obtain ⟨a1, a2, a3⟩ := A e
          refine ⟨a1, quiet_trans g g1 g2 q1 a2, hfin g1 g2 t1 nd s1h ht1 hnd s2 a2 (Or.inr ?_) a3⟩
          intro _ hcl
          rw [hc1] at hcl
          cases hcl
        · rcases B e with k | ⟨r, k1, k2⟩
          · exact Or.inl k
          · exact Or.inr ⟨r, mk_white_back _ g g1 s1.1 r k1, k2⟩
      | false =>
        rw [if_neg (by decide)]
        cases w with
        | true =>
          rw [if_pos rfl]
          obtain ⟨r, y, hr, hy, hyw⟩ := hw1 rfl
          obtain ⟨g2, e2, s2, w2⟩ := reallymarkobject_step g1 r y hwf1 hy hyw
          have s12 := step_false_trans g g1 g2 s1 s2
          obtain ⟨t2, ht2, tt2⟩ := mk_live _ g g2 s12.1 h t1 ht
          obtain ⟨g3, f3, e3, s3, A, -⟩ := ih (i + 1) g2 t2 { f with marked := true }
            (step_wf _ _ g1 g2 s2 hwf1) ht2 (tt2.2.1 hnw) (tt2.2.2.1.trans hsz) (by omega)
          refine ⟨g3, f3, ?_, step_trans0 _ [] g g2 g3 hS s12 s3, fun e => ?_,
            fun _ => Or.inr ⟨r, ?_, ?_⟩⟩
          · simp only [hr, Option.some_bind, e2]
            exact e3
          · have k := (A e).1
            cases k
          · refine mk_white_back _ g g1 s1.1 r ?_
            rw [whiteIn_some _ _ _ hy]
            exact hyw
          · exact mk_nonwhite _ g2 g3 s3.1 r w2
        | false =>
          rw [if_neg (by decide)]
          obtain ⟨g2, f2, e2, s2, A, B⟩ := ih (i + 1) g1 t1 f hwf1 ht1 hnw hsz (by omega)
          refine ⟨g2, f2, e2, step_trans _ [] g g1 g2 hS s1h s2, fun e => ?_, fun e => ?_⟩
          · obtain ⟨a1, a2, a3⟩ := A e
            refine ⟨a1, quiet_trans g g1 g2 q1 a2,
              hfin g1 g2 t1 nd s1h ht1 hnd s2 a2 (Or.inr ?_) a3⟩
            intro _ _ r hr
            exact hw0 rfl r hr
          · rcases B e with k | ⟨r, k1, k2⟩
            · exact Or.inl k
            · exact Or.inr ⟨r, mk_white_back _ g g1 s1.1 r k1, k2⟩

/-! ## Entries whose value is marked -/

theorem valSettled_entryOK (h : Heap) (nd : Node) (k : ValSettled h nd) : EntryOK h nd :=
  fun hne _ r hr => k hne r hr

theorem strongOK_entriesOK (h : Heap) (a : Addr) (k : StrongOK h a) : EntriesOK h a :=
  fun t ht nd hnd => valSettled_entryOK h nd (k t ht nd hnd)

theorem valSettled_final (S : Addr → Prop) (g1 g2 : global_State) (t t2 : GCObject) (k : Nat)
    (nd nd2 : Node) (htt : Touch t t2) (hnd : t.node.get? k = some nd)
    (hnd2 : t2.node.get? k = some nd2) (hm : Mk S g1 g2)
    (he : isempty nd.i_val = true ∨ ValSettled g1.heap nd) : ValSettled g2.heap nd2 := by
  obtain ⟨nd3, e3, kept⟩ := htt.2.2.2.1 k nd hnd
  rw [hnd2] at e3
  cases e3
  intro hne r hr
  rw [kept.1] at hne hr
  rcases he with he | he
  · rw [he] at hne
    cases hne
  · exact mk_nonwhite S g1 g2 hm r (he hne r hr)

/-- Marking keeps the values of a table settled. -/
theorem strongOK_mk (S : Addr → Prop) (g g2 : global_State) (hm : Mk S g g2) (a : Addr)
    (h : StrongOK g.heap a) : StrongOK g2.heap a := by
  intro t2 ht2 nd2 hmem
  obtain ⟨t, ht, tt⟩ := mk_back S g g2 hm a t2 ht2
  obtain ⟨k, hk⟩ := mem_get? _ _ hmem
  obtain ⟨nd, hnd, -⟩ := touch_node_back t t2 tt k nd2 hk
  have hm2 : nd ∈ t.node := List.get?_mem hnd
  exact valSettled_final S g g2 t t2 k nd nd2 tt hnd hk hm (Or.inr (h t ht nd hm2))

/-- The hash loop of `traverseephemeron` returns; when no entry with a white
key and a white value was seen, the value of every entry it visited is not
white at the end. -/
theorem traverseephemeron_loop_strong (h : Addr) (inv : Bool) (nsize : Nat) :
    ∀ (n i : Nat) (g : global_State) (t : GCObject) (f : EphFlags), WF g →
    g.heap h = some t → iswhite t.marked = false → t.node.length = nsize → i + n = nsize →
    ∃ g2 f2, traverseephemeron_loop h inv nsize n i g f = some (g2, f2) ∧
      Step (fun a => a = h) [] g g2 ∧
      (f2.hasww = false → f.hasww = false ∧
        ∀ j, i ≤ j → j < nsize → ∀ t2 nd, g2.heap h = some t2 →
          t2.node.get? (if inv then nsize - 1 - j else j) = some nd → ValSettled g2.heap nd) := by
  intro n
  induction n with
  | zero =>
    intro i g t f _ _ _ _ hlen
    refine ⟨g, f, rfl, step_refl _ g, fun e => ⟨e, fun j h1 h2 => ?_⟩⟩
    omega
  | succ n ih =>
    intro i g t f hwf ht hnw hsz hlen
    have hidx : (if inv = true then nsize - 1 - i else i) < t.node.length := by
      split <;> omega
    have hnd : t.node.get? (if inv = true then nsize - 1 - i else i)
        = some (t.node.get ⟨_, hidx⟩) := List.get?_eq_get hidx
    have hmem : t.node.get ⟨_, hidx⟩ ∈ t.node := List.get_mem _ _ _
    generalize t.node.get ⟨_, hidx⟩ = nd at hnd hmem
    have hS := subject_nonwhite g h t ht hnw
    rw [traverseephemeron_loop]
    simp only [ht, Option.bind_eq_bind, Option.some_bind, hnd]
    have hfin : ∀ (g1 g2 : global_State) (t1 : GCObject) (nd : Node),
        g1.heap h = some t1 → t1.node.get? (if inv = true then nsize - 1 - i else i) = some nd →
        Step (fun a => a = h) [] g1 g2 →
        (isempty nd.i_val = true ∨ ValSettled g1.heap nd) →
        (∀ j, i + 1 ≤ j → j < nsize → ∀ t2 nd2, g2.heap h = some t2 →
          t2.node.get? (if inv = true then nsize - 1 - j else j) = some nd2 →
          ValSettled g2.heap nd2) →
        ∀ j, i ≤ j → j < nsize → ∀ t2 nd2, g2.heap h = some t2 →
          t2.node.get? (if inv = true then nsize - 1 - j else j) = some nd2 →
          ValSettled g2.heap nd2 := by
      intro g1 g2 t1 nd ht1 hnd1 s2 he hrest j hj1 hj2 t2 nd2 ht2 hnd2
      by_cases hji : j = i
      · subst hji
        obtain ⟨t3, e3, tt3⟩ := mk_live _ g1 g2 s2.1 h t1 ht1
        rw [ht2] at e3
        cases e3
        exact valSettled_final _ g1 g2 t1 t2 _ nd nd2 tt3 hnd1 hnd2 s2.1 he
      · exact hrest j (by omega) hj2 t2 nd2 ht2 hnd2
    cases he : isempty nd.i_val with
    | true =>
      rw [if_pos rfl]
      obtain ⟨s1, q1⟩ := clearkey_step g h t _ nd ht hnw hnd he
      have hl1 : (t.node.set (if inv = true then nsize - 1 - i else i) (clearkey nd)).length
          = nsize := by
        rw [← hsz]
        exact List.length_set _ _ _
      obtain ⟨g2, f2, e2, s2, A⟩ := ih (i + 1) _
        { t with node := t.node.set (if inv = true then nsize - 1 - i else i) (clearkey nd) } f
        (step_wf _ _ g _ s1 hwf) (heap_set_same _ _ _) hnw hl1 (by omega)
      refine ⟨g2, f2, e2, step_trans _ [] g _ g2 hS s1 s2, fun e => ?_⟩
      obtain ⟨a1, a3⟩ := A e
      refine ⟨a1, ?_⟩
      refine hfin _ g2 _ (clearkey nd) (heap_set_same _ _ _) ?_ s2 (Or.inl ?_) a3
      · show (t.node.set _ (clearkey nd)).get? _ = _
        rw [List.get?_eq_getElem?, List.getElem?_set, if_pos rfl, if_pos hidx]
      · rw [(clearkey_kept nd he).1]
        exact he
    | false =>
      rw [if_neg (by decide)]
      obtain ⟨g1, c, e1, s1, q1, hc, hc1, -, -⟩ := iscleared_step g (gckeyN nd) hwf
        (ptrOK_key g hwf h t ht nd hmem)
      have hwf1 := step_wf _ _ g g1 s1 hwf
      have s1h : Step (fun a => a = h) [] g g1 := step_mono _ _ [] g g1 s1 (fun _ k => k.elim)
      obtain ⟨t1, ht1, tt1⟩ := mk_live _ g g1 s1.1 h t ht
      have et1 : t1 = t := by
        have k := mk_same _ g g1 s1.1 h (fun k => k) (hS h rfl)
        rw [ht1, ht] at k
        cases k
        rfl
      subst et1
      obtain ⟨w, hw, hw1, hw0⟩ := valiswhite_wf g1 nd.i_val
        (valOK_mk _ g g1 s1.1 _ ((hwf h t1 ht).nodeval nd hmem))
      simp only [e1, Option.some_bind, hw]
      cases c with
      | true =>
        rw [if_pos rfl]
        obtain ⟨g2, f2, e2, s2, A⟩ := ih (i + 1) g1 t1
          { f with hasclears := true, hasww := if w = true then true else f.hasww } hwf1 ht1 hnw
          hsz (by omega)
        refine ⟨g2, f2, e2, step_trans _ [] g g1 g2 hS s1h s2, fun e => ?_⟩
        obtain ⟨a1, a3⟩ := A e
        have a1b : (if w = true then true else f.hasww) = false := a1
        cases w with
        | true => simp at a1b
        | false =>
          simp only [Bool.false_eq_true, if_false] at a1b
          refine ⟨a1b, hfin g1 g2 t1 nd ht1 hnd s2 (Or.inr ?_) a3⟩
          intro _ r hr
          exact hw0 rfl r hr
      | false =>
        rw [if_neg (by decide)]
        cases w with
        | true =>
          rw [if_pos rfl]
          obtain ⟨r, y, hr, hy, hyw⟩ := hw1 rfl
          obtain ⟨g2, e2, s2, w2⟩ := reallymarkobject_step g1 r y hwf1 hy hyw
          have s12 := step_false_trans g g1 g2 s1 s2
          obtain ⟨t2, ht2, tt2⟩ := mk_live _ g g2 s12.1 h t1 ht
          obtain ⟨g3, f3, e3, s3, A⟩ := ih (i + 1) g2 t2 { f with marked := true }
            (step_wf _ _ g1 g2 s2 hwf1) ht2 (tt2.2.1 hnw) (tt2.2.2.1.trans hsz) (by omega)
          refine ⟨g3, f3, ?_, step_trans0 _ [] g g2 g3 hS s12 s3, fun e => ?_⟩
          · simp only [hr, Option.some_bind, e2]
            exact e3
          · obtain ⟨a1, a3⟩ := A e
            refine ⟨a1, ?_⟩
            obtain ⟨nd2, hnd2, kept⟩ := tt2.2.2.2.1 _ nd hnd
            refine hfin g2 g3 t2 nd2 ht2 hnd2 s3 (Or.inr ?_) a3
            intro _ r2 hr2
            rw [kept.1, hr] at hr2
            cases hr2
            exact w2
        | false =>
          rw [if_neg (by decide)]
          obtain ⟨g2, f2, e2, s2, A⟩ := ih (i + 1) g1 t1 f hwf1 ht1 hnw hsz (by omega)
          refine ⟨g2, f2, e2, step_trans _ [] g g1 g2 hS s1h s2, fun e => ?_⟩
          obtain ⟨a1, a3⟩ := A e
          refine ⟨a1, hfin g1 g2 t1 nd ht1 hnd s2 (Or.inr ?_) a3⟩
          intro _ r hr
          exact hw0 rfl r hr

/-- The traversal of an ephemeron table returns, as a step whose subject is
the table; when it reports a mark some white object is not white any more,
and when it reports none it was quiet and the entries of the table are
settled; outside the propagation phase the table is linked into the
ephemeron list again or the values of all its entries are marked. -/
theorem traverseephemeron_step (g : global_State) (h : Addr) (inv : Bool) (t : GCObject)
    (hwf : WF g) (ht : g.heap h = some t) (hnw : iswhite t.marked = false)
    (htab : t.tt = .LUA_VTABLE) :
    ∃ g2 m X, traverseephemeron g h inv = some (g2, m) ∧ Step (fun a => a = h) X g g2 ∧
      (m = true → ∃ r, whiteIn g.heap r = true ∧ whiteIn g2.heap r = false) ∧
      (m = false → Quiet g g2 ∧ EntriesOK g2.heap h) ∧
      (g.gcstate ≠ GCSpropagate → h ∈ X ∨ StrongOK g2.heap h) := by
  have hS := subject_nonwhite g h t ht hnw
  obtain ⟨g1, m1, e1, s1, A1, B1, -⟩ := traverseephemeron_array_step t.array g false hwf
    (hwf h t ht).array
  have hwf1 := step_wf _ _ g g1 s1 hwf
  obtain ⟨t1, ht1, tt1⟩ := mk_live _ g g1 s1.1 h t ht
  obtain ⟨g2, f, e2, s2, A2, B2⟩ := traverseephemeron_loop_step h inv t.node.length
    t.node.length 0 g1 t1 { marked := m1, hasclears := false, hasww := false } hwf1 ht1
    (tt1.2.1 hnw) tt1.2.2.1 (by omega)
  have hwf2 := step_wf _ _ g1 g2 s2 hwf1
  have s12 : Step (fun a => a = h) [] g g2 := step_trans0 _ [] g g1 g2 hS s1 s2
  obtain ⟨t2, ht2, tt2⟩ := mk_live _ g g2 s12.1 h t ht
  have hnw2 := tt2.2.1 hnw
  have hg2 : getgclist h t2 = some h := by
    unfold getgclist
    rw [touch_tt _ _ tt2, htab]
  -- the link at the end
  have hlink : ∃ g3 X, (if g2.gcstate = GCSpropagate
      then (linkgclist g2 h .grayagain).bind fun a => some (a, f.marked)
      else if f.hasww = true then (linkgclist g2 h .ephemeron).bind fun a => some (a, f.marked)
      else if f.hasclears = true
        then (linkgclist g2 h .allweak).bind fun a => some (a, f.marked)
      else (genlink g2 h).bind fun a => some (a, f.marked)) = some (g3, f.marked) ∧
      Step (fun a => a = h) X g2 g3 ∧ Quiet g2 g3 ∧
      (g2.gcstate ≠ GCSpropagate → f.hasww = true → h ∈ X) := by
    split
    · rename_i hp
      obtain ⟨g3, e, s, q⟩ := linkgclist_quiet g2 h t2 .grayagain ht2 (by decide) hnw2
      exact ⟨g3, _, by rw [e]; rfl, s, q, fun k => absurd hp k⟩
    · split
      · obtain ⟨g3, e, s, q⟩ := linkgclist_quiet g2 h t2 .ephemeron ht2 (by decide) hnw2
        exact ⟨g3, _, by rw [e]; rfl, s, q, fun _ _ => by simp⟩
      · rename_i hww
        split
        · obtain ⟨g3, e, s, q⟩ := linkgclist_quiet g2 h t2 .allweak ht2 (by decide) hnw2
          exact ⟨g3, _, by rw [e]; rfl, s, q, fun _ k => absurd k hww⟩
        · obtain ⟨g3, e, s, q, -⟩ := genlink_step g2 h t2 ht2 hg2 hnw2
          exact ⟨g3, _, by rw [e]; rfl, s, q, fun _ k => absurd k hww⟩
  obtain ⟨g3, X, e3, s3, q3, hX⟩ := hlink
  refine ⟨g3, f.marked, X, ?_, step_trans _ X g g2 g3 hS s12 s3, fun e => ?_, fun e => ?_,
    fun hst => ?_⟩
  rotate_right
  · have est : g2.fixed.gcstate = g.fixed.gcstate := congrArg global_State.gcstate s12.1.1
    have est : g2.gcstate = g.gcstate := est
    cases hww : f.hasww with
    | true => exact Or.inl (hX (by rw [est]; exact hst) hww)
    | false =>
      refine Or.inr (strongOK_mk _ g2 g3 s3.1 h ?_)
      obtain ⟨g2b, fb, e2b, -, C⟩ := traverseephemeron_loop_strong h inv t.node.length
        t.node.length 0 g1 t1 { marked := m1, hasclears := false, hasww := false } hwf1 ht1
        (tt1.2.1 hnw) tt1.2.2.1 (by omega)
      rw [e2] at e2b
      cases e2b
      obtain ⟨-, C2⟩ := C hww
      intro t2b ht2b nd hmem
      rw [ht2] at ht2b
      cases ht2b
      obtain ⟨k, hk⟩ := mem_get? _ _ hmem
      have hklt : k < t.node.length := by
        rw [← tt2.2.2.1]
        rw [List.get?_eq_getElem?] at hk
        exact (List.getElem?_eq_some_iff.1 hk).1
      have hidx : (if inv = true then t.node.length - 1 - (if inv = true then t.node.length - 1 - k
          else k) else (if inv = true then t.node.length - 1 - k else k)) = k := by
        cases inv
        · rfl
        · simp only [if_true]
          omega
      have hj : (if inv = true then t.node.length - 1 - k else k) < t.node.length := by
        split <;> omega
      exact C2 (if inv = true then t.node.length - 1 - k else k) (Nat.zero_le _) hj t2 nd ht2
        (by rw [hidx]; exact hk)
  · unfold traverseephemeron
    simp only [ht, Option.bind_eq_bind, Option.some_bind, e1, e2]
    exact e3
  · rcases B2 e with k | ⟨r, k1, k2⟩
    · rcases B1 k with k0 | ⟨r, k1, k2⟩
      · cases k0
      · exact ⟨r, k1, mk_nonwhite _ g2 g3 s3.1 r (mk_nonwhite _ g1 g2 s2.1 r k2)⟩
    · exact ⟨r, mk_white_back _ g g1 s1.1 r k1, mk_nonwhite _ g2 g3 s3.1 r k2⟩
  · obtain ⟨a1, a2, a3⟩ := A2 e
    have eg : g1 = g := (A1 a1).2
    subst eg
    refine ⟨quiet_trans g1 g2 g3 a2 q3, ?_⟩
    intro t3 ht3 nd3 hmem
    obtain ⟨k, hk⟩ := mem_get? _ _ hmem
    obtain ⟨t3b, e3b, tt3⟩ := mk_live _ g2 g3 s3.1 h t2 ht2
    rw [ht3] at e3b
    cases e3b
    obtain ⟨nd2, hnd2, -⟩ := touch_node_back t2 t3 tt3 k nd3 hk
    have hklt : k < t.node.length := by
      rw [← tt2.2.2.1]
      rw [List.get?_eq_getElem?] at hnd2
      exact (List.getElem?_eq_some_iff.1 hnd2).1
    have hidx : (if inv = true then t.node.length - 1 - (if inv = true then t.node.length - 1 - k
        else k) else (if inv = true then t.node.length - 1 - k else k)) = k := by
      cases inv
      · rfl
      · simp only [if_true]
        omega
    have hj : (if inv = true then t.node.length - 1 - k else k) < t.node.length := by
      split <;> omega
    have he2 : EntryOK g2.heap nd2 :=
      a3 (if inv = true then t.node.length - 1 - k else k) (Nat.zero_le _) hj t2 nd2 ht2
        (by rw [hidx]; exact hnd2)
    exact entry_final _ g2 g3 t2 t3 k nd2 nd3 tt3 hnd2 hk s3.1 q3 (Or.inr he2)

/-! ## The traversals of tables -/

theorem traversestrongtable_step (g : global_State) (h : Addr) (t : GCObject) (hwf : WF g)
    (ht : g.heap h = some t) (hnw : iswhite t.marked = false) (htab : t.tt = .LUA_VTABLE) :
    ∃ g2, traversestrongtable g h = some g2 ∧ Step (fun a => a = h) [] g g2 := by
  have hS := subject_nonwhite g h t ht hnw
  obtain ⟨g1, e1, s1, -⟩ := markvalues_step t.array g hwf (hwf h t ht).array
  have hwf1 := step_wf _ _ g g1 s1 hwf
  obtain ⟨t1, ht1, tt1⟩ := mk_live _ g g1 s1.1 h t ht
  obtain ⟨g2, e2, s2⟩ := traversestrongtable_loop_step h t.node.length 0 g1 t1 hwf1 ht1
    (tt1.2.1 hnw) (by rw [tt1.2.2.1]; omega)
  have s12 : Step (fun a => a = h) [] g g2 := step_trans0 _ [] g g1 g2 hS s1 s2
  obtain ⟨t2, ht2, tt2⟩ := mk_live _ g g2 s12.1 h t ht
  have hg2 : getgclist h t2 = some h := by
    unfold getgclist
    rw [touch_tt _ _ tt2, htab]
  obtain ⟨g3, e3, s3, -⟩ := genlink_step g2 h t2 ht2 hg2 (tt2.2.1 hnw)
  refine ⟨g3, ?_, step_trans _ [] g g2 g3 hS s12 s3⟩
  unfold traversestrongtable
  simp only [ht, Option.bind_eq_bind, Option.some_bind, e1, e2]
  exact e3

theorem traverseweakvalue_step (g : global_State) (h : Addr) (t : GCObject) (hwf : WF g)
    (ht : g.heap h = some t) (hnw : iswhite t.marked = false) :
    ∃ g2, traverseweakvalue g h = some g2 ∧ Step (fun a => a = h) [] g g2 := by
  have hS := subject_nonwhite g h t ht hnw
  obtain ⟨r, e1, s1⟩ := traverseweakvalue_loop_step h t.node.length 0 g t
    (decide (t.alimit > 0)) hwf ht hnw (by omega)
  obtain ⟨t1, ht1, tt1⟩ := mk_live _ g r.1 s1.1 h t ht
  have hl : ∃ g2, (if (r.1.gcstate = GCSatomic && r.2) = true then linkgclist r.1 h .weak
      else linkgclist r.1 h .grayagain) = some g2 ∧ Step (fun a => a = h) [] r.1 g2 := by
    split
    · obtain ⟨g2, e, s⟩ := linkgclist_step r.1 h t1 .weak ht1 (by decide)
      exact ⟨g2, e, s⟩
    · obtain ⟨g2, e, s⟩ := linkgclist_step r.1 h t1 .grayagain ht1 (by decide)
      exact ⟨g2, e, s⟩
  obtain ⟨g2, e2, s2⟩ := hl
  refine ⟨g2, ?_, step_trans _ [] g r.1 g2 hS s1 s2⟩
  unfold traverseweakvalue
  simp only [ht, Option.bind_eq_bind, Option.some_bind, e1]
  exact e2

/-- The traversal of a table returns, as a step whose subject is the table. -/
theorem traversetable_step (g : global_State) (h : Addr) (t : GCObject) (hwf : WF g)
    (ht : g.heap h = some t) (hnw : iswhite t.marked = false) (htab : t.tt = .LUA_VTABLE) :
    ∃ r X, traversetable g h = some r ∧ Step (fun a => a = h) X g r.1 := by
  have hS := subject_nonwhite g h t ht hnw
  have hmode : ∃ mode, gfasttm g t.metatable .TM_MODE = some mode ∧
      ∀ tg s, mode = some (.gc tg s) → ∃ z, g.heap s = some z := by
    unfold gfasttm
    rcases Option.eq_none_or_eq_some t.metatable with e | ⟨mt, e⟩
    · rw [e]
      exact ⟨none, rfl, fun _ _ k => (by cases k)⟩
    · rw [e]
      obtain ⟨y, hy, -, hm⟩ := (hwf h t ht).metatable mt e
      refine ⟨y.tm_mode, ?_, hm⟩
      simp only [hy, Option.map_some']
  obtain ⟨mode, emode, hmode⟩ := hmode
  have hp : PtrOK g.heap t.metatable := by
    intro mt e
    obtain ⟨y, hy, -⟩ := (hwf h t ht).metatable mt e
    exact ⟨y, hy⟩
  obtain ⟨g1, e1, s1, -⟩ := markobjectN_step g t.metatable hwf hp
  have hwf1 := step_wf _ _ g g1 s1 hwf
  obtain ⟨t1, ht1, tt1⟩ := mk_live _ g g1 s1.1 h t ht
  have hnw1 := tt1.2.1 hnw
  have htab1 : t1.tt = .LUA_VTABLE := by rw [touch_tt _ _ tt1]; exact htab
  have hfin : ∀ (o : Option global_State) (g2 : global_State) (X : List Addr), o = some g2 →
      Step (fun a => a = h) X g1 g2 →
      ∃ r X, (o.bind fun y => (y.heap h).bind fun t2 => some (y, 1 + t2.alimit + 2 * allocsizenode t2)) = some r ∧
        Step (fun a => a = h) X g r.1 := by
    intro o g2 X e s2
    have s12 := step_trans0 _ X g g1 g2 hS s1 s2
    obtain ⟨t2, ht2, -⟩ := mk_live _ g g2 s12.1 h t ht
    refine ⟨(g2, 1 + t2.alimit + 2 * allocsizenode t2), X, ?_, s12⟩
    rw [e]
    simp only [Option.some_bind, ht2]
  have hstrong : ∃ r X, ((traversestrongtable g1 h).bind
      fun y => (y.heap h).bind fun t2 => some (y, 1 + t2.alimit + 2 * allocsizenode t2)) = some r ∧
      Step (fun a => a = h) X g r.1 := by
    obtain ⟨g2, e, s⟩ := traversestrongtable_step g1 h t1 hwf1 ht1 hnw1 htab1
    exact hfin _ g2 [] e s
  unfold traversetable
  simp only [ht, Option.bind_eq_bind, Option.some_bind, emode, e1]
  split
  · rename_i s
    obtain ⟨z, hz⟩ := hmode _ s rfl
    obtain ⟨z1, hz1, -⟩ := mk_live _ g g1 s1.1 s z hz
    simp only [hz1, Option.some_bind]
    split
    · split
      · obtain ⟨g2, e, s⟩ := traverseweakvalue_step g1 h t1 hwf1 ht1 hnw1
        exact hfin _ g2 [] e s
      · split
        · obtain ⟨g2, m, X, e, s, -⟩ := traverseephemeron_step g1 h false t1 hwf1 ht1 hnw1 htab1
          exact hfin _ g2 X (by rw [e]; rfl) s
        · obtain ⟨g2, e, s⟩ := linkgclist_step g1 h t1 .allweak ht1 (by decide)
          exact hfin _ g2 _ e s
    · exact hstrong
  · exact hstrong

/-! ## The traversals of userdata, prototypes and closures -/

theorem traverseudata_step (g : global_State) (u : Addr) (x : GCObject) (hwf : WF g)
    (hx : g.heap u = some x) (hnw : iswhite x.marked = false) (hk : x.tt = .LUA_VUSERDATA) :
    ∃ r, traverseudata g u = some r ∧ Step (fun a => a = u) [] g r.1 := by
  have hS := subject_nonwhite g u x hx hnw
  have hp : PtrOK g.heap x.metatable := by
    intro mt e
    obtain ⟨y, hy, -⟩ := (hwf u x hx).metatable mt e
    exact ⟨y, hy⟩
  obtain ⟨g1, e1, s1, -⟩ := markobjectN_step g x.metatable hwf hp
  have hwf1 := step_wf _ _ g g1 s1 hwf
  obtain ⟨g2, e2, s2, -⟩ := markvalues_step x.uv g1 hwf1
    (fun v hv => valOK_mk _ g g1 s1.1 v ((hwf u x hx).uv v hv))
  have s12 := step_false_trans g g1 g2 s1 s2
  obtain ⟨x2, hx2, tx2⟩ := mk_live _ g g2 s12.1 u x hx
  have hg2 : getgclist u x2 = some u := by
    unfold getgclist
    rw [touch_tt _ _ tx2, hk]
  obtain ⟨g3, e3, s3, -⟩ := genlink_step g2 u x2 hx2 hg2 (tx2.2.1 hnw)
  have s13 := step_trans0 _ [] g g2 g3 hS s12 s3
  obtain ⟨x3, hx3, -⟩ := mk_live _ g g3 s13.1 u x hx
  refine ⟨(g3, 1 + x3.uv.length), ?_, s13⟩
  unfold traverseudata
  simp only [hx, Option.bind_eq_bind, Option.some_bind, e1, e2, e3, hx3]

theorem traverseproto_step (g : global_State) (f : Addr) (x : GCObject) (hwf : WF g)
    (hx : g.heap f = some x) :
    ∃ r, traverseproto g f = some r ∧ Step (fun a => a = f) [] g r.1 := by
  have W := hwf f x hx
  obtain ⟨g1, e1, s1, -⟩ := markobjectN_step g x.source hwf W.source
  have hwf1 := step_wf _ _ g g1 s1 hwf
  obtain ⟨g2, e2, s2, -⟩ := markvalues_step x.k g1 hwf1
    (fun v hv => valOK_mk _ g g1 s1.1 v (W.k v hv))
  have s02 := step_false_trans g g1 g2 s1 s2
  have hwf2 := step_wf _ _ g g2 s02 hwf
  obtain ⟨g3, e3, s3, -⟩ := markobjectsN_step x.upvalues g2 hwf2
    (fun p hp => ptrOK_mk _ g g2 s02.1 p (W.upvalues p hp))
  have s03 := step_false_trans g g2 g3 s02 s3
  have hwf3 := step_wf _ _ g g3 s03 hwf
  obtain ⟨g4, e4, s4, -⟩ := markobjectsN_step x.p g3 hwf3
    (fun p hp => ptrOK_mk _ g g3 s03.1 p (W.p p hp))
  have s04 := step_false_trans g g3 g4 s03 s4
  have hwf4 := step_wf _ _ g g4 s04 hwf
  obtain ⟨g5, e5, s5, -⟩ := markobjectsN_step x.locvars g4 hwf4
    (fun p hp => ptrOK_mk _ g g4 s04.1 p (W.locvars p hp))
  have s05 := step_false_trans g g4 g5 s04 s5
  refine ⟨(g5, 1 + x.k.length + x.upvalues.length + x.p.length + x.locvars.length), ?_,
    step_mono _ _ [] g g5 s05 (fun _ k => k.elim)⟩
  unfold traverseproto
  simp only [hx, Option.bind_eq_bind, Option.some_bind, e1, e2, e3, e4, e5]

theorem traverseCclosure_step (g : global_State) (cl : Addr) (x : GCObject) (hwf : WF g)
    (hx : g.heap cl = some x) :
    ∃ r, traverseCclosure g cl = some r ∧ Step (fun a => a = cl) [] g r.1 := by
  obtain ⟨g1, e1, s1, -⟩ := markvalues_step x.upvalue g hwf (hwf cl x hx).upvalue
  refine ⟨(g1, 1 + x.upvalue.length), ?_, step_mono _ _ [] g g1 s1 (fun _ k => k.elim)⟩
  unfold traverseCclosure
  simp only [hx, Option.bind_eq_bind, Option.some_bind, e1]

theorem traverseLclosure_step (g : global_State) (cl : Addr) (x : GCObject) (hwf : WF g)
    (hx : g.heap cl = some x) :
    ∃ r, traverseLclosure g cl = some r ∧ Step (fun a => a = cl) [] g r.1 := by
  have W := hwf cl x hx
  obtain ⟨g1, e1, s1, -⟩ := markobjectN_step g x.cl_p hwf W.cl_p
  have hwf1 := step_wf _ _ g g1 s1 hwf
  obtain ⟨g2, e2, s2, -⟩ := markobjectsN_step x.upvals g1 hwf1
    (fun p hp => ptrOK_mk _ g g1 s1.1 p (W.upvals p hp))
  refine ⟨(g2, 1 + x.upvals.length), ?_,
    step_mono _ _ [] g g2 (step_false_trans g g1 g2 s1 s2) (fun _ k => k.elim)⟩
  unfold traverseLclosure
  simp only [hx, Option.bind_eq_bind, Option.some_bind, e1, e2]

/-! ## The traversal of a thread -/

theorem traversethread_uvs_step : ∀ (C : List Addr) (fuel : Nat) (g : global_State)
    (p : Option Addr), IsGSeg (uvHeap g.heap) p C none → C.length < fuel → WF g →
    ∃ g2, traversethread_uvs fuel g p = some g2 ∧ Step (fun _ => False) [] g g2 := by
  intro C
  induction C with
  | nil =>
    intro fuel g p hp hf _
    have e : p = none := hp
    subst e
    cases fuel with
    | zero => omega
    | succ f => exact ⟨g, rfl, step_refl _ g⟩
  | cons b C ih =>
    intro fuel g p hp hf hwf
    obtain ⟨e, o, ho, hr⟩ := hp
    subst e
    cases fuel with
    | zero => omega
    | succ f =>
      obtain ⟨x, hx, eo⟩ := uvHeap_some _ _ _ ho
      obtain ⟨g1, e1, s1, -⟩ := markobject_step g b x hwf hx
      obtain ⟨x1, hx1, tx1⟩ := mk_live _ g g1 s1.1 b x hx
      have hr1 : IsGSeg (uvHeap g1.heap) x1.open_next C none := by
        rw [(touch_fields _ _ tx1).2.2.2.2.2.2.2.2.2.2.2.2.2.2.1, ← eo]
        exact opened_mk _ g g1 s1.1 C _ hr
      obtain ⟨g2, e2, s2⟩ := ih f g1 _ hr1 (by simpa using hf) (step_wf _ _ g g1 s1 hwf)
      refine ⟨g2, ?_, step_false_trans g g1 g2 s1 s2⟩
      rw [traversethread_uvs]
      simp only [e1, Option.bind_eq_bind, Option.some_bind, hx1]
      exact e2

theorem clearslice_get (s : List TValue) (lo hi i : Nat) (h : i < lo) :
    (clearslice s lo hi).get? i = s.get? i := by
  unfold clearslice
  rw [List.get?_eq_getElem?, List.getElem?_map, List.getElem?_enum, List.get?_eq_getElem?]
  cases s[i]? with
  | none => rfl
  | some a =>
    simp only [Option.map_some', Option.some.injEq, ite_eq_right_iff, and_imp]
    intro k
    omega

/-- Writing the stack of a thread touches it when the live slots are the
same. -/
theorem touch_stack (x : GCObject) (s s2 : List TValue) (n : Nat) (tw : Option Addr)
    (hs : x.stack = some s) (h : ∀ i, i < x.top → s2.get? i = s.get? i) :
    Touch x { x with stack := some s2, stack_last := n, twups := tw } := by
  refine ⟨rfl, fun k => k, rfl, fun _ nd k => ⟨nd, k, nodeKept_refl nd⟩, fun k => ?_,
    fun s3 k => ?_⟩
  · rw [hs] at k
    cases k
  · rw [hs] at k
    cases k
    exact ⟨s2, rfl, h⟩

theorem luaD_shrinkstack_step (env : Env) (g : global_State) (th : Addr) (t : GCObject)
    (s : List TValue) (ht : g.heap th = some t) (hs : t.stack = some s) :
    ∃ g2, luaD_shrinkstack env g th = some g2 ∧ Step (fun a => a = th) [] g g2 := by
  unfold luaD_shrinkstack
  simp only [ht, Option.bind_eq_bind, Option.some_bind, hs]
  split
  · rename_i hc
    refine ⟨_, rfl, step_store g _ th t
      { t with stack := some (s.take (env.shrunksize t + EXTRA_STACK)),
               stack_last := env.shrunksize t, twups := t.twups } ht
      (touch_stack t s _ _ _ hs ?_) rfl rfl rfl rfl⟩
    intro i hi
    rw [List.get?_eq_getElem?, List.getElem?_take_of_lt (by omega), List.get?_eq_getElem?]
  · exact ⟨g, rfl, step_refl _ g⟩

theorem mem_take_get? (s : List TValue) (n : Nat) (v : TValue) (h : v ∈ s.take n) :
    ∃ i, i < n ∧ s.get? i = some v := by
  obtain ⟨i, hi, e⟩ := List.mem_take_iff_getElem.1 h
  have h1 : i < n := lt_of_lt_of_le hi (min_le_left _ _)
  have h2 : i < s.length := lt_of_lt_of_le hi (min_le_right _ _)
  exact ⟨i, h1, by rw [List.get?_eq_getElem?, List.getElem?_eq_getElem h2, e]⟩

/-- The part of `traversethread` that runs in the atomic phase: the stack is
shrunk, its dead part is cleared, and the thread is linked into `twups`. -/
theorem traversethread_atomic (env : Env) (g : global_State) (th : Addr) (t : GCObject)
    (s : List TValue) (ht : g.heap th = some t) (hs : t.stack = some s)
    (hnw : iswhite t.marked = false) :
    ∃ g4, (if g.gcstate = GCSatomic then
        (if g.gcemergency = 0 then luaD_shrinkstack env g th else some g).bind fun g5 =>
          (g5.heap th).bind fun t5 => t5.stack.bind fun s5 =>
            ((g5.setobj th { t5 with
                stack := some (clearslice s5 t5.top (t5.stack_last + EXTRA_STACK)) }).heap
              th).bind fun t6 =>
              if (!isintwups th t6 && t6.openupval != none) = true then
                some ({ g5.setobj th { t5 with
                    stack := some (clearslice s5 t5.top (t5.stack_last + EXTRA_STACK)) } with
                  twups := some th }.setobj th { t6 with twups := (g5.setobj th { t5 with
                    stack := some (clearslice s5 t5.top (t5.stack_last + EXTRA_STACK)) }).twups })
              else some (g5.setobj th { t5 with
                stack := some (clearslice s5 t5.top (t5.stack_last + EXTRA_STACK)) })
      else some g) = some g4 ∧ Step (fun a => a = th) [] g g4 := by
  by_cases hat : g.gcstate = GCSatomic
  swap
  · rw [if_neg hat]
    exact ⟨g, rfl, step_refl _ g⟩
  rw [if_pos hat]
  have h5 : ∃ g5, (if g.gcemergency = 0 then luaD_shrinkstack env g th else some g) = some g5 ∧
      Step (fun a => a = th) [] g g5 := by
    split
    · exact luaD_shrinkstack_step env g th t s ht hs
    · exact ⟨g, rfl, step_refl _ g⟩
  obtain ⟨g5, e5, s5⟩ := h5
  obtain ⟨t5, ht5, tt5⟩ := mk_live _ g g5 s5.1 th t ht
  obtain ⟨st5, hst5, -⟩ := tt5.2.2.2.2.2 s hs
  rw [e5]
  simp only [Option.some_bind, ht5, hst5, global_State.setobj, heap_set_same]
  have s6 : Step (fun a => a = th) [] g5 (g5.setobj th { t5 with
      stack := some (clearslice st5 t5.top (t5.stack_last + EXTRA_STACK)) }) :=
    step_store g5 _ th t5 { t5 with
        stack := some (clearslice st5 t5.top (t5.stack_last + EXTRA_STACK)),
        stack_last := t5.stack_last, twups := t5.twups } ht5
      (touch_stack t5 st5 _ _ _ hst5 (fun i hi => clearslice_get _ _ _ i hi)) rfl rfl rfl rfl
  have hS := subject_nonwhite g th t ht hnw
  have hS5 := subject_nonwhite g5 th t5 ht5 (tt5.2.1 hnw)
  split
  · refine ⟨_, rfl, ?_⟩
    have s7 : Step (fun a => a = th) [] (g5.setobj th { t5 with
        stack := some (clearslice st5 t5.top (t5.stack_last + EXTRA_STACK)) })
        ({ g5.setobj th { t5 with
            stack := some (clearslice st5 t5.top (t5.stack_last + EXTRA_STACK)) } with
          twups := some th }.setobj th { t5 with
            stack := some (clearslice st5 t5.top (t5.stack_last + EXTRA_STACK)),
            twups := g5.twups }) :=
      step_store _ _ th { t5 with
          stack := some (clearslice st5 t5.top (t5.stack_last + EXTRA_STACK)) }
        { t5 with stack := some (clearslice st5 t5.top (t5.stack_last + EXTRA_STACK)),
                  twups := g5.twups } (heap_set_same _ _ _)
        ⟨rfl, fun k => k, rfl, fun _ nd k => ⟨nd, k, nodeKept_refl nd⟩, fun k => k,
          fun s3 k => ⟨s3, k, fun _ _ => rfl⟩⟩ rfl rfl rfl rfl
    exact step_trans _ [] g g5 _ hS s5 (step_trans _ [] g5 _ _ hS5 s6 s7)
  · exact ⟨_, rfl, step_trans _ [] g g5 _ hS s5 s6⟩

/-- The traversal of a thread returns, as a step whose subject is the
thread, when the fuel exceeds the number of its open upvalues. -/
theorem traversethread_step (env : Env) (fuel : Nat) (g : global_State) (th : Addr)
    (t : GCObject) (hwf : WF g) (ht : g.heap th = some t) (hnw : iswhite t.marked = false)
    (hfuel : ∀ C, IsGSeg (uvHeap g.heap) t.openupval C none → C.length < fuel) :
    ∃ r, traversethread env fuel g th = some r ∧ Step (fun a => a = th) [] g r.1 := by
  have hS := subject_nonwhite g th t ht hnw
  have h1 : ∃ g1, (if (isold t.marked || g.gcstate == GCSpropagate) = true
      then linkgclist g th .grayagain else some g) = some g1 ∧
      Step (fun a => a = th) [] g g1 := by
    split
    · obtain ⟨g1, e, s⟩ := linkgclist_step g th t .grayagain ht (by decide)
      exact ⟨g1, e, s⟩
    · exact ⟨g, rfl, step_refl _ g⟩
  obtain ⟨g1, e1, s1⟩ := h1
  unfold traversethread
  simp only [ht, Option.bind_eq_bind, Option.some_bind]
  rw [e1]
  simp only [Option.some_bind]
  cases hst : t.stack with
  | none => exact ⟨(g1, 1), rfl, s1⟩
  | some s =>
    simp only []
    have hwf1 := step_wf _ _ g g1 s1 hwf
    have hvals : ∀ v, v ∈ s.take t.top → ValOK g1.heap v := by
      intro v hv
      obtain ⟨i, hi, e⟩ := mem_take_get? s t.top v hv
      exact valOK_mk _ g g1 s1.1 v ((hwf th t ht).stack s hst i v hi e)
    obtain ⟨g2, e2, s2, -⟩ := markvalues_step (s.take t.top) g1 hwf1 hvals
    have hwf2 := step_wf _ _ g1 g2 s2 hwf1
    have s02 : Step (fun a => a = th) [] g g2 :=
      step_trans _ [] g g1 g2 hS s1 (step_mono _ _ [] g1 g2 s2 (fun _ k => k.elim))
    obtain ⟨t2, ht2, tt2⟩ := mk_live _ g g2 s02.1 th t ht
    obtain ⟨C, hC⟩ := (hwf th t ht).opened
    have hC2 : IsGSeg (uvHeap g2.heap) t2.openupval C none := by
      rw [(touch_fields _ _ tt2).2.2.2.2.2.2.2.2.2.2.2.2.2.1]
      exact opened_mk _ g g2 s02.1 C _ hC
    obtain ⟨g3, e3, s3⟩ := traversethread_uvs_step C fuel g2 _ hC2 (hfuel C hC) hwf2
    have s03 : Step (fun a => a = th) [] g g3 := step_trans _ [] g g2 g3 hS s02 (step_mono _ _ [] g2 g3 s3 (fun _ k => k.elim))
    obtain ⟨t3, ht3, tt3⟩ := mk_live _ g g3 s03.1 th t ht
    obtain ⟨st3, hst3, -⟩ := tt3.2.2.2.2.2 s hst
    obtain ⟨g4, e4, s4⟩ := traversethread_atomic env g3 th t3 st3 ht3 hst3 (tt3.2.1 hnw)
    have s04 := step_trans _ [] g g3 g4 hS s03 s4
    obtain ⟨t4, ht4, -⟩ := mk_live _ g g4 s04.1 th t ht
    refine ⟨(g4, 1 + t4.stack_last), ?_, s04⟩
    rw [e2]
    simp only [Option.some_bind, ht2]
    rw [e3]
    simp only [Option.some_bind]
    rw [e4]
    simp only [Option.some_bind, ht4]

/-! ## `propagatemark` -/

theorem opened_unique (h : Heap) (p : Option Addr) (A B : List Addr)
    (hA : IsGSeg (uvHeap h) p A none) (hB : IsGSeg (uvHeap h) p B none) : A = B :=
  isGSeg_unique (uvHeap h) none A B p hA hB (fun _ _ e => by cases e) (fun _ _ e => by cases e)

theorem propagatemark_eq (env : Env) (fuel : Nat) (g : global_State) (o : Addr) (x : GCObject)
    (hgo : g.gray = some o) (hx : g.heap o = some x) (hk : getgclist o x = some o)
    (g2 : global_State)
    (eg2 : g2 = { g.setobj o { x with marked := nw2black x.marked } with gray := x.gclist }) :
    propagatemark env fuel g =
      match x.tt with
      | .LUA_VTABLE => traversetable g2 o
      | .LUA_VUSERDATA => traverseudata g2 o
      | .LUA_VLCL => traverseLclosure g2 o
      | .LUA_VCCL => traverseCclosure g2 o
      | .LUA_VPROTO => traverseproto g2 o
      | .LUA_VTHREAD => traversethread env fuel g2 o
      | _ => some (g2, 0) := by
  subst eg2
  have hk1 : getgclist o { x with marked := nw2black x.marked } = some o := hk
  have h1 : (g.setobj o { x with marked := nw2black x.marked }).heap o
      = some { x with marked := nw2black x.marked } := heap_set_same _ _ _
  unfold propagatemark
  simp only [hgo, hx, Option.bind_eq_bind, Option.some_bind, h1, hk1] <;> rfl

/-- One step of the propagation: the head of the gray list is popped and
traversed; the objects pushed were white, and the object is pushed on the
ephemeron list only when it is a table. -/
theorem propagatemark_step (env : Env) (fuel : Nat) (g : global_State) (o : Addr)
    (x : GCObject) (G : List Addr) (hwf : WF g) (hgray : IsGSeg g.heap g.gray (o :: G) none)
    (hx : g.heap o = some x) (hnw : iswhite x.marked = false) (hk : getgclist o x = some o)
    (hfuel : ∀ C, IsGSeg (uvHeap g.heap) x.openupval C none → C.length < fuel)
    (hGnw : ∀ a, a ∈ G → whiteIn g.heap a = false) :
    ∃ r X N, propagatemark env fuel g = some r ∧ Mk (fun a => a = o) g r.1 ∧
      IsGSeg r.1.heap r.1.gray (N ++ G) none ∧
      (∀ a, a ∈ N → whiteIn g.heap a = true ∧ whiteIn r.1.heap a = false ∧
        hasGclist g.heap a) ∧
      IsGSeg r.1.heap r.1.ephemeron X g.ephemeron ∧
      ∀ a, a ∈ X → a = o ∧ x.tt = .LUA_VTABLE := by
  have hnd := isGList_nodup g.heap (o :: G) g.gray hgray
  have hoG : o ∉ G := (List.nodup_cons.1 hnd).1
  obtain ⟨hgo, x0, hx0, hrest⟩ := hgray
  rw [hx] at hx0
  cases hx0
  obtain ⟨g2, eg2⟩ : ∃ g2 : global_State, g2 =
      { g.setobj o { x with marked := nw2black x.marked } with gray := x.gclist } := ⟨_, rfl⟩
  rw [propagatemark_eq env fuel g o x hgo hx hk g2 eg2]
  have hx2 : g2.heap o = some { x with marked := nw2black x.marked } := by
    rw [eg2]
    exact heap_set_same _ _ _
  have hnw2 : iswhite ({ x with marked := nw2black x.marked } : GCObject).marked = false := by
    show iswhite (nw2black x.marked) = false
    rw [iswhite_nw2black]
    exact hnw
  have m1 : Mk (fun a => a = o) g g2 :=
    mk_store _ g g2 o x { x with marked := nw2black x.marked } hx
      (touch_mark x _ (fun _ => hnw2)) (fun _ => rfl) (by rw [eg2]; rfl) (by rw [eg2]; rfl)
  have hwf2 := wf_mk _ g g2 m1 hwf
  have hgr2 : g2.gray = x.gclist := by rw [eg2]
  have hep2 : g2.ephemeron = g.ephemeron := by rw [eg2]; rfl
  have hS2 := subject_nonwhite g2 o _ hx2 hnw2
  -- what is left after the traversal
  have key : ∀ P : Prop, (x.tt = .LUA_VTABLE → P) →
      ∃ r X N, (match x.tt with
        | .LUA_VTABLE => traversetable g2 o
        | .LUA_VUSERDATA => traverseudata g2 o
        | .LUA_VLCL => traverseLclosure g2 o
        | .LUA_VCCL => traverseCclosure g2 o
        | .LUA_VPROTO => traverseproto g2 o
        | .LUA_VTHREAD => traversethread env fuel g2 o
        | _ => some (g2, 0)) = some r ∧ Mk (fun a => a = o) g r.1 ∧
      IsGSeg r.1.heap r.1.gray (N ++ G) none ∧
      (∀ a, a ∈ N → whiteIn g.heap a = true ∧ whiteIn r.1.heap a = false ∧
        hasGclist g.heap a) ∧
      IsGSeg r.1.heap r.1.ephemeron X g.ephemeron ∧
      ∀ a, a ∈ X → a = o ∧ P := by
    intro P hP
    have hfin : ∀ (r : global_State × Nat) (X : List Addr), Step (fun a => a = o) X g2 r.1 →
        (∀ a, a ∈ X → P) →
        ∃ N, Mk (fun a => a = o) g r.1 ∧
          IsGSeg r.1.heap r.1.gray (N ++ G) none ∧
          (∀ a, a ∈ N → whiteIn g.heap a = true ∧ whiteIn r.1.heap a = false ∧
            hasGclist g.heap a) ∧
          IsGSeg r.1.heap r.1.ephemeron X g.ephemeron ∧
          ∀ a, a ∈ X → a = o ∧ P := by
      intro r X s hX
      obtain ⟨m2, ⟨N, sN, wN⟩, sX, hXo⟩ := s
      refine ⟨N, mk_trans_same _ g g2 r.1 m1 m2, ?_, ?_, ?_, fun a ha => ⟨hXo a ha, hX a ha⟩⟩
      · rw [hgr2] at sN
        refine isGSeg_append _ _ _ _ _ _ sN (isGSeg_congr g.heap r.1.heap _ G _ ?_ hrest)
        intro a ha
        have hao : a ≠ o := fun e => hoG (e ▸ ha)
        rw [mk_same _ g2 r.1 m2 a hao (mk_nonwhite _ g g2 m1 a (hGnw a ha))]
        exact mk_same _ g g2 m1 a hao (hGnw a ha)
      · intro a ha
        exact ⟨mk_white_back _ g g2 m1 a (wN a ha).1, (wN a ha).2.1,
          (hasGclist_mk _ g g2 m1 a).2 (wN a ha).2.2⟩
      · rw [← hep2]
        exact sX
    have hnil : ∀ a, a ∈ ([] : List Addr) → P := fun _ k => (by cases k)
    have hout : ∀ (r : global_State × Nat) (X : List Addr) (o1 : Option (global_State × Nat)),
        o1 = some r → Step (fun a => a = o) X g2 r.1 → (∀ a, a ∈ X → P) →
        ∃ r X N, o1 = some r ∧ Mk (fun a => a = o) g r.1 ∧
          IsGSeg r.1.heap r.1.gray (N ++ G) none ∧
          (∀ a, a ∈ N → whiteIn g.heap a = true ∧ whiteIn r.1.heap a = false ∧
            hasGclist g.heap a) ∧
          IsGSeg r.1.heap r.1.ephemeron X g.ephemeron ∧
          ∀ a, a ∈ X → a = o ∧ P := by
      intro r X o1 e s hX
      obtain ⟨N, k⟩ := hfin r X s hX
      exact ⟨r, X, N, e, k⟩
    cases hkind : x.tt with
    | LUA_VTABLE =>
      obtain ⟨r, X, e, s⟩ := traversetable_step g2 o _ hwf2 hx2 hnw2 hkind
      exact hout r X _ e s (fun _ _ => hP hkind)
    | LUA_VUSERDATA =>
      obtain ⟨r, e, s⟩ := traverseudata_step g2 o _ hwf2 hx2 hnw2 hkind
      exact hout r [] _ e s (fun _ k => (by cases k))
    | LUA_VLCL =>
      obtain ⟨r, e, s⟩ := traverseLclosure_step g2 o _ hwf2 hx2
      exact hout r [] _ e s (fun _ k => (by cases k))
    | LUA_VCCL =>
      obtain ⟨r, e, s⟩ := traverseCclosure_step g2 o _ hwf2 hx2
      exact hout r [] _ e s (fun _ k => (by cases k))
    | LUA_VPROTO =>
      obtain ⟨r, e, s⟩ := traverseproto_step g2 o _ hwf2 hx2
      exact hout r [] _ e s (fun _ k => (by cases k))
    | LUA_VTHREAD =>
      obtain ⟨C, hC⟩ := (hwf o x hx).opened
      obtain ⟨r, e, s⟩ := traversethread_step env fuel g2 o _ hwf2 hx2 hnw2
        (fun C2 hC2 => by
          rw [opened_unique _ _ C2 C hC2 (opened_mk _ g g2 m1 C _ hC)]
          exact hfuel C hC)
      exact hout r [] _ e s (fun _ k => (by cases k))
    | LUA_VSHRSTR => exact hout (g2, 0) [] _ rfl (step_refl _ g2) (fun _ k => (by cases k))
    | LUA_VLNGSTR => exact hout (g2, 0) [] _ rfl (step_refl _ g2) (fun _ k => (by cases k))
    | LUA_VUPVAL => exact hout (g2, 0) [] _ rfl (step_refl _ g2) (fun _ k => (by cases k))
  exact key _ id

/-! ## Counting the white objects -/

/-- Marking does not add white objects. -/
theorem nwhite_mono (U : List Addr) (S : Addr → Prop) (g g2 : global_State) (h : Mk S g g2) :
    nwhite U g2.heap ≤ nwhite U g.heap :=
  List.Sublist.length_le (List.monotone_filter_right U
    (fun a ha => mk_white_back S g g2 h a ha))

/-- The objects that are white before a step and not after it are no longer
counted. -/
theorem nwhite_push (U N : List Addr) (S : Addr → Prop) (g g2 : global_State)
    (h : Mk S g g2) (hnd : N.Nodup) (hU : ∀ a, a ∈ N → a ∈ U)
    (hN : ∀ a, a ∈ N → whiteIn g.heap a = true ∧ whiteIn g2.heap a = false) :
    nwhite U g2.heap + N.length ≤ nwhite U g.heap := by
  unfold nwhite
  rw [List.length_eq_length_filter_add (l := U.filter (fun a => whiteIn g.heap a))
    (fun a => whiteIn g2.heap a), List.filter_filter, List.filter_filter]
  have e1 : U.filter (fun a => whiteIn g2.heap a && whiteIn g.heap a)
      = U.filter (fun a => whiteIn g2.heap a) := by
    refine List.filter_congr (fun a _ => ?_)
    cases k : whiteIn g2.heap a with
    | false => rfl
    | true => rw [mk_white_back S g g2 h a k]; rfl
  rw [e1]
  refine Nat.add_le_add_left (List.Subperm.length_le (List.subperm_of_subset hnd ?_)) _
  intro a ha
  refine List.mem_filter.2 ⟨hU a ha, ?_⟩
  rw [(hN a ha).1, (hN a ha).2]
  rfl

/-- When some white object is not white any more, the number of white
objects is smaller. -/
theorem nwhite_lt (U : List Addr) (S : Addr → Prop) (g g2 : global_State) (h : Mk S g g2)
    (hU : ∀ a x, g.heap a = some x → a ∈ U)
    (hr : ∃ r, whiteIn g.heap r = true ∧ whiteIn g2.heap r = false) :
    nwhite U g2.heap < nwhite U g.heap := by
  obtain ⟨r, w1, w2⟩ := hr
  have hl : r ∈ U := by
    rcases Option.eq_none_or_eq_some (g.heap r) with e | ⟨x, e⟩
    · unfold whiteIn at w1
      rw [e] at w1
      cases w1
    · exact hU r x e
  have k := nwhite_push U [r] S g g2 h (List.nodup_singleton r)
    (fun a ha => by rw [List.mem_singleton.1 ha]; exact hl)
    (fun a ha => by rw [List.mem_singleton.1 ha]; exact ⟨w1, w2⟩)
  simp only [List.length_singleton] at k
  omega

/-- A list of objects of a memory within `U` is no longer than `U`. -/
theorem isGSeg_length_le (U : List Addr) (h : Heap) (hU : ∀ a x, h a = some x → a ∈ U)
    (l : List Addr) (p : Option Addr) (hl : IsGSeg h p l none) : l.length ≤ U.length := by
  refine List.Subperm.length_le (List.subperm_of_subset (isGList_nodup h l p hl) ?_)
  intro a ha
  obtain ⟨x, hx⟩ := isGSeg_live h none l p hl a ha
  exact hU a x hx

theorem opened_length_le (U : List Addr) (h : Heap) (hU : ∀ a x, h a = some x → a ∈ U)
    (l : List Addr) (p : Option Addr) (hl : IsGSeg (uvHeap h) p l none) :
    l.length ≤ U.length := by
  refine isGSeg_length_le U (uvHeap h) ?_ l p hl
  intro a x hx
  obtain ⟨y, hy, -⟩ := uvHeap_some h a x hx
  exact hU a y hy

/-- The live addresses after marking are those before. -/
theorem mk_within (U : List Addr) (S : Addr → Prop) (g g2 : global_State) (h : Mk S g g2)
    (hU : ∀ a x, g.heap a = some x → a ∈ U) : ∀ a x, g2.heap a = some x → a ∈ U := by
  intro a x2 hx2
  obtain ⟨x, hx, -⟩ := mk_back S g g2 h a x2 hx2
  exact hU a x hx

/-! ## `propagateall` empties the gray list -/

theorem propagateall_nil (env : Env) (fuel : Nat) (g : global_State) (h : g.gray = none)
    (hf : 1 ≤ fuel) : propagateall fuel env g = some (g, 0) := by
  cases fuel with
  | zero => omega
  | succ f =>
    rw [propagateall]
    simp only [h]

/-- With enough fuel `propagateall` returns with an empty gray list; an
object that was neither white nor gray is the same, and the tables it linked
into the ephemeron list were on the gray list or white. -/
theorem propagateall_step (env : Env) (U : List Addr) : ∀ (k fuel : Nat) (g : global_State)
    (G : List Addr), WF g → (∀ a x, g.heap a = some x → a ∈ U) →
    IsGSeg g.heap g.gray G none → (∀ a, a ∈ G → whiteIn g.heap a = false) →
    (∀ a, a ∈ G → hasGclist g.heap a) →
    G.length + nwhite U g.heap ≤ k → k + U.length + 2 ≤ fuel →
    ∃ r X, propagateall fuel env g = some r ∧ r.1.gray = none ∧
      Mk (fun a => a ∈ G) g r.1 ∧
      IsGSeg r.1.heap r.1.ephemeron X g.ephemeron ∧
      ∀ a, a ∈ X → (a ∈ G ∨ whiteIn g.heap a = true) ∧ whiteIn r.1.heap a = false ∧
        ∃ y, r.1.heap a = some y ∧ y.tt = .LUA_VTABLE := by
  have hnil : ∀ (fuel : Nat) (g : global_State), g.gray = none → 1 ≤ fuel →
      ∃ r X, propagateall fuel env g = some r ∧ r.1.gray = none ∧
        Mk (fun a => a ∈ ([] : List Addr)) g r.1 ∧
        IsGSeg r.1.heap r.1.ephemeron X g.ephemeron ∧
        ∀ a, a ∈ X → (a ∈ ([] : List Addr) ∨ whiteIn g.heap a = true) ∧
          whiteIn r.1.heap a = false ∧ ∃ y, r.1.heap a = some y ∧ y.tt = .LUA_VTABLE :=
    fun fuel g h hf => ⟨(g, 0), [], propagateall_nil env fuel g h hf, h, mk_refl _ g, rfl,
      fun _ k => (by cases k)⟩
  intro k
  induction k with
  | zero =>
    intro fuel g G _ _ hG _ _ hk hf
    cases G with
    | nil => exact hnil fuel g hG (by omega)
    | cons o G => simp only [List.length_cons] at hk; omega
  | succ k ih =>
    intro fuel g G hwf hU hG hGnw hGk hk hf
    cases G with
    | nil => exact hnil fuel g hG (by omega)
    | cons o G =>
      cases fuel with
      | zero => omega
      | succ f =>
        have hgo : g.gray = some o := hG.1
        obtain ⟨x, hx, hkx⟩ := hGk o (List.mem_cons_self _ _)
        have hnw : iswhite x.marked = false := by
          have := hGnw o (List.mem_cons_self _ _)
          rw [whiteIn_some _ _ _ hx] at this
          exact this
        have hnd := isGList_nodup g.heap (o :: G) g.gray hG
        have hoG : o ∉ G := (List.nodup_cons.1 hnd).1
        obtain ⟨r1, X1, N, e1, m1, gray1, wN, eph1, hX1⟩ := propagatemark_step env f g o x G hwf
          hG hx hnw hkx
          (fun C hC => by
            have := opened_length_le U g.heap hU C _ hC
            omega)
          (fun a ha => hGnw a (List.mem_cons_of_mem _ ha))
        have hwf1 := wf_mk _ g r1.1 m1 hwf
        have hU1 := mk_within U _ g r1.1 m1 hU
        have hNnd : N.Nodup :=
          List.Nodup.of_append_left (isGList_nodup r1.1.heap (N ++ G) _ gray1)
        have hNU : ∀ a, a ∈ N → a ∈ U := by
          intro a ha
          obtain ⟨y, hy, -⟩ := (wN a ha).2.2
          exact hU a y hy
        have hcount := nwhite_push U N _ g r1.1 m1 hNnd hNU (fun a ha => ⟨(wN a ha).1, (wN a ha).2.1⟩)
        have hnw1 : ∀ a, a ∈ N ++ G → whiteIn r1.1.heap a = false := by
          intro a ha
          rcases List.mem_append.1 ha with h1 | h1
          · exact (wN a h1).2.1
          · exact mk_nonwhite _ g r1.1 m1 a (hGnw a (List.mem_cons_of_mem _ h1))
        have hk1 : ∀ a, a ∈ N ++ G → hasGclist r1.1.heap a := by
          intro a ha
          rcases List.mem_append.1 ha with h1 | h1
          · exact (hasGclist_mk _ g r1.1 m1 a).1 (wN a h1).2.2
          · exact (hasGclist_mk _ g r1.1 m1 a).1 (hGk a (List.mem_cons_of_mem _ h1))
        obtain ⟨r2, X2, e2, gray2, m2, eph2, hX2⟩ := ih f r1.1 (N ++ G) hwf1 hU1 gray1 hnw1 hk1
          (by simp only [List.length_cons, List.length_append] at hk ⊢; omega) (by omega)
        -- an object of the first step's ephemeron segment is the same afterwards
        have hoN : o ∉ N ++ G := by
          intro ho
          rcases List.mem_append.1 ho with h1 | h1
          · have := (wN o h1).1
            rw [hGnw o (List.mem_cons_self _ _)] at this
            cases this
          · exact hoG h1
        have ho1 : whiteIn r1.1.heap o = false :=
          mk_nonwhite _ g r1.1 m1 o (hGnw o (List.mem_cons_self _ _))
        have hsame : r2.1.heap o = r1.1.heap o := mk_same _ r1.1 r2.1 m2 o hoN ho1
        refine ⟨(r2.1, r1.2 + r2.2), X2 ++ X1, ?_, gray2, ?_, ?_, ?_⟩
        · rw [propagateall]
          simp only [hgo, e1, Option.bind_eq_bind, Option.some_bind, e2]
        · refine mk_trans _ _ _ g r1.1 r2.1 m1 m2 (fun a y hy hw hn => ⟨fun e => ?_, fun e => ?_⟩)
          · exact hn (e ▸ List.mem_cons_self _ _)
          · rcases List.mem_append.1 e with h1 | h1
            · have := (wN a h1).1
              rw [whiteIn_some _ _ _ hy, hw] at this
              cases this
            · exact hn (List.mem_cons_of_mem _ h1)
        · refine isGSeg_append _ _ _ _ _ _ eph2 (isGSeg_congr r1.1.heap r2.1.heap _ X1 _ ?_ eph1)
          intro a ha
          rw [(hX1 a ha).1]
          exact hsame
        · intro a ha
          rcases List.mem_append.1 ha with h1 | h1
          · obtain ⟨c1, c2, c3⟩ := hX2 a h1
            refine ⟨?_, c2, c3⟩
            rcases c1 with c | c
            · rcases List.mem_append.1 c with h2 | h2
              · exact Or.inr (wN a h2).1
              · exact Or.inl (List.mem_cons_of_mem _ h2)
            · exact Or.inr (mk_white_back _ g r1.1 m1 a c)
          · obtain ⟨c1, c2⟩ := hX1 a h1
            subst c1
            refine ⟨Or.inl (List.mem_cons_self _ _), ?_, ?_⟩
            · unfold whiteIn
              rw [hsame]
              exact ho1
            · obtain ⟨y1, hy1, ty1⟩ := mk_live _ g r1.1 m1 a x hx
              exact ⟨y1, hsame.trans hy1, by rw [touch_tt _ _ ty1]; exact c2⟩

/-! ## One pass of `convergeephemerons` over the ephemeron list -/

theorem entriesOK_quiet (S : Addr → Prop) (g g2 : global_State) (hm : Mk S g g2)
    (hq : Quiet g g2) (a : Addr) (hsame : g2.heap a = g.heap a) (h : EntriesOK g.heap a) :
    EntriesOK g2.heap a := by
  intro t ht nd hnd
  rw [hsame] at ht
  exact entryOK_quiet S g g2 hm hq nd (h t ht nd hnd)

theorem tableIn_mk (S : Addr → Prop) (g g2 : global_State) (h : Mk S g g2) (a : Addr)
    (ha : tableIn g.heap a) : tableIn g2.heap a := by
  obtain ⟨y, hy, hk⟩ := ha
  obtain ⟨y2, e2, t2⟩ := mk_live S g g2 h a y hy
  exact ⟨y2, e2, by rw [touch_tt _ _ t2]; exact hk⟩

theorem nwhite_le (U : List Addr) (h : Heap) : nwhite U h ≤ U.length :=
  List.length_filter_le _ U

/-- The loop over one snapshot of the ephemeron list returns with an empty
gray list; when it reports no change every table linked into the new
ephemeron list has its entries settled, and when it reports a change that
was not reported before, the number of white objects is smaller; the memory
is only marked, the tables already on the new list stay there, and outside
the propagation phase each table of the snapshot is on the new list or has
the values of all its entries marked. -/
theorem convergeephemerons_tables_step (env : Env) (U : List Addr) (dir : Bool) :
    ∀ (R : List Addr) (fuel : Nat) (g : global_State) (p : Option Addr) (changed : Bool)
    (E : List Addr), WF g → (∀ a x, g.heap a = some x → a ∈ U) → g.gray = none →
    IsGSeg g.heap p R none → (∀ a, a ∈ R → whiteIn g.heap a = false ∧ tableIn g.heap a) →
    IsGSeg g.heap g.ephemeron E none →
    (∀ a, a ∈ E → whiteIn g.heap a = false ∧ tableIn g.heap a ∧ a ∉ R) →
    (changed = false → ∀ a, a ∈ E → EntriesOK g.heap a) →
    R.length + 2 * U.length + 3 ≤ fuel →
    ∃ g2 c2 E2, convergeephemerons_tables env dir fuel g p changed = some (g2, c2) ∧
      WF g2 ∧ (∀ a x, g2.heap a = some x → a ∈ U) ∧ g2.gray = none ∧
      IsGSeg g2.heap g2.ephemeron E2 none ∧
      (∀ a, a ∈ E2 → whiteIn g2.heap a = false ∧ tableIn g2.heap a) ∧
      (c2 = false → changed = false ∧ ∀ a, a ∈ E2 → EntriesOK g2.heap a) ∧
      nwhite U g2.heap ≤ nwhite U g.heap ∧
      (c2 = true → changed = true ∨ nwhite U g2.heap < nwhite U g.heap) ∧
      Mk (fun _ => True) g g2 ∧ (∀ a, a ∈ E → a ∈ E2) ∧
      (g.gcstate ≠ GCSpropagate → ∀ a, a ∈ R → a ∈ E2 ∨ StrongOK g2.heap a) := by
  intro R
  induction R with
  | nil =>
    intro fuel g p changed E hwf hU hgray hR _ hE hEp hOK hf
    have e : p = none := hR
    subst e
    cases fuel with
    | zero => omega
    | succ f =>
      exact ⟨g, changed, E, rfl, hwf, hU, hgray, hE, fun a ha => ⟨(hEp a ha).1, (hEp a ha).2.1⟩,
        fun e => ⟨e, hOK e⟩, le_refl _, fun e => Or.inl e, mk_refl _ g, fun _ k => k,
        fun _ a ha => (by cases ha)⟩
  | cons w R ih =>
    intro fuel g p changed E hwf hU hgray hR hRp hE hEp hOK hf
    have hnd := isGList_nodup g.heap (w :: R) p hR
    have hwR : w ∉ R := (List.nodup_cons.1 hnd).1
    obtain ⟨e, h, hh, hrest⟩ := hR
    subst e
    cases fuel with
    | zero => omega
    | succ f =>
      have hwnw : iswhite h.marked = false := by
        have := (hRp w (List.mem_cons_self _ _)).1
        rw [whiteIn_some _ _ _ hh] at this
        exact this
      have htab : h.tt = .LUA_VTABLE := by
        obtain ⟨y, hy, hk⟩ := (hRp w (List.mem_cons_self _ _)).2
        rw [hh] at hy
        cases hy
        exact hk
      have hS := subject_nonwhite g w h hh hwnw
      have hnw1 : iswhite (nw2black h.marked) = false := by rw [iswhite_nw2black]; exact hwnw
      have s1 : Step (fun a => a = w) [] g (g.setobj w { h with marked := nw2black h.marked }) :=
        step_store g _ w h _ hh (touch_mark h _ (fun _ => hnw1)) rfl rfl rfl rfl
      have q1 : Quiet g (g.setobj w { h with marked := nw2black h.marked }) :=
        quiet_store g _ w _ (fun y hy k => by rw [hh] at hy; cases hy; rw [hwnw] at k; cases k)
          rfl rfl
      obtain ⟨g2, m, X, e2, s2, hm1, hm0, hst2⟩ := traverseephemeron_step _ w dir
        { h with marked := nw2black h.marked } (step_wf _ _ g _ s1 hwf) (heap_set_same _ _ _)
        hnw1 htab
      have s02 : Step (fun a => a = w) X g g2 := step_trans _ X g _ g2 hS s1 s2
      have hwf2 := step_wf _ _ g g2 s02 hwf
      have hU2 := mk_within U _ g g2 s02.1 hU
      have est2 : g2.gcstate = g.gcstate := by
        have k : g2.fixed.gcstate = g.fixed.gcstate := congrArg global_State.gcstate s02.1.1
        exact k
      have hdone : ∀ (g3 : global_State) (E3 : List Addr), Mk (fun _ => True) g2 g3 →
          (∀ a, a ∈ X ++ E → a ∈ E3) →
          (g2.gcstate ≠ GCSpropagate → ∀ a, a ∈ R → a ∈ E3 ∨ StrongOK g3.heap a) →
          Mk (fun _ => True) g g3 ∧ (∀ a, a ∈ E → a ∈ E3) ∧
          (g.gcstate ≠ GCSpropagate → ∀ a, a ∈ w :: R → a ∈ E3 ∨ StrongOK g3.heap a) := by
        intro g3 E3 c1 c2 c3
        refine ⟨mk_trans _ _ _ g g2 g3 s02.1 c1 (fun _ _ _ _ k => (k trivial).elim),
          fun a ha => c2 a (List.mem_append_right _ ha), fun hst a ha => ?_⟩
        rcases List.mem_cons.1 ha with k | k
        · rw [k]
          rcases hst2 hst with j | j
          · exact Or.inl (c2 w (List.mem_append_left _ j))
          · exact Or.inr (strongOK_mk _ g2 g3 c1 w j)
        · exact c3 (by rw [est2]; exact hst) a k
      -- the rest of the snapshot and the new ephemeron list
      have hsameR : ∀ a, a ∈ R → g2.heap a = g.heap a := fun a ha =>
        mk_same _ g g2 s02.1 a (fun e => hwR (e ▸ ha)) (hRp a (List.mem_cons_of_mem _ ha)).1
      have hsameE : ∀ a, a ∈ E → g2.heap a = g.heap a := fun a ha =>
        mk_same _ g g2 s02.1 a (fun e => (hEp a ha).2.2 (e ▸ List.mem_cons_self _ _))
          (hEp a ha).1
      have hR2 : IsGSeg g2.heap h.gclist R none := isGSeg_congr g.heap g2.heap _ R _ hsameR hrest
      have hE2 : IsGSeg g2.heap g2.ephemeron (X ++ E) none :=
        isGSeg_append _ _ _ _ _ _ s02.2.2.1 (isGSeg_congr g.heap g2.heap _ E _ hsameE hE)
      have hRp2 : ∀ a, a ∈ R → whiteIn g2.heap a = false ∧ tableIn g2.heap a := fun a ha =>
        ⟨mk_nonwhite _ g g2 s02.1 a (hRp a (List.mem_cons_of_mem _ ha)).1,
          tableIn_mk _ g g2 s02.1 a (hRp a (List.mem_cons_of_mem _ ha)).2⟩
      have hEp2 : ∀ a, a ∈ X ++ E → whiteIn g2.heap a = false ∧ tableIn g2.heap a ∧ a ∉ R := by
        intro a ha
        rcases List.mem_append.1 ha with k | k
        · rw [s02.2.2.2 a k]
          exact ⟨mk_nonwhite _ g g2 s02.1 w (hS w rfl),
            tableIn_mk _ g g2 s02.1 w (hRp w (List.mem_cons_self _ _)).2, hwR⟩
        · exact ⟨mk_nonwhite _ g g2 s02.1 a (hEp a k).1, tableIn_mk _ g g2 s02.1 a (hEp a k).2.1,
            fun hr => (hEp a k).2.2 (List.mem_cons_of_mem _ hr)⟩
      rw [convergeephemerons_tables]
      simp only [hh, Option.bind_eq_bind, Option.some_bind, e2]
      cases m with
      | false =>
        obtain ⟨q2, ok2⟩ := hm0 rfl
        have q02 : Quiet g g2 := quiet_trans g _ g2 q1 q2
        obtain ⟨g3, c3, E3, e3, a1, a2, a3, a4, a5, a6, a7, a8, a9, a10, a11⟩ := ih f g2 h.gclist
          changed (X ++ E) hwf2 hU2 (q02.1.trans hgray) hR2 hRp2 hE2 hEp2
          (fun ec a ha => by
            rcases List.mem_append.1 ha with k | k
            · rw [s02.2.2.2 a k]
              exact ok2
            · exact entriesOK_quiet _ g g2 s02.1 q02 a (hsameE a k) (hOK ec a k))
          (by simp only [List.length_cons] at hf; omega)
        refine ⟨g3, c3, E3, ?_, a1, a2, a3, a4, a5, a6,
          le_trans a7 (nwhite_mono U _ g g2 s02.1), fun ec => ?_, hdone g3 E3 a9 a10 a11⟩
        · simp only [Bool.false_eq_true, if_false]
          exact e3
        · rcases a8 ec with k | k
          · exact Or.inl k
          · exact Or.inr (lt_of_lt_of_le k (nwhite_mono U _ g g2 s02.1))
      | true =>
        obtain ⟨N, sN, wN⟩ := s02.2.1
        rw [hgray] at sN
        have hNU : ∀ a, a ∈ N → a ∈ U := by
          intro a ha
          obtain ⟨y, hy, -⟩ := (wN a ha).2.2
          exact hU a y hy
        have hcount := nwhite_push U N _ g g2 s02.1 (isGList_nodup _ N _ sN) hNU
          (fun a ha => ⟨(wN a ha).1, (wN a ha).2.1⟩)
        have hle := nwhite_le U g.heap
        obtain ⟨⟨g3, w3⟩, X3, e3, gray3, m3, eph3, hX3⟩ := propagateall_step env U U.length f g2 N
          hwf2 hU2 sN (fun a ha => (wN a ha).2.1)
          (fun a ha => (hasGclist_mk _ g g2 s02.1 a).1 (wN a ha).2.2) (by omega)
          (by simp only [List.length_cons] at hf; omega)
        have hwf3 := wf_mk _ g2 g3 m3 hwf2
        have hU3 := mk_within U _ g2 g3 m3 hU2
        have hnotN : ∀ a, whiteIn g.heap a = false → a ∉ N := by
          intro a ha hn
          rw [(wN a hn).1] at ha
          cases ha
        have hsameR3 : ∀ a, a ∈ R → g3.heap a = g2.heap a := fun a ha =>
          mk_same _ g2 g3 m3 a (hnotN a (hRp a (List.mem_cons_of_mem _ ha)).1) (hRp2 a ha).1
        have hXEg : ∀ a, a ∈ X ++ E → whiteIn g.heap a = false := by
          intro a ha
          rcases List.mem_append.1 ha with k | k
          · rw [s02.2.2.2 a k]
            exact hS w rfl
          · exact (hEp a k).1
        have hsameE3 : ∀ a, a ∈ X ++ E → g3.heap a = g2.heap a := fun a ha =>
          mk_same _ g2 g3 m3 a (hnotN a (hXEg a ha)) (hEp2 a ha).1
        have hE3 : IsGSeg g3.heap g3.ephemeron (X3 ++ (X ++ E)) none :=
          isGSeg_append _ _ _ _ _ _ eph3 (isGSeg_congr g2.heap g3.heap _ (X ++ E) _ hsameE3 hE2)
        obtain ⟨g4, c4, E4, e4, a1, a2, a3, a4, a5, a6, a7, -, a9, a10, a11⟩ := ih f g3 h.gclist true
          (X3 ++ (X ++ E)) hwf3 hU3 gray3
          (isGSeg_congr g2.heap g3.heap _ R _ hsameR3 hR2)
          (fun a ha => ⟨mk_nonwhite _ g2 g3 m3 a (hRp2 a ha).1,
            tableIn_mk _ g2 g3 m3 a (hRp2 a ha).2⟩)
          hE3
          (fun a ha => by
            rcases List.mem_append.1 ha with k | k
            · obtain ⟨c1, c2, c3⟩ := hX3 a k
              refine ⟨c2, c3, fun hr => ?_⟩
              have hg := (hRp a (List.mem_cons_of_mem _ hr)).1
              rcases c1 with c | c
              · exact hnotN a hg c
              · rw [(hRp2 a hr).1] at c
                cases c
            · exact ⟨mk_nonwhite _ g2 g3 m3 a (hEp2 a k).1,
                tableIn_mk _ g2 g3 m3 a (hEp2 a k).2.1, (hEp2 a k).2.2⟩)
          (fun ec => by cases ec)
          (by simp only [List.length_cons] at hf; omega)
        have hlt : nwhite U g2.heap < nwhite U g.heap := by
          obtain ⟨r, r1, r2⟩ := hm1 rfl
          exact nwhite_lt U _ g g2 s02.1 hU ⟨r, mk_white_back _ g _ s1.1 r r1, r2⟩
        have est3 : g3.gcstate = g2.gcstate := by
          have k : g3.fixed.gcstate = g2.fixed.gcstate := congrArg global_State.gcstate m3.1
          exact k
        refine ⟨g4, c4, E4, ?_, a1, a2, a3, a4, a5, fun ec => ?_,
          le_trans a7 (le_trans (nwhite_mono U _ g2 g3 m3) (le_of_lt hlt)),
          fun _ => Or.inr (lt_of_le_of_lt (le_trans a7 (nwhite_mono U _ g2 g3 m3)) hlt),
          hdone g4 E4 (mk_trans _ _ _ g2 g3 g4 m3 a9 (fun _ _ _ _ k => (k trivial).elim))
            (fun a ha => a10 a (List.mem_append_right _ ha))
            (fun hst => a11 (by rw [est3]; exact hst))⟩
        · simp only [if_true, e3, Option.some_bind]
          exact e4
        · have k := (a6 ec).1
          cases k

/-! ## `convergeephemerons` terminates at a fixed point -/

/-- The rounds of `convergeephemerons` return when the fuel exceeds the
number of white objects by three times the number of addresses (and four):
the gray list is empty and the entries of the tables left on the ephemeron
list are settled. -/
theorem convergeephemerons_rounds_step (env : Env) (U : List Addr) :
    ∀ (k fuel : Nat) (g : global_State) (dir : Bool) (E : List Addr), WF g →
    (∀ a x, g.heap a = some x → a ∈ U) → g.gray = none →
    IsGSeg g.heap g.ephemeron E none →
    (∀ a, a ∈ E → whiteIn g.heap a = false ∧ tableIn g.heap a) →
    nwhite U g.heap ≤ k → k + 3 * U.length + 4 ≤ fuel →
    ∃ g2 E2, convergeephemerons_rounds env fuel g dir = some g2 ∧ WF g2 ∧ g2.gray = none ∧
      IsGSeg g2.heap g2.ephemeron E2 none ∧
      (∀ a, a ∈ E2 → whiteIn g2.heap a = false ∧ tableIn g2.heap a ∧ EntriesOK g2.heap a) ∧
      nwhite U g2.heap ≤ nwhite U g.heap ∧ Mk (fun _ => True) g g2 ∧
      (g.gcstate ≠ GCSpropagate → ∀ a, a ∈ E → a ∈ E2 ∨ StrongOK g2.heap a) := by
  have hround : ∀ (fuel : Nat) (g : global_State) (dir : Bool) (E : List Addr), WF g →
      (∀ a x, g.heap a = some x → a ∈ U) → g.gray = none →
      IsGSeg g.heap g.ephemeron E none →
      (∀ a, a ∈ E → whiteIn g.heap a = false ∧ tableIn g.heap a) →
      3 * U.length + 3 ≤ fuel →
      ∃ g2 c2 E2, convergeephemerons_tables env dir fuel { g with ephemeron := none }
          g.ephemeron false = some (g2, c2) ∧
        WF g2 ∧ (∀ a x, g2.heap a = some x → a ∈ U) ∧ g2.gray = none ∧
        IsGSeg g2.heap g2.ephemeron E2 none ∧
        (∀ a, a ∈ E2 → whiteIn g2.heap a = false ∧ tableIn g2.heap a) ∧
        (c2 = false → ∀ a, a ∈ E2 → EntriesOK g2.heap a) ∧
        nwhite U g2.heap ≤ nwhite U g.heap ∧
        (c2 = true → nwhite U g2.heap < nwhite U g.heap) ∧ Mk (fun _ => True) g g2 ∧
        (g.gcstate ≠ GCSpropagate → ∀ a, a ∈ E → a ∈ E2 ∨ StrongOK g2.heap a) := by
    intro fuel g dir E hwf hU hgray hE hEp hf
    have hlen := isGSeg_length_le U g.heap hU E _ hE
    obtain ⟨g2, c2, E2, e, a1, a2, a3, a4, a5, a6, a7, a8, a9, -, a11⟩ :=
      convergeephemerons_tables_step env U dir E fuel { g with ephemeron := none } g.ephemeron
        false [] hwf hU hgray hE hEp rfl (fun _ k => (by cases k)) (fun _ _ k => (by cases k))
        (by omega)
    refine ⟨g2, c2, E2, e, a1, a2, a3, a4, a5, fun ec => (a6 ec).2, a7, fun ec => ?_,
      ⟨a9.1, a9.2⟩, a11⟩
    rcases a8 ec with k | k
    · cases k
    · exact k
  intro k
  induction k with
  | zero =>
    intro fuel g dir E hwf hU hgray hE hEp hk hf
    cases fuel with
    | zero => omega
    | succ f =>
      obtain ⟨g2, c2, E2, e, a1, a2, a3, a4, a5, a6, a7, a8, a9, a10⟩ := hround f g dir E hwf hU
        hgray hE hEp (by omega)
      cases c2 with
      | true =>
        have := a8 rfl
        omega
      | false =>
        refine ⟨g2, E2, ?_, a1, a3, a4, fun a ha => ⟨(a5 a ha).1, (a5 a ha).2, a6 rfl a ha⟩, a7,
          a9, a10⟩
        rw [convergeephemerons_rounds]
        simp only [e, Option.bind_eq_bind, Option.some_bind, Bool.false_eq_true, if_false]
  | succ k ih =>
    intro fuel g dir E hwf hU hgray hE hEp hk hf
    cases fuel with
    | zero => omega
    | succ f =>
      obtain ⟨g2, c2, E2, e, a1, a2, a3, a4, a5, a6, a7, a8, a9, a10⟩ := hround f g dir E hwf hU
        hgray hE hEp (by omega)
      cases c2 with
      | true =>
        have hlt := a8 rfl
        obtain ⟨g3, E3, e3, b1, b2, b3, b4, b5, b6, b7⟩ := ih f g2 (!dir) E2 a1 a2 a3 a4 a5
          (by omega) (by omega)
        have est2 : g2.gcstate = g.gcstate := by
          have k : g2.fixed.gcstate = g.fixed.gcstate := congrArg global_State.gcstate a9.1
          exact k
        refine ⟨g3, E3, ?_, b1, b2, b3, b4, le_trans b5 a7,
          mk_trans _ _ _ g g2 g3 a9 b6 (fun _ _ _ _ k => (k trivial).elim), fun hst a ha => ?_⟩
        · rw [convergeephemerons_rounds]
          simp only [e, Option.bind_eq_bind, Option.some_bind, if_true]
          exact e3
        · rcases a10 hst a ha with k | k
          · exact b7 (by rw [est2]; exact hst) a k
          · exact Or.inr (strongOK_mk _ g2 g3 b6 a k)
      | false =>
        refine ⟨g2, E2, ?_, a1, a3, a4, fun a ha => ⟨(a5 a ha).1, (a5 a ha).2, a6 rfl a ha⟩, a7,
          a9, a10⟩
        rw [convergeephemerons_rounds]
        simp only [e, Option.bind_eq_bind, Option.some_bind, Bool.false_eq_true, if_false]

theorem wfObj_leaf (h : Heap) (tt : Tag) (m : Nat) (nx : Option Addr) :
    WFObj h (exObj tt m nx) :=
  ⟨fun _ k => (by cases k), fun _ k => (by cases k), fun _ k => (by cases k),
    fun _ k => (by cases k), fun _ k => (by cases k), fun _ k => (by cases k),
    fun _ k => (by cases k), fun _ k => (by cases k), fun _ k => (by cases k),
    fun _ k => (by cases k), fun _ k => (by cases k), fun _ k => (by cases k),
    fun _ k => (by cases k), fun _ k => (by cases k), fun _ _ _ k => (by cases k),
    fun _ _ k => (by cases k), ⟨[], rfl⟩⟩

theorem exEph_wf : WF exEph := by
  intro a x hx
  have hx2 : exEphHeap a = some x := hx
  unfold exEphHeap at hx2
  split_ifs at hx2 with h1 h2 h3 h4
  · cases hx2
    refine { wfObj_leaf exEph.heap .LUA_VTABLE 0 (some 2) with nodeval := ?_, nodekey := ?_ }
    · intro nd hnd t r e
      simp only [List.mem_cons, List.mem_singleton, List.not_mem_nil, or_false] at hnd
      rcases hnd with k | k
      · subst k
        cases e
        exact ⟨_, rfl, by decide⟩
      · subst k
        cases e
        exact ⟨_, rfl, by decide⟩
    · intro nd hnd r e
      simp only [List.mem_cons, List.mem_singleton, List.not_mem_nil, or_false] at hnd
      rcases hnd with k | k
      · subst k
        cases e
        exact ⟨_, rfl, by decide⟩
      · subst k
        cases e
  · cases hx2
    exact wfObj_leaf _ _ _ _
  · cases hx2
    exact wfObj_leaf _ _ _ _
  · cases hx2
    exact wfObj_leaf _ _ _ _

theorem exEph_within : ∀ a x, exEph.heap a = some x → a ∈ [1, 2, 3, 4] := by
  intro a x hx
  have hx2 : exEphHeap a = some x := hx
  unfold exEphHeap at hx2
  split_ifs at hx2 with h1 h2 h3 h4
  · rw [h1]; decide
  · rw [h2]; decide
  · rw [h3]; decide
  · rw [h4]; decide

theorem entriesOK_settled (h : Heap) (a : Addr) (k : EntriesOK h a) :
    ∀ t nd, h a = some t → nd ∈ t.node → isempty nd.i_val = false →
      (gckeyN nd = none ∨ ∃ k y, gckeyN nd = some k ∧ h k = some y ∧
        (novariant y.tt = LUA_TSTRING ∨ iswhite y.marked = false)) →
      ∀ r, gcvalueN nd.i_val = some r → whiteIn h r = false := by
  intro t nd ht hnd hne hkey r hr
  refine k t ht nd hnd hne ?_ r hr
  rcases hkey with k | ⟨k, y, k1, k2, k3⟩
  · rw [k]
    rfl
  · rw [k1, clearedIn_some _ _ _ k2]
    rcases k3 with k3 | k3
    · simp only [k3, ne_eq, not_true_eq_false, decide_False, Bool.false_and]
    · rw [k3, Bool.and_false]

/-- C24: when `convergeephemerons` is entered with an empty gray list on a
finite, well-formed memory (every live address is in the list `U`, the
pointers of every object are valid, and the ephemeron list is a list `E` of
non-white tables), it returns for every fuel from `4 * U.length + 4` on; on
return the gray list is empty, the ephemeron list is a list `E2`, and no
table of `E2` has a hash entry with a non-empty value whose key is marked
(not collectable, a string, or a non-white object) while its value is white.
The memory was only marked: the fields of the state that marking does not
write are the same, no object appeared or disappeared, every object is
touched at most by marking, and a non-white object stays non-white. Outside
the propagation phase (the collector calls it in `GCSatomic`) the marks were
propagated in every table of the list `E` it was entered with, whether the
table is still on the ephemeron list or not: none has a hash entry with a
non-empty value whose key is marked while its value is white. -/
theorem convergeephemerons_spec (env : Env) (g : global_State) (U E : List Addr)
    (hU : ∀ a x, g.heap a = some x → a ∈ U) (hwf : WF g) (hgray : g.gray = none)
    (hE : IsGList g.heap g.ephemeron E)
    (hEp : ∀ a, a ∈ E → whiteIn g.heap a = false ∧ tableIn g.heap a) :
    ∀ fuel, 4 * U.length + 4 ≤ fuel →
    ∃ g2 E2, convergeephemerons env fuel g = some g2 ∧ g2.gray = none ∧
      IsGList g2.heap g2.ephemeron E2 ∧
      (∀ h t nd, h ∈ E2 → g2.heap h = some t → nd ∈ t.node → isempty nd.i_val = false →
        (gckeyN nd = none ∨ ∃ k y, gckeyN nd = some k ∧ g2.heap k = some y ∧
          (novariant y.tt = LUA_TSTRING ∨ iswhite y.marked = false)) →
        ∀ r, gcvalueN nd.i_val = some r → whiteIn g2.heap r = false) ∧
      Mk (fun _ => True) g g2 ∧
      (g.gcstate ≠ GCSpropagate →
        ∀ h t nd, h ∈ E → g2.heap h = some t → nd ∈ t.node → isempty nd.i_val = false →
          (gckeyN nd = none ∨ ∃ k y, gckeyN nd = some k ∧ g2.heap k = some y ∧
            (novariant y.tt = LUA_TSTRING ∨ iswhite y.marked = false)) →
          ∀ r, gcvalueN nd.i_val = some r → whiteIn g2.heap r = false) := by
  intro fuel hf
  have hle := nwhite_le U g.heap
  obtain ⟨g2, E2, e, -, a2, a3, a4, -, a6, a7⟩ := convergeephemerons_rounds_step env U U.length
    fuel g false E hwf hU hgray ((isGList_iff_seg _ _ _).1 hE) hEp hle (by omega)
  refine ⟨g2, E2, e, a2, (isGList_iff_seg _ _ _).2 a3, ?_, a6, ?_⟩
  · intro h t nd hh ht hnd
    exact entriesOK_settled g2.heap h (a4 h hh).2.2 t nd ht hnd
  · intro hst h t nd hh ht hnd
    rcases a7 hst h hh with k | k
    · exact entriesOK_settled g2.heap h (a4 h k).2.2 t nd ht hnd
    · exact entriesOK_settled g2.heap h (strongOK_entriesOK _ _ k) t nd ht hnd

/-- Witness of C24: on `exEph`, whose four objects are well formed, whose
gray list is empty and whose ephemeron list holds the gray table 1,
`convergeephemerons` returns with 20 units of fuel; the run marks the table
4, the value of the number 1, leaves the table 3 white, whose key 2 is
white, and keeps the table 1 on the ephemeron list. -/
theorem convergeephemerons_spec_witness :
    (∃ g2 E2, convergeephemerons exEnv 20 exEph = some g2 ∧ g2.gray = none ∧
      IsGList g2.heap g2.ephemeron E2 ∧
      (∀ h t nd, h ∈ E2 → g2.heap h = some t → nd ∈ t.node → isempty nd.i_val = false →
        (gckeyN nd = none ∨ ∃ k y, gckeyN nd = some k ∧ g2.heap k = some y ∧
          (novariant y.tt = LUA_TSTRING ∨ iswhite y.marked = false)) →
        ∀ r, gcvalueN nd.i_val = some r → whiteIn g2.heap r = false) ∧
      Mk (fun _ => True) exEph g2 ∧
      (exEph.gcstate ≠ GCSpropagate →
        ∀ h t nd, h ∈ [1] → g2.heap h = some t → nd ∈ t.node → isempty nd.i_val = false →
          (gckeyN nd = none ∨ ∃ k y, gckeyN nd = some k ∧ g2.heap k = some y ∧
            (novariant y.tt = LUA_TSTRING ∨ iswhite y.marked = false)) →
          ∀ r, gcvalueN nd.i_val = some r → whiteIn g2.heap r = false)) ∧
    exEph.gcstate ≠ GCSpropagate ∧
    (convergeephemerons exEnv 20 exEph).map
        (fun g2 => (whiteIn g2.heap 3, whiteIn g2.heap 4, g2.ephemeron, g2.gray))
      = some (true, false, some 1, none) :=
  ⟨convergeephemerons_spec exEnv exEph [1, 2, 3, 4] [1] exEph_within exEph_wf rfl
    ⟨rfl, _, rfl, rfl⟩
    (fun a ha => by
      rw [List.mem_singleton.1 ha]
      exact ⟨rfl, _, rfl, rfl⟩)
    20 (by decide), by decide, rfl⟩

/-! ## `traversetable`: the choice of the traversal -/

theorem traversetable_weak_eq (g : global_State) (h : Addr) (t : GCObject) (s : Addr)
    (g1 : global_State) (z1 : GCObject) (ht : g.heap h = some t)
    (emode : gfasttm g t.metatable .TM_MODE = some (some (.gc .LUA_VSHRSTR s)))
    (e1 : markobjectN g t.metatable = some g1) (hz1 : g1.heap s = some z1) :
    traversetable g h =
      (if (strchr z1.contents 'k' || strchr z1.contents 'v') = true then
        if (!strchr z1.contents 'k') = true then traverseweakvalue g1 h
        else if (!strchr z1.contents 'v') = true then
          (traverseephemeron g1 h false).map (fun r => r.1)
        else linkgclist g1 h .allweak
      else traversestrongtable g1 h).bind
        (fun y => (y.heap h).bind fun t2 => some (y, 1 + t2.alimit + 2 * allocsizenode t2)) := by
  unfold traversetable
  simp only [ht, Option.bind_eq_bind, Option.some_bind, emode, e1, hz1] <;>
    (split <;> first | rfl | (split <;> first | rfl | (split <;> rfl)))

theorem traversetable_strong_eq (g : global_State) (h : Addr) (t : GCObject)
    (mode : Option TValue) (g1 : global_State) (ht : g.heap h = some t)
    (emode : gfasttm g t.metatable .TM_MODE = some mode)
    (hns : ∀ s, mode ≠ some (.gc .LUA_VSHRSTR s))
    (e1 : markobjectN g t.metatable = some g1) :
    traversetable g h = (traversestrongtable g1 h).bind
        (fun y => (y.heap h).bind fun t2 => some (y, 1 + t2.alimit + 2 * allocsizenode t2)) := by
  unfold traversetable
  simp only [ht, Option.bind_eq_bind, Option.some_bind, emode, e1] <;>
    (split <;> first | rfl | exact absurd rfl (hns _))

/-- C33, with the reading of `__mode` that the code has: on a well-formed
memory `traversetable` marks the metatable (state `g1`) and then runs one
traversal from `g1`. When the metatable has a `__mode` that is a short string
`z`, the characters that count are those before the first NUL of `z`, as
`strchr` reads them: the weak-value traversal if `v` is among them and `k` is
not, the ephemeron traversal if `k` is and `v` is not, only the link of the
table (gray, with its entries as they are) at the head of `allweak` if both
are, and the strong traversal if neither is; the strong traversal too when
there is no metatable or `__mode` is no short string. The metatable is not
white afterwards and the work returned is `1 + alimit + 2 * allocsizenode`. -/
theorem traversetable_spec (g : global_State) (h : Addr) (t : GCObject) (hwf : WF g)
    (ht : g.heap h = some t) (hnw : iswhite t.marked = false) (htab : t.tt = .LUA_VTABLE) :
    ∃ g1 g2, markobjectN g t.metatable = some g1 ∧ g1.heap h = some t ∧
      traversetable g h = some (g2, 1 + t.alimit + 2 * allocsizenode t) ∧
      (∀ mt, t.metatable = some mt → whiteIn g2.heap mt = false) ∧
      (∀ mt y s z, t.metatable = some mt → g.heap mt = some y →
        y.tm_mode = some (.gc .LUA_VSHRSTR s) → g.heap s = some z →
        (strchr z.contents 'k' = false → strchr z.contents 'v' = true →
          traverseweakvalue g1 h = some g2) ∧
        (strchr z.contents 'k' = true → strchr z.contents 'v' = false →
          ∃ m, traverseephemeron g1 h false = some (g2, m)) ∧
        (strchr z.contents 'k' = true → strchr z.contents 'v' = true →
          g2 = (g1.setlist .allweak (some h)).setobj h
            { t with gclist := g1.allweak, marked := set2gray t.marked }) ∧
        (strchr z.contents 'k' = false → strchr z.contents 'v' = false →
          traversestrongtable g1 h = some g2)) ∧
      ((t.metatable = none ∨ ∃ mt y, t.metatable = some mt ∧ g.heap mt = some y ∧
          ∀ s, y.tm_mode ≠ some (.gc .LUA_VSHRSTR s)) →
        traversestrongtable g1 h = some g2) := by
  have hS := subject_nonwhite g h t ht hnw
  have hp : PtrOK g.heap t.metatable := by
    intro mt e
    obtain ⟨y, hy, -⟩ := (hwf h t ht).metatable mt e
    exact ⟨y, hy⟩
  obtain ⟨g1, e1, s1, w1⟩ := markobjectN_step g t.metatable hwf hp
  have hwf1 := step_wf _ _ g g1 s1 hwf
  have ht1 : g1.heap h = some t := by
    rw [mk_same _ g g1 s1.1 h (fun k => k) (hS h rfl)]
    exact ht
  -- the end of the function, after a traversal that is a step
  have hfin : ∀ (g2 : global_State) (X : List Addr), Step (fun a => a = h) X g1 g2 →
      ((some g2).bind fun y => (y.heap h).bind fun t2 =>
        some (y, 1 + t2.alimit + 2 * allocsizenode t2))
        = some (g2, 1 + t.alimit + 2 * allocsizenode t) ∧
      ∀ mt, t.metatable = some mt → whiteIn g2.heap mt = false := by
    intro g2 X s2
    obtain ⟨t2, ht2, tt2⟩ := mk_live _ g1 g2 s2.1 h t ht1
    have hf := touch_fields _ _ tt2
    refine ⟨?_, fun mt e => mk_nonwhite _ g1 g2 s2.1 mt (w1 mt e)⟩
    simp only [Option.some_bind, ht2]
    have ea : t2.alimit = t.alimit := hf.2.2.2.2.2.2.2.2.2.2.2.2.2.2.2.2.1
    have ed : t2.isdummy = t.isdummy := hf.2.2.2.2.2.2.2.2.2.2.2.2.2.2.2.2.2.1
    unfold allocsizenode
    rw [ea, ed, tt2.2.2.1]
  -- the strong traversal
  obtain ⟨gs, es, ss⟩ := traversestrongtable_step g1 h t hwf1 ht1 hnw htab
  rcases Option.eq_none_or_eq_some t.metatable with hm | ⟨mt, hm⟩
  · have emode : gfasttm g t.metatable .TM_MODE = some none := by rw [hm]; rfl
    refine ⟨g1, gs, e1, ht1, ?_, (hfin gs [] ss).2, ?_, fun _ => es⟩
    · rw [traversetable_strong_eq g h t none g1 ht emode (fun _ k => by cases k) e1, es]
      exact (hfin gs [] ss).1
    · intro mt y s z k
      rw [hm] at k
      cases k
  · obtain ⟨y, hy, -, hmz⟩ := (hwf h t ht).metatable mt hm
    have emode : gfasttm g t.metatable .TM_MODE = some y.tm_mode := by
      rw [hm]
      unfold gfasttm
      simp only [hy, Option.map_some']
    by_cases hs : ∃ s, y.tm_mode = some (.gc .LUA_VSHRSTR s)
    · obtain ⟨s, hs⟩ := hs
      obtain ⟨z, hz⟩ := hmz _ s hs
      obtain ⟨z1, hz1, tz1⟩ := mk_live _ g g1 s1.1 s z hz
      have ec : z1.contents = z.contents :=
        (touch_fields _ _ tz1).2.2.2.2.2.2.2.2.2.2.2.2.2.2.2.2.2.2
      rw [hs] at emode
      have hB : ∃ g2 X, (if (strchr z.contents 'k' || strchr z.contents 'v') = true then
            if (!strchr z.contents 'k') = true then traverseweakvalue g1 h
            else if (!strchr z.contents 'v') = true then
              (traverseephemeron g1 h false).map (fun r => r.1)
            else linkgclist g1 h .allweak
          else traversestrongtable g1 h) = some g2 ∧ Step (fun a => a = h) X g1 g2 := by
        split
        · split
          · obtain ⟨g2, e, s⟩ := traverseweakvalue_step g1 h t hwf1 ht1 hnw
            exact ⟨g2, [], e, s⟩
          · split
            · obtain ⟨g2, m, X, e, s, -⟩ := traverseephemeron_step g1 h false t hwf1 ht1 hnw htab
              exact ⟨g2, X, by rw [e]; rfl, s⟩
            · obtain ⟨g2, e, s⟩ := linkgclist_step g1 h t .allweak ht1 (by decide)
              exact ⟨g2, _, e, s⟩
        · exact ⟨gs, [], es, ss⟩
      obtain ⟨g2, X, eB, sB⟩ := hB
      refine ⟨g1, g2, e1, ht1, ?_, (hfin g2 X sB).2, ?_, ?_⟩
      · rw [traversetable_weak_eq g h t s g1 z1 ht emode e1 hz1, ec, eB]
        exact (hfin g2 X sB).1
      · intro mt2 y2 s2 z2 k1 k2 k3 k4
        rw [hm] at k1
        cases k1
        rw [hy] at k2
        cases k2
        rw [hs] at k3
        cases k3
        rw [hz] at k4
        cases k4
        refine ⟨fun a b => ?_, fun a b => ?_, fun a b => ?_, fun a b => ?_⟩
        · simpa only [a, b, Bool.or_true, Bool.not_false, if_true] using eB
        · simp only [a, b, Bool.or_false, Bool.not_true, Bool.not_false, if_true,
            Bool.false_eq_true, if_false, Option.map_eq_some'] at eB
          obtain ⟨r, er, e2⟩ := eB
          exact ⟨r.2, by rw [er, ← e2]⟩
        · simp only [a, b, Bool.or_true, Bool.not_true, Bool.false_eq_true, if_true,
            if_false, linkgclist_exact g1 h t .allweak ht1, Option.some.injEq] at eB
          exact eB.symm
        · simpa only [a, b, Bool.or_false, Bool.false_eq_true, if_false] using eB
      · rintro (k | ⟨mt2, y2, k1, k2, k3⟩)
        · rw [hm] at k
          cases k
        · rw [hm] at k1
          cases k1
          rw [hy] at k2
          cases k2
          exact absurd hs (k3 s)
    · have hns : ∀ s, y.tm_mode ≠ some (.gc .LUA_VSHRSTR s) := fun s k => hs ⟨s, k⟩
      refine ⟨g1, gs, e1, ht1, ?_, (hfin gs [] ss).2, ?_, fun _ => es⟩
      · rw [traversetable_strong_eq g h t _ g1 ht emode hns e1, es]
        exact (hfin gs [] ss).1
      · intro mt2 y2 s2 z2 k1 k2 k3 k4
        rw [hm] at k1
        cases k1
        rw [hy] at k2
        cases k2
        exact absurd k3 (hns s2)

/-- An object without pointers is well formed. -/
theorem wfObj_norefs (h : Heap) (x : GCObject) (h1 : x.metatable = none) (h2 : x.array = [])
    (h3 : x.node = []) (h4 : x.uv = []) (h5 : x.cl_p = none) (h6 : x.upvals = [])
    (h7 : x.upvalue = []) (h8 : x.source = none) (h9 : x.k = []) (h10 : x.upvalues = [])
    (h11 : x.p = []) (h12 : x.locvars = []) (h13 : x.stack = none) (h14 : x.v = .closed)
    (h15 : x.value = .nil) (h16 : x.openupval = none) : WFObj h x := by
  refine ⟨?_, ?_, ?_, ?_, ?_, ?_, ?_, ?_, ?_, ?_, ?_, ?_, ?_, ?_, ?_, ?_, ?_⟩
  · intro mt e; rw [h1] at e; cases e
  · intro v e; rw [h2] at e; cases e
  · intro v e; rw [h3] at e; cases e
  · intro v e; rw [h3] at e; cases e
  · intro v e; rw [h4] at e; cases e
  · intro r e; rw [h5] at e; cases e
  · intro v e; rw [h6] at e; cases e
  · intro v e; rw [h7] at e; cases e
  · intro r e; rw [h8] at e; cases e
  · intro v e; rw [h9] at e; cases e
  · intro v e; rw [h10] at e; cases e
  · intro v e; rw [h11] at e; cases e
  · intro v e; rw [h12] at e; cases e
  · intro s e; rw [h13] at e; cases e
  · intro _ t r e; rw [h15] at e; cases e
  · intro th idx e; rw [h14] at e; cases e
  · rw [h16]; exact ⟨[], rfl⟩

theorem exMode_wf : WF exMode := by
  intro a x hx
  have hx2 : exModeHeap a = some x := hx
  unfold exModeHeap at hx2
  split_ifs at hx2 with h1 h2 h3 h4
  · cases hx2
    refine { wfObj_leaf exMode.heap .LUA_VTABLE 32 (some 2) with metatable := ?_, array := ?_ }
    · intro mt e
      cases e
      refine ⟨_, rfl, rfl, ?_⟩
      intro tg s e
      cases e
      exact ⟨_, rfl⟩
    · intro v hv t r e
      simp only [List.mem_singleton] at hv
      subst hv
      cases e
      exact ⟨_, rfl, by decide⟩
  · cases hx2
    exact wfObj_norefs _ _ rfl rfl rfl rfl rfl rfl rfl rfl rfl rfl rfl rfl rfl rfl rfl rfl
  · cases hx2
    exact wfObj_norefs _ _ rfl rfl rfl rfl rfl rfl rfl rfl rfl rfl rfl rfl rfl rfl rfl rfl
  · cases hx2
    exact wfObj_leaf _ _ _ _

/-- Witness of C33: table 1 of `exMode` has the mode "kv"; `traversetable`
marks its metatable 2 and links the table, gray, at the head of `allweak`,
leaving the white table 4 of its array part white; the work is 2. -/
theorem traversetable_spec_witness :
    ∃ g2 x2, traversetable exMode 1 = some (g2, 2) ∧ whiteIn g2.heap 2 = false ∧
      g2.allweak = some 1 ∧ g2.heap 1 = some x2 ∧ isgray x2.marked = true ∧
      whiteIn g2.heap 4 = true := by
  obtain ⟨g1, g2, e1, -, e, w, hw, -⟩ := traversetable_spec exMode 1
    { exObj .LUA_VTABLE 32 (some 2) with
      metatable := some 2, alimit := 1, array := [.gc .LUA_VTABLE 4] }
    exMode_wf rfl (by decide) rfl
  have eq := (hw 2 _ 3 _ rfl rfl rfl rfl).2.2.1 (by decide) (by decide)
  have e1b : g1 = { exMode with
      heap := exMode.heap.set 2 { ({ exObj .LUA_VTABLE 8 (some 3) with
        tm_mode := some (.gc .LUA_VSHRSTR 3) } : GCObject) with
        gclist := none, marked := set2gray 8 },
      gray := some 2 } := by
    have k : markobjectN exMode (some 2) = some _ :=
      markrec_link 2 exMode 2 _ rfl (Or.inl rfl)
    have k2 : markobjectN exMode (some 2) = some g1 := e1
    rw [k] at k2
    exact (Option.some.inj k2).symm
  subst e1b
  subst eq
  exact ⟨_, _, e, w 2 rfl, rfl, rfl, by decide, rfl⟩

/-- C33 as stated fails: the `__mode` of table 1 of `exModeNul` is a short
string that contains 'k' and 'v', after a NUL; `traversetable` runs the strong
traversal, which marks the table 4 of the array part and leaves table 1 black
and `allweak` empty. -/
theorem traversetable_spec_counterexample :
    (exModeNul.heap 3).map (fun z => (z.tt, z.contents.contains 'k', z.contents.contains 'v'))
      = some (.LUA_VSHRSTR, true, true) ∧
    (exModeNul.heap 2).map (fun y => y.tm_mode) = some (some (.gc .LUA_VSHRSTR 3)) ∧
    (exModeNul.heap 1).map (fun x => x.metatable) = some (some 2) ∧
    whiteIn exModeNul.heap 4 = true ∧
    (traversetable exModeNul 1).bind (fun r => (r.1.heap 1).map (fun x =>
        (r.1.allweak, whiteIn r.1.heap 4, isblack x.marked)))
      = some (none, false, true) ∧
    (traversetable exModeNul 1).map (fun r => r.1)
      = (markobjectN exModeNul (some 2)).bind (fun g1 => traversestrongtable g1 1) :=
  ⟨rfl, rfl, rfl, rfl, rfl, rfl⟩

/-! ## The flags of the hash loop of `traverseephemeron` -/

theorem iff_chain (A B C D V X : Prop) (h1 : A ↔ B ∨ C) (h2 : X ↔ A ∨ D) (h3 : V ↔ C ∨ D) :
    X ↔ B ∨ V := by
  rw [h2, h1, h3]
  tauto

/-- The visits of the loop from step `i` are the visit of step `i` and the
visits of the loop from step `i + 1`. -/
theorem ephVisit_shift (h : Addr) (inv : Bool) (nsize i : Nat) (g g1 : global_State)
    (f f1 : EphFlags) (P : global_State → Node → Prop) (n : Nat) (t : GCObject) (nd0 : Node)
    (ht : g.heap h = some t)
    (hnd : t.node.get? (if inv = true then nsize - 1 - i else i) = some nd0)
    (hstep : ∀ m, traverseephemeron_loop h inv nsize (m + 1) i g f
      = traverseephemeron_loop h inv nsize m (i + 1) g1 f1) :
    (∃ k, k < n + 1 ∧ ephVisit h inv nsize i g f P k) ↔
      (isempty nd0.i_val = false ∧ P g nd0) ∨
        ∃ k, k < n ∧ ephVisit h inv nsize (i + 1) g1 f1 P k := by
  constructor
  · rintro ⟨k, hk, gk, fk, tk, nd, e, htk, hn, hne, hP⟩
    cases k with
    | zero =>
      have e0 : (g, f) = (gk, fk) := Option.some.inj e
      cases e0
      rw [ht] at htk
      cases htk
      rw [Nat.add_zero, hnd] at hn
      cases hn
      exact Or.inl ⟨hne, hP⟩
    | succ k =>
      rw [hstep k] at e
      refine Or.inr ⟨k, by omega, gk, fk, tk, nd, e, htk, ?_, hne, hP⟩
      rw [show i + 1 + k = i + (k + 1) by omega]
      exact hn
  · rintro (⟨hne, hP⟩ | ⟨k, hk, gk, fk, tk, nd, e, htk, hn, hne, hP⟩)
    · exact ⟨0, by omega, g, f, t, nd0, rfl, ht, by rw [Nat.add_zero]; exact hnd, hne, hP⟩
    · refine ⟨k + 1, by omega, gk, fk, tk, nd, by rw [hstep k]; exact e, htk, ?_, hne, hP⟩
      rw [show i + (k + 1) = i + 1 + k by omega]
      exact hn

/-- The hash loop of `traverseephemeron` writes only the nodes of the table
it traverses; `hasclears` is set exactly when some visited entry has a white
key that is no string, and `hasww` exactly when such an entry has a white
value too. -/
theorem traverseephemeron_loop_visit (h : Addr) (inv : Bool) (nsize : Nat) :
    ∀ (n i : Nat) (g : global_State) (t : GCObject) (f : EphFlags), WF g →
    g.heap h = some t → iswhite t.marked = false → t.node.length = nsize → i + n = nsize →
    ∃ g2 f2 nodes, traverseephemeron_loop h inv nsize n i g f = some (g2, f2) ∧
      g2.heap h = some { t with node := nodes } ∧
      (f2.hasclears = true ↔ f.hasclears = true ∨
        ∃ k, k < n ∧ ephVisit h inv nsize i g f keyCleared k) ∧
      (f2.hasww = true ↔ f.hasww = true ∨
        ∃ k, k < n ∧ ephVisit h inv nsize i g f wwEntry k) := by
  intro n
  induction n with
  | zero =>
    intro i g t f _ ht _ _ _
    refine ⟨g, f, t.node, rfl, ht, ?_, ?_⟩
    · exact ⟨fun e => Or.inl e, fun e => e.elim (fun k => k) (fun ⟨k, hk, _⟩ => by omega)⟩
    · exact ⟨fun e => Or.inl e, fun e => e.elim (fun k => k) (fun ⟨k, hk, _⟩ => by omega)⟩
  | succ n ih =>
    intro i g t f hwf ht hnw hsz hlen
    have hidx : (if inv = true then nsize - 1 - i else i) < t.node.length := by
      split <;> omega
    have hnd : t.node.get? (if inv = true then nsize - 1 - i else i)
        = some (t.node.get ⟨_, hidx⟩) := List.get?_eq_get hidx
    have hmem : t.node.get ⟨_, hidx⟩ ∈ t.node := List.get_mem _ _ _
    generalize t.node.get ⟨_, hidx⟩ = nd at hnd hmem
    have hS := subject_nonwhite g h t ht hnw
    cases he : isempty nd.i_val with
    | true =>
      have hstep : ∀ m, traverseephemeron_loop h inv nsize (m + 1) i g f
          = traverseephemeron_loop h inv nsize m (i + 1)
            (g.setobj h
              { t with node := t.node.set (if inv = true then nsize - 1 - i else i) (clearkey nd) })
            f := by
        intro m
        rw [traverseephemeron_loop]
        simp only [ht, Option.bind_eq_bind, Option.some_bind, hnd, he, if_true]
      obtain ⟨s1, -⟩ := clearkey_step g h t _ nd ht hnw hnd he
      have hl1 : (t.node.set (if inv = true then nsize - 1 - i else i) (clearkey nd)).length
          = nsize := by
        rw [← hsz]
        exact List.length_set _ _ _
      obtain ⟨g2, f2, nodes, e2, hh2, A, B⟩ := ih (i + 1) _
        { t with node := t.node.set (if inv = true then nsize - 1 - i else i) (clearkey nd) } f
        (step_wf _ _ g _ s1 hwf) (heap_set_same _ _ _) hnw hl1 (by omega)
      refine ⟨g2, f2, nodes, by rw [hstep n]; exact e2, hh2, ?_, ?_⟩
      · refine iff_chain _ _ False _ _ _ (by simp) A ?_
        rw [ephVisit_shift h inv nsize i g _ f f keyCleared n t nd ht hnd hstep, he]
        simp
      · refine iff_chain _ _ False _ _ _ (by simp) B ?_
        rw [ephVisit_shift h inv nsize i g _ f f wwEntry n t nd ht hnd hstep, he]
        simp
    | false =>
      obtain ⟨g1, c, e1, s1, q1, hc, hc1, hcg, -⟩ := iscleared_step g (gckeyN nd) hwf
        (ptrOK_key g hwf h t ht nd hmem)
      have hwf1 := step_wf _ _ g g1 s1 hwf
      have ht1 : g1.heap h = some t := by
        rw [mk_same _ g g1 s1.1 h (fun k => k) (hS h rfl)]
        exact ht
      obtain ⟨w, hw, hw1, hw0⟩ := valiswhite_wf g1 nd.i_val
        (valOK_mk _ g g1 s1.1 _ ((hwf h t ht).nodeval nd hmem))
      cases c with
      | true =>
        have eg : g1 = g := hcg rfl
        subst eg
        have hstep : ∀ m, traverseephemeron_loop h inv nsize (m + 1) i g1 f
            = traverseephemeron_loop h inv nsize m (i + 1) g1
              { f with hasclears := true, hasww := if w = true then true else f.hasww } := by
          intro m
          rw [traverseephemeron_loop]
          simp only [ht, Option.bind_eq_bind, Option.some_bind, hnd, he, Bool.false_eq_true,
            if_false, e1, hw, if_true]
        obtain ⟨g2, f2, nodes, e2, hh2, A, B⟩ := ih (i + 1) g1 t
          { f with hasclears := true, hasww := if w = true then true else f.hasww } hwf ht hnw
          hsz (by omega)
        have hkc : keyCleared g1 nd := hc.symm
        refine ⟨g2, f2, nodes, by rw [hstep n]; exact e2, hh2, ?_, ?_⟩
        · refine iff_chain _ _ True _ _ _ (by simp) A ?_
          rw [ephVisit_shift h inv nsize i g1 _ f _ keyCleared n t nd ht hnd hstep]
          simp [he, hkc]
        · refine iff_chain _ _ (w = true) _ _ _ ?_ B ?_
          · show (if w = true then true else f.hasww) = true ↔ _
            cases w <;> simp
          · rw [ephVisit_shift h inv nsize i g1 _ f _ wwEntry n t nd ht hnd hstep]
            have hww : wwEntry g1 nd ↔ w = true := by
              constructor
              · rintro ⟨-, r, hr, hwr⟩
                cases w with
                | true => rfl
                | false =>
                  rw [hw0 rfl r hr] at hwr
                  cases hwr
              · intro ew
                obtain ⟨r, y, hr, hy, hyw⟩ := hw1 ew
                exact ⟨hkc, r, hr, by rw [whiteIn_some _ _ _ hy]; exact hyw⟩
            simp [he, hww]
      | false =>
        have hnk : ¬ keyCleared g nd := by
          intro k
          rw [keyCleared, ← hc] at k
          cases k
        have hnw2 : ¬ wwEntry g nd := fun k => hnk k.1
        cases w with
        | true =>
          obtain ⟨r, y, hr, hy, hyw⟩ := hw1 rfl
          obtain ⟨g2, e2, s2, w2⟩ := reallymarkobject_step g1 r y hwf1 hy hyw
          have s12 := step_false_trans g g1 g2 s1 s2
          have ht2 : g2.heap h = some t := by
            rw [mk_same _ g g2 s12.1 h (fun k => k) (hS h rfl)]
            exact ht
          have hstep : ∀ m, traverseephemeron_loop h inv nsize (m + 1) i g f
              = traverseephemeron_loop h inv nsize m (i + 1) g2 { f with marked := true } := by
            intro m
            rw [traverseephemeron_loop]
            simp only [ht, Option.bind_eq_bind, Option.some_bind, hnd, he, Bool.false_eq_true,
              if_false, e1, hw, if_true, hr, e2]
          obtain ⟨g3, f3, nodes, e3, hh3, A, B⟩ := ih (i + 1) g2 t { f with marked := true }
            (step_wf _ _ g1 g2 s2 hwf1) ht2 hnw hsz (by omega)
          refine ⟨g3, f3, nodes, by rw [hstep n]; exact e3, hh3, ?_, ?_⟩
          · refine iff_chain _ _ False _ _ _ (by simp) A ?_
            rw [ephVisit_shift h inv nsize i g _ f _ keyCleared n t nd ht hnd hstep]
            simp [hnk]
          · refine iff_chain _ _ False _ _ _ (by simp) B ?_
            rw [ephVisit_shift h inv nsize i g _ f _ wwEntry n t nd ht hnd hstep]
            simp [hnw2]
        | false =>
          have hstep : ∀ m, traverseephemeron_loop h inv nsize (m + 1) i g f
              = traverseephemeron_loop h inv nsize m (i + 1) g1 f := by
            intro m
            rw [traverseephemeron_loop]
            simp only [ht, Option.bind_eq_bind, Option.some_bind, hnd, he, Bool.false_eq_true,
              if_false, e1, hw]
          obtain ⟨g3, f3, nodes, e3, hh3, A, B⟩ := ih (i + 1) g1 t f hwf1 ht1 hnw hsz (by omega)
          refine ⟨g3, f3, nodes, by rw [hstep n]; exact e3, hh3, ?_, ?_⟩
          · refine iff_chain _ _ False _ _ _ (by simp) A ?_
            rw [ephVisit_shift h inv nsize i g _ f _ keyCleared n t nd ht hnd hstep]
            simp [hnk]
          · refine iff_chain _ _ False _ _ _ (by simp) B ?_
            rw [ephVisit_shift h inv nsize i g _ f _ wwEntry n t nd ht hnd hstep]
            simp [hnw2]

theorem isblack_changeage (m : Nat) :
    isblack (changeage m G_TOUCHED2 G_OLD) = isblack m := by
  unfold isblack testbit testbits changeage
  rw [Nat.and_xor_distrib_right]
  have h : (G_TOUCHED2 ^^^ G_OLD) &&& bitmask BLACKBIT = 0 := by decide
  rw [h, Nat.xor_zero]

/-- C37 (amended): after `traverseephemeron` on a black table `h` of a
well-formed memory, with `g2` the state at the end of the hash loop: if
`gcstate` is `GCSpropagate` the table is linked, gray, at the head of
`grayagain`; otherwise, if some visited entry had a white key other than a
string and a white value (flag `hasww`), at the head of `ephemeron`;
otherwise, if some visited entry had a white key other than a string (flag
`hasclears`), at the head of `allweak`; otherwise `genlink` links it at the
head of `grayagain` when its age is `G_TOUCHED1`, and else no gray list
changes and the table stays black.  Each link writes one list head only. -/
theorem traverseephemeron_link (g : global_State) (h : Addr) (inv : Bool) (t : GCObject)
    (hwf : WF g) (ht : g.heap h = some t) (hb : isblack t.marked = true)
    (hnw : iswhite t.marked = false) (htab : t.tt = .LUA_VTABLE) :
    ∃ g1 m1 g2 f nodes g3,
      traverseephemeron_array t.array g false = some (g1, m1) ∧
      traverseephemeron_loop h inv t.node.length t.node.length 0 g1
        { marked := m1, hasclears := false, hasww := false } = some (g2, f) ∧
      g2.heap h = some { t with node := nodes } ∧
      traverseephemeron g h inv = some (g3, f.marked) ∧
      (f.hasclears = true ↔ ∃ k, k < t.node.length ∧ ephVisit h inv t.node.length 0 g1
        { marked := m1, hasclears := false, hasww := false } keyCleared k) ∧
      (f.hasww = true ↔ ∃ k, k < t.node.length ∧ ephVisit h inv t.node.length 0 g1
        { marked := m1, hasclears := false, hasww := false } wwEntry k) ∧
      (g.gcstate = GCSpropagate → g3 = (g2.setlist .grayagain (some h)).setobj h
        { t with node := nodes, gclist := g2.grayagain, marked := set2gray t.marked }) ∧
      (g.gcstate ≠ GCSpropagate → f.hasww = true →
        g3 = (g2.setlist .ephemeron (some h)).setobj h
          { t with node := nodes, gclist := g2.ephemeron, marked := set2gray t.marked }) ∧
      (g.gcstate ≠ GCSpropagate → f.hasww = false → f.hasclears = true →
        g3 = (g2.setlist .allweak (some h)).setobj h
          { t with node := nodes, gclist := g2.allweak, marked := set2gray t.marked }) ∧
      (g.gcstate ≠ GCSpropagate → f.hasww = false → f.hasclears = false →
        (getage t.marked = G_TOUCHED1 → g3 = (g2.setlist .grayagain (some h)).setobj h
          { t with node := nodes, gclist := g2.grayagain, marked := set2gray t.marked }) ∧
        (getage t.marked ≠ G_TOUCHED1 → (∀ l, g3.getlist l = g2.getlist l) ∧
          ∃ x3, g3.heap h = some x3 ∧ isblack x3.marked = true ∧ x3.gclist = t.gclist)) := by
  have hS := subject_nonwhite g h t ht hnw
  obtain ⟨g1, m1, e1, s1, -⟩ := traverseephemeron_array_step t.array g false hwf
    (hwf h t ht).array
  have hwf1 := step_wf _ _ g g1 s1 hwf
  have ht1 : g1.heap h = some t := by
    rw [mk_same _ g g1 s1.1 h (fun k => k) (hS h rfl)]
    exact ht
  obtain ⟨g2, f, nodes, e2, ht2, A, B⟩ := traverseephemeron_loop_visit h inv t.node.length
    t.node.length 0 g1 t { marked := m1, hasclears := false, hasww := false } hwf1 ht1 hnw rfl
    (by omega)
  obtain ⟨g2', f', e2', s2, -⟩ := traverseephemeron_loop_step h inv t.node.length
    t.node.length 0 g1 t { marked := m1, hasclears := false, hasww := false } hwf1 ht1 hnw rfl
    (by omega)
  rw [e2] at e2'
  cases e2'
  have hst : g2.gcstate = g.gcstate := by
    have k1 : g1.fixed.gcstate = g.fixed.gcstate := congrArg global_State.gcstate s1.1.1
    have k2 : g2.fixed.gcstate = g1.fixed.gcstate := congrArg global_State.gcstate s2.1.1
    exact k2.trans k1
  have hlk : ∀ l, linkgclist g2 h l = some ((g2.setlist l (some h)).setobj h
      { t with node := nodes, gclist := g2.getlist l, marked := set2gray t.marked }) :=
    fun l => linkgclist_exact g2 h _ l ht2
  have hg2 : getgclist h ({ t with node := nodes } : GCObject) = some h := by
    unfold getgclist
    show (match t.tt with
      | .LUA_VTABLE => some h
      | .LUA_VLCL => some h
      | .LUA_VCCL => some h
      | .LUA_VTHREAD => some h
      | .LUA_VPROTO => some h
      | .LUA_VUSERDATA => some h
      | _ => none) = some h
    rw [htab]
  have hA : (f.hasclears = true ↔ ∃ k, k < t.node.length ∧ ephVisit h inv t.node.length 0 g1
      { marked := m1, hasclears := false, hasww := false } keyCleared k) := by
    rw [A]
    simp
  have hB : (f.hasww = true ↔ ∃ k, k < t.node.length ∧ ephVisit h inv t.node.length 0 g1
      { marked := m1, hasclears := false, hasww := false } wwEntry k) := by
    rw [B]
    simp
  have hun : ∀ g3, (if g2.gcstate = GCSpropagate
      then (linkgclist g2 h .grayagain).bind fun a => some (a, f.marked)
      else if f.hasww = true then (linkgclist g2 h .ephemeron).bind fun a => some (a, f.marked)
      else if f.hasclears = true
        then (linkgclist g2 h .allweak).bind fun a => some (a, f.marked)
      else (genlink g2 h).bind fun a => some (a, f.marked)) = some (g3, f.marked) →
      traverseephemeron g h inv = some (g3, f.marked) := by
    intro g3 e3
    unfold traverseephemeron
    simp only [ht, Option.bind_eq_bind, Option.some_bind, e1, e2]
    exact e3
  by_cases hp : g.gcstate = GCSpropagate
  · refine ⟨g1, m1, g2, f, nodes, _, e1, e2, ht2, hun _ ?_, hA, hB, fun _ => rfl,
      fun k => absurd hp k, fun k => absurd hp k, fun k => absurd hp k⟩
    rw [if_pos (hst.trans hp), hlk]
    rfl
  have hp2 : ¬ g2.gcstate = GCSpropagate := fun k => hp (hst.symm.trans k)
  cases hww : f.hasww with
  | true =>
    refine ⟨g1, m1, g2, f, nodes, _, e1, e2, ht2, hun _ ?_, hA, hB, fun k => absurd k hp,
      fun _ _ => rfl, fun _ k => (by first | (rw [hww] at k; cases k) | (rw [hcl] at k; cases k)), fun _ k => (by first | (rw [hww] at k; cases k) | (rw [hcl] at k; cases k))⟩
    rw [if_neg hp2, if_pos hww, hlk]
    rfl
  | false =>
    cases hcl : f.hasclears with
    | true =>
      refine ⟨g1, m1, g2, f, nodes, _, e1, e2, ht2, hun _ ?_, hA, hB, fun k => absurd k hp,
        fun _ k => (by first | (rw [hww] at k; cases k) | (rw [hcl] at k; cases k)), fun _ _ _ => rfl, fun _ _ k => (by first | (rw [hww] at k; cases k) | (rw [hcl] at k; cases k))⟩
      rw [if_neg hp2, if_neg (by rw [hww]; decide), if_pos hcl, hlk]
      rfl
    | false =>
      have hgen : ∀ g3, genlink g2 h = some g3 →
          (if g2.gcstate = GCSpropagate
            then (linkgclist g2 h .grayagain).bind fun a => some (a, f.marked)
            else if f.hasww = true
              then (linkgclist g2 h .ephemeron).bind fun a => some (a, f.marked)
            else if f.hasclears = true
              then (linkgclist g2 h .allweak).bind fun a => some (a, f.marked)
            else (genlink g2 h).bind fun a => some (a, f.marked)) = some (g3, f.marked) := by
        intro g3 e3
        rw [if_neg hp2, if_neg (by rw [hww]; decide), if_neg (by rw [hcl]; decide), e3]
        rfl
      by_cases h1 : getage t.marked = G_TOUCHED1
      · refine ⟨g1, m1, g2, f, nodes, _, e1, e2, ht2, hun _ (hgen _ ?_), hA, hB,
          fun k => absurd k hp, fun _ k => (by first | (rw [hww] at k; cases k) | (rw [hcl] at k; cases k)), fun _ _ k => (by first | (rw [hww] at k; cases k) | (rw [hcl] at k; cases k)),
          fun _ _ _ => ⟨fun _ => rfl, fun k => absurd h1 k⟩⟩
        unfold genlink
        simp only [ht2, Option.bind_eq_bind, Option.some_bind]
        rw [if_pos h1]
        unfold linkobjgclist
        simp only [ht2, Option.bind_eq_bind, Option.some_bind, hg2]
        exact hlk .grayagain
      · by_cases h2 : getage t.marked = G_TOUCHED2
        · refine ⟨g1, m1, g2, f, nodes,
            g2.setobj h { ({ t with node := nodes } : GCObject) with
              marked := changeage t.marked G_TOUCHED2 G_OLD },
            e1, e2, ht2, hun _ (hgen _ ?_), hA, hB,
            fun k => absurd k hp, fun _ k => (by first | (rw [hww] at k; cases k) | (rw [hcl] at k; cases k)), fun _ _ k => (by first | (rw [hww] at k; cases k) | (rw [hcl] at k; cases k)),
            fun _ _ _ => ⟨fun k => absurd k h1, fun _ => ⟨fun l => ?_, _, heap_set_same _ _ _,
              ?_, rfl⟩⟩⟩
          · unfold genlink
            simp only [ht2, Option.bind_eq_bind, Option.some_bind]
            rw [if_neg h1, if_pos h2]
          · cases l <;> rfl
          · show isblack (changeage t.marked G_TOUCHED2 G_OLD) = true
            rw [isblack_changeage]
            exact hb
        · refine ⟨g1, m1, g2, f, nodes, g2, e1, e2, ht2, hun _ (hgen _ ?_), hA, hB,
            fun k => absurd k hp, fun _ k => (by first | (rw [hww] at k; cases k) | (rw [hcl] at k; cases k)), fun _ _ k => (by first | (rw [hww] at k; cases k) | (rw [hcl] at k; cases k)),
            fun _ _ _ => ⟨fun k => absurd k h1, fun _ => ⟨fun l => rfl, _, ht2, hb, rfl⟩⟩⟩
          unfold genlink
          simp only [ht2, Option.bind_eq_bind, Option.some_bind]
          rw [if_neg h1, if_neg h2]

theorem exEphB_wf : WF exEphB := by
  intro a x hx
  have hx2 : exEphBHeap a = some x := hx
  unfold exEphBHeap at hx2
  split_ifs at hx2 with h1 h2 h3 h4
  · cases hx2
    refine { wfObj_leaf exEphB.heap .LUA_VTABLE 32 (some 2) with nodeval := ?_, nodekey := ?_ }
    · intro nd hnd t r e
      simp only [List.mem_cons, List.mem_singleton, List.not_mem_nil, or_false] at hnd
      rcases hnd with k | k
      · subst k
        cases e
        exact ⟨_, rfl, by decide⟩
      · subst k
        cases e
        exact ⟨_, rfl, by decide⟩
    · intro nd hnd r e
      simp only [List.mem_cons, List.mem_singleton, List.not_mem_nil, or_false] at hnd
      rcases hnd with k | k
      · subst k
        cases e
        exact ⟨_, rfl, by decide⟩
      · subst k
        cases e
  · cases hx2
    exact wfObj_leaf _ _ _ _
  · cases hx2
    exact wfObj_leaf _ _ _ _
  · cases hx2
    exact wfObj_leaf _ _ _ _

/-- Witness for C37: the first entry of table 1 of `exEphB` has the white
table 2 as its key and the white table 3 as its value, so the traversal in
the atomic phase links table 1 at the head of `ephemeron`. -/
theorem traverseephemeron_link_witness :
    ∃ g3 m, traverseephemeron exEphB 1 false = some (g3, m) ∧ g3.ephemeron = some 1 ∧
      g3.allweak = none ∧ g3.grayagain = none := by
  obtain ⟨g1, m1, g2, f, nodes, g3, e1, e2, -, e3, -, hB, -, hww, -, -⟩ :=
    traverseephemeron_link exEphB 1 false
      { exObj .LUA_VTABLE 32 (some 2) with
        node := [{ i_val := .gc .LUA_VTABLE 3, key := .gc .LUA_VTABLE 2 },
                 { i_val := .gc .LUA_VTABLE 4, key := .prim 1 }] }
      exEphB_wf rfl (by decide) (by decide) rfl
  have eg : (exEphB, false) = (g1, m1) := Option.some.inj e1
  cases eg
  have hf : f.hasww = true :=
    hB.2 ⟨0, by decide, exEphB, _, _, _, rfl, rfl, rfl, rfl, rfl, 3, rfl, rfl⟩
  have e := hww (by decide) hf
  have hl : g2.allweak = none ∧ g2.grayagain = none := by
    have k : (traverseephemeron_loop 1 false 2 2 0 exEphB
        { marked := false, hasclears := false, hasww := false }).map
        (fun r => (r.1.allweak, r.1.grayagain)) = some (none, none) := by rfl
    have e2b : traverseephemeron_loop 1 false 2 2 0 exEphB
        { marked := false, hasclears := false, hasww := false } = some (g2, f) := e2
    rw [e2b] at k
    simp only [Option.map_some', Option.some.injEq, Prod.mk.injEq] at k
    exact k
  subst e
  exact ⟨_, _, e3, rfl, hl.1, hl.2⟩

/-- Counterexample to C37 as stated: the only entry of table 1 of `exStrKey`
has a white key, the string 2, and the collector is in the atomic phase, but
the traversal links the table into no list: `allweak` stays empty and the
table stays black. -/
theorem traverseephemeron_link_counterexample :
    ∃ g3 m x3, traverseephemeron exStrKey 1 false = some (g3, m) ∧
      whiteIn exStrKey.heap 2 = true ∧ exStrKey.gcstate ≠ GCSpropagate ∧
      g3.allweak = none ∧ g3.ephemeron = none ∧ g3.grayagain = none ∧
      g3.heap 1 = some x3 ∧ isblack x3.marked = true := by
  have k : (traverseephemeron exStrKey 1 false).bind (fun r => (r.1.heap 1).map (fun x =>
      (r.1.allweak, r.1.ephemeron, r.1.grayagain, isblack x.marked)))
      = some (none, none, none, true) := by rfl
  simp only [Option.bind_eq_some, Option.map_eq_some', Prod.mk.injEq] at k
  obtain ⟨r, er, x, ex, k1, k2, k3, k4⟩ := k
  exact ⟨r.1, r.2, x, er, rfl, by decide, k1, k2, k3, ex, k4⟩

theorem exStrKey_wf : WF exStrKey := by
  intro a x hx
  have hx2 : exStrKeyHeap a = some x := hx
  unfold exStrKeyHeap at hx2
  split_ifs at hx2 with h1 h2
  · cases hx2
    refine { wfObj_leaf exStrKey.heap .LUA_VTABLE 32 (some 2) with nodeval := ?_, nodekey := ?_ }
    · intro nd hnd t r e
      simp only [List.mem_singleton] at hnd
      subst hnd
      cases e
    · intro nd hnd r e
      simp only [List.mem_singleton] at hnd
      subst hnd
      cases e
      exact ⟨_, rfl, by decide⟩
  · cases hx2
    exact wfObj_leaf _ _ _ _

/-- C35, as far as the code goes: on a well-formed memory the traversal of a
non-white table `h` returns a state and a flag; when the flag is true, some
object that was white is not white afterwards; when the flag is false, every
white object that is not a string is unchanged, so only strings can have
been marked. -/
theorem traverseephemeron_return (g : global_State) (h : Addr) (inv : Bool) (t : GCObject)
    (hwf : WF g) (ht : g.heap h = some t) (hnw : iswhite t.marked = false)
    (htab : t.tt = .LUA_VTABLE) :
    ∃ g2 m, traverseephemeron g h inv = some (g2, m) ∧
      (m = true → ∃ r, whiteIn g.heap r = true ∧ whiteIn g2.heap r = false) ∧
      (m = false → ∀ a x, g.heap a = some x → iswhite x.marked = true →
        novariant x.tt ≠ LUA_TSTRING → g2.heap a = some x) := by
  obtain ⟨g2, m, X, e, -, hA, hB, -⟩ := traverseephemeron_step g h inv t hwf ht hnw htab
  exact ⟨g2, m, e, hA, fun hm => (hB hm).1.2⟩

/-- Witness for C35: the traversal of table 1 of `exEphB` marks the white
table 4, the value of the entry with the key 1, and returns true. -/
theorem traverseephemeron_return_witness :
    ∃ g2, traverseephemeron exEphB 1 false = some (g2, true) ∧
      ∃ r, whiteIn exEphB.heap r = true ∧ whiteIn g2.heap r = false := by
  obtain ⟨g2, m, e, hA, -⟩ := traverseephemeron_return exEphB 1 false
    { exObj .LUA_VTABLE 32 (some 2) with
      node := [{ i_val := .gc .LUA_VTABLE 3, key := .gc .LUA_VTABLE 2 },
               { i_val := .gc .LUA_VTABLE 4, key := .prim 1 }] }
    exEphB_wf rfl (by decide) rfl
  have k : (traverseephemeron exEphB 1 false).map (fun r => r.2) = some true := by rfl
  rw [e] at k
  have hm : m = true := Option.some.inj k
  subst hm
  exact ⟨g2, e, hA rfl⟩

/-- The failing input of C35: the only entry of table 1 of `exStrKey` maps
the white string 2 to a number; the traversal marks the string, which is
white before and black afterwards, and returns false. -/
theorem traverseephemeron_return_failing :
    ∃ g2 y, traverseephemeron exStrKey 1 false = some (g2, false) ∧
      whiteIn exStrKey.heap 2 = true ∧ g2.heap 2 = some y ∧ isblack y.marked = true ∧
      whiteIn g2.heap 2 = false := by
  have k : (traverseephemeron exStrKey 1 false).bind (fun r => (r.1.heap 2).map (fun x =>
      (r.2, isblack x.marked, whiteIn r.1.heap 2))) = some (false, true, false) := by rfl
  simp only [Option.bind_eq_some, Option.map_eq_some', Prod.mk.injEq] at k
  obtain ⟨r, er, x, ex, k1, k2, k3⟩ := k
  obtain ⟨g2, m⟩ := r
  have k1 : m = false := k1
  subst k1
  exact ⟨g2, x, er, rfl, ex, k2, k3⟩

/-! ## The marks of the root set -/

@[simp] theorem wlists_setobj (g : global_State) (a : Addr) (o : GCObject) :
    wlists (g.setobj a o) = wlists g := rfl

theorem linkobjgclist_wlists (g g2 : global_State) (o : Addr)
    (h : linkobjgclist g o .gray = some g2) : wlists g2 = wlists g := by
  unfold linkobjgclist linkgclist_ at h
  simp only [Option.bind_eq_bind, Option.bind_eq_some] at h
  obtain ⟨x, -, a, -, y, -, z, -, h⟩ := h
  cases h
  rfl

theorem markobject_with_wlists (mark : global_State → Addr → Option global_State)
    (hmark : ∀ g o g2, mark g o = some g2 → wlists g2 = wlists g)
    (g g2 : global_State) (t : Addr) (h : markobject_with mark g t = some g2) :
    wlists g2 = wlists g := by
  unfold markobject_with at h
  simp only [Option.bind_eq_bind, Option.bind_eq_some] at h
  obtain ⟨x, -, h⟩ := h
  split at h
  · exact hmark _ _ _ h
  · cases h
    rfl

theorem markrec_wlists (fuel : Nat) : ∀ (g : global_State) (o : Addr) (g2 : global_State),
    markrec fuel g o = some g2 → wlists g2 = wlists g := by
  induction fuel with
  | zero => intro g o g2 h; simp [markrec] at h
  | succ n ih =>
    intro g o g2 h
    rw [markrec] at h
    simp only [Option.bind_eq_bind, Option.bind_eq_some] at h
    obtain ⟨x, hx, h⟩ := h
    split at h
    · cases h; rfl
    · cases h; rfl
    · split at h
      · cases h
      · rw [markobject_with_wlists _ ih _ _ _ h]; rfl
      · cases h; rfl
    · split at h
      · split at h
        · simp only [Option.some_bind, Option.bind_eq_some] at h
          obtain ⟨y, -, h⟩ := h
          cases h; rfl
        · simp only [Option.bind_eq_some] at h
          obtain ⟨g1, h1, y, -, h⟩ := h
          cases h
          simp only [wlists_setobj]
          exact markobject_with_wlists _ ih _ _ _ h1
      · exact linkobjgclist_wlists _ _ _ h
    · exact linkobjgclist_wlists _ _ _ h

theorem markobject_wlists (g g2 : global_State) (t : Addr) (h : markobject g t = some g2) :
    wlists g2 = wlists g :=
  markobject_with_wlists _ (markrec_wlists 3) _ _ _ h

theorem markvalue_wlists (g g2 : global_State) (v : TValue) (h : markvalue g v = some g2) :
    wlists g2 = wlists g := by
  unfold markvalue at h
  split at h
  · exact markobject_wlists _ _ _ h
  · cases h
    rfl

theorem markobjectN_wlists (g g2 : global_State) (p : Option Addr)
    (h : markobjectN g p = some g2) : wlists g2 = wlists g := by
  unfold markobjectN at h
  split at h
  · cases h
    rfl
  · exact markobject_wlists _ _ _ h

/-- The loop of `markmt` on a well-formed memory: it returns, and every
metatable of the list is non-white afterwards. -/
theorem markmt_loop_root (l : List (Option Addr)) : ∀ (g : global_State), WF g →
    (∀ p, p ∈ l → PtrOK g.heap p) →
    ∃ g2, markmt_loop l g = some g2 ∧ Step (fun _ => False) [] g g2 ∧ wlists g2 = wlists g ∧
      ∀ r, some r ∈ l → whiteIn g2.heap r = false := by
  induction l with
  | nil =>
    intro g _ _
    exact ⟨g, rfl, step_refl _ g, rfl, fun r hr => (by cases hr)⟩
  | cons p rest ih =>
    intro g hwf hp
    obtain ⟨g1, e1, s1, n1⟩ := markobjectN_step g p hwf (hp p (List.mem_cons_self _ _))
    have hwf1 := step_wf _ _ g g1 s1 hwf
    obtain ⟨g2, e2, s2, w2, n2⟩ := ih g1 hwf1
      (fun q hq => ptrOK_mk _ g g1 s1.1 q (hp q (List.mem_cons_of_mem _ hq)))
    refine ⟨g2, ?_, step_trans _ _ g g1 g2 (fun _ k => k.elim) s1 s2,
      w2.trans (markobjectN_wlists _ _ _ e1), ?_⟩
    · rw [markmt_loop]
      simp only [Option.bind_eq_bind, e1, Option.some_bind]
      exact e2
    · intro r hr
      rcases List.mem_cons.1 hr with k | k
      · exact mk_nonwhite _ g1 g2 s2.1 r (n1 r k.symm)
      · exact n2 r k

/-- The loop of `markbeingfnz` on a well-formed memory, over the list `l`
with enough fuel: it returns, it has counted the objects of `l`, and each of
them is non-white afterwards. -/
theorem markbeingfnz_loop_root (fuel : Nat) : ∀ (g : global_State) (c : Option Addr) (n : Nat)
    (l : List Addr), WF g → IsList g.heap c l → l.length < fuel →
    ∃ g2, markbeingfnz_loop fuel g c n = some (g2, n + l.length) ∧
      Step (fun _ => False) [] g g2 ∧ wlists g2 = wlists g ∧
      ∀ a, a ∈ l → whiteIn g2.heap a = false := by
  induction fuel with
  | zero => intro g c n l _ _ hf; omega
  | succ k ih =>
    intro g c n l hwf hl hf
    cases l with
    | nil =>
      have hc : c = none := hl
      subst hc
      exact ⟨g, rfl, step_refl _ g, rfl, fun a ha => (by cases ha)⟩
    | cons b l2 =>
      obtain ⟨hc, o, ho, hl2⟩ := hl
      subst hc
      obtain ⟨g1, e1, s1, n1⟩ := markobject_step g b o hwf ho
      have hwf1 := step_wf _ _ g g1 s1 hwf
      have hf1 := markobject_fade _ _ _ e1
      obtain ⟨o1, ho1, f1⟩ := (hf1.2 b).2 o ho
      have hl1 : IsList g1.heap o1.next l2 := by
        rw [f1.1]
        exact isList_fade _ _ hf1.2 _ _ hl2
      obtain ⟨g2, e2, s2, w2, n2⟩ := ih g1 o1.next (n + 1) l2 hwf1 hl1
        (by simp only [List.length_cons] at hf; omega)
      refine ⟨g2, ?_, step_trans _ _ g g1 g2 (fun _ k => k.elim) s1 s2,
        w2.trans (markobject_wlists _ _ _ e1), ?_⟩
      · rw [markbeingfnz_loop]
        simp only [Option.bind_eq_bind, e1, Option.some_bind, ho1]
        rw [e2]
        simp only [List.length_cons]
        have e : n + 1 + l2.length = n + (l2.length + 1) := by omega
        rw [e]
      · intro a ha
        rcases List.mem_cons.1 ha with k | k
        · subst k
          exact mk_nonwhite _ g1 g2 s2.1 a n1
        · exact n2 a k

/-- The function `restartcollection` on a well-formed memory whose main
thread is live, whose registry and basic metatables are valid, and whose
`tobefnz` is the list `lt`: it returns; the gray lists other than `gray` are
empty; `gray` holds objects that were white and are not any more; the roots
are non-white. -/
theorem restartcollection_root (fuel : Nat) (g : global_State) (lt : List Addr) (mth : GCObject)
    (hwf : WF g) (hmain : g.heap g.mainthread = some mth) (hreg : ValOK g.heap g.l_registry)
    (hmt : ∀ p, p ∈ g.mt → PtrOK g.heap p) (hl : IsList g.heap g.tobefnz lt)
    (hfuel : lt.length < fuel) :
    ∃ g2, restartcollection fuel g = some g2 ∧ Step (fun _ => False) [] (cleargraylists g) g2 ∧
      wlists g2 = (none, none, none) ∧
      whiteIn g2.heap g.mainthread = false ∧
      (∀ r, gcvalueN g.l_registry = some r → whiteIn g2.heap r = false) ∧
      (∀ r, some r ∈ g.mt → whiteIn g2.heap r = false) ∧
      ∀ a, a ∈ lt → whiteIn g2.heap a = false := by
  have hwf0 : WF (cleargraylists g) := hwf
  obtain ⟨g1, e1, s1, n1⟩ := markobject_step (cleargraylists g) g.mainthread mth hwf0 hmain
  have hwf1 := step_wf _ _ _ g1 s1 hwf0
  have fx1 : g1.fixed = g.fixed := s1.1.1
  have er1 : g1.l_registry = g.l_registry :=
    (congrArg global_State.l_registry fx1 : g1.fixed.l_registry = g.fixed.l_registry)
  have hreg1 : ValOK g1.heap g1.l_registry := by
    rw [er1]
    exact valOK_mk _ _ g1 s1.1 _ hreg
  obtain ⟨g2, e2, s2, n2⟩ := markvalue_step g1 g1.l_registry hwf1 hreg1
  have hwf2 := step_wf _ _ _ g2 s2 hwf1
  have s12 := step_trans _ _ _ g1 g2 (fun _ k => k.elim) s1 s2
  have fx2 : g2.fixed = g.fixed := s12.1.1
  have em2 : g2.mt = g.mt := (congrArg global_State.mt fx2 : g2.fixed.mt = g.fixed.mt)
  obtain ⟨g3, e3, s3, w3, n3⟩ := markmt_loop_root g2.mt g2 hwf2 (by
    rw [em2]
    exact fun p hp => ptrOK_mk _ _ g2 s12.1 p (hmt p hp))
  have hwf3 := step_wf _ _ _ g3 s3 hwf2
  have s13 := step_trans _ _ _ g2 g3 (fun _ k => k.elim) s12 s3
  have fx3 : g3.fixed = g.fixed := s13.1.1
  have et3 : g3.tobefnz = g.tobefnz :=
    (congrArg global_State.tobefnz fx3 : g3.fixed.tobefnz = g.fixed.tobefnz)
  have f3 : FadeS g g3 := fadeS_trans _ _ _ (fadeS_trans _ _ _ (fadeS_trans _ _ _
    (fadeS_of_eq g (cleargraylists g) rfl rfl) (markobject_fade _ _ _ e1))
    (markvalue_fade _ _ _ e2)) (markmt_fade _ _ e3)
  obtain ⟨g4, e4, s4, w4, n4⟩ := markbeingfnz_loop_root fuel g3 g3.tobefnz 0 lt hwf3 (by
    rw [et3]
    exact isList_fade _ _ f3.2 _ _ hl) hfuel
  have s14 := step_trans _ _ _ g3 g4 (fun _ k => k.elim) s13 s4
  refine ⟨g4, ?_, s14, ?_, ?_, ?_, ?_, n4⟩
  · unfold restartcollection
    simp only [Option.bind_eq_bind]
    rw [show markobject (cleargraylists g) (cleargraylists g).mainthread = some g1 from e1]
    simp only [Option.some_bind, e2]
    rw [show markmt g2 = some g3 from e3]
    simp only [Option.some_bind]
    rw [show markbeingfnz fuel g3 = some (g4, 0 + lt.length) from e4]
    rfl
  · rw [w4, w3, markvalue_wlists _ _ _ e2, markobject_wlists _ _ _ e1]
    rfl
  · exact mk_nonwhite _ g3 g4 s4.1 _ (mk_nonwhite _ g2 g3 s3.1 _ (mk_nonwhite _ g1 g2 s2.1 _ n1))
  · intro r hr
    exact mk_nonwhite _ g3 g4 s4.1 _ (mk_nonwhite _ g2 g3 s3.1 _ (n2 r (er1 ▸ hr)))
  · intro r hr
    exact mk_nonwhite _ g3 g4 s4.1 _ (n3 r (em2 ▸ hr))

/-- C32: a step of the collector in the state `GCSpause`, on a well-formed
memory whose main thread is live, whose registry and basic metatables are
valid and whose four heap lists are `la`, `lf`, `lt` and `lx`, with more fuel
than `tobefnz` is long. The step returns work 1 in the state `GCSpropagate`;
`grayagain`, `weak`, `allweak` and `ephemeron` are empty; `gray` is a list of
objects that were white before the step and are not white after it; the main
thread, the registry when it is collectable, every metatable of a basic type
and every object of `tobefnz` are non-white; the four heap lists are the
same. -/
theorem singlestep_pause (env : Env) (fuel : Nat) (g : global_State) (L : Addr)
    (la lf lt lx : List Addr) (mth : GCObject)
    (hwf : WF g) (hst : g.gcstate = GCSpause) (hL : Lists g la lf lt lx)
    (hmain : g.heap g.mainthread = some mth) (hreg : ValOK g.heap g.l_registry)
    (hmt : ∀ p, p ∈ g.mt → PtrOK g.heap p) (hfuel : lt.length < fuel) :
    ∃ g2 N, singlestep env fuel g L = some (g2, 1) ∧ g2.gcstate = GCSpropagate ∧
      g2.grayagain = none ∧ g2.weak = none ∧ g2.allweak = none ∧ g2.ephemeron = none ∧
      IsGList g2.heap g2.gray N ∧
      (∀ a, a ∈ N → whiteIn g.heap a = true ∧ whiteIn g2.heap a = false) ∧
      whiteIn g2.heap g.mainthread = false ∧
      (∀ r, gcvalueN g.l_registry = some r → whiteIn g2.heap r = false) ∧
      (∀ r, some r ∈ g.mt → whiteIn g2.heap r = false) ∧
      (∀ a, a ∈ lt → whiteIn g2.heap a = false) ∧
      Lists g2 la lf lt lx := by
  obtain ⟨ga, ega⟩ : ∃ ga : global_State, ga = { g with gcstopem := 1 } := ⟨_, rfl⟩
  have hwfa : WF ga := by
    rw [ega]
    exact hwf
  obtain ⟨g4, e4, s4, w4, n1, n2, n3, n4⟩ := restartcollection_root fuel ga lt mth hwfa
    (by rw [ega]; exact hmain) (by rw [ega]; exact hreg) (by rw [ega]; exact hmt)
    (by rw [ega]; exact hL.2.2.1) hfuel
  obtain ⟨N, hN, hNw⟩ := s4.2.1
  have heph : g4.ephemeron = none := s4.2.2.1
  have hf : FadeS g g4 := fadeS_trans _ _ _ (fadeS_of_eq g ga (by rw [ega]) (by rw [ega]; rfl))
    (restartcollection_quiet _ _ _ e4).1
  have hw : (g4.grayagain, g4.weak, g4.allweak) = (none, none, none) := w4
  simp only [Prod.mk.injEq] at hw
  refine ⟨{ g4 with gcstate := GCSpropagate, gcstopem := 0 }, N, ?_, rfl, hw.1, hw.2.1, hw.2.2,
    heph, (isGList_iff_seg _ _ _).2 hN, ?_, ?_, ?_, ?_, n4, ?_⟩
  · have h1 : singlestep_switch env fuel ga L =
        some ({ g4 with gcstate := GCSpropagate }, some 1) := by
      unfold singlestep_switch
      rw [if_pos (show ga.gcstate = GCSpause by rw [ega]; exact hst)]
      simp only [Option.bind_eq_bind, e4, Option.some_bind]
    unfold singlestep
    rw [← ega]
    simp only [Option.bind_eq_bind, h1, Option.some_bind]
  · intro a ha
    have k := hNw a ha
    rw [ega] at k
    exact ⟨k.1, k.2.1⟩
  · rw [ega] at n1
    exact n1
  · rw [ega] at n2
    exact n2
  · rw [ega] at n3
    exact n3
  · exact lists_fade _ _ _ _ _ _ (fadeS_trans _ _ _ hf (fadeS_of_eq _ _ rfl rfl)) hL

theorem exRoot_wf : WF exRoot := by
  intro a x hx
  have hx2 : exRootHeap a = some x := hx
  unfold exRootHeap at hx2
  split_ifs at hx2 with h1 h2 h3
  · cases hx2
    exact wfObj_leaf _ _ _ _
  · cases hx2
    exact wfObj_leaf _ _ _ _
  · cases hx2
    exact wfObj_leaf _ _ _ _

theorem exRoot_lists : Lists exRoot [1, 2] [] [3] [] := by
  refine ⟨⟨rfl, _, rfl, rfl, _, rfl, rfl⟩, rfl, ⟨rfl, _, rfl, rfl⟩, rfl, by decide, ?_⟩
  intro a
  show (exRootHeap a).isSome ↔ _
  unfold exRootHeap
  simp only [List.cons_append, List.nil_append, List.append_nil, List.mem_cons,
    List.mem_singleton, List.not_mem_nil, or_false]
  split_ifs <;> simp_all

/-- Witness for C32: a step of `exRoot`, whose `grayagain` still holds table 2
from the cycle before: the main thread 1, the registry 2 and table 3 of
`tobefnz` are marked, and `grayagain` is empty. -/
theorem singlestep_pause_witness :
    ∃ g2, singlestep exEnv 2 exRoot 1 = some (g2, 1) ∧ exRoot.grayagain = some 2 ∧
      g2.gcstate = GCSpropagate ∧ g2.grayagain = none ∧ whiteIn g2.heap 1 = false ∧
      whiteIn g2.heap 2 = false ∧ whiteIn g2.heap 3 = false ∧ Lists g2 [1, 2] [] [3] [] := by
  obtain ⟨g2, N, e, h1, h2, -, -, -, -, -, n1, n2, -, n4, hL⟩ :=
    singlestep_pause exEnv 2 exRoot 1 [1, 2] [] [3] [] (exObj .LUA_VTHREAD 8 (some 2)) exRoot_wf rfl
      exRoot_lists rfl (fun t r k => ⟨exObj .LUA_VTABLE 8 none, by cases k; rfl, by decide⟩)
      (fun p hp r k => by
        simp only [exRoot, List.mem_cons, List.mem_singleton, List.not_mem_nil, or_false] at hp
        rcases hp with q | q
        · rw [q] at k
          cases k
          exact ⟨_, rfl⟩
        · rw [q] at k
          cases k)
      (by decide)
  exact ⟨g2, e, rfl, h1, h2, n1, n2 2 rfl, n4 3 (List.mem_singleton.2 rfl), hL⟩

/-! ## The sweep cursor outside the sweep -/

theorem sw_of_ctl (g g2 : global_State) (h : ctl g2 = ctl g) : sw g2 = sw g := by
  have e := congrArg (fun t => (t.1, t.2.2.2.2.2.2)) h
  exact e

theorem sweepIdle_sw (g g2 : global_State) (h : sw g2 = sw g) (hI : SweepIdle g) :
    SweepIdle g2 := by
  have e1 : g2.gcstate = g.gcstate := congrArg Prod.fst h
  have e2 : g2.sweepgc = g.sweepgc := congrArg Prod.snd h
  unfold SweepIdle
  rw [e1, e2]
  exact hI

theorem sweepIdle_none (g : global_State) (h : g.sweepgc = none) : SweepIdle g := fun _ => h

theorem sweepIdle_sweeping (g : global_State)
    (h : g.gcstate = GCSswpallgc ∨ g.gcstate = GCSswpfinobj ∨ g.gcstate = GCSswptobefnz ∨
      g.gcstate = GCSatomic) : SweepIdle g := by
  intro k
  rcases h with h | h | h | h <;> rw [h] at k <;> exact absurd k (by decide)

theorem testbit_bitmask (a s : Nat) (h : testbit (bitmask a) s ≠ 0) : s = a := by
  by_contra hne
  apply h
  unfold testbit testbits bitmask
  apply Nat.eq_of_testBit_eq
  intro i
  simp only [Nat.testBit_and, Nat.one_shiftLeft, Nat.testBit_two_pow, Nat.zero_testBit]
  by_cases h1 : a = i
  · subst h1
    simp [hne]
  · simp [h1]

theorem modobj_sw (g g2 : global_State) (a : Addr) (f : GCObject → GCObject)
    (h : g.modobj a f = some g2) : sw g2 = sw g := by
  unfold global_State.modobj at h
  simp only [Option.map_eq_some'] at h
  obtain ⟨x, -, rfl⟩ := h
  rfl

theorem push_sw (g g2 : global_State) (L : Addr) (v : TValue)
    (h : push g L v = some g2) : sw g2 = sw g := by
  unfold push at h
  simp only [Option.bind_eq_bind, Option.bind_eq_some] at h
  obtain ⟨t, -, s, -, h⟩ := h
  cases h
  rfl

theorem udata2finalize_sw (g g2 : global_State) (o : Addr)
    (h : udata2finalize g = some (g2, o)) : sw g2 = sw g := by
  unfold udata2finalize at h
  simp only [Option.bind_eq_bind, Option.bind_eq_some] at h
  obtain ⟨c, -, x, -, x3, -, x4, -, h⟩ := h
  split at h
  · simp only [Option.some.injEq, Prod.mk.injEq] at h
    obtain ⟨rfl, -⟩ := h
    rfl
  · split at h
    · simp only [Option.some.injEq, Prod.mk.injEq] at h
      obtain ⟨rfl, -⟩ := h
      rfl
    · simp only [Option.some.injEq, Prod.mk.injEq] at h
      obtain ⟨rfl, -⟩ := h
      rfl

theorem GCTM_enter_sw (g g2 : global_State) (L : Addr) (tm v : TValue)
    (h : GCTM_enter g L tm v = some g2) : sw g2 = sw g := by
  unfold GCTM_enter at h
  simp only [Option.bind_eq_bind, Option.bind_eq_some] at h
  obtain ⟨g3, h3, g4, h4, g5, h5, h⟩ := h
  rw [modobj_sw _ _ _ _ h, push_sw _ _ _ _ h5, push_sw _ _ _ _ h4, modobj_sw _ _ _ _ h3]
  rfl

theorem GCTM_leave_sw (g g2 : global_State) (L : Addr) (oldah oldgcstp status : Nat)
    (h : GCTM_leave g L oldah oldgcstp status = some g2) : sw g2 = sw g := by
  unfold GCTM_leave at h
  simp only [Option.bind_eq_bind, Option.bind_eq_some] at h
  obtain ⟨g8, h8, g9, h9, h⟩ := h
  have e : sw g9 = sw g := by
    rw [modobj_sw _ _ _ _ h9, modobj_sw _ _ _ _ h8]
  split at h
  · rw [modobj_sw _ _ _ _ h]
    exact e
  · cases h
    exact e

/-- A finalizer call keeps the sweep cursor idle, when the protected call
does. -/
theorem GCTM_idle (env : Env)
    (hfin : ∀ s a s2 r, env.luaD_pcall s a = some (s2, r) → SweepIdle s → SweepIdle s2)
    (g g2 : global_State) (L : Addr) (h : GCTM env g L = some g2) (hI : SweepIdle g) :
    SweepIdle g2 := by
  unfold GCTM at h
  simp only [Option.bind_eq_bind, Option.bind_eq_some] at h
  obtain ⟨⟨g1, v⟩, h1, vo, -, tm, -, h⟩ := h
  have i1 := sweepIdle_sw _ _ (udata2finalize_sw _ _ _ h1) hI
  split at h
  · simp only [Option.bind_eq_bind, Option.bind_eq_some] at h
    obtain ⟨l0, -, g6, h6, ⟨g7, status⟩, h7, h⟩ := h
    have i6 := sweepIdle_sw _ _ (GCTM_enter_sw _ _ _ _ _ h6) i1
    have i7 := hfin _ _ _ _ h7 i6
    exact sweepIdle_sw _ _ (GCTM_leave_sw _ _ _ _ _ _ h) i7
  · cases h
    exact i1

theorem runafewfinalizers_loop_idle (env : Env)
    (hfin : ∀ s a s2 r, env.luaD_pcall s a = some (s2, r) → SweepIdle s → SweepIdle s2)
    (L : Addr) (n : Nat) : ∀ (g : global_State) (i : Nat) (g2 : global_State) (i2 : Nat),
    runafewfinalizers_loop env L n g i = some (g2, i2) → SweepIdle g → SweepIdle g2 := by
  induction n with
  | zero =>
    intro g i g2 i2 h hI
    simp only [runafewfinalizers_loop, Option.some.injEq, Prod.mk.injEq] at h
    obtain ⟨rfl, -⟩ := h
    exact hI
  | succ n ih =>
    intro g i g2 i2 h hI
    rw [runafewfinalizers_loop] at h
    split at h
    · simp only [Option.some.injEq, Prod.mk.injEq] at h
      obtain ⟨rfl, -⟩ := h
      exact hI
    · simp only [Option.bind_eq_bind, Option.bind_eq_some] at h
      obtain ⟨g1, h1, h⟩ := h
      exact ih _ _ _ _ h (GCTM_idle env hfin _ _ _ h1 hI)

theorem callallpendingfinalizers_idle (env : Env)
    (hfin : ∀ s a s2 r, env.luaD_pcall s a = some (s2, r) → SweepIdle s → SweepIdle s2)
    (L : Addr) (fuel : Nat) : ∀ (g g2 : global_State),
    callallpendingfinalizers env L fuel g = some g2 → SweepIdle g → SweepIdle g2 := by
  induction fuel with
  | zero => intro g g2 h; simp [callallpendingfinalizers] at h
  | succ n ih =>
    intro g g2 h hI
    rw [callallpendingfinalizers] at h
    split at h
    · cases h
      exact hI
    · simp only [Option.bind_eq_bind, Option.bind_eq_some] at h
      obtain ⟨g1, h1, h⟩ := h
      exact ih _ _ h (GCTM_idle env hfin _ _ _ h1 hI)

theorem checkSizes_sw (g : global_State) : sw (checkSizes g) = sw g := by
  unfold checkSizes
  split
  · split
    · rfl
    · rfl
  · rfl

/-- A sweep step keeps the state while the cursor is set, and sets the next
state and the next cursor when it is not. -/
theorem sweepstep_sw (g : global_State) (nextstate : Nat) (nextlist : Option GCRef)
    (g2 : global_State) (w : Nat) (hr : sweepstep g nextstate nextlist = some (g2, w)) :
    g2.gcstate = g.gcstate ∨ sw g2 = (nextstate, nextlist) := by
  unfold sweepstep at hr
  split at hr
  · simp only [Option.bind_eq_bind, Option.bind_eq_some] at hr
    obtain ⟨⟨g1, p, c⟩, h1, hr⟩ := hr
    simp only [Option.some.injEq, Prod.mk.injEq] at hr
    obtain ⟨rfl, -⟩ := hr
    have e := gcstate_of_ctl _ _ (sweeplist_ctl _ _ _ _ _ _ h1)
    exact Or.inl e
  · simp only [Option.some.injEq, Prod.mk.injEq] at hr
    obtain ⟨rfl, -⟩ := hr
    exact Or.inr rfl

/-- The switch of `singlestep` keeps the sweep cursor idle. -/
theorem singlestep_switch_idle (env : Env)
    (hfin : ∀ s a s2 r, env.luaD_pcall s a = some (s2, r) → SweepIdle s → SweepIdle s2)
    (fuel : Nat) (g : global_State) (L : Addr) (g2 : global_State) (r : Option Nat)
    (hI : SweepIdle g) (h : singlestep_switch env fuel g L = some (g2, r)) : SweepIdle g2 := by
  unfold singlestep_switch at h
  by_cases h0 : g.gcstate = GCSpause
  · rw [if_pos h0] at h
    simp only [Option.bind_eq_bind, Option.bind_eq_some] at h
    obtain ⟨g1, h1, h⟩ := h
    simp only [Option.some.injEq, Prod.mk.injEq] at h
    obtain ⟨rfl, -⟩ := h
    have e : sw g1 = sw g := sw_of_ctl _ _ (restartcollection_quiet _ _ _ h1).2
    have e2 : g1.sweepgc = g.sweepgc := congrArg Prod.snd e
    exact sweepIdle_none _ (e2.trans (hI (Or.inl h0)))
  rw [if_neg h0] at h
  by_cases h1 : g.gcstate = GCSpropagate
  · rw [if_pos h1] at h
    split at h
    · simp only [Option.some.injEq, Prod.mk.injEq] at h
      obtain ⟨rfl, -⟩ := h
      exact sweepIdle_none _ (hI (Or.inr (Or.inl h1)))
    · simp only [Option.map_eq_some'] at h
      obtain ⟨⟨g3, w⟩, h3, h⟩ := h
      simp only [Prod.mk.injEq] at h
      obtain ⟨rfl, -⟩ := h
      exact sweepIdle_sw _ _ (sw_of_ctl _ _ (propagatemark_ctl _ _ _ _ _ h3)) hI
  rw [if_neg h1] at h
  by_cases h2 : g.gcstate = GCSenteratomic
  · rw [if_pos h2] at h
    simp only [Option.bind_eq_bind, Option.bind_eq_some] at h
    obtain ⟨⟨g1, work⟩, -, g3, h3, h⟩ := h
    simp only [Option.some.injEq, Prod.mk.injEq] at h
    obtain ⟨rfl, -⟩ := h
    have e3 : g3.gcstate = GCSswpallgc := entersweep_gcstate _ _ _ h3
    exact sweepIdle_sweeping _ (Or.inl e3)
  rw [if_neg h2] at h
  by_cases h3 : g.gcstate = GCSswpallgc
  · rw [if_pos h3] at h
    simp only [Option.map_eq_some'] at h
    obtain ⟨⟨g3, w⟩, k, h⟩ := h
    simp only [Prod.mk.injEq] at h
    obtain ⟨rfl, -⟩ := h
    rcases sweepstep_sw _ _ _ _ _ k with e | e
    · exact sweepIdle_sweeping _ (Or.inl (e.trans h3))
    · exact sweepIdle_sweeping _ (Or.inr (Or.inl (congrArg Prod.fst e)))
  rw [if_neg h3] at h
  by_cases h4 : g.gcstate = GCSswpfinobj
  · rw [if_pos h4] at h
    simp only [Option.map_eq_some'] at h
    obtain ⟨⟨g3, w⟩, k, h⟩ := h
    simp only [Prod.mk.injEq] at h
    obtain ⟨rfl, -⟩ := h
    rcases sweepstep_sw _ _ _ _ _ k with e | e
    · exact sweepIdle_sweeping _ (Or.inr (Or.inl (e.trans h4)))
    · exact sweepIdle_sweeping _ (Or.inr (Or.inr (Or.inl (congrArg Prod.fst e))))
  rw [if_neg h4] at h
  by_cases h5 : g.gcstate = GCSswptobefnz
  · rw [if_pos h5] at h
    simp only [Option.map_eq_some'] at h
    obtain ⟨⟨g3, w⟩, k, h⟩ := h
    simp only [Prod.mk.injEq] at h
    obtain ⟨rfl, -⟩ := h
    rcases sweepstep_sw _ _ _ _ _ k with e | e
    · exact sweepIdle_sweeping _ (Or.inr (Or.inr (Or.inl (e.trans h5))))
    · exact sweepIdle_none _ (congrArg Prod.snd e)
  rw [if_neg h5] at h
  by_cases h6 : g.gcstate = GCSswpend
  · rw [if_pos h6] at h
    simp only [Option.some.injEq, Prod.mk.injEq] at h
    obtain ⟨rfl, -⟩ := h
    have e : (checkSizes g).sweepgc = g.sweepgc := congrArg Prod.snd (checkSizes_sw g)
    exact sweepIdle_none _ (e.trans (hI (Or.inr (Or.inr (Or.inr (Or.inl h6))))))
  rw [if_neg h6] at h
  by_cases h7 : g.gcstate = GCScallfin
  · rw [if_pos h7] at h
    split at h
    · simp only [Option.bind_eq_bind, Option.bind_eq_some] at h
      obtain ⟨⟨g3, n⟩, k, h⟩ := h
      simp only [Option.some.injEq, Prod.mk.injEq] at h
      obtain ⟨rfl, -⟩ := h
      exact runafewfinalizers_loop_idle env hfin L _ _ _ _ _ k (sweepIdle_sw _ g rfl hI)
    · simp only [Option.some.injEq, Prod.mk.injEq] at h
      obtain ⟨rfl, -⟩ := h
      exact sweepIdle_none _ (hI (Or.inr (Or.inr (Or.inr (Or.inr h7)))))
  rw [if_neg h7] at h
  simp only [Option.some.injEq, Prod.mk.injEq] at h
  obtain ⟨rfl, -⟩ := h
  exact hI

/-- A step of the collector keeps the sweep cursor idle. -/
theorem singlestep_idle (env : Env)
    (hfin : ∀ s a s2 r, env.luaD_pcall s a = some (s2, r) → SweepIdle s → SweepIdle s2)
    (fuel : Nat) (g : global_State) (L : Addr) (g2 : global_State) (w : Nat)
    (hI : SweepIdle g) (h : singlestep env fuel g L = some (g2, w)) : SweepIdle g2 := by
  unfold singlestep at h
  simp only [Option.bind_eq_bind, Option.bind_eq_some] at h
  obtain ⟨⟨g3, r⟩, h3, h⟩ := h
  have i3 := singlestep_switch_idle env hfin fuel { g with gcstopem := 1 } L g3 r
    (sweepIdle_sw _ g rfl hI) h3
  cases r with
  | none =>
    simp only [Option.some.injEq, Prod.mk.injEq] at h
    obtain ⟨rfl, -⟩ := h
    exact i3
  | some work =>
    simp only [Option.some.injEq, Prod.mk.injEq] at h
    obtain ⟨rfl, -⟩ := h
    exact sweepIdle_sw _ g3 rfl i3

theorem luaC_runtilstate_idle (env : Env)
    (hfin : ∀ s a s2 r, env.luaD_pcall s a = some (s2, r) → SweepIdle s → SweepIdle s2)
    (fuelS : Nat) (L : Addr) (mask : Nat) (fuel : Nat) : ∀ (g g2 : global_State),
    SweepIdle g → luaC_runtilstate env fuelS L mask fuel g = some g2 →
    SweepIdle g2 ∧ testbit mask g2.gcstate ≠ 0 := by
  induction fuel with
  | zero => intro g g2 _ h; simp [luaC_runtilstate] at h
  | succ k ih =>
    intro g g2 hI h
    rw [luaC_runtilstate] at h
    split at h
    · cases h
      exact ⟨hI, by assumption⟩
    · simp only [Option.bind_eq_bind, Option.bind_eq_some] at h
      obtain ⟨⟨g1, w⟩, h1, h⟩ := h
      exact ih _ _ (singlestep_idle env hfin fuelS g L g1 w hI h1) h

theorem whitelist_loop_sw (white : Nat) (fuel : Nat) : ∀ (g : global_State) (p : Option Addr)
    (g2 : global_State), whitelist_loop white fuel g p = some g2 → sw g2 = sw g := by
  induction fuel with
  | zero => intro g p g2 h; simp [whitelist_loop] at h
  | succ k ih =>
    intro g p g2 h
    cases p with
    | none =>
      rw [whitelist_loop] at h
      cases h
      rfl
    | some a =>
      rw [whitelist_loop] at h
      simp only [Option.bind_eq_bind, Option.bind_eq_some] at h
      obtain ⟨x, -, h⟩ := h
      exact (ih _ _ _ h).trans rfl

/-- The function `enterinc` leaves the collector in `GCSpause` with the
sweep cursor it found. -/
theorem enterinc_sw (fuel : Nat) (g g2 : global_State) (h : enterinc fuel g = some g2) :
    sw g2 = (GCSpause, g.sweepgc) := by
  unfold enterinc whitelist at h
  simp only [Option.bind_eq_bind, Option.bind_eq_some] at h
  obtain ⟨g1, h1, g3, h3, g4, h4, h⟩ := h
  simp only [Option.some.injEq] at h
  subst h
  have e4 : g4.sweepgc = g3.sweepgc := congrArg Prod.snd (whitelist_loop_sw _ _ _ _ _ h4)
  have e3 : g3.sweepgc = g1.sweepgc := congrArg Prod.snd (whitelist_loop_sw _ _ _ _ _ h3)
  have e1 : g1.sweepgc = g.sweepgc := congrArg Prod.snd (whitelist_loop_sw _ _ _ _ _ h1)
  show (GCSpause, g4.sweepgc) = _
  rw [e4, e3, e1]

theorem sweep2old_sweepFrame (fuel : Nat) : ∀ (g : global_State) (p : GCRef)
    (g2 : global_State), sweep2old fuel g p = some g2 → SweepFrame g g2 := by
  induction fuel with
  | zero => intro g p g2 h; simp [sweep2old] at h
  | succ k ih =>
    intro g p g2 h
    rcases Option.eq_none_or_eq_some (g.load p) with hp | ⟨c, hp⟩
    · rw [sweep2old] at h
      simp [hp] at h
    cases c with
    | none =>
      rw [sweep2old_nil _ _ _ hp] at h
      cases h
      exact sweepFrame_refl _
    | some curr =>
      rcases Option.eq_none_or_eq_some (g.heap curr) with hx | ⟨x, hx⟩
      · rw [sweep2old] at h
        simp [hp, hx] at h
      by_cases hw : iswhite x.marked = true
      · rw [sweep2old_free _ _ _ _ _ hp hx hw] at h
        simp only [Option.bind_eq_some] at h
        obtain ⟨g1, h1, ga, ha, h⟩ := h
        exact sweepFrame_trans _ _ _ (sweepFrame_trans _ _ _ (store_sweepFrame _ _ _ _ h1)
          (freeobj_sweepFrame _ _ _ ha)) (ih _ _ _ h)
      · rw [sweep2old_keep _ _ _ _ _ hp hx (by simpa using hw)] at h
        exact sweepFrame_trans _ _ _ (after2old_sweepFrame _ _ _) (ih _ _ _ h)

theorem sweep2old_sw (fuel : Nat) (g : global_State) (p : GCRef) (g2 : global_State)
    (h : sweep2old fuel g p = some g2) : sw g2 = sw g :=
  sw_of_ctl _ _ (sweepFrame_ctl _ _ (sweep2old_sweepFrame fuel g p g2 h)).1

/-- The function `atomic2gen`, entered with an empty sweep cursor, leaves
the sweep cursor idle. -/
theorem atomic2gen_idle (env : Env)
    (hfin : ∀ s a s2 r, env.luaD_pcall s a = some (s2, r) → SweepIdle s → SweepIdle s2)
    (fuel : Nat) (L : Addr) (g g2 : global_State) (hn : g.sweepgc = none)
    (h : atomic2gen env fuel L g = some g2) : SweepIdle g2 := by
  unfold atomic2gen at h
  simp only [Option.bind_eq_bind, Option.bind_eq_some] at h
  obtain ⟨g1, h1, g3, h3, g5, h5, h⟩ := h
  have e1 : g1.sweepgc = none := (congrArg Prod.snd (sweep2old_sw _ _ _ _ h1)).trans hn
  have e3 : g3.sweepgc = none := (congrArg Prod.snd (sweep2old_sw _ _ _ _ h3)).trans e1
  have e5 : g5.sweepgc = none := (congrArg Prod.snd (sweep2old_sw _ _ _ _ h5)).trans e3
  unfold finishgencycle at h
  simp only [Option.bind_eq_bind, Option.bind_eq_some] at h
  obtain ⟨g6, h6, h⟩ := h
  have e6 : g6.sweepgc = none :=
    (congrArg Prod.snd (sw_of_ctl _ _ (correctgraylists_quiet _ _ _ h6).2)).trans e5
  have e7 : (checkSizes g6).sweepgc = none := (congrArg Prod.snd (checkSizes_sw g6)).trans e6
  split at h
  · exact callallpendingfinalizers_idle env hfin L fuel _ _ h (sweepIdle_none _ e7)
  · cases h
    exact sweepIdle_none _ e7

theorem setdebt_sw (luaE_setdebt : global_State → Int → global_State)
    (hdebt : DebtOnly luaE_setdebt) (g : global_State) (d : Int) :
    sw (luaE_setdebt g d) = sw g := by
  obtain ⟨tb, db, e⟩ := hdebt g d
  rw [e]
  rfl

theorem setpause_sw (luaE_setdebt : global_State → Int → global_State)
    (hdebt : DebtOnly luaE_setdebt) (g g2 : global_State)
    (h : setpause luaE_setdebt g = some g2) : sw g2 = sw g := by
  unfold setpause at h
  simp only at h
  split at h
  · cases h
  · cases h
    exact setdebt_sw _ hdebt _ _

theorem atomic_sweepgc (env : Env) (fuel : Nat) (g : global_State) (L : Addr)
    (g2 : global_State) (w : Nat) (h : atomic env fuel g L = some (g2, w)) :
    g2.sweepgc = g.sweepgc := by
  have e := congrArg (fun t => t.2.2.2.2.2.2) (atomic_ctl _ _ _ _ _ _ h)
  exact e

/-- The function `entergen` keeps the sweep cursor idle. -/
theorem entergen_idle (luaE_setdebt : global_State → Int → global_State)
    (hdebt : DebtOnly luaE_setdebt) (env : Env)
    (hfin : ∀ s a s2 r, env.luaD_pcall s a = some (s2, r) → SweepIdle s → SweepIdle s2)
    (fuel : Nat) (L : Addr) (g g2 : global_State) (n : Nat) (hI : SweepIdle g)
    (h : entergen luaE_setdebt env fuel L g = some (g2, n)) : SweepIdle g2 := by
  unfold entergen at h
  simp only [Option.bind_eq_bind, Option.bind_eq_some] at h
  obtain ⟨g1, h1, ga, ha, ⟨g3, m⟩, h3, g4, h4, h⟩ := h
  simp only [Option.some.injEq, Prod.mk.injEq] at h
  obtain ⟨rfl, -⟩ := h
  obtain ⟨i1, -⟩ := luaC_runtilstate_idle env hfin fuel L _ fuel _ _ hI h1
  obtain ⟨ia, ta⟩ := luaC_runtilstate_idle env hfin fuel L _ fuel _ _ i1 ha
  have ea : ga.sweepgc = none := ia (Or.inr (Or.inl (testbit_bitmask _ _ ta)))
  have e3 : g3.sweepgc = none := (atomic_sweepgc _ _ _ _ _ _ h3).trans ea
  have i4 := atomic2gen_idle env hfin fuel L g3 g4 e3 h4
  exact sweepIdle_sw _ _ (setdebt_sw _ hdebt _ _) i4

/-- The function `fullgen`, entered with an empty sweep cursor, leaves the
sweep cursor idle. -/
theorem fullgen_idle (luaE_setdebt : global_State → Int → global_State)
    (hdebt : DebtOnly luaE_setdebt) (env : Env)
    (hfin : ∀ s a s2 r, env.luaD_pcall s a = some (s2, r) → SweepIdle s → SweepIdle s2)
    (fuel : Nat) (L : Addr) (g g2 : global_State) (n : Nat) (hn : g.sweepgc = none)
    (h : fullgen luaE_setdebt env fuel L g = some (g2, n)) : SweepIdle g2 := by
  unfold fullgen at h
  simp only [Option.bind_eq_bind, Option.bind_eq_some] at h
  obtain ⟨g1, h1, h⟩ := h
  have e1 : g1.sweepgc = none := (congrArg Prod.snd (enterinc_sw _ _ _ h1)).trans hn
  exact entergen_idle _ hdebt env hfin fuel L g1 g2 n (sweepIdle_none _ e1) h

/-- The function `fullinc` keeps the sweep cursor idle. -/
theorem fullinc_idle (luaE_setdebt : global_State → Int → global_State)
    (hdebt : DebtOnly luaE_setdebt) (env : Env)
    (hfin : ∀ s a s2 r, env.luaD_pcall s a = some (s2, r) → SweepIdle s → SweepIdle s2)
    (fuel : Nat) (L : Addr) (g g2 : global_State) (hI : SweepIdle g)
    (h : fullinc luaE_setdebt env fuel L g = some g2) : SweepIdle g2 := by
  unfold fullinc at h
  simp only [Option.bind_eq_bind, Option.bind_eq_some] at h
  obtain ⟨g1, h1, ga, ha, g3, h3, g5, h5, g6, h6, h⟩ := h
  have i1 : SweepIdle g1 := by
    split at h1
    · have e : g1.gcstate = GCSswpallgc := entersweep_gcstate _ _ _ h1
      exact sweepIdle_sweeping _ (Or.inl e)
    · cases h1
      exact hI
  obtain ⟨ia, -⟩ := luaC_runtilstate_idle env hfin fuel L _ fuel _ _ i1 ha
  obtain ⟨i3, t3⟩ := luaC_runtilstate_idle env hfin fuel L _ fuel _ _ ia h3
  have e3 : g3.sweepgc = none := i3 (Or.inr (Or.inl (testbit_bitmask _ _ t3)))
  have i4 : SweepIdle { g3 with gcstate := GCSenteratomic } := sweepIdle_none _ e3
  obtain ⟨i5, -⟩ := luaC_runtilstate_idle env hfin fuel L _ fuel _ _ i4 h5
  obtain ⟨i6, -⟩ := luaC_runtilstate_idle env hfin fuel L _ fuel _ _ i5 h6
  exact sweepIdle_sw _ _ (setpause_sw _ hdebt _ _ h) i6

/-- A full collection keeps the sweep cursor idle, when in generational mode
it is entered with an empty sweep cursor. -/
theorem luaC_fullgc_idle (luaE_setdebt : global_State → Int → global_State)
    (hdebt : DebtOnly luaE_setdebt) (env : Env)
    (hfin : ∀ s a s2 r, env.luaD_pcall s a = some (s2, r) → SweepIdle s → SweepIdle s2)
    (fuel : Nat) (g : global_State) (L : Addr) (em : Nat) (g2 : global_State)
    (hI : SweepIdle g) (hgen : g.gckind ≠ KGC_INC → g.sweepgc = none)
    (h : luaC_fullgc luaE_setdebt env fuel g L em = some g2) : SweepIdle g2 := by
  unfold luaC_fullgc at h
  simp only [Option.bind_eq_bind, Option.bind_eq_some] at h
  obtain ⟨g1, h1, h⟩ := h
  simp only [Option.some.injEq] at h
  subst h
  have i1 : SweepIdle g1 := by
    split at h1
    · exact fullinc_idle _ hdebt env hfin fuel L { g with gcemergency := em } g1
        (sweepIdle_sw _ g rfl hI) h1
    · rename_i hk
      simp only [Option.map_eq_some'] at h1
      obtain ⟨⟨ga, n⟩, ha, rfl⟩ := h1
      exact fullgen_idle _ hdebt env hfin fuel L { g with gcemergency := em } ga n (hgen hk) ha
  exact sweepIdle_sw _ g1 rfl i1

theorem luaC_checkfinalizer_prepare_idle (fuel : Nat) (g : global_State) (o : Addr)
    (x : GCObject) (g1 : global_State) (hI : SweepIdle g)
    (h : luaC_checkfinalizer_prepare fuel g o x = some g1) : SweepIdle g1 := by
  unfold luaC_checkfinalizer_prepare at h
  split at h
  · simp only [Option.bind_eq_bind] at h
    split at h
    · rename_i hc
      simp only [Option.bind_eq_some] at h
      obtain ⟨⟨ga, p⟩, ha, h⟩ := h
      simp only [Option.some.injEq] at h
      subst h
      have e0 := gcstate_of_ctl _ _ (sweeptolive_ctl _ _ _ _ _ ha)
      have e : ga.gcstate = g.gcstate := e0
      intro k
      have k2 : g.sweepgc = none := hI (by rw [← e]; exact k)
      have hc2 : g.sweepgc = some (.next o) := hc
      rw [k2] at hc2
      cases hc2
    · cases h
      exact sweepIdle_sw _ g rfl hI
  · unfold correctpointers at h
    simp only [Option.bind_eq_bind, Option.bind_eq_some] at h
    obtain ⟨y, -, h⟩ := h
    cases h
    exact sweepIdle_sw _ g rfl hI

theorem luaC_checkfinalizer_move_sw (fuel : Nat) (g g2 : global_State) (o : Addr)
    (h : luaC_checkfinalizer_move fuel g o = some g2) : sw g2 = sw g := by
  unfold luaC_checkfinalizer_move at h
  simp only [Option.bind_eq_bind, Option.bind_eq_some] at h
  obtain ⟨p, -, x1, -, ga, ha, x2, -, x4, -, h⟩ := h
  cases h
  have e := sw_of_ctl _ _ (store_ctl _ _ _ _ ha)
  exact e

/-- The function `luaC_checkfinalizer` keeps the sweep cursor idle. -/
theorem luaC_checkfinalizer_idle (fuel : Nat) (g : global_State) (o : Addr) (mt : Option Addr)
    (g2 : global_State) (hI : SweepIdle g)
    (h : luaC_checkfinalizer fuel g o mt = some g2) : SweepIdle g2 := by
  unfold luaC_checkfinalizer at h
  simp only [Option.bind_eq_bind, Option.bind_eq_some] at h
  obtain ⟨x, -, h⟩ := h
  split at h
  · cases h
    exact hI
  · simp only [Option.bind_eq_some] at h
    obtain ⟨tm, -, h⟩ := h
    split at h
    · cases h
      exact hI
    · split at h
      · cases h
        exact hI
      · simp only [Option.bind_eq_some] at h
        obtain ⟨g1, h1, h⟩ := h
        exact sweepIdle_sw _ _ (luaC_checkfinalizer_move_sw _ _ _ _ h)
          (luaC_checkfinalizer_prepare_idle _ _ _ _ _ hI h1)

/-- The state in which `stepgenfull` calls `entersweep` has an empty sweep
cursor, when in generational mode `stepgenfull` is entered with one. -/
theorem stepgenfull_mark_sweepgc (env : Env)
    (hfin : ∀ s a s2 r, env.luaD_pcall s a = some (s2, r) → SweepIdle s → SweepIdle s2)
    (fuel : Nat) (L : Addr) (g g3 : global_State) (n : Nat) (hI : SweepIdle g)
    (hgen : g.gckind = KGC_GEN → g.sweepgc = none)
    (h : stepgenfull_mark env fuel L g = some (g3, n)) : g3.sweepgc = none := by
  unfold stepgenfull_mark at h
  simp only [Option.bind_eq_bind, Option.bind_eq_some] at h
  obtain ⟨g1, h1, ga, ha, h⟩ := h
  have i1 : SweepIdle g1 := by
    split at h1
    · rename_i hk
      exact sweepIdle_none _ ((congrArg Prod.snd (enterinc_sw _ _ _ h1)).trans (hgen hk))
    · cases h1
      exact hI
  obtain ⟨ia, ta⟩ := luaC_runtilstate_idle env hfin fuel L _ fuel _ _ i1 ha
  have ea : ga.sweepgc = none := ia (Or.inr (Or.inl (testbit_bitmask _ _ ta)))
  exact (atomic_sweepgc _ _ _ _ _ _ h).trans ea

/-! ## The estimate during the sweep -/

theorem sweepFrame_bytes (g g2 : global_State) (h : SweepFrame g g2) :
    g2.totalbytes = g.totalbytes ∧ g2.GCestimate = g.GCestimate := by
  unfold SweepFrame at h
  rw [h]
  exact ⟨rfl, rfl⟩

theorem sweeplist_loop_sweepFrame (ow white : Nat) (n : Nat) : ∀ (g : global_State)
    (p : GCRef) (i : Nat) (g2 : global_State) (p2 : GCRef) (i2 : Nat),
    sweeplist_loop ow white n g p i = some (g2, p2, i2) → SweepFrame g g2 := by
  induction n with
  | zero =>
    intro g p i g2 p2 i2 h
    simp only [sweeplist_loop, Option.some.injEq, Prod.mk.injEq] at h
    obtain ⟨rfl, -, -⟩ := h
    exact sweepFrame_refl _
  | succ n ih =>
    intro g p i g2 p2 i2 h
    rw [sweeplist_loop] at h
    simp only [Option.bind_eq_bind, Option.bind_eq_some] at h
    obtain ⟨c, -, h⟩ := h
    split at h
    · simp only [Option.some.injEq, Prod.mk.injEq] at h
      obtain ⟨rfl, -, -⟩ := h
      exact sweepFrame_refl _
    · simp only [Option.bind_eq_some] at h
      obtain ⟨x, -, h⟩ := h
      split at h
      · simp only [Option.bind_eq_some] at h
        obtain ⟨g1, h1, ga, ha, h⟩ := h
        exact sweepFrame_trans _ _ _ (sweepFrame_trans _ _ _ (store_sweepFrame _ _ _ _ h1)
          (freeobj_sweepFrame _ _ _ ha)) (ih _ _ _ _ _ _ h)
      · have k := ih _ _ _ _ _ _ h
        exact sweepFrame_trans _ _ _ (show SweepFrame g (g.setobj _ _) from rfl) k

theorem sweeplist_sweepFrame (g : global_State) (p : GCRef) (n : Nat) (g2 : global_State)
    (q : Option GCRef) (i : Nat) (h : sweeplist g p n = some (g2, q, i)) : SweepFrame g g2 := by
  unfold sweeplist at h
  simp only [Option.bind_eq_bind, Option.bind_eq_some] at h
  obtain ⟨⟨g1, p1, i1⟩, h1, c, -, h⟩ := h
  simp only [Option.some.injEq, Prod.mk.injEq] at h
  obtain ⟨rfl, -, -⟩ := h
  exact sweeplist_loop_sweepFrame _ _ _ _ _ _ _ _ _ h1

theorem lu_mem_add (a b : Int) : lu_mem (((lu_mem a : Nat) : Int) + b) = lu_mem (a + b) := by
  unfold lu_mem
  have h : (((a % (2 : Int) ^ 64).toNat : Nat) : Int) = a % (2 : Int) ^ 64 :=
    Int.toNat_of_nonneg (Int.emod_nonneg _ (by norm_num))
  rw [h, Int.emod_add_emod]

/-- A sweep step adds to the estimate the change it caused in the debt, and
the total of bytes stays fixed: an exact estimate stays exact. -/
theorem sweepstep_estimate (g : global_State) (nextstate : Nat) (nextlist : Option GCRef)
    (g2 : global_State) (w : Nat) (h : sweepstep g nextstate nextlist = some (g2, w)) :
    g2.totalbytes = g.totalbytes ∧
    (g.sweepgc ≠ none →
      g2.GCestimate = lu_mem (((g.GCestimate : Nat) : Int) + (g2.GCdebt - g.GCdebt))) ∧
    (g.GCestimate = gettotalbytes g → g2.GCestimate = gettotalbytes g2) := by
  unfold sweepstep at h
  split at h
  · simp only [Option.bind_eq_bind, Option.bind_eq_some] at h
    obtain ⟨⟨g1, p, c⟩, h1, h⟩ := h
    simp only [Option.some.injEq, Prod.mk.injEq] at h
    obtain ⟨rfl, -⟩ := h
    obtain ⟨e1, e2⟩ := sweepFrame_bytes _ _ (sweeplist_sweepFrame _ _ _ _ _ _ h1)
    refine ⟨e1, ?_, ?_⟩
    · intro _
      show lu_mem (((g1.GCestimate : Nat) : Int) + (g1.GCdebt - g.GCdebt)) = _
      rw [e2]
    · intro hE
      show lu_mem (((g1.GCestimate : Nat) : Int) + (g1.GCdebt - g.GCdebt))
        = lu_mem (g1.totalbytes + g1.GCdebt)
      rw [e2, hE, e1]
      unfold gettotalbytes
      rw [lu_mem_add]
      congr 1
      ring
  · simp only [Option.some.injEq, Prod.mk.injEq] at h
    obtain ⟨rfl, -⟩ := h
    rename_i hn
    exact ⟨rfl, fun k => absurd hn k, fun hE => hE⟩

/-- The function `checkSizes` adds to the estimate the change it caused in
the debt, and the total of bytes stays fixed: an exact estimate stays
exact. -/
theorem checkSizes_estimate (g : global_State) :
    (checkSizes g).totalbytes = g.totalbytes ∧
    (g.GCestimate = gettotalbytes g → (checkSizes g).GCestimate = gettotalbytes (checkSizes g)) := by
  unfold checkSizes
  split
  · split
    · refine ⟨rfl, fun hE => ?_⟩
      show lu_mem (((g.GCestimate : Nat) : Int) +
        (g.GCdebt + (Int.tdiv g.strt_size 2 - g.strt_size) * 8 - g.GCdebt))
        = lu_mem (g.totalbytes + (g.GCdebt + (Int.tdiv g.strt_size 2 - g.strt_size) * 8))
      rw [hE]
      unfold gettotalbytes
      rw [lu_mem_add]
      congr 1
      ring
    · exact ⟨rfl, fun hE => hE⟩
  · exact ⟨rfl, fun hE => hE⟩

/-- The states of the sweep, with an exact estimate. -/
theorem singlestep_switch_estimate (env : Env) (fuel : Nat) (g : global_State) (L : Addr)
    (g2 : global_State) (r : Option Nat)
    (hP : g.gcstate = GCSenteratomic ∨
      ((g.gcstate = GCSswpallgc ∨ g.gcstate = GCSswpfinobj ∨ g.gcstate = GCSswptobefnz ∨
        g.gcstate = GCSswpend) ∧ g.GCestimate = gettotalbytes g))
    (h : singlestep_switch env fuel g L = some (g2, r)) :
    (g2.gcstate = GCSswpallgc ∨ g2.gcstate = GCSswpfinobj ∨ g2.gcstate = GCSswptobefnz ∨
      g2.gcstate = GCSswpend ∨ g2.gcstate = GCScallfin) ∧ g2.GCestimate = gettotalbytes g2 ∧
    ∃ w, r = some w := by
  unfold singlestep_switch at h
  rcases hP with hst | ⟨hst | hst | hst | hst, hE⟩
  · rw [if_neg (show ¬ g.gcstate = GCSpause by rw [hst]; decide),
      if_neg (show ¬ g.gcstate = GCSpropagate by rw [hst]; decide), if_pos hst] at h
    simp only [Option.bind_eq_bind, Option.bind_eq_some] at h
    obtain ⟨⟨g1, work⟩, -, g3, h3, h⟩ := h
    simp only [Option.some.injEq, Prod.mk.injEq] at h
    obtain ⟨rfl, rfl⟩ := h
    have e3 : g3.gcstate = GCSswpallgc := entersweep_gcstate _ _ _ h3
    exact ⟨Or.inl e3, rfl, _, rfl⟩
  · rw [if_neg (show ¬ g.gcstate = GCSpause by rw [hst]; decide),
      if_neg (show ¬ g.gcstate = GCSpropagate by rw [hst]; decide),
      if_neg (show ¬ g.gcstate = GCSenteratomic by rw [hst]; decide), if_pos hst] at h
    simp only [Option.map_eq_some'] at h
    obtain ⟨⟨g3, w⟩, h3, h⟩ := h
    simp only [Prod.mk.injEq] at h
    obtain ⟨rfl, rfl⟩ := h
    refine ⟨?_, (sweepstep_estimate _ _ _ _ _ h3).2.2 hE, _, rfl⟩
    rcases sweepstep_sw _ _ _ _ _ h3 with e | e
    · exact Or.inl (e.trans hst)
    · exact Or.inr (Or.inl (congrArg Prod.fst e))
  · rw [if_neg (show ¬ g.gcstate = GCSpause by rw [hst]; decide),
      if_neg (show ¬ g.gcstate = GCSpropagate by rw [hst]; decide),
      if_neg (show ¬ g.gcstate = GCSenteratomic by rw [hst]; decide),
      if_neg (show ¬ g.gcstate = GCSswpallgc by rw [hst]; decide), if_pos hst] at h
    simp only [Option.map_eq_some'] at h
    obtain ⟨⟨g3, w⟩, h3, h⟩ := h
    simp only [Prod.mk.injEq] at h
    obtain ⟨rfl, rfl⟩ := h
    refine ⟨?_, (sweepstep_estimate _ _ _ _ _ h3).2.2 hE, _, rfl⟩
    rcases sweepstep_sw _ _ _ _ _ h3 with e | e
    · exact Or.inr (Or.inl (e.trans hst))
    · exact Or.inr (Or.inr (Or.inl (congrArg Prod.fst e)))
  · rw [if_neg (show ¬ g.gcstate = GCSpause by rw [hst]; decide),
      if_neg (show ¬ g.gcstate = GCSpropagate by rw [hst]; decide),
      if_neg (show ¬ g.gcstate = GCSenteratomic by rw [hst]; decide),
      if_neg (show ¬ g.gcstate = GCSswpallgc by rw [hst]; decide),
      if_neg (show ¬ g.gcstate = GCSswpfinobj by rw [hst]; decide), if_pos hst] at h
    simp only [Option.map_eq_some'] at h
    obtain ⟨⟨g3, w⟩, h3, h⟩ := h
    simp only [Prod.mk.injEq] at h
    obtain ⟨rfl, rfl⟩ := h
    refine ⟨?_, (sweepstep_estimate _ _ _ _ _ h3).2.2 hE, _, rfl⟩
    rcases sweepstep_sw _ _ _ _ _ h3 with e | e
    · exact Or.inr (Or.inr (Or.inl (e.trans hst)))
    · exact Or.inr (Or.inr (Or.inr (Or.inl (congrArg Prod.fst e))))
  · rw [if_neg (show ¬ g.gcstate = GCSpause by rw [hst]; decide),
      if_neg (show ¬ g.gcstate = GCSpropagate by rw [hst]; decide),
      if_neg (show ¬ g.gcstate = GCSenteratomic by rw [hst]; decide),
      if_neg (show ¬ g.gcstate = GCSswpallgc by rw [hst]; decide),
      if_neg (show ¬ g.gcstate = GCSswpfinobj by rw [hst]; decide),
      if_neg (show ¬ g.gcstate = GCSswptobefnz by rw [hst]; decide), if_pos hst] at h
    simp only [Option.some.injEq, Prod.mk.injEq] at h
    obtain ⟨rfl, rfl⟩ := h
    exact ⟨Or.inr (Or.inr (Or.inr (Or.inr rfl))), (checkSizes_estimate g).2 hE, _, rfl⟩

/-- From `GCSenteratomic`, or from a sweep state with an exact estimate, the
collector reaches `GCScallfin` with an exact estimate. -/
theorem luaC_runtilstate_estimate (env : Env) (fuelS : Nat) (L : Addr) (fuel : Nat) :
    ∀ (g g2 : global_State),
    (g.gcstate = GCSenteratomic ∨
      ((g.gcstate = GCSswpallgc ∨ g.gcstate = GCSswpfinobj ∨ g.gcstate = GCSswptobefnz ∨
        g.gcstate = GCSswpend ∨ g.gcstate = GCScallfin) ∧ g.GCestimate = gettotalbytes g)) →
    luaC_runtilstate env fuelS L (bitmask GCScallfin) fuel g = some g2 →
    g2.gcstate = GCScallfin ∧ g2.GCestimate = gettotalbytes g2 := by
  induction fuel with
  | zero => intro g g2 _ h; simp [luaC_runtilstate] at h
  | succ k ih =>
    intro g g2 hP h
    rw [luaC_runtilstate] at h
    split at h
    · rename_i ht
      cases h
      have e := testbit_bitmask _ _ ht
      rcases hP with hst | ⟨-, hE⟩
      · rw [e] at hst
        exact absurd hst (by decide)
      · exact ⟨e, hE⟩
    · rename_i ht
      have hne : g.gcstate ≠ GCScallfin := by
        intro e
        apply ht
        rw [e]
        decide
      simp only [Option.bind_eq_bind, Option.bind_eq_some] at h
      obtain ⟨⟨g1, w⟩, h1, h⟩ := h
      unfold singlestep at h1
      simp only [Option.bind_eq_bind, Option.bind_eq_some] at h1
      obtain ⟨⟨g3, r⟩, h3, h1⟩ := h1
      have hP2 : ({ g with gcstopem := 1 } : global_State).gcstate = GCSenteratomic ∨
          ((({ g with gcstopem := 1 } : global_State).gcstate = GCSswpallgc ∨
            ({ g with gcstopem := 1 } : global_State).gcstate = GCSswpfinobj ∨
            ({ g with gcstopem := 1 } : global_State).gcstate = GCSswptobefnz ∨
            ({ g with gcstopem := 1 } : global_State).gcstate = GCSswpend) ∧
            ({ g with gcstopem := 1 } : global_State).GCestimate
              = gettotalbytes { g with gcstopem := 1 }) := by
        rcases hP with hst | ⟨hst | hst | hst | hst | hst, hE⟩
        · exact Or.inl hst
        · exact Or.inr ⟨Or.inl hst, hE⟩
        · exact Or.inr ⟨Or.inr (Or.inl hst), hE⟩
        · exact Or.inr ⟨Or.inr (Or.inr (Or.inl hst)), hE⟩
        · exact Or.inr ⟨Or.inr (Or.inr (Or.inr hst)), hE⟩
        · exact absurd hst hne
      obtain ⟨k1, k2, wk, rfl⟩ :=
        singlestep_switch_estimate env fuelS { g with gcstopem := 1 } L g3 r hP2 h3
      simp only [Option.some.injEq, Prod.mk.injEq] at h1
      obtain ⟨rfl, -⟩ := h1
      exact ih { g3 with gcstopem := 0 } g2 (Or.inr ⟨k1, k2⟩) h

/-- C39: an incremental full collection that returns went through a state
`g5` in which the collector had just reached `GCScallfin`, and there the
estimate is exact: `GCestimate == gettotalbytes(g)`, the assertion of
`fullinc`. On the way every sweep step that sweeps and `checkSizes` leave
`totalbytes` as it was and keep an exact estimate exact (the sweep step adds
to the estimate the change of `GCdebt`). -/
theorem fullinc_estimate (luaE_setdebt : global_State → Int → global_State) (env : Env)
    (fuel : Nat) (L : Addr) (g g2 : global_State)
    (h : fullinc luaE_setdebt env fuel L g = some g2) :
    (∃ g1 ga g3 g5, (if keepinvariant g then entersweep fuel g else some g) = some g1 ∧
      luaC_runtilstate env fuel L (bitmask GCSpause) fuel g1 = some ga ∧
      luaC_runtilstate env fuel L (bitmask GCSpropagate) fuel ga = some g3 ∧
      luaC_runtilstate env fuel L (bitmask GCScallfin) fuel
        { g3 with gcstate := GCSenteratomic } = some g5 ∧
      g5.gcstate = GCScallfin ∧ g5.GCestimate = gettotalbytes g5 ∧
      (luaC_runtilstate env fuel L (bitmask GCSpause) fuel g5).bind (setpause luaE_setdebt)
        = some g2) ∧
    (∀ s nextstate nextlist s2 w, sweepstep s nextstate nextlist = some (s2, w) →
      s2.totalbytes = s.totalbytes ∧
      (s.sweepgc ≠ none →
        s2.GCestimate = lu_mem (((s.GCestimate : Nat) : Int) + (s2.GCdebt - s.GCdebt))) ∧
      (s.GCestimate = gettotalbytes s → s2.GCestimate = gettotalbytes s2)) ∧
    ∀ s, (checkSizes s).totalbytes = s.totalbytes ∧
      (s.GCestimate = gettotalbytes s →
        (checkSizes s).GCestimate = gettotalbytes (checkSizes s)) := by
  refine ⟨?_, fun s ns nl s2 w k => sweepstep_estimate s ns nl s2 w k,
    fun s => checkSizes_estimate s⟩
  unfold fullinc at h
  simp only [Option.bind_eq_bind, Option.bind_eq_some] at h
  obtain ⟨g1, h1, ga, ha, g3, h3, g5, h5, g6, h6, h⟩ := h
  obtain ⟨e1, e2⟩ := luaC_runtilstate_estimate env fuel L fuel _ g5 (Or.inl rfl) h5
  refine ⟨g1, ga, g3, g5, h1, ha, h3, h5, e1, e2, ?_⟩
  rw [h6, Option.some_bind]
  exact h

/-! ## The list `twups` -/

theorem isTwList_iff_seg (h : Heap) : ∀ (l : List Addr) (p : Option Addr),
    IsTwList h p l ↔ IsGSeg (twHeap h) p l none := by
  intro l
  induction l with
  | nil => intro p; exact Iff.rfl
  | cons b l ih =>
    intro p
    constructor
    · rintro ⟨e, o, ho, hr⟩
      refine ⟨e, { o with gclist := o.twups }, ?_, (ih _).1 hr⟩
      show (h b).map _ = _
      rw [ho]
      rfl
    · rintro ⟨e, o, ho, hr⟩
      have ho2 : (h b).map (fun o => { o with gclist := o.twups }) = some o := ho
      simp only [Option.map_eq_some'] at ho2
      obtain ⟨x, hx, rfl⟩ := ho2
      exact ⟨e, x, hx, (ih _).2 hr⟩

theorem isTwList_nodup (h : Heap) (l : List Addr) (p : Option Addr) (hl : IsTwList h p l) :
    l.Nodup :=
  isGList_nodup (twHeap h) l p ((isTwList_iff_seg h l p).1 hl)

theorem isTwList_length_le (U : List Addr) (h : Heap) (hU : ∀ a x, h a = some x → a ∈ U)
    (l : List Addr) (p : Option Addr) (hl : IsTwList h p l) : l.length ≤ U.length := by
  refine isGSeg_length_le U (twHeap h) ?_ l p ((isTwList_iff_seg h l p).1 hl)
  intro a x hx
  have hx2 : (h a).map (fun o => { o with gclist := o.twups }) = some x := hx
  simp only [Option.map_eq_some'] at hx2
  obtain ⟨y, hy, -⟩ := hx2
  exact hU a y hy

/-- A list of threads is the same list in a memory with the same `twups`
links. -/
theorem isTwList_frame (h h2 : Heap) : ∀ (l : List Addr) (p : Option Addr),
    (∀ a, a ∈ l → twOf h2 a = twOf h a) → IsTwList h p l → IsTwList h2 p l := by
  intro l
  induction l with
  | nil => intro p _ hl; exact hl
  | cons b l ih =>
    intro p hf hl
    obtain ⟨e, o, ho, hr⟩ := hl
    have k := hf b (List.mem_cons_self _ _)
    unfold twOf at k
    rw [ho] at k
    simp only [Option.map_some', Option.map_eq_some'] at k
    obtain ⟨o2, ho2, k⟩ := k
    refine ⟨e, o2, ho2, ?_⟩
    rw [k]
    exact ih _ (fun a ha => hf a (List.mem_cons_of_mem _ ha)) hr

theorem twOf_setobj_ne (g : global_State) (a b : Addr) (o : GCObject) (h : b ≠ a) :
    twOf (g.setobj a o).heap b = twOf g.heap b := by
  unfold twOf
  show (Heap.set g.heap a o b).map _ = _
  rw [heap_set_ne _ _ _ _ h]

theorem twOf_setobj_same (g : global_State) (a : Addr) (x o : GCObject) (hx : g.heap a = some x)
    (h : o.twups = x.twups) : twOf (g.setobj a o).heap a = twOf g.heap a := by
  unfold twOf
  show (Heap.set g.heap a o a).map _ = _
  rw [heap_set_same, hx]
  simp only [Option.map_some', h]

/-- Linking an object into `gray` writes no `twups` link. -/
theorem linkobjgclist_tw (g g2 : global_State) (o : Addr)
    (h : linkobjgclist g o .gray = some g2) :
    g2.twups = g.twups ∧ ∀ a, twOf g2.heap a = twOf g.heap a := by
  unfold linkobjgclist linkgclist_ at h
  simp only [Option.bind_eq_bind, Option.bind_eq_some] at h
  obtain ⟨x, hx, pn, hpn, y, hy, z, hz, h⟩ := h
  cases h
  refine ⟨rfl, fun a => ?_⟩
  have e1 : ∀ b, twOf ((g.setobj pn { y with gclist := g.getlist .gray }).setlist .gray
      (some o)).heap b = twOf g.heap b := by
    intro b
    show twOf (g.setobj pn { y with gclist := g.getlist .gray }).heap b = _
    by_cases hb : b = pn
    · subst hb
      exact twOf_setobj_same g b y _ hy rfl
    · exact twOf_setobj_ne g pn b _ hb
  by_cases ha : a = o
  · subst ha
    exact (twOf_setobj_same _ a z { z with marked := set2gray z.marked } hz rfl).trans (e1 a)
  · exact (twOf_setobj_ne _ o a _ ha).trans (e1 a)

theorem twSame_refl (g : global_State) : TwSame g g := ⟨rfl, fun _ => rfl⟩

theorem twSame_trans (g g1 g2 : global_State) (h1 : TwSame g g1) (h2 : TwSame g1 g2) :
    TwSame g g2 :=
  ⟨h2.1.trans h1.1, fun a => (h2.2 a).trans (h1.2 a)⟩

theorem twSame_setobj (g : global_State) (a : Addr) (x o : GCObject) (hx : g.heap a = some x)
    (h : o.twups = x.twups) : TwSame g (g.setobj a o) := by
  refine ⟨rfl, fun b => ?_⟩
  by_cases hb : b = a
  · subst hb
    exact twOf_setobj_same g b x o hx h
  · exact twOf_setobj_ne g a b o hb

theorem markobject_with_tw (mark : global_State → Addr → Option global_State)
    (hmark : ∀ g o g2, mark g o = some g2 → TwSame g g2)
    (g g2 : global_State) (t : Addr) (h : markobject_with mark g t = some g2) :
    TwSame g g2 := by
  unfold markobject_with at h
  simp only [Option.bind_eq_bind, Option.bind_eq_some] at h
  obtain ⟨x, -, h⟩ := h
  split at h
  · exact hmark _ _ _ h
  · cases h
    exact twSame_refl _

/-- Marking an object writes no `twups` link. -/
theorem markrec_tw (fuel : Nat) : ∀ (g : global_State) (o : Addr) (g2 : global_State),
    markrec fuel g o = some g2 → TwSame g g2 := by
  induction fuel with
  | zero => intro g o g2 h; simp [markrec] at h
  | succ n ih =>
    intro g o g2 h
    rw [markrec] at h
    simp only [Option.bind_eq_bind, Option.bind_eq_some] at h
    obtain ⟨x, hx, h⟩ := h
    split at h
    · cases h
      exact twSame_setobj g o x _ hx rfl
    · cases h
      exact twSame_setobj g o x _ hx rfl
    · have k1 : TwSame g (g.setobj o { x with
          marked := if upisopen x then set2gray x.marked else set2black x.marked }) :=
        twSame_setobj g o x _ hx rfl
      split at h
      · cases h
      · exact twSame_trans _ _ _ k1 (markobject_with_tw _ ih _ _ _ h)
      · cases h
        exact k1
    · split at h
      · split at h
        · simp only [Option.some_bind, Option.bind_eq_some] at h
          obtain ⟨y, hy, h⟩ := h
          cases h
          exact twSame_setobj g o y _ hy rfl
        · simp only [Option.bind_eq_some] at h
          obtain ⟨g1, h1, y, hy, h⟩ := h
          cases h
          exact twSame_trans _ _ _ (markobject_with_tw _ ih _ _ _ h1)
            (twSame_setobj g1 o y _ hy rfl)
      · exact linkobjgclist_tw _ _ _ h
    · exact linkobjgclist_tw _ _ _ h

theorem markvalue_tw (g g2 : global_State) (v : TValue) (h : markvalue g v = some g2) :
    TwSame g g2 := by
  unfold markvalue at h
  split at h
  · exact markobject_with_tw _ (markrec_tw 3) _ _ _ h
  · cases h
    exact twSame_refl _

/-- The value an upvalue refers to is the same after a marking step. -/
theorem upvalue_v_mk (S : Addr → Prop) (g g2 : global_State) (h : Mk S g g2) (hwf : WF g)
    (o : Addr) (x x2 : GCObject) (hx : g.heap o = some x) (hx2 : g2.heap o = some x2) :
    g2.upvalue_v x2 = g.upvalue_v x := by
  obtain ⟨y, hy, ty⟩ := mk_live S g g2 h o x hx
  rw [hx2] at hy
  cases hy
  have f := touch_fields _ _ ty
  have ev : x2.v = x.v := f.2.2.2.2.2.2.2.2.2.2.2.1
  have eval : x2.value = x.value := f.2.2.2.2.2.2.2.2.2.2.2.2.1
  have W := hwf o x hx
  unfold global_State.upvalue_v
  rw [ev]
  cases hv : x.v with
  | closed => exact congrArg some eval
  | stack th idx =>
    obtain ⟨t, s, v, ht, hs, hi, hg⟩ := W.slot th idx hv
    obtain ⟨t2, ht2, tt2⟩ := mk_live S g g2 h th t ht
    obtain ⟨s2, hs2, k⟩ := tt2.2.2.2.2.2 s hs
    simp only [ht, ht2, Option.bind_eq_bind, Option.some_bind, hs, hs2]
    exact k idx hi

/-- The inner loop of `remarkupvals` over the open upvalues `C` of a thread:
it returns, it counts the upvalues, and the value of each upvalue that is not
white is not white afterwards. -/
theorem remarkupvals_uvs_spec : ∀ (C : List Addr) (fuel : Nat) (g : global_State)
    (p : Option Addr) (work : Nat), IsGSeg (uvHeap g.heap) p C none → C.length < fuel → WF g →
    ∃ g2, remarkupvals_uvs fuel g p work = some (g2, work + C.length) ∧
      Step (fun _ => False) [] g g2 ∧ TwSame g g2 ∧
      ∀ uv u v r, uv ∈ C → g.heap uv = some u → iswhite u.marked = false →
        g.upvalue_v u = some v → gcvalueN v = some r → whiteIn g2.heap r = false := by
  intro C
  induction C with
  | nil =>
    intro fuel g p work hp hf _
    have e : p = none := hp
    subst e
    cases fuel with
    | zero => omega
    | succ f =>
      exact ⟨g, rfl, step_refl _ g, twSame_refl g, fun _ _ _ _ k => (by cases k)⟩
  | cons b C ih =>
    intro fuel g p work hp hf hwf
    obtain ⟨e, o, ho, hr⟩ := hp
    subst e
    cases fuel with
    | zero => omega
    | succ f =>
      obtain ⟨x, hx, eo⟩ := uvHeap_some _ _ _ ho
      obtain ⟨v0, hv0, ok0⟩ := upvalue_v_wf g hwf b x hx
      have hmark : ∃ g1, (if !iswhite x.marked then (g.upvalue_v x).bind (markvalue g)
          else some g) = some g1 ∧ Step (fun _ => False) [] g g1 ∧ TwSame g g1 ∧
          (iswhite x.marked = false → ∀ r, gcvalueN v0 = some r → whiteIn g1.heap r = false) := by
        by_cases hw : iswhite x.marked = true
        · refine ⟨g, ?_, step_refl _ g, twSame_refl g, fun k => ?_⟩
          · simp only [hw, Bool.not_true, Bool.false_eq_true, if_false]
          · rw [hw] at k
            cases k
        · have hw2 : iswhite x.marked = false := by simpa using hw
          obtain ⟨g1, e1, s1, n1⟩ := markvalue_step g v0 hwf ok0
          refine ⟨g1, ?_, s1, markvalue_tw _ _ _ e1, fun _ => n1⟩
          simp only [hw2, Bool.not_false, if_true, hv0, Option.some_bind]
          exact e1
      obtain ⟨g1, e1, s1, w1, n1⟩ := hmark
      obtain ⟨x1, hx1, tx1⟩ := mk_live _ g g1 s1.1 b x hx
      have hwf1 := step_wf _ _ g g1 s1 hwf
      have hr1 : IsGSeg (uvHeap g1.heap) x1.open_next C none := by
        rw [(touch_fields _ _ tx1).2.2.2.2.2.2.2.2.2.2.2.2.2.2.1, ← eo]
        exact opened_mk _ g g1 s1.1 C _ hr
      obtain ⟨g2, e2, s2, w2, n2⟩ := ih f g1 _ (work + 1) hr1 (by simpa using hf) hwf1
      refine ⟨g2, ?_, step_false_trans g g1 g2 s1 s2, twSame_trans _ _ _ w1 w2, ?_⟩
      · rw [remarkupvals_uvs]
        simp only [Option.bind_eq_bind, hx, Option.some_bind]
        have el : work + 1 + C.length = work + (b :: C).length := by
          simp only [List.length_cons]
          omega
        rw [← el]
        by_cases hw : iswhite x.marked = true
        · simp only [hw, Bool.not_true, Bool.false_eq_true, if_false, Option.some.injEq] at e1 ⊢
          subst e1
          rw [hx] at hx1
          cases hx1
          exact e2
        · have hw2 : iswhite x.marked = false := by simpa using hw
          simp only [hw2, Bool.not_false, if_true, hv0, Option.some_bind] at e1 ⊢
          simp only [e1, Option.some_bind, hx1]
          exact e2
      · intro uv u v r huv hu hw hv hrr
        rcases List.mem_cons.1 huv with k | k
        · subst k
          rw [hx] at hu
          cases hu
          rw [hv0] at hv
          cases hv
          exact mk_nonwhite _ g1 g2 s2.1 r (n1 hw r hrr)
        · obtain ⟨u1, hu1, tu1⟩ := mk_live _ g g1 s1.1 uv u hu
          have ev := upvalue_v_mk _ g g1 s1.1 hwf uv u u1 hu hu1
          exact n2 uv u1 v r k hu1 (tu1.2.1 hw) (ev.trans hv) hrr

theorem touch_twups (x : GCObject) (v : Option Addr) : Touch x { x with twups := v } :=
  ⟨rfl, fun h => h, rfl, fun _ nd h => ⟨nd, h, nodeKept_refl nd⟩, fun h => h,
    fun s h => ⟨s, h, fun _ _ => rfl⟩⟩

/-- Writing through the pointer `p` of the loop of `remarkupvals`. -/
theorem store_twups_spec (g : global_State) (p cur v : Option Addr)
    (hp : g.load_twups p = some cur) :
    ∃ g1, g.store_twups p v = some g1 ∧ Mk (fun _ => True) g g1 ∧
      g1.load_twups p = some v ∧ (p ≠ none → g1.twups = g.twups) ∧
      (∀ a, p ≠ some a → g1.heap a = g.heap a) := by
  cases p with
  | none =>
    refine ⟨{ g with twups := v }, rfl, ?_, rfl, fun k => absurd rfl k, fun _ _ => rfl⟩
    exact ⟨rfl, fun a => ⟨fun e => e, fun x hx => ⟨x, hx, touch_refl x, fun _ _ => rfl⟩⟩⟩
  | some q =>
    have hp2 : (g.heap q).map (fun t => t.twups) = some cur := hp
    simp only [Option.map_eq_some'] at hp2
    obtain ⟨tq, hq, -⟩ := hp2
    refine ⟨g.setobj q { tq with twups := v }, ?_, ?_, ?_, fun _ => rfl, ?_⟩
    · show (g.heap q).map _ = _
      rw [hq]
      rfl
    · exact mk_store _ g _ q tq { tq with twups := v } hq (touch_twups tq v) (fun _ => trivial)
        rfl rfl
    · show ((g.setobj q { tq with twups := v }).heap q).map _ = _
      show ((Heap.set g.heap q _) q).map _ = _
      rw [heap_set_same]
      rfl
    · intro a ha
      show Heap.set g.heap q _ a = _
      exact heap_set_ne _ _ _ _ (fun e => ha (by rw [e]))

theorem openUps_mk (S : Addr → Prop) (g g2 : global_State) (h : Mk S g g2) (th : Addr)
    (C : List Addr) (hC : OpenUps g.heap th C) : OpenUps g2.heap th C := by
  obtain ⟨x, hx, hl⟩ := hC
  obtain ⟨x2, hx2, t2⟩ := mk_live S g g2 h th x hx
  refine ⟨x2, hx2, ?_⟩
  rw [(touch_fields _ _ t2).2.2.2.2.2.2.2.2.2.2.2.2.2.1]
  exact opened_mk S g g2 h C _ hl

theorem openUps_back (S : Addr → Prop) (g g2 : global_State) (h : Mk S g g2) (hwf : WF g)
    (th : Addr) (C : List Addr) (hC : OpenUps g2.heap th C) : OpenUps g.heap th C := by
  obtain ⟨x2, hx2, hl⟩ := hC
  obtain ⟨x, hx, -⟩ := mk_back S g g2 h th x2 hx2
  obtain ⟨C0, h0⟩ := (hwf th x hx).opened
  have k := openUps_mk S g g2 h th C0 ⟨x, hx, h0⟩
  obtain ⟨y, hy, hl2⟩ := k
  rw [hx2] at hy
  cases hy
  have e := opened_unique _ _ _ _ hl hl2
  rw [e]
  exact ⟨x, hx, h0⟩

theorem openUps_nil (h : Heap) (th : Addr) (x : GCObject) (C : List Addr) (hx : h th = some x)
    (hC : OpenUps h th C) : C = [] ↔ x.openupval = none := by
  obtain ⟨y, hy, hl⟩ := hC
  rw [hx] at hy
  cases hy
  cases C with
  | nil => exact ⟨fun _ => hl, fun _ => rfl⟩
  | cons b C =>
    obtain ⟨e, -⟩ := hl
    constructor
    · intro k
      cases k
    · intro k
      rw [k] at e
      cases e

/-- The work counted for the removed threads, when one more thread is kept. -/
theorem removed_sum_kept (thread : Addr) (rest K : List Addr) (Cs : Addr → List Addr)
    (C : List Addr) (hn : thread ∉ rest) :
    (((thread :: rest).filter (fun th => decide (th ∉ thread :: K))).map
      (fun th => ((fun a => if a = thread then C else Cs a) th).length)).sum
    = ((rest.filter (fun th => decide (th ∉ K))).map (fun th => (Cs th).length)).sum := by
  have e1 : (thread :: rest).filter (fun th => decide (th ∉ thread :: K))
      = rest.filter (fun th => decide (th ∉ K)) := by
    rw [List.filter_cons_of_neg (by simp)]
    apply List.filter_congr
    intro a ha
    have hne : a ≠ thread := fun e => hn (e ▸ ha)
    simp [hne]
  rw [e1]
  congr 1
  apply List.map_congr_left
  intro a ha
  have ha2 : a ∈ rest := (List.mem_filter.1 ha).1
  have hne : a ≠ thread := fun e => hn (e ▸ ha2)
  simp only [hne, if_false]

/-- The work counted for the removed threads, when one more thread is
removed. -/
theorem removed_sum_removed (thread : Addr) (rest K : List Addr) (Cs : Addr → List Addr)
    (C : List Addr) (hn : thread ∉ rest) (hK : thread ∉ K) :
    (((thread :: rest).filter (fun th => decide (th ∉ K))).map
      (fun th => ((fun a => if a = thread then C else Cs a) th).length)).sum
    = C.length + ((rest.filter (fun th => decide (th ∉ K))).map (fun th => (Cs th).length)).sum := by
  rw [List.filter_cons_of_pos (by simpa using hK)]
  simp only [List.map_cons, List.sum_cons, if_true]
  congr 2
  apply List.map_congr_left
  intro a ha
  have ha2 : a ∈ rest := (List.mem_filter.1 ha).1
  have hne : a ≠ thread := fun e => hn (e ▸ ha2)
  simp only [hne, if_false]

/-- The outer loop of `remarkupvals`, from the pointer `p` whose content is
the list `R` of threads: it returns; the list at `p` afterwards is a sublist
`K` of `R`; the kept threads are not white and have open upvalues; a thread
that was not white and has open upvalues is kept; a removed thread points to
itself, and the values of its upvalues that are not white are not white
afterwards; the work is one for each thread and one for each open upvalue of
a removed thread. -/
theorem remarkupvals_loop_spec (U : List Addr) : ∀ (R : List Addr) (fuel : Nat)
    (g : global_State) (p : Option Addr) (work : Nat) (cur : Option Addr),
    WF g → (∀ a x, g.heap a = some x → a ∈ U) →
    g.load_twups p = some cur → IsTwList g.heap cur R →
    (∀ q, p = some q → q ∉ R) → R.length + U.length < fuel →
    ∃ (g2 : global_State) (K : List Addr) (Cs : Addr → List Addr) (c2 : Option Addr),
      remarkupvals_loop fuel g p work
        = some (g2, work + R.length +
            ((R.filter (fun th => decide (th ∉ K))).map (fun th => (Cs th).length)).sum) ∧
      Mk (fun _ => True) g g2 ∧
      g2.load_twups p = some c2 ∧ IsTwList g2.heap c2 K ∧ K.Sublist R ∧
      (p ≠ none → g2.twups = g.twups) ∧
      (∀ a, a ∉ R → p ≠ some a → twOf g2.heap a = twOf g.heap a) ∧
      (∀ th, th ∈ R → OpenUps g.heap th (Cs th)) ∧
      (∀ th, th ∈ K → whiteIn g2.heap th = false ∧ Cs th ≠ []) ∧
      (∀ th, th ∈ R → whiteIn g.heap th = false → Cs th ≠ [] → th ∈ K) ∧
      (∀ th, th ∈ R → th ∉ K → twOf g2.heap th = some (some th) ∧
        ∀ uv u v r, uv ∈ Cs th → g.heap uv = some u → iswhite u.marked = false →
          g.upvalue_v u = some v → gcvalueN v = some r → whiteIn g2.heap r = false) := by
  intro R
  induction R with
  | nil =>
    intro fuel g p work cur _ _ hp hl _ hf
    have e : cur = none := hl
    subst e
    cases fuel with
    | zero => omega
    | succ f =>
      refine ⟨g, [], fun _ => [], none, ?_, mk_refl _ g, hp, rfl, List.Sublist.refl _,
        fun _ => rfl, fun _ _ _ => rfl, fun _ k => (by cases k), fun _ k => (by cases k),
        fun _ k => (by cases k), fun _ k => (by cases k)⟩
      rw [remarkupvals_loop]
      simp only [Option.bind_eq_bind, hp, Option.some_bind]
      rfl
  | cons thread rest ih =>
    intro fuel g p work cur hwf hU hp hl hpR hf
    have hnd : (thread :: rest).Nodup := isTwList_nodup _ _ _ hl
    have hn : thread ∉ rest := (List.nodup_cons.1 hnd).1
    obtain ⟨e, t, ht, hrest⟩ := hl
    subst e
    obtain ⟨C, hC⟩ := (hwf thread t ht).opened
    have hCo : OpenUps g.heap thread C := ⟨t, ht, hC⟩
    cases fuel with
    | zero => omega
    | succ f =>
      simp only [List.length_cons] at hf
      by_cases hcond : (!iswhite t.marked && t.openupval != none) = true
      · -- the thread is kept
        have hcond2 := hcond
        simp only [Bool.and_eq_true, Bool.not_eq_true', bne_iff_ne, ne_eq] at hcond2
        obtain ⟨hw, hop⟩ := hcond2
        have hp1 : g.load_twups (some thread) = some t.twups := by
          show (g.heap thread).map _ = _
          rw [ht]
          rfl
        obtain ⟨g2, K, Cs, c2, e2, m2, l2, t2, s2, f1, f2, o2, k2, n2, r2⟩ :=
          ih f g (some thread) (work + 1) t.twups hwf hU hp1 hrest
            (fun q hq => by cases hq; exact hn) (by omega)
        have hl2 : (g2.heap thread).map (fun o => o.twups) = some c2 := l2
        simp only [Option.map_eq_some'] at hl2
        obtain ⟨t2o, ht2o, etw⟩ := hl2
        refine ⟨g2, thread :: K, fun a => if a = thread then C else Cs a, some thread, ?_, m2,
          ?_, ⟨rfl, t2o, ht2o, by rw [etw]; exact t2⟩, List.Sublist.cons₂ _ s2,
          fun _ => f1 (by simp), ?_, ?_, ?_, ?_, ?_⟩
        · rw [remarkupvals_loop]
          simp only [Option.bind_eq_bind, hp, Option.some_bind, ht]
          rw [if_pos hcond, e2, removed_sum_kept thread rest K Cs C hn]
          simp only [List.length_cons]
          have ea : ∀ s : Nat, work + 1 + rest.length + s = work + (rest.length + 1) + s := by
            intro s
            omega
          rw [ea]
        · cases p with
          | none =>
            show some g2.twups = _
            rw [f1 (by simp)]
            exact hp
          | some q =>
            have hq : q ∉ thread :: rest := hpR q rfl
            have k := f2 q (fun k => hq (List.mem_cons_of_mem _ k))
              (fun k => hq (by cases k; exact List.mem_cons_self _ _))
            show twOf g2.heap q = _
            rw [k]
            exact hp
        · intro a ha hpa
          exact f2 a (fun k => ha (List.mem_cons_of_mem _ k))
            (fun k => ha (by cases k; exact List.mem_cons_self _ _))
        · intro th hth
          by_cases e : th = thread
          · subst e
            simp only [if_true]
            exact hCo
          · simp only [e, if_false]
            rcases List.mem_cons.1 hth with k | k
            · exact absurd k e
            · exact o2 th k
        · intro th hth
          by_cases e : th = thread
          · subst e
            simp only [if_true]
            refine ⟨mk_nonwhite _ g g2 m2 th (by rw [whiteIn_some _ _ _ ht]; exact hw), ?_⟩
            intro k
            exact hop ((openUps_nil _ _ _ _ ht hCo).1 k)
          · simp only [e, if_false]
            rcases List.mem_cons.1 hth with k | k
            · exact absurd k e
            · exact k2 th k
        · intro th hth hwh hne
          by_cases e : th = thread
          · subst e
            exact List.mem_cons_self _ _
          · simp only [e, if_false] at hne
            rcases List.mem_cons.1 hth with k | k
            · exact absurd k e
            · exact List.mem_cons_of_mem _ (n2 th k hwh hne)
        · intro th hth hnk
          have e : th ≠ thread := fun e => hnk (by rw [e]; exact List.mem_cons_self _ _)
          simp only [e, if_false]
          rcases List.mem_cons.1 hth with k | k
          · exact absurd k e
          · exact r2 th k (fun k2 => hnk (List.mem_cons_of_mem _ k2))
      · -- the thread is removed
        have hempty : iswhite t.marked = false → C = [] := by
          intro hw
          apply (openUps_nil _ _ _ _ ht hCo).2
          by_contra hop
          apply hcond
          simp only [hw, Bool.not_false, Bool.true_and, bne_iff_ne, ne_eq]
          exact hop
        obtain ⟨g1, e1, m1, l1, tw1, same1⟩ := store_twups_spec g p (some thread) t.twups hp
        have hpt : p ≠ some thread := fun k => hpR thread k (List.mem_cons_self _ _)
        have ht1 : g1.heap thread = some t := (same1 thread hpt).trans ht
        have key : remarkupvals_loop (f + 1) g p work
            = (remarkupvals_uvs f (g1.setobj thread { t with twups := some thread })
                t.openupval (work + 1)).bind (fun r => remarkupvals_loop f r.1 p r.2) := by
          rw [remarkupvals_loop]
          simp only [Option.bind_eq_bind, hp, Option.some_bind, ht]
          rw [if_neg hcond]
          simp only [e1, Option.some_bind, ht1]
          have htb0 : (g1.setobj thread { t with twups := some thread }).heap thread
              = some { t with twups := some thread } := heap_set_same _ _ _
          simp only [htb0, Option.some_bind]
        obtain ⟨gb, egb⟩ : ∃ gb, gb = g1.setobj thread { t with twups := some thread } :=
          ⟨_, rfl⟩
        rw [← egb] at key
        have mb : Mk (fun _ => True) g1 gb :=
          mk_store _ g1 gb thread t { t with twups := some thread } ht1 (touch_twups t _)
            (fun _ => trivial) (by rw [egb]; rfl) (by rw [egb]; rfl)
        have m01 : Mk (fun _ => True) g gb := mk_trans_same _ _ _ _ m1 mb
        have htb : gb.heap thread = some { t with twups := some thread } := by
          rw [egb]
          exact heap_set_same _ _ _
        have twb : ∀ a, a ≠ thread → twOf gb.heap a = twOf g1.heap a := by
          intro a ha
          rw [egb]
          exact twOf_setobj_ne g1 thread a _ ha
        have tw01 : ∀ a, p ≠ some a → twOf g1.heap a = twOf g.heap a := by
          intro a ha
          unfold twOf
          rw [same1 a ha]
        have hwfb := wf_mk _ g gb m01 hwf
        have hCb : IsGSeg (uvHeap gb.heap) t.openupval C none := opened_mk _ g gb m01 C _ hC
        have hCl : C.length ≤ U.length := opened_length_le U g.heap hU C _ hC
        obtain ⟨g3, e3, s3, w3, n3⟩ :=
          remarkupvals_uvs_spec C f gb t.openupval (work + 1) hCb (by omega) hwfb
        have m3 : Mk (fun _ => True) gb g3 := mk_mono _ _ gb g3 s3.1 (fun _ _ => trivial)
        have m03 := mk_trans_same _ g gb g3 m01 m3
        have hwf3 := wf_mk _ g g3 m03 hwf
        have hU3 := mk_within U _ g g3 m03 hU
        have hp3 : g3.load_twups p = some t.twups := by
          cases p with
          | none =>
            show some g3.twups = _
            rw [w3.1]
            have k : gb.twups = g1.twups := by rw [egb]; rfl
            rw [k]
            exact l1
          | some q =>
            show twOf g3.heap q = _
            rw [w3.2 q, twb q (fun k => hpt (by rw [k]))]
            exact l1
        have hrest3 : IsTwList g3.heap t.twups rest := by
          refine isTwList_frame g.heap g3.heap rest _ (fun a ha => ?_) hrest
          have ha1 : a ≠ thread := fun k => hn (k ▸ ha)
          have ha2 : p ≠ some a := fun k => hpR a k (List.mem_cons_of_mem _ ha)
          rw [w3.2 a, twb a ha1, tw01 a ha2]
        obtain ⟨g4, K, Cs, c2, e4, m4, l4, t4, s4, f1, f2, o4, k4, n4, r4⟩ :=
          ih f g3 p (work + 1 + C.length) t.twups hwf3 hU3 hp3 hrest3
            (fun q hq k => hpR q hq (List.mem_cons_of_mem _ k)) (by omega)
        have hK : thread ∉ K := fun k => hn (s4.subset k)
        refine ⟨g4, K, fun a => if a = thread then C else Cs a, c2, ?_,
          mk_trans_same _ g g3 g4 m03 m4, l4, t4, List.Sublist.cons _ s4, ?_, ?_, ?_, ?_, ?_, ?_⟩
        · rw [key, e3]
          simp only [Option.some_bind]
          rw [e4, removed_sum_removed thread rest K Cs C hn hK]
          simp only [List.length_cons]
          have ea : ∀ s : Nat, work + 1 + C.length + rest.length + s
              = work + (rest.length + 1) + (C.length + s) := by
            intro s
            omega
          rw [ea]
        · intro hpn
          rw [f1 hpn, w3.1]
          have k : gb.twups = g1.twups := by rw [egb]; rfl
          rw [k]
          exact tw1 hpn
        · intro a ha hpa
          have ha1 : a ≠ thread := fun k => ha (by rw [k]; exact List.mem_cons_self _ _)
          rw [f2 a (fun k => ha (List.mem_cons_of_mem _ k)) hpa, w3.2 a, twb a ha1, tw01 a hpa]
        · intro th hth
          by_cases e : th = thread
          · subst e
            simp only [if_true]
            exact hCo
          · simp only [e, if_false]
            rcases List.mem_cons.1 hth with k | k
            · exact absurd k e
            · exact openUps_back _ g g3 m03 hwf th (Cs th) (o4 th k)
        · intro th hth
          have e : th ≠ thread := fun e => hK (e ▸ hth)
          simp only [e, if_false]
          exact k4 th hth
        · intro th hth hwh hne
          by_cases e : th = thread
          · subst e
            simp only [if_true] at hne
            rw [whiteIn_some _ _ _ ht] at hwh
            exact absurd (hempty hwh) hne
          · simp only [e, if_false] at hne
            rcases List.mem_cons.1 hth with k | k
            · exact absurd k e
            · exact n4 th k (mk_nonwhite _ g g3 m03 th hwh) hne
        · intro th hth hnk
          by_cases e : th = thread
          · subst e
            simp only [if_true]
            refine ⟨?_, ?_⟩
            · rw [f2 th hn hpt, w3.2 th]
              unfold twOf
              rw [htb]
              rfl
            · intro uv u v r huv hu hw hv hr
              obtain ⟨ub, hub, tub⟩ := mk_live _ g gb m01 uv u hu
              have ev := upvalue_v_mk _ g gb m01 hwf uv u ub hu hub
              exact mk_nonwhite _ g3 g4 m4 r
                (n3 uv ub v r huv hub (tub.2.1 hw) (ev.trans hv) hr)
          · simp only [e, if_false]
            rcases List.mem_cons.1 hth with k | k
            · exact absurd k e
            · obtain ⟨q1, q2⟩ := r4 th k hnk
              refine ⟨q1, ?_⟩
              intro uv u v r huv hu hw hv hr
              obtain ⟨u3, hu3, tu3⟩ := mk_live _ g g3 m03 uv u hu
              have ev := upvalue_v_mk _ g g3 m03 hwf uv u u3 hu hu3
              exact q2 uv u3 v r huv hu3 (tu3.2.1 hw) (ev.trans hv) hr

/-- A sublist of a list without duplicates that holds exactly the elements
that satisfy `P` is the list filtered by `P`. -/
theorem sublist_eq_filter (P : Addr → Bool) : ∀ (K R : List Addr), K.Sublist R → R.Nodup →
    (∀ a, a ∈ K → P a = true) → (∀ a, a ∈ R → P a = true → a ∈ K) → K = R.filter P := by
  intro K R hs
  induction hs with
  | slnil => intro _ _ _; rfl
  | cons a hs ih =>
    intro hnd h1 h2
    rename_i K0 R0
    have hnd2 := List.nodup_cons.1 hnd
    have ha : a ∉ K0 := fun k => hnd2.1 (hs.subset k)
    have hP : P a = false := by
      cases hp : P a with
      | false => rfl
      | true => exact absurd (h2 a (List.mem_cons_self _ _) hp) ha
    rw [List.filter_cons_of_neg (by simp [hP])]
    exact ih hnd2.2 h1 (fun b hb hp => h2 b (List.mem_cons_of_mem _ hb) hp)
  | cons₂ a hs ih =>
    intro hnd h1 h2
    rename_i K0 R0
    have hnd2 := List.nodup_cons.1 hnd
    rw [List.filter_cons_of_pos (h1 a (List.mem_cons_self _ _))]
    congr 1
    refine ih hnd2.2 (fun b hb => h1 b (List.mem_cons_of_mem _ hb)) (fun b hb hp => ?_)
    rcases List.mem_cons.1 (h2 b (List.mem_cons_of_mem _ hb) hp) with k | k
    · exact absurd (k ▸ hb) hnd2.1
    · exact k

/-- C38, amended. On a well-formed memory whose objects are among `U` and
whose `twups` list is `R`, with more fuel than `R` and `U` are long,
`remarkupvals` returns. With `Cs th` the list of open upvalues of each thread
`th` of `R`: the `twups` list afterwards is a sublist `K` of `R` (the same
order); every thread of `K` is non-white on return and has an open upvalue;
every thread of `R` that is non-white on entry and has an open upvalue is in
`K`; so `K` holds exactly the non-white threads with an open upvalue when the
call changes the colour of no thread of `R`. Every removed thread has its
`twups` field pointing to itself, and the value of each of its open upvalues
that is not white is not white afterwards. The work is the number of threads
of `R` plus the number of open upvalues of the removed threads. -/
theorem remarkupvals_spec (U R : List Addr) (g : global_State) (fuel : Nat)
    (hwf : WF g) (hU : ∀ a x, g.heap a = some x → a ∈ U)
    (hR : IsTwList g.heap g.twups R) (hfuel : R.length + U.length < fuel) :
    ∃ (g2 : global_State) (K : List Addr) (Cs : Addr → List Addr),
      remarkupvals fuel g = some (g2, R.length +
        ((R.filter (fun th => decide (th ∉ K))).map (fun th => (Cs th).length)).sum) ∧
      IsTwList g2.heap g2.twups K ∧ K.Sublist R ∧
      (∀ th, th ∈ R → OpenUps g.heap th (Cs th)) ∧
      (∀ th, th ∈ K → whiteIn g2.heap th = false ∧ Cs th ≠ []) ∧
      (∀ th, th ∈ R → whiteIn g.heap th = false → Cs th ≠ [] → th ∈ K) ∧
      ((∀ th, th ∈ R → whiteIn g2.heap th = whiteIn g.heap th) →
        K = R.filter (fun th => !whiteIn g.heap th && !(Cs th).isEmpty)) ∧
      (∀ th, th ∈ R → th ∉ K → twOf g2.heap th = some (some th) ∧
        ∀ uv u v r, uv ∈ Cs th → g.heap uv = some u → iswhite u.marked = false →
          g.upvalue_v u = some v → gcvalueN v = some r → whiteIn g2.heap r = false) := by
  obtain ⟨g2, K, Cs, c2, e, -, l2, t2, s2, -, -, o2, k2, n2, r2⟩ :=
    remarkupvals_loop_spec U R fuel g none 0 g.twups hwf hU rfl hR
      (fun q hq => by cases hq) hfuel
  have ec : g2.twups = c2 := Option.some.inj l2
  refine ⟨g2, K, Cs, ?_, by rw [ec]; exact t2, s2, o2, k2, n2, ?_, r2⟩
  · unfold remarkupvals
    rw [e, Nat.zero_add]
  · intro hsame
    refine sublist_eq_filter _ K R s2 (isTwList_nodup _ _ _ hR) (fun a ha => ?_)
      (fun a ha hp => ?_)
    · obtain ⟨q1, q2⟩ := k2 a ha
      rw [← hsame a (s2.subset ha), q1]
      cases hc : Cs a with
      | nil => exact absurd hc q2
      | cons b l => rfl
    · simp only [Bool.and_eq_true, Bool.not_eq_true', List.isEmpty_eq_false] at hp
      refine n2 a ha hp.1 (fun k => ?_)
      rw [k] at hp
      exact absurd rfl hp.2

theorem exTw_wf : WF exTw := by
  intro a x hx
  have hx2 : exTwHeap a = some x := hx
  unfold exTwHeap at hx2
  split_ifs at hx2 with h1 h2 h3 h4 h5 h6
  · cases hx2
    refine { wfObj_leaf exTw.heap .LUA_VTHREAD 8 (some 2) with stack := ?_, opened := ?_ }
    · intro s hs i v hi hv t r e
      cases hs
      have hi0 : i = 0 := by
        have k : i < 1 := hi
        omega
      subst hi0
      cases hv
      cases e
      exact ⟨_, rfl, by decide⟩
    · exact ⟨[4], rfl, _, rfl, rfl⟩
  · cases hx2
    refine { wfObj_leaf exTw.heap .LUA_VTHREAD 8 (some 3) with stack := ?_, opened := ?_ }
    · intro s hs i v hi hv t r e
      cases hs
      have hi0 : i = 0 := by
        have k : i < 1 := hi
        omega
      subst hi0
      cases hv
      cases e
    · exact ⟨[5], rfl, _, rfl, rfl⟩
  · cases hx2
    refine { wfObj_leaf exTw.heap .LUA_VTHREAD 8 (some 4) with stack := ?_, opened := ?_ }
    · intro s hs i v hi hv t r e
      cases hs
      have hi0 : i = 0 := by
        have k : i < 1 := hi
        omega
      subst hi0
      cases hv
      cases e
      exact ⟨_, rfl, by decide⟩
    · exact ⟨[6], rfl, _, rfl, rfl⟩
  · cases hx2
    refine { wfObj_leaf exTw.heap .LUA_VUPVAL 0 (some 5) with value := ?_, slot := ?_ }
    · intro k
      cases k
    · intro th idx k
      cases k
      exact ⟨_, _, _, rfl, rfl, by decide, rfl⟩
  · cases hx2
    refine { wfObj_leaf exTw.heap .LUA_VUPVAL 8 (some 6) with value := ?_, slot := ?_ }
    · intro k
      cases k
    · intro th idx k
      cases k
      exact ⟨_, _, _, rfl, rfl, by decide, rfl⟩
  · cases hx2
    refine { wfObj_leaf exTw.heap .LUA_VUPVAL 0 none with value := ?_, slot := ?_ }
    · intro k
      cases k
    · intro th idx k
      cases k
      exact ⟨_, _, _, rfl, rfl, by decide, rfl⟩

theorem exTw_within : ∀ a x, exTw.heap a = some x → a ∈ [1, 2, 3, 4, 5, 6] := by
  intro a x hx
  have hx2 : exTwHeap a = some x := hx
  unfold exTwHeap at hx2
  split_ifs at hx2 with h1 h2 h3 h4 h5 h6 <;> simp [*]

/-- Witness for C38: `remarkupvals` on `exTw` returns, and the threads left
on `twups` are threads of the list on entry, not white on return. -/
theorem remarkupvals_spec_witness :
    ∃ g2 w K, remarkupvals 10 exTw = some (g2, w) ∧ IsTwList g2.heap g2.twups K ∧
      K.Sublist [1, 2, 3] ∧ ∀ th, th ∈ K → whiteIn g2.heap th = false := by
  obtain ⟨g2, K, Cs, e, hl, hs, -, hk, -⟩ :=
    remarkupvals_spec [1, 2, 3, 4, 5, 6] [1, 2, 3] exTw 10 exTw_wf exTw_within
      ⟨rfl, _, rfl, rfl, _, rfl, rfl, _, rfl, rfl⟩ (by decide)
  exact ⟨g2, _, K, e, hl, hs, fun th hth => (hk th hth).1⟩

/-- Counterexample to C38 as stated: in `exTw` the three threads of `twups`
are white and each has an open upvalue. The loop removes thread 1, marks
thread 2 as the value of the gray upvalue 4, keeps thread 2, removes thread 3
and marks thread 1 as the value of the gray upvalue 6. The list afterwards is
thread 2 alone: a thread that was white on entry; and thread 1, not white on
return and with an open upvalue, is not on it. -/
theorem remarkupvals_spec_counterexample :
    ∃ g2, remarkupvals 10 exTw = some (g2, 5) ∧ IsTwList g2.heap g2.twups [2] ∧
      IsTwList exTw.heap exTw.twups [1, 2, 3] ∧
      whiteIn exTw.heap 1 = true ∧ whiteIn exTw.heap 2 = true ∧ whiteIn exTw.heap 3 = true ∧
      OpenUps exTw.heap 1 [4] ∧ OpenUps exTw.heap 2 [5] ∧ OpenUps exTw.heap 3 [6] ∧
      whiteIn g2.heap 1 = false ∧ whiteIn g2.heap 2 = false ∧ whiteIn g2.heap 3 = true := by
  have k : (remarkupvals 10 exTw).bind (fun r => (r.1.heap 2).map (fun x =>
      (r.2, r.1.twups, x.twups, whiteIn r.1.heap 1, whiteIn r.1.heap 2, whiteIn r.1.heap 3)))
      = some (5, some 2, none, false, false, true) := by rfl
  simp only [Option.bind_eq_some, Option.map_eq_some', Prod.mk.injEq] at k
  obtain ⟨⟨g2, w⟩, er, x, ex, k1, k2, k3, k4, k5, k6⟩ := k
  have k1 : w = 5 := k1
  subst k1
  have k2 : g2.twups = some 2 := k2
  refine ⟨g2, er, ⟨k2, x, ex, k3⟩, ⟨rfl, _, rfl, rfl, _, rfl, rfl, _, rfl, rfl⟩, rfl, rfl, rfl,
    ⟨_, rfl, rfl, _, rfl, rfl⟩, ⟨_, rfl, rfl, _, rfl, rfl⟩, ⟨_, rfl, rfl, _, rfl, rfl⟩,
    k4, k5, k6⟩

/-! ## What a mark paints -/

theorem linkobjgclist_outside (g g2 : global_State) (o : Addr) (l : GrayList)
    (h : linkobjgclist g o l = some g2) : ∀ a, a ≠ o → g2.heap a = g.heap a := by
  unfold linkobjgclist linkgclist_ at h
  simp only [Option.bind_eq_bind, Option.bind_eq_some] at h
  obtain ⟨x, hx, pn, hpn, y, hy, z, hz, h⟩ := h
  cases h
  have epn : pn = o := by
    unfold getgclist at hpn
    split at hpn <;> first | exact (Option.some.inj hpn).symm | cases hpn
  subst epn
  intro a ha
  show Heap.set _ pn _ a = _
  rw [heap_set_ne _ _ _ _ ha]
  have e : ((g.setobj pn { y with gclist := g.getlist l }).setlist l (some pn)).heap
      = (g.setobj pn { y with gclist := g.getlist l }).heap := by
    cases l <;> rfl
  rw [e]
  show Heap.set g.heap pn _ a = _
  exact heap_set_ne _ _ _ _ ha

theorem markobject_with_outside (mark : global_State → Addr → Option global_State)
    (P : Addr → Prop) (g g2 : global_State) (t : Addr)
    (hmark : ∀ g2, mark g t = some g2 → ∀ a, P a → g2.heap a = g.heap a)
    (h : markobject_with mark g t = some g2) : ∀ a, P a → g2.heap a = g.heap a := by
  unfold markobject_with at h
  simp only [Option.bind_eq_bind, Option.bind_eq_some] at h
  obtain ⟨x, -, h⟩ := h
  split at h
  · exact hmark _ h
  · cases h
    exact fun _ _ => rfl

/-- Marking a table paints the table only. -/
theorem markrec_table_outside (n : Nat) (g g2 : global_State) (o : Addr) (x : GCObject)
    (hx : g.heap o = some x) (ht : x.tt = .LUA_VTABLE) (h : markrec (n + 1) g o = some g2) :
    ∀ a, a ≠ o → g2.heap a = g.heap a := by
  rw [markrec] at h
  simp only [Option.bind_eq_bind, hx, Option.some_bind, ht] at h
  exact linkobjgclist_outside _ _ _ _ h

/-- Marking an object that is not an upvalue paints the object and, when it
is a userdata without user values, its metatable; every other object is the
same. -/
theorem reallymarkobject_outside (g g2 : global_State) (o : Addr) (x : GCObject) (hwf : WF g)
    (hx : g.heap o = some x) (hk : x.tt ≠ .LUA_VUPVAL) (h : reallymarkobject g o = some g2) :
    ∀ a, ¬ inFoot g.heap o a → g2.heap a = g.heap a := by
  intro a ha
  have hao : a ≠ o := fun e => ha (Or.inl e)
  unfold reallymarkobject at h
  rw [markrec] at h
  simp only [Option.bind_eq_bind, hx, Option.some_bind] at h
  split at h
  · cases h
    exact heap_set_ne _ _ _ _ hao
  · cases h
    exact heap_set_ne _ _ _ _ hao
  · rename_i hu
    exact absurd hu hk
  · rename_i hu
    split at h
    · rename_i huv
      split at h
      · cases h
        exact heap_set_ne _ _ _ _ hao
      · rename_i mt hmt
        simp only [Option.bind_eq_some] at h
        obtain ⟨g1, h1, y, -, h⟩ := h
        cases h
        show Heap.set g1.heap o _ a = _
        rw [heap_set_ne _ _ _ _ hao]
        have hamt : a ≠ mt := fun e => ha (Or.inr ⟨x, hx, hu, huv, by rw [hmt, e]⟩)
        obtain ⟨ym, hym, htm, -⟩ := (hwf o x hx).metatable mt hmt
        exact markobject_with_outside _ (fun b => b ≠ mt) g g1 mt
          (fun g3 k => markrec_table_outside 1 g g3 mt ym hym htm k) h1 a hamt
    · exact linkobjgclist_outside _ _ _ _ h a hao
  · exact linkobjgclist_outside _ _ _ _ h a hao

theorem markobject_outside (g g2 : global_State) (o : Addr) (x : GCObject) (hwf : WF g)
    (hx : g.heap o = some x) (hk : x.tt ≠ .LUA_VUPVAL) (h : markobject g o = some g2) :
    ∀ a, ¬ inFoot g.heap o a → g2.heap a = g.heap a :=
  fun a ha => markobject_with_outside _ (fun b => ¬ inFoot g.heap o b) g g2 o
    (fun g3 k => reallymarkobject_outside g g3 o x hwf hx hk k) h a ha

theorem markvalue_outside (g g2 : global_State) (v : TValue) (hwf : WF g)
    (hv : ValOK g.heap v) (h : markvalue g v = some g2) :
    ∀ a, (∀ r, gcvalueN v = some r → ¬ inFoot g.heap r a) → g2.heap a = g.heap a := by
  intro a ha
  cases v with
  | gc t r =>
    obtain ⟨y, hy, hk⟩ := hv t r rfl
    exact markobject_outside g g2 r y hwf hy hk h a (ha r rfl)
  | nil => cases h; rfl
  | empty => cases h; rfl
  | prim n => cases h; rfl

theorem markkey_outside (g g2 : global_State) (nd : Node) (hwf : WF g)
    (hk : ∀ r, gckeyN nd = some r → ∃ y, g.heap r = some y ∧ y.tt ≠ .LUA_VUPVAL)
    (h : markkey g nd = some g2) :
    ∀ a, (∀ r, gckeyN nd = some r → ¬ inFoot g.heap r a) → g2.heap a = g.heap a := by
  intro a ha
  unfold markkey at h
  split at h
  · rename_i t r hkey
    have e : gckeyN nd = some r := by
      unfold gckeyN
      rw [hkey]
    obtain ⟨y, hy, hyk⟩ := hk r e
    exact markobject_outside g g2 r y hwf hy hyk h a (ha r e)
  · cases h
    rfl

/-- The test `iscleared` paints at most the string it is given. -/
theorem iscleared_outside (g g2 : global_State) (o : Option Addr) (c : Bool) (hwf : WF g)
    (h : iscleared g o = some (g2, c)) :
    ∀ a, (∀ r y, o = some r → g.heap r = some y → novariant y.tt = LUA_TSTRING → a ≠ r) →
      g2.heap a = g.heap a := by
  intro a ha
  unfold iscleared at h
  split at h
  · cases h
    rfl
  · rename_i r
    simp only [Option.bind_eq_bind, Option.bind_eq_some] at h
    obtain ⟨x, hx, h⟩ := h
    split at h
    · rename_i hs
      simp only [Option.bind_eq_some] at h
      obtain ⟨g1, h1, h⟩ := h
      simp only [Option.some.injEq, Prod.mk.injEq] at h
      obtain ⟨rfl, -⟩ := h
      have hne := ha r x rfl hx hs
      refine markobject_outside g g1 r x hwf hx ?_ h1 a ?_
      · intro e
        rw [e] at hs
        exact absurd hs (by decide)
      · rintro (e | ⟨y, hy, hu, -⟩)
        · exact hne e
        · rw [hx] at hy
          cases hy
          rw [hu] at hs
          exact absurd hs (by decide)
    · simp only [Option.some.injEq, Prod.mk.injEq] at h
      obtain ⟨rfl, -⟩ := h
      rfl

/-! ## The strong traversal of a table: what it leaves -/

theorem isblack_nw2black (m : Nat) : isblack (nw2black m) = true := by
  unfold isblack testbit testbits nw2black l_setbit setbits
  have h : (m ||| bitmask BLACKBIT) &&& bitmask BLACKBIT = bitmask BLACKBIT := by
    apply Nat.eq_of_testBit_eq
    intro i
    simp only [Nat.testBit_and, Nat.testBit_or]
    cases (m.testBit i) <;> cases (Nat.testBit (bitmask BLACKBIT) i) <;> rfl
  rw [h]
  decide

theorem drop_get? (l : List Node) : ∀ (i : Nat) (nd : Node), l.get? i = some nd →
    l.drop i = nd :: l.drop (i + 1) := by
  induction l with
  | nil => intro i nd h; cases h
  | cons a l ih =>
    intro i nd h
    cases i with
    | zero =>
      cases h
      rfl
    | succ i => exact ih i nd h

/-- The nodes after the loops have visited node `i`, which they rewrote. -/
theorem nodes_step_set (f : Node → Node) (l : List Node) : ∀ (i : Nat) (nd : Node),
    l.get? i = some nd →
    (l.set i (f nd)).take (i + 1) ++ ((l.set i (f nd)).drop (i + 1)).map f
      = l.take i ++ (l.drop i).map f := by
  induction l with
  | nil => intro i nd h; cases h
  | cons a l ih =>
    intro i nd h
    cases i with
    | zero =>
      cases h
      rfl
    | succ i =>
      have k := ih i nd h
      simp only [List.set_cons_succ, List.take_succ_cons, List.drop_succ_cons, List.cons_append]
      rw [k]

/-- The nodes after the loops have visited node `i`, which they kept. -/
theorem nodes_step_keep (f : Node → Node) (l : List Node) : ∀ (i : Nat) (nd : Node),
    l.get? i = some nd → f nd = nd →
    l.take (i + 1) ++ (l.drop (i + 1)).map f = l.take i ++ (l.drop i).map f := by
  induction l with
  | nil => intro i nd h; cases h
  | cons a l ih =>
    intro i nd h hf
    cases i with
    | zero =>
      cases h
      simp only [List.take_succ_cons, List.take_zero, List.drop_succ_cons, List.drop_zero,
        List.cons_append, List.nil_append, List.map_cons, hf]
    | succ i =>
      have k := ih i nd h hf
      simp only [List.take_succ_cons, List.drop_succ_cons, List.cons_append]
      rw [k]

theorem set_drop_succ (l : List Node) (c : Node) : ∀ (i : Nat),
    (l.set i c).drop (i + 1) = l.drop (i + 1) := by
  induction l with
  | nil => intro i; rfl
  | cons a l ih =>
    intro i
    cases i with
    | zero => rfl
    | succ i => exact ih i

/-- The hash loop of `traversestrongtable` from node `i`: it returns; the
table has the nodes it had, those from `i` on with the key of an empty entry
cleared; the key and the value of every other entry from `i` on are not
white. -/
theorem traversestrongtable_loop_post (h : Addr) : ∀ (n i : Nat) (g : global_State)
    (t : GCObject), WF g → g.heap h = some t → iswhite t.marked = false →
    i + n = t.node.length →
    ∃ g2, traversestrongtable_loop h n i g = some g2 ∧ Step (fun a => a = h) [] g g2 ∧
      g2.heap h = some { t with
        node := t.node.take i ++
          (t.node.drop i).map (fun nd => if isempty nd.i_val then clearkey nd else nd) } ∧
      ∀ nd, nd ∈ t.node.drop i → isempty nd.i_val = false →
        (∀ r, gckeyN nd = some r → whiteIn g2.heap r = false) ∧
        (∀ r, gcvalueN nd.i_val = some r → whiteIn g2.heap r = false) := by
  intro n
  induction n with
  | zero =>
    intro i g t _ ht _ hlen
    refine ⟨g, rfl, step_refl _ g, ?_, ?_⟩
    · have e1 : t.node.take i = t.node := List.take_of_length_le (by omega)
      have e2 : t.node.drop i = [] := List.drop_eq_nil_of_le (by omega)
      rw [e1, e2, List.map_nil, List.append_nil]
      exact ht
    · intro nd hnd
      have e2 : t.node.drop i = [] := List.drop_eq_nil_of_le (by omega)
      rw [e2] at hnd
      cases hnd
  | succ n ih =>
    intro i g t hwf ht hnw hlen
    obtain ⟨nd, hnd, hmem⟩ := node_at t i n hlen
    have hdrop := drop_get? t.node i nd hnd
    rw [traversestrongtable_loop]
    simp only [ht, Option.bind_eq_bind, Option.some_bind, hnd]
    have hS := subject_nonwhite g h t ht hnw
    cases he : isempty nd.i_val with
    | true =>
      rw [if_pos rfl]
      obtain ⟨s1, -⟩ := clearkey_step g h t i nd ht hnw hnd he
      obtain ⟨g2, e2, s2, o2, p2⟩ := ih (i + 1) _ { t with node := t.node.set i (clearkey nd) }
        (step_wf _ _ g _ s1 hwf) (heap_set_same _ _ _) hnw
        (by rw [show ({ t with node := t.node.set i (clearkey nd) } : GCObject).node.length
          = t.node.length from List.length_set _ _ _]; omega)
      refine ⟨g2, e2, step_trans _ [] g _ g2 hS s1 s2, ?_, ?_⟩
      · rw [o2]
        have hc : (fun nd : Node => if isempty nd.i_val then clearkey nd else nd) nd
            = clearkey nd := by
          simp only [he, if_true]
        have k := nodes_step_set (fun nd : Node => if isempty nd.i_val then clearkey nd else nd)
          t.node i nd hnd
        rw [hc] at k
        show some { t with node := _ } = some { t with node := _ }
        rw [k]
      · intro nd2 hnd2 he2
        rw [hdrop] at hnd2
        rcases List.mem_cons.1 hnd2 with k | k
        · rw [k, he] at he2
          cases he2
        · refine p2 nd2 ?_ he2
          show nd2 ∈ (t.node.set i (clearkey nd)).drop (i + 1)
          rw [set_drop_succ]
          exact k
    | false =>
      rw [if_neg (by decide)]
      obtain ⟨g1, e1, s1, n1⟩ := markkey_step g nd hwf ((hwf h t ht).nodekey nd hmem)
      have hwf1 := step_wf _ _ g g1 s1 hwf
      obtain ⟨g2, e2, s2, n2⟩ := markvalue_step g1 nd.i_val hwf1
        (valOK_mk _ g g1 s1.1 _ ((hwf h t ht).nodeval nd hmem))
      have s12 := step_false_trans g g1 g2 s1 s2
      have ht2 : g2.heap h = some t := by
        rw [mk_same _ g g2 s12.1 h (fun k => k) (hS h rfl)]
        exact ht
      obtain ⟨g3, e3, s3, o3, p3⟩ := ih (i + 1) g2 t (step_wf _ _ g1 g2 s2 hwf1) ht2 hnw
        (by omega)
      refine ⟨g3, ?_, step_trans0 _ [] g g2 g3 hS s12 s3, ?_, ?_⟩
      · simp only [e1, Option.some_bind, e2]
        exact e3
      · rw [o3]
        have k := nodes_step_keep (fun nd : Node => if isempty nd.i_val then clearkey nd else nd)
          t.node i nd hnd (by simp only [he, Bool.false_eq_true, if_false])
        rw [k]
      · intro nd2 hnd2 he2
        rw [hdrop] at hnd2
        rcases List.mem_cons.1 hnd2 with k | k
        · subst k
          exact ⟨fun r hr => mk_nonwhite _ g2 g3 s3.1 r (mk_nonwhite _ g1 g2 s2.1 r (n1 r hr)),
            fun r hr => mk_nonwhite _ g2 g3 s3.1 r (n2 r hr)⟩
        · exact p3 nd2 k he2

/-- In a state where the age of `o` is not `G_TOUCHED1`, `genlink` keeps
`o` black, with its nodes, and every other object as it was. -/
theorem genlink_post (g : global_State) (o : Addr) (x : GCObject) (hx : g.heap o = some x)
    (hage : getage x.marked ≠ G_TOUCHED1) :
    ∃ g2 x2, genlink g o = some g2 ∧ g2.heap o = some x2 ∧
      isblack x2.marked = isblack x.marked ∧ x2.node = x.node := by
  unfold genlink
  simp only [hx, Option.bind_eq_bind, Option.some_bind, if_neg hage]
  split
  · exact ⟨_, _, rfl, heap_set_same _ _ _, isblack_changeage _, rfl⟩
  · exact ⟨g, x, rfl, hx, rfl, rfl⟩

/-- The strong traversal of a table that is not white: it returns; the
table has its nodes with the key of every empty entry cleared and, when its
age is not `G_TOUCHED1`, the black bit it had; the values of the array part
and the key and the value of every entry that is not empty are not white
afterwards. -/
theorem traversestrongtable_post (g : global_State) (h : Addr) (t : GCObject) (hwf : WF g)
    (ht : g.heap h = some t) (hnw : iswhite t.marked = false) (htab : t.tt = .LUA_VTABLE) :
    ∃ g3 t3, traversestrongtable g h = some g3 ∧ Step (fun a => a = h) [] g g3 ∧
      g3.heap h = some t3 ∧
      t3.node = t.node.map (fun nd => if isempty nd.i_val then clearkey nd else nd) ∧
      (getage t.marked ≠ G_TOUCHED1 → isblack t3.marked = isblack t.marked) ∧
      (∀ v, v ∈ t.array → ∀ r, gcvalueN v = some r → whiteIn g3.heap r = false) ∧
      ∀ nd, nd ∈ t.node → isempty nd.i_val = false →
        (∀ r, gckeyN nd = some r → whiteIn g3.heap r = false) ∧
        (∀ r, gcvalueN nd.i_val = some r → whiteIn g3.heap r = false) := by
  have hS := subject_nonwhite g h t ht hnw
  obtain ⟨g1, e1, s1, n1⟩ := markvalues_step t.array g hwf (hwf h t ht).array
  have hwf1 := step_wf _ _ g g1 s1 hwf
  have ht1 : g1.heap h = some t := by
    rw [mk_same _ g g1 s1.1 h (fun k => k) (hS h rfl)]
    exact ht
  obtain ⟨g2, e2, s2, o2, p2⟩ := traversestrongtable_loop_post h t.node.length 0 g1 t hwf1 ht1
    hnw (by omega)
  have s12 : Step (fun a => a = h) [] g g2 := step_trans0 _ [] g g1 g2 hS s1 s2
  rw [List.take_zero, List.drop_zero, List.nil_append] at o2
  rw [List.drop_zero] at p2
  obtain ⟨t2, et2⟩ : ∃ t2 : GCObject, t2 = { t with
      node := t.node.map (fun nd => if isempty nd.i_val then clearkey nd else nd) } := ⟨_, rfl⟩
  rw [← et2] at o2
  have hg2 : getgclist h t2 = some h := by
    unfold getgclist
    rw [et2]
    show (match t.tt with
      | .LUA_VTABLE => some h
      | .LUA_VLCL => some h
      | .LUA_VCCL => some h
      | .LUA_VTHREAD => some h
      | .LUA_VPROTO => some h
      | .LUA_VUSERDATA => some h
      | _ => none) = some h
    rw [htab]
  have hnw2 : iswhite t2.marked = false := by
    rw [et2]
    exact hnw
  obtain ⟨g3, e3, s3, -⟩ := genlink_step g2 h t2 o2 hg2 hnw2
  have s13 := step_trans _ [] g g2 g3 hS s12 s3
  obtain ⟨t3, ht3, tt3⟩ := mk_live _ g2 g3 s3.1 h t2 o2
  refine ⟨g3, t3, ?_, s13, ht3, ?_, ?_, ?_, ?_⟩
  · unfold traversestrongtable
    simp only [ht, Option.bind_eq_bind, Option.some_bind, e1, e2]
    exact e3
  · by_cases hage : getage t2.marked = G_TOUCHED1
    · -- the link into `grayagain` keeps the nodes
      have k : genlink g2 h = linkobjgclist g2 h .grayagain := by
        unfold genlink
        simp only [o2, Option.bind_eq_bind, Option.some_bind, if_pos hage]
      rw [k] at e3
      unfold linkobjgclist linkgclist_ at e3
      simp only [Option.bind_eq_bind, o2, Option.some_bind, hg2] at e3
      simp only [Option.bind_eq_some] at e3
      obtain ⟨z, hz, e3⟩ := e3
      cases e3
      have hz2 : Heap.set g2.heap h { t2 with gclist := g2.getlist .grayagain } h = some z := hz
      rw [heap_set_same] at hz2
      cases hz2
      have k2 : Heap.set _ h _ h = some t3 := ht3
      rw [heap_set_same] at k2
      cases k2
      rw [et2]
    · obtain ⟨ga, xa, ea, ha, -, na⟩ := genlink_post g2 h t2 o2 hage
      rw [e3] at ea
      cases ea
      rw [ht3] at ha
      cases ha
      rw [na, et2]
  · intro hage
    have hage2 : getage t2.marked ≠ G_TOUCHED1 := by
      rw [et2]
      exact hage
    obtain ⟨ga, xa, ea, ha, ba, -⟩ := genlink_post g2 h t2 o2 hage2
    rw [e3] at ea
    cases ea
    rw [ht3] at ha
    cases ha
    rw [ba, et2]
  · intro v hv r hr
    exact mk_nonwhite _ g1 g3 (step_trans _ [] g1 g2 g3
      (fun a e => by rw [e, whiteIn_some _ _ _ ht1]; exact hnw) s2 s3).1 r (n1 v hv r hr)
  · intro nd hnd he
    obtain ⟨q1, q2⟩ := p2 nd hnd he
    exact ⟨fun r hr => mk_nonwhite _ g2 g3 s3.1 r (q1 r hr),
      fun r hr => mk_nonwhite _ g2 g3 s3.1 r (q2 r hr)⟩

theorem weakmode_congr (h h2 : Heap) (t t2 : GCObject) (hm : t2.metatable = t.metatable)
    (hh : ∀ a, (h2 a).map (fun y => (y.tm_mode, y.contents))
      = (h a).map (fun y => (y.tm_mode, y.contents))) :
    weakmode h2 t2 = weakmode h t := by
  unfold weakmode
  rw [hm]
  cases t.metatable with
  | none => rfl
  | some mt =>
    have k := hh mt
    dsimp only
    cases e : h mt with
    | none =>
      rw [e] at k
      simp only [Option.map_none', Option.map_eq_none'] at k
      rw [k]
    | some y =>
      rw [e] at k
      simp only [Option.map_some', Option.map_eq_some', Prod.mk.injEq] at k
      obtain ⟨y2, e2, k1, -⟩ := k
      rw [e2]
      dsimp only
      rw [k1]
      split
      · rename_i s hs
        have ks := hh s
        cases es : h s with
        | none =>
          rw [es] at ks
          simp only [Option.map_none', Option.map_eq_none'] at ks
          rw [ks]
        | some z =>
          rw [es] at ks
          simp only [Option.map_some', Option.map_eq_some', Prod.mk.injEq] at ks
          obtain ⟨z2, ez2, -, kc⟩ := ks
          rw [ez2]
          dsimp only
          rw [kc]
      · rfl

/-- The choice of `traversetable` for a table that is read as strong: after
the mark of the metatable, the strong traversal. -/
theorem traversetable_of_strong (g : global_State) (h : Addr) (t : GCObject) (hwf : WF g)
    (ht : g.heap h = some t) (hnw : iswhite t.marked = false)
    (hs : weakmode g.heap t = (false, false)) :
    ∃ g1, markobjectN g t.metatable = some g1 ∧ Step (fun _ => False) [] g g1 ∧
      (∀ mt, t.metatable = some mt → whiteIn g1.heap mt = false) ∧
      traversetable g h = (traversestrongtable g1 h).bind
        (fun y => (y.heap h).bind fun t2 => some (y, 1 + t2.alimit + 2 * allocsizenode t2)) := by
  have hp : PtrOK g.heap t.metatable := by
    intro mt e
    obtain ⟨y, hy, -⟩ := (hwf h t ht).metatable mt e
    exact ⟨y, hy⟩
  obtain ⟨g1, e1, s1, w1⟩ := markobjectN_step g t.metatable hwf hp
  refine ⟨g1, e1, s1, w1, ?_⟩
  rcases Option.eq_none_or_eq_some t.metatable with hm | ⟨mt, hm⟩
  · have emode : gfasttm g t.metatable .TM_MODE = some none := by rw [hm]; rfl
    exact traversetable_strong_eq g h t none g1 ht emode (fun _ k => by cases k) e1
  · obtain ⟨y, hy, -, hmode⟩ := (hwf h t ht).metatable mt hm
    have emode : gfasttm g t.metatable .TM_MODE = some y.tm_mode := by
      rw [hm]
      show (g.heap mt).map _ = _
      rw [hy]
      rfl
    by_cases hshr : ∃ s, y.tm_mode = some (.gc .LUA_VSHRSTR s)
    · obtain ⟨s, hsm⟩ := hshr
      obtain ⟨z, hz⟩ := hmode _ s hsm
      obtain ⟨z1, hz1, tz1⟩ := mk_live _ g g1 s1.1 s z hz
      have ec : z1.contents = z.contents := (touch_fields _ _ tz1).2.2.2.2.2.2.2.2.2.2.2.2.2.2.2.2.2.2
      have hw : (strchr z.contents 'k', strchr z.contents 'v') = (false, false) := by
        unfold weakmode at hs
        simp only [hm, hy, hsm, hz] at hs
        exact hs
      simp only [Prod.mk.injEq] at hw
      rw [traversetable_weak_eq g h t s g1 z1 ht (emode.trans (by rw [hsm])) e1 hz1, ec, hw.1,
        hw.2]
      rfl
    · exact traversetable_strong_eq g h t y.tm_mode g1 ht emode
        (fun s k => hshr ⟨s, k⟩) e1

/-- The traversal of a table that is read as strong and is not white: it
returns; the table has its nodes with the key of every empty entry cleared
and, when its age is not `G_TOUCHED1`, the black bit it had; its metatable,
the values of the array part and the key and the value of every entry that
is not empty are not white afterwards. -/
theorem traversetable_strong_post (g : global_State) (h : Addr) (t : GCObject) (hwf : WF g)
    (ht : g.heap h = some t) (hnw : iswhite t.marked = false) (htab : t.tt = .LUA_VTABLE)
    (hs : weakmode g.heap t = (false, false)) :
    ∃ r t3, traversetable g h = some r ∧ r.1.heap h = some t3 ∧
      t3.node = t.node.map (fun nd => if isempty nd.i_val then clearkey nd else nd) ∧
      (getage t.marked ≠ G_TOUCHED1 → isblack t3.marked = isblack t.marked) ∧
      (∀ mt, t.metatable = some mt → whiteIn r.1.heap mt = false) ∧
      (∀ v, v ∈ t.array → ∀ a, gcvalueN v = some a → whiteIn r.1.heap a = false) ∧
      ∀ nd, nd ∈ t.node → isempty nd.i_val = false →
        (∀ a, gckeyN nd = some a → whiteIn r.1.heap a = false) ∧
        (∀ a, gcvalueN nd.i_val = some a → whiteIn r.1.heap a = false) := by
  have hS := subject_nonwhite g h t ht hnw
  obtain ⟨g1, e1, s1, w1, eq⟩ := traversetable_of_strong g h t hwf ht hnw hs
  have hwf1 := step_wf _ _ g g1 s1 hwf
  have ht1 : g1.heap h = some t := by
    rw [mk_same _ g g1 s1.1 h (fun k => k) (hS h rfl)]
    exact ht
  obtain ⟨g3, t3, e3, s3, ht3, n3, b3, a3, p3⟩ :=
    traversestrongtable_post g1 h t hwf1 ht1 hnw htab
  refine ⟨(g3, 1 + t3.alimit + 2 * allocsizenode t3), t3, ?_, ht3, n3, b3,
    fun mt e => mk_nonwhite _ g1 g3 s3.1 mt (w1 mt e), a3, p3⟩
  rw [eq, e3]
  simp only [Option.some_bind, ht3]

/-- The traversal of a userdata that is not white: it returns; the userdata
has, when its age is not `G_TOUCHED1`, the black bit it had; its metatable
and its user values are not white afterwards. -/
theorem traverseudata_post (g : global_State) (u : Addr) (x : GCObject) (hwf : WF g)
    (hx : g.heap u = some x) (hnw : iswhite x.marked = false) (hk : x.tt = .LUA_VUSERDATA) :
    ∃ r x3, traverseudata g u = some r ∧ r.1.heap u = some x3 ∧
      (getage x.marked ≠ G_TOUCHED1 → isblack x3.marked = isblack x.marked) ∧
      (∀ mt, x.metatable = some mt → whiteIn r.1.heap mt = false) ∧
      ∀ v, v ∈ x.uv → ∀ a, gcvalueN v = some a → whiteIn r.1.heap a = false := by
  have hS := subject_nonwhite g u x hx hnw
  have hp : PtrOK g.heap x.metatable := by
    intro mt e
    obtain ⟨y, hy, -⟩ := (hwf u x hx).metatable mt e
    exact ⟨y, hy⟩
  obtain ⟨g1, e1, s1, w1⟩ := markobjectN_step g x.metatable hwf hp
  have hwf1 := step_wf _ _ g g1 s1 hwf
  obtain ⟨g2, e2, s2, w2⟩ := markvalues_step x.uv g1 hwf1
    (fun v hv => valOK_mk _ g g1 s1.1 v ((hwf u x hx).uv v hv))
  have s12 := step_false_trans g g1 g2 s1 s2
  have hx2 : g2.heap u = some x := by
    rw [mk_same _ g g2 s12.1 u (fun k => k) (hS u rfl)]
    exact hx
  have hg2 : getgclist u x = some u := by
    unfold getgclist
    rw [hk]
  obtain ⟨g3, e3, s3, -⟩ := genlink_step g2 u x hx2 hg2 hnw
  obtain ⟨x3, hx3, -⟩ := mk_live _ g2 g3 s3.1 u x hx2
  refine ⟨(g3, 1 + x3.uv.length), x3, ?_, hx3, ?_,
    fun mt e => mk_nonwhite _ g2 g3 s3.1 mt (mk_nonwhite _ g1 g2 s2.1 mt (w1 mt e)),
    fun v hv a ha => mk_nonwhite _ g2 g3 s3.1 a (w2 v hv a ha)⟩
  · unfold traverseudata
    simp only [hx, Option.bind_eq_bind, Option.some_bind, e1, e2, e3, hx3]
  · intro hage
    obtain ⟨ga, xa, ea, ha, ba, -⟩ := genlink_post g2 u x hx2 hage
    rw [e3] at ea
    cases ea
    rw [hx3] at ha
    cases ha
    exact ba

/-- The traversal of a Lua closure that is not white: it returns; the
closure is as it was; its prototype and its upvalues are not white
afterwards. -/
theorem traverseLclosure_post (g : global_State) (cl : Addr) (x : GCObject) (hwf : WF g)
    (hx : g.heap cl = some x) (hnw : iswhite x.marked = false) :
    ∃ r, traverseLclosure g cl = some r ∧ r.1.heap cl = some x ∧
      (∀ a, x.cl_p = some a → whiteIn r.1.heap a = false) ∧
      ∀ a, some a ∈ x.upvals → whiteIn r.1.heap a = false := by
  have hS := subject_nonwhite g cl x hx hnw
  obtain ⟨g1, e1, s1, w1⟩ := markobjectN_step g x.cl_p hwf (hwf cl x hx).cl_p
  have hwf1 := step_wf _ _ g g1 s1 hwf
  obtain ⟨g2, e2, s2, w2⟩ := markobjectsN_step x.upvals g1 hwf1
    (fun p hp => ptrOK_mk _ g g1 s1.1 p ((hwf cl x hx).upvals p hp))
  have s12 := step_false_trans g g1 g2 s1 s2
  have hx2 : g2.heap cl = some x := by
    rw [mk_same _ g g2 s12.1 cl (fun k => k) (hS cl rfl)]
    exact hx
  refine ⟨(g2, 1 + x.upvals.length), ?_, hx2,
    fun a e => mk_nonwhite _ g1 g2 s2.1 a (w1 a e), w2⟩
  unfold traverseLclosure
  simp only [hx, Option.bind_eq_bind, Option.some_bind, e1, e2]

/-- The traversal of a C closure that is not white: it returns; the closure
is as it was; its upvalues are not white afterwards. -/
theorem traverseCclosure_post (g : global_State) (cl : Addr) (x : GCObject) (hwf : WF g)
    (hx : g.heap cl = some x) (hnw : iswhite x.marked = false) :
    ∃ r, traverseCclosure g cl = some r ∧ r.1.heap cl = some x ∧
      ∀ v, v ∈ x.upvalue → ∀ a, gcvalueN v = some a → whiteIn r.1.heap a = false := by
  have hS := subject_nonwhite g cl x hx hnw
  obtain ⟨g1, e1, s1, w1⟩ := markvalues_step x.upvalue g hwf (hwf cl x hx).upvalue
  have hx1 : g1.heap cl = some x := by
    rw [mk_same _ g g1 s1.1 cl (fun k => k) (hS cl rfl)]
    exact hx
  refine ⟨(g1, 1 + x.upvalue.length), ?_, hx1, w1⟩
  unfold traverseCclosure
  simp only [hx, Option.bind_eq_bind, Option.some_bind, e1]

/-- The traversal of a prototype that is not white: it returns; the
prototype is as it was; its source, its constants, the names of its
upvalues, its nested prototypes and the names of its local variables are not
white afterwards. -/
theorem traverseproto_post (g : global_State) (f : Addr) (x : GCObject) (hwf : WF g)
    (hx : g.heap f = some x) (hnw : iswhite x.marked = false) :
    ∃ r, traverseproto g f = some r ∧ r.1.heap f = some x ∧
      (∀ a, x.source = some a → whiteIn r.1.heap a = false) ∧
      (∀ v, v ∈ x.k → ∀ a, gcvalueN v = some a → whiteIn r.1.heap a = false) ∧
      (∀ a, some a ∈ x.upvalues → whiteIn r.1.heap a = false) ∧
      (∀ a, some a ∈ x.p → whiteIn r.1.heap a = false) ∧
      ∀ a, some a ∈ x.locvars → whiteIn r.1.heap a = false := by
  have hS := subject_nonwhite g f x hx hnw
  have W := hwf f x hx
  obtain ⟨g1, e1, s1, w1⟩ := markobjectN_step g x.source hwf W.source
  have hwf1 := step_wf _ _ g g1 s1 hwf
  obtain ⟨g2, e2, s2, w2⟩ := markvalues_step x.k g1 hwf1
    (fun v hv => valOK_mk _ g g1 s1.1 v (W.k v hv))
  have s12 := step_false_trans g g1 g2 s1 s2
  have hwf2 := step_wf _ _ g1 g2 s2 hwf1
  obtain ⟨g3, e3, s3, w3⟩ := markobjectsN_step x.upvalues g2 hwf2
    (fun p hp => ptrOK_mk _ g g2 s12.1 p (W.upvalues p hp))
  have s13 := step_false_trans g g2 g3 s12 s3
  have hwf3 := step_wf _ _ g2 g3 s3 hwf2
  obtain ⟨g4, e4, s4, w4⟩ := markobjectsN_step x.p g3 hwf3
    (fun p hp => ptrOK_mk _ g g3 s13.1 p (W.p p hp))
  have s14 := step_false_trans g g3 g4 s13 s4
  have hwf4 := step_wf _ _ g3 g4 s4 hwf3
  obtain ⟨g5, e5, s5, w5⟩ := markobjectsN_step x.locvars g4 hwf4
    (fun p hp => ptrOK_mk _ g g4 s14.1 p (W.locvars p hp))
  have s15 := step_false_trans g g4 g5 s14 s5
  have hx5 : g5.heap f = some x := by
    rw [mk_same _ g g5 s15.1 f (fun k => k) (hS f rfl)]
    exact hx
  have s25 := step_false_trans g2 g4 g5 (step_false_trans g2 g3 g4 s3 s4) s5
  refine ⟨(g5, 1 + x.k.length + x.upvalues.length + x.p.length + x.locvars.length), ?_, hx5,
    fun a e => mk_nonwhite _ g1 g5 (step_false_trans g1 g2 g5 s2 s25).1 a (w1 a e),
    fun v hv a ha => mk_nonwhite _ g2 g5 s25.1 a (w2 v hv a ha),
    fun a ha => mk_nonwhite _ g3 g5 (step_false_trans g3 g4 g5 s4 s5).1 a (w3 a ha),
    fun a ha => mk_nonwhite _ g4 g5 s5.1 a (w4 a ha), w5⟩
  unfold traverseproto
  simp only [hx, Option.bind_eq_bind, Option.some_bind, e1, e2, e3, e4, e5]

theorem clearkey_notcollectable (nd : Node) : keyiscollectable (clearkey nd) = false := by
  unfold clearkey
  cases hk : keyiscollectable nd with
  | false =>
    simp only [Bool.false_eq_true, if_false]
    exact hk
  | true =>
    simp only [if_true]
    unfold keyiscollectable at hk
    unfold setdeadkey keyiscollectable
    split at hk
    · rename_i t a hkey
      simp only [hkey]
    · cases hk

theorem clearkey_val (nd : Node) : (clearkey nd).i_val = nd.i_val := by
  unfold clearkey setdeadkey
  split
  · split <;> rfl
  · rfl

theorem getage_nw2black (m : Nat) : getage (nw2black m) = getage m := by
  have h32 : bitmask BLACKBIT = 32 := by decide
  unfold getage nw2black l_setbit setbits AGEBITS
  rw [h32]
  refine Nat.eq_of_testBit_eq (fun i => ?_)
  rw [Nat.testBit_and, Nat.testBit_or, Nat.testBit_and]
  by_cases hi : i < 3
  · have e : Nat.testBit 32 i = false := by
      interval_cases i <;> rfl
    rw [e, Bool.or_false]
  · have e : Nat.testBit 7 i = false := by
      refine Nat.testBit_lt_two_pow (lt_of_lt_of_le (by decide : 7 < 2 ^ 3) ?_)
      exact Nat.pow_le_pow_right (by decide) (Nat.le_of_not_lt hi)
    rw [e, Bool.and_false, Bool.and_false]

/-- C31: `propagatemark` on a well-formed memory whose gray list is `o`
followed by `G`, all of them non-white. It returns; the gray list afterwards
is `N ++ G`, where `N` are objects that were white and are not any more, and
`o` is not on it. When `o` is a table that `traversetable` reads as strong,
or a userdata (both with an age that is not `G_TOUCHED1`: in incremental mode
every age is `G_NEW`), a Lua closure, a C closure or a prototype, `o` is
black on return and no object it refers to directly is white: the metatable,
the values of the array part, the key and the value of every hash entry that
is not empty; the metatable and the user values; the prototype and the
upvalues; the upvalues; the source, the constants, the upvalue names, the
nested prototypes and the names of the local variables. The nodes of a table
are the ones it had with the key of every empty entry cleared, so that no
entry with an empty value has a collectable key. -/
theorem propagatemark_spec (env : Env) (fuel : Nat) (g : global_State) (o : Addr)
    (x : GCObject) (G : List Addr) (hwf : WF g) (hgray : IsGSeg g.heap g.gray (o :: G) none)
    (hx : g.heap o = some x) (hnw : iswhite x.marked = false) (hk : getgclist o x = some o)
    (hfuel : ∀ C, IsGSeg (uvHeap g.heap) x.openupval C none → C.length < fuel)
    (hGnw : ∀ a, a ∈ G → whiteIn g.heap a = false) :
    ∃ r N x2, propagatemark env fuel g = some r ∧
      IsGSeg r.1.heap r.1.gray (N ++ G) none ∧ o ∉ N ++ G ∧
      (∀ a, a ∈ N → whiteIn g.heap a = true ∧ whiteIn r.1.heap a = false) ∧
      r.1.heap o = some x2 ∧
      (x.tt = .LUA_VTABLE → weakmode g.heap x = (false, false) →
        getage x.marked ≠ G_TOUCHED1 →
        isblack x2.marked = true ∧
        x2.node = x.node.map (fun nd => if isempty nd.i_val then clearkey nd else nd) ∧
        (∀ nd, nd ∈ x2.node → isempty nd.i_val = true → keyiscollectable nd = false) ∧
        (∀ mt, x.metatable = some mt → whiteIn r.1.heap mt = false) ∧
        (∀ v, v ∈ x.array → ∀ a, gcvalueN v = some a → whiteIn r.1.heap a = false) ∧
        ∀ nd, nd ∈ x.node → isempty nd.i_val = false →
          (∀ a, gckeyN nd = some a → whiteIn r.1.heap a = false) ∧
          (∀ a, gcvalueN nd.i_val = some a → whiteIn r.1.heap a = false)) ∧
      (x.tt = .LUA_VUSERDATA → getage x.marked ≠ G_TOUCHED1 →
        isblack x2.marked = true ∧
        (∀ mt, x.metatable = some mt → whiteIn r.1.heap mt = false) ∧
        ∀ v, v ∈ x.uv → ∀ a, gcvalueN v = some a → whiteIn r.1.heap a = false) ∧
      (x.tt = .LUA_VLCL →
        isblack x2.marked = true ∧
        (∀ a, x.cl_p = some a → whiteIn r.1.heap a = false) ∧
        ∀ a, some a ∈ x.upvals → whiteIn r.1.heap a = false) ∧
      (x.tt = .LUA_VCCL →
        isblack x2.marked = true ∧
        ∀ v, v ∈ x.upvalue → ∀ a, gcvalueN v = some a → whiteIn r.1.heap a = false) ∧
      (x.tt = .LUA_VPROTO →
        isblack x2.marked = true ∧
        (∀ a, x.source = some a → whiteIn r.1.heap a = false) ∧
        (∀ v, v ∈ x.k → ∀ a, gcvalueN v = some a → whiteIn r.1.heap a = false) ∧
        (∀ a, some a ∈ x.upvalues → whiteIn r.1.heap a = false) ∧
        (∀ a, some a ∈ x.p → whiteIn r.1.heap a = false) ∧
        ∀ a, some a ∈ x.locvars → whiteIn r.1.heap a = false) := by
  obtain ⟨r, X, N, e, mk, gseg, wN, -, -⟩ :=
    propagatemark_step env fuel g o x G hwf hgray hx hnw hk hfuel hGnw
  have hnd := isGList_nodup g.heap (o :: G) g.gray hgray
  have hoG : o ∉ G := (List.nodup_cons.1 hnd).1
  obtain ⟨x2, hx2, -⟩ := mk_live _ g r.1 mk o x hx
  obtain ⟨g2, eg2⟩ : ∃ g2 : global_State, g2 =
      { g.setobj o { x with marked := nw2black x.marked } with gray := x.gclist } := ⟨_, rfl⟩
  have eqn := propagatemark_eq env fuel g o x hgray.1 hx hk g2 eg2
  rw [e] at eqn
  have hxb : g2.heap o = some { x with marked := nw2black x.marked } := by
    rw [eg2]
    exact heap_set_same _ _ _
  have hnw2 : iswhite ({ x with marked := nw2black x.marked } : GCObject).marked = false := by
    show iswhite (nw2black x.marked) = false
    rw [iswhite_nw2black]
    exact hnw
  have hbl : isblack ({ x with marked := nw2black x.marked } : GCObject).marked = true :=
    isblack_nw2black x.marked
  have m1 : Mk (fun a => a = o) g g2 :=
    mk_store _ g g2 o x { x with marked := nw2black x.marked } hx
      (touch_mark x _ (fun _ => hnw2)) (fun _ => rfl) (by rw [eg2]; rfl) (by rw [eg2]; rfl)
  have hwf2 := wf_mk _ g g2 m1 hwf
  refine ⟨r, N, x2, e, gseg, ?_, fun a ha => ⟨(wN a ha).1, (wN a ha).2.1⟩, hx2,
    ?_, ?_, ?_, ?_, ?_⟩
  · intro k
    rcases List.mem_append.1 k with k | k
    · have w := (wN o k).1
      rw [whiteIn_some _ _ _ hx, hnw] at w
      cases w
    · exact hoG k
  · intro hkind hs hage
    simp only [hkind] at eqn
    have hs2 : weakmode g2.heap { x with marked := nw2black x.marked } = (false, false) := by
      rw [← hs]
      refine weakmode_congr g.heap g2.heap x _ rfl (fun a => ?_)
      rw [eg2]
      show (Heap.set g.heap o _ a).map _ = _
      by_cases ha : a = o
      · subst ha
        rw [heap_set_same, hx]
        rfl
      · rw [heap_set_ne _ _ _ _ ha]
    have hage2 : getage ({ x with marked := nw2black x.marked } : GCObject).marked
        ≠ G_TOUCHED1 := by
      show getage (nw2black x.marked) ≠ G_TOUCHED1
      rw [getage_nw2black]
      exact hage
    obtain ⟨r2, t3, e3, ht3, n3, b3, mt3, a3, p3⟩ :=
      traversetable_strong_post g2 o _ hwf2 hxb hnw2 hkind hs2
    rw [e3] at eqn
    cases eqn
    rw [hx2] at ht3
    cases ht3
    refine ⟨(b3 hage2).trans hbl, n3, ?_, mt3, a3, p3⟩
    intro nd hnd he
    rw [n3] at hnd
    obtain ⟨nd0, -, e0⟩ := List.mem_map.1 hnd
    by_cases h0 : isempty nd0.i_val = true
    · have e1 : clearkey nd0 = nd := by
        rw [← e0]
        exact (if_pos h0).symm
      rw [← e1]
      exact clearkey_notcollectable nd0
    · have e1 : nd0 = nd := by
        rw [← e0]
        exact (if_neg h0).symm
      rw [e1] at h0
      exact absurd he h0
  · intro hkind hage
    simp only [hkind] at eqn
    have hage2 : getage ({ x with marked := nw2black x.marked } : GCObject).marked
        ≠ G_TOUCHED1 := by
      show getage (nw2black x.marked) ≠ G_TOUCHED1
      rw [getage_nw2black]
      exact hage
    obtain ⟨r2, x3, e3, hx3, b3, mt3, u3⟩ := traverseudata_post g2 o _ hwf2 hxb hnw2 hkind
    rw [e3] at eqn
    cases eqn
    rw [hx2] at hx3
    cases hx3
    exact ⟨(b3 hage2).trans hbl, mt3, u3⟩
  · intro hkind
    simp only [hkind] at eqn
    obtain ⟨r2, e3, hx3, p3, u3⟩ := traverseLclosure_post g2 o _ hwf2 hxb hnw2
    rw [e3] at eqn
    cases eqn
    rw [hx2] at hx3
    cases hx3
    exact ⟨hbl, p3, u3⟩
  · intro hkind
    simp only [hkind] at eqn
    obtain ⟨r2, e3, hx3, u3⟩ := traverseCclosure_post g2 o _ hwf2 hxb hnw2
    rw [e3] at eqn
    cases eqn
    rw [hx2] at hx3
    cases hx3
    exact ⟨hbl, u3⟩
  · intro hkind
    simp only [hkind] at eqn
    obtain ⟨r2, e3, hx3, q1, q2, q3, q4, q5⟩ := traverseproto_post g2 o _ hwf2 hxb hnw2
    rw [e3] at eqn
    cases eqn
    rw [hx2] at hx3
    cases hx3
    exact ⟨hbl, q1, q2, q3, q4, q5⟩

theorem propagatemark_spec_witness :
    WF exGray ∧ whiteIn exGray.heap 2 = true ∧ whiteIn exGray.heap 3 = true ∧
      whiteIn exGray.heap 4 = true ∧
      ∃ r x2, propagatemark exEnv 5 exGray = some r ∧ r.1.heap 1 = some x2 ∧
        isblack x2.marked = true ∧ whiteIn r.1.heap 2 = false ∧ whiteIn r.1.heap 3 = false ∧
        whiteIn r.1.heap 4 = false ∧
        ∃ N, IsGSeg r.1.heap r.1.gray N none ∧ 1 ∉ N := by
  have hwf : WF exGray := fun a x h => exEph_wf a x h
  obtain ⟨r, N, x2, e, hg, ho, -, hx2, ht, -⟩ :=
    propagatemark_spec exEnv 5 exGray 1
      { exObj .LUA_VTABLE 0 (some 2) with
        node := [{ i_val := .gc .LUA_VTABLE 3, key := .gc .LUA_VTABLE 2 },
                 { i_val := .gc .LUA_VTABLE 4, key := .prim 1 }] }
      [] hwf ⟨rfl, _, rfl, rfl⟩ rfl rfl rfl
      (fun C hC => by
        cases C with
        | nil => decide
        | cons b l => cases hC.1)
      (fun a ha => by cases ha)
  obtain ⟨b, -, -, -, -, p⟩ := ht rfl rfl (by decide)
  have p1 := p _ (List.mem_cons_self _ _) rfl
  have p2 := p _ (List.mem_cons_of_mem _ (List.mem_cons_self _ _)) rfl
  refine ⟨hwf, rfl, rfl, rfl, r, x2, e, hx2, b, p1.1 2 rfl, p1.2 3 rfl, p2.2 4 rfl, N ++ [], hg, ho⟩

/-! ## The traversal of a weak-value table: what it leaves -/

/-- The footprint of an object is the same after a marking step. -/
theorem inFoot_mk (S : Addr → Prop) (g g2 : global_State) (m : Mk S g g2) (o a : Addr)
    (h : inFoot g2.heap o a) : inFoot g.heap o a := by
  rcases h with e | ⟨x2, hx2, htt, huv, hmt⟩
  · exact Or.inl e
  · obtain ⟨x, hx, tch⟩ := mk_back S g g2 m o x2 hx2
    have e1 : x2.frozen.tt = x.frozen.tt := congrArg GCObject.tt tch.1
    have e2 : x2.frozen.uv = x.frozen.uv := congrArg GCObject.uv tch.1
    have e3 : x2.frozen.metatable = x.frozen.metatable := congrArg GCObject.metatable tch.1
    have e1 : x2.tt = x.tt := e1
    have e2 : x2.uv = x.uv := e2
    have e3 : x2.metatable = x.metatable := e3
    exact Or.inr ⟨x, hx, e1 ▸ htt, e2 ▸ huv, e3 ▸ hmt⟩

theorem ptrOK_of_valOK (h : Heap) (v : TValue) (hv : ValOK h v) : PtrOK h (gcvalueN v) := by
  intro r hr
  cases hval : v with
  | gc tg a =>
    rw [hval] at hr
    cases hr
    obtain ⟨y, hy, -⟩ := hv tg r hval
    exact ⟨y, hy⟩
  | nil => rw [hval] at hr; cases hr
  | empty => rw [hval] at hr; cases hr
  | prim k => rw [hval] at hr; cases hr

/-- The hash loop of `traverseweakvalue` from node `i`: it returns; the table
has the nodes it had, those from `i` on with the key of an empty entry
cleared; the key of every other entry from `i` on is not white; and an object
other than the table is the same unless it is in the footprint of such a key
or is a string that is such an entry's value. -/
theorem traverseweakvalue_loop_post (h : Addr) : ∀ (n i : Nat) (g : global_State)
    (t : GCObject) (hc : Bool), WF g → g.heap h = some t → iswhite t.marked = false →
    i + n = t.node.length →
    ∃ r, traverseweakvalue_loop h n i g hc = some r ∧ Step (fun a => a = h) [] g r.1 ∧
      r.1.heap h = some { t with
        node := t.node.take i ++
          (t.node.drop i).map (fun nd => if isempty nd.i_val then clearkey nd else nd) } ∧
      (∀ nd, nd ∈ t.node.drop i → isempty nd.i_val = false →
        ∀ k, gckeyN nd = some k → whiteIn r.1.heap k = false) ∧
      ∀ a, a ≠ h →
        (∀ nd, nd ∈ t.node.drop i → isempty nd.i_val = false →
          (∀ k, gckeyN nd = some k → ¬ inFoot g.heap k a) ∧
          (∀ y, gcvalueN nd.i_val = some a → g.heap a = some y →
            novariant y.tt ≠ LUA_TSTRING)) →
        r.1.heap a = g.heap a := by
  intro n
  induction n with
  | zero =>
    intro i g t hc _ ht _ hlen
    have e2 : t.node.drop i = [] := List.drop_eq_nil_of_le (by omega)
    refine ⟨(g, hc), rfl, step_refl _ g, ?_, ?_, fun _ _ _ => rfl⟩
    · have e1 : t.node.take i = t.node := List.take_of_length_le (by omega)
      rw [e1, e2, List.map_nil, List.append_nil]
      exact ht
    · intro nd hnd
      rw [e2] at hnd
      cases hnd
  | succ n ih =>
    intro i g t hc hwf ht hnw hlen
    obtain ⟨nd, hnd, hmem⟩ := node_at t i n hlen
    have hdrop := drop_get? t.node i nd hnd
    rw [traverseweakvalue_loop]
    simp only [ht, Option.bind_eq_bind, Option.some_bind, hnd]
    have hS := subject_nonwhite g h t ht hnw
    cases he : isempty nd.i_val with
    | true =>
      rw [if_pos rfl]
      obtain ⟨s1, -⟩ := clearkey_step g h t i nd ht hnw hnd he
      obtain ⟨r, e2, s2, o2, p2, q2⟩ := ih (i + 1) _
        { t with node := t.node.set i (clearkey nd) } hc
        (step_wf _ _ g _ s1 hwf) (heap_set_same _ _ _) hnw
        (by rw [show ({ t with node := t.node.set i (clearkey nd) } : GCObject).node.length
          = t.node.length from List.length_set _ _ _]; omega)
      refine ⟨r, e2, step_trans _ [] g _ r.1 hS s1 s2, ?_, ?_, ?_⟩
      · rw [o2]
        have hcl : (fun nd : Node => if isempty nd.i_val then clearkey nd else nd) nd
            = clearkey nd := by
          simp only [he, if_true]
        have k := nodes_step_set (fun nd : Node => if isempty nd.i_val then clearkey nd else nd)
          t.node i nd hnd
        rw [hcl] at k
        show some { t with node := _ } = some { t with node := _ }
        rw [k]
      · intro nd2 hnd2 he2
        rw [hdrop] at hnd2
        rcases List.mem_cons.1 hnd2 with k | k
        · rw [k, he] at he2
          cases he2
        · refine p2 nd2 ?_ he2
          show nd2 ∈ (t.node.set i (clearkey nd)).drop (i + 1)
          rw [set_drop_succ]
          exact k
      · intro a ha hcond
        have e0 : (g.setobj h { t with node := t.node.set i (clearkey nd) }).heap a = g.heap a :=
          heap_set_ne _ _ _ _ ha
        rw [← e0]
        refine q2 a ha (fun nd2 hnd2 he2 => ?_)
        have hnd3 : nd2 ∈ t.node.drop i := by
          rw [hdrop]
          refine List.mem_cons_of_mem _ ?_
          have k : nd2 ∈ (t.node.set i (clearkey nd)).drop (i + 1) := hnd2
          rw [set_drop_succ] at k
          exact k
        obtain ⟨c1, c2⟩ := hcond nd2 hnd3 he2
        refine ⟨fun k hk hf => c1 k hk (inFoot_mk _ g _ s1.1 k a hf), fun y hv hy => ?_⟩
        rw [e0] at hy
        exact c2 y hv hy
    | false =>
      rw [if_neg (by decide)]
      have hkey := (hwf h t ht).nodekey nd hmem
      obtain ⟨g1, e1, s1, n1⟩ := markkey_step g nd hwf hkey
      have hwf1 := step_wf _ _ g g1 s1 hwf
      have out1 := markkey_outside g g1 nd hwf hkey e1
      simp only [e1, Option.some_bind]
      have hin : nd ∈ t.node.drop i := by
        rw [hdrop]
        exact List.mem_cons_self _ _
      have hsub : ∀ nd2, nd2 ∈ t.node.drop (i + 1) → nd2 ∈ t.node.drop i := by
        intro nd2 k
        rw [hdrop]
        exact List.mem_cons_of_mem _ k
      cases hc with
      | false =>
        have hv : PtrOK g1.heap (gcvalueN nd.i_val) :=
          ptrOK_of_valOK _ _ (valOK_mk _ g g1 s1.1 _ ((hwf h t ht).nodeval nd hmem))
        obtain ⟨g2, c, e2, s2, -⟩ := iscleared_step g1 (gcvalueN nd.i_val) hwf1 hv
        have out2 := iscleared_outside g1 g2 _ c hwf1 e2
        have s12 := step_false_trans g g1 g2 s1 s2
        have ht2 : g2.heap h = some t := by
          rw [mk_same _ g g2 s12.1 h (fun k => k) (hS h rfl)]
          exact ht
        obtain ⟨r, e3, s3, o3, p3, q3⟩ := ih (i + 1) g2 t c (step_wf _ _ g1 g2 s2 hwf1) ht2 hnw
          (by omega)
        refine ⟨r, ?_, step_trans0 _ [] g g2 r.1 hS s12 s3, ?_, ?_, ?_⟩
        · simp only [Bool.not_false, if_true, e2, Option.some_bind]
          exact e3
        · rw [o3]
          have k := nodes_step_keep
            (fun nd : Node => if isempty nd.i_val then clearkey nd else nd)
            t.node i nd hnd (by simp only [he, Bool.false_eq_true, if_false])
          rw [k]
        · intro nd2 hnd2 he2
          rw [hdrop] at hnd2
          rcases List.mem_cons.1 hnd2 with k | k
          · subst k
            exact fun r2 hr =>
              mk_nonwhite _ g2 r.1 s3.1 r2 (mk_nonwhite _ g1 g2 s2.1 r2 (n1 r2 hr))
          · exact p3 nd2 k he2
        · intro a ha hcond
          obtain ⟨c1, c2⟩ := hcond nd hin he
          have ea1 : g1.heap a = g.heap a := out1 a c1
          have ea2 : g2.heap a = g1.heap a := by
            refine out2 a (fun r2 y ho hy hs hEq => ?_)
            subst hEq
            rw [ea1] at hy
            exact c2 y ho hy hs
          rw [← ea1, ← ea2]
          refine q3 a ha (fun nd2 hnd2 he2 => ?_)
          obtain ⟨d1, d2⟩ := hcond nd2 (hsub nd2 hnd2) he2
          refine ⟨fun k hk hf => d1 k hk (inFoot_mk _ g g2 s12.1 k a hf), fun y hv2 hy => ?_⟩
          rw [ea2, ea1] at hy
          exact d2 y hv2 hy
      | true =>
        have ht1 : g1.heap h = some t := by
          rw [mk_same _ g g1 s1.1 h (fun k => k) (hS h rfl)]
          exact ht
        obtain ⟨r, e3, s3, o3, p3, q3⟩ := ih (i + 1) g1 t true hwf1 ht1 hnw (by omega)
        refine ⟨r, ?_, step_trans0 _ [] g g1 r.1 hS s1 s3, ?_, ?_, ?_⟩
        · simp only [Bool.not_true, Bool.false_eq_true, if_false]
          exact e3
        · rw [o3]
          have k := nodes_step_keep
            (fun nd : Node => if isempty nd.i_val then clearkey nd else nd)
            t.node i nd hnd (by simp only [he, Bool.false_eq_true, if_false])
          rw [k]
        · intro nd2 hnd2 he2
          rw [hdrop] at hnd2
          rcases List.mem_cons.1 hnd2 with k | k
          · subst k
            exact fun r2 hr => mk_nonwhite _ g1 r.1 s3.1 r2 (n1 r2 hr)
          · exact p3 nd2 k he2
        · intro a ha hcond
          obtain ⟨c1, c2⟩ := hcond nd hin he
          have ea1 : g1.heap a = g.heap a := out1 a c1
          rw [← ea1]
          refine q3 a ha (fun nd2 hnd2 he2 => ?_)
          obtain ⟨d1, d2⟩ := hcond nd2 (hsub nd2 hnd2) he2
          refine ⟨fun k hk hf => d1 k hk (inFoot_mk _ g g1 s1.1 k a hf), fun y hv2 hy => ?_⟩
          rw [ea1] at hy
          exact d2 y hv2 hy

/-- C34, with the exceptions the code makes: on a well-formed memory
`traverseweakvalue` on the non-white table `h` returns; the array part is the
one on entry and the hash part is the one on entry with the key of every
empty entry cleared, so no entry with an empty value has a collectable key;
the key of every other entry is not white on return; and every object, so
every value of the table in the array part or the hash part, is the same on
return, colour included, unless it is the table itself, or a key of a
non-empty entry, or the metatable of a userdata without user values that is
such a key, or a string that is the value of a non-empty hash entry. -/
theorem traverseweakvalue_spec (g : global_State) (h : Addr) (t : GCObject) (hwf : WF g)
    (ht : g.heap h = some t) (hnw : iswhite t.marked = false) :
    ∃ g2 t2, traverseweakvalue g h = some g2 ∧ g2.heap h = some t2 ∧
      t2.array = t.array ∧
      t2.node = t.node.map (fun nd => if isempty nd.i_val then clearkey nd else nd) ∧
      (∀ nd, nd ∈ t2.node → isempty nd.i_val = true → keyiscollectable nd = false) ∧
      (∀ nd, nd ∈ t.node → isempty nd.i_val = false →
        ∀ k, gckeyN nd = some k → whiteIn g2.heap k = false) ∧
      ∀ a, a ≠ h →
        (∀ nd, nd ∈ t.node → isempty nd.i_val = false →
          (∀ k, gckeyN nd = some k → ¬ inFoot g.heap k a) ∧
          (∀ y, gcvalueN nd.i_val = some a → g.heap a = some y →
            novariant y.tt ≠ LUA_TSTRING)) →
        g2.heap a = g.heap a := by
  obtain ⟨r, e1, s1, o1, p1, q1⟩ := traverseweakvalue_loop_post h t.node.length 0 g t
    (decide (t.alimit > 0)) hwf ht hnw (by omega)
  rw [List.take_zero, List.nil_append, List.drop_zero] at o1
  rw [List.drop_zero] at p1 q1
  have hl : ∃ g2 l, (if (r.1.gcstate = GCSatomic && r.2) = true then linkgclist r.1 h .weak
      else linkgclist r.1 h .grayagain) = some g2 ∧ linkgclist r.1 h l = some g2 ∧
      l ≠ .gray := by
    split
    · exact ⟨_, .weak, linkgclist_exact r.1 h _ .weak o1, linkgclist_exact r.1 h _ .weak o1,
        by decide⟩
    · exact ⟨_, .grayagain, linkgclist_exact r.1 h _ .grayagain o1,
        linkgclist_exact r.1 h _ .grayagain o1, by decide⟩
  obtain ⟨g2, l, e2, e3, hl⟩ := hl
  obtain ⟨g3, e4, s3⟩ := linkgclist_step r.1 h _ l o1 hl
  rw [e3] at e4
  cases e4
  have e5 := linkgclist_exact r.1 h _ l o1
  rw [e3] at e5
  have e5 := Option.some.inj e5
  have hh : g2.heap h = some { t with
      node := t.node.map (fun nd => if isempty nd.i_val then clearkey nd else nd),
      gclist := r.1.getlist l,
      marked := set2gray t.marked } := by
    rw [e5]
    exact heap_set_same _ _ _
  refine ⟨g2, _, ?_, hh, rfl, rfl, ?_, ?_, ?_⟩
  · unfold traverseweakvalue
    simp only [ht, Option.bind_eq_bind, Option.some_bind, e1]
    exact e2
  · intro nd hnd he
    obtain ⟨nd0, -, e0⟩ := List.mem_map.1 hnd
    by_cases h0 : isempty nd0.i_val = true
    · have e6 : clearkey nd0 = nd := by
        rw [← e0]
        exact (if_pos h0).symm
      rw [← e6]
      exact clearkey_notcollectable nd0
    · have e6 : nd0 = nd := by
        rw [← e0]
        exact (if_neg h0).symm
      rw [e6] at h0
      exact absurd he h0
  · intro nd hnd he k hk
    exact mk_nonwhite _ r.1 g2 s3.1 k (p1 nd hnd he k hk)
  · intro a ha hcond
    rw [← q1 a ha hcond, e5]
    have e7 : ∀ (s : global_State), (s.setlist l (some h)).heap = s.heap := by
      intro s
      cases l <;> rfl
    show Heap.set (r.1.setlist l (some h)).heap h _ a = _
    rw [heap_set_ne _ _ _ _ ha, e7]

theorem exWeakVal_wf : WF exWeakVal := by
  intro a x hx
  have hx2 : exWeakValHeap a = some x := hx
  unfold exWeakValHeap at hx2
  split_ifs at hx2 with h1 h2 h3 h4 h5 h6
  · cases hx2
    refine { wfObj_leaf exWeakVal.heap .LUA_VTABLE 32 (some 2) with nodeval := ?_, nodekey := ?_ }
    · intro nd hnd t r e
      simp only [List.mem_cons, List.mem_singleton, List.not_mem_nil, or_false] at hnd
      rcases hnd with k | k | k | k | k | k <;> subst k <;> cases e <;>
        exact ⟨_, rfl, by decide⟩
    · intro nd hnd r e
      simp only [List.mem_cons, List.mem_singleton, List.not_mem_nil, or_false] at hnd
      rcases hnd with k | k | k | k | k | k <;> subst k <;> cases e <;>
        exact ⟨_, rfl, by decide⟩
  · cases hx2
    exact wfObj_leaf _ _ _ _
  · cases hx2
    exact wfObj_leaf _ _ _ _
  · cases hx2
    refine { wfObj_leaf exWeakVal.heap .LUA_VUSERDATA 8 (some 5) with metatable := ?_ }
    intro mt e
    cases e
    exact ⟨_, rfl, rfl, fun _ _ k => by cases k⟩
  · cases hx2
    exact wfObj_leaf _ _ _ _
  · cases hx2
    exact wfObj_leaf _ _ _ _

theorem traverseweakvalue_spec_witness :
    WF exWeakVal ∧ whiteIn exWeakVal.heap 6 = true ∧
      ∃ g2, traverseweakvalue exWeakVal 1 = some g2 ∧ g2.heap 6 = exWeakVal.heap 6 ∧
        whiteIn g2.heap 3 = false ∧ whiteIn g2.heap 4 = false := by
  obtain ⟨g2, t2, e, -, -, -, -, p, q⟩ :=
    traverseweakvalue_spec exWeakVal 1 _ exWeakVal_wf rfl rfl
  refine ⟨exWeakVal_wf, rfl, g2, e, q 6 (by decide) ?_,
    p { i_val := .prim 1, key := .gc .LUA_VTABLE 3 }
      (List.mem_cons_of_mem _ (List.mem_cons_self _ _)) rfl 3 rfl,
    p { i_val := .gc .LUA_VTABLE 5, key := .gc .LUA_VUSERDATA 4 }
      (List.mem_cons_of_mem _ (List.mem_cons_of_mem _ (List.mem_cons_of_mem _
        (List.mem_cons_self _ _)))) rfl 4 rfl⟩
  intro nd hnd he
  have hnd2 : nd ∈ [({ i_val := .gc .LUA_VSHRSTR 2, key := .prim 1 } : Node),
      { i_val := .prim 1, key := .gc .LUA_VTABLE 3 },
      { i_val := .gc .LUA_VTABLE 3, key := .prim 2 },
      { i_val := .gc .LUA_VTABLE 5, key := .gc .LUA_VUSERDATA 4 },
      { i_val := .gc .LUA_VTABLE 1, key := .prim 3 },
      { i_val := .gc .LUA_VTABLE 6, key := .prim 4 }] := hnd
  simp only [List.mem_cons, List.mem_singleton, List.not_mem_nil, or_false] at hnd2
  rcases hnd2 with k | k | k | k | k | k <;> subst k
  · exact ⟨fun k hk => (by cases hk), fun y hv => (by cases hv)⟩
  · refine ⟨fun k hk => ?_, fun y hv => (by cases hv)⟩
    cases hk
    rintro (e6 | ⟨x, hx, htt, -⟩)
    · cases e6
    · cases hx
      cases htt
  · exact ⟨fun k hk => (by cases hk), fun y hv => (by cases hv)⟩
  · refine ⟨fun k hk => ?_, fun y hv => (by cases hv)⟩
    cases hk
    rintro (e6 | ⟨x, hx, -, -, hmt⟩)
    · cases e6
    · cases hx
      cases hmt
  · exact ⟨fun k hk => (by cases hk), fun y hv => (by cases hv)⟩
  · refine ⟨fun k hk => (by cases hk), fun y _ hy => ?_⟩
    cases hy
    decide

/-- C34 as stated fails: in `exWeakVal` the string 2, the tables 3 and 5 and
the table 1 itself are values of table 1; the traversal of table 1 turns the
white string 2, the white table 3 (also a key) and the white table 5 (the
metatable of the userdata key 4) non-white, and the black table 1 gray. -/
theorem traverseweakvalue_spec_counterexample :
    (exWeakVal.heap 1).map (fun x => (x.array, x.node.map (fun nd => gcvalueN nd.i_val),
        isblack x.marked))
      = some ([], [some 2, none, some 3, some 5, some 1, some 6], true) ∧
    (whiteIn exWeakVal.heap 2, whiteIn exWeakVal.heap 3, whiteIn exWeakVal.heap 5)
      = (true, true, true) ∧
    (traverseweakvalue exWeakVal 1).map (fun g2 =>
        (whiteIn g2.heap 2, whiteIn g2.heap 3, whiteIn g2.heap 5,
          (g2.heap 1).map (fun x => (isblack x.marked, isgray x.marked))))
      = some (false, false, false, some (false, true)) :=
  ⟨rfl, rfl, rfl⟩

/-! ## What a mark paints -/

/-- Marking a white object that is not an upvalue leaves no white object in
its footprint. -/
theorem reallymarkobject_foot (g g2 : global_State) (o : Addr) (x : GCObject) (hwf : WF g)
    (hx : g.heap o = some x) (hw : iswhite x.marked = true)
    (h : reallymarkobject g o = some g2) :
    ∀ a, inFoot g.heap o a → whiteIn g2.heap a = false := by
  intro a ha
  rcases ha with e | ⟨x1, hx1, hu, huv, hmt⟩
  · obtain ⟨g3, e3, -, w⟩ := reallymarkobject_step g o x hwf hx hw
    rw [h] at e3
    cases e3
    rw [e]
    exact w
  · rw [hx] at hx1
    cases hx1
    obtain ⟨ym, hym, htm, -⟩ := (hwf o x hx).metatable a hmt
    have hao : a ≠ o := by
      intro e
      rw [e, hx] at hym
      cases hym
      rw [hu] at htm
      cases htm
    unfold reallymarkobject at h
    rw [markrec] at h
    simp only [Option.bind_eq_bind, hx, Option.some_bind, hu] at h
    rw [if_pos huv] at h
    simp only [hmt, Option.bind_eq_some] at h
    obtain ⟨g1, h1, y, -, h⟩ := h
    cases h
    obtain ⟨g3, e3, -, w⟩ := markobject_with_step (markrec 2) g a ym hym
      (fun w => markrec_noup_step 0 g a ym hwf hym w (by rw [htm]; decide))
    rw [h1] at e3
    cases e3
    unfold whiteIn
    show (match Heap.set g1.heap o _ a with
      | some x => iswhite x.marked
      | none => false) = false
    rw [heap_set_ne _ _ _ _ hao]
    exact w

/-- An object that a mark turns from white to another colour is in the
footprint of the marked object. -/
theorem reallymarkobject_marks (g g2 : global_State) (o : Addr) (x : GCObject) (hwf : WF g)
    (hx : g.heap o = some x) (hk : x.tt ≠ .LUA_VUPVAL) (h : reallymarkobject g o = some g2) :
    ∀ a, whiteIn g.heap a = true → whiteIn g2.heap a = false → inFoot g.heap o a := by
  intro a w1 w2
  by_contra hcon
  have e := reallymarkobject_outside g g2 o x hwf hx hk h a hcon
  unfold whiteIn at w1 w2
  rw [e, w1] at w2
  cases w2

/-- An object that `iscleared` turns from white to another colour is the
string it was given. -/
theorem iscleared_marks (g g2 : global_State) (o : Option Addr) (c : Bool) (hwf : WF g)
    (h : iscleared g o = some (g2, c)) :
    ∀ a, whiteIn g.heap a = true → whiteIn g2.heap a = false →
      o = some a ∧ ∃ y, g.heap a = some y ∧ novariant y.tt = LUA_TSTRING := by
  intro a w1 w2
  by_contra hcon
  have e := iscleared_outside g g2 o c hwf h a (fun r y ho hy hs hEq => by
    subst hEq
    exact hcon ⟨ho, y, hy, hs⟩)
  unfold whiteIn at w1 w2
  rw [e, w1] at w2
  cases w2

/-- The footprint of an object that is no userdata is the object. -/
theorem inFoot_plain (h : Heap) (o a : Addr) (y : GCObject) (hy : h o = some y)
    (hk : y.tt ≠ .LUA_VUSERDATA) (hf : inFoot h o a) : a = o := by
  rcases hf with e | ⟨x, hx, hu, -⟩
  · exact e
  · rw [hy] at hx
    cases hx
    exact absurd hu hk

/-- The footprint of an object is the same after a marking step. -/
theorem inFoot_mk_fwd (S : Addr → Prop) (g g2 : global_State) (m : Mk S g g2) (o a : Addr)
    (h : inFoot g.heap o a) : inFoot g2.heap o a := by
  rcases h with e | ⟨x, hx, htt, huv, hmt⟩
  · exact Or.inl e
  · obtain ⟨x2, hx2, tch⟩ := mk_live S g g2 m o x hx
    have e1 : x2.frozen.tt = x.frozen.tt := congrArg GCObject.tt tch.1
    have e2 : x2.frozen.uv = x.frozen.uv := congrArg GCObject.uv tch.1
    have e3 : x2.frozen.metatable = x.frozen.metatable := congrArg GCObject.metatable tch.1
    have e1 : x2.tt = x.tt := e1
    have e2 : x2.uv = x.uv := e2
    have e3 : x2.metatable = x.metatable := e3
    exact Or.inr ⟨x2, hx2, e1.trans htt, by rw [e2]; exact huv, e3.trans hmt⟩

theorem set_get?_self (l : List Node) : ∀ (i : Nat) (nd : Node), l.get? i = some nd →
    l.set i nd = l := by
  induction l with
  | nil => intro i nd h; cases h
  | cons a l ih =>
    intro i nd h
    cases i with
    | zero =>
      cases h
      rfl
    | succ i =>
      show a :: l.set i nd = a :: l
      rw [ih i nd h]

/-- Writing the nodes of an object changes the colour of no object. -/
theorem whiteIn_setnode (g : global_State) (h : Addr) (t : GCObject) (l : List Node)
    (ht : g.heap h = some t) (a : Addr) :
    whiteIn (g.setobj h { t with node := l }).heap a = whiteIn g.heap a := by
  by_cases ha : a = h
  · subst ha
    rw [whiteIn_setobj, whiteIn_some _ _ _ ht]
  · have e : (g.setobj h { t with node := l }).heap a = g.heap a := heap_set_ne _ _ _ _ ha
    unfold whiteIn
    rw [e]

/-! ## One visit of the hash loop of `traverseephemeron` -/

theorem gcvalueN_some (v : TValue) (r : Addr) (h : gcvalueN v = some r) :
    ∃ tg, v = .gc tg r := by
  cases v with
  | gc tg a =>
    cases h
    exact ⟨tg, rfl⟩
  | nil => cases h
  | empty => cases h
  | prim k => cases h

theorem string_not_udata (y : GCObject) (hs : novariant y.tt = LUA_TSTRING) :
    y.tt ≠ .LUA_VUSERDATA := by
  intro e
  rw [e] at hs
  revert hs
  decide

/-- One visit of the hash loop of `traverseephemeron`, at step `i`: the loop
goes on from step `i + 1` in a state in which the visited node has its key
cleared when its value is empty; an object the visit turns from white to
another colour is the key of the entry, or in the footprint of its white
value, the entry being non-empty with a key that is marked; the key and the
value of such an entry are not white after the visit; the footprint of an
object marked by the visit is not white either; and the visit of a non-empty
entry whose key is a white object other than a string changes nothing. -/
theorem eph_visit_post (h : Addr) (inv : Bool) (nsize i : Nat) (g : global_State)
    (t : GCObject) (f : EphFlags) (nd : Node) (hwf : WF g) (ht : g.heap h = some t)
    (hnw : iswhite t.marked = false)
    (hnd : t.node.get? (if inv = true then nsize - 1 - i else i) = some nd) :
    ∃ g1 f1,
      (∀ m, traverseephemeron_loop h inv nsize (m + 1) i g f
        = traverseephemeron_loop h inv nsize m (i + 1) g1 f1) ∧
      Step (fun a => a = h) [] g g1 ∧
      g1.heap h = some { t with
        node := t.node.set (if inv = true then nsize - 1 - i else i)
          (if isempty nd.i_val then clearkey nd else nd) } ∧
      (∀ a, whiteIn g.heap a = true → whiteIn g1.heap a = false →
        isempty nd.i_val = false ∧ clearedIn g.heap (gckeyN nd) = false ∧
        (gckeyN nd = some a ∨
          ∃ v, gcvalueN nd.i_val = some v ∧ whiteIn g.heap v = true ∧ inFoot g.heap v a)) ∧
      (isempty nd.i_val = false → clearedIn g.heap (gckeyN nd) = false →
        (∀ k, gckeyN nd = some k → whiteIn g1.heap k = false) ∧
        ∀ v, gcvalueN nd.i_val = some v → whiteIn g1.heap v = false) ∧
      (∀ x a, whiteIn g.heap x = true → whiteIn g1.heap x = false → inFoot g.heap x a →
        whiteIn g1.heap a = false) ∧
      (isempty nd.i_val = false → clearedIn g.heap (gckeyN nd) = true → g1 = g) := by
  have hmem : nd ∈ t.node := List.get?_mem hnd
  have hS := subject_nonwhite g h t ht hnw
  have hsame : ({ t with node := t.node.set (if inv = true then nsize - 1 - i else i) nd }
      : GCObject) = t := by
    rw [set_get?_self _ _ _ hnd]
  cases he : isempty nd.i_val with
  | true =>
    obtain ⟨s1, -⟩ := clearkey_step g h t _ nd ht hnw hnd he
    have hw : ∀ a, whiteIn (g.setobj h { t with
        node := t.node.set (if inv = true then nsize - 1 - i else i) (clearkey nd) }).heap a
        = whiteIn g.heap a := fun a => whiteIn_setnode g h t _ ht a
    refine ⟨_, f, fun m => ?_, s1, ?_, ?_, fun k => (by cases k), ?_, fun k => (by cases k)⟩
    · rw [traverseephemeron_loop]
      simp only [ht, Option.bind_eq_bind, Option.some_bind, hnd]
      rw [if_pos he]
    · rw [if_pos rfl]
      exact heap_set_same _ _ _
    · intro a w1 w2
      rw [hw a, w1] at w2
      cases w2
    · intro x a w1 w2
      rw [hw x, w1] at w2
      cases w2
  | false =>
    obtain ⟨ga, c, e1, s1, -, hc, -, hkeep, hkw⟩ := iscleared_step g (gckeyN nd) hwf
      (ptrOK_key g hwf h t ht nd hmem)
    have hwfa := step_wf _ _ g ga s1 hwf
    have s1h : Step (fun a => a = h) [] g ga := step_mono _ _ [] g ga s1 (fun _ k => k.elim)
    have hta : ga.heap h = some t := by
      rw [mk_same _ g ga s1.1 h (fun k => k) (hS h rfl)]
      exact ht
    have hval := valOK_mk _ g ga s1.1 _ ((hwf h t ht).nodeval nd hmem)
    obtain ⟨w, hw, hw1, hw0⟩ := valiswhite_wf ga nd.i_val hval
    have hmarks := iscleared_marks g ga (gckeyN nd) c hwf e1
    have hA : ∀ a, whiteIn g.heap a = true → whiteIn ga.heap a = false →
        gckeyN nd = some a ∧ ∀ b, inFoot g.heap a b → b = a := by
      intro a w1 w2
      obtain ⟨k1, y, hy, hs⟩ := hmarks a w1 w2
      exact ⟨k1, fun b hb => inFoot_plain g.heap a b y hy (string_not_udata y hs) hb⟩
    have hstep : ∀ (g1 : global_State) (f1 : EphFlags) (m : Nat),
        (if c = true then traverseephemeron_loop h inv nsize m (i + 1) ga
            { f with hasclears := true, hasww := if w = true then true else f.hasww }
          else if w = true then (gcvalueN nd.i_val).bind fun r =>
            (reallymarkobject ga r).bind fun g2 =>
              traverseephemeron_loop h inv nsize m (i + 1) g2 { f with marked := true }
          else traverseephemeron_loop h inv nsize m (i + 1) ga f)
          = traverseephemeron_loop h inv nsize m (i + 1) g1 f1 →
        traverseephemeron_loop h inv nsize (m + 1) i g f
          = traverseephemeron_loop h inv nsize m (i + 1) g1 f1 := by
      intro g1 f1 m k
      rw [traverseephemeron_loop]
      simp only [ht, Option.bind_eq_bind, Option.some_bind, hnd]
      rw [if_neg (by rw [he]; decide)]
      simp only [e1, Option.some_bind, hw]
      exact k
    cases c with
    | true =>
      have eg : ga = g := hkeep rfl
      refine ⟨ga, { f with hasclears := true, hasww := if w = true then true else f.hasww },
        fun m => hstep _ _ m (if_pos rfl), s1h, ?_, ?_, ?_, ?_, fun _ _ => eg⟩
      · show ga.heap h = some { t with node := t.node.set _ nd }
        rw [hsame]
        exact hta
      · intro a w1 w2
        rw [eg, w1] at w2
        cases w2
      · intro _ k
        rw [← hc] at k
        cases k
      · intro x a w1 w2
        rw [eg, w1] at w2
        cases w2
    | false =>
      cases w with
      | true =>
        obtain ⟨r, y, hr, hy, hyw⟩ := hw1 rfl
        obtain ⟨tg, hv⟩ := gcvalueN_some _ _ hr
        obtain ⟨y2, hy2, hyk⟩ := hval tg r hv
        rw [hy] at hy2
        cases hy2
        obtain ⟨g2, e2, s2, w2⟩ := reallymarkobject_step ga r y hwfa hy hyw
        have s12 := step_false_trans g ga g2 s1 s2
        have ht2 : g2.heap h = some t := by
          rw [mk_same _ g g2 s12.1 h (fun k => k) (hS h rfl)]
          exact ht
        have hfoot := reallymarkobject_foot ga g2 r y hwfa hy hyw e2
        have hmk := reallymarkobject_marks ga g2 r y hwfa hy hyk e2
        have hrw : whiteIn g.heap r = true :=
          mk_white_back _ g ga s1.1 r (by rw [whiteIn_some _ _ _ hy]; exact hyw)
        refine ⟨g2, { f with marked := true }, fun m => hstep _ _ m ?_,
          step_mono _ _ [] g g2 s12 (fun _ k => k.elim), ?_, ?_, ?_, ?_, ?_⟩
        · rw [if_neg (by decide), if_pos rfl]
          simp only [hr, Option.some_bind, e2]
        · show g2.heap h = some { t with node := t.node.set _ nd }
          rw [hsame]
          exact ht2
        · intro a w1 wb
          refine ⟨rfl, hc.symm, ?_⟩
          cases hwa : whiteIn ga.heap a with
          | true =>
            exact Or.inr ⟨r, hr, hrw, inFoot_mk _ g ga s1.1 r a (hmk a hwa wb)⟩
          | false => exact Or.inl (hA a w1 hwa).1
        · intro _ _
          refine ⟨fun k hk => mk_nonwhite _ ga g2 s2.1 k (hkw rfl k hk), fun v hv2 => ?_⟩
          rw [hr] at hv2
          cases hv2
          exact w2
        · intro x a w1 wb hf
          cases hwa : whiteIn ga.heap x with
          | true =>
            rcases hmk x hwa wb with e | ⟨yr, hyr, hu, huv, hmt⟩
            · subst e
              exact hfoot a (inFoot_mk_fwd _ g ga s1.1 x a hf)
            · rw [hy] at hyr
              cases hyr
              obtain ⟨ym, hym, htm, -⟩ := (hwfa r y hy).metatable x hmt
              obtain ⟨x0, hx0, tch⟩ := mk_back _ g ga s1.1 x ym hym
              have ea : a = x := inFoot_plain g.heap x a x0 hx0
                (by rw [← touch_tt _ _ tch, htm]; decide) hf
              rw [ea]
              exact wb
          | false =>
            rw [(hA x w1 hwa).2 a hf]
            exact wb
        · intro _ k
          rw [← hc] at k
          cases k
      | false =>
        refine ⟨ga, f, fun m => hstep _ _ m ?_, s1h, ?_, ?_, ?_, ?_, ?_⟩
        · rw [if_neg (by decide), if_neg (by decide)]
        · show ga.heap h = some { t with node := t.node.set _ nd }
          rw [hsame]
          exact hta
        · intro a w1 wb
          exact ⟨rfl, hc.symm, Or.inl (hA a w1 wb).1⟩
        · intro _ _
          exact ⟨fun k hk => hkw rfl k hk, fun v hv2 => hw0 rfl v hv2⟩
        · intro x a w1 wb hf
          rw [(hA x w1 wb).2 a hf]
          exact wb
        · intro _ k
          rw [← hc] at k
          cases k

/-! ## The hash loop of `traverseephemeron`: what it marks -/

theorem ephIdx_inj (inv : Bool) (nsize i j : Nat) (hi : i < nsize) (hj : j < nsize)
    (e : ephIdx inv nsize i = ephIdx inv nsize j) : i = j := by
  unfold ephIdx at e
  cases inv
  · exact e
  · simp only [if_true] at e
    omega

theorem ephIdx_lt (inv : Bool) (nsize i : Nat) (hi : i < nsize) : ephIdx inv nsize i < nsize := by
  unfold ephIdx
  split <;> omega

theorem ephIdx_invol (inv : Bool) (nsize m : Nat) (hm : m < nsize) :
    ephIdx inv nsize (ephIdx inv nsize m) = m := by
  unfold ephIdx
  cases inv
  · rfl
  · simp only [if_true]
    omega

/-- Along a marking step an object is a white object other than a string
when it was one and is still white. -/
theorem clearedIn_mk (S : Addr → Prop) (g g2 : global_State) (m : Mk S g g2) (k : Addr) :
    clearedIn g2.heap (some k) = (clearedIn g.heap (some k) && whiteIn g2.heap k) := by
  rcases Option.eq_none_or_eq_some (g.heap k) with e | ⟨x, e⟩
  · have e2 := (m.2 k).1 e
    unfold clearedIn whiteIn
    simp only [e, e2, Bool.and_self]
  · obtain ⟨x2, e2, tch⟩ := mk_live S g g2 m k x e
    rw [clearedIn_some _ _ _ e, clearedIn_some _ _ _ e2, whiteIn_some _ _ _ e2,
      touch_tt _ _ tch]
    have hm := tch.2.1
    cases hw : iswhite x.marked with
    | false =>
      rw [hm hw]
      simp only [Bool.and_false]
    | true => simp only [Bool.and_true]

theorem clearedIn_mk_false (S : Addr → Prop) (g g2 : global_State) (m : Mk S g g2)
    (o : Option Addr) (hc : clearedIn g.heap o = false) : clearedIn g2.heap o = false := by
  cases o with
  | none => rfl
  | some k =>
    rw [clearedIn_mk S g g2 m k, hc]
    rfl

theorem getElem_set_other (l : List Node) (a b : Nat) (c : Node) (hab : a ≠ b) :
    (l.set a c).get? b = l.get? b := by
  rw [List.get?_eq_getElem?, List.get?_eq_getElem?, List.getElem?_set, if_neg hab]

/-- The hash loop of `traverseephemeron` from step `i`: it returns; the nodes
it looked at have the key of an empty entry cleared and the other nodes are
the same; when no unmarked key of the entries it looks at is in the footprint
of one of their values, every object it turns from white to another colour is
the key of an entry with a marked key or in the footprint of the white value
of such an entry; the key and the value of every entry whose key is marked
are not white at the end; and the footprint of every object it marks is not
white either. -/
theorem eph_loop_post (h : Addr) (inv : Bool) (nsize : Nat) :
    ∀ (n i : Nat) (g : global_State) (t : GCObject) (f : EphFlags), WF g →
    g.heap h = some t → iswhite t.marked = false → t.node.length = nsize → i + n ≤ nsize →
    ∃ g2 f2 nodes, traverseephemeron_loop h inv nsize n i g f = some (g2, f2) ∧
      Step (fun a => a = h) [] g g2 ∧
      g2.heap h = some { t with node := nodes } ∧
      (∀ j, i ≤ j → j < i + n → ∀ nd, t.node.get? (ephIdx inv nsize j) = some nd →
        nodes.get? (ephIdx inv nsize j)
          = some (if isempty nd.i_val then clearkey nd else nd)) ∧
      (∀ m, (∀ j, i ≤ j → j < i + n → ephIdx inv nsize j ≠ m) →
        nodes.get? m = t.node.get? m) ∧
      (ephApart g.heap (ephRem inv nsize i n t.node) →
        ∀ a, whiteIn g.heap a = true → whiteIn g2.heap a = false →
          ephMarks g.heap (ephRem inv nsize i n t.node) a) ∧
      (∀ nd, ephRem inv nsize i n t.node nd → clearedIn g.heap (gckeyN nd) = false →
        (∀ k, gckeyN nd = some k → whiteIn g2.heap k = false) ∧
        ∀ v, gcvalueN nd.i_val = some v → whiteIn g2.heap v = false) ∧
      ∀ x a, whiteIn g.heap x = true → whiteIn g2.heap x = false → inFoot g.heap x a →
        whiteIn g2.heap a = false := by
  intro n
  induction n with
  | zero =>
    intro i g t f _ ht _ _ _
    refine ⟨g, f, t.node, rfl, step_refl _ g, ht, fun j h1 h2 => ?_, fun _ _ => rfl,
      fun _ a w1 w2 => ?_, fun nd hr => ?_, fun x a w1 w2 => ?_⟩
    · omega
    · rw [w1] at w2
      cases w2
    · obtain ⟨j, h1, h2, -⟩ := hr
      omega
    · rw [w1] at w2
      cases w2
  | succ n ih =>
    intro i g t f hwf ht hnw hsz hlen
    have hidx : ephIdx inv nsize i < t.node.length := by
      rw [hsz]
      exact ephIdx_lt inv nsize i (by omega)
    have hnd : t.node.get? (ephIdx inv nsize i) = some (t.node.get ⟨_, hidx⟩) :=
      List.get?_eq_get hidx
    generalize t.node.get ⟨_, hidx⟩ = nd0 at hnd
    have hS := subject_nonwhite g h t ht hnw
    obtain ⟨g1, f1, hstep, s1, ht1, P1, P2, P4, -⟩ :=
      eph_visit_post h inv nsize i g t f nd0 hwf ht hnw hnd
    have hwf1 := step_wf _ _ g g1 s1 hwf
    have hl1 : (t.node.set (ephIdx inv nsize i)
        (if isempty nd0.i_val then clearkey nd0 else nd0)).length = nsize := by
      rw [← hsz]
      exact List.length_set _ _ _
    obtain ⟨g2, f2, nodes, e2, s2, ht2, N1, N2, Sd, Cp, Fc⟩ := ih (i + 1) g1
      { t with
        node := t.node.set (ephIdx inv nsize i)
          (if isempty nd0.i_val then clearkey nd0 else nd0) } f1 hwf1 ht1 hnw hl1 (by omega)
    have hother : ∀ j, i + 1 ≤ j → j < i + 1 + n →
        (t.node.set (ephIdx inv nsize i)
          (if isempty nd0.i_val then clearkey nd0 else nd0)).get? (ephIdx inv nsize j)
          = t.node.get? (ephIdx inv nsize j) := by
      intro j h1 h2
      refine getElem_set_other _ _ _ _ (fun e => ?_)
      have k := ephIdx_inj inv nsize i j (by omega) (by omega) e
      omega
    have hrem_succ : ∀ nd, ephRem inv nsize (i + 1) n
        (t.node.set (ephIdx inv nsize i) (if isempty nd0.i_val then clearkey nd0 else nd0)) nd →
        ephRem inv nsize i (n + 1) t.node nd := by
      rintro nd ⟨j, h1, h2, h3, h4⟩
      rw [hother j h1 h2] at h3
      exact ⟨j, by omega, by omega, h3, h4⟩
    have hrem_cases : ∀ nd, ephRem inv nsize i (n + 1) t.node nd →
        (nd = nd0 ∧ isempty nd0.i_val = false) ∨ ephRem inv nsize (i + 1) n
          (t.node.set (ephIdx inv nsize i)
            (if isempty nd0.i_val then clearkey nd0 else nd0)) nd := by
      rintro nd ⟨j, h1, h2, h3, h4⟩
      by_cases hji : j = i
      · subst hji
        rw [hnd] at h3
        cases h3
        exact Or.inl ⟨rfl, h4⟩
      · refine Or.inr ⟨j, by omega, by omega, ?_, h4⟩
        rw [hother j (by omega) (by omega)]
        exact h3
    have hrem0 : isempty nd0.i_val = false → ephRem inv nsize i (n + 1) t.node nd0 :=
      fun he => ⟨i, le_refl _, by omega, hnd, he⟩
    refine ⟨g2, f2, nodes, ?_, step_trans _ [] g g1 g2 hS s1 s2, ht2, ?_, ?_, ?_, ?_, ?_⟩
    · rw [hstep n]
      exact e2
    · intro j h1 h2 nd hj
      by_cases hji : j = i
      · subst hji
        rw [hnd] at hj
        cases hj
        rw [N2 _ (fun j2 k1 k2 e => by
          have k := ephIdx_inj inv nsize j2 j (by omega) (by omega) e
          omega)]
        show (t.node.set _ _).get? _ = _
        rw [List.get?_eq_getElem?, List.getElem?_set, if_pos rfl, if_pos hidx]
      · have k := N1 j (by omega) (by omega) nd
          (by rw [hother j (by omega) (by omega)]; exact hj)
        exact k
    · intro m hm
      rw [N2 m (fun j k1 k2 => hm j (by omega) (by omega))]
      exact getElem_set_other _ _ _ _ (hm i (le_refl _) (by omega))
    · intro hC a w1 w2
      cases hwa : whiteIn g1.heap a with
      | false =>
        obtain ⟨he, hc, hm⟩ := P1 a w1 hwa
        exact ⟨nd0, hrem0 he, hc, hm⟩
      | true =>
        have hkeep : ∀ nd, ephRem inv nsize i (n + 1) t.node nd → ∀ k, gckeyN nd = some k →
            clearedIn g.heap (some k) = true → clearedIn g1.heap (some k) = true := by
          intro nd hr k hk hc
          rw [clearedIn_mk _ g g1 s1.1 k, hc, Bool.true_and]
          cases hwk : whiteIn g1.heap k with
          | true => rfl
          | false =>
            have hwk0 : whiteIn g.heap k = true := by
              cases e : g.heap k with
              | none =>
                unfold clearedIn at hc
                simp only [e] at hc
                cases hc
              | some y =>
                rw [clearedIn_some _ _ _ e] at hc
                rw [whiteIn_some _ _ _ e]
                exact (Bool.and_eq_true _ _ ▸ hc).2
            obtain ⟨he, hc0, hm⟩ := P1 k hwk0 hwk
            rcases hm with hm | ⟨v, hv, -, hf⟩
            · rw [hm, hc] at hc0
              cases hc0
            · exact absurd hf (hC nd hr k hk hc nd0 (hrem0 he) v hv)
        have hC1 : ephApart g1.heap (ephRem inv nsize (i + 1) n
            (t.node.set (ephIdx inv nsize i)
              (if isempty nd0.i_val then clearkey nd0 else nd0))) := by
          intro nd hr k hk hc nd2 hr2 v hv hf
          have hc0 : clearedIn g.heap (some k) = true := by
            rw [clearedIn_mk _ g g1 s1.1 k] at hc
            exact (Bool.and_eq_true _ _ ▸ hc).1
          exact hC nd (hrem_succ nd hr) k hk hc0 nd2 (hrem_succ nd2 hr2) v hv
            (inFoot_mk _ g g1 s1.1 v k hf)
        obtain ⟨nd, hr, hc, hm⟩ := Sd hC1 a hwa w2
        have hr0 := hrem_succ nd hr
        refine ⟨nd, hr0, ?_, ?_⟩
        · cases hcg : clearedIn g.heap (gckeyN nd) with
          | false => rfl
          | true =>
            cases hkey : gckeyN nd with
            | none =>
              rw [hkey] at hcg
              cases hcg
            | some k =>
              rw [hkey] at hcg hc
              rw [hkeep nd hr0 k hkey hcg] at hc
              cases hc
        · rcases hm with hm | ⟨v, hv, hvw, hf⟩
          · exact Or.inl hm
          · exact Or.inr ⟨v, hv, mk_white_back _ g g1 s1.1 v hvw, inFoot_mk _ g g1 s1.1 v a hf⟩
    · intro nd hr hc
      rcases hrem_cases nd hr with ⟨e, he⟩ | hr1
      · subst e
        obtain ⟨k1, k2⟩ := P2 he hc
        exact ⟨fun k hk => mk_nonwhite _ g1 g2 s2.1 k (k1 k hk),
          fun v hv => mk_nonwhite _ g1 g2 s2.1 v (k2 v hv)⟩
      · exact Cp nd hr1 (clearedIn_mk_false _ g g1 s1.1 _ hc)
    · intro x a w1 w2 hf
      cases hwx : whiteIn g1.heap x with
      | false => exact mk_nonwhite _ g1 g2 s2.1 a (P4 x a w1 hwx hf)
      | true => exact Fc x a hwx w2 (inFoot_mk_fwd _ g g1 s1.1 x a hf)

/-! ## The parts of `traverseephemeron` -/

/-- The first `k + 1` steps of the hash loop are its first `k` steps and one
more. -/
theorem eph_loop_split (h : Addr) (inv : Bool) (nsize : Nat) :
    ∀ (k i : Nat) (g : global_State) (t : GCObject) (f : EphFlags), WF g →
    g.heap h = some t → iswhite t.marked = false → t.node.length = nsize → i + k < nsize →
    traverseephemeron_loop h inv nsize (k + 1) i g f
      = (traverseephemeron_loop h inv nsize k i g f).bind
          (fun r => traverseephemeron_loop h inv nsize 1 (i + k) r.1 r.2) := by
  intro k
  induction k with
  | zero =>
    intro i g t f _ _ _ _ _
    rfl
  | succ k ih =>
    intro i g t f hwf ht hnw hsz hlen
    have hidx : ephIdx inv nsize i < t.node.length := by
      rw [hsz]
      exact ephIdx_lt inv nsize i (by omega)
    have hnd : t.node.get? (ephIdx inv nsize i) = some (t.node.get ⟨_, hidx⟩) :=
      List.get?_eq_get hidx
    obtain ⟨g1, f1, hstep, s1, ht1, -⟩ :=
      eph_visit_post h inv nsize i g t f _ hwf ht hnw hnd
    have hl1 : (t.node.set (ephIdx inv nsize i)
        (if isempty (t.node.get ⟨_, hidx⟩).i_val then clearkey (t.node.get ⟨_, hidx⟩)
          else t.node.get ⟨_, hidx⟩)).length = nsize :=
      (List.length_set _ _ _).trans hsz
    have k1 := ih (i + 1) g1 _ f1 (step_wf _ _ g g1 s1 hwf) ht1 hnw hl1 (by omega)
    rw [hstep (k + 1), hstep k, k1]
    have e : i + 1 + k = i + (k + 1) := by omega
    rw [e]

/-- Linking an object into a gray list paints it gray and writes no other
object. -/
theorem linkgclist_post (g : global_State) (o : Addr) (x : GCObject) (l : GrayList)
    (hx : g.heap o = some x) :
    ∃ g3 x3, linkgclist g o l = some g3 ∧ g3.heap o = some x3 ∧ x3.node = x.node ∧
      iswhite x3.marked = false ∧ ∀ a, a ≠ o → g3.heap a = g.heap a := by
  refine ⟨_, _, linkgclist_exact g o x l hx, heap_set_same _ _ _, rfl,
    (set2gray_nonwhite x.marked).1, fun a ha => ?_⟩
  have e7 : (g.setlist l (some o)).heap = g.heap := by
    cases l <;> rfl
  show Heap.set (g.setlist l (some o)).heap o _ a = _
  rw [heap_set_ne _ _ _ _ ha, e7]

/-- The link at the end of `traverseephemeron` writes the table only, which
stays non-white and keeps its nodes. -/
theorem eph_link_post (g2 : global_State) (h : Addr) (t2 : GCObject) (f : EphFlags)
    (ht2 : g2.heap h = some t2) (hnw : iswhite t2.marked = false)
    (htab : t2.tt = .LUA_VTABLE) :
    ∃ g3 t3, (if g2.gcstate = GCSpropagate
      then (linkgclist g2 h .grayagain).bind fun a => some (a, f.marked)
      else if f.hasww = true then (linkgclist g2 h .ephemeron).bind fun a => some (a, f.marked)
      else if f.hasclears = true
        then (linkgclist g2 h .allweak).bind fun a => some (a, f.marked)
      else (genlink g2 h).bind fun a => some (a, f.marked)) = some (g3, f.marked) ∧
      g3.heap h = some t3 ∧ t3.node = t2.node ∧ iswhite t3.marked = false ∧
      ∀ a, a ≠ h → g3.heap a = g2.heap a := by
  have hg2 : getgclist h t2 = some h := by
    unfold getgclist
    rw [htab]
  split
  · obtain ⟨g3, t3, e, k⟩ := linkgclist_post g2 h t2 .grayagain ht2
    exact ⟨g3, t3, by rw [e]; rfl, k⟩
  · split
    · obtain ⟨g3, t3, e, k⟩ := linkgclist_post g2 h t2 .ephemeron ht2
      exact ⟨g3, t3, by rw [e]; rfl, k⟩
    · split
      · obtain ⟨g3, t3, e, k⟩ := linkgclist_post g2 h t2 .allweak ht2
        exact ⟨g3, t3, by rw [e]; rfl, k⟩
      · unfold genlink
        simp only [ht2, Option.bind_eq_bind, Option.some_bind]
        by_cases h1 : getage t2.marked = G_TOUCHED1
        · rw [if_pos h1]
          obtain ⟨g3, t3, e, k⟩ := linkgclist_post g2 h t2 .grayagain ht2
          refine ⟨g3, t3, ?_, k⟩
          unfold linkobjgclist
          simp only [ht2, Option.bind_eq_bind, Option.some_bind, hg2]
          unfold linkgclist at e
          rw [e]
          rfl
        · rw [if_neg h1]
          by_cases h2 : getage t2.marked = G_TOUCHED2
          · rw [if_pos h2]
            refine ⟨_, _, rfl, heap_set_same _ _ _, rfl, ?_, fun a ha => heap_set_ne _ _ _ _ ha⟩
            show iswhite (changeage t2.marked G_TOUCHED2 G_OLD) = false
            rw [iswhite_changeage]
            exact hnw
          · rw [if_neg h2]
            exact ⟨g2, t2, rfl, ht2, rfl, hnw, fun _ _ => rfl⟩

/-- The run of `traverseephemeron` on a non-white table `h` of a well-formed
memory, in its three parts: the array loop, which does not depend on the
direction, reaches `g1`; the hash loop reaches `g2`; the link reaches `g3`. -/
theorem eph_run (g : global_State) (h : Addr) (inv : Bool) (t : GCObject) (hwf : WF g)
    (ht : g.heap h = some t) (hnw : iswhite t.marked = false) (htab : t.tt = .LUA_VTABLE) :
    ∃ (g1 : global_State) (m1 : Bool) (g2 : global_State) (f : EphFlags) (g3 : global_State)
      (t3 : GCObject),
      traverseephemeron_array t.array g false = some (g1, m1) ∧
      traverseephemeron_loop h inv t.node.length t.node.length 0 g1
        { marked := m1, hasclears := false, hasww := false } = some (g2, f) ∧
      traverseephemeron g h inv = some (g3, f.marked) ∧
      Step (fun _ => False) [] g g1 ∧ g1.heap h = some t ∧
      (∀ v, v ∈ t.array → ∀ a, gcvalueN v = some a → whiteIn g1.heap a = false) ∧
      Step (fun a => a = h) [] g1 g2 ∧
      g3.heap h = some t3 ∧ iswhite t3.marked = false ∧
      (∀ a, a ≠ h → g3.heap a = g2.heap a) ∧
      t3.node = t.node.map (fun nd => if isempty nd.i_val then clearkey nd else nd) ∧
      (ephApart g1.heap (fun nd => nd ∈ t.node ∧ isempty nd.i_val = false) →
        ∀ a, whiteIn g1.heap a = true → whiteIn g2.heap a = false →
          ephMarks g1.heap (fun nd => nd ∈ t.node ∧ isempty nd.i_val = false) a) ∧
      (∀ nd, nd ∈ t.node → isempty nd.i_val = false → clearedIn g1.heap (gckeyN nd) = false →
        (∀ k, gckeyN nd = some k → whiteIn g2.heap k = false) ∧
        ∀ v, gcvalueN nd.i_val = some v → whiteIn g2.heap v = false) ∧
      ∀ x a, whiteIn g1.heap x = true → whiteIn g2.heap x = false → inFoot g1.heap x a →
        whiteIn g2.heap a = false := by
  have hS := subject_nonwhite g h t ht hnw
  obtain ⟨g1, m1, e1, s1, -, -, A1⟩ := traverseephemeron_array_step t.array g false hwf
    (hwf h t ht).array
  have hwf1 := step_wf _ _ g g1 s1 hwf
  have ht1 : g1.heap h = some t := by
    rw [mk_same _ g g1 s1.1 h (fun k => k) (hS h rfl)]
    exact ht
  obtain ⟨g2, f, nodes, e2, s2, ht2, N1, -, Sd, Cp, Fc⟩ := eph_loop_post h inv t.node.length
    t.node.length 0 g1 t { marked := m1, hasclears := false, hasww := false } hwf1 ht1 hnw rfl
    (by omega)
  obtain ⟨g3, t3, e3, ht3, hn3, hw3, ho3⟩ := eph_link_post g2 h { t with node := nodes } f ht2
    hnw htab
  have hlen : nodes.length = t.node.length := by
    obtain ⟨x2, hx2, tch⟩ := mk_live _ g1 g2 s2.1 h t ht1
    rw [ht2] at hx2
    cases hx2
    exact tch.2.2.1
  have hrem : ∀ nd, nd ∈ t.node → isempty nd.i_val = false →
      ephRem inv t.node.length 0 t.node.length t.node nd := by
    intro nd hmem he
    obtain ⟨m, hm⟩ := mem_get? _ _ hmem
    have hlt : m < t.node.length := by
      rw [List.get?_eq_getElem?] at hm
      exact (List.getElem?_eq_some_iff.1 hm).1
    refine ⟨ephIdx inv t.node.length m, Nat.zero_le _, ?_, ?_, he⟩
    · rw [Nat.zero_add]
      exact ephIdx_lt inv _ m hlt
    · rw [ephIdx_invol inv _ m hlt]
      exact hm
  have hmem : ∀ nd, ephRem inv t.node.length 0 t.node.length t.node nd →
      nd ∈ t.node ∧ isempty nd.i_val = false := by
    rintro nd ⟨j, -, -, h3, h4⟩
    exact ⟨List.get?_mem h3, h4⟩
  refine ⟨g1, m1, g2, f, g3, t3, e1, e2, ?_, s1, ht1, A1, s2, ht3, hw3, ho3, ?_, ?_, ?_, Fc⟩
  · unfold traverseephemeron
    simp only [ht, Option.bind_eq_bind, Option.some_bind, e1, e2]
    exact e3
  · rw [hn3]
    show nodes = _
    refine List.ext_get? (fun m => ?_)
    rw [List.get?_eq_getElem? (t.node.map _), List.getElem?_map, ← List.get?_eq_getElem?]
    cases hm : t.node.get? m with
    | none =>
      have k : t.node.length ≤ m := by
        rw [List.get?_eq_getElem?] at hm
        exact List.getElem?_eq_none_iff.1 hm
      rw [List.get?_eq_getElem?]
      exact List.getElem?_eq_none_iff.2 (by omega)
    | some nd =>
      have hlt : m < t.node.length := by
        rw [List.get?_eq_getElem?] at hm
        exact (List.getElem?_eq_some_iff.1 hm).1
      have k := N1 (ephIdx inv t.node.length m) (Nat.zero_le _)
        (by rw [Nat.zero_add]; exact ephIdx_lt inv _ m hlt) nd
        (by rw [ephIdx_invol inv _ m hlt]; exact hm)
      rw [ephIdx_invol inv _ m hlt] at k
      exact k
  · intro hC a w1 w2
    have hC1 : ephApart g1.heap (ephRem inv t.node.length 0 t.node.length t.node) :=
      fun nd hr k hk hc nd2 hr2 v hv =>
        hC nd (hmem nd hr) k hk hc nd2 (hmem nd2 hr2) v hv
    obtain ⟨nd, hr, hc, hm⟩ := Sd hC1 a w1 w2
    exact ⟨nd, hmem nd hr, hc, hm⟩
  · intro nd hnd he hc
    exact Cp nd (hrem nd hnd he) hc

/-- The colours after `traverseephemeron`, when no unmarked key of a
non-empty entry is in the footprint of a value of a non-empty entry: an object
is not white on return exactly when it was not white after the array loop, or
is the key of a non-empty entry with a marked key, or is in the footprint of
the white value of such an entry. -/
theorem eph_run_white (g : global_State) (h : Addr) (inv : Bool) (t : GCObject) (hwf : WF g)
    (ht : g.heap h = some t) (hnw : iswhite t.marked = false) (htab : t.tt = .LUA_VTABLE)
    (hC : ephApart g.heap (fun nd => nd ∈ t.node ∧ isempty nd.i_val = false)) :
    ∃ (g1 : global_State) (m1 : Bool) (r : global_State × Bool),
      traverseephemeron_array t.array g false = some (g1, m1) ∧
      traverseephemeron g h inv = some r ∧
      ∀ a, whiteIn r.1.heap a = false ↔ (whiteIn g1.heap a = false ∨
        ephMarks g1.heap (fun nd => nd ∈ t.node ∧ isempty nd.i_val = false) a) := by
  obtain ⟨g1, m1, g2, f, g3, t3, e1, -, e3, s1, ht1, -, s2, ht3, hw3, ho3, -, Sd, Cp, Fc⟩ :=
    eph_run g h inv t hwf ht hnw htab
  have hC1 : ephApart g1.heap (fun nd => nd ∈ t.node ∧ isempty nd.i_val = false) := by
    intro nd hr k hk hc nd2 hr2 v hv hf
    have hc0 : clearedIn g.heap (some k) = true := by
      rw [clearedIn_mk _ g g1 s1.1 k] at hc
      exact (Bool.and_eq_true _ _ ▸ hc).1
    exact hC nd hr k hk hc0 nd2 hr2 v hv (inFoot_mk _ g g1 s1.1 v k hf)
  have h2 : whiteIn g2.heap h = false :=
    mk_nonwhite _ g1 g2 s2.1 h (by rw [whiteIn_some _ _ _ ht1]; exact hnw)
  have hw32 : ∀ a, whiteIn g3.heap a = whiteIn g2.heap a := by
    intro a
    by_cases ha : a = h
    · subst ha
      rw [whiteIn_some _ _ _ ht3, hw3, h2]
    · unfold whiteIn
      rw [ho3 a ha]
  refine ⟨g1, m1, (g3, f.marked), e1, e3, fun a => ?_⟩
  show whiteIn g3.heap a = false ↔ _
  rw [hw32 a]
  constructor
  · intro w2
    cases w1 : whiteIn g1.heap a with
    | false => exact Or.inl rfl
    | true => exact Or.inr (Sd hC1 a w1 w2)
  · rintro (w1 | ⟨nd, ⟨hmem, he⟩, hc, hm⟩)
    · exact mk_nonwhite _ g1 g2 s2.1 a w1
    · obtain ⟨k1, k2⟩ := Cp nd hmem he hc
      rcases hm with hm | ⟨v, hv, hvw, hf⟩
      · exact k1 a hm
      · exact Fc v a hvw (k2 v hv) hf

/-- C36, with the condition that the independence of the direction needs:
on a well-formed memory `traverseephemeron` on a non-white table `h` returns,
for either direction `inv`; no value of the array part is white on return;
the value of every non-empty entry whose key is marked on entry (not a white
object other than a string) is not white on return; the hash part is the one
on entry with the key of every empty entry cleared, so no entry with an empty
value has a collectable key.  When the loop looks at a non-empty entry whose
key is then a white object other than a string, that step changes nothing: the
state after it is the state before it.  And when no key of a non-empty entry
that is a white object other than a string is in the footprint of a value of
a non-empty entry (it is no such value, and not the metatable of such a value
that is a userdata without user values), the same objects are white after the
traversal with `inv = 0` and with `inv = 1`. -/
theorem traverseephemeron_spec (g : global_State) (h : Addr) (t : GCObject) (hwf : WF g)
    (ht : g.heap h = some t) (hnw : iswhite t.marked = false) (htab : t.tt = .LUA_VTABLE) :
    (∀ inv, ∃ g3 m t3, traverseephemeron g h inv = some (g3, m) ∧ g3.heap h = some t3 ∧
      (∀ v, v ∈ t.array → ∀ a, gcvalueN v = some a → whiteIn g3.heap a = false) ∧
      (∀ nd, nd ∈ t.node → isempty nd.i_val = false → clearedIn g.heap (gckeyN nd) = false →
        ∀ a, gcvalueN nd.i_val = some a → whiteIn g3.heap a = false) ∧
      t3.node = t.node.map (fun nd => if isempty nd.i_val then clearkey nd else nd) ∧
      ∀ nd, nd ∈ t3.node → isempty nd.i_val = true → keyiscollectable nd = false) ∧
    (∀ inv g1 m1, traverseephemeron_array t.array g false = some (g1, m1) →
      ∀ k gk fk tk nd, k < t.node.length →
        traverseephemeron_loop h inv t.node.length k 0 g1
          { marked := m1, hasclears := false, hasww := false } = some (gk, fk) →
        gk.heap h = some tk → tk.node.get? (ephIdx inv t.node.length k) = some nd →
        isempty nd.i_val = false → clearedIn gk.heap (gckeyN nd) = true →
        ∃ fk2, traverseephemeron_loop h inv t.node.length (k + 1) 0 g1
          { marked := m1, hasclears := false, hasww := false } = some (gk, fk2)) ∧
    (ephApart g.heap (fun nd => nd ∈ t.node ∧ isempty nd.i_val = false) →
      ∃ r0 r1, traverseephemeron g h false = some r0 ∧ traverseephemeron g h true = some r1 ∧
        ∀ a, whiteIn r0.1.heap a = whiteIn r1.1.heap a) := by
  refine ⟨fun inv => ?_, fun inv g1 m1 ea k gk fk tk nd hk ek htk hnd he hc => ?_, fun hC => ?_⟩
  · obtain ⟨g1, m1, g2, f, g3, t3, -, -, e3, s1, ht1, A1, s2, ht3, hw3, ho3, hn3, -, Cp, -⟩ :=
      eph_run g h inv t hwf ht hnw htab
    have hw32 : ∀ a, whiteIn g2.heap a = false → whiteIn g3.heap a = false := by
      intro a w2
      by_cases ha : a = h
      · subst ha
        rw [whiteIn_some _ _ _ ht3, hw3]
      · unfold whiteIn
        rw [ho3 a ha]
        exact w2
    refine ⟨g3, f.marked, t3, e3, ht3, ?_, ?_, hn3, ?_⟩
    · intro v hv a hva
      exact hw32 a (mk_nonwhite _ g1 g2 s2.1 a (A1 v hv a hva))
    · intro nd hmem hne hcl a hva
      exact hw32 a ((Cp nd hmem hne (clearedIn_mk_false _ g g1 s1.1 _ hcl)).2 a hva)
    · intro nd hnd hemp
      rw [hn3] at hnd
      obtain ⟨nd0, -, e0⟩ := List.mem_map.1 hnd
      by_cases h0 : isempty nd0.i_val = true
      · have e6 : clearkey nd0 = nd := by
          rw [← e0]
          exact (if_pos h0).symm
        rw [← e6]
        exact clearkey_notcollectable nd0
      · have e6 : nd0 = nd := by
          rw [← e0]
          exact (if_neg h0).symm
        rw [e6] at h0
        exact absurd hemp h0
  · obtain ⟨g1b, m1b, -, -, -, -, e1, -, -, s1, ht1, -⟩ :=
      eph_run g h inv t hwf ht hnw htab
    rw [ea] at e1
    cases e1
    have hwf1 := step_wf _ _ g g1 s1 hwf
    obtain ⟨g2, f2, nodes, e2, s2, ht2, -⟩ := eph_loop_post h inv t.node.length
      k 0 g1 t { marked := m1, hasclears := false, hasww := false } hwf1 ht1 hnw rfl
      (by omega)
    rw [ek] at e2
    cases e2
    rw [ht2] at htk
    cases htk
    have sp := eph_loop_split h inv t.node.length k 0 g1 t
      { marked := m1, hasclears := false, hasww := false } hwf1 ht1 hnw rfl (by omega)
    rw [ek] at sp
    simp only [Option.some_bind, Nat.zero_add] at sp
    obtain ⟨g5, f5, hstep, -, -, -, -, -, P5⟩ := eph_visit_post h inv t.node.length k gk
      { t with node := nodes } fk nd (step_wf _ _ g1 gk s2 hwf1) ht2 hnw hnd
    have e5 : g5 = gk := P5 he hc
    rw [e5] at hstep
    refine ⟨f5, ?_⟩
    rw [sp]
    exact hstep 0
  · obtain ⟨g1, m1, r0, e1, e0, c0⟩ := eph_run_white g h false t hwf ht hnw htab hC
    obtain ⟨g1b, m1b, r1, e1b, e1t, c1⟩ := eph_run_white g h true t hwf ht hnw htab hC
    rw [e1] at e1b
    cases e1b
    refine ⟨r0, r1, e0, e1t, fun a => ?_⟩
    cases hA : whiteIn r0.1.heap a with
    | false => exact ((c1 a).2 ((c0 a).1 hA)).symm
    | true =>
      cases hB : whiteIn r1.1.heap a with
      | true => rfl
      | false =>
        rw [(c0 a).2 ((c1 a).1 hB)] at hA
        cases hA

theorem traverseephemeron_spec_witness :
    WF exEphB ∧ whiteIn exEphB.heap 4 = true ∧
      (∃ g3 m, traverseephemeron exEphB 1 false = some (g3, m) ∧ whiteIn g3.heap 4 = false) ∧
      ∃ r0 r1, traverseephemeron exEphB 1 false = some r0 ∧
        traverseephemeron exEphB 1 true = some r1 ∧
        ∀ a, whiteIn r0.1.heap a = whiteIn r1.1.heap a := by
  obtain ⟨c1, -, c3⟩ := traverseephemeron_spec exEphB 1
    { exObj .LUA_VTABLE 32 (some 2) with
      node := [{ i_val := .gc .LUA_VTABLE 3, key := .gc .LUA_VTABLE 2 },
               { i_val := .gc .LUA_VTABLE 4, key := .prim 1 }] }
    exEphB_wf rfl (by decide) rfl
  obtain ⟨g3, m, t3, e3, -, -, hv, -⟩ := c1 false
  refine ⟨exEphB_wf, rfl, ⟨g3, m, e3, hv { i_val := .gc .LUA_VTABLE 4, key := .prim 1 }
    (List.mem_cons_of_mem _ (List.mem_cons_self _ _)) rfl rfl 4 rfl⟩, c3 ?_⟩
  intro nd hr k hk hc nd2 hr2 v hv2 hf
  obtain ⟨hmem, -⟩ := hr
  obtain ⟨hmem2, -⟩ := hr2
  have hk2 : k = 2 := by
    simp only [List.mem_cons, List.mem_singleton, List.not_mem_nil, or_false] at hmem
    rcases hmem with e | e
    · subst e
      cases hk
      rfl
    · subst e
      cases hk
  subst hk2
  have hy : ∀ r, r = 3 ∨ r = 4 → ∃ y, exEphB.heap r = some y ∧ y.tt ≠ .LUA_VUSERDATA ∧ 2 ≠ r := by
    rintro r (e | e)
    · subst e
      exact ⟨_, rfl, by decide, by decide⟩
    · subst e
      exact ⟨_, rfl, by decide, by decide⟩
  have hv3 : v = 3 ∨ v = 4 := by
    simp only [List.mem_cons, List.mem_singleton, List.not_mem_nil, or_false] at hmem2
    rcases hmem2 with e | e
    · subst e
      cases hv2
      exact Or.inl rfl
    · subst e
      cases hv2
      exact Or.inr rfl
  obtain ⟨y, hy1, hy2, hy3⟩ := hy v hv3
  exact hy3 (inFoot_plain exEphB.heap v 2 y hy1 hy2 hf)

/-- C36 as stated fails: in `exEphDir` the values of table 1 are the table 3
and the userdata 4, its keys are the table 2 and a number, so no value is a
key; the traversal with `inv = 0` leaves table 3 white, and the traversal with
`inv = 1` marks it, because marking the userdata 4 marks its metatable 2. -/
theorem traverseephemeron_spec_counterexample :
    (exEphDir.heap 1).map (fun x => (x.array,
        x.node.map (fun nd => (gckeyN nd, gcvalueN nd.i_val))))
      = some ([], [(some 2, some 3), (none, some 4)]) ∧
    (whiteIn exEphDir.heap 2, whiteIn exEphDir.heap 3, whiteIn exEphDir.heap 4)
      = (true, true, true) ∧
    (traverseephemeron exEphDir 1 false).map (fun r =>
        (whiteIn r.1.heap 2, whiteIn r.1.heap 3, whiteIn r.1.heap 4))
      = some (false, true, false) ∧
    (traverseephemeron exEphDir 1 true).map (fun r =>
        (whiteIn r.1.heap 2, whiteIn r.1.heap 3, whiteIn r.1.heap 4))
      = some (false, false, false) :=
  ⟨rfl, rfl, rfl, rfl⟩

/-! ## `sweeptolive` returns -/

theorem otherwhite_of_ctl (g g2 : global_State) (h : ctl g2 = ctl g) :
    otherwhite g2 = otherwhite g := by
  simp only [ctl, Prod.mk.injEq] at h
  unfold otherwhite
  rw [h.2.2.2.2.2.1]

theorem deadIn_heap_eq (ow : Nat) (h h2 : Heap) (a : Addr) (e : h2 a = h a) :
    deadIn ow h2 a = deadIn ow h a := by
  unfold deadIn
  rw [e]

/-- The run of `sweeptolive` on a list made of the dead objects `D`, none of
which is an open upvalue, followed by the objects `R`, the first of which is
not dead: it returns, given fuel for the objects of `D`, and the objects of
`R` that follow the first are the same as before. -/
theorem sweeptolive_run (D : List Addr) : ∀ (fuel : Nat) (g : global_State) (old : GCRef)
    (la lf lt lx R : List Addr) (c0 : Option Addr),
    Lists g la lf lt lx → g.load old = some c0 → IsList g.heap c0 (D ++ R) →
    (∀ s, old = .next s → s ∉ D ++ R) →
    (∀ a, a ∈ D → deadIn (otherwhite g) g.heap a = true) →
    (∀ s R2, R = s :: R2 → deadIn (otherwhite g) g.heap s = false) →
    (∀ a, a ∈ D → ∀ y, g.heap a = some y → y.tt = .LUA_VUPVAL → upisopen y = false) →
    D.length < fuel →
    ∃ g2 q, sweeptolive fuel g old = some (g2, q) ∧ ∀ a, a ∈ R.tail → g2.heap a = g.heap a := by
  induction D with
  | nil =>
    intro fuel g old la lf lt lx R c0 hL hp hr hown _ hR _ hfuel
    simp only [List.nil_append] at hr hown
    obtain ⟨f, rfl⟩ : ∃ f, fuel = f + 1 := ⟨fuel - 1, by omega⟩
    cases R with
    | nil =>
      have hc : c0 = none := hr
      subst hc
      have e1 : sweeplist g old 1 = some (g, none, 0) := by
        unfold sweeplist
        rw [sweeplist_loop]
        simp only [hp, Option.bind_eq_bind, Option.some_bind, if_true]
      refine ⟨g, none, ?_, fun a ha => by cases ha⟩
      rw [sweeptolive]
      simp only [e1, Option.bind_eq_bind, Option.some_bind]
      rw [if_neg (by intro k; cases k)]
    | cons s R2 =>
      obtain ⟨hc, x, hx, hr2⟩ := hr
      subst hc
      have hnd : deadIn (otherwhite g) g.heap s = false := hR s R2 rfl
      have hdx : isdeadm (otherwhite g) x.marked = false := by
        unfold deadIn at hnd
        rw [hx] at hnd
        exact hnd
      have hsn : s ∉ R2 := (List.nodup_cons.1 (isList_nodup _ _ _
        (show IsList g.heap (some s) (s :: R2) from ⟨rfl, x, hx, hr2⟩))).1
      have e1 : sweeplist g old 1 = some
          (g.setobj s { x with
            marked := cast_byte ((x.marked &&& bnot8 maskgcbits) ||| luaC_white g) },
            (if x.next = none then none else some (.next s)), 1) := by
        unfold sweeplist
        rw [sweeplist_loop]
        simp only [hp, hx, hdx, Option.bind_eq_bind, Option.some_bind, Bool.false_eq_true,
          if_false]
        rw [sweeplist_loop]
        simp only [Option.some_bind, global_State.load, global_State.setobj, heap_set_same,
          Option.map_some']
      refine ⟨g.setobj s { x with
            marked := cast_byte ((x.marked &&& bnot8 maskgcbits) ||| luaC_white g) },
            (if x.next = none then none else some (.next s)), ?_, ?_⟩
      · rw [sweeptolive]
        simp only [e1, Option.bind_eq_bind, Option.some_bind]
        rw [if_neg]
        intro k
        split at k
        · cases k
        · have k2 : GCRef.next s = old := Option.some.inj k
          exact hown s k2.symm (List.mem_cons_self _ _)
      · intro a ha
        have has : a ≠ s := fun e => hsn (e ▸ ha)
        exact heap_set_ne _ _ _ _ has
  | cons d D ih =>
    intro fuel g old la lf lt lx R c0 hL hp hr hown hD hR hcl hfuel
    obtain ⟨f, rfl⟩ : ∃ f, fuel = f + 1 := ⟨fuel - 1, by omega⟩
    obtain ⟨hc, x, hx, hr2⟩ := hr
    subst hc
    have hdd : isdeadm (otherwhite g) x.marked = true := by
      have k := hD d (List.mem_cons_self _ _)
      unfold deadIn at k
      rw [hx] at k
      exact k
    have hnd := isList_nodup _ _ _
      (show IsList g.heap (some d) (d :: (D ++ R)) from ⟨rfl, x, hx, hr2⟩)
    have hdn : d ∉ D ++ R := (List.nodup_cons.1 hnd).1
    obtain ⟨g1, h1⟩ := store_some g old _ x.next hp
    obtain ⟨-, hc1, -, -, -⟩ := lists_unlink g g1 old d x la lf lt lx hL hp hx h1
    obtain ⟨g3, h3, hh⟩ := freeobj_closed g1 d x hc1
      (hcl d (List.mem_cons_self _ _) x hx)
    obtain ⟨k1, k2, k3, k4, -, -, k7⟩ := sweep_remove g g1 g3 old d x la lf lt lx (D ++ R) hL hp
      hx hr2 hdn hown h1 h3
    have hsame : ∀ a, a ∈ D ++ R → g3.heap a = g.heap a := by
      intro a ha
      have had : a ≠ d := fun e => hdn (e ▸ ha)
      rw [hh, heap_free_ne _ _ _ had]
      exact k7 a ha
    have e1 : sweeplist g old 1 = some (g3, (if x.next = none then none else some old), 1) := by
      unfold sweeplist
      rw [sweeplist_loop]
      simp only [hp, hx, hdd, Option.bind_eq_bind, Option.some_bind, if_true, h1, h3]
      rw [sweeplist_loop]
      simp only [Option.some_bind, k2]
    rw [sweeptolive]
    simp only [e1, Option.bind_eq_bind, Option.some_bind]
    by_cases hnx : x.next = none
    · rw [hnx] at hr2
      have hem : D ++ R = [] := (isList_nil_iff _ _ _ hr2).1 rfl
      have hRn : R = [] := (List.append_eq_nil.1 hem).2
      refine ⟨g3, none, ?_, ?_⟩
      · rw [if_pos hnx, if_neg (by intro k; cases k)]
      · intro a ha
        rw [hRn] at ha
        cases ha
    · rw [if_neg hnx, if_pos rfl]
      have how : otherwhite g3 = otherwhite g := otherwhite_of_ctl g g3 k4
      obtain ⟨g2, q, e2, hk⟩ := ih f g3 old _ _ _ _ R x.next k1 k2 k3
        (fun s hs hm => hown s hs (List.mem_cons_of_mem _ hm))
        (fun a ha => by
          rw [how, deadIn_heap_eq _ _ _ a (hsame a (List.mem_append_left _ ha))]
          exact hD a (List.mem_cons_of_mem _ ha))
        (fun s R2 e => by
          rw [how, deadIn_heap_eq _ _ _ s (hsame s (List.mem_append_right _ (by rw [e]; exact List.mem_cons_self _ _)))]
          exact hR s R2 e)
        (fun a ha y hy => by
          rw [hsame a (List.mem_append_left _ ha)] at hy
          exact hcl a (List.mem_cons_of_mem _ ha) y hy)
        (by simp only [List.length_cons] at hfuel; omega)
      refine ⟨g2, q, e2, fun a ha => ?_⟩
      rw [hk a ha]
      exact hsame a (List.mem_append_right _ (List.mem_of_mem_tail ha))

/-- C7. For a black object `o` and a white object `v` of a well-formed memory
while the invariant is kept (`gcstate <= GCSatomic`), `luaC_barrier_` returns
and leaves `v` not white (black or gray, as its kind decides) and the mark of
`o` as it was; if `o` is old the age of `v` becomes `G_OLD0`, else the age of
`v` is unchanged. -/
theorem luaC_barrier_keep (g : global_State) (o v : Addr) (oo vv : GCObject)
    (hwf : WF g) (ho : g.heap o = some oo) (hv : g.heap v = some vv)
    (hblack : isblack oo.marked = true) (hnw : iswhite oo.marked = false)
    (hwhite : iswhite vv.marked = true) (hkeep : keepinvariant g = true) :
    ∃ g2 o2 v2, luaC_barrier_ g o v = some g2 ∧ g2.heap o = some o2 ∧ g2.heap v = some v2 ∧
      iswhite v2.marked = false ∧ isblack v2.marked = blackened vv ∧
      o2.marked = oo.marked ∧ isblack o2.marked = true ∧
      (isold oo.marked = true → getage v2.marked = G_OLD0) ∧
      (isold oo.marked = false → getage v2.marked = getage vv.marked) ∧
      tofinalize v2.marked = tofinalize vv.marked := by
  obtain ⟨g1, h1, hstep, -⟩ := reallymarkobject_step g v vv hwf hv hwhite
  obtain ⟨o1, ho1, -⟩ := (hstep.1.2 o).2 oo ho
  obtain ⟨v1, hv1, -⟩ := (hstep.1.2 v).2 vv hv
  have hrun : ∃ g2, luaC_barrier_ g o v = some g2 := by
    unfold luaC_barrier_
    simp only [hkeep, if_true, h1, ho1, hv1, Option.bind_eq_bind, Option.some_bind]
    split <;> exact ⟨_, rfl⟩
  obtain ⟨g2, hrun⟩ := hrun
  obtain ⟨o2, v2, k⟩ := luaC_barrier_keep_run g o v oo vv g2 ho hv hblack hnw hwhite hkeep hrun
  exact ⟨g2, o2, v2, hrun, k⟩

theorem exBarOld_wf : WF exBarOld := by
  intro a x hx
  have hx2 : exBarOldHeap a = some x := hx
  unfold exBarOldHeap at hx2
  split_ifs at hx2
  · cases hx2
    exact wfObj_leaf _ _ _ _
  · cases hx2
    exact wfObj_leaf _ _ _ _

theorem exBarState_wf (st : Nat) : WF (exBarState st) := by
  intro a x hx
  have hx2 : exBarHeap a = some x := hx
  unfold exBarHeap at hx2
  split_ifs at hx2
  · cases hx2
    exact wfObj_leaf _ _ _ _
  · cases hx2
    exact wfObj_leaf _ _ _ _

/-- C7 at two concrete states: in `exBarOld` the black table 2 of age `G_OLD`
gets the white table 1, which becomes gray with age `G_OLD0`; in `exBarState`
the black table 2 of age `G_NEW` gets the white string 1, which becomes black
and keeps its age. -/
theorem luaC_barrier_keep_witness :
    (∃ g2 o2 v2, luaC_barrier_ exBarOld 2 1 = some g2 ∧ g2.heap 2 = some o2 ∧
      g2.heap 1 = some v2 ∧ o2.marked = 36 ∧ iswhite v2.marked = false ∧
      isblack v2.marked = false ∧ getage v2.marked = G_OLD0) ∧
    (∃ g2 v2, luaC_barrier_ (exBarState GCSpropagate) 2 1 = some g2 ∧ g2.heap 1 = some v2 ∧
      iswhite v2.marked = false ∧ isblack v2.marked = true ∧ getage v2.marked = G_NEW) := by
  constructor
  · obtain ⟨g2, o2, v2, h1, h2, h3, h4, h5, h6, -, h8, -⟩ := luaC_barrier_keep exBarOld 2 1
      (exObj .LUA_VTABLE 36 (some 1)) (exObj .LUA_VTABLE 8 none) exBarOld_wf rfl rfl
      (by decide) (by decide) (by decide) (by decide)
    exact ⟨g2, o2, v2, h1, h2, h3, h6, h4, h5, h8 (by decide)⟩
  · obtain ⟨g2, o2, v2, h1, -, h3, h4, h5, -, -, -, h9, -⟩ :=
      luaC_barrier_keep (exBarState GCSpropagate) 2 1
        (exObj .LUA_VTABLE 32 (some 1)) (exObj .LUA_VSHRSTR 8 none) (exBarState_wf _) rfl rfl
        (by decide) (by decide) (by decide) (by decide)
    exact ⟨g2, v2, h1, h3, h4, h5, h9 (by decide)⟩

/-! ## The finalizer calls of a step -/

/-- The loop of `runafewfinalizers` calls at most `n` finalizers, and at
least one when `tobefnz` is not empty and `n` is not 0. -/
theorem runafewfinalizers_loop_count (env : Env) (L : Addr) : ∀ (n : Nat) (g : global_State)
    (i : Nat) (r : global_State × Nat), runafewfinalizers_loop env L n g i = some r →
    i ≤ r.2 ∧ r.2 ≤ i + n ∧ (g.tobefnz ≠ none → 0 < n → i + 1 ≤ r.2) := by
  intro n
  induction n with
  | zero =>
    intro g i r h
    rw [runafewfinalizers_loop] at h
    cases h
    exact ⟨Nat.le_refl _, Nat.le_refl _, fun _ k => absurd k (by decide)⟩
  | succ n ih =>
    intro g i r h
    rw [runafewfinalizers_loop] at h
    cases ht : g.tobefnz with
    | none =>
      rw [ht] at h
      cases h
      exact ⟨Nat.le_refl _, by simp, fun k _ => absurd rfl k⟩
    | some c =>
      rw [ht] at h
      simp only [Option.bind_eq_bind, Option.bind_eq_some] at h
      obtain ⟨g1, -, h2⟩ := h
      obtain ⟨k1, k2, -⟩ := ih g1 (i + 1) r h2
      exact ⟨by omega, by omega, fun _ _ => k1⟩

/-- C15, amended. In state `GCScallfin`, with `tobefnz` not empty and
`gcemergency` 0, a step that returns has called `k` finalizers, `1 <= k <= 10`,
and its work is `50 * k`, at most 500, with `gcstopem` 0 on return, whatever
the finalizers did.  When the protected calls of the finalizers return and
leave the collector alone (they run no collection), the step returns, `k` is
`min GCFINMAX (length lt)`, each call has removed the head of `tobefnz` and
the state is still `GCScallfin`.  With `tobefnz` empty the step sets `gcstate`
to `GCSpause` and returns 0. -/
theorem singlestep_callfin (env : Env) (fuel : Nat) (g : global_State) (L : Addr)
    (hst : g.gcstate = GCScallfin) :
    (∀ g2 w, g.tobefnz ≠ none → g.gcemergency = 0 → singlestep env fuel g L = some (g2, w) →
      ∃ k, 1 ≤ k ∧ k ≤ GCFINMAX ∧ k ≤ 10 ∧ w = GCFINALIZECOST * k ∧ w = 50 * k ∧ w ≤ 500 ∧
        g2.gcstopem = 0) ∧
    (∀ lt, QuietCalls env L → IsList g.heap g.tobefnz lt → FinReady g L lt → lt ≠ [] →
      g.gcemergency = 0 →
      ∃ g2 k, singlestep env fuel g L = some (g2, GCFINALIZECOST * k) ∧
        k = min GCFINMAX lt.length ∧ 1 ≤ k ∧ k ≤ 10 ∧ GCFINALIZECOST * k = 50 * k ∧
        50 * k ≤ 500 ∧ IsList g2.heap g2.tobefnz (lt.drop k) ∧
        g2.gcstate = GCScallfin ∧ g2.gcstopem = 0) ∧
    (g.tobefnz = none →
      singlestep env fuel g L = some ({ g with gcstate := GCSpause, gcstopem := 0 }, 0)) := by
  refine ⟨?_, ?_, ?_⟩
  · intro g2 w hto hem hrun
    unfold singlestep at hrun
    simp only [Option.bind_eq_bind, Option.bind_eq_some] at hrun
    obtain ⟨⟨g1, r⟩, hsw, hres⟩ := hrun
    rw [singlestep_switch_callfin env fuel { g with gcstopem := 1 } L hst,
      if_pos ⟨hto, hem⟩] at hsw
    simp only [Option.bind_eq_some] at hsw
    obtain ⟨⟨ga, n⟩, hloop, hsw⟩ := hsw
    cases hsw
    simp only [Option.some.injEq, Prod.mk.injEq] at hres
    obtain ⟨e1, e2⟩ := hres
    obtain ⟨-, k2, k3⟩ := runafewfinalizers_loop_count env L GCFINMAX _ 0 _ hloop
    have k3b := k3 hto (by decide)
    have hG : GCFINMAX = 10 := rfl
    have hC : GCFINALIZECOST = 50 := rfl
    simp only at k2 k3b
    refine ⟨n, by omega, by omega, by omega, ?_, ?_, ?_, ?_⟩
    · rw [← e2, Nat.mul_comm]
    · rw [← e2, hC, Nat.mul_comm]
    · rw [← e2, hC]
      omega
    · rw [← e1]
  · intro lt hq hl hr hne hem
    exact (singlestep_callfin_quiet env fuel g L lt hq hst hl hr).1 hne hem
  · intro hto
    have hsw : singlestep_switch env fuel { g with gcstopem := 1 } L =
        some ({ ({ g with gcstopem := 1 } : global_State) with gcstate := GCSpause },
          some 0) := by
      rw [singlestep_switch_callfin env fuel { g with gcstopem := 1 } L hst,
        if_neg (by intro h; exact h.1 hto)]
    unfold singlestep
    simp only [Option.bind_eq_bind, hsw, Option.some_bind]

/-- C15, amended, at the concrete state `exRun`, with one object on
`tobefnz` and finalizers that leave the collector alone: one finalizer is
called, the work is 50, `tobefnz` is empty afterwards and the state is still
`GCScallfin`. -/
theorem singlestep_callfin_witness :
    ∃ g2, singlestep exEnv 5 exRun 1 = some (g2, 50) ∧ g2.tobefnz = none ∧
      g2.gcstate = GCScallfin ∧ g2.gcstopem = 0 := by
  have hq : QuietCalls exEnv 1 := fun s lt hl hr => ⟨s, LUA_OK, rfl, rfl, hl, hr⟩
  have hr : FinReady exRun 1 [2] := by
    refine ⟨⟨_, _, rfl, rfl⟩, ?_⟩
    intro o ho
    simp only [List.mem_singleton] at ho
    subst ho
    exact ⟨.prim 0, rfl⟩
  obtain ⟨g2, k, h1, h2, -, -, -, -, h7, h8, h9⟩ :=
    (singlestep_callfin exEnv 5 exRun 1 rfl).2.1 [2] hq ⟨rfl, _, rfl, rfl⟩ hr (by simp) rfl
  have hk : k = 1 := by rw [h2]; rfl
  subst hk
  exact ⟨g2, h1, h7, h8, h9⟩

/-- A step in `GCScallfin` that does not stay there: in the state `exRun`,
with `tobefnz` not empty and `gcemergency` 0, the finalizer of the userdata 2
runs out of memory and the emergency collection that follows, which the step
allows by `gcstopem = 0`, ends its cycle; the step returns the work 50 with
`gcstate` equal to `GCSpause`, and the userdata has left `tobefnz`. -/
theorem singlestep_callfin_counterexample :
    exRun.gcstate = GCScallfin ∧ exRun.tobefnz = some 2 ∧ exRun.gcemergency = 0 ∧
    (singlestep exEnvGC 5 exRun 1).map (fun r => (r.1.gcstate, r.1.tobefnz, r.2))
      = some (GCSpause, none, 50) ∧
    GCSpause ≠ GCScallfin :=
  ⟨rfl, rfl, rfl, rfl, by decide⟩

/-! ## Links: the gray lists under marking -/

theorem isGSeg_frame (h h2 : Heap) (q : Option Addr) : ∀ (l : List Addr) (p : Option Addr),
    (∀ a x, a ∈ l → h a = some x → ∃ x2, h2 a = some x2 ∧ x2.gclist = x.gclist) →
    IsGSeg h p l q → IsGSeg h2 p l q := by
  intro l
  induction l with
  | nil => intro p _ hl; exact hl
  | cons b l ih =>
    intro p hf hl
    obtain ⟨e, o, ho, hr⟩ := hl
    obtain ⟨o2, ho2, eg⟩ := hf b o (List.mem_cons_self _ _) ho
    refine ⟨e, o2, ho2, ?_⟩
    rw [eg]
    exact ih _ (fun a x ha hx => hf a x (List.mem_cons_of_mem _ ha) hx) hr

theorem kept_refl (s : Prop) (x : GCObject) : Kept s x x := ⟨rfl, rfl, fun h => h, fun _ _ => rfl⟩

theorem kept_mono (s s2 : Prop) (x x2 : GCObject) (h : Kept s x x2) (hs : s → s2) :
    Kept s2 x x2 :=
  ⟨h.1, h.2.1, h.2.2.1, fun hw hn => h.2.2.2 hw (fun k => hn (hs k))⟩

theorem kept_trans (s s2 : Prop) (x x1 x2 : GCObject) (h1 : Kept s x x1) (h2 : Kept s2 x1 x2) :
    Kept (s ∨ s2) x x2 :=
  ⟨h2.1.trans h1.1, h2.2.1.trans h1.2.1, fun hw => h2.2.2.1 (h1.2.2.1 hw),
    fun hw hn => (h2.2.2.2 (h1.2.2.1 hw) (fun k => hn (Or.inr k))).trans
      (h1.2.2.2 hw (fun k => hn (Or.inl k)))⟩

theorem lk_live (S : Addr → Prop) (g g2 : global_State) (h : Lk S g g2) (a : Addr)
    (x : GCObject) (hx : g.heap a = some x) : ∃ x2, g2.heap a = some x2 ∧ Kept (S a) x x2 :=
  (h.2.1 a).2 x hx

theorem lk_nonwhite (S : Addr → Prop) (g g2 : global_State) (h : Lk S g g2) (a : Addr)
    (hw : whiteIn g.heap a = false) : whiteIn g2.heap a = false := by
  rcases Option.eq_none_or_eq_some (g.heap a) with e | ⟨x, e⟩
  · unfold whiteIn
    rw [(h.2.1 a).1 e]
  · obtain ⟨x2, e2, k⟩ := lk_live S g g2 h a x e
    rw [whiteIn_some _ _ _ e] at hw
    rw [whiteIn_some _ _ _ e2]
    exact k.2.2.1 hw

theorem lk_white_back (S : Addr → Prop) (g g2 : global_State) (h : Lk S g g2) (a : Addr)
    (hw : whiteIn g2.heap a = true) : whiteIn g.heap a = true := by
  cases e : whiteIn g.heap a with
  | true => rfl
  | false =>
    rw [lk_nonwhite S g g2 h a e] at hw
    cases hw

theorem lk_back (S : Addr → Prop) (g g2 : global_State) (h : Lk S g g2) (a : Addr)
    (x2 : GCObject) (hx : g2.heap a = some x2) : ∃ x, g.heap a = some x ∧ Kept (S a) x x2 := by
  rcases Option.eq_none_or_eq_some (g.heap a) with e | ⟨x, e⟩
  · rw [(h.2.1 a).1 e] at hx
    cases hx
  · obtain ⟨y, e2, k⟩ := lk_live S g g2 h a x e
    rw [hx] at e2
    cases e2
    exact ⟨x, e, k⟩

theorem hasGclist_kept (h h2 : Heap) (a : Addr) (s : Prop) (x x2 : GCObject)
    (hx : h a = some x) (hx2 : h2 a = some x2) (k : Kept s x x2) :
    hasGclist h a ↔ hasGclist h2 a := by
  constructor
  · rintro ⟨y, hy, hk⟩
    rw [hx] at hy
    cases hy
    refine ⟨x2, hx2, ?_⟩
    unfold getgclist at hk ⊢
    rw [k.1]
    exact hk
  · rintro ⟨y, hy, hk⟩
    rw [hx2] at hy
    cases hy
    refine ⟨x, hx, ?_⟩
    unfold getgclist at hk ⊢
    rw [← k.1]
    exact hk

theorem tableIn_kept (h h2 : Heap) (a : Addr) (s : Prop) (x x2 : GCObject)
    (hx : h a = some x) (hx2 : h2 a = some x2) (k : Kept s x x2) (ht : tableIn h a) :
    tableIn h2 a := by
  obtain ⟨y, hy, hk⟩ := ht
  rw [hx] at hy
  cases hy
  exact ⟨x2, hx2, k.1.trans hk⟩

theorem lk_refl (S : Addr → Prop) (g : global_State) : Lk S g g :=
  ⟨rfl, fun _ => ⟨fun e => e, fun x e => ⟨x, e, kept_refl _ x⟩⟩, fun _ => [],
    fun _ => rfl, fun _ _ k => (by cases k), fun _ _ _ k => (by cases k)⟩

theorem lk_mono (S S2 : Addr → Prop) (g g2 : global_State) (h : Lk S g g2)
    (hS : ∀ a, S a → S2 a) : Lk S2 g g2 := by
  obtain ⟨h1, h2, N, n1, n2, n3⟩ := h
  refine ⟨h1, fun a => ⟨(h2 a).1, fun x e => ?_⟩, N, n1, fun l a ha => ?_, n3⟩
  · obtain ⟨x2, e2, k⟩ := (h2 a).2 x e
    exact ⟨x2, e2, kept_mono _ _ _ _ k (hS a)⟩
  · obtain ⟨k1, k2, k3⟩ := n2 l a ha
    exact ⟨k1.imp (fun k => k) (hS a), k2, k3⟩

/-- Two steps in a row: the subjects of the second were not white at the
start and are no subjects of the first. -/
theorem lk_trans (S S2 : Addr → Prop) (g g1 g2 : global_State) (h1 : Lk S g g1)
    (h2 : Lk S2 g1 g2) (hS2 : ∀ a, S2 a → whiteIn g.heap a = false ∧ ¬ S a) :
    Lk (fun a => S a ∨ S2 a) g g2 := by
  have hb := lk_white_back S g g1 h1
  obtain ⟨a1, a2, N1, n1, n2, n3⟩ := h1
  obtain ⟨b1, b2, N2, m1, m2, m3⟩ := h2
  have hN1 : ∀ l a, a ∈ N1 l → ¬ S2 a := by
    intro l a ha k
    obtain ⟨w, ns⟩ := hS2 a k
    rcases (n2 l a ha).1 with c | c
    · rw [w] at c
      cases c
    · exact ns c
  refine ⟨b1.trans a1, fun a => ⟨fun e => (b2 a).1 ((a2 a).1 e), fun x e => ?_⟩,
    fun l => N2 l ++ N1 l, fun l => ?_, fun l a ha => ?_, fun l l2 a ha ha2 => ?_⟩
  · obtain ⟨x1, e1, k1⟩ := (a2 a).2 x e
    obtain ⟨x2, e2, k2⟩ := (b2 a).2 x1 e1
    exact ⟨x2, e2, kept_trans _ _ _ _ _ k1 k2⟩
  · refine isGSeg_append _ _ _ _ _ _ (m1 l) ?_
    refine isGSeg_frame g1.heap g2.heap _ _ _ ?_ (n1 l)
    intro a x ha hx
    obtain ⟨x2, e2, k2⟩ := (b2 a).2 x hx
    have hw : iswhite x.marked = false := by
      have := (n2 l a ha).2.1
      rw [whiteIn_some _ _ _ hx] at this
      exact this
    exact ⟨x2, e2, k2.2.2.2 hw (hN1 l a ha)⟩
  · rcases List.mem_append.1 ha with ha | ha
    · obtain ⟨k1, k2, k3⟩ := m2 l a ha
      refine ⟨?_, k2, k3⟩
      rcases k1 with c | c
      · exact Or.inl (hb a c)
      · exact Or.inr (Or.inr c)
    · obtain ⟨k1, k2, k3, k4⟩ := n2 l a ha
      obtain ⟨y, hy, -⟩ := id k3
      obtain ⟨y2, hy2, kk⟩ := (b2 a).2 y hy
      refine ⟨k1.imp (fun k => k) Or.inl, ?_, (hasGclist_kept _ _ a _ y y2 hy hy2 kk).1 k3,
        fun e => tableIn_kept _ _ a _ y y2 hy hy2 kk (k4 e)⟩
      rw [whiteIn_some _ _ _ hy] at k2
      rw [whiteIn_some _ _ _ hy2]
      exact kk.2.2.1 k2
  · have cross : ∀ l l2 a, a ∈ N2 l → a ∈ N1 l2 → False := by
      intro l l2 a ha ha2
      rcases (m2 l a ha).1 with c | c
      · rw [(n2 l2 a ha2).2.1] at c
        cases c
      · exact hN1 l2 a ha2 c
    rcases List.mem_append.1 ha with ha | ha
    · rcases List.mem_append.1 ha2 with ha2 | ha2
      · exact m3 l l2 a ha ha2
      · exact (cross l l2 a ha ha2).elim
    · rcases List.mem_append.1 ha2 with ha2 | ha2
      · exact (cross l2 l a ha2 ha).elim
      · exact n3 l l2 a ha ha2

theorem lk_trans0 (g g1 g2 : global_State) (h1 : Lk (fun _ => False) g g1)
    (h2 : Lk (fun _ => False) g1 g2) : Lk (fun _ => False) g g2 :=
  lk_mono _ _ _ _ (lk_trans _ _ g g1 g2 h1 h2 (fun _ k => k.elim))
    (fun _ k => k.elim (fun k => k) (fun k => k))

/-- Marking, then a step on the subject `o`, which was not white. -/
theorem lk_trans_fs (o : Addr) (g g1 g2 : global_State) (h1 : Lk (fun _ => False) g g1)
    (h2 : Lk (fun a => a = o) g1 g2) (hw : whiteIn g.heap o = false) :
    Lk (fun a => a = o) g g2 :=
  lk_mono _ _ _ _ (lk_trans _ _ g g1 g2 h1 h2 (fun a k => ⟨by rw [k]; exact hw, fun c => c⟩))
    (fun _ k => k.elim (fun c => c.elim) (fun c => c))

/-- A step on the subject `o`, then marking. -/
theorem lk_trans_sf (o : Addr) (g g1 g2 : global_State) (h1 : Lk (fun a => a = o) g g1)
    (h2 : Lk (fun _ => False) g1 g2) : Lk (fun a => a = o) g g2 :=
  lk_mono _ _ _ _ (lk_trans _ _ g g1 g2 h1 h2 (fun _ k => k.elim))
    (fun _ k => k.elim (fun c => c) (fun c => c.elim))

/-- A change of the memory and of fields that are no list heads. -/
theorem lk_same (g g2 : global_State) (htw : g2.twups = g.twups)
    (hl : ∀ l, g2.getlist l = g.getlist l)
    (hh : ∀ a, (g.heap a = none → g2.heap a = none) ∧
      ∀ x, g.heap a = some x → ∃ x2, g2.heap a = some x2 ∧ Kept False x x2) :
    Lk (fun _ => False) g g2 :=
  ⟨htw, hh, fun _ => [], fun l => hl l, fun _ _ k => (by cases k), fun _ _ _ k => (by cases k)⟩

theorem lk_setobj (g : global_State) (a : Addr) (x x2 : GCObject) (hx : g.heap a = some x)
    (k : Kept False x x2) : Lk (fun _ => False) g (g.setobj a x2) := by
  refine lk_same g _ rfl (fun l => setobj_getlist g a x2 l) (fun b => ?_)
  by_cases e : b = a
  · subst e
    refine ⟨fun c => ?_, fun y hy => ?_⟩
    · rw [hx] at c
      cases c
    · rw [hx] at hy
      cases hy
      exact ⟨x2, heap_set_same _ _ _, k⟩
  · refine ⟨fun c => ?_, fun y hy => ⟨y, ?_, kept_refl _ y⟩⟩
    · exact (heap_set_ne _ _ _ _ e).trans c
    · exact (heap_set_ne _ _ _ _ e).trans hy

theorem lk_setmark (g : global_State) (a : Addr) (x : GCObject) (m : Nat)
    (hx : g.heap a = some x) (hm : iswhite x.marked = false → iswhite m = false) :
    Lk (fun _ => False) g (g.setobj a { x with marked := m }) :=
  lk_setobj g a x _ hx ⟨rfl, rfl, hm, fun _ _ => rfl⟩

/-- The link of an object that is white or a subject into a gray list. -/
theorem linkgclist__lk (S : Addr → Prop) (g g2 : global_State) (o : Addr) (l : GrayList)
    (x : GCObject) (hx : g.heap o = some x) (hg : getgclist o x = some o)
    (hS : iswhite x.marked = true ∨ S o) (ht : l = .ephemeron → x.tt = .LUA_VTABLE)
    (h : linkgclist_ g o (some o) l = some g2) : Lk S g g2 := by
  unfold linkgclist_ at h
  simp only [Option.bind_eq_bind, Option.some_bind, hx, setlist_heap, setobj_heap,
    heap_set_same] at h
  cases h
  have hh : ∀ a, a ≠ o → ((g.setobj o { x with gclist := g.getlist l }).setlist l (some o)
      |>.setobj o { x with gclist := g.getlist l, marked := set2gray x.marked }).heap a
      = g.heap a := by
    intro a ha
    simp only [setobj_heap, setlist_heap]
    rw [heap_set_ne _ _ _ _ ha, heap_set_ne _ _ _ _ ha]
  have ho : ((g.setobj o { x with gclist := g.getlist l }).setlist l (some o)
      |>.setobj o { x with gclist := g.getlist l, marked := set2gray x.marked }).heap o
      = some { x with gclist := g.getlist l, marked := set2gray x.marked } := by
    simp only [setobj_heap]
    exact heap_set_same _ _ _
  refine ⟨by cases l <;> rfl, fun a => ?_, fun l2 => if l2 = l then [o] else [], fun l2 => ?_,
    fun l2 a ha => ?_, fun l1 l2 a ha ha2 => ?_⟩
  · by_cases e : a = o
    · subst e
      refine ⟨fun c => ?_, fun y hy => ?_⟩
      · rw [hx] at c
        cases c
      · rw [hx] at hy
        cases hy
        refine ⟨_, ho, rfl, rfl, fun _ => (set2gray_nonwhite _).1, fun hw hn => ?_⟩
        rcases hS with c | c
        · rw [hw] at c
          cases c
        · exact absurd c hn
    · refine ⟨fun c => (hh a e).trans c, fun y hy => ⟨y, (hh a e).trans hy, kept_refl _ y⟩⟩
  · try dsimp only
    by_cases e : l2 = l
    · subst e
      rw [if_pos rfl]
      refine ⟨?_, _, ho, rfl⟩
      simp
    · rw [if_neg e]
      show _ = _
      cases l <;> cases l2 <;> first | rfl | exact absurd rfl e
  · try dsimp only at ha
    by_cases e : l2 = l
    · rw [if_pos e] at ha
      have ea : a = o := List.mem_singleton.1 ha
      subst ea
      refine ⟨?_, ?_, ⟨_, ho, hg⟩, fun k => ⟨_, ho, ht (e ▸ k)⟩⟩
      · rcases hS with c | c
        · left
          rw [whiteIn_some _ _ _ hx]
          exact c
        · exact Or.inr c
      · rw [whiteIn_some _ _ _ ho]
        exact (set2gray_nonwhite _).1
    · rw [if_neg e] at ha
      cases ha
  · try dsimp only at ha ha2
    by_cases e : l1 = l
    · by_cases e2 : l2 = l
      · rw [e, e2]
      · rw [if_neg e2] at ha2
        cases ha2
    · rw [if_neg e] at ha
      cases ha

theorem linkobjgclist_lk (S : Addr → Prop) (g g2 : global_State) (o : Addr) (l : GrayList)
    (hS : whiteIn g.heap o = true ∨ S o) (hl : l ≠ .ephemeron)
    (h : linkobjgclist g o l = some g2) : Lk S g g2 := by
  obtain ⟨x, hx, hg, -, -⟩ := linkobjgclist_heap g g2 o l h
  unfold linkobjgclist at h
  simp only [Option.bind_eq_bind, Option.some_bind, hx, hg] at h
  refine linkgclist__lk S g g2 o l x hx hg ?_ (fun k => absurd k hl) h
  rw [whiteIn_some _ _ _ hx] at hS
  exact hS

theorem linkgclist_lk (g g2 : global_State) (o : Addr) (l : GrayList)
    (hg : hasGclist g.heap o) (ht : l = .ephemeron → tableIn g.heap o)
    (h : linkgclist g o l = some g2) : Lk (fun a => a = o) g g2 := by
  obtain ⟨x, hx, hk⟩ := hg
  refine linkgclist__lk _ g g2 o l x hx hk (Or.inr rfl) (fun k => ?_) h
  obtain ⟨y, hy, hty⟩ := ht k
  rw [hx] at hy
  cases hy
  exact hty

theorem markobject_with_lk (mark : global_State → Addr → Option global_State)
    (hmark : ∀ g o g2, mark g o = some g2 → whiteIn g.heap o = true → Lk (fun _ => False) g g2)
    (g g2 : global_State) (t : Addr) (h : markobject_with mark g t = some g2) :
    Lk (fun _ => False) g g2 := by
  unfold markobject_with at h
  simp only [Option.bind_eq_bind, Option.bind_eq_some] at h
  obtain ⟨x, hx, h⟩ := h
  split at h
  · rename_i hw
    refine hmark _ _ _ h ?_
    rw [whiteIn_some _ _ _ hx]
    exact hw
  · cases h
    exact lk_refl _ _

theorem markrec_lk (fuel : Nat) : ∀ (g : global_State) (o : Addr) (g2 : global_State),
    markrec fuel g o = some g2 → whiteIn g.heap o = true → Lk (fun _ => False) g g2 := by
  induction fuel with
  | zero => intro g o g2 h; simp [markrec] at h
  | succ n ih =>
    intro g o g2 h hw
    rw [markrec] at h
    simp only [Option.bind_eq_bind, Option.bind_eq_some] at h
    obtain ⟨x, hx, h⟩ := h
    split at h
    · cases h
      exact lk_setmark _ _ _ _ hx (fun _ => (set2black_nonwhite _).1)
    · cases h
      exact lk_setmark _ _ _ _ hx (fun _ => (set2black_nonwhite _).1)
    · have f1 : Lk (fun _ => False) g (g.setobj o
          { x with marked := if upisopen x then set2gray x.marked else set2black x.marked }) := by
        refine lk_setmark _ _ _ _ hx (fun _ => ?_)
        split
        · exact (set2gray_nonwhite _).1
        · exact (set2black_nonwhite _).1
      split at h
      · cases h
      · exact lk_trans0 _ _ _ f1 (markobject_with_lk _ ih _ _ _ h)
      · cases h
        exact f1
    · split at h
      · split at h
        · simp only [Option.some_bind, Option.bind_eq_some] at h
          obtain ⟨y, hy, h⟩ := h
          cases h
          exact lk_setmark _ _ _ _ hy (fun _ => (set2black_nonwhite _).1)
        · simp only [Option.bind_eq_some] at h
          obtain ⟨g1, h1, y, hy, h⟩ := h
          cases h
          exact lk_trans0 _ _ _ (markobject_with_lk _ ih _ _ _ h1)
            (lk_setmark _ _ _ _ hy (fun _ => (set2black_nonwhite _).1))
      · exact linkobjgclist_lk _ _ _ _ _ (Or.inl hw) (by decide) h
    · exact linkobjgclist_lk _ _ _ _ _ (Or.inl hw) (by decide) h

theorem reallymarkobject_lk (g : global_State) (o : Addr) (g2 : global_State)
    (h : reallymarkobject g o = some g2) (hw : whiteIn g.heap o = true) :
    Lk (fun _ => False) g g2 :=
  markrec_lk 3 g o g2 h hw

theorem markobject_lk (g : global_State) (t : Addr) (g2 : global_State)
    (h : markobject g t = some g2) : Lk (fun _ => False) g g2 :=
  markobject_with_lk _ reallymarkobject_lk g g2 t h

theorem markvalue_lk (g : global_State) (v : TValue) (g2 : global_State)
    (h : markvalue g v = some g2) : Lk (fun _ => False) g g2 := by
  unfold markvalue at h
  split at h
  · exact markobject_lk _ _ _ h
  · cases h
    exact lk_refl _ _

theorem markkey_lk (g : global_State) (n : Node) (g2 : global_State)
    (h : markkey g n = some g2) : Lk (fun _ => False) g g2 := by
  unfold markkey at h
  split at h
  · exact markobject_lk _ _ _ h
  · cases h
    exact lk_refl _ _

theorem markobjectN_lk (g : global_State) (t : Option Addr) (g2 : global_State)
    (h : markobjectN g t = some g2) : Lk (fun _ => False) g g2 := by
  unfold markobjectN at h
  split at h
  · cases h
    exact lk_refl _ _
  · exact markobject_lk _ _ _ h

theorem iscleared_lk (g : global_State) (o : Option Addr) (g2 : global_State) (b : Bool)
    (h : iscleared g o = some (g2, b)) : Lk (fun _ => False) g g2 := by
  unfold iscleared at h
  split at h
  · cases h
    exact lk_refl _ _
  · simp only [Option.bind_eq_bind, Option.bind_eq_some] at h
    obtain ⟨x, -, h⟩ := h
    split at h
    · simp only [Option.bind_eq_some] at h
      obtain ⟨g1, h1, h⟩ := h
      cases h
      exact markobject_lk _ _ _ h1
    · cases h
      exact lk_refl _ _

theorem genlink_lk (g : global_State) (o : Addr) (g2 : global_State)
    (h : genlink g o = some g2) : Lk (fun a => a = o) g g2 := by
  unfold genlink at h
  simp only [Option.bind_eq_bind, Option.bind_eq_some] at h
  obtain ⟨x, hx, h⟩ := h
  split at h
  · exact linkobjgclist_lk _ _ _ _ _ (Or.inr rfl) (by decide) h
  · split at h
    · cases h
      refine lk_mono _ _ _ _ (lk_setmark _ _ _ _ hx (fun e => ?_)) (fun _ k => k.elim)
      rw [iswhite_changeage]
      exact e
    · cases h
      exact lk_refl _ _

theorem markvalues_lk (l : List TValue) : ∀ (g g2 : global_State),
    markvalues l g = some g2 → Lk (fun _ => False) g g2 := by
  induction l with
  | nil => intro g g2 h; cases h; exact lk_refl _ _
  | cons x rest ih =>
    intro g g2 h
    rw [markvalues] at h
    simp only [Option.bind_eq_bind, Option.bind_eq_some] at h
    obtain ⟨g1, h1, h⟩ := h
    exact lk_trans0 _ _ _ (markvalue_lk _ _ _ h1) (ih _ _ h)

theorem markobjectsN_lk (l : List (Option Addr)) : ∀ (g g2 : global_State),
    markobjectsN l g = some g2 → Lk (fun _ => False) g g2 := by
  induction l with
  | nil => intro g g2 h; cases h; exact lk_refl _ _
  | cons x rest ih =>
    intro g g2 h
    rw [markobjectsN] at h
    simp only [Option.bind_eq_bind, Option.bind_eq_some] at h
    obtain ⟨g1, h1, h⟩ := h
    exact lk_trans0 _ _ _ (markobjectN_lk _ _ _ h1) (ih _ _ h)

/-- A write to the fields of an object that are neither mark nor link. -/
theorem lk_setfields (g : global_State) (a : Addr) (x x2 : GCObject) (hx : g.heap a = some x)
    (h1 : x2.tt = x.tt) (h2 : x2.twups = x.twups) (h3 : x2.marked = x.marked)
    (h4 : x2.gclist = x.gclist) : Lk (fun _ => False) g (g.setobj a x2) :=
  lk_setobj g a x x2 hx ⟨h1, h2, fun e => by rw [h3]; exact e, fun _ _ => h4⟩

theorem traverseweakvalue_loop_lk (h : Addr) (n : Nat) : ∀ (i : Nat) (g : global_State)
    (c : Bool) (g2 : global_State) (c2 : Bool),
    traverseweakvalue_loop h n i g c = some (g2, c2) → Lk (fun _ => False) g g2 := by
  induction n with
  | zero => intro i g c g2 c2 hr; cases hr; exact lk_refl _ _
  | succ n ih =>
    intro i g c g2 c2 hr
    rw [traverseweakvalue_loop] at hr
    simp only [Option.bind_eq_bind, Option.bind_eq_some] at hr
    obtain ⟨t, ht, nd, -, hr⟩ := hr
    split at hr
    · have e := ih _ _ _ _ _ hr
      refine lk_trans0 _ _ _ ?_ e
      exact lk_setfields _ _ _ _ ht rfl rfl rfl rfl
    · simp only [Option.bind_eq_some] at hr
      obtain ⟨g1, h1, hr⟩ := hr
      split at hr
      · simp only [Option.bind_eq_some] at hr
        obtain ⟨⟨g3, c3⟩, h3, hr⟩ := hr
        exact lk_trans0 _ _ _ (lk_trans0 _ _ _ (markkey_lk _ _ _ h1)
          (iscleared_lk _ _ _ _ h3)) (ih _ _ _ _ _ hr)
      · exact lk_trans0 _ _ _ (markkey_lk _ _ _ h1) (ih _ _ _ _ _ hr)

theorem hasGclist_lk (S : Addr → Prop) (g g2 : global_State) (h : Lk S g g2) (a : Addr)
    (hg : hasGclist g.heap a) : hasGclist g2.heap a := by
  obtain ⟨y, hy, hk⟩ := hg
  obtain ⟨y2, hy2, k⟩ := lk_live S g g2 h a y hy
  exact (hasGclist_kept _ _ a _ y y2 hy hy2 k).1 ⟨y, hy, hk⟩

theorem traverseweakvalue_lk (g : global_State) (h : Addr) (g2 : global_State)
    (hg : hasGclist g.heap h) (hnw : whiteIn g.heap h = false)
    (hr : traverseweakvalue g h = some g2) : Lk (fun a => a = h) g g2 := by
  unfold traverseweakvalue at hr
  simp only [Option.bind_eq_bind, Option.bind_eq_some] at hr
  obtain ⟨t, -, ⟨g1, c⟩, h1, hr⟩ := hr
  have e1 := traverseweakvalue_loop_lk _ _ _ _ _ _ _ h1
  have hg1 := hasGclist_lk _ _ _ e1 h hg
  split at hr
  · exact lk_trans_fs _ _ _ _ e1 (linkgclist_lk _ _ _ _ hg1 (fun k => by cases k) hr) hnw
  · exact lk_trans_fs _ _ _ _ e1 (linkgclist_lk _ _ _ _ hg1 (fun k => by cases k) hr) hnw

theorem valiswhite_white (g : global_State) (x : TValue) (r : Addr)
    (h : valiswhite g x = some true) (hr : gcvalueN x = some r) : whiteIn g.heap r = true := by
  unfold valiswhite at h
  split at h
  · rename_i t r2
    have e : r2 = r := by
      simp only [gcvalueN, Option.some.injEq] at hr
      exact hr
    subst e
    simp only [Option.map_eq_some'] at h
    obtain ⟨y, hy, hw⟩ := h
    rw [whiteIn_some _ _ _ hy]
    exact hw
  · cases h

theorem traverseephemeron_array_lk (l : List TValue) : ∀ (g : global_State) (m : Bool)
    (g2 : global_State) (m2 : Bool),
    traverseephemeron_array l g m = some (g2, m2) → Lk (fun _ => False) g g2 := by
  induction l with
  | nil => intro g m g2 m2 h; cases h; exact lk_refl _ _
  | cons x rest ih =>
    intro g m g2 m2 h
    rw [traverseephemeron_array] at h
    simp only [Option.bind_eq_bind, Option.bind_eq_some] at h
    obtain ⟨w, hw, h⟩ := h
    split at h
    · rename_i hwt
      subst hwt
      simp only [Option.bind_eq_some] at h
      obtain ⟨r, hr, g1, h1, h⟩ := h
      exact lk_trans0 _ _ _ (reallymarkobject_lk _ _ _ h1 (valiswhite_white g x r hw hr))
        (ih _ _ _ _ h)
    · exact ih _ _ _ _ h

theorem traverseephemeron_loop_lk (h : Addr) (inv : Bool) (nsize : Nat) (n : Nat) :
    ∀ (i : Nat) (g : global_State) (f : EphFlags) (g2 : global_State) (f2 : EphFlags),
    traverseephemeron_loop h inv nsize n i g f = some (g2, f2) → Lk (fun _ => False) g g2 := by
  induction n with
  | zero => intro i g f g2 f2 hr; cases hr; exact lk_refl _ _
  | succ n ih =>
    intro i g f g2 f2 hr
    rw [traverseephemeron_loop] at hr
    simp only [Option.bind_eq_bind, Option.bind_eq_some] at hr
    obtain ⟨t, ht, nd, -, hr⟩ := hr
    split at hr
    · have e := ih _ _ _ _ _ hr
      refine lk_trans0 _ _ _ ?_ e
      exact lk_setfields _ _ _ _ ht rfl rfl rfl rfl
    · simp only [Option.bind_eq_some] at hr
      obtain ⟨⟨g1, c⟩, h1, w, hw, hr⟩ := hr
      have e1 := iscleared_lk _ _ _ _ h1
      split at hr
      · exact lk_trans0 _ _ _ (e1) (ih _ _ _ _ _ hr)
      · split at hr
        · rename_i hwt
          subst hwt
          simp only [Option.bind_eq_some] at hr
          obtain ⟨r, hr0, g3, h3, hr⟩ := hr
          exact lk_trans0 _ _ _ (lk_trans0 _ _ _ (e1)
            (reallymarkobject_lk _ _ _ h3 (valiswhite_white g1 _ r hw hr0))) (ih _ _ _ _ _ hr)
        · exact lk_trans0 _ _ _ (e1) (ih _ _ _ _ _ hr)

theorem tableIn_lk (S : Addr → Prop) (g g2 : global_State) (h : Lk S g g2) (a : Addr)
    (ht : tableIn g.heap a) : tableIn g2.heap a := by
  obtain ⟨y, hy, hk⟩ := ht
  obtain ⟨y2, hy2, k⟩ := lk_live S g g2 h a y hy
  exact ⟨y2, hy2, k.1.trans hk⟩

theorem traverseephemeron_lk (g : global_State) (h : Addr) (inv : Bool) (g2 : global_State)
    (m : Bool) (hg : hasGclist g.heap h) (htab : tableIn g.heap h)
    (hnw : whiteIn g.heap h = false)
    (hr : traverseephemeron g h inv = some (g2, m)) : Lk (fun a => a = h) g g2 := by
  unfold traverseephemeron at hr
  simp only [Option.bind_eq_bind, Option.bind_eq_some] at hr
  obtain ⟨t, -, ⟨g1, m1⟩, h1, ⟨g3, f⟩, h3, hr⟩ := hr
  have e1 := traverseephemeron_array_lk _ _ _ _ _ h1
  have e3 := traverseephemeron_loop_lk _ _ _ _ _ _ _ _ _ h3
  have e13 := lk_trans0 _ _ _ e1 e3
  have hg3 := hasGclist_lk _ _ _ e13 h hg
  have ht3 := tableIn_lk _ _ _ e13 h htab
  dsimp only at hr
  have key : ∀ r : Option global_State, (∀ g4, r = some g4 → Lk (fun a => a = h) g3 g4) →
      (r.bind fun y => some (y, f.marked)) = some (g2, m) → Lk (fun a => a = h) g g2 := by
    intro r hk hb
    simp only [Option.bind_eq_some, Option.some.injEq, Prod.mk.injEq] at hb
    obtain ⟨g4, h4, rfl, -⟩ := hb
    exact lk_trans_fs _ _ _ _ e13 (hk _ h4) hnw
  split at hr
  · exact key _ (fun g4 h4 => linkgclist_lk _ _ _ _ hg3 (fun _ => ht3) h4) hr
  · split at hr
    · exact key _ (fun g4 h4 => linkgclist_lk _ _ _ _ hg3 (fun _ => ht3) h4) hr
    · split at hr
      · exact key _ (fun g4 h4 => linkgclist_lk _ _ _ _ hg3 (fun _ => ht3) h4) hr
      · exact key _ (fun g4 h4 => genlink_lk _ _ _ h4) hr

theorem traversestrongtable_loop_lk (h : Addr) (n : Nat) : ∀ (i : Nat) (g g2 : global_State),
    traversestrongtable_loop h n i g = some g2 → Lk (fun _ => False) g g2 := by
  induction n with
  | zero => intro i g g2 hr; cases hr; exact lk_refl _ _
  | succ n ih =>
    intro i g g2 hr
    rw [traversestrongtable_loop] at hr
    simp only [Option.bind_eq_bind, Option.bind_eq_some] at hr
    obtain ⟨t, ht, nd, -, hr⟩ := hr
    split at hr
    · have e := ih _ _ _ hr
      refine lk_trans0 _ _ _ ?_ e
      exact lk_setfields _ _ _ _ ht rfl rfl rfl rfl
    · simp only [Option.bind_eq_some] at hr
      obtain ⟨g1, h1, g3, h3, hr⟩ := hr
      exact lk_trans0 _ _ _ (lk_trans0 _ _ _ (markkey_lk _ _ _ h1) (markvalue_lk _ _ _ h3))
        (ih _ _ _ hr)

theorem traversestrongtable_lk (g : global_State) (h : Addr) (g2 : global_State)
    (hnw : whiteIn g.heap h = false)
    (hr : traversestrongtable g h = some g2) : Lk (fun a => a = h) g g2 := by
  unfold traversestrongtable at hr
  simp only [Option.bind_eq_bind, Option.bind_eq_some] at hr
  obtain ⟨t, -, g1, h1, g3, h3, hr⟩ := hr
  exact lk_trans_fs _ _ _ _ (lk_trans0 _ _ _ (markvalues_lk _ _ _ h1)
    (traversestrongtable_loop_lk _ _ _ _ _ h3)) (genlink_lk _ _ _ hr) hnw

theorem traversetable_lk (g : global_State) (h : Addr) (g2 : global_State) (w : Nat)
    (hg : hasGclist g.heap h) (htab : tableIn g.heap h) (hnw : whiteIn g.heap h = false)
    (hr : traversetable g h = some (g2, w)) : Lk (fun a => a = h) g g2 := by
  unfold traversetable at hr
  simp only [Option.bind_eq_bind, Option.bind_eq_some] at hr
  obtain ⟨t, -, mode, -, g1, h1, hr⟩ := hr
  have e1 := markobjectN_lk _ _ _ h1
  have hg1 := hasGclist_lk _ _ _ e1 h hg
  have ht1 := tableIn_lk _ _ _ e1 h htab
  have hnw1 := lk_nonwhite _ _ _ e1 h hnw
  have key : ∀ r : Option global_State, (∀ g3, r = some g3 → Lk (fun a => a = h) g1 g3) →
      (r.bind fun g3 => (g3.heap h).bind fun t2 =>
        some (g3, 1 + t2.alimit + 2 * allocsizenode t2)) = some (g2, w) →
      Lk (fun a => a = h) g g2 := by
    intro r hk hb
    simp only [Option.bind_eq_some, Option.some.injEq, Prod.mk.injEq] at hb
    obtain ⟨g3, h3, t2, -, rfl, -⟩ := hb
    exact lk_trans_fs _ _ _ _ e1 (hk _ h3) hnw
  split at hr
  · simp only [Option.bind_eq_bind, Option.bind_eq_some] at hr
    obtain ⟨smode, -, hr⟩ := hr
    split at hr
    · split at hr
      · exact key _ (fun g3 h3 => traverseweakvalue_lk _ _ _ hg1 hnw1 h3) hr
      · split at hr
        · refine key _ ?_ hr
          intro g3 h3
          simp only [Option.map_eq_some'] at h3
          obtain ⟨⟨g4, m⟩, h4, rfl⟩ := h3
          exact traverseephemeron_lk _ _ _ _ _ hg1 ht1 hnw1 h4
        · exact key _ (fun g3 h3 => linkgclist_lk _ _ _ _ hg1 (fun _ => ht1) h3) hr
    · exact key _ (fun g3 h3 => traversestrongtable_lk _ _ _ hnw1 h3) hr
  · exact key _ (fun g3 h3 => traversestrongtable_lk _ _ _ hnw1 h3) hr

theorem traverseudata_lk (g : global_State) (u : Addr) (g2 : global_State) (w : Nat)
    (hnw : whiteIn g.heap u = false)
    (hr : traverseudata g u = some (g2, w)) : Lk (fun a => a = u) g g2 := by
  unfold traverseudata at hr
  simp only [Option.bind_eq_bind, Option.bind_eq_some] at hr
  obtain ⟨x, -, g1, h1, g3, h3, g4, h4, y, -, hr⟩ := hr
  simp only [Option.some.injEq, Prod.mk.injEq] at hr
  obtain ⟨rfl, -⟩ := hr
  exact lk_trans_fs _ _ _ _ (lk_trans0 _ _ _ (markobjectN_lk _ _ _ h1) (markvalues_lk _ _ _ h3))
    (genlink_lk _ _ _ h4) hnw

theorem traverseproto_lk (g : global_State) (f : Addr) (g2 : global_State) (w : Nat)
    (hr : traverseproto g f = some (g2, w)) : Lk (fun _ => False) g g2 := by
  unfold traverseproto at hr
  simp only [Option.bind_eq_bind, Option.bind_eq_some] at hr
  obtain ⟨x, -, g1, h1, g3, h3, g4, h4, g5, h5, g6, h6, hr⟩ := hr
  simp only [Option.some.injEq, Prod.mk.injEq] at hr
  obtain ⟨rfl, -⟩ := hr
  exact lk_trans0 _ _ _ (lk_trans0 _ _ _ (lk_trans0 _ _ _ (lk_trans0 _ _ _
    (markobjectN_lk _ _ _ h1) (markvalues_lk _ _ _ h3)) (markobjectsN_lk _ _ _ h4))
    (markobjectsN_lk _ _ _ h5)) (markobjectsN_lk _ _ _ h6)

theorem traverseCclosure_lk (g : global_State) (cl : Addr) (g2 : global_State) (w : Nat)
    (hr : traverseCclosure g cl = some (g2, w)) : Lk (fun _ => False) g g2 := by
  unfold traverseCclosure at hr
  simp only [Option.bind_eq_bind, Option.bind_eq_some] at hr
  obtain ⟨x, -, g1, h1, hr⟩ := hr
  simp only [Option.some.injEq, Prod.mk.injEq] at hr
  obtain ⟨rfl, -⟩ := hr
  exact markvalues_lk _ _ _ h1

theorem traverseLclosure_lk (g : global_State) (cl : Addr) (g2 : global_State) (w : Nat)
    (hr : traverseLclosure g cl = some (g2, w)) : Lk (fun _ => False) g g2 := by
  unfold traverseLclosure at hr
  simp only [Option.bind_eq_bind, Option.bind_eq_some] at hr
  obtain ⟨x, -, g1, h1, g3, h3, hr⟩ := hr
  simp only [Option.some.injEq, Prod.mk.injEq] at hr
  obtain ⟨rfl, -⟩ := hr
  exact lk_trans0 _ _ _ (markobjectN_lk _ _ _ h1) (markobjectsN_lk _ _ _ h3)

theorem luaD_shrinkstack_lk (env : Env) (g : global_State) (th : Addr) (g2 : global_State)
    (hr : luaD_shrinkstack env g th = some g2) : Lk (fun _ => False) g g2 := by
  unfold luaD_shrinkstack at hr
  simp only [Option.bind_eq_bind, Option.bind_eq_some] at hr
  obtain ⟨t, ht, s, -, hr⟩ := hr
  split at hr
  · cases hr
    refine lk_trans0 _ _ _ (lk_same g { g with GCdebt := _ } rfl (fun l => by cases l <;> rfl)
      (fun a => ⟨fun e => e, fun x e => ⟨x, e, kept_refl _ x⟩⟩)) ?_
    exact lk_setfields _ _ _ _ ht rfl rfl rfl rfl
  · cases hr
    exact lk_refl _ _

theorem traversethread_uvs_lk (fuel : Nat) : ∀ (g : global_State) (uv : Option Addr)
    (g2 : global_State), traversethread_uvs fuel g uv = some g2 → Lk (fun _ => False) g g2 := by
  induction fuel with
  | zero => intro g uv g2 hr; simp [traversethread_uvs] at hr
  | succ n ih =>
    intro g uv g2 hr
    cases uv with
    | none =>
      simp only [traversethread_uvs, Option.some.injEq] at hr
      subst hr
      exact lk_refl _ _
    | some u =>
      rw [traversethread_uvs] at hr
      simp only [Option.bind_eq_bind, Option.bind_eq_some] at hr
      obtain ⟨g1, h1, x, -, hr⟩ := hr
      exact lk_trans0 _ _ _ (markobject_lk _ _ _ h1) (ih _ _ _ hr)

/-! ## Well-formed gray lists under the steps of the marker -/

theorem ghead_of_getlist (g g2 : global_State) (d : Option Addr)
    (hl : ∀ l, g2.getlist l = g.getlist l) (s : Option GrayList) :
    ghead g2 d s = ghead g d s := by
  cases s with
  | none => rfl
  | some l => exact hl l

/-- A change of the memory that keeps tags, `gclist` links and the colour of
non-white objects keeps the gray lists. -/
theorem gls_of_kept (g g2 : global_State) (d : Option Addr)
    (Ls : Option GrayList → List Addr) (hG : GLs g d Ls)
    (hl : ∀ l, g2.getlist l = g.getlist l)
    (hh : ∀ a x, g.heap a = some x → ∃ x2, g2.heap a = some x2 ∧ x2.tt = x.tt ∧
      x2.gclist = x.gclist ∧ (iswhite x.marked = false → iswhite x2.marked = false)) :
    GLs g2 d Ls := by
  refine ⟨fun s => ?_, fun s a ha => ?_, hG.apart⟩
  · rw [ghead_of_getlist g g2 d hl s]
    refine isGSeg_frame g.heap g2.heap none _ _ ?_ (hG.seg s)
    intro a x _ hx
    obtain ⟨x2, e2, -, eg, -⟩ := hh a x hx
    exact ⟨x2, e2, eg⟩
  · obtain ⟨hw, ⟨y, hy, hk⟩, htb⟩ := hG.ok s a ha
    obtain ⟨y2, e2, et, -, ew⟩ := hh a y hy
    refine ⟨?_, ⟨y2, e2, ?_⟩, fun e => ?_⟩
    · rw [whiteIn_some _ _ _ hy] at hw
      rw [whiteIn_some _ _ _ e2]
      exact ew hw
    · unfold getgclist at hk ⊢
      rw [et]
      exact hk
    · obtain ⟨z, hz, hzt⟩ := htb e
      rw [hy] at hz
      cases hz
      exact ⟨y2, e2, et.trans hzt⟩

/-- The gray lists after a step of the marker whose subjects were on no list:
each list is the new segment followed by the old list. -/
theorem gls_lk (S : Addr → Prop) (g g2 : global_State) (d : Option Addr)
    (Ls : Option GrayList → List Addr) (hG : GLs g d Ls) (h : Lk S g g2)
    (hS : ∀ a, S a → ∀ s, a ∉ Ls s) :
    ∃ Ls2, GLs g2 d Ls2 ∧ (∀ s a, a ∈ Ls s → a ∈ Ls2 s) ∧ Ls2 none = Ls none := by
  have hnw := lk_nonwhite S g g2 h
  have hgc := hasGclist_lk S g g2 h
  have htb := tableIn_lk S g g2 h
  obtain ⟨h1, h2, N, n1, n2, n3⟩ := h
  have hold : ∀ s, IsGSeg g2.heap (ghead g d s) (Ls s) none := by
    intro s
    refine isGSeg_frame g.heap g2.heap none _ _ ?_ (hG.seg s)
    intro a x ha hx
    obtain ⟨x2, e2, k⟩ := (h2 a).2 x hx
    have hw := (hG.ok s a ha).1
    rw [whiteIn_some _ _ _ hx] at hw
    exact ⟨x2, e2, k.2.2.2 hw (fun c => hS a c s ha)⟩
  have hnew : ∀ l a, a ∈ N l → ∀ s, a ∉ Ls s := by
    intro l a ha s hs
    rcases (n2 l a ha).1 with c | c
    · rw [(hG.ok s a hs).1] at c
      cases c
    · exact hS a c s hs
  refine ⟨fun s => match s with
    | none => Ls none
    | some l => N l ++ Ls (some l), ⟨fun s => ?_, fun s a ha => ?_, fun s s2 a ha ha2 => ?_⟩,
    fun s a ha => ?_, rfl⟩
  · cases s with
    | none => exact hold none
    | some l => exact isGSeg_append _ _ _ _ _ _ (n1 l) (hold (some l))
  · cases s with
    | none =>
      obtain ⟨k1, k2, -⟩ := hG.ok none a ha
      exact ⟨hnw a k1, hgc a k2, fun e => by cases e⟩
    | some l =>
      rcases List.mem_append.1 ha with c | c
      · exact ⟨(n2 l a c).2.1, (n2 l a c).2.2.1, fun e => (n2 l a c).2.2.2 (Option.some.inj e)⟩
      · obtain ⟨k1, k2, k3⟩ := hG.ok (some l) a c
        exact ⟨hnw a k1, hgc a k2, fun e => htb a (k3 e)⟩
  · cases s with
    | none =>
      cases s2 with
      | none => rfl
      | some l2 =>
        rcases List.mem_append.1 ha2 with c | c
        · exact (hnew l2 a c none ha).elim
        · exact hG.apart _ _ a ha c
    | some l =>
      cases s2 with
      | none =>
        rcases List.mem_append.1 ha with c | c
        · exact (hnew l a c none ha2).elim
        · exact hG.apart _ _ a c ha2
      | some l2 =>
        rcases List.mem_append.1 ha with c | c
        · rcases List.mem_append.1 ha2 with c2 | c2
          · rw [n3 l l2 a c c2]
          · exact (hnew l a c _ c2).elim
        · rcases List.mem_append.1 ha2 with c2 | c2
          · exact (hnew l2 a c2 _ c).elim
          · exact hG.apart _ _ a c c2
  · cases s with
    | none => exact ha
    | some l => exact List.mem_append_right _ ha

theorem isTwList_lk (S : Addr → Prop) (g g2 : global_State) (T : List Addr)
    (hT : IsTwList g.heap g.twups T) (h : Lk S g g2) : IsTwList g2.heap g2.twups T := by
  rw [h.1]
  refine isTwList_frame g.heap g2.heap T _ ?_ hT
  intro a _
  unfold twOf
  rcases Option.eq_none_or_eq_some (g.heap a) with e | ⟨x, e⟩
  · rw [e, (h.2.1 a).1 e]
  · obtain ⟨x2, e2, k⟩ := (h.2.1 a).2 x e
    rw [e, e2]
    simp only [Option.map_some', k.2.1]

theorem shape_lk (g g2 : global_State) (d : Option Addr) (hS : Shape g d)
    (h : Lk (fun _ => False) g g2) : Shape g2 d := by
  obtain ⟨⟨Ls, hG⟩, T, hT⟩ := hS
  obtain ⟨Ls2, hG2, -, -⟩ := gls_lk _ g g2 d Ls hG h (fun _ k => k.elim)
  exact ⟨⟨Ls2, hG2⟩, T, isTwList_lk _ g g2 T hT h⟩

/-- The head of the list `s` leaves the list. -/
theorem gls_pop (g : global_State) (d : Option Addr) (Ls : Option GrayList → List Addr)
    (hG : GLs g d Ls) (s : Option GrayList) (o : Addr) (y : GCObject)
    (hh : ghead g d s = some o) (hy : g.heap o = some y)
    (g2 : global_State) (d2 : Option Addr) (hheap : g2.heap = g.heap)
    (hs : ghead g2 d2 s = y.gclist) (hother : ∀ s2, s2 ≠ s → ghead g2 d2 s2 = ghead g d s2) :
    ∃ Ls2, GLs g2 d2 Ls2 ∧ (∀ s2, o ∉ Ls2 s2) ∧ (∀ s2 a, a ∈ Ls2 s2 → a ∈ Ls s2) ∧
      ∀ s2, s2 ≠ s → Ls2 s2 = Ls s2 := by
  have hseg := hG.seg s
  rw [hh] at hseg
  obtain ⟨G, eG, x, hx, hrest⟩ : ∃ G, Ls s = o :: G ∧ ∃ x, g.heap o = some x ∧
      IsGSeg g.heap x.gclist G none := by
    cases e : Ls s with
    | nil =>
      rw [e] at hseg
      cases hseg
    | cons b G =>
      rw [e] at hseg
      obtain ⟨e1, x, hx, hr⟩ := hseg
      cases e1
      exact ⟨G, rfl, x, hx, hr⟩
  rw [hy] at hx
  cases hx
  have hnd : (o :: G).Nodup := by
    have := isGList_nodup g.heap (Ls s) _ (hG.seg s)
    rw [eG] at this
    exact this
  refine ⟨fun s2 => if s2 = s then G else Ls s2, ⟨fun s2 => ?_, fun s2 a ha => ?_,
    fun s2 s3 a ha ha3 => ?_⟩, fun s2 ha => ?_, fun s2 a ha => ?_, fun s2 e => if_neg e⟩
  · rw [hheap]
    by_cases e : s2 = s
    · rw [if_pos e, e, hs]
      exact hrest
    · rw [if_neg e, hother s2 e]
      exact hG.seg s2
  · rw [hheap]
    by_cases e : s2 = s
    · rw [if_pos e] at ha
      rw [e]
      exact hG.ok s a (by rw [eG]; exact List.mem_cons_of_mem _ ha)
    · rw [if_neg e] at ha
      exact hG.ok s2 a ha
  · try dsimp only at ha ha3
    have m1 : a ∈ Ls s2 := by
      by_cases e : s2 = s
      · rw [if_pos e] at ha
        rw [e, eG]
        exact List.mem_cons_of_mem _ ha
      · rw [if_neg e] at ha
        exact ha
    have m3 : a ∈ Ls s3 := by
      by_cases e : s3 = s
      · rw [if_pos e] at ha3
        rw [e, eG]
        exact List.mem_cons_of_mem _ ha3
      · rw [if_neg e] at ha3
        exact ha3
    exact hG.apart _ _ a m1 m3
  · try dsimp only at ha
    by_cases e : s2 = s
    · rw [if_pos e] at ha
      exact (List.nodup_cons.1 hnd).1 ha
    · rw [if_neg e] at ha
      have := hG.apart s2 s o ha (by rw [eG]; exact List.mem_cons_self _ _)
      exact e this
  · try dsimp only at ha
    by_cases e : s2 = s
    · rw [if_pos e] at ha
      rw [e, eG]
      exact List.mem_cons_of_mem _ ha
    · rw [if_neg e] at ha
      exact ha

/-- A list with an empty head is empty. -/
theorem gls_empty (g : global_State) (d : Option Addr) (Ls : Option GrayList → List Addr)
    (hG : GLs g d Ls) (s : Option GrayList) (h : ghead g d s = none) : Ls s = [] := by
  have := hG.seg s
  rw [h] at this
  cases e : Ls s with
  | nil => rfl
  | cons b l =>
    rw [e] at this
    cases this.1

/-- The list `s` moves to the empty place `s2`. -/
theorem gls_move (g : global_State) (d : Option Addr) (Ls : Option GrayList → List Addr)
    (hG : GLs g d Ls) (s s2 : Option GrayList) (hne : s ≠ s2) (he : ghead g d s2 = none)
    (hs2 : s2 ≠ some .ephemeron)
    (g2 : global_State) (d2 : Option Addr) (hheap : g2.heap = g.heap)
    (h1 : ghead g2 d2 s = none) (h2 : ghead g2 d2 s2 = ghead g d s)
    (hother : ∀ s3, s3 ≠ s → s3 ≠ s2 → ghead g2 d2 s3 = ghead g d s3) :
    ∃ Ls2, GLs g2 d2 Ls2 ∧ Ls2 s2 = Ls s ∧ ∀ s3, s3 ≠ s → s3 ≠ s2 → Ls2 s3 = Ls s3 := by
  have hemp := gls_empty g d Ls hG s2 he
  refine ⟨fun s3 => if s3 = s then [] else if s3 = s2 then Ls s else Ls s3,
    ⟨fun s3 => ?_, fun s3 a ha => ?_, fun s3 s4 a ha ha4 => ?_⟩, ?_,
    fun s3 k1 k2 => (if_neg k1).trans (if_neg k2)⟩
  rotate_right
  · try dsimp only
    rw [if_neg (fun e => hne e.symm), if_pos rfl]
  · rw [hheap]
    by_cases e : s3 = s
    · rw [if_pos e, e, h1]
      rfl
    · rw [if_neg e]
      by_cases e2 : s3 = s2
      · rw [if_pos e2, e2, h2]
        exact hG.seg s
      · rw [if_neg e2, hother s3 e e2]
        exact hG.seg s3
  · rw [hheap]
    by_cases e : s3 = s
    · rw [if_pos e] at ha
      cases ha
    · rw [if_neg e] at ha
      by_cases e2 : s3 = s2
      · rw [if_pos e2] at ha
        obtain ⟨k1, k2, -⟩ := hG.ok s a ha
        exact ⟨k1, k2, fun k => absurd (e2.symm.trans k) hs2⟩
      · rw [if_neg e2] at ha
        exact hG.ok s3 a ha
  · try dsimp only at ha ha4
    have key : ∀ t, a ∈ (if t = s then [] else if t = s2 then Ls s else Ls t) →
        (t = s2 ∧ a ∈ Ls s) ∨ (t ≠ s ∧ t ≠ s2 ∧ a ∈ Ls t) := by
      intro t ht
      by_cases e : t = s
      · rw [if_pos e] at ht
        cases ht
      · rw [if_neg e] at ht
        by_cases e2 : t = s2
        · rw [if_pos e2] at ht
          exact Or.inl ⟨e2, ht⟩
        · rw [if_neg e2] at ht
          exact Or.inr ⟨e, e2, ht⟩
    rcases key s3 ha with ⟨c1, c2⟩ | ⟨c1, c2, c3⟩
    · rcases key s4 ha4 with ⟨k1, -⟩ | ⟨k1, -, k3⟩
      · rw [c1, k1]
      · exact absurd (hG.apart _ _ a k3 c2) k1
    · rcases key s4 ha4 with ⟨-, k2⟩ | ⟨-, -, k3⟩
      · exact absurd (hG.apart _ _ a c3 k2) c1
      · exact hG.apart _ _ a c3 k3

/-- A thread that is not in the list `twups` is pushed on it. -/
theorem isTwList_push (h h2 : Heap) (p : Option Addr) (T : List Addr) (th : Addr)
    (t : GCObject) (hT : IsTwList h p T) (ht : h th = some t) (hself : t.twups = some th)
    (hth : twOf h2 th = some p) (hoth : ∀ a, a ≠ th → twOf h2 a = twOf h a) :
    IsTwList h2 (some th) (th :: T) := by
  have hnot : th ∉ T := by
    intro hm
    obtain ⟨L1, L2, o, e, ho, hr⟩ := isGSeg_suffix (twHeap h) none T p th
      ((isTwList_iff_seg h T p).1 hT) hm
    have ho2 : o.gclist = some th := by
      unfold twHeap at ho
      rw [ht] at ho
      cases ho
      exact hself
    rw [ho2] at hr
    have hnd := isTwList_nodup h T p hT
    rw [e] at hnd
    have hnd2 := (List.nodup_append.1 hnd).2.1
    cases L2 with
    | nil => cases hr
    | cons b L3 =>
      have eb : b = th := (Option.some.inj hr.1).symm
      rw [eb] at hnd2
      exact (List.nodup_cons.1 hnd2).1 (List.mem_cons_self _ _)
  have hth2 := hth
  unfold twOf at hth2
  simp only [Option.map_eq_some'] at hth2
  obtain ⟨t2, e2, et⟩ := hth2
  refine ⟨rfl, t2, e2, ?_⟩
  rw [et]
  exact isTwList_frame h h2 T p (fun a ha => hoth a (fun e => hnot (e ▸ ha))) hT

/-! ## The shape of the lists under `propagatemark` -/

theorem getgclist_eq (a b : Addr) (x : GCObject) (h : getgclist a x = some b) : b = a := by
  unfold getgclist at h
  split at h <;> first | exact (Option.some.inj h).symm | cases h

theorem keepW_refl (Ls : Option GrayList → List Addr) : KeepW Ls Ls :=
  fun _ => ⟨fun k => k, fun k => k⟩

theorem keepW_trans (A B C : Option GrayList → List Addr) (h1 : KeepW A B) (h2 : KeepW B C) :
    KeepW A C :=
  fun a => ⟨fun k => (h2 a).1 ((h1 a).1 k), fun k => (h2 a).2 ((h1 a).2 k)⟩

theorem keepW_of_sub (A B : Option GrayList → List Addr) (h : ∀ s a, a ∈ A s → a ∈ B s) :
    KeepW A B :=
  fun a => ⟨h _ a, h _ a⟩

theorem gls_lk0 (g g2 : global_State) (d : Option Addr) (h : Lk (fun _ => False) g g2)
    (hG : ∃ Ls, GLs g d Ls) : ∃ Ls2, GLs g2 d Ls2 := by
  obtain ⟨Ls, hG⟩ := hG
  obtain ⟨Ls2, hG2, -, -⟩ := gls_lk _ g g2 d Ls hG h (fun _ k => k.elim)
  exact ⟨Ls2, hG2⟩

/-- `traversethread` on a thread that is not white and on no gray list keeps
the gray lists and the list `twups` well formed. -/
theorem traversethread_gls (env : Env) (fuel : Nat) (g : global_State) (th : Addr)
    (g2 : global_State) (w : Nat) (d : Option Addr) (Ls : Option GrayList → List Addr)
    (T : List Addr) (hG : GLs g d Ls) (hT : IsTwList g.heap g.twups T)
    (hun : ∀ s, th ∉ Ls s) (hgc : hasGclist g.heap th)
    (hr : traversethread env fuel g th = some (g2, w)) :
    ∃ Ls2, GLs g2 d Ls2 ∧ Ls2 none = Ls none ∧ KeepW Ls Ls2 ∧
      ∃ T2, IsTwList g2.heap g2.twups T2 := by
  unfold traversethread at hr
  simp only [Option.bind_eq_bind, Option.bind_eq_some] at hr
  obtain ⟨t, -, g1, h1, hr⟩ := hr
  have e1 : Lk (fun a => a = th) g g1 := by
    split at h1
    · exact linkgclist_lk _ _ _ _ hgc (fun k => by cases k) h1
    · cases h1
      exact lk_refl _ _
  have fin : ∀ g5, Lk (fun a => a = th) g g5 →
      ∃ Ls2, GLs g5 d Ls2 ∧ Ls2 none = Ls none ∧ KeepW Ls Ls2 ∧
        IsTwList g5.heap g5.twups T := by
    intro g5 e
    obtain ⟨Ls2, hG2, hs, e2⟩ := gls_lk _ g g5 d Ls hG e (fun a k s => by rw [k]; exact hun s)
    exact ⟨Ls2, hG2, e2, keepW_of_sub _ _ hs, isTwList_lk _ g g5 T hT e⟩
  have fin2 : ∀ g5, Lk (fun a => a = th) g g5 →
      ∃ Ls2, GLs g5 d Ls2 ∧ Ls2 none = Ls none ∧ KeepW Ls Ls2 ∧
        ∃ T2, IsTwList g5.heap g5.twups T2 := by
    intro g5 e
    obtain ⟨Ls2, k1, k2, k3, k4⟩ := fin g5 e
    exact ⟨Ls2, k1, k2, k3, T, k4⟩
  split at hr
  · simp only [Option.some.injEq, Prod.mk.injEq] at hr
    obtain ⟨rfl, -⟩ := hr
    exact fin2 _ e1
  · simp only [Option.bind_eq_bind, Option.bind_eq_some] at hr
    obtain ⟨g3, h3, t2, -, g4, h4, g5, h5, t7, -, hr⟩ := hr
    simp only [Option.some.injEq, Prod.mk.injEq] at hr
    obtain ⟨rfl, -⟩ := hr
    have e3 := markvalues_lk _ _ _ h3
    have e4 := traversethread_uvs_lk _ _ _ _ h4
    have e14 : Lk (fun a => a = th) g g4 := lk_trans_sf _ _ _ _ (lk_trans_sf _ _ _ _ e1 e3) e4
    split at h5
    · simp only [Option.bind_eq_bind, Option.bind_eq_some] at h5
      obtain ⟨g6, h6, t5, ht5, s5, -, t6, ht6, h5⟩ := h5
      have e6 : Lk (fun _ => False) g4 g6 := by
        split at h6
        · exact luaD_shrinkstack_lk _ _ _ _ h6
        · cases h6
          exact lk_refl _ _
      have e7 : Lk (fun _ => False) g6 (g6.setobj th
          { t5 with stack := some (clearslice s5 t5.top (t5.stack_last + EXTRA_STACK)) }) :=
        lk_setfields _ _ _ _ ht5 rfl rfl rfl rfl
      have e17 := lk_trans_sf _ _ _ _ (lk_trans_sf _ _ _ _ e14 e6) e7
      split at h5
      · rename_i hc
        cases h5
        obtain ⟨Ls7, hG7, eL7, kW7, hT7⟩ := fin _ e17
        have hself : t6.twups = some th := by
          simp only [Bool.and_eq_true, Bool.not_eq_true', isintwups, bne_eq_false_iff_eq] at hc
          exact hc.1
        refine ⟨Ls7, gls_of_kept _ _ d Ls7 hG7 (fun l => by cases l <;> rfl) ?_, eL7, kW7,
          th :: T, ?_⟩
        · intro a x hx
          by_cases e : a = th
          · subst e
            rw [ht6] at hx
            cases hx
            exact ⟨_, heap_set_same _ _ _, rfl, rfl, fun k => k⟩
          · exact ⟨x, (heap_set_ne _ _ _ _ e).trans hx, rfl, rfl, fun k => k⟩
        · refine isTwList_push _ _ _ T th t6 hT7 ht6 hself ?_ ?_
          · exact congrArg (Option.map (fun o => o.twups)) (heap_set_same _ _ _)
          · intro a ha
            exact congrArg (Option.map (fun o => o.twups)) (heap_set_ne _ _ _ _ ha)
      · cases h5
        exact fin2 _ e17
    · cases h5
      exact fin2 _ e14

/-- `propagatemark` keeps the gray lists and the list `twups` well formed. -/
theorem propagatemark_gls (env : Env) (fuel : Nat) (g g2 : global_State) (w : Nat)
    (d : Option Addr) (Ls : Option GrayList → List Addr) (T : List Addr) (hG : GLs g d Ls)
    (hT : IsTwList g.heap g.twups T) (hr : propagatemark env fuel g = some (g2, w)) :
    ∃ Ls2, GLs g2 d Ls2 ∧ Ls2 none = Ls none ∧ KeepW Ls Ls2 ∧
      ∃ T2, IsTwList g2.heap g2.twups T2 := by
  unfold propagatemark at hr
  simp only [Option.bind_eq_bind, Option.bind_eq_some] at hr
  obtain ⟨o, ho, x, hx, x1, hx1, pl, hpl, y, hy, hr⟩ := hr
  have ex1 : x1 = { x with marked := nw2black x.marked } := by
    have : (g.setobj o { x with marked := nw2black x.marked }).heap o = some x1 := hx1
    rw [setobj_heap, heap_set_same] at this
    exact (Option.some.inj this).symm
  have epl : pl = o := getgclist_eq _ _ _ hpl
  have ey : y = x1 := by
    rw [epl, hx1] at hy
    exact (Option.some.inj hy).symm
  have hy1 : (g.setobj o { x with marked := nw2black x.marked }).heap o = some y := by
    rw [ey]
    exact hx1
  have hoL : o ∈ Ls (some .gray) := by
    have := hG.seg (some .gray)
    have e : ghead g d (some .gray) = some o := ho
    rw [e] at this
    cases e2 : Ls (some .gray) with
    | nil =>
      rw [e2] at this
      cases this
    | cons b l =>
      rw [e2] at this
      have : some o = some b := this.1
      cases this
      exact List.mem_cons_self _ _
  obtain ⟨hw, hgc, -⟩ := hG.ok _ o hoL
  have hwx : iswhite x.marked = false := by
    rw [whiteIn_some _ _ _ hx] at hw
    exact hw
  have e0 : Lk (fun _ => False) g (g.setobj o { x with marked := nw2black x.marked }) :=
    lk_setmark _ _ _ _ hx (fun k => by rw [iswhite_nw2black]; exact k)
  obtain ⟨Ls1, hG1, hsub, eL1⟩ := gls_lk _ _ _ d Ls hG e0 (fun _ k => k.elim)
  have hT1 := isTwList_lk _ _ _ T hT e0
  obtain ⟨Lsp, hGp, hun, -, eLp⟩ := gls_pop _ d Ls1 hG1 (some .gray) o y ho hy1
    { g.setobj o { x with marked := nw2black x.marked } with gray := y.gclist } d rfl rfl
    (fun s2 hs2 => by
      cases s2 with
      | none => rfl
      | some l => cases l <;> first | rfl | exact absurd rfl hs2)
  have hgcp : hasGclist ({ g.setobj o { x with marked := nw2black x.marked } with
      gray := y.gclist } : global_State).heap o := hasGclist_lk _ _ _ e0 o hgc
  have hnwp : whiteIn ({ g.setobj o { x with marked := nw2black x.marked } with
      gray := y.gclist } : global_State).heap o = false := lk_nonwhite _ _ _ e0 o hw
  have hTp : IsTwList ({ g.setobj o { x with marked := nw2black x.marked } with
      gray := y.gclist } : global_State).heap ({ g.setobj o { x with marked := nw2black x.marked }
      with gray := y.gclist } : global_State).twups T := hT1
  have eLp0 : Lsp none = Ls none := (eLp none (fun k => by cases k)).trans eL1
  have kWp : KeepW Ls Lsp := by
    intro a
    rw [eLp (some .weak) (fun k => by cases k), eLp (some .allweak) (fun k => by cases k)]
    exact ⟨hsub _ a, hsub _ a⟩
  have fin : ∀ g5, Lk (fun a => a = o) { g.setobj o { x with marked := nw2black x.marked } with
      gray := y.gclist } g5 →
      ∃ Ls2, GLs g5 d Ls2 ∧ Ls2 none = Ls none ∧ KeepW Ls Ls2 ∧
        ∃ T2, IsTwList g5.heap g5.twups T2 := by
    intro g5 e
    obtain ⟨Ls2, hG2, hs2, e2⟩ := gls_lk _ _ g5 d Lsp hGp e (fun a k s => by rw [k]; exact hun s)
    exact ⟨Ls2, hG2, e2.trans eLp0, keepW_trans _ _ _ kWp (keepW_of_sub _ _ hs2), T,
      isTwList_lk _ _ g5 T hTp e⟩
  split at hr
  · rename_i htt
    exact fin _ (traversetable_lk _ _ _ _ hgcp ⟨x1, hx1, htt⟩ hnwp hr)
  · exact fin _ (traverseudata_lk _ _ _ _ hnwp hr)
  · exact fin _ (lk_mono _ _ _ _ (traverseLclosure_lk _ _ _ _ hr) (fun _ k => k.elim))
  · exact fin _ (lk_mono _ _ _ _ (traverseCclosure_lk _ _ _ _ hr) (fun _ k => k.elim))
  · exact fin _ (lk_mono _ _ _ _ (traverseproto_lk _ _ _ _ hr) (fun _ k => k.elim))
  · obtain ⟨Ls2, k1, k2, k3, k4⟩ := traversethread_gls env fuel _ o g2 w d Lsp T hGp hTp hun
      hgcp hr
    exact ⟨Ls2, k1, k2.trans eLp0, keepW_trans _ _ _ kWp k3, k4⟩
  · simp only [Option.some.injEq, Prod.mk.injEq] at hr
    obtain ⟨rfl, -⟩ := hr
    exact ⟨Lsp, hGp, eLp0, kWp, T, hTp⟩

theorem propagatemark_shape (env : Env) (fuel : Nat) (g g2 : global_State) (w : Nat)
    (d : Option Addr) (hS : Shape g d) (hr : propagatemark env fuel g = some (g2, w)) :
    Shape g2 d := by
  obtain ⟨⟨Ls, hG⟩, T, hT⟩ := hS
  obtain ⟨Ls2, k1, -, -, k3⟩ := propagatemark_gls env fuel g g2 w d Ls T hG hT hr
  exact ⟨⟨Ls2, k1⟩, k3⟩

theorem propagateall_gls (fuel : Nat) : ∀ (env : Env) (g g2 : global_State) (w : Nat)
    (d : Option Addr) (Ls : Option GrayList → List Addr) (T : List Addr), GLs g d Ls →
    IsTwList g.heap g.twups T → propagateall fuel env g = some (g2, w) →
    ∃ Ls2, GLs g2 d Ls2 ∧ Ls2 none = Ls none ∧ KeepW Ls Ls2 ∧
      ∃ T2, IsTwList g2.heap g2.twups T2 := by
  induction fuel with
  | zero => intro env g g2 w d Ls T _ _ h; simp [propagateall] at h
  | succ n ih =>
    intro env g g2 w d Ls T hG hT h
    rw [propagateall] at h
    split at h
    · simp only [Option.some.injEq, Prod.mk.injEq] at h
      obtain ⟨rfl, -⟩ := h
      exact ⟨Ls, hG, rfl, keepW_refl _, T, hT⟩
    · simp only [Option.bind_eq_bind, Option.bind_eq_some] at h
      obtain ⟨⟨g1, w1⟩, h1, ⟨g3, w3⟩, h3, h⟩ := h
      simp only [Option.some.injEq, Prod.mk.injEq] at h
      obtain ⟨rfl, -⟩ := h
      obtain ⟨Ls1, k1, k2, kw, T1, k3⟩ := propagatemark_gls _ _ _ _ _ d Ls T hG hT h1
      obtain ⟨Ls2, j1, j2, jw, j3⟩ := ih _ _ _ _ d Ls1 T1 k1 k3 h3
      exact ⟨Ls2, j1, j2.trans k2, keepW_trans _ _ _ kw jw, j3⟩

theorem propagateall_shape (fuel : Nat) (env : Env) (g g2 : global_State) (w : Nat)
    (d : Option Addr) (hS : Shape g d) (h : propagateall fuel env g = some (g2, w)) :
    Shape g2 d := by
  obtain ⟨⟨Ls, hG⟩, T, hT⟩ := hS
  obtain ⟨Ls2, k1, -, -, k3⟩ := propagateall_gls fuel env g g2 w d Ls T hG hT h
  exact ⟨⟨Ls2, k1⟩, k3⟩

theorem markmt_loop_lk (l : List (Option Addr)) : ∀ (g g2 : global_State),
    markmt_loop l g = some g2 → Lk (fun _ => False) g g2 := by
  induction l with
  | nil => intro g g2 h; cases h; exact lk_refl _ _
  | cons x rest ih =>
    intro g g2 h
    rw [markmt_loop] at h
    simp only [Option.bind_eq_bind, Option.bind_eq_some] at h
    obtain ⟨g1, h1, h⟩ := h
    exact lk_trans0 _ _ _ (markobjectN_lk _ _ _ h1) (ih _ _ h)

theorem markmt_lk (g g2 : global_State) (h : markmt g = some g2) : Lk (fun _ => False) g g2 :=
  markmt_loop_lk _ _ _ h

theorem markbeingfnz_loop_lk (fuel : Nat) : ∀ (g : global_State) (o : Option Addr) (c : Nat)
    (g2 : global_State) (c2 : Nat),
    markbeingfnz_loop fuel g o c = some (g2, c2) → Lk (fun _ => False) g g2 := by
  induction fuel with
  | zero => intro g o c g2 c2 h; simp [markbeingfnz_loop] at h
  | succ n ih =>
    intro g o c g2 c2 h
    cases o with
    | none =>
      simp only [markbeingfnz_loop, Option.some.injEq, Prod.mk.injEq] at h
      obtain ⟨rfl, -⟩ := h
      exact lk_refl _ _
    | some a =>
      rw [markbeingfnz_loop] at h
      simp only [Option.bind_eq_bind, Option.bind_eq_some] at h
      obtain ⟨g1, h1, x, -, h⟩ := h
      exact lk_trans0 _ _ _ (markobject_lk _ _ _ h1) (ih _ _ _ _ _ h)

theorem markbeingfnz_lk (fuel : Nat) (g g2 : global_State) (c : Nat)
    (h : markbeingfnz fuel g = some (g2, c)) : Lk (fun _ => False) g g2 :=
  markbeingfnz_loop_lk _ _ _ _ _ _ h

theorem remarkupvals_uvs_lk (fuel : Nat) : ∀ (g : global_State) (uv : Option Addr) (w : Nat)
    (g2 : global_State) (w2 : Nat),
    remarkupvals_uvs fuel g uv w = some (g2, w2) → Lk (fun _ => False) g g2 := by
  induction fuel with
  | zero => intro g uv w g2 w2 h; simp [remarkupvals_uvs] at h
  | succ n ih =>
    intro g uv w g2 w2 h
    cases uv with
    | none =>
      simp only [remarkupvals_uvs, Option.some.injEq, Prod.mk.injEq] at h
      obtain ⟨rfl, -⟩ := h
      exact lk_refl _ _
    | some a =>
      rw [remarkupvals_uvs] at h
      simp only [Option.bind_eq_bind, Option.bind_eq_some] at h
      obtain ⟨u, -, h⟩ := h
      split at h
      · simp only [Option.bind_eq_bind, Option.bind_eq_some] at h
        obtain ⟨val, -, g1, h1, u1, -, h⟩ := h
        exact lk_trans0 _ _ _ (markvalue_lk _ _ _ h1) (ih _ _ _ _ _ h)
      · simp only [Option.bind_eq_bind, Option.bind_eq_some, Option.some_bind] at h
        obtain ⟨u1, -, h⟩ := h
        exact ih _ _ _ _ _ h

/-- A write to a `twups` link keeps the gray lists. -/
theorem gls_settwups (g : global_State) (d : Option Addr) (th : Addr) (t : GCObject)
    (v : Option Addr) (ht : g.heap th = some t) (Ls : Option GrayList → List Addr)
    (hG : GLs g d Ls) : GLs (g.setobj th { t with twups := v }) d Ls := by
  refine gls_of_kept _ _ d Ls hG (fun l => setobj_getlist _ _ _ l) ?_
  intro a x hx
  by_cases e : a = th
  · subst e
    rw [ht] at hx
    cases hx
    exact ⟨_, heap_set_same _ _ _, rfl, rfl, fun k => k⟩
  · exact ⟨x, (heap_set_ne _ _ _ _ e).trans hx, rfl, rfl, fun k => k⟩

theorem store_twups_gls (g g2 : global_State) (d : Option Addr) (p v : Option Addr)
    (h : g.store_twups p v = some g2) (Ls : Option GrayList → List Addr) (hG : GLs g d Ls) :
    GLs g2 d Ls := by
  cases p with
  | none =>
    simp only [global_State.store_twups, Option.some.injEq] at h
    subst h
    exact gls_of_kept _ _ d Ls hG (fun l => by cases l <;> rfl)
      (fun a x hx => ⟨x, hx, rfl, rfl, fun k => k⟩)
  | some th =>
    simp only [global_State.store_twups, Option.map_eq_some'] at h
    obtain ⟨t, ht, rfl⟩ := h
    exact gls_settwups g d th t v ht Ls hG

theorem remarkupvals_loop_gls (fuel : Nat) : ∀ (g : global_State) (p : Option Addr) (w : Nat)
    (g2 : global_State) (w2 : Nat) (d : Option Addr) (Ls : Option GrayList → List Addr),
    remarkupvals_loop fuel g p w = some (g2, w2) → GLs g d Ls →
    ∃ Ls2, GLs g2 d Ls2 ∧ KeepW Ls Ls2 := by
  induction fuel with
  | zero => intro g p w g2 w2 d Ls h; simp [remarkupvals_loop] at h
  | succ n ih =>
    intro g p w g2 w2 d Ls h hG
    rw [remarkupvals_loop] at h
    simp only [Option.bind_eq_bind, Option.bind_eq_some] at h
    obtain ⟨cur, -, h⟩ := h
    split at h
    · simp only [Option.some.injEq, Prod.mk.injEq] at h
      obtain ⟨rfl, -⟩ := h
      exact ⟨Ls, hG, keepW_refl _⟩
    · simp only [Option.bind_eq_bind, Option.bind_eq_some] at h
      obtain ⟨t, -, h⟩ := h
      split at h
      · exact ih _ _ _ _ _ d Ls h hG
      · simp only [Option.bind_eq_bind, Option.bind_eq_some] at h
        obtain ⟨g1, h1, t1, ht1, t2, -, ⟨g3, w3⟩, h3, h⟩ := h
        have e3 := remarkupvals_uvs_lk _ _ _ _ _ _ h3
        have k1 := store_twups_gls _ _ d _ _ h1 Ls hG
        obtain ⟨Ls3, hG3, hs3, -⟩ := gls_lk _ _ g3 d Ls
          (gls_settwups g1 d _ t1 _ ht1 Ls k1) e3 (fun _ k => k.elim)
        obtain ⟨Ls4, hG4, kw4⟩ := ih _ _ _ _ _ d Ls3 h hG3
        exact ⟨Ls4, hG4, keepW_trans _ _ _ (keepW_of_sub _ _ hs3) kw4⟩

/-! ## The shape of the lists under the rest of `atomic` -/

theorem tableIn_fade (h h2 : Heap) (hf : Fade h h2) (a : Addr) (ht : tableIn h a) :
    tableIn h2 a := by
  obtain ⟨y, hy, hk⟩ := ht
  obtain ⟨y2, hy2, k⟩ := (hf a).2 y hy
  exact ⟨y2, hy2, k.2.1.trans hk⟩

theorem gls_head_mem (g : global_State) (d : Option Addr) (Ls : Option GrayList → List Addr)
    (hG : GLs g d Ls) (s : Option GrayList) (a : Addr) (h : ghead g d s = some a) :
    a ∈ Ls s := by
  have := hG.seg s
  rw [h] at this
  cases e2 : Ls s with
  | nil =>
    rw [e2] at this
    cases this
  | cons b l =>
    rw [e2] at this
    have : some a = some b := this.1
    cases this
    exact List.mem_cons_self _ _

theorem convergeephemerons_tables_gls (env : Env) (dir : Bool) (fuel : Nat) :
    ∀ (g : global_State) (p : Option Addr) (c : Bool) (g2 : global_State) (c2 : Bool)
    (Ls : Option GrayList → List Addr) (T : List Addr), GLs g p Ls →
    (∀ a, a ∈ Ls none → tableIn g.heap a) → IsTwList g.heap g.twups T →
    convergeephemerons_tables env dir fuel g p c = some (g2, c2) →
    ∃ Ls2, GLs g2 none Ls2 ∧ KeepW Ls Ls2 ∧ ∃ T2, IsTwList g2.heap g2.twups T2 := by
  induction fuel with
  | zero => intro g p c g2 c2 _ _ _ _ _ h; simp [convergeephemerons_tables] at h
  | succ n ih =>
    intro g p c g2 c2 Ls T hG htab hT h
    cases p with
    | none =>
      simp only [convergeephemerons_tables, Option.some.injEq, Prod.mk.injEq] at h
      obtain ⟨rfl, -⟩ := h
      exact ⟨Ls, hG, keepW_refl _, T, hT⟩
    | some a =>
      rw [convergeephemerons_tables] at h
      simp only [Option.bind_eq_bind, Option.bind_eq_some] at h
      obtain ⟨x, hx, ⟨g3, m⟩, h3, h⟩ := h
      have haL : a ∈ Ls none := gls_head_mem g (some a) Ls hG none a rfl
      obtain ⟨hw, hgc, -⟩ := hG.ok _ a haL
      have e0 : Lk (fun _ => False) g (g.setobj a { x with marked := nw2black x.marked }) :=
        lk_setmark _ _ _ _ hx (fun k => by rw [iswhite_nw2black]; exact k)
      obtain ⟨Ls1, hG1, hs1, eL1⟩ := gls_lk _ _ _ _ Ls hG e0 (fun _ k => k.elim)
      have hT1 := isTwList_lk _ _ _ T hT e0
      obtain ⟨Lsp, hGp, hun, hsub, eLp⟩ := gls_pop _ (some a) Ls1 hG1 none a
        { x with marked := nw2black x.marked } rfl (heap_set_same _ _ _)
        (g.setobj a { x with marked := nw2black x.marked }) x.gclist rfl rfl
        (fun s2 hs2 => by
          cases s2 with
          | none => exact absurd rfl hs2
          | some l => rfl)
      have e3 := traverseephemeron_lk _ _ _ _ _ (hasGclist_lk _ _ _ e0 a hgc)
        (tableIn_lk _ _ _ e0 a (htab a haL)) (lk_nonwhite _ _ _ e0 a hw) h3
      obtain ⟨Ls3, hG3, hs3, eL3⟩ := gls_lk _ _ g3 _ Lsp hGp e3
        (fun b k s => by rw [k]; exact hun s)
      have hT3 := isTwList_lk _ _ g3 T hT1 e3
      have htab3 : ∀ b, b ∈ Ls3 none → tableIn g3.heap b := by
        intro b hb
        rw [eL3] at hb
        have hb1 := hsub none b hb
        rw [eL1] at hb1
        exact tableIn_lk _ _ _ e3 b (tableIn_lk _ _ _ e0 b (htab b hb1))
      have kw3 : KeepW Ls Ls3 := by
        intro b
        have k1 := hs3 (some .weak) b
        have k2 := hs3 (some .allweak) b
        rw [eLp (some .weak) (fun k => by cases k)] at k1
        rw [eLp (some .allweak) (fun k => by cases k)] at k2
        exact ⟨fun k => k1 (hs1 _ b k), fun k => k2 (hs1 _ b k)⟩
      split at h
      · simp only [Option.bind_eq_bind, Option.bind_eq_some] at h
        obtain ⟨⟨g4, w4⟩, h4, h⟩ := h
        obtain ⟨Ls4, hG4, eL4, kw4, T4, hT4⟩ := propagateall_gls _ _ _ _ _ _ Ls3 T hG3 hT3 h4
        obtain ⟨Ls5, hG5, kw5, hT5⟩ := ih _ _ _ _ _ Ls4 T4 hG4 (fun b hb => by
          rw [eL4] at hb
          exact tableIn_fade _ _ (propagateall_fade _ _ _ _ _ h4).2 b (htab3 b hb)) hT4 h
        exact ⟨Ls5, hG5, keepW_trans _ _ _ kw3 (keepW_trans _ _ _ kw4 kw5), hT5⟩
      · obtain ⟨Ls5, hG5, kw5, hT5⟩ := ih _ _ _ _ _ Ls3 T hG3 htab3 hT3 h
        exact ⟨Ls5, hG5, keepW_trans _ _ _ kw3 kw5, hT5⟩

theorem convergeephemerons_rounds_gls (env : Env) (fuel : Nat) : ∀ (g : global_State)
    (dir : Bool) (g2 : global_State) (Ls : Option GrayList → List Addr) (T : List Addr),
    GLs g none Ls → IsTwList g.heap g.twups T →
    convergeephemerons_rounds env fuel g dir = some g2 →
    ∃ Ls2, GLs g2 none Ls2 ∧ KeepW Ls Ls2 ∧ ∃ T2, IsTwList g2.heap g2.twups T2 := by
  induction fuel with
  | zero => intro g dir g2 _ _ _ _ h; simp [convergeephemerons_rounds] at h
  | succ n ih =>
    intro g dir g2 Ls T hG hT h
    rw [convergeephemerons_rounds] at h
    simp only [Option.bind_eq_bind, Option.bind_eq_some] at h
    obtain ⟨⟨g1, c⟩, h1, h⟩ := h
    obtain ⟨Ls0, hG0, eL0, eO0⟩ := gls_move g none Ls hG (some .ephemeron) none (by simp) rfl
      (by simp) { g with ephemeron := none } g.ephemeron rfl rfl rfl
      (fun s3 k1 k2 => by
        cases s3 with
        | none => exact absurd rfl k2
        | some l => cases l <;> first | rfl | exact absurd rfl k1)
    have kw0 : KeepW Ls Ls0 := by
      intro b
      rw [eO0 (some .weak) (by simp) (by simp), eO0 (some .allweak) (by simp) (by simp)]
      exact ⟨fun k => k, fun k => k⟩
    obtain ⟨Ls1, hG1, kw1, T1, hT1⟩ :=
      convergeephemerons_tables_gls _ _ _ _ _ _ _ _ Ls0 T hG0
        (fun a ha => (hG.ok (some .ephemeron) a (eL0 ▸ ha)).2.2 rfl) hT h1
    split at h
    · obtain ⟨Ls2, hG2, kw2, hT2⟩ := ih _ _ _ Ls1 T1 hG1 hT1 h
      exact ⟨Ls2, hG2, keepW_trans _ _ _ kw0 (keepW_trans _ _ _ kw1 kw2), hT2⟩
    · cases h
      exact ⟨Ls1, hG1, keepW_trans _ _ _ kw0 kw1, T1, hT1⟩

theorem convergeephemerons_gls (env : Env) (fuel : Nat) (g g2 : global_State)
    (Ls : Option GrayList → List Addr) (T : List Addr) (hG : GLs g none Ls)
    (hT : IsTwList g.heap g.twups T) (h : convergeephemerons env fuel g = some g2) :
    ∃ Ls2, GLs g2 none Ls2 ∧ KeepW Ls Ls2 ∧ ∃ T2, IsTwList g2.heap g2.twups T2 :=
  convergeephemerons_rounds_gls env fuel g false g2 Ls T hG hT h

theorem clearbykeys_nodes_lk (h : Addr) (n : Nat) : ∀ (i : Nat) (g g2 : global_State),
    clearbykeys_nodes h n i g = some g2 → Lk (fun _ => False) g g2 := by
  induction n with
  | zero => intro i g g2 hr; cases hr; exact lk_refl _ _
  | succ n ih =>
    intro i g g2 hr
    rw [clearbykeys_nodes] at hr
    simp only [Option.bind_eq_bind, Option.bind_eq_some] at hr
    obtain ⟨t, -, nd, -, ⟨g1, c⟩, h1, t1, ht1, nd1, -, hr⟩ := hr
    have e1 := iscleared_lk _ _ _ _ h1
    have e2 := ih _ _ _ hr
    refine lk_trans0 _ _ _ (lk_trans0 _ _ _ e1 ?_) e2
    exact lk_setfields _ _ _ _ ht1 rfl rfl rfl rfl

theorem clearbykeys_lk (fuel : Nat) : ∀ (g : global_State) (l : Option Addr)
    (g2 : global_State), clearbykeys fuel g l = some g2 → Lk (fun _ => False) g g2 := by
  induction fuel with
  | zero => intro g l g2 h; simp [clearbykeys] at h
  | succ n ih =>
    intro g l g2 h
    cases l with
    | none =>
      simp only [clearbykeys, Option.some.injEq] at h
      subst h
      exact lk_refl _ _
    | some a =>
      rw [clearbykeys] at h
      simp only [Option.bind_eq_bind, Option.bind_eq_some] at h
      obtain ⟨t, -, g1, h1, t1, -, h⟩ := h
      exact lk_trans0 _ _ _ (clearbykeys_nodes_lk _ _ _ _ _ h1) (ih _ _ _ h)

theorem clearbyvalues_array_lk (h : Addr) (n : Nat) : ∀ (i : Nat) (g g2 : global_State),
    clearbyvalues_array h n i g = some g2 → Lk (fun _ => False) g g2 := by
  induction n with
  | zero => intro i g g2 hr; cases hr; exact lk_refl _ _
  | succ n ih =>
    intro i g g2 hr
    rw [clearbyvalues_array] at hr
    simp only [Option.bind_eq_bind, Option.bind_eq_some] at hr
    obtain ⟨t, -, o, -, ⟨g1, c⟩, h1, t1, ht1, hr⟩ := hr
    have e1 := iscleared_lk _ _ _ _ h1
    have e2 := ih _ _ _ hr
    refine lk_trans0 _ _ _ (lk_trans0 _ _ _ e1 ?_) e2
    split
    · exact lk_setfields _ _ _ _ ht1 rfl rfl rfl rfl
    · exact lk_refl _ _

theorem clearbyvalues_nodes_lk (h : Addr) (n : Nat) : ∀ (i : Nat) (g g2 : global_State),
    clearbyvalues_nodes h n i g = some g2 → Lk (fun _ => False) g g2 := by
  induction n with
  | zero => intro i g g2 hr; cases hr; exact lk_refl _ _
  | succ n ih =>
    intro i g g2 hr
    rw [clearbyvalues_nodes] at hr
    simp only [Option.bind_eq_bind, Option.bind_eq_some] at hr
    obtain ⟨t, -, nd, -, ⟨g1, c⟩, h1, t1, ht1, nd1, -, hr⟩ := hr
    have e1 := iscleared_lk _ _ _ _ h1
    have e2 := ih _ _ _ hr
    refine lk_trans0 _ _ _ (lk_trans0 _ _ _ e1 ?_) e2
    exact lk_setfields _ _ _ _ ht1 rfl rfl rfl rfl

theorem clearbyvalues_lk (fuel : Nat) : ∀ (g : global_State) (l f : Option Addr)
    (g2 : global_State), clearbyvalues fuel g l f = some g2 → Lk (fun _ => False) g g2 := by
  induction fuel with
  | zero => intro g l f g2 h; simp [clearbyvalues] at h
  | succ n ih =>
    intro g l f g2 h
    rw [clearbyvalues] at h
    split at h
    · cases h
      exact lk_refl _ _
    · simp only [Option.bind_eq_bind, Option.bind_eq_some] at h
      obtain ⟨a, -, t, -, g1, h1, g3, h3, t2, -, h⟩ := h
      exact lk_trans0 _ _ _ (lk_trans0 _ _ _ (clearbyvalues_array_lk _ _ _ _ _ h1)
        (clearbyvalues_nodes_lk _ _ _ _ _ h3)) (ih _ _ _ _ h)

theorem luaS_clearcache_lk (g g2 : global_State) (h : luaS_clearcache g = some g2) :
    Lk (fun _ => False) g g2 := by
  unfold luaS_clearcache at h
  simp only [Option.map_eq_some'] at h
  obtain ⟨c, -, rfl⟩ := h
  exact lk_same _ _ rfl (fun l => by cases l <;> rfl)
    (fun a => ⟨fun e => e, fun x e => ⟨x, e, kept_refl _ x⟩⟩)

/-! ## Steps that only relink the heap lists -/

theorem nextOnly_refl (g : global_State) : NextOnly g g := ⟨fun _ => rfl, rfl⟩

theorem nextOnly_trans (g g1 g2 : global_State) (h1 : NextOnly g g1) (h2 : NextOnly g1 g2) :
    NextOnly g g2 := by
  refine ⟨fun a => (h2.1 a).trans (h1.1 a), ?_⟩
  have e2 := h2.2
  have e1 := h1.2
  rw [e2]
  conv_lhs => rw [e1]

theorem nextOnly_setnext (g : global_State) (a : Addr) (x : GCObject) (v : Option Addr)
    (hx : g.heap a = some x) : NextOnly g (g.setobj a { x with next := v }) := by
  refine ⟨fun b => ?_, rfl⟩
  by_cases e : b = a
  · subst e
    rw [hx]
    exact (congrArg (Option.map nonext) (heap_set_same g.heap b { x with next := v })).trans rfl
  · exact congrArg (Option.map nonext) (heap_set_ne _ _ _ _ e)

theorem store_nextOnly (g g1 : global_State) (p : GCRef) (v : Option Addr)
    (h : g.store p v = some g1) : NextOnly g g1 := by
  cases p with
  | allgc => cases h; exact ⟨fun _ => rfl, rfl⟩
  | finobj => cases h; exact ⟨fun _ => rfl, rfl⟩
  | tobefnz => cases h; exact ⟨fun _ => rfl, rfl⟩
  | next o =>
    simp only [global_State.store, Option.map_eq_some'] at h
    obtain ⟨x, hx, rfl⟩ := h
    exact nextOnly_setnext g o x v hx

theorem separatetobefnz_loop_nextOnly (all : Bool) (fuel : Nat) : ∀ (g : global_State)
    (p lastnext : GCRef) (g2 : global_State),
    separatetobefnz_loop all fuel g p lastnext = some g2 → NextOnly g g2 := by
  induction fuel with
  | zero => intro g p lastnext g2 h; simp [separatetobefnz_loop] at h
  | succ n ih =>
    intro g p lastnext g2 h
    rw [separatetobefnz_loop] at h
    simp only [Option.bind_eq_bind, Option.bind_eq_some] at h
    obtain ⟨curr, -, h⟩ := h
    split at h
    · cases h
      exact nextOnly_refl _
    · simp only [Option.bind_eq_some] at h
      obtain ⟨c, -, x, -, h⟩ := h
      split at h
      · exact ih _ _ _ _ h
      · simp only [Option.bind_eq_some] at h
        obtain ⟨x1, -, g2a, hstore, ln, -, x2, hx2, g4, hs4, h⟩ := h
        have e0 : NextOnly g (if curr = g.finobjsur then { g with finobjsur := x.next }
            else g) := by
          split
          · exact ⟨fun _ => rfl, rfl⟩
          · exact nextOnly_refl _
        exact nextOnly_trans _ _ _ (nextOnly_trans _ _ _ (nextOnly_trans _ _ _
          (nextOnly_trans _ _ _ e0 (store_nextOnly _ _ _ _ hstore))
          (nextOnly_setnext _ _ _ _ hx2)) (store_nextOnly _ _ _ _ hs4)) (ih _ _ _ _ h)

theorem separatetobefnz_nextOnly (fuel : Nat) (g g2 : global_State) (all : Bool)
    (h : separatetobefnz fuel g all = some g2) : NextOnly g g2 := by
  unfold separatetobefnz at h
  simp only [Option.bind_eq_bind, Option.bind_eq_some] at h
  obtain ⟨ln, -, h⟩ := h
  exact separatetobefnz_loop_nextOnly _ _ _ _ _ _ h

/-- What relinking the heap lists keeps of an object. -/
theorem nextOnly_obj (g g2 : global_State) (h : NextOnly g g2) (a : Addr) :
    (g.heap a = none → g2.heap a = none) ∧
    ∀ x, g.heap a = some x → ∃ x2, g2.heap a = some x2 ∧ nonext x2 = nonext x := by
  have k := h.1 a
  refine ⟨fun e => ?_, fun x e => ?_⟩
  · rw [e] at k
    cases e2 : g2.heap a with
    | none => rfl
    | some y =>
      rw [e2] at k
      cases k
  · rw [e] at k
    cases e2 : g2.heap a with
    | none =>
      rw [e2] at k
      cases k
    | some y =>
      rw [e2] at k
      exact ⟨y, rfl, Option.some.inj k⟩

theorem lk_of_nextOnly (g g2 : global_State) (h : NextOnly g g2) :
    Lk (fun _ => False) g g2 := by
  have e := h.2
  refine lk_same g g2 (by rw [e]) (fun l => by rw [e]; cases l <;> rfl) (fun a => ?_)
  obtain ⟨k1, k2⟩ := nextOnly_obj g g2 h a
  refine ⟨k1, fun x hx => ?_⟩
  obtain ⟨x2, e2, en⟩ := k2 x hx
  have t1 : x2.tt = x.tt := show (nonext x2).tt = (nonext x).tt from congrArg GCObject.tt en
  have t2 : x2.twups = x.twups :=
    show (nonext x2).twups = (nonext x).twups from congrArg GCObject.twups en
  have t3 : x2.marked = x.marked :=
    show (nonext x2).marked = (nonext x).marked from congrArg GCObject.marked en
  have t4 : x2.gclist = x.gclist :=
    show (nonext x2).gclist = (nonext x).gclist from congrArg GCObject.gclist en
  exact ⟨x2, e2, t1, t2, fun k => by rw [t3]; exact k, fun _ _ => t4⟩

/-! ## Well-formedness under clearing and relinking -/

theorem softObj_refl (x : GCObject) : SoftObj x x :=
  ⟨rfl, fun _ hv => Or.inl hv, fun nd hnd => ⟨nd, hnd, Or.inl rfl, Or.inl rfl⟩⟩

theorem softObj_tt (x x2 : GCObject) (h : SoftObj x x2) : x2.tt = x.tt := by
  have e := h.1
  rw [e]

theorem soft_live (h h2 : Heap) (hs : Soft h h2) (a : Addr) (x : GCObject) (hx : h a = some x) :
    ∃ x2, h2 a = some x2 ∧ SoftObj x x2 := (hs a).2 x hx

theorem soft_back (h h2 : Heap) (hs : Soft h h2) (a : Addr) (x2 : GCObject)
    (hx : h2 a = some x2) : ∃ x, h a = some x ∧ SoftObj x x2 := by
  rcases Option.eq_none_or_eq_some (h a) with e | ⟨x, e⟩
  · rw [(hs a).1 e] at hx
    cases hx
  · obtain ⟨y, e2, k⟩ := (hs a).2 x e
    rw [hx] at e2
    cases e2
    exact ⟨x, e, k⟩

theorem valOK_soft (h h2 : Heap) (hs : Soft h h2) (v : TValue) (hv : ValOK h v) :
    ValOK h2 v := by
  intro t r e
  obtain ⟨y, hy, hk⟩ := hv t r e
  obtain ⟨y2, e2, k⟩ := soft_live h h2 hs r y hy
  exact ⟨y2, e2, by rw [softObj_tt _ _ k]; exact hk⟩

theorem ptrOK_soft (h h2 : Heap) (hs : Soft h h2) (p : Option Addr) (hp : PtrOK h p) :
    PtrOK h2 p := by
  intro r e
  obtain ⟨y, hy⟩ := hp r e
  obtain ⟨y2, e2, -⟩ := soft_live h h2 hs r y hy
  exact ⟨y2, e2⟩

theorem opened_soft (h h2 : Heap) (hs : Soft h h2) :
    ∀ (C : List Addr) (p : Option Addr), IsGSeg (uvHeap h) p C none →
      IsGSeg (uvHeap h2) p C none := by
  intro C
  induction C with
  | nil => intro p hp; exact hp
  | cons b C ih =>
    intro p hp
    obtain ⟨e, o, ho, hr⟩ := hp
    obtain ⟨x, hx, eo⟩ := uvHeap_some _ _ _ ho
    obtain ⟨x2, e2, k⟩ := soft_live h h2 hs b x hx
    obtain ⟨o2, ho2, eo2⟩ := uvHeap_of _ _ _ e2
    refine ⟨e, o2, ho2, ?_⟩
    have en : x2.open_next = x.open_next := by
      have e := k.1
      rw [e]
    rw [eo2, en, ← eo]
    exact ih _ hr

/-- A well-formed memory is well formed after values were emptied, keys
cleared, marks and `next` links changed. -/
theorem wf_soft (g g2 : global_State) (hs : Soft g.heap g2.heap) (hwf : WF g) : WF g2 := by
  intro a x2 hx2
  obtain ⟨x, hx, k⟩ := soft_back _ _ hs a x2 hx2
  have W := hwf a x hx
  have e := k.1
  have f1 : x2.metatable = x.metatable := by rw [e]
  have f3 : x2.uv = x.uv := by rw [e]
  have f4 : x2.cl_p = x.cl_p := by rw [e]
  have f5 : x2.upvals = x.upvals := by rw [e]
  have f6 : x2.upvalue = x.upvalue := by rw [e]
  have f7 : x2.source = x.source := by rw [e]
  have f8 : x2.k = x.k := by rw [e]
  have f9 : x2.upvalues = x.upvalues := by rw [e]
  have f10 : x2.p = x.p := by rw [e]
  have f11 : x2.locvars = x.locvars := by rw [e]
  have f12 : x2.v = x.v := by rw [e]
  have f13 : x2.value = x.value := by rw [e]
  have f14 : x2.openupval = x.openupval := by rw [e]
  have f15 : x2.stack = x.stack := by rw [e]
  have f16 : x2.top = x.top := by rw [e]
  refine ⟨?_, ?_, ?_, ?_, ?_, ?_, ?_, ?_, ?_, ?_, ?_, ?_, ?_, ?_, ?_, ?_, ?_⟩
  · intro mt em
    rw [f1] at em
    obtain ⟨y, hy, hk, hm⟩ := W.metatable mt em
    obtain ⟨y2, e2, k2⟩ := soft_live _ _ hs mt y hy
    refine ⟨y2, e2, by rw [softObj_tt _ _ k2]; exact hk, ?_⟩
    intro tg s em2
    have et : y2.tm_mode = y.tm_mode := by
      have e := k2.1
      rw [e]
    rw [et] at em2
    obtain ⟨z, hz⟩ := hm tg s em2
    obtain ⟨z2, ez, -⟩ := soft_live _ _ hs s z hz
    exact ⟨z2, ez⟩
  · intro v hv
    rcases k.2.1 v hv with c | c
    · exact valOK_soft _ _ hs v (W.array v c)
    · intro t r ev
      rw [ev] at c
      cases c
  · intro nd2 hnd
    obtain ⟨nd, hmem, c, -⟩ := k.2.2 nd2 hnd
    rcases c with c | c
    · rw [c]
      exact valOK_soft _ _ hs _ (W.nodeval nd hmem)
    · intro t r ev
      rw [ev] at c
      cases c
  · intro nd2 hnd r hr
    obtain ⟨nd, hmem, -, c⟩ := k.2.2 nd2 hnd
    rcases c with c | c
    · rw [c] at hr
      obtain ⟨y, hy, hk⟩ := W.nodekey nd hmem r hr
      obtain ⟨y2, e2, k2⟩ := soft_live _ _ hs r y hy
      exact ⟨y2, e2, by rw [softObj_tt _ _ k2]; exact hk⟩
    · rw [c] at hr
      cases hr
  · intro v hv
    rw [f3] at hv
    exact valOK_soft _ _ hs v (W.uv v hv)
  · rw [f4]
    exact ptrOK_soft _ _ hs _ W.cl_p
  · intro p hp
    rw [f5] at hp
    exact ptrOK_soft _ _ hs _ (W.upvals p hp)
  · intro v hv
    rw [f6] at hv
    exact valOK_soft _ _ hs v (W.upvalue v hv)
  · rw [f7]
    exact ptrOK_soft _ _ hs _ W.source
  · intro v hv
    rw [f8] at hv
    exact valOK_soft _ _ hs v (W.k v hv)
  · intro p hp
    rw [f9] at hp
    exact ptrOK_soft _ _ hs _ (W.upvalues p hp)
  · intro p hp
    rw [f10] at hp
    exact ptrOK_soft _ _ hs _ (W.p p hp)
  · intro p hp
    rw [f11] at hp
    exact ptrOK_soft _ _ hs _ (W.locvars p hp)
  · intro s2 hs2 i v hi hv
    rw [f15] at hs2
    rw [f16] at hi
    exact valOK_soft _ _ hs v (W.stack s2 hs2 i v hi hv)
  · intro ev
    rw [f12] at ev
    rw [f13]
    exact valOK_soft _ _ hs _ (W.value ev)
  · intro th idx ev
    rw [f12] at ev
    obtain ⟨t0, s, v, ht0, hs0, hi, hv⟩ := W.slot th idx ev
    obtain ⟨t2, e2, k2⟩ := soft_live _ _ hs th t0 ht0
    have es : t2.stack = t0.stack := by
      have e := k2.1
      rw [e]
    have et : t2.top = t0.top := by
      have e := k2.1
      rw [e]
    exact ⟨t2, s, v, e2, es.trans hs0, by rw [et]; exact hi, hv⟩
  · obtain ⟨C, hC⟩ := W.opened
    rw [f14]
    exact ⟨C, opened_soft _ _ hs C _ hC⟩

theorem soft_within (U : List Addr) (h h2 : Heap) (hs : Soft h h2)
    (hU : ∀ a x, h a = some x → a ∈ U) : ∀ a x, h2 a = some x → a ∈ U := by
  intro a x2 hx2
  obtain ⟨x, hx, -⟩ := soft_back h h2 hs a x2 hx2
  exact hU a x hx

theorem soft_of_nextOnly (g g2 : global_State) (h : NextOnly g g2) : Soft g.heap g2.heap := by
  intro a
  obtain ⟨k1, k2⟩ := nextOnly_obj g g2 h a
  refine ⟨k1, fun x hx => ?_⟩
  obtain ⟨x2, e2, en⟩ := k2 x hx
  have t3 : x2.marked = x.marked :=
    show (nonext x2).marked = (nonext x).marked from congrArg GCObject.marked en
  have ta : x2.array = x.array :=
    show (nonext x2).array = (nonext x).array from congrArg GCObject.array en
  have tn : x2.node = x.node :=
    show (nonext x2).node = (nonext x).node from congrArg GCObject.node en
  have e0 : x2 = { nonext x2 with next := x2.next } := rfl
  rw [en] at e0
  refine ⟨x2, e2, ?_, fun v hv => Or.inl (ta ▸ hv), fun nd hnd => ⟨nd, tn ▸ hnd, Or.inl rfl,
    Or.inl rfl⟩⟩
  rw [t3, ta, tn]
  exact e0

theorem clearnode_soft (c : Bool) (nd : Node) :
    ((clearnode c nd).i_val = nd.i_val ∨ gcvalueN (clearnode c nd).i_val = none) ∧
    (gckeyN (clearnode c nd) = gckeyN nd ∨ gckeyN (clearnode c nd) = none) := by
  unfold clearnode clearkey setdeadkey keyiscollectable Node.setempty gckeyN
  cases c <;> cases hv : nd.i_val <;> cases hk : nd.key <;>
    simp [isempty, gcvalueN, hv, hk]

theorem softObj_keyscleared (h : Heap) (t : GCObject) : SoftObj t (keyscleared h t) := by
  refine ⟨rfl, fun v hv => Or.inl hv, fun nd2 hnd => ?_⟩
  have hnd2 : nd2 ∈ t.node.map (fun nd => clearnode (clearedIn h (gckeyN nd)) nd) := hnd
  obtain ⟨nd, hm, e⟩ := List.mem_map.1 hnd2
  subst e
  exact ⟨nd, hm, clearnode_soft _ nd⟩

theorem softObj_valuescleared (h : Heap) (t : GCObject) : SoftObj t (valuescleared h t) := by
  refine ⟨rfl, fun v hv => ?_, fun nd2 hnd => ?_⟩
  · have hv2 : v ∈ t.array.map (fun v => clearslot (clearedIn h (gcvalueN v)) v) := hv
    obtain ⟨v0, hm, e⟩ := List.mem_map.1 hv2
    subst e
    unfold clearslot
    split
    · exact Or.inr rfl
    · exact Or.inl hm
  · have hnd2 : nd2 ∈ t.node.map (fun nd => clearnode (clearedIn h (gcvalueN nd.i_val)) nd) := hnd
    obtain ⟨nd, hm, e⟩ := List.mem_map.1 hnd2
    subst e
    exact ⟨nd, hm, clearnode_soft _ nd⟩

theorem soft_of_clearing (T : Addr → GCObject → GCObject) (V : Addr → Prop)
    (g gi : global_State) (hC : Clearing T V g gi)
    (hT : ∀ a x, g.heap a = some x → SoftObj x (T a x)) : Soft g.heap gi.heap := by
  intro a
  refine ⟨(hC.2 a).1, fun x hx => ?_⟩
  obtain ⟨k1, k2⟩ := (hC.2 a).2 x hx
  by_cases hs : novariant x.tt = LUA_TSTRING
  · obtain ⟨m, e, -⟩ := k1 hs
    exact ⟨_, e, rfl, fun v hv => Or.inl hv, fun nd hnd => ⟨nd, hnd, Or.inl rfl, Or.inl rfl⟩⟩
  · exact ⟨_, k2 hs, hT a x hx⟩

theorem hasGclist_nostring (h : Heap) (a : Addr) (t : GCObject) (ht : h a = some t)
    (hg : hasGclist h a) : novariant t.tt ≠ LUA_TSTRING := by
  obtain ⟨y, hy, hk⟩ := hg
  rw [ht] at hy
  cases hy
  unfold getgclist at hk
  intro hs
  rcases (novariant_string t.tt).1 hs with e | e <;> rw [e] at hk <;> cases hk

/-- The loop of `clearbykeys` over a gray list of a well-formed memory
returns; only the memory changes, and it stays well formed. -/
theorem clearbykeys_total (g : global_State) (L : List Addr) (l : Option Addr) (fuel : Nat)
    (hwf : WF g) (hL : IsGSeg g.heap l L none) (hg : ∀ h, h ∈ L → hasGclist g.heap h)
    (hf : L.length < fuel) :
    ∃ g2, clearbykeys fuel g l = some g2 ∧ Soft g.heap g2.heap ∧
      g2 = { g with heap := g2.heap } := by
  obtain ⟨g2, T2, V2, e, hC, -, hout, hin, -, -⟩ := clearbykeys_list g L fuel g (fun _ x => x)
    (fun _ => False) l (clearing_refl g) keepsHeader_id hL (isGList_nodup _ _ _ hL)
    (fun _ _ _ _ => rfl)
    (fun h hh t ht => ⟨hasGclist_nostring _ h t ht (hg h hh), fun nd hnd a ha => by
      obtain ⟨y, hy, -⟩ := (hwf h t ht).nodekey nd hnd a ha
      rw [hy]
      rfl⟩) hf
  refine ⟨g2, e, soft_of_clearing T2 V2 g g2 hC ?_, hC.1⟩
  intro a x hx
  by_cases ha : a ∈ L
  · rw [hin a ha x hx]
    exact softObj_keyscleared _ _
  · rw [hout a x ha]
    exact softObj_refl x

theorem isSome_of_valOK (h : Heap) (v : TValue) (a : Addr) (hv : ValOK h v)
    (ha : gcvalueN v = some a) : (h a).isSome = true := by
  cases v with
  | gc tg r =>
    cases ha
    obtain ⟨y, hy, -⟩ := hv tg a rfl
    rw [hy]
    rfl
  | nil => cases ha
  | empty => cases ha
  | prim n => cases ha

/-- The loop of `clearbyvalues` over a segment of a gray list of a
well-formed memory returns; only the memory changes, and it stays well
formed. -/
theorem clearbyvalues_total (g : global_State) (L : List Addr) (l f : Option Addr) (fuel : Nat)
    (hwf : WF g) (hL : IsGSeg g.heap l L f) (hLf : ∀ b, b ∈ L → some b ≠ f)
    (hg : ∀ h, h ∈ L → hasGclist g.heap h) (hf : L.length < fuel) :
    ∃ g2, clearbyvalues fuel g l f = some g2 ∧ Soft g.heap g2.heap ∧
      g2 = { g with heap := g2.heap } := by
  obtain ⟨g2, T2, V2, e, hC, -, hout, hin, -, -⟩ := clearbyvalues_list g f L fuel g
    (fun _ x => x) (fun _ => False) l (clearing_refl g) keepsHeader_id hL hLf
    (isGSeg_nodup _ _ _ _ hL hLf) (fun _ _ _ _ => rfl)
    (fun h hh t ht => ⟨hasGclist_nostring _ h t ht (hg h hh),
      fun v hv a ha => isSome_of_valOK _ v a ((hwf h t ht).array v hv) ha,
      fun nd hnd a ha => isSome_of_valOK _ _ a ((hwf h t ht).nodeval nd hnd) ha⟩) hf
  refine ⟨g2, e, soft_of_clearing T2 V2 g g2 hC ?_, hC.1⟩
  intro a x hx
  by_cases ha : a ∈ L
  · rw [hin a ha x hx]
    exact softObj_valuescleared _ _
  · rw [hout a x ha]
    exact softObj_refl x

theorem luaS_clearcache_entries_total (g : global_State) : ∀ (c : List (Option Addr)),
    (∀ s, some s ∈ c → ∃ x, g.heap s = some x) → ∃ r, luaS_clearcache_entries g c = some r := by
  intro c
  induction c with
  | nil => intro _; exact ⟨[], rfl⟩
  | cons p rest ih =>
    intro h
    obtain ⟨r, hr⟩ := ih (fun s hs => h s (List.mem_cons_of_mem _ hs))
    cases p with
    | none =>
      refine ⟨none :: r, ?_⟩
      rw [luaS_clearcache_entries, hr]
      rfl
    | some s =>
      obtain ⟨x, hx⟩ := h s (List.mem_cons_self _ _)
      refine ⟨(if iswhite x.marked then g.memerrmsg else some s) :: r, ?_⟩
      rw [luaS_clearcache_entries]
      simp only [hx, hr, Option.bind_eq_bind, Option.some_bind]

theorem luaS_clearcache_total (g : global_State)
    (h : ∀ s, some s ∈ g.strcache → ∃ x, g.heap s = some x) :
    ∃ c, luaS_clearcache g = some { g with strcache := c } := by
  obtain ⟨r, hr⟩ := luaS_clearcache_entries_total g g.strcache h
  refine ⟨r, ?_⟩
  unfold luaS_clearcache
  rw [hr]
  rfl

/-! ## The steps of `atomic` return -/

theorem onGList_iff (g : global_State) (d : Option Addr) (Ls : Option GrayList → List Addr)
    (hG : GLs g d Ls) (l : GrayList) (b : Addr) :
    OnGList g.heap (g.getlist l) b ↔ b ∈ Ls (some l) := by
  constructor
  · rintro ⟨L, hL, hb⟩
    have e := isGSeg_unique g.heap none L (Ls (some l)) _ hL (hG.seg (some l))
      (fun _ _ k => by cases k) (fun _ _ k => by cases k)
    rw [← e]
    exact hb
  · intro hb
    exact ⟨Ls (some l), hG.seg (some l), hb⟩

theorem fwd_refl (g : global_State) : Fwd g g :=
  ⟨rfl, rfl, fun _ x hx => ⟨x, hx, rfl⟩, fun _ => ⟨fun k => k, fun k => k⟩⟩

theorem fwd_trans (g g1 g2 : global_State) (h1 : Fwd g g1) (h2 : Fwd g1 g2) : Fwd g g2 := by
  refine ⟨h2.1.trans h1.1, h2.2.1.trans h1.2.1, fun a x hx => ?_, fun b => ?_⟩
  · obtain ⟨x1, e1, t1⟩ := h1.2.2.1 a x hx
    obtain ⟨x2, e2, t2⟩ := h2.2.2.1 a x1 e1
    exact ⟨x2, e2, t2.trans t1⟩
  · exact ⟨fun k => (h2.2.2.2 b).1 ((h1.2.2.2 b).1 k), fun k => (h2.2.2.2 b).2 ((h1.2.2.2 b).2 k)⟩

theorem fwd_of_gls (g g2 : global_State) (d d2 : Option Addr)
    (Ls Ls2 : Option GrayList → List Addr) (hG : GLs g d Ls) (hG2 : GLs g2 d2 Ls2)
    (kw : KeepW Ls Ls2) (h1 : g2.strcache = g.strcache) (h2 : g2.finobjold1 = g.finobjold1)
    (h3 : ∀ a x, g.heap a = some x → ∃ x2, g2.heap a = some x2 ∧ x2.tt = x.tt) : Fwd g g2 := by
  refine ⟨h1, h2, h3, fun b => ⟨fun k => ?_, fun k => ?_⟩⟩
  · exact (onGList_iff g2 d2 Ls2 hG2 .weak b).2 ((kw b).1 ((onGList_iff g d Ls hG .weak b).1 k))
  · exact (onGList_iff g2 d2 Ls2 hG2 .allweak b).2
      ((kw b).2 ((onGList_iff g d Ls hG .allweak b).1 k))

theorem mk_fixed_strcache (S : Addr → Prop) (g g2 : global_State) (h : Mk S g g2) :
    g2.strcache = g.strcache ∧ g2.finobjold1 = g.finobjold1 ∧ g2.l_registry = g.l_registry ∧
    g2.mt = g.mt ∧ g2.tobefnz = g.tobefnz ∧ g2.gcstate = g.gcstate :=
  ⟨(congrArg global_State.strcache h.1 : g2.fixed.strcache = g.fixed.strcache),
   (congrArg global_State.finobjold1 h.1 : g2.fixed.finobjold1 = g.fixed.finobjold1),
   (congrArg global_State.l_registry h.1 : g2.fixed.l_registry = g.fixed.l_registry),
   (congrArg global_State.mt h.1 : g2.fixed.mt = g.fixed.mt),
   (congrArg global_State.tobefnz h.1 : g2.fixed.tobefnz = g.fixed.tobefnz),
   (congrArg global_State.gcstate h.1 : g2.fixed.gcstate = g.fixed.gcstate)⟩

theorem mk_live_tt (S : Addr → Prop) (g g2 : global_State) (h : Mk S g g2) :
    ∀ a x, g.heap a = some x → ∃ x2, g2.heap a = some x2 ∧ x2.tt = x.tt := by
  intro a x hx
  obtain ⟨x2, e2, t⟩ := mk_live S g g2 h a x hx
  exact ⟨x2, e2, touch_tt _ _ t⟩

/-- The invariant after a step of marking whose effect on the lists is
known. -/
theorem minv_mk (U : List Addr) (S : Addr → Prop) (g g2 : global_State) (d : Option Addr)
    (hI : MInv U g d) (hM : Mk S g g2)
    (hsh : ∀ Ls T, GLs g d Ls → IsTwList g.heap g.twups T →
      ∃ Ls2, GLs g2 d Ls2 ∧ KeepW Ls Ls2 ∧ ∃ T2, IsTwList g2.heap g2.twups T2) :
    MInv U g2 d ∧ Fwd g g2 ∧ Mk (fun _ => True) g g2 := by
  obtain ⟨hwf, hU, ⟨Ls, hG⟩, T, hT⟩ := hI
  obtain ⟨Ls2, hG2, kw, hT2⟩ := hsh Ls T hG hT
  have hf := mk_fixed_strcache S g g2 hM
  exact ⟨⟨wf_mk S g g2 hM hwf, mk_within U S g g2 hM hU, ⟨Ls2, hG2⟩, hT2⟩,
    fwd_of_gls g g2 d d Ls Ls2 hG hG2 kw hf.1 hf.2.1 (mk_live_tt S g g2 hM),
    mk_mono S _ g g2 hM (fun _ _ => trivial)⟩

theorem lk_gls (g g2 : global_State) (d : Option Addr) (h : Lk (fun _ => False) g g2) :
    ∀ Ls T, GLs g d Ls → IsTwList g.heap g.twups T →
      ∃ Ls2, GLs g2 d Ls2 ∧ KeepW Ls Ls2 ∧ ∃ T2, IsTwList g2.heap g2.twups T2 := by
  intro Ls T hG hT
  obtain ⟨Ls2, hG2, hs, -⟩ := gls_lk _ g g2 d Ls hG h (fun _ k => k.elim)
  exact ⟨Ls2, hG2, keepW_of_sub _ _ hs, T, isTwList_lk _ g g2 T hT h⟩

theorem mk_true_trans (g g1 g2 : global_State) (h1 : Mk (fun _ => True) g g1)
    (h2 : Mk (fun _ => True) g1 g2) : Mk (fun _ => True) g g2 :=
  mk_trans _ _ _ g g1 g2 h1 h2 (fun _ _ _ _ k => (k trivial).elim)

theorem tot_markobject (U : List Addr) (g : global_State) (d : Option Addr) (t : Addr)
    (x : GCObject) (hI : MInv U g d) (hx : g.heap t = some x) :
    ∃ g2, markobject g t = some g2 ∧ MInv U g2 d ∧ Fwd g g2 ∧ Mk (fun _ => True) g g2 := by
  obtain ⟨g2, e, s, -⟩ := markobject_step g t x hI.1 hx
  exact ⟨g2, e, minv_mk U _ g g2 d hI s.1 (lk_gls g g2 d (markobject_lk _ _ _ e))⟩

theorem tot_markvalue (U : List Addr) (g : global_State) (d : Option Addr) (v : TValue)
    (hI : MInv U g d) (hv : ValOK g.heap v) :
    ∃ g2, markvalue g v = some g2 ∧ MInv U g2 d ∧ Fwd g g2 ∧ Mk (fun _ => True) g g2 := by
  obtain ⟨g2, e, s, -⟩ := markvalue_step g v hI.1 hv
  exact ⟨g2, e, minv_mk U _ g g2 d hI s.1 (lk_gls g g2 d (markvalue_lk _ _ _ e))⟩

theorem tot_markmt (U : List Addr) (g : global_State) (d : Option Addr)
    (hI : MInv U g d) (hmt : ∀ p, p ∈ g.mt → PtrOK g.heap p) :
    ∃ g2, markmt g = some g2 ∧ MInv U g2 d ∧ Fwd g g2 ∧ Mk (fun _ => True) g g2 := by
  obtain ⟨g2, e, s, -⟩ := markmt_loop_root g.mt g hI.1 hmt
  have e2 : markmt g = some g2 := e
  exact ⟨g2, e2, minv_mk U _ g g2 d hI s.1 (lk_gls g g2 d (markmt_lk _ _ e2))⟩

theorem tot_propagateall (env : Env) (U : List Addr) (g : global_State) (d : Option Addr)
    (fuel : Nat) (hI : MInv U g d) (hf : 3 * U.length + 2 ≤ fuel) :
    ∃ r, propagateall fuel env g = some r ∧ r.1.gray = none ∧ MInv U r.1 d ∧ Fwd g r.1 ∧
      Mk (fun _ => True) g r.1 := by
  obtain ⟨hwf, hU, ⟨Ls, hG⟩, T, hT⟩ := id hI
  have hseg : IsGSeg g.heap g.gray (Ls (some .gray)) none := hG.seg (some .gray)
  have hlen := isGSeg_length_le U g.heap hU _ _ hseg
  have hnw := nwhite_le U g.heap
  obtain ⟨⟨g2, w⟩, X, e, hgray, hM, -⟩ := propagateall_step env U (2 * U.length) fuel g
    (Ls (some .gray)) hwf hU hseg (fun a ha => (hG.ok _ a ha).1) (fun a ha => (hG.ok _ a ha).2.1)
    (by omega) (by omega)
  refine ⟨(g2, w), e, hgray, minv_mk U _ g g2 d hI hM ?_⟩
  intro Ls0 T0 hG0 hT0
  obtain ⟨Ls2, k1, -, k3, k4⟩ := propagateall_gls fuel env g g2 w d Ls0 T0 hG0 hT0 e
  exact ⟨Ls2, k1, k3, k4⟩

theorem tot_remarkupvals (U : List Addr) (g : global_State) (d : Option Addr) (fuel : Nat)
    (hI : MInv U g d) (hf : 2 * U.length < fuel) :
    ∃ r, remarkupvals fuel g = some r ∧ MInv U r.1 d ∧ Fwd g r.1 ∧
      Mk (fun _ => True) g r.1 := by
  obtain ⟨hwf, hU, ⟨Ls, hG⟩, T, hT⟩ := id hI
  have hlen := isTwList_length_le U g.heap hU T _ hT
  obtain ⟨g2, K, Cs, c2, e, hM, hc2, hK, -⟩ := remarkupvals_loop_spec U T fuel g none 0 g.twups
    hwf hU rfl hT (fun q k => by cases k) (by omega)
  have ec : c2 = g2.twups := by
    have k : some g2.twups = some c2 := hc2
    exact (Option.some.inj k).symm
  refine ⟨_, e, minv_mk U _ g g2 d hI hM ?_⟩
  intro Ls0 T0 hG0 _
  obtain ⟨Ls2, k1, k2⟩ := remarkupvals_loop_gls fuel g none 0 g2 _ d Ls0 e hG0
  exact ⟨Ls2, k1, k2, K, ec ▸ hK⟩

theorem tot_convergeephemerons (env : Env) (U : List Addr) (g : global_State) (fuel : Nat)
    (hI : MInv U g none) (hgray : g.gray = none) (hf : 4 * U.length + 4 ≤ fuel) :
    ∃ g2, convergeephemerons env fuel g = some g2 ∧ g2.gray = none ∧ MInv U g2 none ∧
      Fwd g g2 ∧ Mk (fun _ => True) g g2 := by
  obtain ⟨hwf, hU, ⟨Ls, hG⟩, T, hT⟩ := id hI
  have hseg : IsGSeg g.heap g.ephemeron (Ls (some .ephemeron)) none := hG.seg (some .ephemeron)
  have hnw := nwhite_le U g.heap
  obtain ⟨g2, E2, e, -, hgray2, -, -, -, hM, -⟩ := convergeephemerons_rounds_step env U U.length
    fuel g false (Ls (some .ephemeron)) hwf hU hgray hseg
    (fun a ha => ⟨(hG.ok _ a ha).1, (hG.ok _ a ha).2.2 rfl⟩) hnw (by omega)
  have e2 : convergeephemerons env fuel g = some g2 := e
  refine ⟨g2, e2, hgray2, minv_mk U _ g g2 none hI hM ?_⟩
  intro Ls0 T0 hG0 hT0
  exact convergeephemerons_gls env fuel g g2 Ls0 T0 hG0 hT0 e2

theorem markbeingfnz_total (U : List Addr) (g : global_State) (d : Option Addr) (fuel : Nat)
    (lt : List Addr) (hI : MInv U g d) (hlt : IsList g.heap g.tobefnz lt)
    (hf : U.length < fuel) :
    ∃ r, markbeingfnz fuel g = some r ∧ MInv U r.1 d ∧ Fwd g r.1 ∧
      Mk (fun _ => True) g r.1 := by
  have hlen : lt.length ≤ U.length := by
    refine List.Subperm.length_le (List.subperm_of_subset (isList_nodup _ _ _ hlt) ?_)
    intro a ha
    obtain ⟨x, hx⟩ := isList_live _ _ _ hlt a ha
    exact hI.2.1 a x hx
  obtain ⟨g2, e, s, -⟩ := markbeingfnz_loop_root fuel g g.tobefnz 0 lt hI.1 hlt (by omega)
  have e2 : markbeingfnz fuel g = some (g2, 0 + lt.length) := e
  exact ⟨_, e2, minv_mk U _ g g2 d hI s.1 (lk_gls g g2 d (markbeingfnz_lk _ _ _ _ e2))⟩

/-- The invariant after a step that empties values and clears keys, or
relinks the heap lists. -/
theorem minv_soft (U : List Addr) (g g2 : global_State) (d : Option Addr) (hI : MInv U g d)
    (hs : Soft g.heap g2.heap) (hl : Lk (fun _ => False) g g2)
    (h1 : g2.strcache = g.strcache) (h2 : g2.finobjold1 = g.finobjold1) :
    MInv U g2 d ∧ Fwd g g2 := by
  obtain ⟨hwf, hU, ⟨Ls, hG⟩, T, hT⟩ := hI
  obtain ⟨Ls2, hG2, kw, hT2⟩ := lk_gls g g2 d hl Ls T hG hT
  refine ⟨⟨wf_soft g g2 hs hwf, soft_within U _ _ hs hU, ⟨Ls2, hG2⟩, hT2⟩,
    fwd_of_gls g g2 d d Ls Ls2 hG hG2 kw h1 h2 (fun a x hx => ?_)⟩
  obtain ⟨x2, e2, k⟩ := soft_live _ _ hs a x hx
  exact ⟨x2, e2, softObj_tt _ _ k⟩

theorem isGSeg_prefix (h : Heap) : ∀ (L : List Addr) (p : Option Addr) (b : Addr),
    IsGSeg h p L none → b ∈ L →
    ∃ L1, IsGSeg h p L1 (some b) ∧ b ∉ L1 ∧ ∀ a, a ∈ L1 → a ∈ L := by
  intro L
  induction L with
  | nil => intro p b _ hb; cases hb
  | cons a L2 ih =>
    intro p b hL hb
    obtain ⟨e, o, ho, hL2⟩ := hL
    by_cases hab : b = a
    · subst hab
      exact ⟨[], e, (fun k => by cases k), (fun _ k => by cases k)⟩
    · have hb2 : b ∈ L2 := by
        rcases List.mem_cons.1 hb with k | k
        · exact absurd k hab
        · exact k
      obtain ⟨L1, k1, k2, k3⟩ := ih _ b hL2 hb2
      refine ⟨a :: L1, ⟨e, o, ho, k1⟩, fun k => ?_, fun c hc => ?_⟩
      · rcases List.mem_cons.1 k with j | j
        · exact hab j
        · exact k2 j
      · rcases List.mem_cons.1 hc with j | j
        · rw [j]
          exact List.mem_cons_self _ _
        · exact List.mem_cons_of_mem _ (k3 c j)

theorem tot_clearbykeys (U : List Addr) (g : global_State) (l : GrayList) (fuel : Nat)
    (hI : MInv U g none) (hf : U.length < fuel) :
    ∃ g2, clearbykeys fuel g (g.getlist l) = some g2 ∧ MInv U g2 none ∧ Fwd g g2 ∧
      g2 = { g with heap := g2.heap } := by
  obtain ⟨hwf, hU, ⟨Ls, hG⟩, T, hT⟩ := id hI
  have hseg : IsGSeg g.heap (g.getlist l) (Ls (some l)) none := hG.seg (some l)
  have hlen := isGSeg_length_le U g.heap hU _ _ hseg
  obtain ⟨g2, e, hs, eg⟩ := clearbykeys_total g (Ls (some l)) (g.getlist l) fuel hwf hseg
    (fun a ha => (hG.ok _ a ha).2.1) (by omega)
  obtain ⟨k1, k2⟩ := minv_soft U g g2 none hI hs (clearbykeys_lk _ _ _ _ e) (by rw [eg])
    (by rw [eg])
  exact ⟨g2, e, k1, k2, eg⟩

theorem tot_clearbyvalues (U : List Addr) (g : global_State) (l : GrayList) (f : Option Addr)
    (fuel : Nat) (hI : MInv U g none)
    (hOn : ∀ b, f = some b → OnGList g.heap (g.getlist l) b) (hf : U.length < fuel) :
    ∃ g2, clearbyvalues fuel g (g.getlist l) f = some g2 ∧ MInv U g2 none ∧ Fwd g g2 ∧
      g2 = { g with heap := g2.heap } := by
  obtain ⟨hwf, hU, ⟨Ls, hG⟩, T, hT⟩ := id hI
  have hseg : IsGSeg g.heap (g.getlist l) (Ls (some l)) none := hG.seg (some l)
  have hlen := isGSeg_length_le U g.heap hU _ _ hseg
  have key : ∃ L, IsGSeg g.heap (g.getlist l) L f ∧ (∀ b, b ∈ L → some b ≠ f) ∧
      ∀ a, a ∈ L → a ∈ Ls (some l) := by
    cases f with
    | none => exact ⟨Ls (some l), hseg, (fun _ _ k => by cases k), (fun _ k => k)⟩
    | some b =>
      have hb := (onGList_iff g none Ls hG l b).1 (hOn b rfl)
      obtain ⟨L1, k1, k2, k3⟩ := isGSeg_prefix g.heap _ _ b hseg hb
      exact ⟨L1, k1, fun c hc k => k2 (Option.some.inj k ▸ hc), k3⟩
  obtain ⟨L, hL, hLf, hsub⟩ := key
  have hlen2 : L.length ≤ (Ls (some l)).length :=
    List.Subperm.length_le (List.subperm_of_subset (isGSeg_nodup _ _ _ _ hL hLf) hsub)
  obtain ⟨g2, e, hs, eg⟩ := clearbyvalues_total g L (g.getlist l) f fuel hwf hL hLf
    (fun a ha => (hG.ok _ a (hsub a ha)).2.1) (by omega)
  obtain ⟨k1, k2⟩ := minv_soft U g g2 none hI hs (clearbyvalues_lk _ _ _ _ _ e) (by rw [eg])
    (by rw [eg])
  exact ⟨g2, e, k1, k2, eg⟩

theorem tot_separatetobefnz (U : List Addr) (g : global_State) (fuel : Nat)
    (la pre post lt lx : List Addr) (hI : MInv U g none)
    (hL : Lists g la (pre ++ post) lt lx) (hold : g.finobjold1 = post.head?)
    (hf : U.length < fuel) :
    ∃ g2, separatetobefnz fuel g false = some g2 ∧ MInv U g2 none ∧ Fwd g g2 ∧
      NextOnly g g2 ∧
      Lists g2 la (pre.filter (fun a => !whiteIn g.heap a) ++ post)
        (lt ++ pre.filter (fun a => whiteIn g.heap a)) lx := by
  have hsub : ∀ l : List Addr, l.Nodup → (∀ a, a ∈ l → ∃ x, g.heap a = some x) → l.length ≤ U.length := by
    intro l hnd hl
    refine List.Subperm.length_le (List.subperm_of_subset hnd ?_)
    intro a ha
    obtain ⟨x, hx⟩ := hl a ha
    exact hI.2.1 a x hx
  have h1 := hsub _ (isList_nodup _ _ _ hL.2.1) (isList_live _ _ _ hL.2.1)
  have h2 := hsub _ (isList_nodup _ _ _ hL.2.2.1) (isList_live _ _ _ hL.2.2.1)
  simp only [List.length_append] at h1
  obtain ⟨g2, e, -, k, -⟩ := separatetobefnz_exact fuel g false la pre post lt lx hL hold
    ⟨by omega, by omega⟩
  have hn := separatetobefnz_nextOnly _ _ _ _ e
  have eg := hn.2
  exact ⟨g2, e, (minv_soft U g g2 none hI (soft_of_nextOnly g g2 hn) (lk_of_nextOnly g g2 hn)
    (by rw [eg]) (by rw [eg])).1, (minv_soft U g g2 none hI (soft_of_nextOnly g g2 hn)
    (lk_of_nextOnly g g2 hn) (by rw [eg]) (by rw [eg])).2, hn, k rfl⟩

/-! ## `atomic` returns -/

theorem shape_head_on (g : global_State) (hS : Shape g none) (l : GrayList) (b : Addr)
    (hb : g.getlist l = some b) : OnGList g.heap (g.getlist l) b := by
  obtain ⟨⟨Ls, hG⟩, -⟩ := hS
  exact (onGList_iff g none Ls hG l b).2 (gls_head_mem g none Ls hG (some l) b hb)

theorem ptrOK_fwd (g g2 : global_State) (h : Fwd g g2) (p : Option Addr)
    (hp : PtrOK g.heap p) : PtrOK g2.heap p := by
  intro r e
  obtain ⟨y, hy⟩ := hp r e
  obtain ⟨y2, e2, -⟩ := h.2.2.1 r y hy
  exact ⟨y2, e2⟩

theorem valOK_fwd (g g2 : global_State) (h : Fwd g g2) (v : TValue)
    (hv : ValOK g.heap v) : ValOK g2.heap v := by
  intro t r e
  obtain ⟨y, hy, hk⟩ := hv t r e
  obtain ⟨y2, e2, t2⟩ := h.2.2.1 r y hy
  exact ⟨y2, e2, by rw [t2]; exact hk⟩

/-- Detaching the list `grayagain` keeps the invariant. -/
theorem minv_detach (U : List Addr) (g : global_State) (st : Nat) (hI : MInv U g none) :
    MInv U { g with grayagain := none, gcstate := st } g.grayagain ∧
      Fwd g { g with grayagain := none, gcstate := st } := by
  obtain ⟨hwf, hU, ⟨Ls, hG⟩, T, hT⟩ := hI
  obtain ⟨Ls0, hG0, -, eO⟩ := gls_move g none Ls hG (some .grayagain) none (by simp) rfl (by simp)
    { g with grayagain := none, gcstate := st } g.grayagain rfl rfl rfl
    (fun s3 k1 k2 => by
      cases s3 with
      | none => exact absurd rfl k2
      | some l => cases l <;> first | rfl | exact absurd rfl k1)
  refine ⟨⟨hwf, hU, ⟨Ls0, hG0⟩, T, hT⟩, fwd_of_gls g _ none g.grayagain Ls Ls0 hG hG0 ?_ rfl rfl
    (fun a x hx => ⟨x, hx, rfl⟩)⟩
  intro b
  rw [eO (some .weak) (by simp) (by simp), eO (some .allweak) (by simp) (by simp)]
  exact ⟨fun k => k, fun k => k⟩

/-- Attaching the detached list as the gray list, which is empty, keeps the
invariant. -/
theorem minv_attach (U : List Addr) (g : global_State) (d : Option Addr) (hI : MInv U g d)
    (hgray : g.gray = none) :
    MInv U { g with gray := d } none ∧ Fwd g { g with gray := d } := by
  obtain ⟨hwf, hU, ⟨Ls, hG⟩, T, hT⟩ := hI
  obtain ⟨Ls0, hG0, -, eO⟩ := gls_move g d Ls hG none (some .gray) (by simp) hgray (by simp)
    { g with gray := d } none rfl rfl rfl
    (fun s3 k1 k2 => by
      cases s3 with
      | none => exact absurd rfl k1
      | some l => cases l <;> first | rfl | exact absurd rfl k2)
  refine ⟨⟨hwf, hU, ⟨Ls0, hG0⟩, T, hT⟩, fwd_of_gls g _ d none Ls Ls0 hG hG0 ?_ rfl rfl
    (fun a x hx => ⟨x, hx, rfl⟩)⟩
  intro b
  rw [eO (some .weak) (by simp) (by simp), eO (some .allweak) (by simp) (by simp)]
  exact ⟨fun k => k, fun k => k⟩

/-- The first part of `atomic` returns on a well-formed memory with
well-formed lists, whose roots are live, with a fuel of three times the
number of addresses (and two). -/
theorem atomic_mark_total (env : Env) (U : List Addr) (g : global_State) (L : Addr)
    (fuel : Nat) (hI : MInv U g none) (hLlive : ∃ x, g.heap L = some x)
    (hreg : ValOK g.heap g.l_registry) (hmt : ∀ p, p ∈ g.mt → PtrOK g.heap p)
    (hf : 3 * U.length + 2 ≤ fuel) :
    ∃ g1 w, atomic_mark env fuel g L = some (g1, w) ∧ MInv U g1 none ∧ g1.gray = none ∧
      Fwd g g1 := by
  obtain ⟨x, hx⟩ := hLlive
  obtain ⟨i0, f0⟩ := minv_detach U g GCSatomic hI
  obtain ⟨ga, ea, ia, fa, ma⟩ := tot_markobject U _ g.grayagain L x i0 hx
  have k1 := mk_fixed_strcache _ _ ga ma
  have hreg1 : ValOK ga.heap ga.l_registry := by
    rw [k1.2.2.1]
    exact valOK_fwd _ _ (fwd_trans _ _ _ f0 fa) _ hreg
  obtain ⟨gb, eb, ib, fb, mb⟩ := tot_markvalue U ga g.grayagain ga.l_registry ia hreg1
  have k2 := mk_fixed_strcache _ _ gb mb
  have f0b := fwd_trans _ _ _ (fwd_trans _ _ _ f0 fa) fb
  have hmt2 : ∀ p, p ∈ gb.mt → PtrOK gb.heap p := by
    intro p hp
    rw [k2.2.2.2.1, k1.2.2.2.1] at hp
    exact ptrOK_fwd _ _ f0b p (hmt p hp)
  obtain ⟨gc, ec, ic, fc, -⟩ := tot_markmt U gb g.grayagain ib hmt2
  obtain ⟨⟨g1, w1⟩, e1, -, i1, f1, -⟩ := tot_propagateall env U gc g.grayagain fuel ic hf
  obtain ⟨⟨g2, w2⟩, e2, i2, f2, -⟩ := tot_remarkupvals U g1 g.grayagain fuel i1 (by omega)
  obtain ⟨⟨g3, w3⟩, e3, gray3, i3, f3, -⟩ := tot_propagateall env U g2 g.grayagain fuel i2 hf
  obtain ⟨i3b, f3b⟩ := minv_attach U g3 g.grayagain i3 gray3
  obtain ⟨⟨g4, w4⟩, e4, gray4, i4, f4, -⟩ := tot_propagateall env U _ none fuel i3b hf
  refine ⟨g4, w1 + w2 + w3 + w4, ?_, i4, gray4, ?_⟩
  · unfold atomic_mark
    simp only [Option.bind_eq_bind, Option.some_bind, ea, eb, ec, e1, e2, e3, e4]
  · exact fwd_trans _ _ _ (fwd_trans _ _ _ (fwd_trans _ _ _ (fwd_trans _ _ _ (fwd_trans _ _ _
      (fwd_trans _ _ _ f0b fc) f1) f2) f3) f3b) f4

/-- The middle part of `atomic` returns; the saved heads of the lists `weak`
and `allweak` are on these lists at the end. -/
theorem atomic_finalizers_total (env : Env) (U : List Addr) (g : global_State) (fuel : Nat)
    (la lf lt lx : List Addr) (hI : MInv U g none) (hgray : g.gray = none)
    (hL : Lists g la lf lt lx)
    (hold : ∃ pre post, lf = pre ++ post ∧ g.finobjold1 = post.head?)
    (hf : 4 * U.length + 4 ≤ fuel) :
    ∃ g2 w ow oa, atomic_finalizers env fuel g = some (g2, w, ow, oa) ∧ MInv U g2 none ∧
      Fwd g g2 ∧ (∀ b, ow = some b → OnGList g2.heap g2.weak b) ∧
      (∀ b, oa = some b → OnGList g2.heap g2.allweak b) := by
  obtain ⟨pre, post, elf, hold⟩ := hold
  obtain ⟨ga, ea, -, ia, fa, -⟩ := tot_convergeephemerons env U g fuel hI hgray hf
  obtain ⟨gb, eb, ib, fb, -⟩ := tot_clearbyvalues U ga .weak none fuel ia
    (fun _ k => by cases k) (by omega)
  obtain ⟨gc, ec, ic, fc, -⟩ := tot_clearbyvalues U gb .allweak none fuel ib
    (fun _ k => by cases k) (by omega)
  have eb2 : clearbyvalues fuel ga ga.weak none = some gb := eb
  have ec2 : clearbyvalues fuel gb gb.allweak none = some gc := ec
  have fgc := fwd_trans _ _ _ (fwd_trans _ _ _ fa fb) fc
  have hLc : Lists gc la (pre ++ post) lt lx := by
    rw [← elf]
    exact lists_fade _ _ _ _ _ _ (fadeS_trans _ _ _ (fadeS_trans _ _ _
      (convergeephemerons_fade _ _ _ _ ea) (clearbyvalues_fade _ _ _ _ _ eb2))
      (clearbyvalues_fade _ _ _ _ _ ec2)) hL
  obtain ⟨gd, ed, id, fd, hn, hLd⟩ := tot_separatetobefnz U gc fuel la pre post lt lx ic hLc
    (by rw [fgc.2.1]; exact hold) (by omega)
  obtain ⟨⟨ge, we⟩, ee, ie, fe, me⟩ := markbeingfnz_total U gd none fuel _ id hLd.2.2.1
    (by omega)
  obtain ⟨⟨gf, wf⟩, ef, grayf, i6, f6, -⟩ := tot_propagateall env U ge none fuel ie (by omega)
  obtain ⟨gg, eg, -, ig, fg, -⟩ := tot_convergeephemerons env U gf fuel i6 grayf hf
  have fcg : Fwd gc gg := fwd_trans _ _ _ (fwd_trans _ _ _ (fwd_trans _ _ _ fd fe) f6) fg
  refine ⟨gg, we + wf, gc.weak, gc.allweak, ?_, ig, fwd_trans _ _ _ fgc fcg, fun b hb => ?_,
    fun b hb => ?_⟩
  · unfold atomic_finalizers
    simp only [Option.bind_eq_bind, Option.some_bind, ea, eb2, ec2, ed, ee, ef, eg]
  · exact (fcg.2.2.2 b).1 (shape_head_on gc ic.2.2 .weak b hb)
  · exact (fcg.2.2.2 b).2 (shape_head_on gc ic.2.2 .allweak b hb)

/-- The last part of `atomic` returns. -/
theorem atomic_clear_total (U : List Addr) (g : global_State) (fuel : Nat)
    (ow oa : Option Addr) (hI : MInv U g none)
    (how : ∀ b, ow = some b → OnGList g.heap g.weak b)
    (hoa : ∀ b, oa = some b → OnGList g.heap g.allweak b)
    (hsc : ∀ s, some s ∈ g.strcache → ∃ x, g.heap s = some x) (hf : U.length < fuel) :
    ∃ g2, atomic_clear fuel g ow oa = some g2 ∧ ∀ a x, g2.heap a = some x → a ∈ U := by
  obtain ⟨ga, ea, ia, fa, -⟩ := tot_clearbykeys U g .ephemeron fuel hI hf
  obtain ⟨gb, eb, ib, fb, -⟩ := tot_clearbykeys U ga .allweak fuel ia hf
  have fab := fwd_trans _ _ _ fa fb
  obtain ⟨gc, ec, ic, fc, -⟩ := tot_clearbyvalues U gb .weak ow fuel ib
    (fun b hb => (fab.2.2.2 b).1 (how b hb)) hf
  have fac := fwd_trans _ _ _ fab fc
  obtain ⟨gd, ed, id, fd, -⟩ := tot_clearbyvalues U gc .allweak oa fuel ic
    (fun b hb => (fac.2.2.2 b).2 (hoa b hb)) hf
  have fad := fwd_trans _ _ _ fac fd
  obtain ⟨c, ee⟩ := luaS_clearcache_total gd (fun s hs => by
    rw [fad.1] at hs
    obtain ⟨x, hx⟩ := hsc s hs
    obtain ⟨x2, e2, -⟩ := fad.2.2.1 s x hx
    exact ⟨x2, e2⟩)
  have ea2 : clearbykeys fuel g g.ephemeron = some ga := ea
  have eb2 : clearbykeys fuel ga ga.allweak = some gb := eb
  have ec2 : clearbyvalues fuel gb gb.weak ow = some gc := ec
  have ed2 : clearbyvalues fuel gc gc.allweak oa = some gd := ed
  refine ⟨{ ({ gd with strcache := c } : global_State) with
    currentwhite := cast_byte (otherwhite ({ gd with strcache := c } : global_State)) }, ?_,
    id.2.1⟩
  unfold atomic_clear
  simp only [Option.bind_eq_bind, Option.some_bind, ea2, eb2, ec2, ed2, ee]

/-- The atomic phase returns: on a well-formed memory whose live addresses
are in the list `U`, with well-formed gray lists, list `twups` and heap
lists, `finobjold1` on the list `finobj` or `NULL`, and live roots (the
running thread, the registry, the metatables of the basic types and the
strings of the cache), `atomic` returns with a fuel of four times the length
of `U` (and four). -/
theorem atomic_total (env : Env) (U : List Addr) (g : global_State) (L : Addr) (fuel : Nat)
    (la lf lt lx : List Addr) (hwf : WF g) (hU : ∀ a x, g.heap a = some x → a ∈ U)
    (hS : Shape g none) (hL : Lists g la lf lt lx)
    (hold : ∃ pre post, lf = pre ++ post ∧ g.finobjold1 = post.head?)
    (hLlive : ∃ x, g.heap L = some x) (hreg : ValOK g.heap g.l_registry)
    (hmt : ∀ p, p ∈ g.mt → PtrOK g.heap p)
    (hsc : ∀ s, some s ∈ g.strcache → ∃ x, g.heap s = some x)
    (hf : 4 * U.length + 4 ≤ fuel) :
    ∃ g2 w, atomic env fuel g L = some (g2, w) ∧ ∀ a x, g2.heap a = some x → a ∈ U := by
  obtain ⟨g1, w1, e1, i1, gray1, f1⟩ := atomic_mark_total env U g L fuel ⟨hwf, hU, hS⟩ hLlive
    hreg hmt (by omega)
  have hL1 := lists_fade _ _ _ _ _ _ (atomic_mark_fade _ _ _ _ _ _ e1) hL
  obtain ⟨g2, w2, ow, oa, e2, i2, f2, how, hoa⟩ := atomic_finalizers_total env U g1 fuel
    la lf lt lx i1 gray1 hL1 (by rw [f1.2.1]; exact hold) hf
  have f12 := fwd_trans _ _ _ f1 f2
  obtain ⟨g3, e3, hU3⟩ := atomic_clear_total U g2 fuel ow oa i2 how hoa (fun s hs => by
    rw [f12.1] at hs
    obtain ⟨x, hx⟩ := hsc s hs
    obtain ⟨x2, e2, -⟩ := f12.2.2.1 s x hx
    exact ⟨x2, e2⟩) (by omega)
  refine ⟨g3, w1 + w2, ?_, hU3⟩
  unfold atomic
  simp only [Option.bind_eq_bind, Option.some_bind, e1, e2, e3]

/-! ## The atomic phase on a concrete state -/

theorem exAtom_wf : WF exAtom := by
  intro a x hx
  have hx2 : exAtomHeap a = some x := hx
  unfold exAtomHeap at hx2
  split_ifs at hx2 with h1 h2 h3 h4 h5 h6 h7
  · cases hx2
    refine { wfObj_leaf exAtom.heap .LUA_VTHREAD 32 (some 5) with stack := ?_, opened := ?_ }
    · intro s hs i v hi hv t r e
      cases hs
      have hi0 : i = 0 := by
        have k : i < 1 := hi
        omega
      subst hi0
      cases hv
      cases e
      exact ⟨_, rfl, by decide⟩
    · exact ⟨[4], rfl, _, rfl, rfl⟩
  · cases hx2
    refine { wfObj_leaf exAtom.heap .LUA_VUSERDATA 96 none with metatable := ?_ }
    intro mt e
    cases e
    exact ⟨_, rfl, rfl, fun _ _ k => (by cases k)⟩
  · cases hx2
    exact { wfObj_leaf exAtom.heap .LUA_VTABLE 32 (some 6) with }
  · cases hx2
    refine { wfObj_leaf exAtom.heap .LUA_VUPVAL 0 (some 3) with value := ?_, slot := ?_ }
    · intro k
      cases k
    · intro th idx k
      cases k
      exact ⟨_, _, _, rfl, rfl, by decide, rfl⟩
  · cases hx2
    refine { wfObj_leaf exAtom.heap .LUA_VLCL 32 (some 4) with upvals := ?_ }
    intro p hp r e
    subst e
    simp only [List.mem_singleton, Option.some.injEq] at hp
    subst hp
    exact ⟨_, rfl⟩
  · cases hx2
    exact wfObj_leaf _ _ _ _
  · cases hx2
    exact wfObj_leaf _ _ _ _

theorem exAtom_within : ∀ a x, exAtom.heap a = some x → a ∈ [1, 2, 3, 4, 5, 6, 7] := by
  intro a x hx
  have hx2 : exAtomHeap a = some x := hx
  unfold exAtomHeap at hx2
  split_ifs at hx2 with h1 h2 h3 h4 h5 h6 h7
  · rw [h1]; decide
  · rw [h2]; decide
  · rw [h3]; decide
  · rw [h4]; decide
  · rw [h5]; decide
  · rw [h6]; decide
  · rw [h7]; decide

theorem exAtom_lists : Lists exAtom [1, 5, 4, 3, 6] [] [2] [7] := by
  refine ⟨⟨rfl, _, rfl, rfl, _, rfl, rfl, _, rfl, rfl, _, rfl, rfl, _, rfl, rfl⟩, rfl,
    ⟨rfl, _, rfl, rfl⟩, ⟨rfl, _, rfl, rfl⟩, by decide, ?_⟩
  intro a
  show (exAtomHeap a).isSome ↔ _
  unfold exAtomHeap
  simp only [List.cons_append, List.nil_append, List.append_nil, List.mem_cons,
    List.mem_singleton, List.not_mem_nil, or_false]
  split_ifs <;> simp_all

/-- The gray lists of a state whose only gray object is the thread 1, on
`grayagain`, and whose list `twups` holds the thread 1 alone. -/
theorem shape_one (g : global_State) (t : GCObject) (h1 : g.heap 1 = some t)
    (htt : t.tt = .LUA_VTHREAD) (hw : iswhite t.marked = false) (hgl : t.gclist = none)
    (htw : t.twups = none) (e1 : g.gray = none) (e2 : g.grayagain = some 1)
    (e3 : g.weak = none) (e4 : g.ephemeron = none) (e5 : g.allweak = none)
    (e6 : g.twups = some 1) : Shape g none := by
  refine ⟨⟨fun s => if s = some .grayagain then [1] else [], fun s => ?_, fun s a ha => ?_,
    fun s s2 a ha ha2 => ?_⟩, [1], ?_⟩
  · cases s with
    | none => exact rfl
    | some l =>
      cases l
      · exact e1
      · exact ⟨e2, t, h1, hgl⟩
      · exact e3
      · exact e5
      · exact e4
  · try dsimp only at ha
    by_cases e : s = some .grayagain
    · rw [if_pos e] at ha
      rw [List.mem_singleton.1 ha]
      refine ⟨?_, ⟨t, h1, ?_⟩, fun k => ?_⟩
      · rw [whiteIn_some _ _ _ h1]
        exact hw
      · unfold getgclist
        rw [htt]
      · rw [e] at k
        cases k
    · rw [if_neg e] at ha
      cases ha
  · try dsimp only at ha ha2
    by_cases e : s = some .grayagain
    · by_cases e0 : s2 = some .grayagain
      · rw [e, e0]
      · rw [if_neg e0] at ha2
        cases ha2
    · rw [if_neg e] at ha
      cases ha
  · exact ⟨e6, t, h1, htw⟩

theorem exAtom_shape : Shape exAtom none :=
  shape_one exAtom _ rfl rfl rfl rfl rfl rfl rfl rfl rfl rfl rfl

theorem exAtom_registry : ValOK exAtom.heap exAtom.l_registry := by
  intro t r e
  cases e
  exact ⟨_, rfl, by decide⟩

theorem exAtom_mt : ∀ p, p ∈ exAtom.mt → PtrOK exAtom.heap p := by
  intro p hp r e
  subst e
  have hp2 : some r ∈ [some 3, none] := hp
  simp only [List.mem_cons, Option.some.injEq, List.mem_singleton, List.not_mem_nil,
    or_false] at hp2
  rcases hp2 with k | k
  · subst k
    exact ⟨_, rfl⟩
  · cases k

theorem exAtom_strcache : ∀ s, some s ∈ exAtom.strcache → ∃ x, exAtom.heap s = some x := by
  intro s hs
  have hs2 : some s ∈ [some 6, none] := hs
  simp only [List.mem_cons, Option.some.injEq, List.mem_singleton, List.not_mem_nil,
    or_false] at hs2
  rcases hs2 with k | k
  · subst k
    exact ⟨_, rfl⟩
  · cases k

/-- C11. `atomic` ends by flipping the current white. It returns: on a
well-formed memory whose live addresses are in a list `U`, with well-formed
gray lists, list `twups` and heap lists, `finobjold1` on the list `finobj`
or `NULL`, and live roots (the running thread, the registry, the metatables
of the basic types and the strings of the cache), `atomic` returns with a
fuel of four times the length of `U` (and four). For every run that returns:
when `currentwhite` is exactly one white bit before, it is exactly the other
one afterwards; a mark is then dead (`isdead`) if and only if it carries the
white bit that was current before, so no black or gray mark is dead; an
object created afterwards by `luaC_newobj` is not dead; and a second flip, by
hand or by a later run of `atomic`, restores the original current white. -/
theorem atomic_flips_white (env : Env) (fuel : Nat) (g : global_State) (L : Addr)
    (hcw : g.currentwhite = bitmask WHITE0BIT ∨ g.currentwhite = bitmask WHITE1BIT) :
    (∀ (U la lf lt lx : List Addr), WF g → (∀ a x, g.heap a = some x → a ∈ U) →
      Shape g none → Lists g la lf lt lx →
      (∃ pre post, lf = pre ++ post ∧ g.finobjold1 = post.head?) →
      (∃ x, g.heap L = some x) → ValOK g.heap g.l_registry →
      (∀ p, p ∈ g.mt → PtrOK g.heap p) →
      (∀ s, some s ∈ g.strcache → ∃ x, g.heap s = some x) → 4 * U.length + 4 ≤ fuel →
      ∃ g2 w, atomic env fuel g L = some (g2, w)) ∧
    ∀ g2 w, atomic env fuel g L = some (g2, w) →
      g2.currentwhite = otherwhite g ∧
      (g2.currentwhite = bitmask WHITE0BIT ∨ g2.currentwhite = bitmask WHITE1BIT) ∧
      g2.currentwhite ≠ g.currentwhite ∧
      (∀ m, isdead g2 m = (m &&& g.currentwhite != 0)) ∧
      (∀ m, iswhite m = false → isdead g2 m = false) ∧
      (∀ luaE_setdebt env2 fuel2 alloc L2 tt sz init,
        (∀ p, alloc g2 sz = some p →
          ∃ g3 x, luaC_newobj luaE_setdebt env2 fuel2 alloc g2 L2 tt sz init = some (g3, some p) ∧
            g3.heap p = some x ∧ isdead g2 x.marked = false ∧ isdead g3 x.marked = false) ∧
        ∀ g3 p, luaC_newobj luaE_setdebt env2 fuel2 alloc g2 L2 tt sz init = some (g3, some p) →
          ∃ x, g3.heap p = some x ∧ isdead g3 x.marked = false) ∧
      cast_byte (otherwhite g2) = g.currentwhite ∧
      (∀ env2 fuel2 g3 L2 g4 w2, g3.currentwhite = g2.currentwhite →
        atomic env2 fuel2 g3 L2 = some (g4, w2) → g4.currentwhite = g.currentwhite) :=
  ⟨fun U la lf lt lx hwf hU hS hL hold hLl hreg hmt hsc hf => by
      obtain ⟨g2, w, e, -⟩ := atomic_total env U g L fuel la lf lt lx hwf hU hS hL hold hLl hreg
        hmt hsc hf
      exact ⟨g2, w, e⟩,
    fun g2 w hrun => atomic_flips_white_run env fuel g L g2 w hcw hrun⟩

/-- C11 at the concrete state `exAtom`, whose current white is white 0, whose
running thread 1 is black, has an open upvalue and is on the list `twups`:
the atomic phase returns, the current white is white 1, the unreachable white
string 6 is dead, the upvalue 4 is not, and the thread stays on `twups`. -/
theorem atomic_flips_white_witness :
    (∃ g2 w, atomic exEnv 32 exAtom 1 = some (g2, w) ∧
      g2.currentwhite = bitmask WHITE1BIT ∧ isdead g2 8 = true ∧ isdead g2 16 = false ∧
      isdead g2 32 = false) ∧
    (atomic exEnv 32 exAtom 1).map (fun r => (r.1.currentwhite, r.1.twups,
        (r.1.heap 6).map (fun x => isdead r.1 x.marked),
        (r.1.heap 4).map (fun x => isdead r.1 x.marked),
        (r.1.heap 1).map (fun x => isdead r.1 x.marked)))
      = some (16, some 1, some true, some false, some false) := by
  have W := atomic_flips_white exEnv 32 exAtom 1 (Or.inl rfl)
  obtain ⟨g2, w, hg⟩ := W.1 [1, 2, 3, 4, 5, 6, 7] [1, 5, 4, 3, 6] [] [2] [7] exAtom_wf
    exAtom_within exAtom_shape exAtom_lists ⟨[], [], rfl, rfl⟩ ⟨_, rfl⟩ exAtom_registry
    exAtom_mt exAtom_strcache (by decide)
  have W2 := W.2 g2 w hg
  refine ⟨⟨g2, w, hg, W2.1, ?_, ?_, ?_⟩, rfl⟩
  · rw [W2.2.2.2.1]; rfl
  · rw [W2.2.2.2.1]; rfl
  · rw [W2.2.2.2.1]; rfl

/-! ## The steps of the collector return -/

/-- The loop of `sweeplist` returns when no dead object in its way is an open
upvalue. -/
theorem sweeplist_loop_total (ow white : Nat) (n : Nat) :
    ∀ (g : global_State) (p : GCRef) (i : Nat) (la lf lt lx rest : List Addr) (c0 : Option Addr),
    Lists g la lf lt lx → g.load p = some c0 → IsList g.heap c0 rest →
    (∀ s, p = .next s → s ∉ rest) →
    (∀ a, a ∈ rest → ∀ y, g.heap a = some y → isdeadm ow y.marked = true →
      y.tt = .LUA_VUPVAL → upisopen y = false) →
    ∃ r, sweeplist_loop ow white n g p i = some r := by
  induction n with
  | zero =>
    intro g p i la lf lt lx rest c0 _ _ _ _ _
    exact ⟨_, rfl⟩
  | succ n ih =>
    intro g p i la lf lt lx rest c0 hL hp hr hown hcl
    cases c0 with
    | none =>
      refine ⟨(g, p, i), ?_⟩
      rw [sweeplist_loop]
      simp only [hp, Option.bind_eq_bind, Option.some_bind]
    | some curr =>
      obtain ⟨rest2, rfl, x, hx, hr2⟩ := isList_head _ _ _ hr
      have hnd := isList_nodup _ _ _ hr
      have hcn : curr ∉ rest2 := (List.nodup_cons.1 hnd).1
      have hown2 : ∀ s, p = .next s → s ∉ rest2 :=
        fun s hs hm => hown s hs (List.mem_cons_of_mem _ hm)
      by_cases hdead : isdeadm ow x.marked = true
      · have hunf : sweeplist_loop ow white (n + 1) g p i =
            (g.store p x.next).bind (fun g1 => (freeobj g1 curr).bind (fun g3 =>
              sweeplist_loop ow white n g3 p (i + 1))) := by
          rw [sweeplist_loop]
          simp only [hp, hx, hdead, Option.bind_eq_bind, Option.some_bind, if_true]
        rw [hunf]
        obtain ⟨g1, h1⟩ := store_some g p _ x.next hp
        obtain ⟨-, hc1, -, -, -⟩ := lists_unlink g g1 p curr x la lf lt lx hL hp hx h1
        obtain ⟨g3, h3, hh⟩ := freeobj_closed g1 curr x hc1
          (hcl curr (List.mem_cons_self _ _) x hx hdead)
        obtain ⟨k1, k2, k3, -⟩ := sweep_remove g g1 g3 p curr x la lf lt lx rest2 hL hp hx
          hr2 hcn hown h1 h3
        simp only [h1, h3, Option.some_bind]
        refine ih g3 p (i + 1) _ _ _ _ rest2 x.next k1 k2 k3 hown2 ?_
        intro a ha y hy
        have hac : a ≠ curr := fun e => hcn (e ▸ ha)
        rw [hh, heap_free_ne _ _ _ hac, store_frame _ _ _ _ h1 a
          (fun e => hown a e (List.mem_cons_of_mem _ ha))] at hy
        exact hcl a (List.mem_cons_of_mem _ ha) y hy
      · have hunf : sweeplist_loop ow white (n + 1) g p i =
            sweeplist_loop ow white n (g.setobj curr
              { x with marked := cast_byte ((x.marked &&& bnot8 maskgcbits) ||| white) })
              (.next curr) (i + 1) := by
          rw [sweeplist_loop]
          simp only [hp, hx, hdead, Option.bind_eq_bind, Option.some_bind, Bool.false_eq_true,
            if_false]
        rw [hunf]
        obtain ⟨k1, k2, k3, k4⟩ := sweep_keep g curr x
          { x with marked := cast_byte ((x.marked &&& bnot8 maskgcbits) ||| white) }
          la lf lt lx rest2 hL hx rfl hr2 hcn
        refine ih _ (.next curr) (i + 1) la lf lt lx rest2 x.next k1 k2 k3 ?_ ?_
        · intro s hs
          cases hs
          exact hcn
        · intro a ha y hy
          have hac : a ≠ curr := fun e => hcn (e ▸ ha)
          rw [k4 a hac] at hy
          exact hcl a (List.mem_cons_of_mem _ ha) y hy

theorem sweeplist_total (g : global_State) (p : GCRef) (n : Nat)
    (la lf lt lx rest : List Addr) (c0 : Option Addr) (hL : Lists g la lf lt lx)
    (hp : g.load p = some c0) (hr : IsList g.heap c0 rest) (hown : ∀ s, p = .next s → s ∉ rest)
    (hcl : ∀ a, a ∈ rest → ∀ y, g.heap a = some y → isdead g y.marked = true →
      y.tt = .LUA_VUPVAL → upisopen y = false) :
    ∃ r, sweeplist g p n = some r := by
  obtain ⟨⟨g1, p1, i⟩, e⟩ := sweeplist_loop_total (otherwhite g) (luaC_white g) n g p 0 la lf lt
    lx rest c0 hL hp hr hown hcl
  obtain ⟨la2, lf2, lt2, lx2, c2, rest2, -, m2, -⟩ :=
    (sweeplist_loop_lists (otherwhite g) (luaC_white g) n g p 0 la lf lt lx rest c0 hL hp hr
      hown).2 g1 p1 i e
  unfold sweeplist
  simp only [e, m2, Option.bind_eq_bind, Option.some_bind]
  exact ⟨_, rfl⟩

/-- A step of the sweep returns when the cursor, if it is set, points into
one of the heap lists and no dead object of the rest of that list is an open
upvalue. -/
theorem sweepstep_total (g : global_State) (nextstate : Nat) (nextlist : Option GCRef)
    (hcur : ∀ sg, g.sweepgc = some sg → ∃ la lf lt lx rest c0, Lists g la lf lt lx ∧
      g.load sg = some c0 ∧ IsList g.heap c0 rest ∧ (∀ s, sg = .next s → s ∉ rest) ∧
      ∀ a, a ∈ rest → ∀ y, g.heap a = some y → isdead g y.marked = true →
        y.tt = .LUA_VUPVAL → upisopen y = false) :
    ∃ r, sweepstep g nextstate nextlist = some r := by
  cases hsg : g.sweepgc with
  | none =>
    unfold sweepstep
    rw [hsg]
    exact ⟨_, rfl⟩
  | some sg =>
    obtain ⟨la, lf, lt, lx, rest, c0, hL, hp, hr, hown, hcl⟩ := hcur sg hsg
    obtain ⟨⟨g1, p, c⟩, e⟩ := sweeplist_total g sg GCSWEEPMAX la lf lt lx rest c0 hL hp hr hown
      hcl
    unfold sweepstep
    rw [hsg]
    simp only [e, Option.bind_eq_bind, Option.some_bind]
    exact ⟨_, rfl⟩

/-- The entry into the sweep returns when no dead object is an open
upvalue. -/
theorem entersweep_total (fuel : Nat) (g : global_State) (la lf lt lx : List Addr)
    (hL : Lists g la lf lt lx)
    (hcl : ∀ a x, g.heap a = some x → x.tt = .LUA_VUPVAL → isdead g x.marked = true →
      upisopen x = false)
    (hf : la.length < fuel) : ∃ g2, entersweep fuel g = some g2 := by
  have hL1 : Lists { g with gcstate := GCSswpallgc } la lf lt lx := hL
  have hsplit := List.takeWhile_append_dropWhile
    (fun a => deadIn (otherwhite g) g.heap a) la
  have hr : IsList g.heap g.allgc
      (la.takeWhile (fun a => deadIn (otherwhite g) g.heap a) ++
        la.dropWhile (fun a => deadIn (otherwhite g) g.heap a)) := by
    rw [hsplit]
    exact hL.1
  obtain ⟨g2, q, e, -⟩ := sweeptolive_run _ fuel { g with gcstate := GCSswpallgc } .allgc
    la lf lt lx _ g.allgc hL1 rfl hr (fun s hs => by cases hs)
    (fun a ha => List.mem_takeWhile_imp ha)
    (fun s R2 e => dropWhile_head_false _ la s R2 e)
    (fun a ha y hy htt => by
      have hd : deadIn (otherwhite g) g.heap a = true := List.mem_takeWhile_imp ha
      have hy2 : g.heap a = some y := hy
      unfold deadIn at hd
      rw [hy2] at hd
      exact hcl a y hy2 htt hd)
    (by
      have hlen := congrArg List.length hsplit
      simp only [List.length_append] at hlen
      omega)
  unfold entersweep
  simp only [e, Option.bind_eq_bind, Option.some_bind]
  exact ⟨_, rfl⟩

theorem singlestep_of_switch (env : Env) (fuel : Nat) (g : global_State) (L : Addr)
    (h : ∃ r, singlestep_switch env fuel { g with gcstopem := 1 } L = some r) :
    ∃ g2 w, singlestep env fuel g L = some (g2, w) := by
  obtain ⟨⟨g3, r⟩, e⟩ := h
  unfold singlestep
  simp only [e, Option.bind_eq_bind, Option.some_bind]
  cases r with
  | none => exact ⟨_, _, rfl⟩
  | some w => exact ⟨_, _, rfl⟩

/-- The lists after `atomic`. -/
theorem atomic_lists (env : Env) (fuel : Nat) (g : global_State) (L : Addr)
    (la lf lt lx : List Addr) (hL : Lists g la lf lt lx) (g2 : global_State) (w : Nat)
    (h : atomic env fuel g L = some (g2, w)) : ∃ lf2 lt2, Lists g2 la lf2 lt2 lx := by
  unfold atomic at h
  simp only [Option.bind_eq_bind, Option.bind_eq_some] at h
  obtain ⟨⟨g1, w1⟩, h1, ⟨g3, w3, ow, oa⟩, h3, g4, h4, h⟩ := h
  simp only [Option.some.injEq, Prod.mk.injEq] at h
  obtain ⟨rfl, -⟩ := h
  have hL1 := lists_fade _ _ _ _ _ _ (atomic_mark_fade _ _ _ _ _ _ h1) hL
  obtain ⟨lf2, moved, hL3, -, -⟩ := atomic_finalizers_lists _ _ _ _ _ _ _ hL1 _ _ _ _ h3
  exact ⟨lf2, _, lists_fade _ _ _ _ _ _ (atomic_clear_fade _ _ _ _ _ h4).1 hL3⟩

theorem deadOpenIn_false (g : global_State) (U : List Addr)
    (hU : ∀ a x, g.heap a = some x → a ∈ U) (h : deadOpenIn g U = false) :
    ∀ a x, g.heap a = some x → x.tt = .LUA_VUPVAL → isdead g x.marked = true →
      upisopen x = false := by
  intro a x hx htt hd
  have k := List.any_eq_false.1 h a (hU a x hx)
  simp only [hx, htt, hd, decide_True, Bool.true_and, Bool.not_eq_true] at k
  exact k

/-- The switch of `singlestep` returns in the states other than `GCScallfin`:
on a well-formed memory whose live addresses are in the list `U`, with
well-formed lists and live roots, when no object that the atomic phase
leaves dead is an open upvalue, and when the sweep cursor, if it is set,
points into a list and no dead object is an open upvalue. -/
theorem singlestep_switch_total (env : Env) (fuel : Nat) (g : global_State) (L : Addr)
    (U la lf lt lx : List Addr) (hne : g.gcstate ≠ GCScallfin)
    (hwf : WF g) (hU : ∀ a x, g.heap a = some x → a ∈ U)
    (hS : g.gcstate = GCSpropagate ∨ g.gcstate = GCSenteratomic → Shape g none)
    (hL : Lists g la lf lt lx)
    (hold : ∃ pre post, lf = pre ++ post ∧ g.finobjold1 = post.head?)
    (hLlive : ∃ x, g.heap L = some x) (hmain : ∃ x, g.heap g.mainthread = some x)
    (hreg : ValOK g.heap g.l_registry) (hmt : ∀ p, p ∈ g.mt → PtrOK g.heap p)
    (hsc : ∀ s, some s ∈ g.strcache → ∃ x, g.heap s = some x)
    (hf : 4 * U.length + 4 ≤ fuel)
    (hatom : g.gcstate = GCSenteratomic → ∀ g1 w, atomic env fuel g L = some (g1, w) →
      deadOpenIn g1 U = false)
    (hcur : g.gcstate = GCSswpallgc ∨ g.gcstate = GCSswpfinobj ∨ g.gcstate = GCSswptobefnz →
      ∀ sg, g.sweepgc = some sg → deadOpenIn g U = false ∧
      ∃ rest c0, g.load sg = some c0 ∧ IsList g.heap c0 rest ∧ ∀ s, sg = .next s → s ∉ rest) :
    ∃ r, singlestep_switch env fuel g L = some r := by
  have hlen : ∀ l : List Addr, l.Nodup → (∀ a, a ∈ l → ∃ x, g.heap a = some x) →
      l.length ≤ U.length := by
    intro l hnd hl
    refine List.Subperm.length_le (List.subperm_of_subset hnd ?_)
    intro a ha
    obtain ⟨x, hx⟩ := hl a ha
    exact hU a x hx
  have hcur2 : g.gcstate = GCSswpallgc ∨ g.gcstate = GCSswpfinobj ∨ g.gcstate = GCSswptobefnz →
      ∀ sg, g.sweepgc = some sg → ∃ la lf lt lx rest c0, Lists g la lf lt lx ∧
      g.load sg = some c0 ∧ IsList g.heap c0 rest ∧ (∀ s, sg = .next s → s ∉ rest) ∧
      ∀ a, a ∈ rest → ∀ y, g.heap a = some y → isdead g y.marked = true →
        y.tt = .LUA_VUPVAL → upisopen y = false := by
    intro hsw sg hsg
    obtain ⟨hd, rest, c0, k1, k2, k3⟩ := hcur hsw sg hsg
    exact ⟨la, lf, lt, lx, rest, c0, hL, k1, k2, k3,
      fun a _ y hy hdd htt => deadOpenIn_false g U hU hd a y hy htt hdd⟩
  unfold singlestep_switch
  split
  · obtain ⟨m, hm⟩ := hmain
    have h2 := hlen _ (isList_nodup _ _ _ hL.2.2.1) (isList_live _ _ _ hL.2.2.1)
    obtain ⟨g2, e, -⟩ := restartcollection_root fuel g lt m hwf hm hreg hmt hL.2.2.1 (by omega)
    simp only [e, Option.bind_eq_bind, Option.some_bind]
    exact ⟨_, rfl⟩
  · split
    · rename_i hst
      split
      · exact ⟨_, rfl⟩
      · rename_i hg
        obtain ⟨⟨Ls, hG⟩, -⟩ := hS (Or.inl hst)
        have hseg : IsGSeg g.heap g.gray (Ls (some .gray)) none := hG.seg (some .gray)
        cases hLs : Ls (some .gray) with
        | nil =>
          rw [hLs] at hseg
          exact absurd hseg hg
        | cons o G =>
          rw [hLs] at hseg
          have ho : o ∈ Ls (some .gray) := by
            rw [hLs]
            exact List.mem_cons_self _ _
          obtain ⟨hw, ⟨x, hx, hk⟩, -⟩ := hG.ok _ o ho
          rw [whiteIn_some _ _ _ hx] at hw
          obtain ⟨r, X, N, e, -⟩ := propagatemark_step env fuel g o x G hwf hseg hx hw hk
            (fun C hC => by
              have := opened_length_le U g.heap hU C _ hC
              omega)
            (fun a ha => (hG.ok _ a (by rw [hLs]; exact List.mem_cons_of_mem _ ha)).1)
          exact ⟨_, by rw [e]; rfl⟩
    · split
      · rename_i hst
        obtain ⟨g1, w, e1, hU1⟩ := atomic_total env U g L fuel la lf lt lx hwf hU
          (hS (Or.inr hst)) hL hold hLlive hreg hmt hsc hf
        obtain ⟨lf2, lt2, hL2⟩ := atomic_lists env fuel g L la lf lt lx hL g1 w e1
        have h1 := hlen _ (isList_nodup _ _ _ hL.1) (isList_live _ _ _ hL.1)
        obtain ⟨g2, e2⟩ := entersweep_total fuel g1 la lf2 lt2 lx hL2
          (deadOpenIn_false g1 U hU1 (hatom hst g1 w e1)) (by omega)
        simp only [e1, e2, Option.bind_eq_bind, Option.some_bind]
        exact ⟨_, rfl⟩
      · split
        · rename_i h3
          obtain ⟨r, e⟩ := sweepstep_total g GCSswpfinobj (some .finobj) (hcur2 (Or.inl h3))
          exact ⟨_, by rw [e]; rfl⟩
        · split
          · rename_i h4
            obtain ⟨r, e⟩ := sweepstep_total g GCSswptobefnz (some .tobefnz)
              (hcur2 (Or.inr (Or.inl h4)))
            exact ⟨_, by rw [e]; rfl⟩
          · split
            · rename_i h5
              obtain ⟨r, e⟩ := sweepstep_total g GCSswpend none (hcur2 (Or.inr (Or.inr h5)))
              exact ⟨_, by rw [e]; rfl⟩
            · split
              · exact ⟨_, rfl⟩
              · exact ⟨_, rfl⟩

/-- The gray lists and the list `twups` do not depend on `gcstopem`. -/
theorem shape_stopem (g : global_State) (d : Option Addr) (v : Nat) (h : Shape g d) :
    Shape { g with gcstopem := v } d := by
  obtain ⟨⟨Ls, hG⟩, hT⟩ := h
  refine ⟨⟨Ls, ⟨?_, hG.ok, hG.apart⟩⟩, hT⟩
  intro s
  have k := hG.seg s
  cases s with
  | none => exact k
  | some l => cases l <;> exact k

/-- A step of the collector returns: on a well-formed memory whose live
addresses are in the list `U`, with well-formed heap lists, gray lists and
`twups`, live roots and fuel `4 * |U| + 4`, when no object that is swept dead
is an open upvalue, the sweep cursor of a sweep state points into a list, and
in `GCScallfin` the finalizers can be called and their calls return. -/
theorem singlestep_total (env : Env) (fuel : Nat) (g : global_State) (L : Addr)
    (U la lf lt lx : List Addr) (hwf : WF g) (hU : ∀ a x, g.heap a = some x → a ∈ U)
    (hS : g.gcstate = GCSpropagate ∨ g.gcstate = GCSenteratomic → Shape g none)
    (hL : Lists g la lf lt lx)
    (hold : ∃ pre post, lf = pre ++ post ∧ g.finobjold1 = post.head?)
    (hLlive : ∃ x, g.heap L = some x) (hmain : ∃ x, g.heap g.mainthread = some x)
    (hreg : ValOK g.heap g.l_registry) (hmt : ∀ p, p ∈ g.mt → PtrOK g.heap p)
    (hsc : ∀ s, some s ∈ g.strcache → ∃ x, g.heap s = some x)
    (hf : 4 * U.length + 4 ≤ fuel)
    (hatom : g.gcstate = GCSenteratomic → ∀ g1 w,
      atomic env fuel { g with gcstopem := 1 } L = some (g1, w) → deadOpenIn g1 U = false)
    (hcur : g.gcstate = GCSswpallgc ∨ g.gcstate = GCSswpfinobj ∨ g.gcstate = GCSswptobefnz →
      ∀ sg, g.sweepgc = some sg → deadOpenIn g U = false ∧
      ∃ rest c0, g.load sg = some c0 ∧ IsList g.heap c0 rest ∧ ∀ s, sg = .next s → s ∉ rest)
    (hcall : g.gcstate = GCScallfin → QuietCalls env L ∧ FinReady g L lt) :
    ∃ g2 w, singlestep env fuel g L = some (g2, w) := by
  by_cases hst : g.gcstate = GCScallfin
  · obtain ⟨hq, hr⟩ := hcall hst
    have k := singlestep_callfin_quiet env fuel g L lt hq hst hL.2.2.1 hr
    by_cases hlt : lt = []
    · exact ⟨_, _, k.2 hlt⟩
    · by_cases hem : g.gcemergency = 0
      · obtain ⟨g2, n, e, -⟩ := k.1 hlt hem
        exact ⟨_, _, e⟩
      · apply singlestep_of_switch
        rw [singlestep_switch_callfin env fuel { g with gcstopem := 1 } L hst,
          if_neg (fun c => hem c.2)]
        exact ⟨_, rfl⟩
  · apply singlestep_of_switch
    exact singlestep_switch_total env fuel { g with gcstopem := 1 } L U la lf lt lx hst hwf hU
      (fun c => shape_stopem g none 1 (hS c)) hL hold hLlive hmain hreg hmt hsc hf hatom hcur

/-- C10. For every state of the collector with `gcstate` one of pause,
propagate, enteratomic, swpallgc, swpfinobj, swptobefnz, swpend, callfin,
a call of `singlestep` leaves `gcstate` unchanged or moves it to exactly the
next state of the cycle (from enteratomic straight to swpallgc, the atomic
phase running inside the step); it never skips a state or moves backward,
`gcstate` is not `GCSatomic` and `gcstopem` is 0 on return.  The protected
call of a finalizer, which is outside the collector, is taken to leave
`gcstate` as it was or at `GCSpause`, where an emergency collection ends.
And the step does return: on a well-formed memory whose live addresses are
in the list `U`, with well-formed heap lists, gray lists and `twups`, live
roots and fuel `4 * |U| + 4`, when no object that is swept dead is an open
upvalue, the sweep cursor of a sweep state points into a list, and in
`GCScallfin` the finalizers can be called and their calls return. -/
theorem singlestep_cycle (env : Env)
    (hfin : ∀ s a s2 r, env.luaD_pcall s a = some (s2, r) →
      s2.gcstate = s.gcstate ∨ s2.gcstate = GCSpause)
    (fuel : Nat) (g : global_State) (L : Addr)
    (hs : g.gcstate ≤ GCSpause) (hna : g.gcstate ≠ GCSatomic) :
    (∀ g2 w, singlestep env fuel g L = some (g2, w) →
      (g.gcstate = GCSpause → g2.gcstate = GCSpropagate) ∧
      (g.gcstate = GCSpropagate → g2.gcstate = GCSpropagate ∨ g2.gcstate = GCSenteratomic) ∧
      (g.gcstate = GCSenteratomic → g2.gcstate = GCSswpallgc) ∧
      (g.gcstate = GCSswpallgc → g2.gcstate = GCSswpallgc ∨ g2.gcstate = GCSswpfinobj) ∧
      (g.gcstate = GCSswpfinobj → g2.gcstate = GCSswpfinobj ∨ g2.gcstate = GCSswptobefnz) ∧
      (g.gcstate = GCSswptobefnz → g2.gcstate = GCSswptobefnz ∨ g2.gcstate = GCSswpend) ∧
      (g.gcstate = GCSswpend → g2.gcstate = GCScallfin) ∧
      (g.gcstate = GCScallfin → g2.gcstate = GCScallfin ∨ g2.gcstate = GCSpause) ∧
      g2.gcstate ≠ GCSatomic ∧ g2.gcstopem = 0) ∧
    (∀ U la lf lt lx, WF g → (∀ a x, g.heap a = some x → a ∈ U) →
      (g.gcstate = GCSpropagate ∨ g.gcstate = GCSenteratomic → Shape g none) →
      Lists g la lf lt lx →
      (∃ pre post, lf = pre ++ post ∧ g.finobjold1 = post.head?) →
      (∃ x, g.heap L = some x) → (∃ x, g.heap g.mainthread = some x) →
      ValOK g.heap g.l_registry → (∀ p, p ∈ g.mt → PtrOK g.heap p) →
      (∀ s, some s ∈ g.strcache → ∃ x, g.heap s = some x) →
      4 * U.length + 4 ≤ fuel →
      (g.gcstate = GCSenteratomic → ∀ g1 w,
        atomic env fuel { g with gcstopem := 1 } L = some (g1, w) → deadOpenIn g1 U = false) →
      (g.gcstate = GCSswpallgc ∨ g.gcstate = GCSswpfinobj ∨ g.gcstate = GCSswptobefnz →
        ∀ sg, g.sweepgc = some sg → deadOpenIn g U = false ∧
        ∃ rest c0, g.load sg = some c0 ∧ IsList g.heap c0 rest ∧
          ∀ s, sg = .next s → s ∉ rest) →
      (g.gcstate = GCScallfin → QuietCalls env L ∧ FinReady g L lt) →
      ∃ g2 w, singlestep env fuel g L = some (g2, w)) := by
  refine ⟨fun g2 w h => singlestep_cycle_run env hfin fuel g L g2 w hs hna h, ?_⟩
  intro U la lf lt lx hwf hU hS hL hold hLlive hmain hreg hmt hsc hf hatom hcur hcall
  exact singlestep_total env fuel g L U la lf lt lx hwf hU hS hL hold hLlive hmain hreg hmt hsc
    hf hatom hcur hcall

/-- C10 at the concrete state `exAtom`, which is about to enter the atomic
phase with a running main thread that has an open upvalue and is on the
list `twups`: the step returns, the collector is in `GCSswpallgc`, and
`gcstopem` is 0; the work of the step is that of the atomic phase. -/
theorem singlestep_cycle_witness :
    (∃ g2 w, singlestep exEnv 32 exAtom 1 = some (g2, w) ∧
      g2.gcstate = GCSswpallgc ∧ g2.gcstate ≠ GCSatomic ∧ g2.gcstopem = 0) ∧
    (singlestep exEnv 32 exAtom 1).map (fun r => (r.1.gcstate, r.1.gcstopem, r.2)) =
      some (GCSswpallgc, 0, 7) := by
  refine ⟨?_, by rfl⟩
  have W := singlestep_cycle exEnv
    (fun s a s2 r hp => by
      simp only [exEnv, Option.some.injEq, Prod.mk.injEq] at hp
      exact Or.inl (by rw [← hp.1]))
    32 exAtom 1 (by decide) (by decide)
  obtain ⟨g2, w, hg⟩ := W.2 [1, 2, 3, 4, 5, 6, 7] [1, 5, 4, 3, 6] [] [2] [7] exAtom_wf
    exAtom_within (fun _ => exAtom_shape) exAtom_lists ⟨[], [], rfl, rfl⟩ ⟨_, rfl⟩ ⟨_, rfl⟩
    exAtom_registry exAtom_mt exAtom_strcache (by decide)
    (fun _ g1 w1 h1 => by
      have k : (atomic exEnv 32 { exAtom with gcstopem := 1 } 1).map
          (fun r => deadOpenIn r.1 [1, 2, 3, 4, 5, 6, 7]) = some false := by rfl
      rw [h1] at k
      exact Option.some.inj k)
    (fun c => by
      rcases c with c | c | c <;> exact absurd c (by decide))
    (fun c => absurd c (by decide))
  have R := W.1 g2 w hg
  exact ⟨g2, w, hg, R.2.2.1 rfl, R.2.2.2.2.2.2.2.2⟩

/-- A finalizer call leaves the collector state and the sweep cursor as they
were, when the protected call does. -/
theorem GCTM_sw (env : Env)
    (hfin : ∀ s a s2 r, env.luaD_pcall s a = some (s2, r) → sw s2 = sw s)
    (g g2 : global_State) (L : Addr) (h : GCTM env g L = some g2) : sw g2 = sw g := by
  unfold GCTM at h
  simp only [Option.bind_eq_bind, Option.bind_eq_some] at h
  obtain ⟨⟨g1, v⟩, h1, vo, -, tm, -, h⟩ := h
  have i1 := udata2finalize_sw _ _ _ h1
  split at h
  · simp only [Option.bind_eq_bind, Option.bind_eq_some] at h
    obtain ⟨l0, -, g6, h6, ⟨g7, status⟩, h7, h⟩ := h
    rw [GCTM_leave_sw _ _ _ _ _ _ h, hfin _ _ _ _ h7, GCTM_enter_sw _ _ _ _ _ h6]
    exact i1
  · cases h
    exact i1

theorem callallpendingfinalizers_sw (env : Env)
    (hfin : ∀ s a s2 r, env.luaD_pcall s a = some (s2, r) → sw s2 = sw s)
    (L : Addr) (fuel : Nat) : ∀ (g g2 : global_State),
    callallpendingfinalizers env L fuel g = some g2 → sw g2 = sw g := by
  induction fuel with
  | zero => intro g g2 h; simp [callallpendingfinalizers] at h
  | succ n ih =>
    intro g g2 h
    rw [callallpendingfinalizers] at h
    split at h
    · cases h
      rfl
    · simp only [Option.bind_eq_bind, Option.bind_eq_some] at h
      obtain ⟨g1, h1, h⟩ := h
      exact (ih _ _ h).trans (GCTM_sw env hfin _ _ _ h1)

/-- The function `finishgencycle` leaves the collector in `GCSpropagate` with
the sweep cursor it found. -/
theorem finishgencycle_sw (env : Env)
    (hfin : ∀ s a s2 r, env.luaD_pcall s a = some (s2, r) → sw s2 = sw s)
    (fuel : Nat) (L : Addr) (g g2 : global_State) (h : finishgencycle env fuel L g = some g2) :
    sw g2 = (GCSpropagate, g.sweepgc) := by
  unfold finishgencycle at h
  simp only [Option.bind_eq_bind, Option.bind_eq_some] at h
  obtain ⟨g6, h6, h⟩ := h
  have e6 : g6.sweepgc = g.sweepgc :=
    congrArg Prod.snd (sw_of_ctl _ _ (correctgraylists_quiet _ _ _ h6).2)
  have e7 : (checkSizes g6).sweepgc = g.sweepgc :=
    (congrArg Prod.snd (checkSizes_sw g6)).trans e6
  have e8 : sw { checkSizes g6 with gcstate := GCSpropagate } = (GCSpropagate, g.sweepgc) := by
    show (GCSpropagate, (checkSizes g6).sweepgc) = _
    rw [e7]
  split at h
  · exact (callallpendingfinalizers_sw env hfin L fuel _ _ h).trans e8
  · cases h
    exact e8

/-- The function `atomic2gen` leaves the collector in `GCSpropagate` with the
sweep cursor it found. -/
theorem atomic2gen_sw (env : Env)
    (hfin : ∀ s a s2 r, env.luaD_pcall s a = some (s2, r) → sw s2 = sw s)
    (fuel : Nat) (L : Addr) (g g2 : global_State) (h : atomic2gen env fuel L g = some g2) :
    sw g2 = (GCSpropagate, g.sweepgc) := by
  unfold atomic2gen at h
  simp only [Option.bind_eq_bind, Option.bind_eq_some] at h
  obtain ⟨g1, h1, g3, h3, g5, h5, h⟩ := h
  have e1 : g1.sweepgc = g.sweepgc := congrArg Prod.snd (sweep2old_sw _ _ _ _ h1)
  have e3 : g3.sweepgc = g.sweepgc := (congrArg Prod.snd (sweep2old_sw _ _ _ _ h3)).trans e1
  have e5 : g5.sweepgc = g.sweepgc := (congrArg Prod.snd (sweep2old_sw _ _ _ _ h5)).trans e3
  rw [finishgencycle_sw env hfin fuel L _ g2 h]
  exact congrArg (fun c => (GCSpropagate, c)) e5

/-- C40. The sweep cursor is `NULL` outside the list-sweeping states.  Let the
protected call of a finalizer keep that invariant (`sweepgc` is `NULL`
whenever `gcstate` is pause, propagate, enteratomic, swpend or callfin) and
let `luaE_setdebt` change only the byte counts.  Then the invariant still
holds after `singlestep` and `luaC_checkfinalizer` from any state, after
`enterinc` from the state its callers call it in (generational mode, where
the collector rests in `GCSpropagate`), and after `luaC_fullgc` in
incremental and in generational mode.  The assertion at the start of
`entersweep` holds in the state `singlestep` calls it in (after `atomic`,
from `GCSenteratomic`), in the state `fullinc` calls it in (`gcstate` is
propagate or enteratomic: `GCSatomic` is left inside the step that enters
it), and in the state `stepgenfull` calls it in.  The generational mode does
rest in `GCSpropagate` with the cursor `NULL`: `finishgencycle` and
`atomic2gen`, which end every collection of that mode, return there when
the calls of finalizers leave `gcstate` and `sweepgc` alone. -/
theorem sweepgc_idle (luaE_setdebt : global_State → Int → global_State) (env : Env)
    (hdebt : DebtOnly luaE_setdebt)
    (hfin : ∀ s a s2 r, env.luaD_pcall s a = some (s2, r) → SweepIdle s → SweepIdle s2) :
    (∀ fuel g L g2 w, SweepIdle g → singlestep env fuel g L = some (g2, w) → SweepIdle g2) ∧
    (∀ fuel g o mt g2, SweepIdle g → luaC_checkfinalizer fuel g o mt = some g2 →
      SweepIdle g2) ∧
    (∀ fuel g g2, SweepIdle g → g.gcstate = GCSpropagate → enterinc fuel g = some g2 →
      SweepIdle g2 ∧ g2.sweepgc = none) ∧
    (∀ fuel g L em g2, SweepIdle g → (g.gckind ≠ KGC_INC → g.gcstate = GCSpropagate) →
      luaC_fullgc luaE_setdebt env fuel g L em = some g2 → SweepIdle g2) ∧
    (∀ fuel g L g1 w, SweepIdle g → g.gcstate = GCSenteratomic →
      atomic env fuel { g with gcstopem := 1 } L = some (g1, w) → entersweep_assert g1) ∧
    (∀ g, SweepIdle g → keepinvariant g = true → g.gcstate ≠ GCSatomic →
      entersweep_assert g) ∧
    (∀ fuel L g g3 n, SweepIdle g → (g.gckind = KGC_GEN → g.gcstate = GCSpropagate) →
      stepgenfull_mark env fuel L g = some (g3, n) →
      entersweep_assert { g3 with GCestimate := gettotalbytes g3 }) ∧
    ((∀ s a s2 r, env.luaD_pcall s a = some (s2, r) → sw s2 = sw s) →
      ∀ fuel L g g2, g.sweepgc = none →
        (finishgencycle env fuel L g = some g2 ∨ atomic2gen env fuel L g = some g2) →
        g2.gcstate = GCSpropagate ∧ g2.sweepgc = none) := by
  refine ⟨?_, ?_, ?_, ?_, ?_, ?_, ?_, ?_⟩
  · intro fuel g L g2 w hI h
    exact singlestep_idle env hfin fuel g L g2 w hI h
  · intro fuel g o mt g2 hI h
    exact luaC_checkfinalizer_idle fuel g o mt g2 hI h
  · intro fuel g g2 hI hst h
    have e := enterinc_sw fuel g g2 h
    have e2 : g2.sweepgc = g.sweepgc := congrArg Prod.snd e
    have hn : g2.sweepgc = none := e2.trans (hI (Or.inr (Or.inl hst)))
    exact ⟨sweepIdle_none _ hn, hn⟩
  · intro fuel g L em g2 hI hgen h
    exact luaC_fullgc_idle _ hdebt env hfin fuel g L em g2 hI
      (fun k => hI (Or.inr (Or.inl (hgen k)))) h
  · intro fuel g L g1 w hI hst h
    have e0 := atomic_sweepgc _ _ _ _ _ _ h
    have e : g1.sweepgc = g.sweepgc := e0
    exact e.trans (hI (Or.inr (Or.inr (Or.inl hst))))
  · intro g hI hk hna
    have hle : g.gcstate ≤ GCSatomic := by
      unfold keepinvariant at hk
      exact of_decide_eq_true hk
    have h2 : g.gcstate ≤ 2 := hle
    have h3 : g.gcstate ≠ 2 := hna
    have hc : g.gcstate = GCSpropagate ∨ g.gcstate = GCSenteratomic := by
      simp only [GCSpropagate, GCSenteratomic]
      omega
    rcases hc with k | k
    · exact hI (Or.inr (Or.inl k))
    · exact hI (Or.inr (Or.inr (Or.inl k)))
  · intro fuel L g g3 n hI hgen h
    exact stepgenfull_mark_sweepgc env hfin fuel L g g3 n hI
      (fun k => hI (Or.inr (Or.inl (hgen k)))) h
  · intro hsw fuel L g g2 hn h
    have e : sw g2 = (GCSpropagate, g.sweepgc) := by
      rcases h with h | h
      · exact finishgencycle_sw env hsw fuel L g g2 h
      · exact atomic2gen_sw env hsw fuel L g g2 h
    exact ⟨congrArg Prod.fst e, (congrArg Prod.snd e).trans hn⟩

/-- C40 at the concrete state `exAtom`, about to enter the atomic phase with
an idle cursor, a running main thread with an open upvalue on `twups` and a
userdata awaiting its finalizer: the step returns in `GCSswpallgc` with the
cursor in `allgc`, the assertion of `entersweep` holds where the step calls
it, and the full collection returns in `GCSpause` with the cursor `NULL`. -/
theorem sweepgc_idle_witness :
    SweepIdle exAtom ∧
    (∃ g2 w, singlestep exEnv 32 exAtom 1 = some (g2, w) ∧ SweepIdle g2) ∧
    (∃ g1 w, atomic exEnv 32 { exAtom with gcstopem := 1 } 1 = some (g1, w) ∧
      entersweep_assert g1) ∧
    (∃ g2, luaC_fullgc exSetdebt exEnv 200 exAtom 1 0 = some g2 ∧ SweepIdle g2) ∧
    (singlestep exEnv 32 exAtom 1).map (fun r => sw r.1) =
      some (GCSswpallgc, some (.next 1)) ∧
    (luaC_fullgc exSetdebt exEnv 200 exAtom 1 0).map sw = some (GCSpause, none) := by
  have hI : SweepIdle exAtom := fun _ => rfl
  have key := sweepgc_idle exSetdebt exEnv exSetdebt_debtonly (fun s a s2 r k hs => by
    have k2 : some (s, LUA_OK) = some (s2, r) := k
    simp only [Option.some.injEq, Prod.mk.injEq] at k2
    rw [← k2.1]
    exact hs)
  have h1 : (singlestep exEnv 32 exAtom 1).isSome = true := by rfl
  obtain ⟨⟨g2, w⟩, e1⟩ := Option.isSome_iff_exists.1 h1
  have h2 : (atomic exEnv 32 { exAtom with gcstopem := 1 } 1).isSome = true := by rfl
  obtain ⟨⟨g1, w1⟩, e2⟩ := Option.isSome_iff_exists.1 h2
  have h3 : (luaC_fullgc exSetdebt exEnv 200 exAtom 1 0).isSome = true := by rfl
  obtain ⟨g3, e3⟩ := Option.isSome_iff_exists.1 h3
  exact ⟨hI, ⟨g2, w, e1, key.1 32 exAtom 1 g2 w hI e1⟩,
    ⟨g1, w1, e2, key.2.2.2.2.1 32 exAtom 1 g1 w1 hI rfl e2⟩,
    ⟨g3, e3, key.2.2.2.1 200 exAtom 1 0 g3 hI (fun k => absurd rfl k) e3⟩, by rfl, by rfl⟩

theorem exAtom_safe : TbfSafe exAtom [2] := by
  refine ⟨⟨[1, 5, 4, 3, 6], [], [7], exAtom_lists⟩, Or.inl rfl, ?_⟩
  intro a ha x hx
  rw [List.mem_singleton] at ha
  subst ha
  have e : exAtom.heap 2 = some { exObj .LUA_VUSERDATA 96 none with metatable := some 3 } := rfl
  rw [e] at hx
  cases hx
  rfl

/-- C14 at the concrete state `exAtom`, whose running main thread has an open
upvalue and is on `twups` and whose userdata 2 awaits its finalizer: the
emergency full collection returns in `GCSpause` and leaves the userdata live
at the head of `tobefnz`, with `gcemergency` 0 again; the full collection
that is no emergency calls the finalizer and empties `tobefnz`. -/
theorem luaC_fullgc_emergency_witness :
    (∃ g2, luaC_fullgc exSetdebt exEnv 60 exAtom 1 1 = some g2 ∧
      (∃ ext, IsList g2.heap g2.tobefnz ([2] ++ ext)) ∧ (g2.heap 2).isSome ∧
      g2.gcemergency = 0) ∧
    (luaC_fullgc exSetdebt exEnv 60 exAtom 1 1).map
      (fun g => (g.gcstate, g.tobefnz, g.gcemergency, (g.heap 2).isSome)) =
      some (GCSpause, some 2, 0, true) ∧
    (luaC_fullgc exSetdebt exEnv 60 exAtom 1 0).map (fun g => (g.gcstate, g.tobefnz)) =
      some (GCSpause, none) := by
  refine ⟨?_, by rfl, by rfl⟩
  have h : (luaC_fullgc exSetdebt exEnv 60 exAtom 1 1).isSome = true := by rfl
  obtain ⟨r, hr⟩ := Option.isSome_iff_exists.1 h
  obtain ⟨⟨ext, hl, -⟩, hlive, hem, -⟩ :=
    luaC_fullgc_emergency exSetdebt exEnv 60 exAtom 1 [2] r exSetdebt_debtonly exAtom_safe hr
  exact ⟨r, hr, ⟨ext, hl⟩, hlive 2 (List.mem_singleton.2 rfl), hem⟩

/-- C39 at the concrete state `exAtom`, whose running main thread has an open
upvalue and is on `twups`: the incremental full collection returns, the
estimate is exact in the state in which it reached `GCScallfin`, and at the
end the estimate and the bytes in use are both 1000. -/
theorem fullinc_estimate_witness :
    (∃ (g2 g3 g5 : global_State), fullinc exSetdebt exEnv 60 1 exAtom = some g2 ∧
      luaC_runtilstate exEnv 60 1 (bitmask GCScallfin) 60
        { g3 with gcstate := GCSenteratomic } = some g5 ∧
      g5.gcstate = GCScallfin ∧ g5.GCestimate = gettotalbytes g5) ∧
    (fullinc exSetdebt exEnv 60 1 exAtom).map
      (fun g => (g.gcstate, g.GCestimate, gettotalbytes g)) = some (GCSpause, 1000, 1000) := by
  refine ⟨?_, by rfl⟩
  have h : (fullinc exSetdebt exEnv 60 1 exAtom).isSome = true := by rfl
  obtain ⟨g2, e⟩ := Option.isSome_iff_exists.1 h
  obtain ⟨⟨g1, ga, g3, g5, -, -, -, h5, k1, k2, -⟩, -⟩ :=
    fullinc_estimate exSetdebt exEnv 60 1 exAtom g2 e
  exact ⟨g2, g3, g5, e, h5, k1, k2⟩

/-- The amended C3 at concrete inputs.  In the state `exAtom` an allocator
with room hands out the fresh block 9 at the first try, and the table is
linked at the head of `allgc` with nothing else changed.  With the allocator
`exAlloc`, which has no room while the string 6 is live, the first try fails,
the emergency collection frees the string, the second try hands out the
block 9, and the table is linked in the state the collection left. -/
theorem luaC_newobjdt_spec_witness :
    (∃ g2, luaC_newobjdt exSetdebt exEnv 60 (fun _ _ => some 9) exAtom 1 .LUA_VTABLE 56
        (GCObject.blank .LUA_VTABLE) = some (g2, some 9) ∧ NewObj exAtom g2 .LUA_VTABLE 9) ∧
    (∃ g0 g2, luaC_fullgc exSetdebt exEnv 60 exAtom 1 1 = some g0 ∧
      luaC_newobjdt exSetdebt exEnv 60 exAlloc exAtom 1 .LUA_VTABLE 56
        (GCObject.blank .LUA_VTABLE) = some (g2, some 9) ∧ NewObj g0 g2 .LUA_VTABLE 9) ∧
    (luaC_newobjdt exSetdebt exEnv 60 (fun _ _ => some 9) exAtom 1 .LUA_VTABLE 56
        (GCObject.blank .LUA_VTABLE)).map
      (fun r => (r.2, r.1.gcstate, r.1.allgc, (r.1.heap 9).map (fun x => (x.marked, x.next))))
      = some (some 9, GCSenteratomic, some 9, some (8, some 1)) := by
  refine ⟨?_, ?_, by rfl⟩
  · exact (luaC_newobjdt_spec exSetdebt exEnv 60 (fun _ _ => some 9) exAtom 1 .LUA_VTABLE 56
      (GCObject.blank .LUA_VTABLE)).1 9 rfl rfl
  · have k : (luaC_fullgc exSetdebt exEnv 60 exAtom 1 1).map
        (fun s => (exAlloc s 56, (s.heap 9).isSome)) = some (some 9, false) := by rfl
    simp only [Option.map_eq_some', Prod.mk.injEq] at k
    obtain ⟨g0, hgc, h0, h9⟩ := k
    have hp : g0.heap 9 = none := by
      cases e : g0.heap 9 with
      | none => rfl
      | some x =>
        rw [e] at h9
        cases h9
    obtain ⟨g2, e2, hN⟩ := (luaC_newobjdt_spec exSetdebt exEnv 60 exAlloc exAtom 1 .LUA_VTABLE 56
      (GCObject.blank .LUA_VTABLE)).2.1 g0 9 rfl rfl hgc h0 hp
    exact ⟨g0, g2, hgc, e2, hN⟩

/-- Counterexample to C3 as stated: in `exAtom`, with the allocator
`exAlloc`, the first try fails and `gcstopem` is 0, so the call runs an
emergency collection before it links the table 9.  When it returns,
`gcstate` is `GCSpause` and no longer `GCSenteratomic`, the string 6 of the
previous `allgc` list is gone, so that list is not the tail of the new one,
and the mark of the untouched table 3 has changed. -/
theorem luaC_newobjdt_spec_counterexample :
    exAlloc exAtom 56 = none ∧ exAtom.gcstopem = 0 ∧ exAtom.heap 9 = none ∧
    IsList exAtom.heap exAtom.allgc [1, 5, 4, 3, 6] ∧
    ∃ g2, luaC_newobjdt exSetdebt exEnv 60 exAlloc exAtom 1 .LUA_VTABLE 56
        (GCObject.blank .LUA_VTABLE) = some (g2, some 9) ∧
      g2.gcstate ≠ exAtom.gcstate ∧
      ¬ IsList g2.heap g2.allgc (9 :: [1, 5, 4, 3, 6]) ∧
      (g2.heap 3).map (fun x => x.marked) ≠ (exAtom.heap 3).map (fun x => x.marked) := by
  refine ⟨rfl, rfl, rfl, exAtom_lists.1, ?_⟩
  have k : (luaC_newobjdt exSetdebt exEnv 60 exAlloc exAtom 1 .LUA_VTABLE 56
      (GCObject.blank .LUA_VTABLE)).map
      (fun r => (r.2, r.1.gcstate, (r.1.heap 6).isSome, (r.1.heap 3).map (fun x => x.marked)))
      = some (some 9, GCSpause, false, some 16) := by rfl
  simp only [Option.map_eq_some', Prod.mk.injEq] at k
  obtain ⟨⟨g2, b⟩, e, k1, k2, k3, k4⟩ := k
  have hb : b = some 9 := k1
  subst hb
  refine ⟨g2, e, ?_, ?_, ?_⟩
  · have k2b : g2.gcstate = GCSpause := k2
    rw [k2b]
    decide
  · intro hl
    obtain ⟨x, hx⟩ := isList_live _ _ _ hl 6 (by simp)
    have k3b : (g2.heap 6).isSome = false := k3
    rw [hx] at k3b
    cases k3b
  · obtain ⟨x3, h3, hm⟩ := k4
    have h3b : g2.heap 3 = some x3 := h3
    rw [h3b]
    show some x3.marked ≠ some 32
    rw [hm]
    decide

end LuaGC
